import Mathlib

/-! hybrid_shared_ptr: a shallow embedding.

Embedding of `stack-aware-objects/hybrid-smart-pointers/hybrid_smart_pointer.h`
(and of `is_address_in_stack.cpp`, which it calls).

* A handle (`hybrid_shared_ptr<T>`) is two 64-bit words stored at its address:
  `ptr_to_obj_or_root_ptr_on_stack` at offset 0 and `ptr.address` (the
  `versatile_ptr`) at offset 8.
* Memory is explicit: `World.mem` maps the address of every live handle to its
  two words, `World.heap` maps the address of every live `shared_data` block to
  its fields.  Reading through a pointer to something that is not live is
  undefined behaviour and is reported as `Fault.invalid`.
* `assert` is modelled as a check that stops the run with `Fault.assertion`.
* `operator new` for `shared_data` is an input of the copy constructor: the
  address it returns, or `none` when it throws `std::bad_alloc`.
* Calls of the deleter are recorded in `World.deleted`.
-/

namespace Hybrid

/-! ## Environment: stack limits, CRT heap oracle, deleter address -/

/-- The things the code takes from its environment: the limits returned by
`GetCurrentThreadStackLimits` (with the two assertions made on them when they are
cached), the answer of `_CrtIsValidHeapPointer`, and the address of
`make_deleter<T>::deleter`. -/
structure Env where
  stack_low_limit : Nat
  stack_high_limit : Nat
  low_pos : 0 < stack_low_limit
  low_lt_high : stack_low_limit < stack_high_limit
  CrtIsValidHeapPointer : Nat → Bool
  deleter : Nat

/-- `is_address_in_stack` of is_address_in_stack.cpp. -/
def is_address_in_stack (env : Env) (addr : Nat) : Bool :=
  decide (addr ≥ env.stack_low_limit) && decide (addr ≤ env.stack_high_limit)

/-- `is_address_in_cpp_heap` of hybrid_smart_pointer.h. -/
def is_address_in_cpp_heap (env : Env) (addr : Nat) : Bool :=
  !is_address_in_stack env addr && env.CrtIsValidHeapPointer addr

/-! ## Data -/

/-- `flags::IsLinkedPtr = (1LL << 63)`. -/
def IsLinkedPtr : Nat := 1 <<< 63

/-- `flags::IsDeleterPtr = (1LL << 62)`. -/
def IsDeleterPtr : Nat := 1 <<< 62

/-- `size_t(-1)` on the 64-bit target required by the `static_assert`. -/
def size_t_max : Nat := 2 ^ 64 - 1

/-- Modulus of `unsigned int`. -/
def UINT : Nat := 2 ^ 32

/-- `++x` on an `unsigned int`. -/
def pre_increment (x : Nat) : Nat := (x + 1) % UINT

/-- `--x` on an `unsigned int`: it wraps to `UINT_MAX` at zero. -/
def pre_decrement (x : Nat) : Nat := if x = 0 then UINT - 1 else (x - 1) % UINT

/-- The two data members of a `hybrid_shared_ptr<T>`; `ptr` is the `address` word of
the `versatile_ptr` member. -/
structure hybrid_shared_ptr where
  ptr_to_obj_or_root_ptr_on_stack : Nat
  ptr : Nat
deriving DecidableEq, Repr

/-- `struct shared_data`: `ref_count` is an `unsigned int`, `deleter` the wrapped
function address. -/
structure shared_data where
  ref_count : Nat
  deleter : Nat
deriving DecidableEq, Repr

/-- Program state: live handles, live `shared_data` blocks, the global
`total_nb_allocs`, and the log of deleter calls `(function address, object)`,
most recent first. -/
structure World where
  mem : Nat → Option hybrid_shared_ptr
  heap : Nat → Option shared_data
  total_nb_allocs : Nat
  deleted : List (Nat × Nat)

/-- Ways an operation can stop: a failed `assert`, an access to a handle or block
that is not live, or `std::bad_alloc` (with the state reached when it is thrown). -/
inductive Fault where
  | assertion : Fault
  | invalid : Fault
  | bad_alloc : World → Fault

abbrev Res (α : Type) : Type := Except Fault α

/-- Models `assert(c)`. -/
def check (c : Bool) : Res Unit :=
  if c then Except.ok () else Except.error Fault.assertion

/-- Address of the `ptr` member of the handle at address `this`. -/
def ptr_addr (this : Nat) : Nat := this + 8

namespace World

/-- The empty program state. -/
def empty : World := ⟨fun _ => none, fun _ => none, 0, []⟩

/-- Read the handle stored at `p`. -/
def rd (w : World) (p : Nat) : Res hybrid_shared_ptr :=
  match w.mem p with
  | some h => Except.ok h
  | none => Except.error Fault.invalid

/-- Read the `shared_data` block stored at `d`. -/
def rd_data (w : World) (d : Nat) : Res shared_data :=
  match w.heap d with
  | some b => Except.ok b
  | none => Except.error Fault.invalid

/-- Store the two words of the handle at `p`. -/
def wr (w : World) (p : Nat) (h : hybrid_shared_ptr) : World :=
  { w with mem := fun a => if a = p then some h else w.mem a }

/-- Store the first word of the live handle at `p`. -/
def wr_obj (w : World) (p : Nat) (v : Nat) : Res World := do
  let h ← w.rd p
  pure (w.wr p { h with ptr_to_obj_or_root_ptr_on_stack := v })

/-- Store the `ptr.address` word of the live handle at `p`. -/
def wr_ptr (w : World) (p : Nat) (v : Nat) : Res World := do
  let h ← w.rd p
  pure (w.wr p { h with ptr := v })

/-- End of the storage of the handle at `p`. -/
def release (w : World) (p : Nat) : World :=
  { w with mem := fun a => if a = p then none else w.mem a }

/-- Store a `shared_data` block at `d`. -/
def wr_data (w : World) (d : Nat) (b : shared_data) : World :=
  { w with heap := fun a => if a = d then some b else w.heap a }

/-- The statement `delete data`. -/
def free_data (w : World) (d : Nat) : World :=
  { w with heap := fun a => if a = d then none else w.heap a }

/-- The expression `new shared_data(del)` when `operator new` returns `d`: the
constructor sets `ref_count(1)`, `deleter(del)` and runs `total_nb_allocs += 1`. -/
def new_shared_data (w : World) (d del : Nat) : World :=
  { w with
    heap := fun a => if a = d then some ⟨1, del⟩ else w.heap a
    total_nb_allocs := pre_increment w.total_nb_allocs }

/-- A call `deleter(obj)` through the function address `del`. -/
def call_deleter (w : World) (del obj : Nat) : World :=
  { w with deleted := (del, obj) :: w.deleted }

end World

/-! ## versatile_ptr -/

namespace versatile_ptr

def is_null (address : Nat) : Bool := address == 0

def is_shared_data (address : Nat) : Bool :=
  let mask := IsLinkedPtr ||| IsDeleterPtr
  (address != 0) && ((address &&& mask) == 0)

/-- The argument `this` is the address of the `versatile_ptr` itself. -/
def is_linked_ptr (env : Env) (this address : Nat) : Res Bool := do
  let b := (address &&& IsLinkedPtr) != 0
  check (!b || is_address_in_stack env this)
  pure b

def is_deleter_ptr (address : Nat) : Bool := (address &&& IsDeleterPtr) != 0

def get_shared_data (env : Env) (address : Nat) : Res Nat := do
  check (!is_null address && is_shared_data address)
  check (is_address_in_cpp_heap env address)
  pure address

/-- Returns the new value of `address`. -/
def set_shared_data (address data : Nat) : Res Nat := do
  check (is_null address || is_deleter_ptr address)
  pure data

def get_linked_ptr (env : Env) (this address : Nat) : Res Nat := do
  if is_null address then Except.error Fault.assertion
  else
    check (← is_linked_ptr env this address)
    pure (address &&& (size_t_max ^^^ (IsLinkedPtr ||| IsDeleterPtr)))

def get_deleter_ptr (address : Nat) : Res Nat := do
  check (!is_null address && is_deleter_ptr address)
  pure (address &&& (size_t_max ^^^ IsDeleterPtr))

/-- Returns the new value of `address`. -/
def set_deleter_ptr (env : Env) (this address del : Nat) : Res Nat := do
  if !is_null address then
    check (!is_address_in_stack env (← get_linked_ptr env this address))
  let address := del ||| IsDeleterPtr
  check ((← get_deleter_ptr address) == del)
  pure address

/-- Returns the new value of `address`; `other` is a handle address. -/
def link_to_global_ptr_on_heap (env : Env) (address other : Nat) : Res Nat := do
  check (is_null address && is_address_in_cpp_heap env other)
  pure (other ||| IsLinkedPtr ||| IsDeleterPtr)

end versatile_ptr

open versatile_ptr

/-! ## hybrid_shared_ptr: private members -/

def is_obj (h : hybrid_shared_ptr) : Bool :=
  (h.ptr_to_obj_or_root_ptr_on_stack != 0) &&
    ((h.ptr_to_obj_or_root_ptr_on_stack &&& IsLinkedPtr) == 0)

def obj (env : Env) (h : hybrid_shared_ptr) : Res Nat := do
  check (is_obj h)
  let o := h.ptr_to_obj_or_root_ptr_on_stack
  check (is_address_in_cpp_heap env o)
  pure o

def is_crosslinked (env : Env) (this : Nat) (h : hybrid_shared_ptr) : Res Bool := do
  check (!is_address_in_stack env this)
  pure ((h.ptr_to_obj_or_root_ptr_on_stack &&& IsLinkedPtr) != 0)

def get_stack_root_ptr (env : Env) (w : World) (this : Nat) : Res Nat := do
  let h ← w.rd this
  check (!is_null h.ptr && is_address_in_stack env this)
  if (← is_linked_ptr env (ptr_addr this) h.ptr) && !is_deleter_ptr h.ptr then
    get_linked_ptr env (ptr_addr this) h.ptr
  else
    pure this

def get_crosslinked_ptr (env : Env) (w : World) (this : Nat) : Res Nat := do
  let h ← w.rd this
  check (← is_crosslinked env this h)
  let crosslinked_ptr := h.ptr_to_obj_or_root_ptr_on_stack &&& (size_t_max ^^^ IsLinkedPtr)
  check (!is_address_in_cpp_heap env crosslinked_ptr)
  check (crosslinked_ptr == (← get_stack_root_ptr env w crosslinked_ptr))
  pure crosslinked_ptr

def get_global_root_ptr (env : Env) (w : World) (this : Nat) : Res Nat := do
  let h ← w.rd this
  if is_shared_data h.ptr then
    let data ← w.rd_data (← get_shared_data env h.ptr)
    check (data.ref_count == 1)
  let root ← if is_null h.ptr then pure this else get_stack_root_ptr env w this
  let r ← w.rd root
  if (← is_linked_ptr env (ptr_addr root) r.ptr) then
    get_linked_ptr env (ptr_addr root) r.ptr
  else
    check (is_address_in_stack env root || root == this)
    pure root

/-- `nb` is what `operator new` returns for the `shared_data`, `none` when it throws. -/
def create_shared_data (env : Env) (w : World) (this : Nat) (nb : Option Nat) : Res World := do
  let h ← w.rd this
  check ((← obj env h) != 0 && is_deleter_ptr h.ptr)
  let del ← get_deleter_ptr h.ptr
  match nb with
  | none => Except.error (Fault.bad_alloc w)
  | some data =>
    let w := w.new_shared_data data del
    let a ← set_shared_data h.ptr data
    w.wr_ptr this a

/-- `versatile_ptr::inc_ref`, on the `ptr` of the handle at `this`, with `other.ptr`
the `ptr` of the handle at `other`. -/
def inc_ref (env : Env) (w : World) (this other : Nat) : Res World := do
  let h ← w.rd this
  let o ← w.rd other
  check (is_null h.ptr && !is_null o.ptr)
  let a ← set_shared_data h.ptr (← get_shared_data env o.ptr)
  let w ← w.wr_ptr this a
  let h ← w.rd this
  let d ← get_shared_data env h.ptr
  let data ← w.rd_data d
  pure (w.wr_data d { data with ref_count := pre_increment data.ref_count })

def cross_link_to_unique_instance_not_in_stack (env : Env) (w : World) (this other : Nat) :
    Res World := do
  let o ← w.rd other
  check (!(← is_crosslinked env other o))
  let h ← w.rd this
  check (is_null h.ptr && is_obj o)
  check (is_address_in_stack env this && !is_address_in_stack env other)
  let a ← link_to_global_ptr_on_heap env h.ptr other
  let w ← w.wr_ptr this a
  -- we link back this pointer to us
  w.wr_obj other (this ||| IsLinkedPtr)

def undo_cross_link (env : Env) (w : World) (this o : Nat) : Res World := do
  let h ← w.rd this
  check ((← is_linked_ptr env (ptr_addr this) h.ptr) && is_address_in_cpp_heap env o)
  let other ← get_linked_ptr env (ptr_addr this) h.ptr
  let oh ← w.rd other
  check (← is_crosslinked env other oh)
  let w ← w.wr_obj other o
  w.wr_ptr this 0

/-- `versatile_ptr::set_linked_ptr` on the `ptr` of the handle at `this`. -/
def set_linked_ptr (env : Env) (w : World) (this other : Nat) : Res World := do
  check (is_address_in_stack env (ptr_addr this) && is_address_in_stack env other)
  let r ← get_stack_root_ptr env w other
  w.wr_ptr this (r ||| IsLinkedPtr)

def link_to_ptr_on_stack (env : Env) (w : World) (this other : Nat) : Res World := do
  check (is_address_in_stack env this && is_address_in_stack env other)
  let w ← set_linked_ptr env w this other
  let oh ← w.rd other
  w.wr_obj this (← obj env oh)

/-! ## hybrid_shared_ptr: public members -/

/-- `hybrid_shared_ptr(T * t = nullptr)` run on the storage at `this`. -/
def ctor (env : Env) (w : World) (this t : Nat) : Res World := do
  let w := w.wr this ⟨t, 0⟩
  let h ← w.rd this
  if is_obj h then
    -- get the address of the deleter for T type
    let a ← set_deleter_ptr env (ptr_addr this) h.ptr env.deleter
    w.wr_ptr this a
  else
    pure w

/-- `hybrid_shared_ptr(hybrid_shared_ptr & other)` run on the storage at `this`. -/
def copy_ctor (env : Env) (w : World) (this other : Nat) (nb : Option Nat) : Res World := do
  let o ← w.rd other
  let w := w.wr this ⟨o.ptr_to_obj_or_root_ptr_on_stack, 0⟩
  if is_obj (← w.rd other) then -- not crosslinked
    let w ←
      if is_address_in_stack env this then
        if is_address_in_stack env other then do
          let w ← link_to_ptr_on_stack env w this other
          check ((← get_stack_root_ptr env w this) == (← get_stack_root_ptr env w other))
          pure w
        else if is_deleter_ptr (← w.rd other).ptr then do
          let oh ← w.rd other
          check (!is_shared_data oh.ptr && !(← is_crosslinked env other oh))
          let w ← cross_link_to_unique_instance_not_in_stack env w this other
          check ((← get_global_root_ptr env w this) == other)
          pure w
        else pure w
      else pure w
    if is_null (← w.rd this).ptr then -- nothing was done so far
      if is_shared_data (← w.rd other).ptr then
        -- classic reference counting already in place
        inc_ref env w this other
      else
        -- create the shared data if not already done
        let root ← get_global_root_ptr env w other
        let w ←
          if !is_shared_data (← w.rd root).ptr then create_shared_data env w root nb
          else pure w
        -- link to the shared data + increase the counter
        inc_ref env w this root
    else
      pure w
  else if (← is_crosslinked env other (← w.rd other)) then
    check (is_address_in_cpp_heap env other)
    -- we are copying from a unique ptr on heap that is already crosslinked
    let crosslink ← get_crosslinked_ptr env w other
    let w ←
      if is_address_in_stack env this && is_address_in_stack env crosslink then do
        -- the stack is supposed to grow downwards
        check (decide (this > crosslink))
        let w ← link_to_ptr_on_stack env w this crosslink
        check ((← get_stack_root_ptr env w this) == crosslink)
        pure w
      else do
        -- we need to create the shared data and fix the pointers
        let w ← w.wr_obj other (← obj env (← w.rd crosslink))
        let w ← create_shared_data env w other nb
        -- reference the object + increase the counter
        inc_ref env w this other
    check (is_obj (← w.rd this))
    pure w
  else
    pure w

/-- `~hybrid_shared_ptr()` run on the handle at `this`; the storage itself is
still there afterwards. -/
def dtor (env : Env) (w : World) (this : Nat) : Res World := do
  let h ← w.rd this
  if h.ptr_to_obj_or_root_ptr_on_stack != 0 then
    let w ←
      if is_obj h then
        if (← is_linked_ptr env (ptr_addr this) h.ptr) then do
          check (is_address_in_stack env this)
          if is_deleter_ptr h.ptr then
            -- we are a root stack pointer linked to a heap pointer holding the deleter
            undo_cross_link env w this (← obj env h)
          else
            -- we are a simple stack pointer linked to another (root) stack pointer
            let o ← obj env h
            let root ← get_stack_root_ptr env w this
            check (o == (← obj env (← w.rd root)))
            pure w
        else
          if is_deleter_ptr h.ptr then do
            -- we are the single (root) instance: delete the object
            let deleter ← get_deleter_ptr h.ptr
            pure (w.call_deleter deleter (← obj env h))
          else do
            -- use the shared data
            let d ← get_shared_data env h.ptr
            let data ← w.rd_data d
            let w := w.wr_data d { data with ref_count := pre_decrement data.ref_count }
            if pre_decrement data.ref_count == 0 then
              let w := w.call_deleter data.deleter (← obj env h)
              pure (w.free_data d)
            else
              pure w
      else do
        check ((← is_crosslinked env this h) && is_deleter_ptr h.ptr)
        check ((← get_global_root_ptr env w (← get_crosslinked_ptr env w this)) == this)
        -- we are the main heap instance being destroyed: we pass the deleter to
        -- (root) stack pointer we are linked to, and clear the crosslinking
        let crosslinked ← get_crosslinked_ptr env w this
        let c ← w.rd crosslinked
        check (is_obj c)
        let a ← set_deleter_ptr env (ptr_addr crosslinked) c.ptr (← get_deleter_ptr h.ptr)
        w.wr_ptr crosslinked a
    -- clear to help catch bugs
    let w ← w.wr_obj this 0
    w.wr_ptr this 0
  else
    check (is_null h.ptr)
    pure w

/-- `operator->()` on the handle at `this`. -/
def arrow (env : Env) (w : World) (this : Nat) : Res Nat := do
  let h ← w.rd this
  check (h.ptr_to_obj_or_root_ptr_on_stack != 0)
  if is_obj h then
    obj env h
  else
    check ((h.ptr_to_obj_or_root_ptr_on_stack &&& IsLinkedPtr) != 0)
    obj env (← w.rd (← get_crosslinked_ptr env w this))

/-! ## States of a handle (§3 of the specification) and their representation -/

/-- The states a handle can be in, with their payload.  The cross-linked state
has two sides: the stack side stores the object and a link to the heap handle
that holds the deleter; the heap side stores a link to its stack partner and
the deleter. -/
inductive State where
  | Null : State
  | Owning (object deleter : Nat) : State
  | LinkedToStack (object root : Nat) : State
  | CrossLinkedStack (object partner : Nat) : State
  | CrossLinkedHeap (partner deleter : Nat) : State
  | SharedCounted (object block : Nat) : State
deriving DecidableEq, Repr

/-- The two words that represent a state: what `set_deleter_ptr`,
`set_linked_ptr`, `link_to_global_ptr_on_heap`, `set_shared_data` and
`cross_link_to_unique_instance_not_in_stack` store. -/
def State.words : State → hybrid_shared_ptr
  | State.Null => ⟨0, 0⟩
  | State.Owning o d => ⟨o, d ||| IsDeleterPtr⟩
  | State.LinkedToStack o r => ⟨o, r ||| IsLinkedPtr⟩
  | State.CrossLinkedStack o g => ⟨o, g ||| IsLinkedPtr ||| IsDeleterPtr⟩
  | State.CrossLinkedHeap s d => ⟨s ||| IsLinkedPtr, d ||| IsDeleterPtr⟩
  | State.SharedCounted o b => ⟨o, b⟩

/-- An object address: not null and without the `IsLinkedPtr` bit. -/
def ObjAddr (o : Nat) : Prop := o ≠ 0 ∧ o < 2 ^ 63

/-- An address that leaves the two flag bits free. -/
def Addr62 (a : Nat) : Prop := a < 2 ^ 62

/-- The payload of a state fits its representation: addresses leave the two flag
bits free, object and block addresses are not null. -/
def State.wf : State → Prop
  | State.Null => True
  | State.Owning o d => ObjAddr o ∧ Addr62 d
  | State.LinkedToStack o r => ObjAddr o ∧ Addr62 r
  | State.CrossLinkedStack o g => ObjAddr o ∧ Addr62 g
  | State.CrossLinkedHeap s d => Addr62 s ∧ Addr62 d
  | State.SharedCounted o b => ObjAddr o ∧ b ≠ 0 ∧ Addr62 b

/-- The handle at `p` is live and in state `s`. -/
def World.in_state (w : World) (p : Nat) (s : State) : Prop :=
  w.mem p = some s.words

/-- Both words of the handle at `p` lie in the stack of the calling thread. -/
def stack_resident (env : Env) (p : Nat) : Prop :=
  is_address_in_stack env p = true ∧ is_address_in_stack env (ptr_addr p) = true

/-! ## Programs: sequences of operations on handles -/

/-- The three operations of a handle's life.  `copy_construct` carries the answer
`operator new` would give if the copy needed a `shared_data`. -/
inductive Op where
  | construct (this t : Nat) : Op
  | copy_construct (this other : Nat) (nb : Option Nat) : Op
  | destruct (this : Nat) : Op
deriving DecidableEq, Repr

/-- One operation.  A constructor runs on storage that holds no live handle, and
`operator new` returns storage that holds no live block; `destruct` runs the
destructor and ends the storage of the handle. -/
def step (env : Env) (w : World) : Op → Res World
  | Op.construct this t =>
    if (w.mem this).isSome then Except.error Fault.invalid else ctor env w this t
  | Op.copy_construct this other nb =>
    if (w.mem this).isSome || (nb.bind w.heap).isSome then Except.error Fault.invalid
    else copy_ctor env w this other nb
  | Op.destruct this => do
    let w ← dtor env w this
    pure (w.release this)

/-- A sequence of operations, run from `w`. -/
def run (env : Env) (w : World) : List Op → Res World
  | [] => pure w
  | op :: ops => do
    let w ← step env w op
    run env w ops

/-! ## Bookkeeping of a run: which handles are alive, and for which object -/

/-- What a run has created so far: the handles alive, most recently created first;
the object each handle was created for (the pointer given to `construct`, inherited
by copies; 0 for none); and the objects given to `construct` so far. -/
structure Ghost where
  live : List Nat
  object_of : Nat → Nat
  objects : List Nat

/-- Nothing created yet. -/
def Ghost.init : Ghost := ⟨[], fun _ => 0, []⟩

/-- The bookkeeping after `op`. -/
def Op.ghost (g : Ghost) : Op → Ghost
  | Op.construct this t =>
    ⟨this :: g.live, Function.update g.object_of this t,
      if t = 0 then g.objects else t :: g.objects⟩
  | Op.copy_construct this other _ =>
    ⟨this :: g.live, Function.update g.object_of this (g.object_of other), g.objects⟩
  | Op.destruct this => ⟨g.live.erase this, g.object_of, g.objects⟩

/-- The bookkeeping after a sequence of operations. -/
def ghost_after (g : Ghost) : List Op → Ghost
  | [] => g
  | op :: ops => ghost_after (op.ghost g) ops

/-- Scope discipline for one operation: a handle in the stack is destroyed only
when no handle in the stack created after it is still alive; a handle that is not
in the stack can be destroyed at any time. -/
def Op.disciplined (env : Env) (g : Ghost) : Op → Prop
  | Op.destruct this =>
    is_address_in_stack env this = true →
      ∀ q ∈ g.live.takeWhile (fun a => a != this), is_address_in_stack env q = false
  | _ => True

/-- The addresses an operation is given are real addresses: handle and block
addresses leave the two flag bits free, an object address is null or an object address
that no constructor was given before. -/
def Op.well_formed (g : Ghost) : Op → Prop
  | Op.construct this t => Addr62 this ∧ (t = 0 ∨ (ObjAddr t ∧ t ∉ g.objects))
  | Op.copy_construct this _ nb => Addr62 this ∧ ∀ d, nb = some d → Addr62 d
  | Op.destruct _ => True

/-- A sequence of operations that respects scope discipline and is given real
addresses, started from the bookkeeping `g`. -/
def program_ok (env : Env) (g : Ghost) : List Op → Prop
  | [] => True
  | op :: ops => op.disciplined env g ∧ op.well_formed g ∧ program_ok env (op.ghost g) ops

/-- The object address a handle in state `s` stores in its own first word. -/
def State.object : State → Option Nat
  | State.Owning o _ => some o
  | State.LinkedToStack o _ => some o
  | State.CrossLinkedStack o _ => some o
  | State.SharedCounted o _ => some o
  | _ => none

/-- The stack root of a handle at `self` in state `s`: its link target when it is
`LinkedToStack`, itself otherwise. -/
def State.stack_root (self : Nat) : State → Nat
  | State.LinkedToStack _ r => r
  | _ => self

/-! ## A concrete environment, for examples -/

/-- An environment with the stack at addresses 1000 to 2000, the CRT heap from
address 10000 on, and the deleter at address 77. -/
def env0 : Env where
  stack_low_limit := 1000
  stack_high_limit := 2000
  low_pos := by decide
  low_lt_high := by decide
  CrtIsValidHeapPointer := fun a => decide (10000 ≤ a)
  deleter := 77

/-- A state with one owning handle at `p`, for the object `o`. -/
def World.owner_at (p o : Nat) : World :=
  World.empty.wr p (State.Owning o 77).words

/-- A state with one cross-linked pair: the heap side at `g`, the stack side at `s`,
for the object `o`. -/
def World.pair_at (g s o : Nat) : World :=
  (World.empty.wr g (State.CrossLinkedHeap s 77).words).wr s (State.CrossLinkedStack o g).words

/-- A state with one handle at `p` sharing the block at `b`, whose count is `c`, for
the object `o`. -/
def World.sharer_at (p o b c : Nat) : World :=
  (World.empty.wr_data b ⟨c, 77⟩).wr p (State.SharedCounted o b).words

/-! ## The invariant of a run -/

/-- Who holds the deleter of an object: nobody yet (the object was never given to
`construct`), a handle, a `shared_data` block, or nobody any more (the object has been
deleted). -/
inductive Owner where
  | unborn : Owner
  | handle (p : Nat) : Owner
  | block (b : Nat) : Owner
  | gone : Owner
deriving DecidableEq, Repr

/-- The abstract state of a run: the state of every handle, the holder of the deleter
of every object, and the objects for which a block has been allocated. -/
structure Abs where
  gs : Nat → State
  owner : Nat → Owner
  shared : List Nat

/-- A state that can be the stack root of linked handles. -/
def State.is_root : State → Bool
  | State.Owning _ _ => true
  | State.CrossLinkedStack _ _ => true
  | State.SharedCounted _ _ => true
  | _ => false

/-- A state that shares the block `b`. -/
def State.shares (b : Nat) : State → Bool
  | State.SharedCounted _ b2 => b2 == b
  | _ => false

/-- The number of handles of `live` that share the block `b`. -/
def sharers (gs : Nat → State) (live : List Nat) (b : Nat) : Nat :=
  live.countP (fun p => (gs p).shares b)

/-- What the state `st` of the live handle `p` requires of the rest. -/
def Good (env : Env) (g : Ghost) (A : Abs) (p : Nat) : State → Prop
  | State.Null => g.object_of p = 0
  | State.Owning o d => g.object_of p = o ∧ d = env.deleter ∧ A.owner o = Owner.handle p
  | State.LinkedToStack o r =>
    g.object_of p = o ∧ stack_resident env p ∧ is_address_in_stack env r = true ∧
      List.Sublist [p, r] g.live ∧ g.object_of r = o ∧ (A.gs r).is_root = true
  | State.CrossLinkedStack o h =>
    g.object_of p = o ∧ stack_resident env p ∧ h ∈ g.live ∧
      A.gs h = State.CrossLinkedHeap p env.deleter ∧ A.owner o = Owner.handle h
  | State.CrossLinkedHeap s d =>
    d = env.deleter ∧ is_address_in_stack env p = false ∧ s ∈ g.live ∧
      A.gs s = State.CrossLinkedStack (g.object_of p) p ∧
      A.owner (g.object_of p) = Owner.handle p
  | State.SharedCounted o b => g.object_of p = o ∧ A.owner o = Owner.block b

/-- The invariant that relates the program state `w` to the bookkeeping `g` and the
abstract state `A`. -/
structure Inv (env : Env) (w : World) (g : Ghost) (A : Abs) : Prop where
  nodup : g.live.Nodup
  mem_iff : ∀ p, p ∈ g.live ↔ w.mem p ≠ none
  rep : ∀ p ∈ g.live,
    w.mem p = some (A.gs p).words ∧ (A.gs p).wf ∧ Addr62 p ∧ Good env g A p (A.gs p)
  own_handle : ∀ o p, A.owner o = Owner.handle p →
    p ∈ g.live ∧ g.object_of p = o ∧
      (A.gs p = State.Owning o env.deleter ∨ ∃ s, A.gs p = State.CrossLinkedHeap s env.deleter)
  own_block : ∀ o b, A.owner o = Owner.block b →
    b ≠ 0 ∧ Addr62 b ∧ w.heap b = some ⟨sharers A.gs g.live b, env.deleter⟩ ∧
      0 < sharers A.gs g.live b ∧ ∀ o2, A.owner o2 = Owner.block b → o2 = o
  own_unborn : ∀ o, A.owner o = Owner.unborn ↔ o ∉ g.objects
  objects_ne : (0 : Nat) ∉ g.objects
  blocks : ∀ b, w.heap b ≠ none → ∃ o, A.owner o = Owner.block b
  deleted_fn : ∀ x ∈ w.deleted, x.1 = env.deleter
  deleted_count : ∀ o, w.deleted.count (env.deleter, o) = if A.owner o = Owner.gone then 1 else 0
  allocs : w.total_nb_allocs = A.shared.length % UINT
  shared_nodup : A.shared.Nodup
  shared_sub : ∀ o ∈ A.shared, A.owner o = Owner.gone ∨ ∃ b, A.owner o = Owner.block b
  shared_block : ∀ o b, A.owner o = Owner.block b → o ∈ A.shared

/-- The part of the invariant that does not depend on what the blocks store: it relates the
handles of the program state `w` to the bookkeeping `g` and the abstract state `A`. Here the
holder of the deleter of an object that was given a block stays that block, whether the
block is still allocated or not. -/
structure Shape (env : Env) (w : World) (g : Ghost) (A : Abs) : Prop where
  nodup : g.live.Nodup
  mem_iff : ∀ p, p ∈ g.live ↔ w.mem p ≠ none
  rep : ∀ p ∈ g.live,
    w.mem p = some (A.gs p).words ∧ (A.gs p).wf ∧ Addr62 p ∧ Good env g A p (A.gs p)
  own_handle : ∀ o p, A.owner o = Owner.handle p →
    p ∈ g.live ∧ g.object_of p = o ∧
      (A.gs p = State.Owning o env.deleter ∨ ∃ s, A.gs p = State.CrossLinkedHeap s env.deleter)
  own_unborn : ∀ o, A.owner o = Owner.unborn ↔ o ∉ g.objects
  objects_ne : (0 : Nat) ∉ g.objects
  allocs : w.total_nb_allocs = A.shared.length % UINT
  shared_nodup : A.shared.Nodup
  shared_sub : ∀ o ∈ A.shared, ∃ b, A.owner o = Owner.block b
  shared_block : ∀ o b, A.owner o = Owner.block b → o ∈ A.shared

/-- No counter of `w` is about to wrap. -/
def NoOverflow (w : World) : Prop :=
  ∀ b c dl, w.heap b = some ⟨c, dl⟩ → c + 1 < UINT

/-- What one operation keeps: the invariant, for an abstract state whose list of objects
that were given a block is unchanged or, when the operation is a copy into a handle
outside the stack, extended by the object of the source. -/
def Kept (env : Env) (g : Ghost) (A : Abs) (op : Op) (w' : World) : Prop :=
  ∃ A', Inv env w' (op.ghost g) A' ∧
    (A'.shared = A.shared ∨
      ∃ this other nb, op = Op.copy_construct this other nb ∧
        is_address_in_stack env this = false ∧ A'.shared = g.object_of other :: A.shared)

/-- What one operation keeps of the part of the invariant that does not depend on what the
blocks store, with the same account of the objects that were given a block. -/
def ShapeKept (env : Env) (g : Ghost) (A : Abs) (op : Op) (w' : World) : Prop :=
  ∃ A', Shape env w' (op.ghost g) A' ∧
    (A'.shared = A.shared ∨
      ∃ this other nb, op = Op.copy_construct this other nb ∧
        is_address_in_stack env this = false ∧ A'.shared = g.object_of other :: A.shared)

/-- The number of handles of `live` whose second word, in `w`, is the address `b`: the
live handles in `SharedCounted` state that reference the block at `b`. -/
def World.sharers_of (w : World) (live : List Nat) (b : Nat) : Nat :=
  live.countP (fun p => match w.mem p with
    | some h => h.ptr == b
    | none => false)

/-- A program, for the environment `env0`, with many sharers of one block: the handle at
1900, in the stack, is constructed for the object at 20000 and copied to the handle at
30000, in the heap, which creates the block at 50000; then it is copied `n` more times,
to the handles at 30016, 30032, ... in the heap. -/
def sharing_program (n : Nat) : List Op :=
  Op.construct 1900 20000 :: Op.copy_construct 30000 1900 (some 50000) ::
    (List.range n).map (fun i => Op.copy_construct (30016 + 16 * i) 1900 none)

/-- A program, for the environment `env0`, with one sharer more than the count of a block
can hold: `2 ^ 32 + 1` handles share the block at 50000, then the last of them, which is
in the heap, is destroyed. -/
def use_after_free_program : List Op :=
  sharing_program (UINT - 1) ++ [Op.destruct (30016 + 16 * (UINT - 2))]

/-- A program, for the environment `env0`, in which `operator new` gives the address of a
freed block again: after `use_after_free_program` has deleted the object at 20000 and freed
the block at 50000, the handle at 1890, in the stack, is constructed for a second object, at
20016, and copied to the handle at 30008, in the heap, which creates a block at 50000 again;
then two of the handles still alive of the first object, at 30000 and 30016, both in the
heap, are destroyed. -/
def block_reuse_program : List Op :=
  use_after_free_program ++ [Op.construct 1890 20016,
    Op.copy_construct 30008 1890 (some 50000), Op.destruct 30000, Op.destruct 30016]

/-- The destruction of every handle alive after `ops`, the most recently created first. -/
def destroy_all (ops : List Op) : List Op :=
  (ghost_after Ghost.init ops).live.map Op.destruct

/-- The object an operation is made for: the object given to `construct`, the object of
the source of a copy, the object of the handle destroyed. -/
def Op.object (g : Ghost) : Op → Nat
  | Op.construct _ t => t
  | Op.copy_construct _ other _ => g.object_of other
  | Op.destruct this => g.object_of this

/-- The number of operations of the run of `ops` from `w` that are made for the object `t`
and allocate a block, that is, change `total_nb_allocs`. -/
def blocks_allocated (env : Env) (t : Nat) : World → Ghost → List Op → Nat
  | _, _, [] => 0
  | w, g, op :: ops =>
    match step env w op with
    | Except.ok w' =>
      (if op.object g = t ∧ w'.total_nb_allocs ≠ w.total_nb_allocs then 1 else 0) +
        blocks_allocated env t w' (op.ghost g) ops
    | Except.error _ => 0

/-- At every point of the program fewer than `2 ^ 32 - 1` handles are alive: each
operation is started with at most `2 ^ 32 - 3` handles alive, so that no `unsigned int`
that counts handles can wrap. -/
def bounded_live (g : Ghost) : List Op → Prop
  | [] => True
  | op :: ops => g.live.length + 1 < UINT ∧ bounded_live (op.ghost g) ops

/-! ## Who holds the deleter of an object -/

/-- The second word of a handle carries the address of the deleter itself: it has the
`IsDeleterPtr` mark and not the `IsLinkedPtr` mark (a handle in `Owning` state, or the side
of a cross-link that is not in the stack). -/
def holds_deleter (h : hybrid_shared_ptr) : Bool :=
  versatile_ptr.is_deleter_ptr h.ptr && ((h.ptr &&& IsLinkedPtr) == 0)

/-- The live handles made for the object `t` whose second word carries the deleter
address. -/
def World.holders (w : World) (g : Ghost) (t : Nat) : List Nat :=
  g.live.filter (fun p => g.object_of p == t && match w.mem p with
    | some h => holds_deleter h
    | none => false)

/-- The blocks that the live handles made for the object `t` reference. -/
def World.blocks_of (w : World) (g : Ghost) (t : Nat) : List Nat :=
  (g.live.filterMap (fun p => match w.mem p with
    | some h => if g.object_of p = t ∧ versatile_ptr.is_shared_data h.ptr = true then some h.ptr
      else none
    | none => none)).dedup

/-! ## Two destructors at once -/

/-- The next atomic action of a thread that runs the destructor on a handle in
`SharedCounted` state (lines 138-144, then 158-159): the decrement
`--(data->ref_count)`, the load in `data->ref_count == 0`, the call
`data->deleter(obj())`, the statement `delete data`, the two assignments that clear the
handle. -/
inductive Pc where
  | decrement : Pc
  | load : Pc
  | call : Pc
  | free : Pc
  | clear : Pc
  | done : Pc
deriving DecidableEq, Repr

/-- A thread in the destructor of the handle at `this`; `observed_zero` is what its load
of the count has seen. -/
structure Thread where
  this : Nat
  pc : Pc
  observed_zero : Bool
deriving DecidableEq, Repr

/-- A thread that enters the destructor of the handle at `this`. -/
def Thread.start (this : Nat) : Thread := ⟨this, Pc.decrement, false⟩

/-- One atomic action of a thread. The decrement and the load are two operations on the
`std::atomic<unsigned int>`; what is read through `data` must be alive. -/
def Thread.step (env : Env) (w : World) (t : Thread) : Res (World × Thread) :=
  match t.pc with
  | Pc.done => Except.error Fault.invalid
  | Pc.clear => do
    let _ ← w.rd t.this
    pure (w.wr t.this ⟨0, 0⟩, { t with pc := Pc.done })
  | Pc.decrement => do
    let h ← w.rd t.this
    let d ← versatile_ptr.get_shared_data env h.ptr
    let data ← w.rd_data d
    pure (w.wr_data d { data with ref_count := pre_decrement data.ref_count },
      { t with pc := Pc.load })
  | Pc.load => do
    let h ← w.rd t.this
    let d ← versatile_ptr.get_shared_data env h.ptr
    let data ← w.rd_data d
    pure (w, { t with pc := if data.ref_count == 0 then Pc.call else Pc.clear,
                      observed_zero := data.ref_count == 0 })
  | Pc.call => do
    let h ← w.rd t.this
    let d ← versatile_ptr.get_shared_data env h.ptr
    let data ← w.rd_data d
    let o ← obj env h
    pure (w.call_deleter data.deleter o, { t with pc := Pc.free })
  | Pc.free => do
    let h ← w.rd t.this
    let d ← versatile_ptr.get_shared_data env h.ptr
    let _ ← w.rd_data d
    pure (w.free_data d, { t with pc := Pc.clear })

/-- Two threads run by a schedule: `false` lets the first thread do its next action,
`true` the second. -/
def run_threads (env : Env) (w : World) (t1 t2 : Thread) :
    List Bool → Res (World × Thread × Thread)
  | [] => pure (w, t1, t2)
  | false :: sched => do
    let (w, t1) ← t1.step env w
    run_threads env w t1 t2 sched
  | true :: sched => do
    let (w, t2) ← t2.step env w
    run_threads env w t1 t2 sched

end Hybrid

/-! src-compress: a shallow embedding of the bit streams, the encoder and the decoder.

An `unsigned int` is a natural number kept below `2 ^ 32`, an `unsigned char` one kept
below `2 ^ 8`; a `std::string` and a `string_view` are lists of characters; a
`std::vector<unsigned char>` is a list of bytes, `push_back` appends at the end.  A function
that can stop on an `assert` or throw returns a `Res`.  A loop over an index is a recursive
function with the index as an argument and with fuel, which the entry point sets to a
number of iterations the loop cannot exceed. -/

namespace Compress

/-- How a run of the code can stop: a failed `assert`, a thrown `std::logic_error`, an
access outside a `std::vector`, the end of the fuel of a loop of the model. -/
inductive Err where
  | assertion : Err
  | logic_error : Err
  | out_of_range : Err
  | fuel : Err
deriving DecidableEq, Repr

abbrev Res (α : Type) : Type := Except Err α

instance decEqRes {α : Type} [DecidableEq α] : DecidableEq (Res α) := fun a b =>
  match a, b with
  | Except.ok x, Except.ok y =>
    if h : x = y then isTrue (by rw [h]) else isFalse (fun e => h (Except.ok.inj e))
  | Except.error x, Except.error y =>
    if h : x = y then isTrue (by rw [h]) else isFalse (fun e => h (Except.error.inj e))
  | Except.ok _, Except.error _ => isFalse (fun e => by cases e)
  | Except.error _, Except.ok _ => isFalse (fun e => by cases e)

/-- The statement `assert(c)`. -/
def check (c : Bool) : Res Unit :=
  if c then pure () else Except.error Err.assertion

/-- Conversion to `unsigned int`, of a value that is not negative. -/
def u32 (x : Nat) : Nat := x % 2 ^ 32

/-- Conversion to `unsigned char`, of a value that is not negative. -/
def u8 (x : Nat) : Nat := x % 2 ^ 8

/-! ## EncodingTables.h -/

namespace SYMBOL_NAME_CODES

def BIT_WIDTH : Nat := 5
def LETTER_A : Nat := 0
def LETTER_Z : Nat := 25
def UNDERSCORE : Nat := 26
def CASE_INVERSE_ONCE : Nat := 27
def CASE_INVERSE_PERMANENT : Nat := 28
def DIGITS_2BITS : Nat := 29
def DIGITS_6BITS : Nat := 30
def DIGITS_10BITS : Nat := 31

end SYMBOL_NAME_CODES

/-! ## BitStream.h, BitStream.cpp -/

inductive CASE_KIND where
  | CASE_LOWER : CASE_KIND
  | CASE_UPPER : CASE_KIND
deriving DecidableEq, Repr

open CASE_KIND

/-- `BitStream::invertCurrentCase`, on the value of `m_currentCase`. -/
def invertCase (c : CASE_KIND) : CASE_KIND :=
  if c = CASE_LOWER then CASE_UPPER else CASE_LOWER

structure OutputBitStream where
  m_currentCase : CASE_KIND := CASE_LOWER
  /-- An `unsigned char`. -/
  m_pending_data : Nat := 0
  /-- An `unsigned int`. -/
  m_pending_bits : Nat := 0
  /-- A `std::vector<unsigned char>`. -/
  m_data : List Nat := []
deriving DecidableEq, Repr

structure InputBitStream where
  m_currentCase : CASE_KIND := CASE_LOWER
  /-- An `unsigned int`. -/
  m_size_in_bits : Nat := 0
  /-- An `unsigned int`. -/
  m_current_bit : Nat := 0
  /-- A `std::vector<unsigned char>`. -/
  m_data : List Nat := []
deriving DecidableEq, Repr

def extract_char_bits_in_range (value first_bit nb_bits : Nat) : Res Nat := do
  check (decide (first_bit ≤ 31))
  check (decide (nb_bits > 0) && decide (nb_bits ≤ 8))
  check (decide (first_bit ≥ nb_bits - 1))
  let value := value >>> (first_bit - (nb_bits - 1))
  let mask := (1 <<< nb_bits) - 1
  pure (u8 (value &&& mask))

namespace OutputBitStream

/-- The static `toString(unsigned int c, unsigned int nb_bits)`: the loop prepends the
character of bit `i` for `i` from 0 to `nb_bits - 1`. -/
def toString_value (c nb_bits : Nat) : Res (List Char) := do
  check (decide (nb_bits ≤ 32))
  let str := (List.range nb_bits).foldl
    (fun (str : List Char) i => (if c &&& (1 <<< i) ≠ 0 then '1' else '0') :: str) []
  check (decide (str.length = nb_bits))
  pure str

/-- The member `toString()`. -/
def toString (s : OutputBitStream) : Res (List Char) := do
  let str ← s.m_data.foldlM (fun (str : List Char) c => do
    pure (str ++ (← toString_value c 8))) []
  pure (str ++ (← toString_value s.m_pending_data s.m_pending_bits))

def sizeInBits (s : OutputBitStream) : Nat :=
  u32 (u32 (u32 s.m_data.length * 8) + s.m_pending_bits)

/-- The recursion of `appendBits`, with fuel. -/
def appendBits_loop (value : Nat) : Nat → OutputBitStream → Nat → Res OutputBitStream
  | fuel, s, nb_bits_to_encode => do
    check (decide (nb_bits_to_encode ≤ 32))
    if nb_bits_to_encode = 0 then pure s
    else
      match fuel with
      | 0 => Except.error Err.fuel
      | fuel + 1 => do
        check (decide (s.m_pending_bits < 8))
        let remaining_bits := 8 - s.m_pending_bits
        let nb_bits := min remaining_bits nb_bits_to_encode
        let pending_data := u8 (s.m_pending_data <<< nb_bits)
        let pending_data := u8 (pending_data +
          (← extract_char_bits_in_range value (nb_bits_to_encode - 1) nb_bits))
        let pending_bits := u32 (s.m_pending_bits + nb_bits)
        check (decide (pending_bits ≤ 8))
        let s : OutputBitStream :=
          if pending_bits = 8 then
            { s with m_data := s.m_data ++ [pending_data], m_pending_data := 0,
                     m_pending_bits := 0 }
          else { s with m_pending_data := pending_data, m_pending_bits := pending_bits }
        if nb_bits ≠ nb_bits_to_encode then
          appendBits_loop value fuel s (nb_bits_to_encode - nb_bits)
        else pure s

def appendBits (s : OutputBitStream) (value nb_bits_to_encode : Nat) : Res OutputBitStream :=
  appendBits_loop value nb_bits_to_encode s nb_bits_to_encode

def invertCurrentCase (s : OutputBitStream) : OutputBitStream :=
  { s with m_currentCase := invertCase s.m_currentCase }

end OutputBitStream

namespace InputBitStream

def isEmpty (s : InputBitStream) : Res Bool := do
  check (decide (s.m_current_bit ≤ s.m_size_in_bits))
  pure (decide (s.m_current_bit = s.m_size_in_bits))

/-- One iteration of the loop of the constructor; the state is `value` and the stream. -/
def ctor_step (st : Nat × InputBitStream) (c : Char) : Res (Nat × InputBitStream) := do
  check (c == '0' || c == '1')
  let value := u8 (st.1 <<< 1)
  let value := if c == '1' then u8 (value + 1) else value
  let size := u32 (st.2.m_size_in_bits + 1)
  if size % 8 = 0 then
    pure (0, { st.2 with m_size_in_bits := size, m_data := st.2.m_data ++ [value] })
  else
    pure (value, { st.2 with m_size_in_bits := size })

/-- The constructor `InputBitStream(std::string stream)`. -/
def ctor (stream : List Char) : Res InputBitStream := do
  let (value, s) ← stream.foldlM ctor_step (0, {})
  if s.m_size_in_bits % 8 > 0 then
    let value :=
      if value ≠ 0 then
        let padding_size := 8 - s.m_size_in_bits % 8
        u8 (value <<< padding_size)
      else value
    pure { s with m_data := s.m_data ++ [value] }
  else pure s

def remainingBits (s : InputBitStream) : Nat :=
  u32 (s.m_size_in_bits + 2 ^ 32 - s.m_current_bit)

/-- One iteration of the loop of `readBits`; the state is `result` and the stream. -/
def readBits_step (st : Nat × InputBitStream) : Res (Nat × InputBitStream) := do
  let char_pos := st.2.m_current_bit / 8
  let bit_pos := 7 - st.2.m_current_bit % 8
  let data ← match st.2.m_data.get? char_pos with
    | some d => pure d
    | none => Except.error Err.out_of_range
  let bit_value := if data &&& (1 <<< bit_pos) ≠ 0 then 1 else 0
  let result := u32 (st.1 <<< 1)
  let result := if bit_value = 1 then u32 (result + 1) else result
  pure (result, { st.2 with m_current_bit := u32 (st.2.m_current_bit + 1) })

/-- The member `bool readBits(unsigned int nb_bits, unsigned int & result)`: `none` when
it returns false. -/
def readBits_bool (s : InputBitStream) (nb_bits : Nat) : Res (Option Nat × InputBitStream) := do
  check (decide (nb_bits > 0) && decide (nb_bits ≤ 32))
  if u32 (s.m_current_bit + nb_bits) > s.m_size_in_bits then pure (none, s)
  else
    let (result, s) ← (List.range nb_bits).foldlM (fun st _ => readBits_step st) (0, s)
    check (decide (s.m_current_bit ≤ s.m_size_in_bits))
    pure (some result, s)

/-- The member `unsigned int readBits(unsigned int nb_bits)`. -/
def readBits (s : InputBitStream) (nb_bits : Nat) : Res (Nat × InputBitStream) := do
  match ← s.readBits_bool nb_bits with
  | (some value, s) => pure (value, s)
  | (none, _) => Except.error Err.logic_error

/-- The member `SYMBOL_NAME_CODES::ENUM readSymbolCode()`, through the member
`bool readSymbolCode(SYMBOL_NAME_CODES::ENUM & code)`. -/
def readSymbolCode (s : InputBitStream) : Res (Nat × InputBitStream) := do
  match ← s.readBits_bool SYMBOL_NAME_CODES.BIT_WIDTH with
  | (some value, s) => pure (value, s)
  | (none, _) => Except.error Err.logic_error

def invertCurrentCase (s : InputBitStream) : InputBitStream :=
  { s with m_currentCase := invertCase s.m_currentCase }

end InputBitStream

/-! ## What a stream holds, as a sequence of bits -/

/-- The `n` low bits of `v`, most significant first. -/
def low_bits : Nat → Nat → List Bool
  | 0, _ => []
  | n + 1, v => decide (v / 2 ^ n % 2 = 1) :: low_bits n v

/-- The character that `toString` writes for a bit. -/
def bit_char (b : Bool) : Char := if b then '1' else '0'

/-- The value of a sequence of bits, most significant first. -/
def bits_value (bits : List Bool) : Nat :=
  bits.foldl (fun r b => 2 * r + b.toNat) 0

/-- The bits that an `OutputBitStream` holds: the eight bits of every byte of `m_data`, then
the `m_pending_bits` low bits of `m_pending_data`. -/
def OutputBitStream.bits (s : OutputBitStream) : List Bool :=
  s.m_data.flatMap (low_bits 8) ++ low_bits s.m_pending_bits s.m_pending_data

/-- The number of bits that an `OutputBitStream` holds, as a natural number. -/
def OutputBitStream.nb_bits (s : OutputBitStream) : Nat :=
  8 * s.m_data.length + s.m_pending_bits

/-- The bytes `data` hold the bits `bits`, from position 0, and possibly padding. -/
def Holds (data : List Nat) (bits : List Bool) : Prop :=
  ∃ pad, data.flatMap (low_bits 8) = bits ++ pad

/-- An `InputBitStream` that reads the bits `bits`, with `cur` bits read so far. -/
def InputBitStream.Reads (s : InputBitStream) (bits : List Bool) (cur : Nat) : Prop :=
  s.m_size_in_bits = bits.length ∧ s.m_current_bit = cur ∧ cur ≤ bits.length ∧
    bits.length < 2 ^ 32 ∧ Holds s.m_data bits

/-- The operations of the bit-stream round trip: the pairs `(v, n)` are appended in
order. -/
def append_all (s : OutputBitStream) : List (Nat × Nat) → Res OutputBitStream
  | [] => pure s
  | (v, n) :: rest => do
    let s ← s.appendBits v n
    append_all s rest

/-- The operations of the bit-stream round trip: `readBits(n)` for every `n` of the list, in
order; the result is the values read and, after every read, what `isEmpty()` returns. -/
def read_all (s : InputBitStream) : List Nat → Res (List (Nat × Bool) × InputBitStream)
  | [] => pure ([], s)
  | n :: rest => do
    let (v, s) ← s.readBits n
    let e ← s.isEmpty
    let (vs, s) ← read_all s rest
    pure ((v, e) :: vs, s)

/-- What the bit-stream round trip is expected to read for the pairs `(v, n)`: the values
`v % 2 ^ n` in order, and `isEmpty()` true after the last read only. -/
def expected_reads : List (Nat × Nat) → List (Nat × Bool)
  | [] => []
  | [(v, n)] => [(v % 2 ^ n, true)]
  | (v, n) :: rest => (v % 2 ^ n, false) :: expected_reads rest

/-! ## string_view.h, and the character classes of `<cctype>` in the "C" locale -/

def isdigit (c : Char) : Bool := decide ('0' ≤ c) && decide (c ≤ '9')
def islower (c : Char) : Bool := decide ('a' ≤ c) && decide (c ≤ 'z')
def isupper (c : Char) : Bool := decide ('A' ≤ c) && decide (c ≤ 'Z')
def isalpha (c : Char) : Bool := islower c || isupper c

namespace string_view

/-- The constructor `string_view(const string_view & str, int pos, int nb_char)`. -/
def sub (str : List Char) (pos nb_char : Nat) : Res (List Char) := do
  check (decide (nb_char ≥ 1))
  check (decide (pos + nb_char ≤ str.length))
  pure ((str.drop pos).take nb_char)

/-- The member `operator[]`. -/
def char_at (str : List Char) (pos : Nat) : Res Char := do
  check (decide (pos < str.length))
  match str.get? pos with
  | some c => pure c
  | none => Except.error Err.out_of_range

def remove_prefix (str : List Char) (n : Nat) : Res (List Char) := do
  check (decide (n ≤ str.length))
  pure (str.drop n)

end string_view

/-! ## Encoder.cpp -/

/-- The loop of `count_nb_digits`, from the index `i`. -/
def count_nb_digits_loop (str : List Char) : Nat → Nat → Nat → Res Nat
  | 0, _, nb_digits => pure nb_digits
  | fuel + 1, i, nb_digits =>
    if i < str.length then do
      if isdigit (← string_view.char_at str i) then
        count_nb_digits_loop str fuel (i + 1) (nb_digits + 1)
      else pure nb_digits
    else pure nb_digits

def count_nb_digits (str : List Char) (start_pos : Nat) : Res Nat :=
  count_nb_digits_loop str (str.length - start_pos) start_pos 0

/-- The loop of `extract_4_digits_number`, from the index `i`. -/
def extract_4_digits_number_loop (str : List Char) (length : Nat) : Nat → Nat → Nat → Res Nat
  | 0, _, number => pure number
  | fuel + 1, i, number =>
    if i < length then do
      let c ← string_view.char_at str i
      check (isdigit c)
      if i = 0 ∧ c = '0' then
        -- if we face a leading zero, we treat it as a plain number
        check (decide (number = 0))
        pure number
      else
        extract_4_digits_number_loop str length fuel (i + 1)
          (number * 10 + (c.toNat - '0'.toNat))
    else pure number

def extract_4_digits_number (str : List Char) : Res Nat :=
  let length := min 4 str.length
  extract_4_digits_number_loop str length length 0 0

/-- The loop of `is_case_valid_for_next_letter`, from the index `i`. -/
def is_case_valid_for_next_letter_loop (str : List Char) (case_kind : CASE_KIND) :
    Nat → Nat → Res Bool
  | 0, _ => pure true
  | fuel + 1, i =>
    if i < str.length then do
      let c ← string_view.char_at str i
      if isalpha c then
        if case_kind = CASE_LOWER ∧ isupper c = true then pure false
        else if case_kind = CASE_UPPER ∧ islower c = true then pure false
        else is_case_valid_for_next_letter_loop str case_kind fuel (i + 1)
      else is_case_valid_for_next_letter_loop str case_kind fuel (i + 1)
    else pure true

def is_case_valid_for_next_letter (str : List Char) (index : Nat) (case_kind : CASE_KIND) :
    Res Bool := do
  check (decide (index < str.length))
  is_case_valid_for_next_letter_loop str case_kind (str.length - (index + 1)) (index + 1)

namespace Encoder

open SYMBOL_NAME_CODES

/-- The recursion of `encodeNumber`, with fuel. An `int` that is converted to
`unsigned int` for `appendBits` is `number - k`, which is not negative where the code
computes it from four digits; from three digits it is converted with `u32`. -/
def encodeNumber_loop : Nat → OutputBitStream → List Char → Res OutputBitStream
  | fuel, stream, str => do
    check (!str.isEmpty)
    let number ← extract_4_digits_number str
    match fuel with
    | 0 => Except.error Err.fuel
    | fuel + 1 =>
      if number ≤ 3 then do
        let stream ← stream.appendBits DIGITS_2BITS BIT_WIDTH
        let stream ← stream.appendBits number 2
        -- take care of leading zeros
        if number = 0 ∧ str.length > 1 then do
          let str ← string_view.remove_prefix str 1
          encodeNumber_loop fuel stream str
        else pure stream
      else if number ≤ 67 then do
        let stream ← stream.appendBits DIGITS_6BITS BIT_WIDTH
        stream.appendBits (number - 4) 6
      else if number ≤ 1091 then do
        let stream ← stream.appendBits DIGITS_10BITS BIT_WIDTH
        let stream ← stream.appendBits (number - 68) 10
        if str.length > 4 then do
          let str ← string_view.remove_prefix str 4
          encodeNumber_loop fuel stream str
        else pure stream
      else do
        check (decide (str.length > 3))
        let number :=
          ((← string_view.char_at str 0).toNat - '0'.toNat) * 100 +
          ((← string_view.char_at str 1).toNat - '0'.toNat) * 10 +
          ((← string_view.char_at str 2).toNat - '0'.toNat) * 1
        let stream ← stream.appendBits DIGITS_10BITS BIT_WIDTH
        let stream ← stream.appendBits (u32 (number + 2 ^ 32 - 68)) 10
        let str ← string_view.remove_prefix str 3
        encodeNumber_loop fuel stream str

def encodeNumber (stream : OutputBitStream) (str : List Char) : Res OutputBitStream :=
  encodeNumber_loop str.length stream str

def handleCurrentCaseMismatch (stream : OutputBitStream) (str : List Char) (index : Nat) :
    Res OutputBitStream := do
  if (← is_case_valid_for_next_letter str index stream.m_currentCase) then
    stream.appendBits CASE_INVERSE_ONCE BIT_WIDTH
  else do
    let stream ← stream.appendBits CASE_INVERSE_PERMANENT BIT_WIDTH
    pure stream.invertCurrentCase

/-- The loop of `encodeNextSymbolName`, from the index `i`; the result is the stream and
what is left of `str`. -/
def encodeNextSymbolName_loop (str : List Char) :
    Nat → OutputBitStream → Nat → Res (OutputBitStream × List Char)
  | fuel, stream, i =>
    if i < str.length then
      match fuel with
      | 0 => Except.error Err.fuel
      | fuel + 1 => do
        let c ← string_view.char_at str i
        if isdigit c then do
          let nb_digits ← count_nb_digits str i
          check (decide (nb_digits > 0))
          let stream ← encodeNumber stream (← string_view.sub str i nb_digits)
          let i := i + (nb_digits - 1)
          check (decide (i < str.length))
          encodeNextSymbolName_loop str fuel stream (i + 1)
        else if islower c then do
          let stream ←
            if stream.m_currentCase ≠ CASE_LOWER then handleCurrentCaseMismatch stream str i
            else pure stream
          let code := LETTER_A + (c.toNat - 'a'.toNat)
          let stream ← stream.appendBits code BIT_WIDTH
          encodeNextSymbolName_loop str fuel stream (i + 1)
        else if isupper c then do
          let stream ←
            if stream.m_currentCase ≠ CASE_UPPER then handleCurrentCaseMismatch stream str i
            else pure stream
          let code := LETTER_A + (c.toNat - 'A'.toNat)
          let stream ← stream.appendBits code BIT_WIDTH
          encodeNextSymbolName_loop str fuel stream (i + 1)
        else if c = '_' then do
          let stream ← stream.appendBits UNDERSCORE BIT_WIDTH
          encodeNextSymbolName_loop str fuel stream (i + 1)
        else do
          let str ← string_view.remove_prefix str i
          pure (stream, str)
    else pure (stream, [])

def encodeNextSymbolName (stream : OutputBitStream) (str : List Char) :
    Res (OutputBitStream × List Char) :=
  encodeNextSymbolName_loop str str.length stream 0

end Encoder

/-! ## Decoder.cpp -/

/-- The decimal digits of `n`, most significant first: `std::to_string` of an `int` that is
not negative. -/
def to_string (n : Nat) : List Char :=
  if n = 0 then ['0'] else (Nat.digits 10 n).reverse.map (fun d => Char.ofNat ('0'.toNat + d))

def decode2BitsNumber (stream : InputBitStream) : Res (Nat × InputBitStream) := do
  check (decide (stream.remainingBits ≥ 2))
  let (v, stream) ← stream.readBits 2
  pure (v, stream)

def decode6BitsNumber (stream : InputBitStream) : Res (Nat × InputBitStream) := do
  check (decide (stream.remainingBits ≥ 6))
  let (v, stream) ← stream.readBits 6
  pure (v + 4, stream)

def decode10BitsNumber (stream : InputBitStream) : Res (Nat × InputBitStream) := do
  check (decide (stream.remainingBits ≥ 10))
  let (v, stream) ← stream.readBits 10
  pure (v + 68, stream)

namespace Decoder

open SYMBOL_NAME_CODES

/-- The loop of `decodeNextSymbolName`, with fuel; the state is the stream, `str` and
`caseIsInversedOnce`. -/
def decodeNextSymbolName_loop :
    Nat → InputBitStream → List Char → Bool → Res (List Char × InputBitStream)
  | fuel, stream, str, caseIsInversedOnce =>
    if stream.remainingBits ≥ BIT_WIDTH then
      match fuel with
      | 0 => Except.error Err.fuel
      | fuel + 1 => do
        let (code, stream) ← stream.readSymbolCode
        if code ≥ LETTER_A ∧ code ≤ LETTER_Z then
          let letterNumber := code - LETTER_A
          let c :=
            match stream.m_currentCase with
            | CASE_LOWER =>
              Char.ofNat ((if caseIsInversedOnce then 'A' else 'a').toNat + letterNumber)
            | CASE_UPPER =>
              Char.ofNat ((if caseIsInversedOnce then 'a' else 'A').toNat + letterNumber)
          decodeNextSymbolName_loop fuel stream (str ++ [c]) false
        else if code = UNDERSCORE then
          decodeNextSymbolName_loop fuel stream (str ++ ['_']) caseIsInversedOnce
        else if code = CASE_INVERSE_ONCE then
          decodeNextSymbolName_loop fuel stream str true
        else if code = CASE_INVERSE_PERMANENT then
          decodeNextSymbolName_loop fuel stream.invertCurrentCase str caseIsInversedOnce
        else if code = DIGITS_2BITS then do
          let (n, stream) ← decode2BitsNumber stream
          decodeNextSymbolName_loop fuel stream (str ++ to_string n) caseIsInversedOnce
        else if code = DIGITS_6BITS then do
          let (n, stream) ← decode6BitsNumber stream
          decodeNextSymbolName_loop fuel stream (str ++ to_string n) caseIsInversedOnce
        else if code = DIGITS_10BITS then do
          let (n, stream) ← decode10BitsNumber stream
          decodeNextSymbolName_loop fuel stream (str ++ to_string n) caseIsInversedOnce
        else Except.error Err.logic_error
    else pure (str, stream)

end Decoder

/-! ## What the decoder reads -/

/-- The number that a sequence of digits writes. -/
def digits_value (ds : List Char) : Nat :=
  ds.foldl (fun acc c => acc * 10 + (c.toNat - '0'.toNat)) 0

/-- The loop of the decoder reads the bits `E` as the characters `out`: started with
enough fuel on a stream whose unread bits begin with `E`, with the current case `c` and
`caseIsInversedOnce = once`, it comes to the state where `E` has been read, `out` has been
appended to the string, the current case is `c2` and `caseIsInversedOnce = once2`, with
enough fuel for the bits that are left. -/
def Decodes (E : List Bool) (c : CASE_KIND) (once : Bool) (out : List Char)
    (c2 : CASE_KIND) (once2 : Bool) : Prop :=
  ∀ (bits rest : List Bool) (cur fuel : Nat) (inp : InputBitStream) (acc : List Char),
    inp.Reads bits cur → inp.m_currentCase = c → bits.drop cur = E ++ rest →
    bits.length - cur ≤ fuel →
    ∃ fuel2, rest.length ≤ fuel2 ∧
      Decoder.decodeNextSymbolName_loop fuel inp acc once =
        Decoder.decodeNextSymbolName_loop fuel2
          { inp with m_current_bit := cur + E.length, m_currentCase := c2 } (acc ++ out) once2

/-! ## Number chunks and letters of the other case, in the words of the claims -/

/-- The bits of the chunk that stands for the number `n`, for `n` up to 1091: the code
`DIGITS_2BITS` and `n` in 2 bits up to 3, the code `DIGITS_6BITS` and `n - 4` in 6 bits up
to 67, the code `DIGITS_10BITS` and `n - 68` in 10 bits above. -/
def number_chunk (n : Nat) : List Bool :=
  if n ≤ 3 then low_bits 5 SYMBOL_NAME_CODES.DIGITS_2BITS ++ low_bits 2 n
  else if n ≤ 67 then low_bits 5 SYMBOL_NAME_CODES.DIGITS_6BITS ++ low_bits 6 (n - 4)
  else low_bits 5 SYMBOL_NAME_CODES.DIGITS_10BITS ++ low_bits 10 (n - 68)

/-- The digits of the first chunk of a digit string: a leading `0` alone; otherwise the
first four digits when they write a number up to 1091, and the first three digits when
they write a larger number. -/
def first_piece : List Char → List Char
  | [] => []
  | d :: t =>
    if d = '0' then ['0']
    else if digits_value ((d :: t).take 4) ≤ 1091 then (d :: t).take 4
    else (d :: t).take 3

/-- The character `c` is a letter whose case is not the case `k`. -/
def other_case_letter (k : CASE_KIND) (c : Char) : Bool :=
  match k with
  | CASE_KIND.CASE_LOWER => isupper c
  | CASE_KIND.CASE_UPPER => islower c

/-! ## main.cpp -/

end Compress

/-! poly_list: a shallow embedding.

Embedding of `heterogeneous-containers/poly_list/poly_list.h`, in a build where `assert`
is active (`_DEBUG`: a `list_entry` has the two members `magic` and `functions`).

* Memory is explicit. `World.arrays` lists the live arrays of `new char[n]`;
  `World.entries` maps the address of a `list_entry` to the members that have been
  written; `World.objects` maps the address of a placeholder to the object that is alive
  there. A write outside a live array, a read of a member that was never written, and a
  member function called where no object is alive are undefined behaviour, reported as
  `Fault.invalid`.
* `assert` is a check that stops the run with `Fault.assertion`.
* An exception is an outcome, `Exit.thrown`, that carries the state reached when the
  exception leaves the function, the destructors of the locals having run.
* `operator new[]`, the constructor of the new element and the copy constructors are
  inputs: the address returned or `none` for `std::bad_alloc`, the state given to the new
  object or `none` when the constructor throws, and which copies throw.
* Every object constructed gets a serial number, and `World.destroyed` records the
  serial numbers of the objects whose destructor has run.
-/

namespace PolyList

/-- Ways a run can stop: a failed `assert`, undefined behaviour, or a loop of the model
that ran out of fuel. -/
inductive Fault where
  | assertion : Fault
  | invalid : Fault
  | fuel : Fault
deriving DecidableEq, Repr

abbrev Res (α : Type) : Type := Except Fault α

/-- Models `assert(c)`. -/
def check (c : Bool) : Res Unit :=
  if c then Except.ok () else Except.error Fault.assertion

/-- How a function that can throw is left. -/
inductive Exit where
  | returned : Exit
  | thrown : Exit
deriving DecidableEq, Repr

/-- Arithmetic in `size_t`, on the 64-bit target. -/
def size_t (x : Nat) : Nat := x % 2 ^ 64

/-- `sizeof(list_entry)`: the members `magic` and `functions`, 8 bytes each. -/
def sizeof_list_entry : Nat := 16

/-- `list_entry::magic_value`. -/
def magic_value : Nat := 0xFFFF11111111AAAA

/-- The `struct poly_functions` of a class `ChildT`, the static instance of
`get_poly_functions<ChildT>()`: `object_size` is `sizeof ChildT`; `class_id` names the
class, whose copy constructor and destructor the two function members run. -/
structure poly_functions where
  object_size : Nat
  class_id : Nat
deriving DecidableEq, Repr

/-- An object alive in a placeholder: its serial number, its class and its state. -/
structure Object where
  serial : Nat
  class_id : Nat
  value : Nat
deriving DecidableEq, Repr

/-- The members of a `struct list_entry`, each written or not yet. -/
structure list_entry where
  magic : Option Nat := none
  functions : Option poly_functions := none
deriving DecidableEq, Repr

/-- Program state: the live arrays `(address, size)`, the members of the entries by
address, the objects alive by address, the number of objects constructed so far, and the
serial numbers of the objects destroyed, most recent first. -/
structure World where
  arrays : List (Nat × Nat)
  entries : Nat → list_entry
  objects : Nat → Option Object
  constructed : Nat
  destroyed : List Nat

namespace World

/-- The state before anything is allocated. -/
def empty : World := ⟨[], fun _ => {}, fun _ => none, 0, []⟩

/-- The `len` bytes at `a` lie in a live array. -/
def in_array (w : World) (a len : Nat) : Bool :=
  w.arrays.any (fun bn => decide (bn.1 ≤ a) && decide (a + len ≤ bn.1 + bn.2))

/-- The expression `new char[n]` when `operator new[]` answers `nb`: `none` when it throws
`std::bad_alloc`, otherwise the address of `n` bytes that are not null, lie below
`2 ^ 62` and overlap no live array. -/
def new_array (w : World) (nb : Option Nat) (n : Nat) : Res (Option (World × Nat)) :=
  match nb with
  | none => pure none
  | some b =>
    if b = 0 ∨ b + n > 2 ^ 62 ∨
        w.arrays.any (fun bn => decide (b < bn.1 + bn.2) && decide (bn.1 < b + n)) = true then
      Except.error Fault.invalid
    else pure (some ({ w with arrays := (b, n) :: w.arrays }, b))

/-- The statement `delete[] b`: nothing for a null pointer; the array ends, and with it
what its bytes held. -/
def delete_array (w : World) (b : Nat) : Res World :=
  if b = 0 then pure w
  else
    match w.arrays.find? (fun bn => bn.1 == b) with
    | none => Except.error Fault.invalid
    | some bn =>
      pure { w with
        arrays := w.arrays.filter (fun x => x.1 != b)
        entries := fun a => if b ≤ a ∧ a < b + bn.2 then {} else w.entries a
        objects := fun a => if b ≤ a ∧ a < b + bn.2 then none else w.objects a }

/-- The state with the member `magic` of the entry at `a` set to `m`. -/
def set_magic (w : World) (a m : Nat) : World :=
  { w with entries := Function.update w.entries a { w.entries a with magic := some m } }

/-- The state with the member `functions` of the entry at `a` set to `f`. -/
def set_functions (w : World) (a : Nat) (f : poly_functions) : World :=
  { w with entries := Function.update w.entries a { w.entries a with functions := some f } }

/-- The state with a new object of class `cls` and state `v` alive at `p`; its serial
number is the number of objects constructed before. -/
def put_object (w : World) (p cls v : Nat) : World :=
  { w with
    objects := Function.update w.objects p (some ⟨w.constructed, cls, v⟩)
    constructed := w.constructed + 1 }

/-- The state where the object at `p`, whose serial number is `serial`, has been
destroyed. -/
def remove_object (w : World) (p serial : Nat) : World :=
  { w with
    objects := Function.update w.objects p none
    destroyed := serial :: w.destroyed }

/-- Read the member `magic` of the entry at `a`. -/
def read_magic (w : World) (a : Nat) : Res Nat :=
  match (w.entries a).magic with
  | some m => pure m
  | none => Except.error Fault.invalid

/-- Read the member `functions` of the entry at `a`. -/
def read_functions (w : World) (a : Nat) : Res poly_functions :=
  match (w.entries a).functions with
  | some f => pure f
  | none => Except.error Fault.invalid

/-- Write the member `magic` of the entry at `a`. -/
def write_magic (w : World) (a m : Nat) : Res World :=
  if w.in_array a sizeof_list_entry then pure (w.set_magic a m)
  else Except.error Fault.invalid

/-- Write the member `functions` of the entry at `a`. -/
def write_functions (w : World) (a : Nat) (f : poly_functions) : Res World :=
  if w.in_array a sizeof_list_entry then pure (w.set_functions a f)
  else Except.error Fault.invalid

/-- The placement `new (p) ChildT(args...)`, for the class of `f`: `v` is the state the
constructor gives to the object, `none` when the constructor throws. -/
def construct (w : World) (p : Nat) (f : poly_functions) (v : Option Nat) :
    Res (World × Exit) :=
  if w.in_array p f.object_size then
    match v with
    | none => pure (w, Exit.thrown)
    | some x => pure (w.put_object p f.class_id x, Exit.returned)
  else Except.error Fault.invalid

/-- The call `functions->copy_construct(self, other)`, the copy constructor of the class
of `f` run on the placeholder `self`: the copy has the class and the state of the object
at `other`; `copy_fails` tells, by the serial number of the source, whether the copy
constructor throws. -/
def copy_construct (w : World) (f : poly_functions) (self other : Nat)
    (copy_fails : Nat → Bool) : Res (World × Exit) :=
  match w.objects other with
  | none => Except.error Fault.invalid
  | some o =>
    if w.in_array self f.object_size then
      if copy_fails o.serial then pure (w, Exit.thrown)
      else pure (w.put_object self o.class_id o.value, Exit.returned)
    else Except.error Fault.invalid

/-- The call `functions->poly_destruct(p)`, the destructor of the object at `p`. -/
def poly_destruct (w : World) (p : Nat) : Res World :=
  match w.objects p with
  | none => Except.error Fault.invalid
  | some o => pure (w.remove_object p o.serial)

/-- A call of the virtual member `id()` on the object at `p`; the model returns the
object. -/
def id (w : World) (p : Nat) : Res Object :=
  match w.objects p with
  | none => Except.error Fault.invalid
  | some o => pure o

end World

/-! ## list_entry -/

namespace list_entry

def object_size (w : World) (this : Nat) : Res Nat := do
  pure (← w.read_functions this).object_size

def total_size (w : World) (this : Nat) : Res Nat := do
  pure (size_t (sizeof_list_entry + (← object_size w this)))

def next_entry (w : World) (this : Nat) : Res Nat := do
  pure (this + sizeof_list_entry + (← w.read_functions this).object_size)

def get_placeholder (this : Nat) : Nat := this + sizeof_list_entry

def get_object (this : Nat) : Nat := get_placeholder this

def destruct (w : World) (this : Nat) : Res World := do
  let _ ← w.read_functions this
  w.poly_destruct (get_object this)

def copy_from (w : World) (this other : Nat) (copy_fails : Nat → Bool) :
    Res (World × Exit) := do
  let f ← w.read_functions other
  let w ← w.write_functions this f
  let (w, exit) ← w.copy_construct f (get_object this) (get_object other) copy_fails
  match exit with
  | Exit.thrown => pure (w, Exit.thrown)
  | Exit.returned =>
    let w ← w.write_magic this magic_value
    pure (w, Exit.returned)

end list_entry

/-! ## poly_list: private members -/

/-- The data members of a `poly_list<BaseT>`; a null pointer is 0. -/
structure poly_list where
  buffer_size : Nat := 0
  buffer : Nat := 0
  last_used_entry : Nat := 0
deriving DecidableEq, Repr

/-- `struct uncommitted_growth`. -/
structure uncommitted_growth where
  new_object_placeholder : Nat := 0
  new_buffer : Nat := 0
  new_buffer_size : Nat := 0
  new_last_used_entry : Nat := 0
deriving DecidableEq, Repr

/-- `alloc_entry`; returns the new entry, 0 when there is no room. The `ptrdiff_t`
`total_used_bytes` is given by its sign and, when it is not negative, its value. -/
def alloc_entry (w : World) (current_entry object_size buffer buffer_size : Nat) :
    Res (World × Nat) := do
  let total ← if current_entry ≠ 0 then list_entry.total_size w current_entry else pure 0
  let nonneg := decide (current_entry = 0) || decide (buffer ≤ current_entry + total)
  let total_used_bytes := if current_entry ≠ 0 then current_entry + total - buffer else 0
  check (nonneg && decide (total_used_bytes ≤ buffer_size))
  let required_total_size := size_t (sizeof_list_entry + object_size)
  if nonneg = true ∧ size_t (total_used_bytes + required_total_size) ≤ buffer_size then do
    let new_entry := buffer + total_used_bytes
    let w ← w.write_magic new_entry magic_value
    pure (w, new_entry)
  else pure (w, 0)

/-- The loop of `destroy_all`, from `old_entry`. -/
def destroy_all_loop (last_entry : Nat) : Nat → World → Nat → Res World
  | fuel, w, old_entry =>
    if old_entry ≤ last_entry then
      match fuel with
      | 0 => Except.error Fault.fuel
      | fuel + 1 => do
        check ((← w.read_magic old_entry) == magic_value)
        let p := list_entry.get_object old_entry
        let _ ← w.id p
        let w ← list_entry.destruct w old_entry
        destroy_all_loop last_entry fuel w (← list_entry.next_entry w old_entry)
    else pure w

/-- `destroy_all`. Every turn of the loop moves `old_entry` up, so the fuel is enough. -/
def destroy_all (w : World) (first_entry last_entry : Nat) : Res World :=
  if first_entry ≠ 0 ∧ last_entry ≠ 0 then do
    check (decide (first_entry ≤ last_entry))
    destroy_all_loop last_entry (last_entry - first_entry + 1) w first_entry
  else pure w

def poly_list.first_entry (l : poly_list) : Nat :=
  if l.last_used_entry ≠ 0 then l.buffer else 0

/-- The destructor `~uncommitted_growth()`. -/
def uncommitted_growth.dtor (w : World) (result : uncommitted_growth) : Res World :=
  -- rollback if not committed
  if result.new_buffer ≠ 0 then do
    let w ← destroy_all w result.new_buffer result.new_last_used_entry
    w.delete_array result.new_buffer
  else pure w

def commit (w : World) (l : poly_list) (result : uncommitted_growth) :
    Res (World × poly_list × uncommitted_growth) := do
  check (result.new_last_used_entry != 0)
  -- is there a new buffer to use?
  if result.new_buffer ≠ 0 then do
    -- destroy objects from the current buffer
    let w ← destroy_all w l.first_entry l.last_used_entry
    -- free the current buffer and switch to the new one
    let w ← w.delete_array l.buffer
    let l := { l with buffer := result.new_buffer, buffer_size := result.new_buffer_size }
    -- tag the result as committed
    let result := { result with new_buffer := 0 }
    pure (w, { l with last_used_entry := result.new_last_used_entry }, result)
  else
    pure (w, { l with last_used_entry := result.new_last_used_entry }, result)

/-- The loop of `copy_all`, from `old_entry`; `result` is updated after each copy. -/
def copy_all_loop (last_entry : Nat) (copy_fails : Nat → Bool) :
    Nat → World → uncommitted_growth → Nat → Nat → Res (World × uncommitted_growth × Exit)
  | fuel, w, result, old_entry, last_copied_entry =>
    if old_entry ≤ last_entry then
      match fuel with
      | 0 => Except.error Fault.fuel
      | fuel + 1 => do
        check ((← w.read_magic old_entry) == magic_value)
        let (w, last_copied_entry) ← alloc_entry w last_copied_entry
          (← list_entry.object_size w old_entry) result.new_buffer result.new_buffer_size
        check (last_copied_entry != 0)
        let (w, exit) ← list_entry.copy_from w last_copied_entry old_entry copy_fails
        match exit with
        | Exit.thrown => pure (w, result, Exit.thrown)
        | Exit.returned =>
          -- sync result (for exception safety)
          let result := { result with new_last_used_entry := last_copied_entry }
          copy_all_loop last_entry copy_fails fuel w result
            (← list_entry.next_entry w old_entry) last_copied_entry
    else pure (w, result, Exit.returned)

/-- `copy_all`. Every turn of the loop moves `old_entry` up, so the fuel is enough. -/
def copy_all (w : World) (first_entry last_entry : Nat) (result : uncommitted_growth)
    (copy_fails : Nat → Bool) : Res (World × uncommitted_growth × Exit) := do
  check (result.new_last_used_entry == 0)
  if first_entry ≠ 0 ∧ last_entry ≠ 0 then do
    check (decide (first_entry ≤ last_entry))
    copy_all_loop last_entry copy_fails (last_entry - first_entry + 1) w result first_entry 0
  else pure (w, result, Exit.returned)

/-- `grow`. When an exception leaves it (`std::bad_alloc`, or a copy constructor that
throws in `copy_all`), the destructor of the local `result` has run and no growth is
returned. -/
def grow (w : World) (l : poly_list) (object_size : Nat) (object_functions : poly_functions)
    (nb : Option Nat) (copy_fails : Nat → Bool) :
    Res (World × poly_list × Option uncommitted_growth) := do
  check (decide (object_size > 0))
  -- will rollback the second buffer allocation if an exception is thrown somewhere
  let result : uncommitted_growth := {}
  -- we double its size from the last time
  let new_buffer_size := size_t (size_t (size_t (l.buffer_size + object_size) +
    sizeof_list_entry) * 2)
  let first ←
    if l.buffer_size = 0 then do
      check (l.last_used_entry == 0 && l.buffer == 0)
      match ← w.new_array nb new_buffer_size with
      | none => pure none
      | some (w, b) => pure (some (w, { l with buffer := b, buffer_size := new_buffer_size }))
    else pure (some (w, l))
  match first with
  | none => do
    let w ← result.dtor w
    pure (w, l, none)
  | some (w, l) => do
    let (w, new_entry) ← alloc_entry w l.last_used_entry object_size l.buffer l.buffer_size
    if new_entry = 0 then do
      -- allocate new buffer
      match ← w.new_array nb new_buffer_size with
      | none => do
        let w ← result.dtor w
        pure (w, l, none)
      | some (w, b) => do
        let result := { result with new_buffer := b, new_buffer_size := new_buffer_size }
        -- copy elements to the new buffer (if any)
        let (w, result, exit) ← copy_all w l.first_entry l.last_used_entry result copy_fails
        match exit with
        | Exit.thrown => do
          let w ← result.dtor w
          pure (w, l, none)
        | Exit.returned => do
          if result.new_last_used_entry = 0 then
            -- current buffer doesn't contain any element but is too small
            check (decide (l.buffer_size < size_t (object_size + sizeof_list_entry)))
          -- append the new object to the new buffer
          let (w, new_entry) ← alloc_entry w result.new_last_used_entry object_size
            result.new_buffer result.new_buffer_size
          check (new_entry != 0)
          check (new_entry != 0)
          let w ← w.write_functions new_entry object_functions
          let result := { result with
            new_last_used_entry := new_entry
            new_object_placeholder := list_entry.get_placeholder new_entry }
          pure (w, l, some result)
    else do
      check (new_entry != 0)
      let w ← w.write_functions new_entry object_functions
      let result := { result with
        new_last_used_entry := new_entry
        new_object_placeholder := list_entry.get_placeholder new_entry }
      pure (w, l, some result)

/-! ## poly_list: public members -/

namespace poly_list

/-- `emplace_back<ChildT>(args...)`, for the class of `f`. When the constructor of the new
element throws, the destructor of the local `result` runs; after `commit`, it runs at the
end of the function. -/
def emplace_back (w : World) (l : poly_list) (f : poly_functions) (v : Option Nat)
    (nb : Option Nat) (copy_fails : Nat → Bool) : Res (World × poly_list × Exit) := do
  -- allocate
  let (w, l, growth) ← grow w l f.object_size f nb copy_fails
  match growth with
  | none => pure (w, l, Exit.thrown)
  | some result => do
    -- (try to) initialise
    let (w, exit) ← w.construct result.new_object_placeholder f v
    match exit with
    | Exit.thrown => do
      let w ← result.dtor w
      pure (w, l, Exit.thrown)
    | Exit.returned => do
      -- commit
      let (w, l, result) ← commit w l result
      let w ← result.dtor w
      pure (w, l, Exit.returned)

/-- `clear()`. -/
def clear (w : World) (l : poly_list) : Res (World × poly_list) :=
  if l.last_used_entry ≠ 0 then do
    check (l.buffer != 0)
    let w ← destroy_all w l.first_entry l.last_used_entry
    pure (w, { l with last_used_entry := 0 })
  else pure (w, l)

/-- The destructor `~poly_list()`. -/
def dtor (w : World) (l : poly_list) : Res (World × poly_list) := do
  let (w, l) ← clear w l
  if l.buffer ≠ 0 then do
    check (l.buffer_size != 0)
    let w ← w.delete_array l.buffer
    pure (w, { l with buffer := 0, buffer_size := 0 })
  else pure (w, l)

/-- `empty()`. -/
def empty (l : poly_list) : Res Bool := do
  check (l.last_used_entry == 0 || l.buffer != 0)
  pure (l.last_used_entry == 0)

end poly_list

/-! ## poly_list::iterator -/

/-- The data members of a `poly_list<BaseT>::iterator`. -/
structure iterator where
  m_entry : Nat
  m_last_valid : Nat
deriving DecidableEq, Repr

namespace iterator

/-- The constructor `iterator(entry, last_valid)`. -/
def ctor (entry last_valid : Nat) : Res iterator := do
  check (last_valid != 0 || entry == 0)
  pure ⟨entry, last_valid⟩

/-- `operator->()`: the address of the object. -/
def arrow (it : iterator) : Res Nat := do
  check (it.m_entry != 0 && decide (it.m_entry ≤ it.m_last_valid))
  pure (list_entry.get_object it.m_entry)

/-- `operator*()`: the address of the object. -/
def deref (it : iterator) : Res Nat := do
  check (it.m_entry != 0 && decide (it.m_entry ≤ it.m_last_valid))
  pure (list_entry.get_object it.m_entry)

/-- `operator++()`. -/
def pre_increment (w : World) (it : iterator) : Res iterator := do
  check (it.m_entry != 0 && decide (it.m_entry ≤ it.m_last_valid))
  if it.m_entry ≠ it.m_last_valid then do
    let e ← list_entry.next_entry w it.m_entry
    check (decide (e ≤ it.m_last_valid))
    pure { it with m_entry := e }
  else do
    check (it.m_entry != 0 && it.m_last_valid != 0)
    pure ⟨0, 0⟩

/-- `operator++(int)`: the iterator after the call, and the copy that is returned. -/
def post_increment (w : World) (it : iterator) : Res (iterator × iterator) := do
  check (it.m_entry != 0 && decide (it.m_entry ≤ it.m_last_valid))
  let copy := it
  let it ← pre_increment w it
  pure (it, copy)

/-- `operator==`. -/
def eq (it other : iterator) : Res Bool := do
  check (decide (it.m_entry ≤ it.m_last_valid))
  check (decide (other.m_entry ≤ other.m_last_valid))
  pure (it.m_entry == other.m_entry)

/-- `operator!=`. -/
def ne (it other : iterator) : Res Bool := do
  pure (!(← eq it other))

end iterator

namespace poly_list

/-- `begin()`. -/
def begin (l : poly_list) : Res iterator :=
  iterator.ctor l.first_entry l.last_used_entry

/-- `end()`. -/
def end_ : Res iterator :=
  iterator.ctor 0 0

end poly_list

/-! ## main.cpp: the loops of `test_iterator` -/

/-- The loop `for (it = list.begin(), end = list.end(); it != end; ++it)` of
`test_iterator`, whose body calls `(*it).id()`; `acc` collects the objects visited. -/
def visit_loop (w : World) (end_it : iterator) :
    Nat → iterator → List Object → Res (List Object)
  | fuel, it, acc => do
    if (← it.ne end_it) then
      match fuel with
      | 0 => Except.error Fault.fuel
      | fuel + 1 => do
        let o ← w.id (← it.deref)
        let it ← it.pre_increment w
        visit_loop w end_it fuel it (acc ++ [o])
    else pure acc

/-- The first loop of `test_iterator`. Every turn moves the iterator up, so the fuel is
enough. -/
def visit_all (w : World) (l : poly_list) : Res (List Object) := do
  let it ← l.begin
  let end_it ← poly_list.end_
  visit_loop w end_it (l.last_used_entry - l.buffer + 1) it []

/-- The loop `for (it = list.begin(), end = list.end(); it != end; it++)` of
`test_iterator`, whose body calls `it->id()`. -/
def visit_loop_post (w : World) (end_it : iterator) :
    Nat → iterator → List Object → Res (List Object)
  | fuel, it, acc => do
    if (← it.ne end_it) then
      match fuel with
      | 0 => Except.error Fault.fuel
      | fuel + 1 => do
        let o ← w.id (← it.arrow)
        let (it, _) ← it.post_increment w
        visit_loop_post w end_it fuel it (acc ++ [o])
    else pure acc

/-- The second loop of `test_iterator`. -/
def visit_all_post (w : World) (l : poly_list) : Res (List Object) := do
  let it ← l.begin
  let end_it ← poly_list.end_
  visit_loop_post w end_it (l.last_used_entry - l.buffer + 1) it []

/-! ## Programs: sequences of calls on one list -/

/-- A call on the list: `emplace_back<ChildT>(args...)` for the class of `f`, with the
state `v` that the constructor gives to the new object (`none` when it throws), the answer
`nb` of `operator new[]` if the call allocates, and the copies that throw; or `clear()`. -/
inductive Op where
  | emplace_back (f : poly_functions) (v : Option Nat) (nb : Option Nat)
      (copy_fails : Nat → Bool) : Op
  | clear : Op

/-- One call; an exception that leaves `emplace_back` is caught by the caller. -/
def step (w : World) (l : poly_list) : Op → Res (World × poly_list × Exit)
  | Op.emplace_back f v nb copy_fails => poly_list.emplace_back w l f v nb copy_fails
  | Op.clear => do
    let (w, l) ← poly_list.clear w l
    pure (w, l, Exit.returned)

/-- A sequence of calls, with how each call was left. -/
def run (w : World) (l : poly_list) : List Op → Res (World × poly_list × List Exit)
  | [] => pure (w, l, [])
  | op :: ops => do
    let (w, l, exit) ← step w l op
    let (w, l, exits) ← run w l ops
    pure (w, l, exit :: exits)

/-- The size of the class is the size of a type of the target: an entry for it has fewer
than `2 ^ 62` bytes. -/
def Op.well_formed : Op → Prop
  | Op.emplace_back f _ _ _ => f.object_size + sizeof_list_entry < 2 ^ 62
  | Op.clear => True

/-- The class and the state of the elements that the list holds after a call that was left
with `exit`, when it held `vs` before: `emplace_back` that returns adds its element at the
end, `clear()` leaves nothing, `emplace_back` that throws changes nothing. -/
def Op.contents (vs : List (Nat × Nat)) : Op → Exit → List (Nat × Nat)
  | Op.emplace_back f (some v) _ _, Exit.returned => vs ++ [(f.class_id, v)]
  | Op.clear, _ => []
  | _, _ => vs

/-- The class and the state of the elements that the list holds after a sequence of
calls. -/
def contents_after (vs : List (Nat × Nat)) : List Op → List Exit → List (Nat × Nat)
  | op :: ops, exit :: exits => contents_after (op.contents vs exit) ops exits
  | _, _ => vs

/-! ## The invariant of a list -/

/-- The entries of the elements `items` lie one after the other from the address `a`:
each has its `magic`, its `functions`, and its object alive in the placeholder. -/
def Chain (w : World) : Nat → List (poly_functions × Object) → Prop
  | _, [] => True
  | a, x :: rest =>
    (w.entries a).magic = some magic_value ∧ (w.entries a).functions = some x.1 ∧
      w.objects (a + sizeof_list_entry) = some x.2 ∧ 0 < x.1.object_size ∧
      Chain w (a + sizeof_list_entry + x.1.object_size) rest

/-- The address after the last entry of `items`, laid out from `a`. -/
def chain_end : Nat → List (poly_functions × Object) → Nat
  | a, [] => a
  | a, x :: rest => chain_end (a + sizeof_list_entry + x.1.object_size) rest

/-- The address of the last entry of `items`, laid out from `a`; null when there is
none. -/
def last_entry_of : Nat → List (poly_functions × Object) → Nat
  | _, [] => 0
  | a, [_] => a
  | a, x :: y :: rest => last_entry_of (a + sizeof_list_entry + x.1.object_size) (y :: rest)

/-- The addresses of the objects of `items`, laid out from `a`. -/
def placeholders : Nat → List (poly_functions × Object) → List Nat
  | _, [] => []
  | a, x :: rest =>
    (a + sizeof_list_entry) :: placeholders (a + sizeof_list_entry + x.1.object_size) rest

/-- The copies of `items`, when `c` objects have been constructed before: same class, same
state, the next serial numbers. -/
def copies_of : Nat → List (poly_functions × Object) → List (poly_functions × Object)
  | _, [] => []
  | c, x :: rest => (x.1, ⟨c, x.2.class_id, x.2.value⟩) :: copies_of (c + 1) rest

/-- The invariant that relates the program state `w` and the list `l` to the elements
`items` that the list holds: the buffer is the only live array; the entries of the elements
lie in it one after the other from its start, `last_used_entry` is the last of them; no
other object is alive; and every object constructed so far is an element of the list or
has been destroyed, exactly once. -/
structure Inv (w : World) (l : poly_list) (items : List (poly_functions × Object)) : Prop where
  arrays : w.arrays = if l.buffer = 0 then [] else [(l.buffer, l.buffer_size)]
  null : l.buffer = 0 → l.buffer_size = 0
  bounds : l.buffer ≠ 0 → 0 < l.buffer_size ∧ l.buffer + l.buffer_size ≤ 2 ^ 62
  chain : Chain w l.buffer items
  fits : chain_end l.buffer items ≤ l.buffer + l.buffer_size
  last : l.last_used_entry = last_entry_of l.buffer items
  alive : ∀ p, w.objects p ≠ none → p ∈ placeholders l.buffer items
  serials : (items.map (fun x => x.2.serial) ++ w.destroyed).Perm (List.range w.constructed)

/-- What a call that is left with `exit` keeps, from the state `w`, `l` with the elements
`items` to the state `w'`, `l'`: the invariant, for the elements that the call leaves in
the list. A call that throws leaves the same elements, and has destroyed exactly the
objects it has constructed. A call that returns has destroyed nothing, or it has destroyed
exactly the elements that the list held, which `clear()` does, and `emplace_back` when it
replaces the buffer. -/
def Keeps (w : World) (l : poly_list) (items : List (poly_functions × Object)) (op : Op)
    (w' : World) (l' : poly_list) (exit : Exit) : Prop :=
  ∃ items', Inv w' l' items' ∧
    items'.map (fun x => (x.2.class_id, x.2.value)) =
      op.contents (items.map (fun x => (x.2.class_id, x.2.value))) exit ∧
    (exit = Exit.thrown → items' = items ∧
      w'.destroyed =
        (List.range' w.constructed (w'.constructed - w.constructed)).reverse ++ w.destroyed) ∧
    (exit = Exit.returned → w'.destroyed = w.destroyed ∨
      ((op = Op.clear ∨ l'.buffer ≠ l.buffer) ∧
        w'.destroyed = (items.map (fun x => x.2.serial)).reverse ++ w.destroyed))

end PolyList

namespace Hybrid

open versatile_ptr

/-! ## Word arithmetic: the flag bits in terms of division and remainder -/

theorem land_two_pow (x k : Nat) : x &&& 2 ^ k = 2 ^ k * (x / 2 ^ k % 2) := by
  apply Nat.eq_of_testBit_eq
  intro i
  rw [Nat.testBit_and, Nat.testBit_two_pow, Nat.testBit_mul_pow_two]
  by_cases h : k = i
  · subst h
    simp [Nat.testBit_to_div_mod]
  · simp only [h, decide_False, Bool.and_false]
    by_cases h2 : k ≤ i
    · have : 0 < i - k := by omega
      have h3 : (x / 2 ^ k % 2).testBit (i - k) = false := by
        apply Nat.testBit_lt_two_pow
        calc x / 2 ^ k % 2 < 2 := Nat.mod_lt _ (by decide)
          _ = 2 ^ 1 := by norm_num
          _ ≤ 2 ^ (i - k) := Nat.pow_le_pow_right (by decide) this
      simp [h3]
    · simp [h2]

theorem lor_two_pow_mul (b a i : Nat) (h : b < 2 ^ i) : b ||| 2 ^ i * a = b + 2 ^ i * a := by
  rw [Nat.or_comm, ← Nat.mul_add_lt_is_or h, Nat.add_comm]

theorem IsLinkedPtr_eq : IsLinkedPtr = 2 ^ 63 := by decide
theorem IsDeleterPtr_eq : IsDeleterPtr = 2 ^ 62 := by decide

theorem and_IsLinkedPtr (x : Nat) : x &&& IsLinkedPtr = 2 ^ 63 * (x / 2 ^ 63 % 2) := by
  rw [IsLinkedPtr_eq, land_two_pow]

theorem and_IsDeleterPtr (x : Nat) : x &&& IsDeleterPtr = 2 ^ 62 * (x / 2 ^ 62 % 2) := by
  rw [IsDeleterPtr_eq, land_two_pow]

theorem and_flags (x : Nat) :
    x &&& (IsLinkedPtr ||| IsDeleterPtr) = 2 ^ 62 * (x / 2 ^ 62 % 4) := by
  rw [Nat.and_or_distrib_left, and_IsLinkedPtr, and_IsDeleterPtr, Nat.or_comm]
  have h : 2 ^ 62 * (x / 2 ^ 62 % 2) < 2 ^ 63 := by omega
  rw [lor_two_pow_mul _ _ _ h]
  omega

theorem and_not_IsLinkedPtr (x : Nat) : x &&& (size_t_max ^^^ IsLinkedPtr) = x % 2 ^ 63 := by
  have : size_t_max ^^^ IsLinkedPtr = 2 ^ 63 - 1 := by decide
  rw [this, Nat.and_pow_two_sub_one_eq_mod]

theorem and_not_flags (x : Nat) :
    x &&& (size_t_max ^^^ (IsLinkedPtr ||| IsDeleterPtr)) = x % 2 ^ 62 := by
  have : size_t_max ^^^ (IsLinkedPtr ||| IsDeleterPtr) = 2 ^ 62 - 1 := by decide
  rw [this, Nat.and_pow_two_sub_one_eq_mod]

theorem and_not_IsDeleterPtr (x : Nat) :
    x &&& (size_t_max ^^^ IsDeleterPtr) = x % 2 ^ 62 + 2 ^ 63 * (x / 2 ^ 63 % 2) := by
  have : size_t_max ^^^ IsDeleterPtr = (2 ^ 62 - 1) ||| 2 ^ 63 * 1 := by decide
  rw [this, Nat.and_or_distrib_left, Nat.and_pow_two_sub_one_eq_mod, Nat.mul_one, land_two_pow]
  have h : x % 2 ^ 62 < 2 ^ 63 := by omega
  rw [lor_two_pow_mul _ _ _ h]

theorem or_IsDeleterPtr (d : Nat) (h : d < 2 ^ 62) : d ||| IsDeleterPtr = d + 2 ^ 62 := by
  have := lor_two_pow_mul d 1 62 h
  rw [IsDeleterPtr_eq]; simpa using this

theorem or_IsLinkedPtr (d : Nat) (h : d < 2 ^ 62) : d ||| IsLinkedPtr = d + 2 ^ 63 := by
  have := lor_two_pow_mul d 1 63 (by omega)
  rw [IsLinkedPtr_eq]; simpa using this

theorem or_both (d : Nat) (h : d < 2 ^ 62) :
    d ||| IsLinkedPtr ||| IsDeleterPtr = d + 2 ^ 63 + 2 ^ 62 := by
  rw [Nat.or_assoc]
  have e : IsLinkedPtr ||| IsDeleterPtr = 2 ^ 62 * 3 := by decide
  rw [e, lor_two_pow_mul d 3 62 h]; omega

/-! ## The result monad -/

@[simp] theorem check_true : check true = Except.ok () := rfl

@[simp] theorem check_false : check false = Except.error Fault.assertion := rfl

@[simp] theorem ok_bind {α β : Type} (a : α) (f : α → Res β) :
    (Except.ok a >>= f) = f a := rfl

@[simp] theorem error_bind {α β : Type} (e : Fault) (f : α → Res β) :
    ((Except.error e : Res α) >>= f) = Except.error e := rfl

@[simp] theorem pure_eq {α : Type} (a : α) : (pure a : Res α) = Except.ok a := rfl

theorem check_bind {β : Type} (c : Bool) (f : Unit → Res β) :
    (check c >>= f) = if c then f () else Except.error Fault.assertion := by
  cases c <;> rfl

@[simp] theorem check_bind_error {β : Type} (c : Bool) :
    (check c >>= fun _ => (Except.error Fault.assertion : Res β)) =
      Except.error Fault.assertion := by
  cases c <;> rfl

theorem check_eq_ok {c : Bool} (h : c = true) : check c = Except.ok () := by
  subst h; rfl

/-! ## Queries on the words, in arithmetic form -/

theorem is_null_iff (a : Nat) : is_null a = decide (a = 0) := by
  rw [Bool.eq_iff_iff]; simp [is_null]

theorem is_deleter_ptr_iff (a : Nat) : is_deleter_ptr a = decide (a / 2 ^ 62 % 2 = 1) := by
  rw [Bool.eq_iff_iff]; simp only [is_deleter_ptr, and_IsDeleterPtr, bne_iff_ne, decide_eq_true_eq]
  omega

theorem linked_bit_iff (a : Nat) :
    ((a &&& IsLinkedPtr) != 0) = decide (a / 2 ^ 63 % 2 = 1) := by
  rw [Bool.eq_iff_iff]; simp only [and_IsLinkedPtr, bne_iff_ne, decide_eq_true_eq]
  omega

theorem is_shared_data_iff (a : Nat) :
    is_shared_data a = decide (a ≠ 0 ∧ a / 2 ^ 62 % 4 = 0) := by
  rw [Bool.eq_iff_iff]
  simp only [is_shared_data, and_flags, bne_iff_ne, beq_iff_eq, Bool.and_eq_true,
    decide_eq_true_eq]
  omega

theorem is_obj_iff (h : hybrid_shared_ptr) :
    is_obj h = decide (h.ptr_to_obj_or_root_ptr_on_stack ≠ 0 ∧
      h.ptr_to_obj_or_root_ptr_on_stack / 2 ^ 63 % 2 = 0) := by
  rw [Bool.eq_iff_iff]
  simp only [is_obj, and_IsLinkedPtr, bne_iff_ne, beq_iff_eq, Bool.and_eq_true,
    decide_eq_true_eq]
  omega

/-! ## Queries on the representation of each state -/

section words

variable {env : Env} {t o d r g s b : Nat}

theorem ObjAddr.is_obj (ho : ObjAddr o) (a : Nat) : is_obj ⟨o, a⟩ = true := by
  rw [is_obj_iff]; exact decide_eq_true (by unfold ObjAddr at ho; dsimp only; omega)

theorem ObjAddr.linked_bit (ho : ObjAddr o) : ((o &&& IsLinkedPtr) != 0) = false := by
  rw [linked_bit_iff]; exact decide_eq_false (by unfold ObjAddr at ho; omega)

theorem ObjAddr.bne (ho : ObjAddr o) : (o != 0) = true := by
  simp [ho.1]

theorem link_word_is_obj (hs : Addr62 s) (a : Nat) : is_obj ⟨s ||| IsLinkedPtr, a⟩ = false := by
  rw [is_obj_iff, or_IsLinkedPtr s hs]
  exact decide_eq_false (by unfold Addr62 at hs; dsimp only; omega)

theorem link_word_bne (hs : Addr62 s) : ((s ||| IsLinkedPtr) != 0) = true := by
  rw [or_IsLinkedPtr s hs]; simp

theorem link_word_linked_bit (hs : Addr62 s) :
    (((s ||| IsLinkedPtr) &&& IsLinkedPtr) != 0) = true := by
  rw [linked_bit_iff, or_IsLinkedPtr s hs]
  exact decide_eq_true (by unfold Addr62 at hs; omega)

theorem link_word_target (hs : Addr62 s) :
    (s ||| IsLinkedPtr) &&& (size_t_max ^^^ IsLinkedPtr) = s := by
  rw [and_not_IsLinkedPtr, or_IsLinkedPtr s hs]; unfold Addr62 at hs; omega

theorem null_is_obj (a : Nat) : is_obj ⟨0, a⟩ = false := by
  rw [is_obj_iff]; simp

/-! ### `ptr` holds a deleter: `d ||| IsDeleterPtr` -/

theorem del_is_null (hd : Addr62 d) : is_null (d ||| IsDeleterPtr) = false := by
  rw [is_null_iff, or_IsDeleterPtr d hd]; simp

theorem del_is_shared_data (hd : Addr62 d) : is_shared_data (d ||| IsDeleterPtr) = false := by
  rw [is_shared_data_iff, or_IsDeleterPtr d hd]
  exact decide_eq_false (by unfold Addr62 at hd; omega)

theorem del_is_deleter_ptr (hd : Addr62 d) : is_deleter_ptr (d ||| IsDeleterPtr) = true := by
  rw [is_deleter_ptr_iff, or_IsDeleterPtr d hd]
  exact decide_eq_true (by unfold Addr62 at hd; omega)

theorem del_is_linked_ptr (hd : Addr62 d) :
    is_linked_ptr env t (d ||| IsDeleterPtr) = Except.ok false := by
  have : (((d ||| IsDeleterPtr) &&& IsLinkedPtr) != 0) = false := by
    rw [linked_bit_iff, or_IsDeleterPtr d hd]
    exact decide_eq_false (by unfold Addr62 at hd; omega)
  simp [is_linked_ptr, this]

theorem del_get_deleter_ptr (hd : Addr62 d) :
    get_deleter_ptr (d ||| IsDeleterPtr) = Except.ok d := by
  have : (d ||| IsDeleterPtr) &&& (size_t_max ^^^ IsDeleterPtr) = d := by
    rw [and_not_IsDeleterPtr, or_IsDeleterPtr d hd]; unfold Addr62 at hd; omega
  simp [get_deleter_ptr, del_is_null hd, del_is_deleter_ptr hd, this]

/-! ### `ptr` links to a stack root: `r ||| IsLinkedPtr` -/

theorem link_is_null (hr : Addr62 r) : is_null (r ||| IsLinkedPtr) = false := by
  rw [is_null_iff, or_IsLinkedPtr r hr]; simp

theorem link_is_shared_data (hr : Addr62 r) : is_shared_data (r ||| IsLinkedPtr) = false := by
  rw [is_shared_data_iff, or_IsLinkedPtr r hr]
  exact decide_eq_false (by unfold Addr62 at hr; omega)

theorem link_is_deleter_ptr (hr : Addr62 r) : is_deleter_ptr (r ||| IsLinkedPtr) = false := by
  rw [is_deleter_ptr_iff, or_IsLinkedPtr r hr]
  exact decide_eq_false (by unfold Addr62 at hr; omega)

theorem link_is_linked_ptr (hr : Addr62 r) :
    is_linked_ptr env t (r ||| IsLinkedPtr) =
      if is_address_in_stack env t then Except.ok true else Except.error Fault.assertion := by
  simp only [is_linked_ptr, link_word_linked_bit hr]
  cases is_address_in_stack env t <;> rfl

theorem link_get_linked_ptr (hr : Addr62 r) :
    get_linked_ptr env t (r ||| IsLinkedPtr) =
      if is_address_in_stack env t then Except.ok r else Except.error Fault.assertion := by
  have : (r ||| IsLinkedPtr) &&& (size_t_max ^^^ (IsLinkedPtr ||| IsDeleterPtr)) = r := by
    rw [and_not_flags, or_IsLinkedPtr r hr]; unfold Addr62 at hr; omega
  simp only [get_linked_ptr, link_is_null hr, link_is_linked_ptr hr, this]
  cases is_address_in_stack env t <;> rfl

/-! ### `ptr` links to the heap handle holding the deleter -/

theorem cross_is_null (hg : Addr62 g) : is_null (g ||| IsLinkedPtr ||| IsDeleterPtr) = false := by
  rw [is_null_iff, or_both g hg]; simp

theorem cross_is_shared_data (hg : Addr62 g) :
    is_shared_data (g ||| IsLinkedPtr ||| IsDeleterPtr) = false := by
  rw [is_shared_data_iff, or_both g hg]
  exact decide_eq_false (by unfold Addr62 at hg; omega)

theorem cross_is_deleter_ptr (hg : Addr62 g) :
    is_deleter_ptr (g ||| IsLinkedPtr ||| IsDeleterPtr) = true := by
  rw [is_deleter_ptr_iff, or_both g hg]
  exact decide_eq_true (by unfold Addr62 at hg; omega)

theorem cross_is_linked_ptr (hg : Addr62 g) :
    is_linked_ptr env t (g ||| IsLinkedPtr ||| IsDeleterPtr) =
      if is_address_in_stack env t then Except.ok true else Except.error Fault.assertion := by
  have : (((g ||| IsLinkedPtr ||| IsDeleterPtr) &&& IsLinkedPtr) != 0) = true := by
    rw [linked_bit_iff, or_both g hg]
    exact decide_eq_true (by unfold Addr62 at hg; omega)
  simp only [is_linked_ptr, this]
  cases is_address_in_stack env t <;> rfl

theorem cross_get_linked_ptr (hg : Addr62 g) :
    get_linked_ptr env t (g ||| IsLinkedPtr ||| IsDeleterPtr) =
      if is_address_in_stack env t then Except.ok g else Except.error Fault.assertion := by
  have : (g ||| IsLinkedPtr ||| IsDeleterPtr) &&&
      (size_t_max ^^^ (IsLinkedPtr ||| IsDeleterPtr)) = g := by
    rw [and_not_flags, or_both g hg]; unfold Addr62 at hg; omega
  simp only [get_linked_ptr, cross_is_null hg, cross_is_linked_ptr hg, this]
  cases is_address_in_stack env t <;> rfl

/-! ### `ptr` holds the address of a `shared_data` -/

theorem blk_is_null (hb : b ≠ 0) : is_null b = false := by
  rw [is_null_iff]; simp [hb]

theorem blk_is_shared_data (hb : b ≠ 0) (hb2 : Addr62 b) : is_shared_data b = true := by
  rw [is_shared_data_iff]
  exact decide_eq_true (by unfold Addr62 at hb2; omega)

theorem blk_is_deleter_ptr (hb2 : Addr62 b) : is_deleter_ptr b = false := by
  rw [is_deleter_ptr_iff]
  exact decide_eq_false (by unfold Addr62 at hb2; omega)

theorem blk_is_linked_ptr (hb2 : Addr62 b) : is_linked_ptr env t b = Except.ok false := by
  have : ((b &&& IsLinkedPtr) != 0) = false := by
    rw [linked_bit_iff]
    exact decide_eq_false (by unfold Addr62 at hb2; omega)
  simp [is_linked_ptr, this]

theorem blk_get_shared_data (hb : b ≠ 0) (hb2 : Addr62 b) :
    get_shared_data env b =
      if is_address_in_cpp_heap env b then Except.ok b else Except.error Fault.assertion := by
  simp only [get_shared_data, blk_is_null hb, blk_is_shared_data hb hb2]
  cases is_address_in_cpp_heap env b <;> rfl

/-! ### `ptr` is null -/

theorem zero_is_null : is_null 0 = true := rfl

theorem zero_is_shared_data : is_shared_data 0 = false := rfl

theorem zero_is_deleter_ptr : is_deleter_ptr 0 = false := by
  rw [is_deleter_ptr_iff]; rfl

theorem zero_is_linked_ptr : is_linked_ptr env t 0 = Except.ok false := by
  have : ((0 &&& IsLinkedPtr) != 0) = false := by rw [linked_bit_iff]; rfl
  simp [is_linked_ptr, this]

end words

/-! ## Reading and writing the program state -/

section world

variable {w : World} {p a : Nat} {h : hybrid_shared_ptr}

theorem wr_mem (w : World) (p a : Nat) (h : hybrid_shared_ptr) :
    (w.wr p h).mem a = if a = p then some h else w.mem a := rfl

theorem rd_eq (w : World) (p : Nat) :
    w.rd p = match w.mem p with
      | some h => Except.ok h
      | none => Except.error Fault.invalid := rfl

theorem rd_eq_ok (hm : w.mem p = some h) : w.rd p = Except.ok h := by
  simp [World.rd, hm]

theorem rd_eq_invalid (hm : w.mem p = none) : w.rd p = Except.error Fault.invalid := by
  simp [World.rd, hm]

@[simp] theorem wr_mem_self (w : World) (p : Nat) (h : hybrid_shared_ptr) :
    (w.wr p h).mem p = some h := by
  simp [World.wr]

theorem wr_mem_other (w : World) (h : hybrid_shared_ptr) (hne : a ≠ p) :
    (w.wr p h).mem a = w.mem a := by
  simp [World.wr, hne]

@[simp] theorem wr_rd_self (w : World) (p : Nat) (h : hybrid_shared_ptr) :
    (w.wr p h).rd p = Except.ok h := by
  simp [World.rd]

theorem wr_rd_other (w : World) (h : hybrid_shared_ptr) (hne : a ≠ p) :
    (w.wr p h).rd a = w.rd a := by
  simp [World.rd, wr_mem_other w h hne]

@[simp] theorem wr_heap (w : World) (p : Nat) (h : hybrid_shared_ptr) :
    (w.wr p h).heap = w.heap := rfl

@[simp] theorem wr_total (w : World) (p : Nat) (h : hybrid_shared_ptr) :
    (w.wr p h).total_nb_allocs = w.total_nb_allocs := rfl

@[simp] theorem wr_deleted (w : World) (p : Nat) (h : hybrid_shared_ptr) :
    (w.wr p h).deleted = w.deleted := rfl

@[simp] theorem wr_rd_data (w : World) (p d : Nat) (h : hybrid_shared_ptr) :
    (w.wr p h).rd_data d = w.rd_data d := rfl

@[simp] theorem wr_wr_self (w : World) (p : Nat) (h h2 : hybrid_shared_ptr) :
    (w.wr p h).wr p h2 = w.wr p h2 := by
  simp only [World.wr]
  congr 1
  funext a
  by_cases ha : a = p <;> simp [ha]

theorem wr_ptr_eq (hm : w.mem p = some h) (v : Nat) :
    w.wr_ptr p v = Except.ok (w.wr p ⟨h.ptr_to_obj_or_root_ptr_on_stack, v⟩) := by
  simp [World.wr_ptr, rd_eq_ok hm]

theorem wr_obj_eq (hm : w.mem p = some h) (v : Nat) :
    w.wr_obj p v = Except.ok (w.wr p ⟨v, h.ptr⟩) := by
  simp [World.wr_obj, rd_eq_ok hm]

@[simp] theorem wr_data_mem (w : World) (d : Nat) (b : shared_data) :
    (w.wr_data d b).mem = w.mem := rfl

@[simp] theorem wr_data_rd (w : World) (d : Nat) (b : shared_data) (p : Nat) :
    (w.wr_data d b).rd p = w.rd p := rfl

@[simp] theorem wr_data_heap_self (w : World) (d : Nat) (b : shared_data) :
    (w.wr_data d b).heap d = some b := by
  simp [World.wr_data]

theorem wr_data_heap_other (w : World) (b : shared_data) {d : Nat} (hne : a ≠ d) :
    (w.wr_data d b).heap a = w.heap a := by
  simp [World.wr_data, hne]

@[simp] theorem wr_data_rd_data_self (w : World) (d : Nat) (b : shared_data) :
    (w.wr_data d b).rd_data d = Except.ok b := by
  simp [World.rd_data]

@[simp] theorem wr_data_total (w : World) (d : Nat) (b : shared_data) :
    (w.wr_data d b).total_nb_allocs = w.total_nb_allocs := rfl

@[simp] theorem wr_data_deleted (w : World) (d : Nat) (b : shared_data) :
    (w.wr_data d b).deleted = w.deleted := rfl

theorem rd_data_eq_ok {d : Nat} {b : shared_data} (hm : w.heap d = some b) :
    w.rd_data d = Except.ok b := by
  simp [World.rd_data, hm]

@[simp] theorem call_deleter_mem (w : World) (d o : Nat) : (w.call_deleter d o).mem = w.mem := rfl

@[simp] theorem call_deleter_rd (w : World) (d o p : Nat) :
    (w.call_deleter d o).rd p = w.rd p := rfl

@[simp] theorem call_deleter_heap (w : World) (d o : Nat) :
    (w.call_deleter d o).heap = w.heap := rfl

@[simp] theorem call_deleter_total (w : World) (d o : Nat) :
    (w.call_deleter d o).total_nb_allocs = w.total_nb_allocs := rfl

@[simp] theorem call_deleter_deleted (w : World) (d o : Nat) :
    (w.call_deleter d o).deleted = (d, o) :: w.deleted := rfl

@[simp] theorem free_data_mem (w : World) (d : Nat) : (w.free_data d).mem = w.mem := rfl

@[simp] theorem free_data_rd (w : World) (d p : Nat) : (w.free_data d).rd p = w.rd p := rfl

@[simp] theorem free_data_heap_self (w : World) (d : Nat) : (w.free_data d).heap d = none := by
  simp [World.free_data]

theorem free_data_heap_other (w : World) {d : Nat} (hne : a ≠ d) :
    (w.free_data d).heap a = w.heap a := by
  simp [World.free_data, hne]

@[simp] theorem free_data_total (w : World) (d : Nat) :
    (w.free_data d).total_nb_allocs = w.total_nb_allocs := rfl

@[simp] theorem free_data_deleted (w : World) (d : Nat) :
    (w.free_data d).deleted = w.deleted := rfl

@[simp] theorem new_shared_data_mem (w : World) (d x : Nat) :
    (w.new_shared_data d x).mem = w.mem := rfl

@[simp] theorem new_shared_data_rd (w : World) (d x p : Nat) :
    (w.new_shared_data d x).rd p = w.rd p := rfl

@[simp] theorem new_shared_data_heap_self (w : World) (d x : Nat) :
    (w.new_shared_data d x).heap d = some ⟨1, x⟩ := by
  simp [World.new_shared_data]

theorem new_shared_data_heap_other (w : World) {d : Nat} (x : Nat) (hne : a ≠ d) :
    (w.new_shared_data d x).heap a = w.heap a := by
  simp [World.new_shared_data, hne]

@[simp] theorem new_shared_data_total (w : World) (d x : Nat) :
    (w.new_shared_data d x).total_nb_allocs = pre_increment w.total_nb_allocs := rfl

@[simp] theorem new_shared_data_deleted (w : World) (d x : Nat) :
    (w.new_shared_data d x).deleted = w.deleted := rfl

/-! Writes to handles are moved outside writes to blocks. -/

theorem wr_comm (w : World) {p q : Nat} (h k : hybrid_shared_ptr) (hne : p ≠ q) :
    (w.wr p h).wr q k = (w.wr q k).wr p h := by
  simp only [World.wr]
  congr 1
  funext a
  by_cases h1 : a = q
  · subst h1
    simp [Ne.symm hne]
  · simp [h1]

theorem wr_wr_wr (w : World) {p q : Nat} (h k h2 : hybrid_shared_ptr) (hne : p ≠ q) :
    ((w.wr p h).wr q k).wr p h2 = (w.wr q k).wr p h2 := by
  rw [wr_comm _ _ _ hne, wr_wr_self]

theorem pre_increment_one : pre_increment 1 = 2 := by decide

@[simp] theorem wr_wr_data (w : World) (p d : Nat) (h : hybrid_shared_ptr) (b : shared_data) :
    (w.wr p h).wr_data d b = (w.wr_data d b).wr p h := rfl

@[simp] theorem wr_new_shared_data (w : World) (p d x : Nat) (h : hybrid_shared_ptr) :
    (w.wr p h).new_shared_data d x = (w.new_shared_data d x).wr p h := rfl

@[simp] theorem wr_call_deleter (w : World) (p d o : Nat) (h : hybrid_shared_ptr) :
    (w.wr p h).call_deleter d o = (w.call_deleter d o).wr p h := rfl

@[simp] theorem wr_free_data (w : World) (p d : Nat) (h : hybrid_shared_ptr) :
    (w.wr p h).free_data d = (w.free_data d).wr p h := rfl

@[simp] theorem wr_data_wr_data_self (w : World) (d : Nat) (b b2 : shared_data) :
    (w.wr_data d b).wr_data d b2 = w.wr_data d b2 := by
  simp only [World.wr_data]
  congr 1
  funext a
  by_cases ha : a = d <;> simp [ha]

@[simp] theorem new_shared_data_wr_data_self (w : World) (d x : Nat) (b2 : shared_data) :
    ((w.new_shared_data d x).wr_data d b2).heap d = some b2 := by
  simp

/-- The two assignments that end the destructor. -/
theorem clear_eq (hm : w.mem p = some h) :
    (w.wr_obj p 0 >>= fun w1 => w1.wr_ptr p 0) = Except.ok (w.wr p ⟨0, 0⟩) := by
  rw [wr_obj_eq hm, ok_bind, wr_ptr_eq (wr_mem_self _ _ _), wr_wr_self]

end world

end Hybrid

namespace Hybrid

open versatile_ptr

/-! ## The private members on a handle in a known state -/

section members

variable {env : Env} {w : World} {p o d r g s b : Nat}

theorem obj_eq (ho : ObjAddr o) (a : Nat) :
    obj env ⟨o, a⟩ =
      if is_address_in_cpp_heap env o then Except.ok o else Except.error Fault.assertion := by
  simp only [obj, ho.is_obj, check_true, ok_bind]
  cases is_address_in_cpp_heap env o <;> rfl

theorem get_stack_root_ptr_linked (hm : w.mem p = some ⟨o, r ||| IsLinkedPtr⟩) (hr : Addr62 r) :
    get_stack_root_ptr env w p =
      if is_address_in_stack env p && is_address_in_stack env (ptr_addr p) then Except.ok r
      else Except.error Fault.assertion := by
  simp only [get_stack_root_ptr, rd_eq_ok hm, link_is_null hr, link_is_linked_ptr hr,
    link_is_deleter_ptr hr, link_get_linked_ptr hr, ok_bind]
  cases is_address_in_stack env p <;> cases is_address_in_stack env (ptr_addr p) <;> rfl

theorem get_stack_root_ptr_del (hm : w.mem p = some ⟨o, d ||| IsDeleterPtr⟩) (hd : Addr62 d) :
    get_stack_root_ptr env w p =
      if is_address_in_stack env p then Except.ok p else Except.error Fault.assertion := by
  simp only [get_stack_root_ptr, rd_eq_ok hm, del_is_null hd, del_is_linked_ptr hd, ok_bind]
  cases is_address_in_stack env p <;> rfl

theorem get_stack_root_ptr_cross (hm : w.mem p = some ⟨o, g ||| IsLinkedPtr ||| IsDeleterPtr⟩)
    (hg : Addr62 g) :
    get_stack_root_ptr env w p =
      if is_address_in_stack env p && is_address_in_stack env (ptr_addr p) then Except.ok p
      else Except.error Fault.assertion := by
  simp only [get_stack_root_ptr, rd_eq_ok hm, cross_is_null hg, cross_is_linked_ptr hg,
    cross_is_deleter_ptr hg, ok_bind]
  cases is_address_in_stack env p <;> cases is_address_in_stack env (ptr_addr p) <;> rfl

theorem get_stack_root_ptr_blk (hm : w.mem p = some ⟨o, b⟩) (hb : b ≠ 0) (hb2 : Addr62 b) :
    get_stack_root_ptr env w p =
      if is_address_in_stack env p then Except.ok p else Except.error Fault.assertion := by
  simp only [get_stack_root_ptr, rd_eq_ok hm, blk_is_null hb, blk_is_linked_ptr hb2, ok_bind]
  cases is_address_in_stack env p <;> rfl

end members

/-! ## The destructor, state by state -/

section dtor

variable {env : Env} {w : World} {this o d r g s b c dl : Nat}

theorem dtor_null (hm : w.mem this = some ⟨0, 0⟩) : dtor env w this = Except.ok w := by
  simp [dtor, rd_eq_ok hm, zero_is_null]

theorem dtor_owning (hm : w.mem this = some ⟨o, d ||| IsDeleterPtr⟩) (ho : ObjAddr o)
    (hd : Addr62 d) :
    dtor env w this =
      if is_address_in_cpp_heap env o then
        Except.ok ((w.call_deleter d o).wr this ⟨0, 0⟩)
      else Except.error Fault.assertion := by
  simp only [dtor, rd_eq_ok hm, ho.bne, ho.is_obj, del_is_linked_ptr hd, del_is_deleter_ptr hd,
    del_get_deleter_ptr hd, obj_eq ho, ok_bind, if_true]
  cases is_address_in_cpp_heap env o
  · rfl
  · have hm2 : (w.call_deleter d o).mem this = some ⟨o, d ||| IsDeleterPtr⟩ := hm
    simp only [if_true, ok_bind, pure_eq]
    exact clear_eq hm2

/-- A handle linked to the stack root `r`, which stores the object `o2`. -/
theorem dtor_linked (hm : w.mem this = some ⟨o, r ||| IsLinkedPtr⟩) (ho : ObjAddr o)
    (hr : Addr62 r) {o2 a2 : Nat} (hroot : w.mem r = some ⟨o2, a2⟩) (ho2 : ObjAddr o2) :
    dtor env w this =
      if is_address_in_stack env this && is_address_in_stack env (ptr_addr this) &&
          is_address_in_cpp_heap env o && is_address_in_cpp_heap env o2 && (o == o2) then
        Except.ok (w.wr this ⟨0, 0⟩)
      else Except.error Fault.assertion := by
  simp only [dtor, rd_eq_ok hm, ho.bne, ho.is_obj, link_is_linked_ptr hr, link_is_deleter_ptr hr,
    obj_eq ho, get_stack_root_ptr_linked hm hr, if_true, ok_bind]
  cases h0 : is_address_in_stack env this <;>
  cases h1 : is_address_in_stack env (ptr_addr this) <;>
  cases h2 : is_address_in_cpp_heap env o <;>
  cases h3 : is_address_in_cpp_heap env o2 <;>
  cases h4 : (o == o2) <;>
  simp [rd_eq_ok hroot, obj_eq ho2, h3, h4, clear_eq hm]

/-- The stack side of a cross-link, whose heap partner `g` is live. -/
theorem dtor_cross_stack (hm : w.mem this = some ⟨o, g ||| IsLinkedPtr ||| IsDeleterPtr⟩)
    (ho : ObjAddr o) (hg : Addr62 g) {x a2 : Nat} (hpart : w.mem g = some ⟨x ||| IsLinkedPtr, a2⟩)
    (hx : Addr62 x) (hne : g ≠ this) :
    dtor env w this =
      if is_address_in_stack env this && is_address_in_stack env (ptr_addr this) &&
          is_address_in_cpp_heap env o && !is_address_in_stack env g then
        Except.ok ((w.wr g ⟨o, a2⟩).wr this ⟨0, 0⟩)
      else Except.error Fault.assertion := by
  have h5 : (w.wr g ⟨o, a2⟩).mem this = some ⟨o, g ||| IsLinkedPtr ||| IsDeleterPtr⟩ := by
    rw [wr_mem_other _ _ (Ne.symm hne)]; exact hm
  simp only [dtor, rd_eq_ok hm, ho.bne, ho.is_obj, cross_is_linked_ptr hg,
    cross_is_deleter_ptr hg, obj_eq ho, undo_cross_link, cross_get_linked_ptr hg,
    is_crosslinked, if_true, ok_bind]
  cases h0 : is_address_in_stack env this <;>
  cases h1 : is_address_in_stack env (ptr_addr this) <;>
  cases h2 : is_address_in_cpp_heap env o <;>
  cases h3 : is_address_in_stack env g <;>
  simp [rd_eq_ok hpart, link_word_linked_bit hx, wr_obj_eq hpart, wr_ptr_eq h5, h0, h1, h2, h3,
    clear_eq (wr_mem_self _ _ _)]

/-- The heap side of a cross-link, whose stack partner `s` is live. -/
theorem dtor_cross_heap (hm : w.mem this = some ⟨s ||| IsLinkedPtr, d ||| IsDeleterPtr⟩)
    (hs : Addr62 s) (hd : Addr62 d) (hthis : Addr62 this)
    (hpart : w.mem s = some ⟨o, this ||| IsLinkedPtr ||| IsDeleterPtr⟩) (ho : ObjAddr o)
    (hne : s ≠ this) :
    dtor env w this =
      if !is_address_in_stack env this && is_address_in_stack env s &&
          is_address_in_stack env (ptr_addr s) then
        Except.ok ((w.wr s ⟨o, d ||| IsDeleterPtr⟩).wr this ⟨0, 0⟩)
      else Except.error Fault.assertion := by
  have h3 : (w.wr s ⟨o, d ||| IsDeleterPtr⟩).mem this =
      some ⟨s ||| IsLinkedPtr, d ||| IsDeleterPtr⟩ := by
    rw [wr_mem_other _ _ (Ne.symm hne)]; exact hm
  simp only [dtor, rd_eq_ok hm, link_word_bne hs, link_word_is_obj hs, is_crosslinked,
    link_word_linked_bit hs, del_is_deleter_ptr hd, get_crosslinked_ptr, link_word_target hs,
    get_stack_root_ptr_cross hpart hthis, is_address_in_cpp_heap, get_global_root_ptr,
    cross_is_shared_data hthis, cross_is_null hthis, del_get_deleter_ptr hd, set_deleter_ptr,
    if_true, ok_bind]
  cases h0 : is_address_in_stack env this <;> cases h1 : is_address_in_stack env s <;>
    cases h2 : is_address_in_stack env (ptr_addr s) <;>
  simp [rd_eq_ok hpart, cross_is_shared_data hthis, cross_is_null hthis,
    cross_is_linked_ptr hthis, cross_get_linked_ptr hthis, ho.is_obj, cross_is_null hthis,
    get_stack_root_ptr_cross hpart hthis, wr_ptr_eq hpart, h0, h1, h2, clear_eq h3]

/-- A handle that shares the block `b`. -/
theorem dtor_shared (hm : w.mem this = some ⟨o, b⟩) (ho : ObjAddr o) (hb : b ≠ 0)
    (hb2 : Addr62 b) (hblk : w.heap b = some ⟨c, dl⟩) :
    dtor env w this =
      if is_address_in_cpp_heap env b then
        if pre_decrement c = 0 then
          if is_address_in_cpp_heap env o then
            Except.ok ((((w.wr_data b ⟨0, dl⟩).call_deleter dl o).free_data b).wr this ⟨0, 0⟩)
          else Except.error Fault.assertion
        else Except.ok ((w.wr_data b ⟨pre_decrement c, dl⟩).wr this ⟨0, 0⟩)
      else Except.error Fault.assertion := by
  have e1 := clear_eq (w := ((w.wr_data b ⟨0, dl⟩).call_deleter dl o).free_data b) hm
  have e2 := clear_eq (w := w.wr_data b ⟨pre_decrement c, dl⟩) hm
  simp only [dtor, rd_eq_ok hm, ho.bne, ho.is_obj, blk_is_linked_ptr hb2, blk_is_deleter_ptr hb2,
    blk_get_shared_data hb hb2, obj_eq ho, if_true, ok_bind]
  cases h0 : is_address_in_cpp_heap env b <;> cases h1 : is_address_in_cpp_heap env o <;>
    by_cases hz : pre_decrement c = 0 <;>
  simp [rd_data_eq_ok hblk, hz, e1, e2]

end dtor

/-! ## The constructor from a raw pointer -/

section ctor

variable {env : Env} {w : World} {this t : Nat}

theorem ctor_null : ctor env w this 0 = Except.ok (w.wr this ⟨0, 0⟩) := by
  simp [ctor, null_is_obj]

theorem ctor_obj (ht : ObjAddr t) (hd : Addr62 env.deleter) :
    ctor env w this t = Except.ok (w.wr this ⟨t, env.deleter ||| IsDeleterPtr⟩) := by
  simp [ctor, ht.is_obj, set_deleter_ptr, zero_is_null, del_get_deleter_ptr hd,
    wr_ptr_eq (wr_mem_self _ _ _)]

end ctor

end Hybrid

namespace Hybrid

open versatile_ptr

/-! ## Building blocks of the copy constructor -/

section blocks

variable {env : Env} {w : World} {this other p o o2 a x d r g s b c dl data : Nat}

theorem get_stack_root_ptr_congr {w1 w2 : World} (h : w1.mem p = w2.mem p) :
    get_stack_root_ptr env w1 p = get_stack_root_ptr env w2 p := by
  simp only [get_stack_root_ptr, rd_eq, h]

theorem inc_ref_eq (env : Env) (hm : w.mem this = some ⟨x, 0⟩) (hother : w.mem other = some ⟨o, b⟩)
    (hb : b ≠ 0) (hb2 : Addr62 b) (hblk : w.heap b = some ⟨c, dl⟩) :
    inc_ref env w this other =
      if is_address_in_cpp_heap env b then
        Except.ok ((w.wr_data b ⟨pre_increment c, dl⟩).wr this ⟨x, b⟩)
      else Except.error Fault.assertion := by
  simp only [inc_ref, rd_eq_ok hm, rd_eq_ok hother, zero_is_null, blk_is_null hb,
    blk_get_shared_data hb hb2, set_shared_data, wr_ptr_eq hm, ok_bind, Bool.not_false,
    Bool.and_self, check_true, Bool.true_or]
  cases h0 : is_address_in_cpp_heap env b
  · simp
  · simp [rd_data_eq_ok hblk, blk_get_shared_data hb hb2, h0]

theorem create_shared_data_eq (hm : w.mem p = some ⟨o, d ||| IsDeleterPtr⟩) (ho : ObjAddr o)
    (hd : Addr62 d) (nb : Option Nat) :
    create_shared_data env w p nb =
      if is_address_in_cpp_heap env o then
        match nb with
        | none => Except.error (Fault.bad_alloc w)
        | some data => Except.ok ((w.new_shared_data data d).wr p ⟨o, data⟩)
      else Except.error Fault.assertion := by
  have hm2 : ∀ data, (w.new_shared_data data d).mem p = some ⟨o, d ||| IsDeleterPtr⟩ :=
    fun _ => hm
  simp only [create_shared_data, rd_eq_ok hm, obj_eq ho, del_is_deleter_ptr hd,
    del_get_deleter_ptr hd, ok_bind]
  cases h0 : is_address_in_cpp_heap env o
  · simp
  · cases nb with
    | none => simp [ho.bne]
    | some data => simp [ho.bne, set_shared_data, del_is_deleter_ptr hd, wr_ptr_eq (hm2 data)]

/-- `link_to_ptr_on_stack`, when the stack root of `other` is `r` under condition `C`. -/
theorem link_to_ptr_on_stack_eq (env : Env) (hm : w.mem this = some ⟨x, a⟩)
    (hother : w.mem other = some ⟨o, o2⟩) (ho : ObjAddr o) (hne : this ≠ other) (C : Bool)
    (hroot : get_stack_root_ptr env w other =
      if C then Except.ok r else Except.error Fault.assertion) :
    link_to_ptr_on_stack env w this other =
      if is_address_in_stack env this && is_address_in_stack env other &&
          is_address_in_stack env (ptr_addr this) && C && is_address_in_cpp_heap env o then
        Except.ok (w.wr this ⟨o, r ||| IsLinkedPtr⟩)
      else Except.error Fault.assertion := by
  have h1 : ∀ v, (w.wr this v).mem other = some ⟨o, o2⟩ := by
    intro v; rw [wr_mem_other _ _ (Ne.symm hne)]; exact hother
  simp only [link_to_ptr_on_stack, set_linked_ptr, hroot, wr_ptr_eq hm]
  cases is_address_in_stack env this <;> cases is_address_in_stack env other <;>
    cases is_address_in_stack env (ptr_addr this) <;> cases C <;>
    cases h5 : is_address_in_cpp_heap env o <;>
    simp [rd_eq_ok (h1 _), obj_eq ho, h5, wr_obj_eq (wr_mem_self _ _ _)]

theorem get_global_root_ptr_del (hm : w.mem p = some ⟨o, d ||| IsDeleterPtr⟩) (hd : Addr62 d) :
    get_global_root_ptr env w p =
      if is_address_in_stack env p then Except.ok p else Except.error Fault.assertion := by
  simp only [get_global_root_ptr, rd_eq_ok hm, del_is_shared_data hd, del_is_null hd,
    get_stack_root_ptr_del hm hd, ok_bind]
  cases h0 : is_address_in_stack env p <;> simp [rd_eq_ok hm, del_is_linked_ptr hd, h0]

theorem get_global_root_ptr_cross (hm : w.mem p = some ⟨o, g ||| IsLinkedPtr ||| IsDeleterPtr⟩)
    (hg : Addr62 g) :
    get_global_root_ptr env w p =
      if is_address_in_stack env p && is_address_in_stack env (ptr_addr p) then Except.ok g
      else Except.error Fault.assertion := by
  simp only [get_global_root_ptr, rd_eq_ok hm, cross_is_shared_data hg, cross_is_null hg,
    get_stack_root_ptr_cross hm hg, ok_bind]
  cases h0 : is_address_in_stack env p <;> cases h1 : is_address_in_stack env (ptr_addr p) <;>
    simp [rd_eq_ok hm, cross_is_linked_ptr hg, cross_get_linked_ptr hg, h1]

/-- A linked handle whose stack root holds the deleter itself. -/
theorem get_global_root_ptr_linked_del (hm : w.mem p = some ⟨o, r ||| IsLinkedPtr⟩)
    (hr : Addr62 r) (hroot : w.mem r = some ⟨o2, d ||| IsDeleterPtr⟩) (hd : Addr62 d)
    (hne : r ≠ p) :
    get_global_root_ptr env w p =
      if is_address_in_stack env p && is_address_in_stack env (ptr_addr p) &&
          is_address_in_stack env r then Except.ok r
      else Except.error Fault.assertion := by
  simp only [get_global_root_ptr, rd_eq_ok hm, link_is_shared_data hr, link_is_null hr,
    get_stack_root_ptr_linked hm hr, ok_bind]
  cases h0 : is_address_in_stack env p <;> cases h1 : is_address_in_stack env (ptr_addr p) <;>
    cases h2 : is_address_in_stack env r <;>
    simp [rd_eq_ok hroot, del_is_linked_ptr hd, h2, beq_false_of_ne hne]

/-- A linked handle whose stack root shares a block. -/
theorem get_global_root_ptr_linked_blk (hm : w.mem p = some ⟨o, r ||| IsLinkedPtr⟩)
    (hr : Addr62 r) (hroot : w.mem r = some ⟨o2, b⟩) (hb2 : Addr62 b) (hne : r ≠ p) :
    get_global_root_ptr env w p =
      if is_address_in_stack env p && is_address_in_stack env (ptr_addr p) &&
          is_address_in_stack env r then Except.ok r
      else Except.error Fault.assertion := by
  simp only [get_global_root_ptr, rd_eq_ok hm, link_is_shared_data hr, link_is_null hr,
    get_stack_root_ptr_linked hm hr, ok_bind]
  cases h0 : is_address_in_stack env p <;> cases h1 : is_address_in_stack env (ptr_addr p) <;>
    cases h2 : is_address_in_stack env r <;>
    simp [rd_eq_ok hroot, blk_is_linked_ptr hb2, h2, beq_false_of_ne hne]

/-- A linked handle whose stack root is the stack side of a cross-link. -/
theorem get_global_root_ptr_linked_cross (hm : w.mem p = some ⟨o, r ||| IsLinkedPtr⟩)
    (hr : Addr62 r) (hroot : w.mem r = some ⟨o2, g ||| IsLinkedPtr ||| IsDeleterPtr⟩)
    (hg : Addr62 g) :
    get_global_root_ptr env w p =
      if is_address_in_stack env p && is_address_in_stack env (ptr_addr p) &&
          is_address_in_stack env (ptr_addr r) then Except.ok g
      else Except.error Fault.assertion := by
  simp only [get_global_root_ptr, rd_eq_ok hm, link_is_shared_data hr, link_is_null hr,
    get_stack_root_ptr_linked hm hr, ok_bind]
  cases h0 : is_address_in_stack env p <;> cases h1 : is_address_in_stack env (ptr_addr p) <;>
    cases h2 : is_address_in_stack env (ptr_addr r) <;>
    simp [rd_eq_ok hroot, cross_is_linked_ptr hg, cross_get_linked_ptr hg, h2]

theorem get_crosslinked_ptr_eq (hm : w.mem p = some ⟨s ||| IsLinkedPtr, a⟩) (hs : Addr62 s)
    (hpart : w.mem s = some ⟨o, p ||| IsLinkedPtr ||| IsDeleterPtr⟩) (hp : Addr62 p) :
    get_crosslinked_ptr env w p =
      if !is_address_in_stack env p && is_address_in_stack env s &&
          is_address_in_stack env (ptr_addr s) then Except.ok s
      else Except.error Fault.assertion := by
  simp only [get_crosslinked_ptr, rd_eq_ok hm, is_crosslinked, link_word_linked_bit hs,
    link_word_target hs, get_stack_root_ptr_cross hpart hp, is_address_in_cpp_heap, ok_bind]
  cases is_address_in_stack env p <;> cases is_address_in_stack env s <;>
    cases is_address_in_stack env (ptr_addr s) <;> simp

end blocks

/-! ## The copy constructor, case by case -/

section copy

variable {env : Env} {w : World} {this other o o2 a x d r g s b c dl : Nat} {nb : Option Nat}

/-- Source without object and without link (a null handle). -/
theorem copy_ctor_null (hm : w.mem other = some ⟨0, 0⟩) (hne : this ≠ other) :
    copy_ctor env w this other nb =
      if !is_address_in_stack env other then Except.ok (w.wr this ⟨0, 0⟩)
      else Except.error Fault.assertion := by
  have h1 : (w.wr this ⟨0, 0⟩).mem other = some ⟨0, 0⟩ := by
    rw [wr_mem_other _ _ (Ne.symm hne)]; exact hm
  have h2 : ((0 &&& IsLinkedPtr) != 0) = false := by rw [linked_bit_iff]; rfl
  simp only [copy_ctor, rd_eq_ok hm, rd_eq_ok h1, null_is_obj, is_crosslinked, h2, ok_bind]
  cases is_address_in_stack env other <;> simp

/-- Source and new handle both in the stack: the new handle links to the stack root
`r` of the source (found under condition `C`). -/
theorem copy_ctor_stack_stack (hm : w.mem other = some ⟨o, a⟩) (ho : ObjAddr o)
    (hne : this ≠ other) (hr : Addr62 r) (C : Bool)
    (hroot : get_stack_root_ptr env w other =
      if C then Except.ok r else Except.error Fault.assertion)
    (hs1 : is_address_in_stack env this = true) (hs2 : is_address_in_stack env other = true) :
    copy_ctor env w this other nb =
      if is_address_in_stack env (ptr_addr this) && C && is_address_in_cpp_heap env o then
        Except.ok (w.wr this ⟨o, r ||| IsLinkedPtr⟩)
      else Except.error Fault.assertion := by
  have h1 : ∀ v, (w.wr this v).mem other = some ⟨o, a⟩ := by
    intro v; rw [wr_mem_other _ _ (Ne.symm hne)]; exact hm
  have hroot1 : ∀ v, get_stack_root_ptr env (w.wr this v) other =
      if C then Except.ok r else Except.error Fault.assertion := by
    intro v; rw [← hroot]; exact get_stack_root_ptr_congr ((h1 v).trans hm.symm)
  have hlink := link_to_ptr_on_stack_eq env (wr_mem_self w this ⟨o, 0⟩) (h1 _) ho hne C
    (hroot1 _)
  simp only [copy_ctor, rd_eq_ok hm, rd_eq_ok (h1 _), ho.is_obj, hs1, hs2, hlink, ok_bind,
    if_true, Bool.true_and, wr_wr_self]
  cases h3 : is_address_in_stack env (ptr_addr this) <;> cases C <;>
    cases h5 : is_address_in_cpp_heap env o <;>
    simp [get_stack_root_ptr_linked (wr_mem_self _ _ _) hr, hs1, h3, hroot1, link_is_null hr]

/-- New handle in the stack, source an owner outside the stack: cross-link. -/
theorem copy_ctor_cross_link (hm : w.mem other = some ⟨o, d ||| IsDeleterPtr⟩) (ho : ObjAddr o)
    (hd : Addr62 d) (hne : this ≠ other) (hother : Addr62 other)
    (hs1 : is_address_in_stack env this = true) (hs2 : is_address_in_stack env other = false) :
    copy_ctor env w this other nb =
      if is_address_in_cpp_heap env other && is_address_in_stack env (ptr_addr this) then
        Except.ok ((w.wr other ⟨this ||| IsLinkedPtr, d ||| IsDeleterPtr⟩).wr this
          ⟨o, other ||| IsLinkedPtr ||| IsDeleterPtr⟩)
      else Except.error Fault.assertion := by
  have h1 : ∀ v, (w.wr this v).mem other = some ⟨o, d ||| IsDeleterPtr⟩ := by
    intro v; rw [wr_mem_other _ _ (Ne.symm hne)]; exact hm
  have h2 : ∀ (w1 : World) v u, ((w1.wr this v).wr other u).mem this = some v := by
    intro w1 v u; rw [wr_mem_other _ _ hne]; exact wr_mem_self _ _ _
  simp only [copy_ctor, rd_eq_ok hm, rd_eq_ok (h1 _), ho.is_obj, hs1, hs2, ok_bind, if_true,
    del_is_deleter_ptr hd, del_is_shared_data hd, is_crosslinked, ho.linked_bit,
    cross_link_to_unique_instance_not_in_stack, wr_rd_self, zero_is_null,
    link_to_global_ptr_on_heap, wr_ptr_eq (wr_mem_self _ _ _), wr_wr_self,
    Bool.false_eq_true, if_false, Bool.not_false, Bool.and_self, check_true, Bool.true_and]
  cases h3 : is_address_in_cpp_heap env other <;>
    cases h4 : is_address_in_stack env (ptr_addr this) <;>
    simp [wr_obj_eq (h1 _), get_global_root_ptr, rd_eq_ok (h2 _ _ _),
      cross_is_shared_data hother, cross_is_null hother,
      get_stack_root_ptr_cross (wr_mem_self _ _ _) hother, hs1, h4, cross_is_linked_ptr hother,
      cross_get_linked_ptr hother, wr_comm _ _ _ hne]

/-- Source shares a block and the two handles are not both in the stack: the count
of the block is incremented. -/
theorem copy_ctor_shared (hm : w.mem other = some ⟨o, b⟩) (ho : ObjAddr o) (hb : b ≠ 0)
    (hb2 : Addr62 b) (hblk : w.heap b = some ⟨c, dl⟩) (hne : this ≠ other)
    (hs : ¬ (is_address_in_stack env this = true ∧ is_address_in_stack env other = true)) :
    copy_ctor env w this other nb =
      if is_address_in_cpp_heap env b then
        Except.ok ((w.wr_data b ⟨pre_increment c, dl⟩).wr this ⟨o, b⟩)
      else Except.error Fault.assertion := by
  have h1 : ∀ v, (w.wr this v).mem other = some ⟨o, b⟩ := by
    intro v; rw [wr_mem_other _ _ (Ne.symm hne)]; exact hm
  have hinc := inc_ref_eq env (w := w.wr this ⟨o, 0⟩) (wr_mem_self _ _ _) (h1 _) hb hb2
    hblk
  simp only [copy_ctor, rd_eq_ok hm, rd_eq_ok (h1 _), ho.is_obj, ok_bind, if_true,
    blk_is_deleter_ptr hb2, blk_is_shared_data hb hb2, wr_rd_self, zero_is_null, hinc,
    wr_wr_data, wr_wr_self, Bool.false_eq_true, if_false, pure_eq]
  cases h3 : is_address_in_stack env this <;> cases h4 : is_address_in_stack env other <;>
    simp_all

/-- New handle outside the stack, source without block, global root `r` (found under
condition `C`) holding the deleter itself: a block is created from the deleter of `r` and
shared by `r` and the new handle. -/
theorem copy_ctor_create (hm : w.mem other = some ⟨o, a⟩) (ho : ObjAddr o)
    (ha : is_shared_data a = false)
    (hroot : w.mem r = some ⟨o2, d ||| IsDeleterPtr⟩) (ho2 : ObjAddr o2) (hd : Addr62 d)
    (hne : this ≠ other) (hne2 : this ≠ r) (hnb : ∀ data, nb = some data → Addr62 data)
    (hs1 : is_address_in_stack env this = false) (C : Bool)
    (hgr : get_global_root_ptr env (w.wr this ⟨o, 0⟩) other =
      if C then Except.ok r else Except.error Fault.assertion) :
    copy_ctor env w this other nb =
      if C && is_address_in_cpp_heap env o2 then
        match nb with
        | none => Except.error (Fault.bad_alloc (w.wr this ⟨o, 0⟩))
        | some data =>
          if data != 0 && is_address_in_cpp_heap env data then
            Except.ok ((((w.new_shared_data data d).wr_data data ⟨2, d⟩).wr r ⟨o2, data⟩).wr
              this ⟨o, data⟩)
          else Except.error Fault.assertion
      else Except.error Fault.assertion := by
  have h1 : ∀ v, (w.wr this v).mem other = some ⟨o, a⟩ := by
    intro v; rw [wr_mem_other _ _ (Ne.symm hne)]; exact hm
  have h1r : ∀ v, (w.wr this v).mem r = some ⟨o2, d ||| IsDeleterPtr⟩ := by
    intro v; rw [wr_mem_other _ _ (Ne.symm hne2)]; exact hroot
  simp only [copy_ctor, rd_eq_ok hm, rd_eq_ok (h1 _), ho.is_obj, hs1, ok_bind, if_true,
    wr_rd_self, zero_is_null, ha, hgr, Bool.false_eq_true, if_false, pure_eq]
  cases C
  · simp
  · simp only [if_true, ok_bind, rd_eq_ok (h1r _), del_is_shared_data hd, Bool.not_false,
      create_shared_data_eq (h1r _) ho2 hd, Bool.true_and]
    cases h3 : is_address_in_cpp_heap env o2
    · simp
    · cases nb with
      | none => simp
      | some data =>
        have hdata := hnb data rfl
        have h4 : (((w.new_shared_data data d).wr this ⟨o, 0⟩).wr r ⟨o2, data⟩).mem this =
            some ⟨o, 0⟩ := by
          rw [wr_mem_other _ _ hne2]; exact wr_mem_self _ _ _
        simp only [if_true, ok_bind, wr_new_shared_data]
        by_cases h5 : data = 0
        · subst h5
          simp [inc_ref, rd_eq_ok h4, zero_is_null]
        · have hinc := inc_ref_eq env h4 (wr_mem_self _ _ _) h5 hdata
            (show _ = some (shared_data.mk 1 d) by simp)
          rw [hinc]
          cases h6 : is_address_in_cpp_heap env data
          · simp
          · simp [h5, pre_increment_one, wr_wr_wr _ _ _ _ hne2]

/-- New handle outside the stack, source linked to a stack root `r` (found under
condition `C`) that shares a block: the new handle joins the block. -/
theorem copy_ctor_join (hm : w.mem other = some ⟨o, a⟩) (ho : ObjAddr o)
    (ha : is_shared_data a = false)
    (hroot : w.mem r = some ⟨o2, b⟩) (hb : b ≠ 0) (hb2 : Addr62 b)
    (hblk : w.heap b = some ⟨c, dl⟩)
    (hne : this ≠ other) (hne2 : this ≠ r)
    (hs1 : is_address_in_stack env this = false) (C : Bool)
    (hgr : get_global_root_ptr env (w.wr this ⟨o, 0⟩) other =
      if C then Except.ok r else Except.error Fault.assertion) :
    copy_ctor env w this other nb =
      if C && is_address_in_cpp_heap env b then
        Except.ok ((w.wr_data b ⟨pre_increment c, dl⟩).wr this ⟨o, b⟩)
      else Except.error Fault.assertion := by
  have h1 : ∀ v, (w.wr this v).mem other = some ⟨o, a⟩ := by
    intro v; rw [wr_mem_other _ _ (Ne.symm hne)]; exact hm
  have h1r : ∀ v, (w.wr this v).mem r = some ⟨o2, b⟩ := by
    intro v; rw [wr_mem_other _ _ (Ne.symm hne2)]; exact hroot
  have hinc := inc_ref_eq env (w := w.wr this ⟨o, 0⟩) (wr_mem_self _ _ _) (h1r _) hb hb2
    hblk
  simp only [copy_ctor, rd_eq_ok hm, rd_eq_ok (h1 _), ho.is_obj, hs1, ok_bind, if_true,
    wr_rd_self, zero_is_null, ha, hgr, Bool.false_eq_true, if_false, pure_eq]
  cases C
  · simp
  · simp only [if_true, ok_bind, rd_eq_ok (h1r _), blk_is_shared_data hb hb2, hinc,
      Bool.not_true, Bool.false_eq_true, if_false, Bool.true_and, wr_wr_data, wr_wr_self]

/-- New handle outside the stack, source without block, global root `g` (found under
condition `C`) being the heap side of a cross-link: the consistency check of
`create_shared_data` fails. -/
theorem copy_ctor_root_cross_heap (hm : w.mem other = some ⟨o, a⟩) (ho : ObjAddr o)
    (ha : is_shared_data a = false)
    (hroot : w.mem g = some ⟨s ||| IsLinkedPtr, d ||| IsDeleterPtr⟩) (hs : Addr62 s)
    (hd : Addr62 d) (hne : this ≠ other) (hne2 : this ≠ g)
    (hs1 : is_address_in_stack env this = false) (C : Bool)
    (hgr : get_global_root_ptr env (w.wr this ⟨o, 0⟩) other =
      if C then Except.ok g else Except.error Fault.assertion) :
    copy_ctor env w this other nb = Except.error Fault.assertion := by
  have h1 : ∀ v, (w.wr this v).mem other = some ⟨o, a⟩ := by
    intro v; rw [wr_mem_other _ _ (Ne.symm hne)]; exact hm
  have h1r : ∀ v, (w.wr this v).mem g = some ⟨s ||| IsLinkedPtr, d ||| IsDeleterPtr⟩ := by
    intro v; rw [wr_mem_other _ _ (Ne.symm hne2)]; exact hroot
  simp only [copy_ctor, rd_eq_ok hm, rd_eq_ok (h1 _), ho.is_obj, hs1, ok_bind, if_true,
    wr_rd_self, zero_is_null, ha, hgr, Bool.false_eq_true, if_false, pure_eq]
  cases C
  · simp
  · simp [rd_eq_ok (h1r _), del_is_shared_data hd, create_shared_data, obj, link_word_is_obj hs]

/-- New handle outside the stack, source an owner outside the stack: the consistency
check of `get_stack_root_ptr` fails. -/
theorem copy_ctor_owner_off_stack (hm : w.mem other = some ⟨o, d ||| IsDeleterPtr⟩)
    (ho : ObjAddr o) (hd : Addr62 d) (hne : this ≠ other)
    (hs1 : is_address_in_stack env this = false)
    (hs2 : is_address_in_stack env other = false) :
    copy_ctor env w this other nb = Except.error Fault.assertion := by
  have h1 : ∀ v, (w.wr this v).mem other = some ⟨o, d ||| IsDeleterPtr⟩ := by
    intro v; rw [wr_mem_other _ _ (Ne.symm hne)]; exact hm
  simp [copy_ctor, rd_eq_ok hm, rd_eq_ok (h1 _), ho.is_obj, hs1, zero_is_null,
    del_is_shared_data hd, get_global_root_ptr_del (h1 _) hd, hs2]

/-- Source the heap side of a cross-link, new handle in the stack: the new handle
links to the stack partner `s` of the source, which must lie below it. -/
theorem copy_ctor_cross_heap_stack
    (hm : w.mem other = some ⟨s ||| IsLinkedPtr, d ||| IsDeleterPtr⟩) (hs : Addr62 s)
    (hpart : w.mem s = some ⟨o, other ||| IsLinkedPtr ||| IsDeleterPtr⟩) (ho : ObjAddr o)
    (hother : Addr62 other) (hne : this ≠ other) (hne2 : this ≠ s)
    (hs1 : is_address_in_stack env this = true) :
    copy_ctor env w this other nb =
      if !is_address_in_stack env other && is_address_in_cpp_heap env other &&
          is_address_in_stack env s && is_address_in_stack env (ptr_addr s) &&
          decide (this > s) && is_address_in_stack env (ptr_addr this) &&
          is_address_in_cpp_heap env o then
        Except.ok (w.wr this ⟨o, s ||| IsLinkedPtr⟩)
      else Except.error Fault.assertion := by
  have h1 : ∀ v, (w.wr this v).mem other = some ⟨s ||| IsLinkedPtr, d ||| IsDeleterPtr⟩ := by
    intro v; rw [wr_mem_other _ _ (Ne.symm hne)]; exact hm
  have h2 : ∀ v, (w.wr this v).mem s = some ⟨o, other ||| IsLinkedPtr ||| IsDeleterPtr⟩ := by
    intro v; rw [wr_mem_other _ _ (Ne.symm hne2)]; exact hpart
  have hlink := fun v => link_to_ptr_on_stack_eq env (r := s)
    (wr_mem_self w this v) (h2 _) ho hne2
    (is_address_in_stack env s && is_address_in_stack env (ptr_addr s))
    (get_stack_root_ptr_cross (h2 _) hother)
  simp only [copy_ctor, rd_eq_ok hm, rd_eq_ok (h1 _), link_word_is_obj hs, is_crosslinked,
    link_word_linked_bit hs, get_crosslinked_ptr_eq (h1 _) hs (h2 _) hother, hs1, hlink,
    ok_bind, Bool.false_eq_true, if_false, Bool.true_and, wr_wr_self]
  cases h3 : is_address_in_stack env other <;> cases h4 : is_address_in_cpp_heap env other <;>
    cases h5 : is_address_in_stack env s <;> cases h6 : is_address_in_stack env (ptr_addr s) <;>
    simp
  by_cases h7 : s < this <;> cases h8 : is_address_in_stack env (ptr_addr this) <;>
    cases h9 : is_address_in_cpp_heap env o <;>
    simp [h5, h6, h7, h8, h9, hlink, get_stack_root_ptr_linked (wr_mem_self _ _ _) hs, hs1,
      ho.is_obj]

/-- Source the heap side of a cross-link, new handle outside the stack: a block is
created, but the new handle keeps the link word it copied from the source and the last
consistency check fails. -/
theorem copy_ctor_cross_heap_off_stack
    (hm : w.mem other = some ⟨s ||| IsLinkedPtr, d ||| IsDeleterPtr⟩) (hs : Addr62 s)
    (hd : Addr62 d)
    (hpart : w.mem s = some ⟨o, other ||| IsLinkedPtr ||| IsDeleterPtr⟩) (ho : ObjAddr o)
    (hother : Addr62 other) (hne : this ≠ other) (hne2 : this ≠ s)
    (hnb : ∀ data, nb = some data → Addr62 data)
    (hs1 : is_address_in_stack env this = false) :
    copy_ctor env w this other nb =
      if !is_address_in_stack env other && is_address_in_cpp_heap env other &&
          is_address_in_stack env s && is_address_in_stack env (ptr_addr s) &&
          is_address_in_cpp_heap env o then
        match nb with
        | none => Except.error (Fault.bad_alloc
            ((w.wr this ⟨s ||| IsLinkedPtr, 0⟩).wr other ⟨o, d ||| IsDeleterPtr⟩))
        | some _ => Except.error Fault.assertion
      else Except.error Fault.assertion := by
  have h1 : ∀ v, (w.wr this v).mem other = some ⟨s ||| IsLinkedPtr, d ||| IsDeleterPtr⟩ := by
    intro v; rw [wr_mem_other _ _ (Ne.symm hne)]; exact hm
  have h2 : ∀ v, (w.wr this v).mem s = some ⟨o, other ||| IsLinkedPtr ||| IsDeleterPtr⟩ := by
    intro v; rw [wr_mem_other _ _ (Ne.symm hne2)]; exact hpart
  simp only [copy_ctor, rd_eq_ok hm, rd_eq_ok (h1 _), link_word_is_obj hs, is_crosslinked,
    link_word_linked_bit hs, get_crosslinked_ptr_eq (h1 _) hs (h2 _) hother, hs1,
    ok_bind, Bool.false_eq_true, if_false, Bool.false_and]
  cases h3 : is_address_in_stack env other <;> cases h4 : is_address_in_cpp_heap env other <;>
    cases h5 : is_address_in_stack env s <;> cases h6 : is_address_in_stack env (ptr_addr s) <;>
    simp
  simp only [rd_eq_ok (h2 _), obj_eq ho, ok_bind]
  cases h9 : is_address_in_cpp_heap env o
  · simp
  · simp only [if_true, ok_bind, wr_obj_eq (h1 _),
      create_shared_data_eq (wr_mem_self _ _ _) ho hd, h9]
    cases nb with
    | none => simp
    | some data =>
      have hdata := hnb data rfl
      have h4 : ∀ (w1 : World) u, ((w1.wr this ⟨s ||| IsLinkedPtr, 0⟩).wr other u).mem this =
          some ⟨s ||| IsLinkedPtr, 0⟩ := by
        intro w1 u; rw [wr_mem_other _ _ hne]; exact wr_mem_self _ _ _
      simp only [ok_bind, wr_new_shared_data, wr_wr_self]
      by_cases h5 : data = 0
      · subst h5
        simp [inc_ref, rd_eq_ok (h4 _ _), zero_is_null]
      · have hinc := inc_ref_eq env (h4 (w.new_shared_data data d) ⟨o, data⟩)
          (wr_mem_self _ _ _) h5 hdata (show _ = some (shared_data.mk 1 d) by simp)
        rw [hinc]
        cases h6 : is_address_in_cpp_heap env data
        · simp
        · simp [link_word_is_obj hs]

end copy

end Hybrid

namespace Hybrid

open versatile_ptr

/-! ## Dereference -/

section arrow

variable {env : Env} {w : World} {p o a s : Nat}

theorem arrow_obj (hm : w.mem p = some ⟨o, a⟩) (ho : ObjAddr o) :
    arrow env w p =
      if is_address_in_cpp_heap env o then Except.ok o else Except.error Fault.assertion := by
  simp [arrow, rd_eq_ok hm, ho.bne, ho.is_obj, obj_eq ho]

theorem arrow_cross_heap (hm : w.mem p = some ⟨s ||| IsLinkedPtr, a⟩) (hs : Addr62 s)
    (hpart : w.mem s = some ⟨o, p ||| IsLinkedPtr ||| IsDeleterPtr⟩) (hp : Addr62 p)
    (ho : ObjAddr o) :
    arrow env w p =
      if !is_address_in_stack env p && is_address_in_stack env s &&
          is_address_in_stack env (ptr_addr s) && is_address_in_cpp_heap env o then Except.ok o
      else Except.error Fault.assertion := by
  simp only [arrow, rd_eq_ok hm, link_word_bne hs, link_word_is_obj hs, link_word_linked_bit hs,
    get_crosslinked_ptr_eq hm hs hpart hp, check_true, ok_bind, Bool.false_eq_true, if_false]
  cases is_address_in_stack env p <;> cases is_address_in_stack env s <;>
    cases is_address_in_stack env (ptr_addr s) <;> cases h : is_address_in_cpp_heap env o <;>
    simp [rd_eq_ok hpart, obj_eq ho, h]

end arrow

/-! ## Facts about the concrete environment -/

theorem env0_stack (a : Nat) :
    is_address_in_stack env0 a = (decide (1000 ≤ a) && decide (a ≤ 2000)) := rfl

theorem env0_heap (a : Nat) :
    is_address_in_cpp_heap env0 a =
      (!(decide (1000 ≤ a) && decide (a ≤ 2000)) && decide (10000 ≤ a)) := rfl

theorem addr62_of_lt {a : Nat} (h : a < 4611686018427387904) : Addr62 a := h

theorem objAddr_of {a : Nat} (h0 : a ≠ 0) (h : a < 9223372036854775808) : ObjAddr a := ⟨h0, h⟩

end Hybrid

namespace Hybrid

open versatile_ptr

/-! ## Lists of live handles -/

section lists

theorem mem_takeWhile_of_sublist {q r : Nat} :
    ∀ {l : List Nat}, List.Sublist [q, r] l → l.Nodup → q ∈ l.takeWhile (fun a => a != r) := by
  intro l
  induction l with
  | nil => intro h; cases h
  | cons x l ih =>
    intro h hnd
    have hx : x ∉ l := (List.nodup_cons.mp hnd).1
    have hl : l.Nodup := (List.nodup_cons.mp hnd).2
    cases h with
    | cons _ h1 =>
      have hr : r ∈ l := h1.subset (by simp)
      have hxr : x ≠ r := fun e => hx (e ▸ hr)
      rw [List.takeWhile_cons_of_pos (by simpa using hxr)]
      exact List.mem_cons_of_mem _ (ih h1 hl)
    | cons₂ _ h1 =>
      have hr : r ∈ l := h1.subset (by simp)
      have hxr : q ≠ r := fun e => hx (e ▸ hr)
      rw [List.takeWhile_cons_of_pos (by simpa using hxr)]
      exact List.mem_cons_self _ _

theorem sublist_pair_erase {q r x : Nat} {l : List Nat} (h : List.Sublist [q, r] l)
    (hq : q ≠ x) (hr : r ≠ x) : List.Sublist [q, r] (l.erase x) := by
  have := h.erase x
  rwa [List.erase_of_not_mem (by simp [Ne.symm hq, Ne.symm hr])] at this

theorem sublist_pair_ne {q r : Nat} {l : List Nat} (h : List.Sublist [q, r] l)
    (hnd : l.Nodup) : q ≠ r := by
  intro e
  subst e
  have := h.nodup hnd
  simp at this

theorem sublist_pair_new {this r : Nat} {l : List Nat} (hr : r ∈ l) :
    List.Sublist [this, r] (this :: l) :=
  List.cons_sublist_cons.mpr (List.singleton_sublist.mpr hr)

/-! ## Counting the sharers of a block -/

theorem sharers_cons (gs : Nat → State) (p : Nat) (l : List Nat) (b : Nat) :
    sharers gs (p :: l) b = sharers gs l b + if (gs p).shares b then 1 else 0 := by
  simp [sharers, List.countP_cons]

theorem sharers_congr {gs gs2 : Nat → State} {l : List Nat} (b : Nat)
    (h : ∀ p ∈ l, (gs2 p).shares b = (gs p).shares b) : sharers gs2 l b = sharers gs l b := by
  unfold sharers
  apply List.countP_congr
  intro p hp
  rw [h p hp]

theorem sharers_le (gs : Nat → State) (l : List Nat) (b : Nat) : sharers gs l b ≤ l.length :=
  List.countP_le_length _

theorem sharers_perm {gs : Nat → State} {l l2 : List Nat} (b : Nat) (h : l.Perm l2) :
    sharers gs l b = sharers gs l2 b :=
  h.countP_eq _

theorem sharers_erase (gs : Nat → State) {l : List Nat} {p : Nat} (hp : p ∈ l) (b : Nat) :
    sharers gs l b = sharers gs (l.erase p) b + if (gs p).shares b then 1 else 0 := by
  rw [sharers_perm b (List.perm_cons_erase hp), sharers_cons]

theorem sharers_pos_iff {gs : Nat → State} {l : List Nat} {b : Nat} :
    0 < sharers gs l b ↔ ∃ p ∈ l, (gs p).shares b = true := by
  simp [sharers, List.countP_pos_iff]

theorem sharers_update (gs : Nat → State) {l : List Nat} {x : Nat} (hx : x ∈ l)
    (hnd : l.Nodup) (st : State) (b : Nat) :
    sharers (Function.update gs x st) l b + (if (gs x).shares b then 1 else 0) =
      sharers gs l b + if st.shares b then 1 else 0 := by
  have hxe : x ∉ l.erase x := hnd.not_mem_erase
  have hc : sharers (Function.update gs x st) (l.erase x) b = sharers gs (l.erase x) b :=
    sharers_congr b (fun p hp => by
      have hpx : p ≠ x := by
        intro e; rw [e] at hp; exact hxe hp
      rw [Function.update_noteq hpx])
  rw [sharers_erase (Function.update gs x st) hx b, sharers_erase gs hx b, hc,
    Function.update_same]
  omega

theorem shares_iff {st : State} {b : Nat} :
    st.shares b = true ↔ ∃ o, st = State.SharedCounted o b := by
  cases st <;> simp [State.shares]

end lists

/-! ## Consequences of the invariant -/

section inv

variable {env : Env} {w : World} {g g2 : Ghost} {A A2 : Abs} {p : Nat}

theorem Inv.not_live (h : Inv env w g A) (hp : w.mem p = none) : p ∉ g.live :=
  fun hl => (h.mem_iff p).mp hl hp

theorem Inv.live_of_mem (h : Inv env w g A) {x : hybrid_shared_ptr} (hp : w.mem p = some x) :
    p ∈ g.live :=
  (h.mem_iff p).mpr (by rw [hp]; exact Option.some_ne_none x)

theorem Inv.words (h : Inv env w g A) (hp : p ∈ g.live) : w.mem p = some (A.gs p).words :=
  (h.rep p hp).1

theorem Inv.wf (h : Inv env w g A) (hp : p ∈ g.live) : (A.gs p).wf := (h.rep p hp).2.1

theorem Inv.addr (h : Inv env w g A) (hp : p ∈ g.live) : Addr62 p := (h.rep p hp).2.2.1

theorem Inv.good (h : Inv env w g A) (hp : p ∈ g.live) : Good env g A p (A.gs p) :=
  (h.rep p hp).2.2.2

/-- A handle that is a root holds, or shares, the deleter of its object. -/
theorem Inv.root_owner (h : Inv env w g A) (hp : p ∈ g.live) (hr : (A.gs p).is_root = true) :
    (A.gs p).object = some (g.object_of p) ∧
      ((∃ q, A.owner (g.object_of p) = Owner.handle q) ∨
        ∃ b, A.owner (g.object_of p) = Owner.block b) := by
  have hg := h.good hp
  cases hs : A.gs p with
  | Null => rw [hs] at hr; simp [State.is_root] at hr
  | LinkedToStack _ _ => rw [hs] at hr; simp [State.is_root] at hr
  | CrossLinkedHeap _ _ => rw [hs] at hr; simp [State.is_root] at hr
  | Owning o d =>
    rw [hs] at hg
    exact ⟨by rw [← hg.1]; rfl, Or.inl ⟨p, by rw [hg.1]; exact hg.2.2⟩⟩
  | CrossLinkedStack o x =>
    rw [hs] at hg
    exact ⟨by rw [← hg.1]; rfl, Or.inl ⟨x, by rw [hg.1]; exact hg.2.2.2.2⟩⟩
  | SharedCounted o b =>
    rw [hs] at hg
    exact ⟨by rw [← hg.1]; rfl, Or.inr ⟨b, by rw [hg.1]; exact hg.2⟩⟩

/-- Every live handle that is not null refers to an object whose deleter is held by a
handle or by a block. -/
theorem Inv.live_owner (h : Inv env w g A) (hp : p ∈ g.live) (hn : A.gs p ≠ State.Null) :
    (∃ q, A.owner (g.object_of p) = Owner.handle q) ∨
      ∃ b, A.owner (g.object_of p) = Owner.block b := by
  have hg := h.good hp
  cases hs : A.gs p with
  | Null => exact absurd hs hn
  | LinkedToStack o r =>
    rw [hs] at hg
    obtain ⟨h1, _, _, h4, h5, h6⟩ := hg
    have hr : r ∈ g.live := h4.subset (by simp)
    have := (h.root_owner hr h6).2
    rw [h5, ← h1] at this
    exact this
  | CrossLinkedHeap s d =>
    rw [hs] at hg
    exact Or.inl ⟨p, hg.2.2.2.2⟩
  | Owning o d => exact (h.root_owner hp (by rw [hs]; rfl)).2
  | CrossLinkedStack o x => exact (h.root_owner hp (by rw [hs]; rfl)).2
  | SharedCounted o b => exact (h.root_owner hp (by rw [hs]; rfl)).2

theorem Inv.live_object_mem (h : Inv env w g A) (hp : p ∈ g.live) (hn : A.gs p ≠ State.Null) :
    g.object_of p ∈ g.objects := by
  by_contra hc
  have hu := (h.own_unborn _).mpr hc
  rcases h.live_owner hp hn with ⟨q, hq⟩ | ⟨b, hb⟩
  · rw [hu] at hq; cases hq
  · rw [hu] at hb; cases hb

/-- The conditions of a handle survive a change of the bookkeeping and of the abstract
state that keeps what the handle refers to. -/
theorem Good_frame {st : State} (h : Good env g A p st)
    (hobj : g2.object_of p = g.object_of p)
    (hown : st.is_root = true ∨ (∃ s d, st = State.CrossLinkedHeap s d) →
      A2.owner (g.object_of p) = A.owner (g.object_of p))
    (hlink : ∀ o r, st = State.LinkedToStack o r →
      List.Sublist [p, r] g2.live ∧ g2.object_of r = g.object_of r ∧
        ((A.gs r).is_root = true → (A2.gs r).is_root = true))
    (hcs : ∀ o x, st = State.CrossLinkedStack o x → x ∈ g2.live ∧ A2.gs x = A.gs x)
    (hch : ∀ s d, st = State.CrossLinkedHeap s d → s ∈ g2.live ∧ A2.gs s = A.gs s) :
    Good env g2 A2 p st := by
  cases st with
  | Null => exact hobj.trans h
  | Owning o d =>
    obtain ⟨h1, h2, h3⟩ := h
    exact ⟨hobj.trans h1, h2, by rw [← h1, hown (Or.inl rfl), h1]; exact h3⟩
  | LinkedToStack o r =>
    obtain ⟨h1, h2, h3, h4, h5, h6⟩ := h
    obtain ⟨k1, k2, k3⟩ := hlink o r rfl
    exact ⟨hobj.trans h1, h2, h3, k1, k2.trans h5, k3 h6⟩
  | CrossLinkedStack o x =>
    obtain ⟨h1, h2, h3, h4, h5⟩ := h
    obtain ⟨k1, k2⟩ := hcs o x rfl
    exact ⟨hobj.trans h1, h2, k1, k2.trans h4, by rw [← h1, hown (Or.inl rfl), h1]; exact h5⟩
  | CrossLinkedHeap s d =>
    obtain ⟨h1, h2, h3, h4, h5⟩ := h
    obtain ⟨k1, k2⟩ := hch s d rfl
    exact ⟨h1, h2, k1, by rw [k2, hobj]; exact h4,
      by rw [hobj, hown (Or.inr ⟨s, d, rfl⟩)]; exact h5⟩
  | SharedCounted o b =>
    obtain ⟨h1, h2⟩ := h
    exact ⟨hobj.trans h1, by rw [← h1, hown (Or.inl rfl), h1]; exact h2⟩

end inv

end Hybrid

namespace Hybrid

open versatile_ptr

/-! ## The invariant is kept by every change of state: new handles -/

section add

variable {env : Env} {w : World} {g : Ghost} {A : Abs} {this : Nat}

theorem shares_of_not_root {st : State} (h : st.is_root = false) (b : Nat) :
    st.shares b = false := by
  cases st <;> simp_all [State.is_root, State.shares]

/-- A new handle that is null or linked to a stack root. -/
theorem Inv.add_plain (h : Inv env w g A) (hfree : w.mem this = none) (haddr : Addr62 this)
    (st : State) (hwf : st.wf) (o : Nat)
    (hroot : st.is_root = false)
    (hgood : Good env ⟨this :: g.live, Function.update g.object_of this o, g.objects⟩
      ⟨Function.update A.gs this st, A.owner, A.shared⟩ this st) :
    Inv env (w.wr this st.words)
      ⟨this :: g.live, Function.update g.object_of this o, g.objects⟩
      ⟨Function.update A.gs this st, A.owner, A.shared⟩ := by
  have hnl : this ∉ g.live := h.not_live hfree
  have hne : ∀ p ∈ g.live, p ≠ this := fun p hp e => hnl (e ▸ hp)
  refine
    { nodup := List.nodup_cons.mpr ⟨hnl, h.nodup⟩
      mem_iff := ?_
      rep := ?_
      own_handle := ?_
      own_block := ?_
      own_unborn := h.own_unborn
      objects_ne := h.objects_ne
      blocks := h.blocks
      deleted_fn := h.deleted_fn
      deleted_count := h.deleted_count
      allocs := h.allocs
      shared_nodup := h.shared_nodup
      shared_sub := h.shared_sub
      shared_block := h.shared_block }
  · intro p
    by_cases hp : p = this
    · subst hp; simp
    · simp [hp, wr_mem_other _ _ hp, h.mem_iff p]
  · intro p hp
    rcases List.mem_cons.mp hp with rfl | hp
    · simp only [Function.update_same]
      exact ⟨wr_mem_self _ _ _, hwf, haddr, hgood⟩
    · have hpn := hne p hp
      simp only [Function.update_noteq hpn]
      refine ⟨by rw [wr_mem_other _ _ hpn]; exact h.words hp, h.wf hp, h.addr hp, ?_⟩
      refine Good_frame (h.good hp) (Function.update_noteq hpn _ _) (fun _ => rfl) ?_ ?_ ?_
      · intro o2 r hs
        have hg := h.good hp
        rw [hs] at hg
        have hr : r ∈ g.live := hg.2.2.2.1.subset (by simp)
        exact ⟨hg.2.2.2.1.cons _, Function.update_noteq (hne r hr) _ _,
          by simp only [Function.update_noteq (hne r hr)]; exact id⟩
      · intro o2 x hs
        have hg := h.good hp
        rw [hs] at hg
        exact ⟨List.mem_cons_of_mem _ hg.2.2.1, Function.update_noteq (hne x hg.2.2.1) _ _⟩
      · intro s d hs
        have hg := h.good hp
        rw [hs] at hg
        exact ⟨List.mem_cons_of_mem _ hg.2.2.1, Function.update_noteq (hne s hg.2.2.1) _ _⟩
  · intro o2 p hown
    obtain ⟨h1, h2, h3⟩ := h.own_handle o2 p hown
    have hpn := hne p h1
    exact ⟨List.mem_cons_of_mem _ h1, by simp [Function.update_noteq hpn, h2],
      by simpa [Function.update_noteq hpn] using h3⟩
  · intro o2 b hown
    obtain ⟨h1, h2, h3, h4, h5⟩ := h.own_block o2 b hown
    have hsh : sharers (Function.update A.gs this st) (this :: g.live) b =
        sharers A.gs g.live b := by
      rw [sharers_cons, Function.update_same, shares_of_not_root hroot]
      simp only [Bool.false_eq_true, if_false, Nat.add_zero]
      exact sharers_congr b (fun p hp => by rw [Function.update_noteq (hne p hp)])
    exact ⟨h1, h2, by rw [hsh]; exact h3, by rw [hsh]; exact h4, h5⟩

/-- A new handle constructed from the object `t`, which no constructor was given
before. -/
theorem Inv.add_owner (h : Inv env w g A) (hfree : w.mem this = none) (haddr : Addr62 this)
    (henv : Addr62 env.deleter) {t : Nat} (ht : ObjAddr t) (hnew : t ∉ g.objects) :
    Inv env (w.wr this (State.Owning t env.deleter).words)
      ⟨this :: g.live, Function.update g.object_of this t, t :: g.objects⟩
      ⟨Function.update A.gs this (State.Owning t env.deleter),
        Function.update A.owner t (Owner.handle this), A.shared⟩ := by
  have hnl : this ∉ g.live := h.not_live hfree
  have hne : ∀ p ∈ g.live, p ≠ this := fun p hp e => hnl (e ▸ hp)
  have hu : A.owner t = Owner.unborn := (h.own_unborn t).mpr hnew
  have hot : ∀ o, A.owner o ≠ Owner.unborn → o ≠ t := fun o ho e => ho (e ▸ hu)
  refine
    { nodup := List.nodup_cons.mpr ⟨hnl, h.nodup⟩
      mem_iff := ?_
      rep := ?_
      own_handle := ?_
      own_block := ?_
      own_unborn := ?_
      objects_ne := ?_
      blocks := ?_
      deleted_fn := h.deleted_fn
      deleted_count := ?_
      allocs := h.allocs
      shared_nodup := h.shared_nodup
      shared_sub := ?_
      shared_block := ?_ }
  · intro p
    by_cases hp : p = this
    · subst hp; simp
    · simp [hp, wr_mem_other _ _ hp, h.mem_iff p]
  · intro p hp
    rcases List.mem_cons.mp hp with rfl | hp
    · simp only [Function.update_same]
      exact ⟨wr_mem_self _ _ _, ⟨ht, henv⟩, haddr, by simp, rfl, by simp⟩
    · have hpn := hne p hp
      simp only [Function.update_noteq hpn]
      refine ⟨by rw [wr_mem_other _ _ hpn]; exact h.words hp, h.wf hp, h.addr hp, ?_⟩
      refine Good_frame (h.good hp) (Function.update_noteq hpn _ _) ?_ ?_ ?_ ?_
      · intro hst
        have hnn : A.gs p ≠ State.Null := by
          intro e; rw [e] at hst
          rcases hst with h1 | ⟨s, d, h1⟩
          · simp [State.is_root] at h1
          · cases h1
        have hin := h.live_object_mem hp hnn
        have : g.object_of p ≠ t := fun e => hnew (e ▸ hin)
        simp [Function.update_noteq this]
      · intro o2 r hs
        have hg := h.good hp
        rw [hs] at hg
        have hr : r ∈ g.live := hg.2.2.2.1.subset (by simp)
        exact ⟨hg.2.2.2.1.cons _, Function.update_noteq (hne r hr) _ _,
          by simp only [Function.update_noteq (hne r hr)]; exact id⟩
      · intro o2 x hs
        have hg := h.good hp
        rw [hs] at hg
        exact ⟨List.mem_cons_of_mem _ hg.2.2.1, Function.update_noteq (hne x hg.2.2.1) _ _⟩
      · intro s d hs
        have hg := h.good hp
        rw [hs] at hg
        exact ⟨List.mem_cons_of_mem _ hg.2.2.1, Function.update_noteq (hne s hg.2.2.1) _ _⟩
  · intro o2 p hown
    by_cases ho : o2 = t
    · subst ho
      simp only [Function.update_same, Owner.handle.injEq] at hown
      subst hown
      simp
    · simp only [Function.update_noteq ho] at hown
      obtain ⟨h1, h2, h3⟩ := h.own_handle o2 p hown
      have hpn := hne p h1
      exact ⟨List.mem_cons_of_mem _ h1, by simp [Function.update_noteq hpn, h2],
        by simpa [Function.update_noteq hpn] using h3⟩
  · intro o2 b hown
    have ho : o2 ≠ t := by
      intro e; subst e; simp at hown
    simp only [Function.update_noteq ho] at hown
    obtain ⟨h1, h2, h3, h4, h5⟩ := h.own_block o2 b hown
    have hsh : sharers (Function.update A.gs this (State.Owning t env.deleter))
        (this :: g.live) b = sharers A.gs g.live b := by
      rw [sharers_cons, Function.update_same]
      simp only [State.shares, Bool.false_eq_true, if_false, Nat.add_zero]
      exact sharers_congr b (fun p hp => by rw [Function.update_noteq (hne p hp)])
    refine ⟨h1, h2, by rw [hsh]; exact h3, by rw [hsh]; exact h4, ?_⟩
    intro o3 h3b
    have ho3 : o3 ≠ t := by
      intro e; subst e; simp at h3b
    simp only [Function.update_noteq ho3] at h3b
    exact h5 o3 h3b
  · intro o2
    by_cases ho : o2 = t
    · subst ho; simp
    · simp [Function.update_noteq ho, h.own_unborn o2, ho]
  · simp only [List.mem_cons, not_or]
    exact ⟨Ne.symm ht.1, h.objects_ne⟩
  · intro b hb
    obtain ⟨o2, ho2⟩ := h.blocks b hb
    have : o2 ≠ t := hot o2 (by rw [ho2]; exact Owner.noConfusion)
    exact ⟨o2, by simp [Function.update_noteq this, ho2]⟩
  · intro o2
    by_cases ho : o2 = t
    · subst ho
      have := h.deleted_count o2
      simp [hu] at this
      simp [this]
    · simp only [Function.update_noteq ho]; exact h.deleted_count o2
  · intro o2 ho2
    have h1 := h.shared_sub o2 ho2
    have : o2 ≠ t := hot o2 (by rcases h1 with h1 | ⟨b, h1⟩ <;> rw [h1] <;> exact Owner.noConfusion)
    simpa [Function.update_noteq this] using h1
  · intro o2 b hown
    have ho : o2 ≠ t := by
      intro e; subst e; simp at hown
    simp only [Function.update_noteq ho] at hown
    exact h.shared_block o2 b hown

/-- A new stack handle cross-linked with the owner `other`, which is not in the stack. -/
theorem Inv.add_cross (h : Inv env w g A) (hfree : w.mem this = none) (haddr : Addr62 this)
    (hstack : stack_resident env this) {other o : Nat} (hother : other ∈ g.live)
    (hst : A.gs other = State.Owning o env.deleter)
    (hoff : is_address_in_stack env other = false) :
    Inv env ((w.wr other (State.CrossLinkedHeap this env.deleter).words).wr this
        (State.CrossLinkedStack o other).words)
      ⟨this :: g.live, Function.update g.object_of this (g.object_of other), g.objects⟩
      ⟨Function.update (Function.update A.gs other (State.CrossLinkedHeap this env.deleter))
        this (State.CrossLinkedStack o other), A.owner, A.shared⟩ := by
  have hnl : this ∉ g.live := h.not_live hfree
  have hne : ∀ p ∈ g.live, p ≠ this := fun p hp e => hnl (e ▸ hp)
  have hot := hne other hother
  have hgo := h.good hother
  rw [hst] at hgo
  obtain ⟨hobj, -, hown⟩ := hgo
  have hwfo := h.wf hother
  rw [hst] at hwfo
  have hgs : ∀ p ∈ g.live, p ≠ other →
      Function.update (Function.update A.gs other (State.CrossLinkedHeap this env.deleter))
        this (State.CrossLinkedStack o other) p = A.gs p := by
    intro p hp hpo
    rw [Function.update_noteq (hne p hp), Function.update_noteq hpo]
  refine
    { nodup := List.nodup_cons.mpr ⟨hnl, h.nodup⟩
      mem_iff := ?_
      rep := ?_
      own_handle := ?_
      own_block := ?_
      own_unborn := h.own_unborn
      objects_ne := h.objects_ne
      blocks := h.blocks
      deleted_fn := h.deleted_fn
      deleted_count := h.deleted_count
      allocs := h.allocs
      shared_nodup := h.shared_nodup
      shared_sub := h.shared_sub
      shared_block := h.shared_block }
  · intro p
    by_cases hp : p = this
    · subst hp; simp
    · by_cases hp2 : p = other
      · subst hp2; simp [wr_mem_other _ _ hp, hother]
      · simp [hp, wr_mem_other _ _ hp, wr_mem_other _ _ hp2, h.mem_iff p]
  · intro p hp
    dsimp only at hp ⊢
    rcases List.mem_cons.mp hp with hpt | hp
    · rw [hpt]
      simp only [Function.update_same]
      refine ⟨wr_mem_self _ _ _, ⟨hwfo.1, h.addr hother⟩, haddr, ?_, hstack,
        List.mem_cons_of_mem _ hother, ?_, hown⟩
      · simp [hobj]
      · show Function.update _ _ _ other = _
        rw [Function.update_noteq hot, Function.update_same]
    · have hpn := hne p hp
      by_cases hpo : p = other
      · rw [hpo]
        simp only [Function.update_noteq hot, Function.update_same]
        refine ⟨by rw [wr_mem_other _ _ hot]; exact wr_mem_self _ _ _, ⟨haddr, hwfo.2⟩,
          h.addr hother, rfl, hoff, List.mem_cons_self _ _, ?_, ?_⟩
        · simp [Function.update_noteq hot, hobj]
        · simp [Function.update_noteq hot, hobj, hown]
      · rw [hgs p hp hpo]
        refine ⟨by rw [wr_mem_other _ _ hpn, wr_mem_other _ _ hpo]; exact h.words hp, h.wf hp,
          h.addr hp, ?_⟩
        refine Good_frame (h.good hp) (Function.update_noteq hpn _ _) (fun _ => rfl) ?_ ?_ ?_
        · intro o2 r hs
          have hg := h.good hp
          rw [hs] at hg
          have hr : r ∈ g.live := hg.2.2.2.1.subset (by simp)
          have hrs : is_address_in_stack env r = true := hg.2.2.1
          have hro : r ≠ other := by
            intro e; rw [e, hoff] at hrs; exact Bool.noConfusion hrs
          refine ⟨hg.2.2.2.1.cons _, Function.update_noteq (hne r hr) _ _, ?_⟩
          dsimp only
          rw [hgs r hr hro]; exact id
        · intro o2 x hs
          have hg := h.good hp
          rw [hs] at hg
          have hxs : A.gs x = _ := hg.2.2.2.1
          have hxo : x ≠ other := by
            intro e; rw [e, hst] at hxs; cases hxs
          exact ⟨List.mem_cons_of_mem _ hg.2.2.1, hgs x hg.2.2.1 hxo⟩
        · intro s d hs
          have hg := h.good hp
          rw [hs] at hg
          have hss : A.gs s = _ := hg.2.2.2.1
          have hso : s ≠ other := by
            intro e; rw [e, hst] at hss; cases hss
          exact ⟨List.mem_cons_of_mem _ hg.2.2.1, hgs s hg.2.2.1 hso⟩
  · intro o2 p hown2
    obtain ⟨h1, h2, h3⟩ := h.own_handle o2 p hown2
    have hpn := hne p h1
    refine ⟨List.mem_cons_of_mem _ h1, by simp [Function.update_noteq hpn, h2], ?_⟩
    by_cases hpo : p = other
    · right
      refine ⟨this, ?_⟩
      dsimp only
      rw [hpo, Function.update_noteq hot, Function.update_same]
    · show (Function.update _ _ _ p = _) ∨ ∃ s, Function.update _ _ _ p = _
      rw [hgs p h1 hpo]; exact h3
  · intro o2 b hown2
    obtain ⟨h1, h2, h3, h4, h5⟩ := h.own_block o2 b hown2
    have hsh : sharers (Function.update (Function.update A.gs other
        (State.CrossLinkedHeap this env.deleter)) this (State.CrossLinkedStack o other))
        (this :: g.live) b = sharers A.gs g.live b := by
      rw [sharers_cons, Function.update_same]
      simp only [State.shares, Bool.false_eq_true, if_false, Nat.add_zero]
      apply sharers_congr b
      intro p hp
      rw [Function.update_noteq (hne p hp)]
      by_cases hpo : p = other
      · rw [hpo, Function.update_same, hst]; rfl
      · rw [Function.update_noteq hpo]
    exact ⟨h1, h2, by rw [hsh]; exact h3, by rw [hsh]; exact h4, h5⟩

theorem pre_increment_eq {c : Nat} (h : c + 1 < UINT) : pre_increment c = c + 1 :=
  Nat.mod_eq_of_lt h

/-- A new handle that joins the block `b` of the object `o`. -/
theorem Inv.add_sharer (h : Inv env w g A) (hfree : w.mem this = none) (haddr : Addr62 this)
    {o b : Nat} (ho : ObjAddr o) (hown : A.owner o = Owner.block b) (hno : NoOverflow w) :
    Inv env ((w.wr_data b ⟨pre_increment (sharers A.gs g.live b), env.deleter⟩).wr this
        (State.SharedCounted o b).words)
      ⟨this :: g.live, Function.update g.object_of this o, g.objects⟩
      ⟨Function.update A.gs this (State.SharedCounted o b), A.owner, A.shared⟩ := by
  have hnl : this ∉ g.live := h.not_live hfree
  have hne : ∀ p ∈ g.live, p ≠ this := fun p hp e => hnl (e ▸ hp)
  obtain ⟨hb0, hb62, hheap, hpos, huniq⟩ := h.own_block o b hown
  have hinc := pre_increment_eq (hno b _ _ hheap)
  have hsh : ∀ b2, sharers (Function.update A.gs this (State.SharedCounted o b))
      (this :: g.live) b2 = sharers A.gs g.live b2 + if b = b2 then 1 else 0 := by
    intro b2
    rw [sharers_cons, Function.update_same]
    congr 1
    · exact sharers_congr b2 (fun p hp => by rw [Function.update_noteq (hne p hp)])
    · simp [State.shares]
  refine
    { nodup := List.nodup_cons.mpr ⟨hnl, h.nodup⟩
      mem_iff := ?_
      rep := ?_
      own_handle := ?_
      own_block := ?_
      own_unborn := h.own_unborn
      objects_ne := h.objects_ne
      blocks := ?_
      deleted_fn := h.deleted_fn
      deleted_count := h.deleted_count
      allocs := h.allocs
      shared_nodup := h.shared_nodup
      shared_sub := h.shared_sub
      shared_block := h.shared_block }
  · intro p
    by_cases hp : p = this
    · subst hp; simp
    · simp [hp, wr_mem_other _ _ hp, h.mem_iff p]
  · intro p hp
    dsimp only at hp ⊢
    rcases List.mem_cons.mp hp with hpt | hp
    · rw [hpt]
      simp only [Function.update_same]
      exact ⟨wr_mem_self _ _ _, ⟨ho, hb0, hb62⟩, haddr, by simp, hown⟩
    · have hpn := hne p hp
      simp only [Function.update_noteq hpn]
      refine ⟨by rw [wr_mem_other _ _ hpn]; exact h.words hp, h.wf hp, h.addr hp, ?_⟩
      refine Good_frame (h.good hp) (Function.update_noteq hpn _ _) (fun _ => rfl) ?_ ?_ ?_
      · intro o2 r hs
        have hg := h.good hp
        rw [hs] at hg
        have hr : r ∈ g.live := hg.2.2.2.1.subset (by simp)
        exact ⟨hg.2.2.2.1.cons _, Function.update_noteq (hne r hr) _ _,
          by simp only [Function.update_noteq (hne r hr)]; exact id⟩
      · intro o2 x hs
        have hg := h.good hp
        rw [hs] at hg
        exact ⟨List.mem_cons_of_mem _ hg.2.2.1, Function.update_noteq (hne x hg.2.2.1) _ _⟩
      · intro s d hs
        have hg := h.good hp
        rw [hs] at hg
        exact ⟨List.mem_cons_of_mem _ hg.2.2.1, Function.update_noteq (hne s hg.2.2.1) _ _⟩
  · intro o2 p hown2
    obtain ⟨h1, h2, h3⟩ := h.own_handle o2 p hown2
    have hpn := hne p h1
    exact ⟨List.mem_cons_of_mem _ h1, by simp [Function.update_noteq hpn, h2],
      by simpa [Function.update_noteq hpn] using h3⟩
  · intro o2 b2 hown2
    obtain ⟨h1, h2, h3, h4, h5⟩ := h.own_block o2 b2 hown2
    dsimp only
    rw [hsh b2]
    refine ⟨h1, h2, ?_, by omega, h5⟩
    by_cases hbb : b = b2
    · subst hbb
      simp [hinc]
    · simp [hbb, wr_data_heap_other _ _ (Ne.symm hbb), h3]
  · intro b2 hb2
    by_cases hbb : b2 = b
    · exact ⟨o, hbb ▸ hown⟩
    · apply h.blocks b2
      simpa [wr_data_heap_other _ _ hbb] using hb2

end add

end Hybrid

namespace Hybrid

open versatile_ptr

/-! ## The invariant is kept by every change of state: the first block of an object -/

section create

variable {env : Env} {w : World} {g : Ghost} {A : Abs} {this p : Nat}

/-- The four ways a live handle can hold, or share, the deleter of its object. -/
theorem Inv.root_cases (h : Inv env w g A) (hp : p ∈ g.live)
    (hst : (A.gs p).is_root = true ∨ ∃ s d, A.gs p = State.CrossLinkedHeap s d) :
    (A.gs p = State.Owning (g.object_of p) env.deleter ∧
        A.owner (g.object_of p) = Owner.handle p) ∨
      (∃ x, A.gs p = State.CrossLinkedStack (g.object_of p) x ∧
        A.owner (g.object_of p) = Owner.handle x ∧
          A.gs x = State.CrossLinkedHeap p env.deleter) ∨
      (∃ s, A.gs p = State.CrossLinkedHeap s env.deleter ∧
        A.owner (g.object_of p) = Owner.handle p) ∨
      ∃ b, A.gs p = State.SharedCounted (g.object_of p) b ∧
        A.owner (g.object_of p) = Owner.block b := by
  have hg := h.good hp
  cases hs : A.gs p with
  | Null => rw [hs] at hst; simp [State.is_root] at hst
  | LinkedToStack o r => rw [hs] at hst; simp [State.is_root] at hst
  | Owning o d =>
    rw [hs] at hg
    obtain ⟨h1, h2, h3⟩ := hg
    subst h1 h2
    exact Or.inl ⟨rfl, h3⟩
  | CrossLinkedStack o x =>
    rw [hs] at hg
    obtain ⟨h1, -, -, h4, h5⟩ := hg
    subst h1
    exact Or.inr (Or.inl ⟨x, rfl, h5, h4⟩)
  | CrossLinkedHeap s d =>
    rw [hs] at hg
    obtain ⟨h1, -, -, -, h5⟩ := hg
    subst h1
    exact Or.inr (Or.inr (Or.inl ⟨s, rfl, h5⟩))
  | SharedCounted o b =>
    rw [hs] at hg
    obtain ⟨h1, h2⟩ := hg
    subst h1
    exact Or.inr (Or.inr (Or.inr ⟨b, rfl, h2⟩))

/-- The deleter of an object that a handle in state `Owning` holds is held by no other
root. -/
theorem Inv.owning_unique (h : Inv env w g A) {r o : Nat} (hr : r ∈ g.live)
    (hgs : A.gs r = State.Owning o env.deleter) (hp : p ∈ g.live) (hpr : p ≠ r)
    (hst : (A.gs p).is_root = true ∨ ∃ s d, A.gs p = State.CrossLinkedHeap s d) :
    g.object_of p ≠ o := by
  have hg := h.good hr
  rw [hgs] at hg
  obtain ⟨-, -, hown⟩ := hg
  intro e
  rcases h.root_cases hp hst with ⟨-, h2⟩ | ⟨x, -, h2, h3⟩ | ⟨s, -, h2⟩ | ⟨b, -, h2⟩
  · rw [e, hown] at h2
    exact hpr (Owner.handle.inj h2).symm
  · rw [e, hown] at h2
    rw [← Owner.handle.inj h2, hgs] at h3
    cases h3
  · rw [e, hown] at h2
    exact hpr (Owner.handle.inj h2).symm
  · rw [e, hown] at h2
    cases h2

/-- No live handle shares a block that is not allocated. -/
theorem Inv.no_sharer (h : Inv env w g A) {b : Nat} (hb : w.heap b = none) (hp : p ∈ g.live) :
    (A.gs p).shares b = false := by
  cases hs : (A.gs p).shares b with
  | false => rfl
  | true =>
    obtain ⟨o, ho⟩ := shares_iff.mp hs
    have hg := h.good hp
    rw [ho] at hg
    obtain ⟨-, -, h3, -, -⟩ := h.own_block _ _ hg.2
    rw [hb] at h3
    cases h3

theorem pre_increment_mod (n : Nat) : pre_increment (n % UINT) = (n + 1) % UINT := by
  unfold pre_increment
  exact Nat.add_mod_mod _ _ _ ▸ (Nat.mod_add_mod n UINT 1)

/-- The root `r`, which holds the deleter itself, and a new handle share a new block. -/
theorem Inv.add_create (h : Inv env w g A) (hfree : w.mem this = none) (haddr : Addr62 this)
    {r o data : Nat} (hr : r ∈ g.live) (hgs : A.gs r = State.Owning o env.deleter)
    (hd0 : data ≠ 0) (hd62 : Addr62 data) (hfresh : w.heap data = none) :
    Inv env
      ((((w.new_shared_data data env.deleter).wr_data data ⟨2, env.deleter⟩).wr r
        (State.SharedCounted o data).words).wr this (State.SharedCounted o data).words)
      ⟨this :: g.live, Function.update g.object_of this o, g.objects⟩
      ⟨Function.update (Function.update A.gs r (State.SharedCounted o data)) this
        (State.SharedCounted o data), Function.update A.owner o (Owner.block data),
        o :: A.shared⟩ := by
  have hnl : this ∉ g.live := h.not_live hfree
  have hne : ∀ p ∈ g.live, p ≠ this := fun p hp e => hnl (e ▸ hp)
  have hrt := hne r hr
  have hgr := h.good hr
  rw [hgs] at hgr
  obtain ⟨hobj, -, hown⟩ := hgr
  have hwfr := h.wf hr
  rw [hgs] at hwfr
  have hgs2 : ∀ p ∈ g.live, p ≠ r →
      Function.update (Function.update A.gs r (State.SharedCounted o data)) this
        (State.SharedCounted o data) p = A.gs p := by
    intro p hp hpr
    rw [Function.update_noteq (hne p hp), Function.update_noteq hpr]
  have hgsr : Function.update (Function.update A.gs r (State.SharedCounted o data)) this
        (State.SharedCounted o data) r = State.SharedCounted o data := by
    rw [Function.update_noteq hrt, Function.update_same]
  have hoS : o ∉ A.shared := by
    intro ho
    rcases h.shared_sub o ho with h1 | ⟨b, h1⟩ <;> rw [hown] at h1 <;> cases h1
  have hsh : ∀ b, sharers (Function.update (Function.update A.gs r (State.SharedCounted o data))
      this (State.SharedCounted o data)) (this :: g.live) b =
        sharers A.gs g.live b + if data = b then 2 else 0 := by
    intro b
    rw [sharers_cons, Function.update_same]
    have h1 : sharers (Function.update (Function.update A.gs r (State.SharedCounted o data))
        this (State.SharedCounted o data)) g.live b =
        sharers (Function.update A.gs r (State.SharedCounted o data)) g.live b :=
      sharers_congr b (fun p hp => by rw [Function.update_noteq (hne p hp)])
    have h2 := sharers_update A.gs hr h.nodup (State.SharedCounted o data) b
    rw [hgs] at h2
    rw [h1]
    simp only [State.shares, beq_iff_eq, Bool.false_eq_true, if_false, Nat.add_zero] at h2 ⊢
    rw [h2]
    by_cases hb : data = b <;> simp [hb]
  have h0 : sharers A.gs g.live data = 0 := by
    by_contra hc
    obtain ⟨p, hp, hs⟩ := sharers_pos_iff.mp (Nat.pos_of_ne_zero hc)
    rw [h.no_sharer hfresh hp] at hs
    cases hs
  refine
    { nodup := List.nodup_cons.mpr ⟨hnl, h.nodup⟩
      mem_iff := ?_
      rep := ?_
      own_handle := ?_
      own_block := ?_
      own_unborn := ?_
      objects_ne := h.objects_ne
      blocks := ?_
      deleted_fn := h.deleted_fn
      deleted_count := ?_
      allocs := ?_
      shared_nodup := List.nodup_cons.mpr ⟨hoS, h.shared_nodup⟩
      shared_sub := ?_
      shared_block := ?_ }
  · intro p
    by_cases hp : p = this
    · subst hp; simp
    · by_cases hpr : p = r
      · subst hpr
        simp [wr_mem_other _ _ hp, hr]
      · simp [hp, wr_mem_other _ _ hp, wr_mem_other _ _ hpr, h.mem_iff p]
  · intro p hp
    dsimp only at hp ⊢
    rcases List.mem_cons.mp hp with hpt | hp
    · rw [hpt]
      simp only [Function.update_same]
      exact ⟨wr_mem_self _ _ _, ⟨hwfr.1, hd0, hd62⟩, haddr, by simp, by simp⟩
    · have hpn := hne p hp
      by_cases hpr : p = r
      · rw [hpr, hgsr]
        refine ⟨by rw [wr_mem_other _ _ hrt]; exact wr_mem_self _ _ _, ⟨hwfr.1, hd0, hd62⟩,
          h.addr hr, ?_, by simp⟩
        show Function.update g.object_of this o r = o
        rw [Function.update_noteq hrt]
        exact hobj
      · rw [hgs2 p hp hpr]
        refine ⟨by rw [wr_mem_other _ _ hpn, wr_mem_other _ _ hpr]; exact h.words hp, h.wf hp,
          h.addr hp, ?_⟩
        refine Good_frame (h.good hp) (Function.update_noteq hpn _ _) ?_ ?_ ?_ ?_
        · intro hst
          exact Function.update_noteq (h.owning_unique hr hgs hp hpr hst) _ _
        · intro o2 r2 hs
          have hg := h.good hp
          rw [hs] at hg
          have hr2 : r2 ∈ g.live := hg.2.2.2.1.subset (by simp)
          refine ⟨hg.2.2.2.1.cons _, Function.update_noteq (hne r2 hr2) _ _, ?_⟩
          dsimp only
          by_cases e : r2 = r
          · rw [e, hgsr]; intro _; rfl
          · rw [hgs2 r2 hr2 e]; exact id
        · intro o2 x hs
          have hg := h.good hp
          rw [hs] at hg
          refine ⟨List.mem_cons_of_mem _ hg.2.2.1, hgs2 x hg.2.2.1 ?_⟩
          intro e
          have := hg.2.2.2.1
          rw [e, hgs] at this
          cases this
        · intro s d hs
          have hg := h.good hp
          rw [hs] at hg
          refine ⟨List.mem_cons_of_mem _ hg.2.2.1, hgs2 s hg.2.2.1 ?_⟩
          intro e
          have := hg.2.2.2.1
          rw [e, hgs] at this
          cases this
  · intro o2 p hown2
    dsimp only at hown2 ⊢
    have ho2 : o2 ≠ o := by
      intro e
      rw [e, Function.update_same] at hown2
      cases hown2
    rw [Function.update_noteq ho2] at hown2
    obtain ⟨h1, h2, h3⟩ := h.own_handle o2 p hown2
    have hpn := hne p h1
    have hpr : p ≠ r := by
      intro e
      rw [e, hobj] at h2
      exact ho2 h2.symm
    exact ⟨List.mem_cons_of_mem _ h1, by simp [Function.update_noteq hpn, h2],
      by rw [hgs2 p h1 hpr]; exact h3⟩
  · intro o2 b hown2
    dsimp only at hown2 ⊢
    rw [hsh b]
    by_cases ho2 : o2 = o
    · rw [ho2] at hown2 ⊢
      rw [Function.update_same] at hown2
      have hb := Owner.block.inj hown2
      rw [← hb, h0]
      refine ⟨hd0, hd62, by simp, by simp, ?_⟩
      intro o3 h3
      by_contra hc
      rw [Function.update_noteq hc] at h3
      obtain ⟨-, -, h4, -, -⟩ := h.own_block o3 data h3
      rw [hfresh] at h4
      cases h4
    · rw [Function.update_noteq ho2] at hown2
      obtain ⟨h1, h2, h3, h4, h5⟩ := h.own_block o2 b hown2
      have hbd : b ≠ data := by
        intro e
        rw [e, hfresh] at h3
        cases h3
      refine ⟨h1, h2, ?_, by omega, ?_⟩
      · simp [Ne.symm hbd, wr_data_heap_other _ _ hbd, new_shared_data_heap_other _ _ hbd, h3]
      · intro o3 h6
        by_cases e : o3 = o
        · rw [e, Function.update_same] at h6
          exact absurd (Owner.block.inj h6).symm hbd
        · rw [Function.update_noteq e] at h6
          exact h5 o3 h6
  · intro o2
    dsimp only
    by_cases ho2 : o2 = o
    · rw [ho2, Function.update_same]
      have : o ∈ g.objects := by
        by_contra hc
        have := (h.own_unborn o).mpr hc
        rw [hown] at this
        cases this
      simp [this]
    · rw [Function.update_noteq ho2]
      exact h.own_unborn o2
  · intro b hb
    dsimp only
    by_cases hbd : b = data
    · exact ⟨o, by rw [hbd, Function.update_same]⟩
    · have hb2 : w.heap b ≠ none := by
        simpa [wr_data_heap_other _ _ hbd, new_shared_data_heap_other _ _ hbd] using hb
      obtain ⟨o2, ho2⟩ := h.blocks b hb2
      refine ⟨o2, ?_⟩
      have : o2 ≠ o := by
        intro e
        rw [e, hown] at ho2
        cases ho2
      rw [Function.update_noteq this]
      exact ho2
  · intro o2
    dsimp only
    have hd : (w.wr r (State.SharedCounted o data).words).deleted = w.deleted := rfl
    simp only [wr_deleted, wr_data_deleted, new_shared_data_deleted]
    rw [h.deleted_count o2]
    by_cases ho2 : o2 = o
    · rw [ho2, Function.update_same, hown]
      simp
    · rw [Function.update_noteq ho2]
  · dsimp only
    simp only [wr_total, wr_data_total, new_shared_data_total, List.length_cons]
    rw [h.allocs, pre_increment_mod]
  · intro o2 ho2
    dsimp only at ho2 ⊢
    rcases List.mem_cons.mp ho2 with e | ho2
    · exact Or.inr ⟨data, by rw [e, Function.update_same]⟩
    · have : o2 ≠ o := fun e => hoS (e ▸ ho2)
      rw [Function.update_noteq this]
      exact h.shared_sub o2 ho2
  · intro o2 b hb
    dsimp only at hb ⊢
    by_cases ho2 : o2 = o
    · simp [ho2]
    · rw [Function.update_noteq ho2] at hb
      exact List.mem_cons_of_mem _ (h.shared_block o2 b hb)

end create

end Hybrid

namespace Hybrid

open versatile_ptr

/-! ## The invariant is kept by every change of state: the end of a handle -/

section del

variable {env : Env} {w : World} {g : Ghost} {A : Abs} {this p : Nat}

@[simp] theorem release_mem_self (w : World) (p : Nat) : (w.release p).mem p = none := by
  simp [World.release]

theorem release_mem_other (w : World) {p q : Nat} (hne : q ≠ p) :
    (w.release p).mem q = w.mem q := by
  simp [World.release, hne]

@[simp] theorem release_heap (w : World) (p : Nat) : (w.release p).heap = w.heap := rfl

@[simp] theorem release_total (w : World) (p : Nat) :
    (w.release p).total_nb_allocs = w.total_nb_allocs := rfl

@[simp] theorem release_deleted (w : World) (p : Nat) : (w.release p).deleted = w.deleted := rfl

@[simp] theorem wr_release (w : World) (p : Nat) (x : hybrid_shared_ptr) :
    (w.wr p x).release p = w.release p := by
  simp only [World.release, World.wr]
  congr 1
  funext a
  by_cases ha : a = p <;> simp [ha]

/-- Under scope discipline, no live handle is linked to a handle that is destroyed. -/
theorem Inv.no_link_to (h : Inv env w g A)
    (hdisc : is_address_in_stack env this = true →
      ∀ q ∈ g.live.takeWhile (fun a => a != this), is_address_in_stack env q = false)
    (hp : p ∈ g.live) (o : Nat) : A.gs p ≠ State.LinkedToStack o this := by
  intro hs
  have hg := h.good hp
  rw [hs] at hg
  obtain ⟨-, hres, hin, hsub, -, -⟩ := hg
  have := hdisc hin p (mem_takeWhile_of_sublist hsub h.nodup)
  rw [hres.1] at this
  cases this

/-- The handles alive after `this` is destroyed. -/
theorem Inv.mem_erase (h : Inv env w g A) : p ∈ g.live.erase this ↔ p ≠ this ∧ p ∈ g.live :=
  h.nodup.mem_erase_iff

/-- The end of a handle that is null or linked to a stack root. -/
theorem Inv.del_plain (h : Inv env w g A) (hthis : this ∈ g.live)
    (hroot : (A.gs this).is_root = false) (hch : ∀ s d, A.gs this ≠ State.CrossLinkedHeap s d) :
    Inv env (w.release this) ⟨g.live.erase this, g.object_of, g.objects⟩ A := by
  have hsh : ∀ b, sharers A.gs (g.live.erase this) b = sharers A.gs g.live b := by
    intro b
    rw [sharers_erase A.gs hthis b, shares_of_not_root hroot]
    simp
  refine
    { nodup := h.nodup.erase _
      mem_iff := ?_
      rep := ?_
      own_handle := ?_
      own_block := ?_
      own_unborn := h.own_unborn
      objects_ne := h.objects_ne
      blocks := h.blocks
      deleted_fn := h.deleted_fn
      deleted_count := h.deleted_count
      allocs := h.allocs
      shared_nodup := h.shared_nodup
      shared_sub := h.shared_sub
      shared_block := h.shared_block }
  · intro q
    dsimp only
    rw [h.mem_erase]
    by_cases hq : q = this
    · subst hq; simp
    · simp [hq, release_mem_other _ hq, h.mem_iff q]
  · intro q hq
    dsimp only at hq ⊢
    obtain ⟨hqt, hq⟩ := h.mem_erase.mp hq
    refine ⟨by rw [release_mem_other _ hqt]; exact h.words hq, h.wf hq, h.addr hq, ?_⟩
    refine Good_frame (h.good hq) rfl (fun _ => rfl) ?_ ?_ ?_
    · intro o r hs
      have hg := h.good hq
      rw [hs] at hg
      have hrt : r ≠ this := by
        intro e
        have := hg.2.2.2.2.2
        rw [e, hroot] at this
        cases this
      exact ⟨sublist_pair_erase hg.2.2.2.1 hqt hrt, rfl, id⟩
    · intro o x hs
      have hg := h.good hq
      rw [hs] at hg
      refine ⟨h.mem_erase.mpr ⟨?_, hg.2.2.1⟩, rfl⟩
      intro e
      exact hch _ _ (e ▸ hg.2.2.2.1)
    · intro s d hs
      have hg := h.good hq
      rw [hs] at hg
      refine ⟨h.mem_erase.mpr ⟨?_, hg.2.2.1⟩, rfl⟩
      intro e
      have := hg.2.2.2.1
      rw [e] at this
      rw [this] at hroot
      cases hroot
  · intro o q hown
    obtain ⟨h1, h2, h3⟩ := h.own_handle o q hown
    refine ⟨h.mem_erase.mpr ⟨?_, h1⟩, h2, h3⟩
    intro e
    rw [e] at h3
    rcases h3 with h3 | ⟨s, h3⟩
    · rw [h3] at hroot; cases hroot
    · exact hch _ _ h3
  · intro o b hown
    dsimp only
    rw [hsh b]
    exact h.own_block o b hown

/-- The end of the handle that holds the deleter of `o` itself: `o` is deleted. -/
theorem Inv.del_owner (h : Inv env w g A) (hthis : this ∈ g.live) {o : Nat}
    (hgs : A.gs this = State.Owning o env.deleter)
    (hdisc : is_address_in_stack env this = true →
      ∀ q ∈ g.live.takeWhile (fun a => a != this), is_address_in_stack env q = false) :
    Inv env ((w.call_deleter env.deleter o).release this)
      ⟨g.live.erase this, g.object_of, g.objects⟩
      ⟨A.gs, Function.update A.owner o Owner.gone, A.shared⟩ := by
  have hgt := h.good hthis
  rw [hgs] at hgt
  obtain ⟨hobj, -, hown⟩ := hgt
  have hsh : ∀ b, sharers A.gs (g.live.erase this) b = sharers A.gs g.live b := by
    intro b
    rw [sharers_erase A.gs hthis b, hgs]
    simp [State.shares]
  have hoS : o ∉ A.shared := by
    intro ho
    rcases h.shared_sub o ho with h1 | ⟨b, h1⟩ <;> rw [hown] at h1 <;> cases h1
  refine
    { nodup := h.nodup.erase _
      mem_iff := ?_
      rep := ?_
      own_handle := ?_
      own_block := ?_
      own_unborn := ?_
      objects_ne := h.objects_ne
      blocks := ?_
      deleted_fn := ?_
      deleted_count := ?_
      allocs := h.allocs
      shared_nodup := h.shared_nodup
      shared_sub := ?_
      shared_block := ?_ }
  · intro q
    dsimp only
    rw [h.mem_erase]
    by_cases hq : q = this
    · subst hq; simp
    · simp [hq, release_mem_other _ hq, h.mem_iff q]
  · intro q hq
    dsimp only at hq ⊢
    obtain ⟨hqt, hq⟩ := h.mem_erase.mp hq
    refine ⟨by rw [release_mem_other _ hqt]; exact h.words hq, h.wf hq, h.addr hq, ?_⟩
    refine Good_frame (h.good hq) rfl ?_ ?_ ?_ ?_
    · intro hst
      exact Function.update_noteq (h.owning_unique hthis hgs hq hqt hst) _ _
    · intro o2 r hs
      have hg := h.good hq
      rw [hs] at hg
      have hrt : r ≠ this := by
        intro e
        rw [e] at hs
        exact h.no_link_to hdisc hq o2 hs
      exact ⟨sublist_pair_erase hg.2.2.2.1 hqt hrt, rfl, id⟩
    · intro o2 x hs
      have hg := h.good hq
      rw [hs] at hg
      refine ⟨h.mem_erase.mpr ⟨?_, hg.2.2.1⟩, rfl⟩
      intro e
      have := hg.2.2.2.1
      rw [e, hgs] at this
      cases this
    · intro s d hs
      have hg := h.good hq
      rw [hs] at hg
      refine ⟨h.mem_erase.mpr ⟨?_, hg.2.2.1⟩, rfl⟩
      intro e
      have := hg.2.2.2.1
      rw [e, hgs] at this
      cases this
  · intro o2 q hown2
    dsimp only at hown2 ⊢
    have ho2 : o2 ≠ o := by
      intro e
      rw [e, Function.update_same] at hown2
      cases hown2
    rw [Function.update_noteq ho2] at hown2
    obtain ⟨h1, h2, h3⟩ := h.own_handle o2 q hown2
    refine ⟨h.mem_erase.mpr ⟨?_, h1⟩, h2, h3⟩
    intro e
    rw [e, hobj] at h2
    exact ho2 h2.symm
  · intro o2 b hown2
    dsimp only at hown2 ⊢
    have ho2 : o2 ≠ o := by
      intro e
      rw [e, Function.update_same] at hown2
      cases hown2
    rw [Function.update_noteq ho2] at hown2
    rw [hsh b]
    obtain ⟨h1, h2, h3, h4, h5⟩ := h.own_block o2 b hown2
    refine ⟨h1, h2, h3, h4, ?_⟩
    intro o3 h6
    have ho3 : o3 ≠ o := by
      intro e
      rw [e, Function.update_same] at h6
      cases h6
    rw [Function.update_noteq ho3] at h6
    exact h5 o3 h6
  · intro o2
    dsimp only
    by_cases ho2 : o2 = o
    · rw [ho2, Function.update_same]
      have : o ∈ g.objects := by
        by_contra hc
        have := (h.own_unborn o).mpr hc
        rw [hown] at this
        cases this
      simp [this]
    · rw [Function.update_noteq ho2]
      exact h.own_unborn o2
  · intro b hb
    dsimp only
    obtain ⟨o2, ho2⟩ := h.blocks b hb
    refine ⟨o2, ?_⟩
    have : o2 ≠ o := by
      intro e
      rw [e, hown] at ho2
      cases ho2
    rw [Function.update_noteq this]
    exact ho2
  · intro x hx
    simp only [release_deleted, call_deleter_deleted, List.mem_cons] at hx
    rcases hx with e | hx
    · rw [e]
    · exact h.deleted_fn x hx
  · intro o2
    dsimp only
    simp only [release_deleted, call_deleter_deleted]
    by_cases ho2 : o2 = o
    · rw [ho2, Function.update_same, List.count_cons_self, h.deleted_count o, hown]
      simp
    · rw [Function.update_noteq ho2, List.count_cons_of_ne, h.deleted_count o2]
      intro e
      exact ho2 (Prod.mk.inj e).2
  · intro o2 ho2
    dsimp only
    have : o2 ≠ o := fun e => hoS (e ▸ ho2)
    rw [Function.update_noteq this]
    exact h.shared_sub o2 ho2
  · intro o2 b hb
    dsimp only at hb ⊢
    have ho2 : o2 ≠ o := by
      intro e
      rw [e, Function.update_same] at hb
      cases hb
    rw [Function.update_noteq ho2] at hb
    exact h.shared_block o2 b hb

/-- The end of a stack root that is cross-linked with the handle `x`: `x` holds the
deleter alone again. -/
theorem Inv.del_cross_stack (h : Inv env w g A) (hthis : this ∈ g.live) {o x : Nat}
    (hgs : A.gs this = State.CrossLinkedStack o x)
    (hdisc : is_address_in_stack env this = true →
      ∀ q ∈ g.live.takeWhile (fun a => a != this), is_address_in_stack env q = false) :
    Inv env ((w.wr x (State.Owning o env.deleter).words).release this)
      ⟨g.live.erase this, g.object_of, g.objects⟩
      ⟨Function.update A.gs x (State.Owning o env.deleter), A.owner, A.shared⟩ := by
  have hgt := h.good hthis
  rw [hgs] at hgt
  obtain ⟨hobj, -, hx, hgx, hown⟩ := hgt
  have hxt : x ≠ this := by
    intro e
    rw [e, hgs] at hgx
    cases hgx
  have hgxx := h.good hx
  rw [hgx] at hgxx
  obtain ⟨-, -, -, hgx2, -⟩ := hgxx
  rw [hgs] at hgx2
  have hobjx : g.object_of x = o := by
    injection hgx2 with e1 e2
    exact e1.symm
  have hwft := h.wf hthis
  rw [hgs] at hwft
  have hwfx := h.wf hx
  rw [hgx] at hwfx
  have hsh : ∀ b, sharers (Function.update A.gs x (State.Owning o env.deleter))
      (g.live.erase this) b = sharers A.gs g.live b := by
    intro b
    have h2 := sharers_update A.gs hx h.nodup (State.Owning o env.deleter) b
    rw [hgx] at h2
    have h3 := sharers_erase (Function.update A.gs x (State.Owning o env.deleter)) hthis b
    rw [Function.update_noteq (Ne.symm hxt), hgs] at h3
    simp only [State.shares, Bool.false_eq_true, if_false, Nat.add_zero] at h2 h3
    rw [← h3, h2]
  refine
    { nodup := h.nodup.erase _
      mem_iff := ?_
      rep := ?_
      own_handle := ?_
      own_block := ?_
      own_unborn := h.own_unborn
      objects_ne := h.objects_ne
      blocks := h.blocks
      deleted_fn := h.deleted_fn
      deleted_count := h.deleted_count
      allocs := h.allocs
      shared_nodup := h.shared_nodup
      shared_sub := h.shared_sub
      shared_block := h.shared_block }
  · intro q
    dsimp only
    rw [h.mem_erase]
    by_cases hq : q = this
    · subst hq; simp
    · by_cases hqx : q = x
      · subst hqx
        simp [hq, release_mem_other _ hq, hx]
      · simp [hq, release_mem_other _ hq, wr_mem_other _ _ hqx, h.mem_iff q]
  · intro q hq
    dsimp only at hq ⊢
    obtain ⟨hqt, hq⟩ := h.mem_erase.mp hq
    by_cases hqx : q = x
    · rw [hqx, Function.update_same]
      exact ⟨by rw [release_mem_other _ hxt]; exact wr_mem_self _ _ _, ⟨hwft.1, hwfx.2⟩,
        h.addr hx, hobjx, rfl, hown⟩
    · rw [Function.update_noteq hqx]
      refine ⟨by rw [release_mem_other _ hqt, wr_mem_other _ _ hqx]; exact h.words hq, h.wf hq,
        h.addr hq, ?_⟩
      refine Good_frame (h.good hq) rfl (fun _ => rfl) ?_ ?_ ?_
      · intro o2 r hs
        have hg := h.good hq
        rw [hs] at hg
        have hrt : r ≠ this := by
          intro e
          rw [e] at hs
          exact h.no_link_to hdisc hq o2 hs
        have hrx : r ≠ x := by
          intro e
          have := hg.2.2.2.2.2
          rw [e, hgx] at this
          cases this
        refine ⟨sublist_pair_erase hg.2.2.2.1 hqt hrt, rfl, ?_⟩
        dsimp only
        rw [Function.update_noteq hrx]
        exact id
      · intro o2 y hs
        have hg := h.good hq
        rw [hs] at hg
        have hyx : y ≠ x := by
          intro e
          have := hg.2.2.2.1
          rw [e, hgx] at this
          injection this with e1 e2
          exact hqt e1.symm
        refine ⟨h.mem_erase.mpr ⟨?_, hg.2.2.1⟩, Function.update_noteq hyx _ _⟩
        intro e
        have := hg.2.2.2.1
        rw [e, hgs] at this
        cases this
      · intro s d hs
        have hg := h.good hq
        rw [hs] at hg
        have hsx : s ≠ x := by
          intro e
          have := hg.2.2.2.1
          rw [e, hgx] at this
          cases this
        refine ⟨h.mem_erase.mpr ⟨?_, hg.2.2.1⟩, Function.update_noteq hsx _ _⟩
        intro e
        have := hg.2.2.2.1
        rw [e, hgs] at this
        injection this with e1 e2
        exact hqx e2.symm
  · intro o2 q hown2
    obtain ⟨h1, h2, h3⟩ := h.own_handle o2 q hown2
    have hqt : q ≠ this := by
      intro e
      rw [e, hgs] at h3
      rcases h3 with h3 | ⟨s, h3⟩ <;> cases h3
    refine ⟨h.mem_erase.mpr ⟨hqt, h1⟩, h2, ?_⟩
    dsimp only
    by_cases hqx : q = x
    · rw [hqx, Function.update_same]
      rw [hqx, hobjx] at h2
      exact Or.inl (by rw [h2])
    · rw [Function.update_noteq hqx]
      exact h3
  · intro o2 b hown2
    dsimp only
    rw [hsh b]
    exact h.own_block o2 b hown2

/-- The end of a handle outside the stack that is cross-linked with the stack root `s`:
`s` takes the deleter. -/
theorem Inv.del_cross_heap (h : Inv env w g A) (hthis : this ∈ g.live) {s : Nat}
    (hgs : A.gs this = State.CrossLinkedHeap s env.deleter) :
    Inv env ((w.wr s (State.Owning (g.object_of this) env.deleter).words).release this)
      ⟨g.live.erase this, g.object_of, g.objects⟩
      ⟨Function.update A.gs s (State.Owning (g.object_of this) env.deleter),
        Function.update A.owner (g.object_of this) (Owner.handle s), A.shared⟩ := by
  have hgt := h.good hthis
  rw [hgs] at hgt
  obtain ⟨-, -, hs, hgss, hown⟩ := hgt
  have hst : s ≠ this := by
    intro e
    rw [e, hgs] at hgss
    cases hgss
  have hgs2 := h.good hs
  rw [hgss] at hgs2
  obtain ⟨hobjs, -, -, -, -⟩ := hgs2
  have hwft := h.wf hthis
  rw [hgs] at hwft
  have hwfs := h.wf hs
  rw [hgss] at hwfs
  have hsh : ∀ b, sharers (Function.update A.gs s (State.Owning (g.object_of this) env.deleter))
      (g.live.erase this) b = sharers A.gs g.live b := by
    intro b
    have h2 := sharers_update A.gs hs h.nodup (State.Owning (g.object_of this) env.deleter) b
    rw [hgss] at h2
    have h3 := sharers_erase
      (Function.update A.gs s (State.Owning (g.object_of this) env.deleter)) hthis b
    rw [Function.update_noteq (Ne.symm hst), hgs] at h3
    simp only [State.shares, Bool.false_eq_true, if_false, Nat.add_zero] at h2 h3
    rw [← h3, h2]
  have huniq : ∀ q ∈ g.live, q ≠ this → q ≠ s →
      ((A.gs q).is_root = true ∨ ∃ s2 d, A.gs q = State.CrossLinkedHeap s2 d) →
      g.object_of q ≠ g.object_of this := by
    intro q hq hqt hqs hroot e
    rcases h.root_cases hq hroot with ⟨-, h2⟩ | ⟨x, h1, h2, h3⟩ | ⟨s2, -, h2⟩ | ⟨b, -, h2⟩
    · rw [e, hown] at h2
      exact hqt (Owner.handle.inj h2).symm
    · rw [e, hown] at h2
      rw [← Owner.handle.inj h2, hgs] at h3
      injection h3 with e1 e2
      exact hqs e1.symm
    · rw [e, hown] at h2
      exact hqt (Owner.handle.inj h2).symm
    · rw [e, hown] at h2
      cases h2
  refine
    { nodup := h.nodup.erase _
      mem_iff := ?_
      rep := ?_
      own_handle := ?_
      own_block := ?_
      own_unborn := ?_
      objects_ne := h.objects_ne
      blocks := ?_
      deleted_fn := h.deleted_fn
      deleted_count := ?_
      allocs := h.allocs
      shared_nodup := h.shared_nodup
      shared_sub := ?_
      shared_block := ?_ }
  · intro q
    dsimp only
    rw [h.mem_erase]
    by_cases hq : q = this
    · subst hq; simp
    · by_cases hqx : q = s
      · subst hqx
        simp [hq, release_mem_other _ hq, hs]
      · simp [hq, release_mem_other _ hq, wr_mem_other _ _ hqx, h.mem_iff q]
  · intro q hq
    dsimp only at hq ⊢
    obtain ⟨hqt, hq⟩ := h.mem_erase.mp hq
    by_cases hqs : q = s
    · rw [hqs, Function.update_same]
      exact ⟨by rw [release_mem_other _ hst]; exact wr_mem_self _ _ _, ⟨hwfs.1, hwft.2⟩,
        h.addr hs, hobjs, rfl, by simp⟩
    · rw [Function.update_noteq hqs]
      refine ⟨by rw [release_mem_other _ hqt, wr_mem_other _ _ hqs]; exact h.words hq, h.wf hq,
        h.addr hq, ?_⟩
      refine Good_frame (h.good hq) rfl ?_ ?_ ?_ ?_
      · intro hroot
        exact Function.update_noteq (huniq q hq hqt hqs hroot) _ _
      · intro o2 r hl
        have hg := h.good hq
        rw [hl] at hg
        have hrt : r ≠ this := by
          intro e
          have := hg.2.2.2.2.2
          rw [e, hgs] at this
          cases this
        refine ⟨sublist_pair_erase hg.2.2.2.1 hqt hrt, rfl, ?_⟩
        dsimp only
        by_cases hrs : r = s
        · rw [hrs, Function.update_same]
          intro _
          rfl
        · rw [Function.update_noteq hrs]
          exact id
      · intro o2 y hl
        have hg := h.good hq
        rw [hl] at hg
        have hys : y ≠ s := by
          intro e
          have := hg.2.2.2.1
          rw [e, hgss] at this
          cases this
        refine ⟨h.mem_erase.mpr ⟨?_, hg.2.2.1⟩, Function.update_noteq hys _ _⟩
        intro e
        have := hg.2.2.2.1
        rw [e, hgs] at this
        injection this with e1 e2
        exact hqs e1.symm
      · intro s2 d hl
        have hg := h.good hq
        rw [hl] at hg
        have hss : s2 ≠ s := by
          intro e
          have := hg.2.2.2.1
          rw [e, hgss] at this
          injection this with e1 e2
          exact hqt e2.symm
        refine ⟨h.mem_erase.mpr ⟨?_, hg.2.2.1⟩, Function.update_noteq hss _ _⟩
        intro e
        have := hg.2.2.2.1
        rw [e, hgs] at this
        cases this
  · intro o2 q hown2
    dsimp only at hown2 ⊢
    by_cases ho2 : o2 = g.object_of this
    · rw [ho2, Function.update_same] at hown2
      have hqs := (Owner.handle.inj hown2).symm
      rw [hqs, ho2, Function.update_same]
      exact ⟨h.mem_erase.mpr ⟨hst, hs⟩, hobjs, Or.inl rfl⟩
    · rw [Function.update_noteq ho2] at hown2
      obtain ⟨h1, h2, h3⟩ := h.own_handle o2 q hown2
      have hqt : q ≠ this := by
        intro e
        rw [e] at h2
        exact ho2 h2.symm
      have hqs : q ≠ s := by
        intro e
        rw [e, hobjs] at h2
        exact ho2 h2.symm
      refine ⟨h.mem_erase.mpr ⟨hqt, h1⟩, h2, ?_⟩
      rw [Function.update_noteq hqs]
      exact h3
  · intro o2 b hown2
    dsimp only at hown2 ⊢
    have ho2 : o2 ≠ g.object_of this := by
      intro e
      rw [e, Function.update_same] at hown2
      cases hown2
    rw [Function.update_noteq ho2] at hown2
    rw [hsh b]
    obtain ⟨h1, h2, h3, h4, h5⟩ := h.own_block o2 b hown2
    refine ⟨h1, h2, h3, h4, ?_⟩
    intro o3 h6
    have ho3 : o3 ≠ g.object_of this := by
      intro e
      rw [e, Function.update_same] at h6
      cases h6
    rw [Function.update_noteq ho3] at h6
    exact h5 o3 h6
  · intro o2
    dsimp only
    by_cases ho2 : o2 = g.object_of this
    · rw [ho2, Function.update_same]
      have : g.object_of this ∈ g.objects := by
        by_contra hc
        have := (h.own_unborn _).mpr hc
        rw [hown] at this
        cases this
      simp [this]
    · rw [Function.update_noteq ho2]
      exact h.own_unborn o2
  · intro b hb
    dsimp only
    obtain ⟨o2, ho2⟩ := h.blocks b hb
    refine ⟨o2, ?_⟩
    have : o2 ≠ g.object_of this := by
      intro e
      rw [e, hown] at ho2
      cases ho2
    rw [Function.update_noteq this]
    exact ho2
  · intro o2
    dsimp only
    simp only [release_deleted, wr_deleted]
    rw [h.deleted_count o2]
    by_cases ho2 : o2 = g.object_of this
    · rw [ho2, Function.update_same, hown]
      simp
    · rw [Function.update_noteq ho2]
  · intro o2 ho2
    dsimp only
    have : o2 ≠ g.object_of this := by
      intro e
      rcases h.shared_sub o2 ho2 with h1 | ⟨b, h1⟩ <;> rw [e, hown] at h1 <;> cases h1
    rw [Function.update_noteq this]
    exact h.shared_sub o2 ho2
  · intro o2 b hb
    dsimp only at hb ⊢
    have ho2 : o2 ≠ g.object_of this := by
      intro e
      rw [e, Function.update_same] at hb
      cases hb
    rw [Function.update_noteq ho2] at hb
    exact h.shared_block o2 b hb

end del

end Hybrid

namespace Hybrid

open versatile_ptr

/-! ## The invariant is kept by every change of state: the end of a sharer -/

section del_sharer

variable {env : Env} {w : World} {g : Ghost} {A : Abs} {this p : Nat}

theorem pre_decrement_eq {c : Nat} (h0 : 0 < c) (h : c < UINT) : pre_decrement c = c - 1 := by
  unfold pre_decrement
  rw [if_neg (by omega)]
  exact Nat.mod_eq_of_lt (by omega)

/-- The end of a handle that shares the block `b` with others: one sharer less. -/
theorem Inv.del_sharer (h : Inv env w g A) (hthis : this ∈ g.live) {o b : Nat}
    (hgs : A.gs this = State.SharedCounted o b)
    (hdisc : is_address_in_stack env this = true →
      ∀ q ∈ g.live.takeWhile (fun a => a != this), is_address_in_stack env q = false)
    (hno : NoOverflow w) (hc : 1 < sharers A.gs g.live b) :
    Inv env
      ((w.wr_data b ⟨pre_decrement (sharers A.gs g.live b), env.deleter⟩).release this)
      ⟨g.live.erase this, g.object_of, g.objects⟩ A := by
  have hgt := h.good hthis
  rw [hgs] at hgt
  obtain ⟨hobj, hown⟩ := hgt
  obtain ⟨hb0, hb62, hheap, hpos, huniq⟩ := h.own_block o b hown
  have hdec := pre_decrement_eq hpos (Nat.lt_of_succ_lt (hno b _ _ hheap))
  have hsh : ∀ b2, sharers A.gs (g.live.erase this) b2 + (if b = b2 then 1 else 0) =
      sharers A.gs g.live b2 := by
    intro b2
    rw [sharers_erase A.gs hthis b2, hgs]
    simp [State.shares]
  refine
    { nodup := h.nodup.erase _
      mem_iff := ?_
      rep := ?_
      own_handle := ?_
      own_block := ?_
      own_unborn := h.own_unborn
      objects_ne := h.objects_ne
      blocks := ?_
      deleted_fn := h.deleted_fn
      deleted_count := h.deleted_count
      allocs := h.allocs
      shared_nodup := h.shared_nodup
      shared_sub := h.shared_sub
      shared_block := h.shared_block }
  · intro q
    dsimp only
    rw [h.mem_erase]
    by_cases hq : q = this
    · subst hq; simp
    · simp [hq, release_mem_other _ hq, h.mem_iff q]
  · intro q hq
    dsimp only at hq ⊢
    obtain ⟨hqt, hq⟩ := h.mem_erase.mp hq
    refine ⟨by rw [release_mem_other _ hqt]; exact h.words hq, h.wf hq, h.addr hq, ?_⟩
    refine Good_frame (h.good hq) rfl (fun _ => rfl) ?_ ?_ ?_
    · intro o2 r hs
      have hg := h.good hq
      rw [hs] at hg
      have hrt : r ≠ this := by
        intro e
        rw [e] at hs
        exact h.no_link_to hdisc hq o2 hs
      exact ⟨sublist_pair_erase hg.2.2.2.1 hqt hrt, rfl, id⟩
    · intro o2 x hs
      have hg := h.good hq
      rw [hs] at hg
      refine ⟨h.mem_erase.mpr ⟨?_, hg.2.2.1⟩, rfl⟩
      intro e
      have := hg.2.2.2.1
      rw [e, hgs] at this
      cases this
    · intro s d hs
      have hg := h.good hq
      rw [hs] at hg
      refine ⟨h.mem_erase.mpr ⟨?_, hg.2.2.1⟩, rfl⟩
      intro e
      have := hg.2.2.2.1
      rw [e, hgs] at this
      cases this
  · intro o2 q hown2
    obtain ⟨h1, h2, h3⟩ := h.own_handle o2 q hown2
    refine ⟨h.mem_erase.mpr ⟨?_, h1⟩, h2, h3⟩
    intro e
    rw [e, hgs] at h3
    rcases h3 with h3 | ⟨s, h3⟩ <;> cases h3
  · intro o2 b2 hown2
    obtain ⟨h1, h2, h3, h4, h5⟩ := h.own_block o2 b2 hown2
    have hs2 := hsh b2
    dsimp only
    by_cases hbb : b = b2
    · subst hbb
      rw [if_pos rfl] at hs2
      refine ⟨h1, h2, ?_, by omega, h5⟩
      simp only [release_heap, wr_data_heap_self, hdec]
      congr 2
      omega
    · rw [if_neg hbb] at hs2
      rw [Nat.add_zero] at hs2
      rw [hs2]
      refine ⟨h1, h2, ?_, h4, h5⟩
      simp [wr_data_heap_other _ _ (Ne.symm hbb), h3]
  · intro b2 hb2
    by_cases hbb : b2 = b
    · exact ⟨o, hbb ▸ hown⟩
    · apply h.blocks b2
      simpa [wr_data_heap_other _ _ hbb] using hb2

/-- The end of the last handle that shares the block `b` of `o`: `o` is deleted and the
block is freed. -/
theorem Inv.del_last_sharer (h : Inv env w g A) (hthis : this ∈ g.live) {o b : Nat}
    (hgs : A.gs this = State.SharedCounted o b)
    (hdisc : is_address_in_stack env this = true →
      ∀ q ∈ g.live.takeWhile (fun a => a != this), is_address_in_stack env q = false)
    (hc : sharers A.gs g.live b = 1) :
    Inv env
      ((((w.wr_data b ⟨0, env.deleter⟩).call_deleter env.deleter o).free_data b).release this)
      ⟨g.live.erase this, g.object_of, g.objects⟩
      ⟨A.gs, Function.update A.owner o Owner.gone, A.shared⟩ := by
  have hgt := h.good hthis
  rw [hgs] at hgt
  obtain ⟨hobj, hown⟩ := hgt
  obtain ⟨hb0, hb62, hheap, hpos, huniq⟩ := h.own_block o b hown
  have hsh : ∀ b2, sharers A.gs (g.live.erase this) b2 + (if b = b2 then 1 else 0) =
      sharers A.gs g.live b2 := by
    intro b2
    rw [sharers_erase A.gs hthis b2, hgs]
    simp [State.shares]
  have hoS : o ∈ A.shared := h.shared_block o b hown
  have hother : ∀ q ∈ g.live, q ≠ this → (A.gs q).shares b = false := by
    intro q hq hqt
    have h1 := hsh b
    rw [if_pos rfl, hc] at h1
    cases hs : (A.gs q).shares b with
    | false => rfl
    | true =>
      have : 0 < sharers A.gs (g.live.erase this) b :=
        sharers_pos_iff.mpr ⟨q, h.mem_erase.mpr ⟨hqt, hq⟩, hs⟩
      omega
  have hobj_ne : ∀ q ∈ g.live, q ≠ this →
      ((A.gs q).is_root = true ∨ ∃ s2 d, A.gs q = State.CrossLinkedHeap s2 d) →
      g.object_of q ≠ o := by
    intro q hq hqt hroot e
    rcases h.root_cases hq hroot with ⟨-, h2⟩ | ⟨x, -, h2, -⟩ | ⟨s2, -, h2⟩ | ⟨b2, h1, h2⟩
    · rw [e, hown] at h2; cases h2
    · rw [e, hown] at h2; cases h2
    · rw [e, hown] at h2; cases h2
    · rw [e, hown] at h2
      have hs := hother q hq hqt
      rw [h1, ← Owner.block.inj h2] at hs
      simp [State.shares] at hs
  have hblk : ∀ o2 b2, o2 ≠ o → A.owner o2 = Owner.block b2 → b2 ≠ b := by
    intro o2 b2 ho2 hown2 e
    rw [e] at hown2
    exact ho2 (huniq o2 hown2)
  refine
    { nodup := h.nodup.erase _
      mem_iff := ?_
      rep := ?_
      own_handle := ?_
      own_block := ?_
      own_unborn := ?_
      objects_ne := h.objects_ne
      blocks := ?_
      deleted_fn := ?_
      deleted_count := ?_
      allocs := h.allocs
      shared_nodup := h.shared_nodup
      shared_sub := ?_
      shared_block := ?_ }
  · intro q
    dsimp only
    rw [h.mem_erase]
    by_cases hq : q = this
    · subst hq; simp
    · simp [hq, release_mem_other _ hq, h.mem_iff q]
  · intro q hq
    dsimp only at hq ⊢
    obtain ⟨hqt, hq⟩ := h.mem_erase.mp hq
    refine ⟨by rw [release_mem_other _ hqt]; exact h.words hq, h.wf hq, h.addr hq, ?_⟩
    refine Good_frame (h.good hq) rfl ?_ ?_ ?_ ?_
    · intro hroot
      exact Function.update_noteq (hobj_ne q hq hqt hroot) _ _
    · intro o2 r hs
      have hg := h.good hq
      rw [hs] at hg
      have hrt : r ≠ this := by
        intro e
        rw [e] at hs
        exact h.no_link_to hdisc hq o2 hs
      exact ⟨sublist_pair_erase hg.2.2.2.1 hqt hrt, rfl, id⟩
    · intro o2 x hs
      have hg := h.good hq
      rw [hs] at hg
      refine ⟨h.mem_erase.mpr ⟨?_, hg.2.2.1⟩, rfl⟩
      intro e
      have := hg.2.2.2.1
      rw [e, hgs] at this
      cases this
    · intro s d hs
      have hg := h.good hq
      rw [hs] at hg
      refine ⟨h.mem_erase.mpr ⟨?_, hg.2.2.1⟩, rfl⟩
      intro e
      have := hg.2.2.2.1
      rw [e, hgs] at this
      cases this
  · intro o2 q hown2
    dsimp only at hown2 ⊢
    have ho2 : o2 ≠ o := by
      intro e
      rw [e, Function.update_same] at hown2
      cases hown2
    rw [Function.update_noteq ho2] at hown2
    obtain ⟨h1, h2, h3⟩ := h.own_handle o2 q hown2
    refine ⟨h.mem_erase.mpr ⟨?_, h1⟩, h2, h3⟩
    intro e
    rw [e, hobj] at h2
    exact ho2 h2.symm
  · intro o2 b2 hown2
    dsimp only at hown2 ⊢
    have ho2 : o2 ≠ o := by
      intro e
      rw [e, Function.update_same] at hown2
      cases hown2
    rw [Function.update_noteq ho2] at hown2
    obtain ⟨h1, h2, h3, h4, h5⟩ := h.own_block o2 b2 hown2
    have hbb := hblk o2 b2 ho2 hown2
    have hs2 := hsh b2
    rw [if_neg (Ne.symm hbb), Nat.add_zero] at hs2
    rw [hs2]
    refine ⟨h1, h2, ?_, h4, ?_⟩
    · simp [free_data_heap_other _ hbb, wr_data_heap_other _ _ hbb, h3]
    · intro o3 h6
      have ho3 : o3 ≠ o := by
        intro e
        rw [e, Function.update_same] at h6
        cases h6
      rw [Function.update_noteq ho3] at h6
      exact h5 o3 h6
  · intro o2
    dsimp only
    by_cases ho2 : o2 = o
    · rw [ho2, Function.update_same]
      have : o ∈ g.objects := by
        by_contra hc
        have := (h.own_unborn o).mpr hc
        rw [hown] at this
        cases this
      simp [this]
    · rw [Function.update_noteq ho2]
      exact h.own_unborn o2
  · intro b2 hb2
    dsimp only
    have hbb : b2 ≠ b := by
      intro e
      rw [e] at hb2
      simp at hb2
    have hb3 : w.heap b2 ≠ none := by
      simpa [free_data_heap_other _ hbb, wr_data_heap_other _ _ hbb] using hb2
    obtain ⟨o2, ho2⟩ := h.blocks b2 hb3
    refine ⟨o2, ?_⟩
    have : o2 ≠ o := by
      intro e
      rw [e, hown] at ho2
      exact hbb (Owner.block.inj ho2).symm
    rw [Function.update_noteq this]
    exact ho2
  · intro x hx
    simp only [release_deleted, free_data_deleted, call_deleter_deleted, List.mem_cons] at hx
    rcases hx with e | hx
    · rw [e]
    · exact h.deleted_fn x hx
  · intro o2
    dsimp only
    simp only [release_deleted, free_data_deleted, call_deleter_deleted, wr_data_deleted]
    by_cases ho2 : o2 = o
    · rw [ho2, Function.update_same, List.count_cons_self, h.deleted_count o, hown]
      simp
    · rw [Function.update_noteq ho2, List.count_cons_of_ne, h.deleted_count o2]
      intro e
      exact ho2 (Prod.mk.inj e).2
  · intro o2 ho2
    dsimp only
    by_cases e : o2 = o
    · rw [e, Function.update_same]
      exact Or.inl rfl
    · rw [Function.update_noteq e]
      exact h.shared_sub o2 ho2
  · intro o2 b2 hb
    dsimp only at hb ⊢
    have ho2 : o2 ≠ o := by
      intro e
      rw [e, Function.update_same] at hb
      cases hb
    rw [Function.update_noteq ho2] at hb
    exact h.shared_block o2 b2 hb

end del_sharer

end Hybrid

namespace Hybrid

open versatile_ptr

/-! ## Every operation keeps the invariant: `construct` and `destruct` -/

section step

variable {env : Env} {w w' w1 : World} {g : Ghost} {A : Abs} {this p : Nat}

theorem ok_of_ite {c : Prop} [Decidable c] {x : World} {e : Fault}
    (h : (if c then Except.ok x else Except.error e) = (Except.ok w' : Res World)) :
    c ∧ x = w' := by
  by_cases hc : c
  · rw [if_pos hc] at h
    exact ⟨hc, Except.ok.inj h⟩
  · rw [if_neg hc] at h
    cases h

theorem of_ite {c : Prop} [Decidable c] {x : Res World} {e : Fault}
    (h : (if c then x else Except.error e) = (Except.ok w' : Res World)) :
    c ∧ x = Except.ok w' := by
  by_cases hc : c
  · rw [if_pos hc] at h
    exact ⟨hc, h⟩
  · rw [if_neg hc] at h
    cases h

theorem step_destruct_eq (h : dtor env w this = Except.ok w1) :
    step env w (Op.destruct this) = Except.ok (w1.release this) := by
  simp only [step, h, ok_bind, pure_eq]

theorem step_destruct_ok (h : step env w (Op.destruct this) = Except.ok w') :
    ∃ w1, dtor env w this = Except.ok w1 ∧ w' = w1.release this := by
  cases hd : dtor env w this with
  | error e =>
    simp only [step, hd, error_bind] at h
    cases h
  | ok w1 =>
    rw [step_destruct_eq hd] at h
    exact ⟨w1, rfl, (Except.ok.inj h).symm⟩

theorem dtor_invalid (hm : w.mem this = none) : dtor env w this = Except.error Fault.invalid := by
  simp only [dtor, rd_eq_invalid hm, error_bind]

theorem copy_ctor_invalid {other : Nat} {nb : Option Nat} (hm : w.mem other = none) :
    copy_ctor env w this other nb = Except.error Fault.invalid := by
  simp only [copy_ctor, rd_eq_invalid hm, error_bind]

/-- A destructor that completes was run on a live handle. -/
theorem Inv.live_of_dtor (h : Inv env w g A) (hd : dtor env w this = Except.ok w1) :
    this ∈ g.live := by
  by_contra hc
  have hm : w.mem this = none := by
    by_contra hne
    exact hc ((h.mem_iff this).mpr hne)
  rw [dtor_invalid hm] at hd
  cases hd

/-- A copy that completes was made from a live handle. -/
theorem Inv.live_of_copy (h : Inv env w g A) {other : Nat} {nb : Option Nat}
    (hc : copy_ctor env w this other nb = Except.ok w1) : other ∈ g.live := by
  by_contra hn
  have hm : w.mem other = none := by
    by_contra hne
    exact hn ((h.mem_iff other).mpr hne)
  rw [copy_ctor_invalid hm] at hc
  cases hc

/-- The words of a root: the object and a second word. -/
theorem root_words {st : State} (hr : st.is_root = true) (hwf : st.wf) :
    ∃ o a, st.words = ⟨o, a⟩ ∧ ObjAddr o := by
  cases st with
  | Null => cases hr
  | LinkedToStack o r => cases hr
  | CrossLinkedHeap s d => cases hr
  | Owning o d => exact ⟨o, _, rfl, hwf.1⟩
  | CrossLinkedStack o x => exact ⟨o, _, rfl, hwf.1⟩
  | SharedCounted o b => exact ⟨o, _, rfl, hwf.1⟩

/-- Under the invariant no counter wraps while fewer than `2 ^ 32 - 1` handles are
alive. -/
theorem Inv.noOverflow (h : Inv env w g A) (hlen : g.live.length + 1 < UINT) : NoOverflow w := by
  intro b c dl hb
  obtain ⟨o, ho⟩ := h.blocks b (by rw [hb]; exact Option.some_ne_none _)
  obtain ⟨-, -, h3, -, -⟩ := h.own_block o b ho
  rw [hb] at h3
  have hc : c = sharers A.gs g.live b := by
    injection h3 with h3
    injection h3
  have := sharers_le A.gs g.live b
  omega

theorem construct_inv (hdel : Addr62 env.deleter) (h : Inv env w g A) {t : Nat}
    (hwf : (Op.construct this t).well_formed g)
    (hstep : step env w (Op.construct this t) = Except.ok w') :
    Kept env g A (Op.construct this t) w' := by
  have hfree : w.mem this = none := by
    cases hm : w.mem this with
    | none => rfl
    | some x =>
      simp only [step, hm, Option.isSome_some, if_true] at hstep
      cases hstep
  simp only [step, hfree, Option.isSome_none, Bool.false_eq_true, if_false] at hstep
  obtain ⟨haddr, ht⟩ := hwf
  by_cases h0 : t = 0
  · subst h0
    rw [ctor_null] at hstep
    cases hstep
    refine ⟨⟨Function.update A.gs this State.Null, A.owner, A.shared⟩, ?_, Or.inl rfl⟩
    have := h.add_plain hfree haddr State.Null trivial 0 rfl (by simp [Good])
    simpa [Op.ghost] using this
  · have hto : ObjAddr t ∧ t ∉ g.objects := by
      rcases ht with e | ht
      · exact absurd e h0
      · exact ht
    rw [ctor_obj hto.1 hdel] at hstep
    cases hstep
    refine ⟨⟨Function.update A.gs this (State.Owning t env.deleter),
      Function.update A.owner t (Owner.handle this), A.shared⟩, ?_, Or.inl rfl⟩
    have := h.add_owner hfree haddr hdel hto.1 hto.2
    simpa [Op.ghost, h0] using this

theorem destruct_inv (h : Inv env w g A) (hno : NoOverflow w)
    (hd : (Op.destruct this).disciplined env g)
    (hstep : step env w (Op.destruct this) = Except.ok w') :
    Kept env g A (Op.destruct this) w' := by
  obtain ⟨w1, hdt, rfl⟩ := step_destruct_ok hstep
  have hlive := h.live_of_dtor hdt
  have hm := h.words hlive
  have hwf := h.wf hlive
  have hg := h.good hlive
  have hdisc : is_address_in_stack env this = true →
      ∀ q ∈ g.live.takeWhile (fun a => a != this), is_address_in_stack env q = false := hd
  cases hs : A.gs this with
  | Null =>
    rw [hs] at hm
    rw [dtor_null hm] at hdt
    cases hdt
    exact ⟨A, h.del_plain hlive (by rw [hs]; rfl) (by rw [hs]; intro s d e; cases e), Or.inl rfl⟩
  | Owning o d =>
    rw [hs] at hm hwf hg
    obtain ⟨-, hde, -⟩ := hg
    subst hde
    rw [dtor_owning hm hwf.1 hwf.2] at hdt
    obtain ⟨-, rfl⟩ := ok_of_ite hdt
    rw [wr_release]
    exact ⟨_, h.del_owner hlive hs hdisc, Or.inl rfl⟩
  | LinkedToStack o r =>
    rw [hs] at hm hwf hg
    obtain ⟨-, -, -, hsub, -, hroot⟩ := hg
    have hr : r ∈ g.live := hsub.subset (by simp)
    obtain ⟨o2, a2, hw2, ho2⟩ := root_words hroot (h.wf hr)
    have hmr := h.words hr
    rw [hw2] at hmr
    rw [dtor_linked hm hwf.1 hwf.2 hmr ho2] at hdt
    obtain ⟨-, rfl⟩ := ok_of_ite hdt
    rw [wr_release]
    exact ⟨A, h.del_plain hlive (by rw [hs]; rfl) (by rw [hs]; intro s d e; cases e), Or.inl rfl⟩
  | CrossLinkedStack o x =>
    rw [hs] at hm hwf hg
    obtain ⟨-, hres, hx, hgx, -⟩ := hg
    have hmx := h.words hx
    have hwfx := h.wf hx
    rw [hgx] at hmx hwfx
    have hne : x ≠ this := by
      intro e
      rw [e, hs] at hgx
      cases hgx
    rw [dtor_cross_stack hm hwf.1 hwf.2 hmx hwfx.1 hne] at hdt
    obtain ⟨-, rfl⟩ := ok_of_ite hdt
    rw [wr_release]
    exact ⟨_, h.del_cross_stack hlive hs hdisc, Or.inl rfl⟩
  | CrossLinkedHeap s d =>
    rw [hs] at hm hwf hg
    obtain ⟨hde, -, hsl, hgss, -⟩ := hg
    subst hde
    have hms := h.words hsl
    have hwfs := h.wf hsl
    rw [hgss] at hms hwfs
    have hne : s ≠ this := by
      intro e
      rw [e, hs] at hgss
      cases hgss
    rw [dtor_cross_heap hm hwf.1 hwf.2 (h.addr hlive) hms hwfs.1 hne] at hdt
    obtain ⟨-, rfl⟩ := ok_of_ite hdt
    rw [wr_release]
    exact ⟨_, h.del_cross_heap hlive hs, Or.inl rfl⟩
  | SharedCounted o b =>
    rw [hs] at hm hwf hg
    obtain ⟨-, hown⟩ := hg
    obtain ⟨-, -, hheap, hpos, -⟩ := h.own_block o b hown
    have hlt := hno b _ _ hheap
    have hdec := pre_decrement_eq hpos (Nat.lt_of_succ_lt hlt)
    rw [dtor_shared hm hwf.1 hwf.2.1 hwf.2.2 hheap] at hdt
    obtain ⟨-, hdt⟩ := of_ite hdt
    by_cases h1 : pre_decrement (sharers A.gs g.live b) = 0
    · rw [if_pos h1] at hdt
      obtain ⟨-, rfl⟩ := ok_of_ite hdt
      rw [wr_release]
      exact ⟨_, h.del_last_sharer hlive hs hdisc (by omega), Or.inl rfl⟩
    · rw [if_neg h1] at hdt
      cases hdt
      rw [wr_release]
      exact ⟨A, h.del_sharer hlive hs hdisc hno (by omega), Or.inl rfl⟩

end step

end Hybrid

namespace Hybrid

open versatile_ptr

/-! ## Every operation keeps the invariant: `copy_construct` -/

section copy

variable {env : Env} {w w' : World} {g : Ghost} {A : Abs} {this other : Nat} {nb : Option Nat}

/-- The new handle is linked to the stack root `r`. -/
theorem copy_link_kept (h : Inv env w g A) (hfree : w.mem this = none) (haddr : Addr62 this)
    {o r : Nat} (ho : ObjAddr o) (hobj : g.object_of other = o)
    (hres : stack_resident env this) (hinr : is_address_in_stack env r = true)
    (hr : r ∈ g.live) (hro : g.object_of r = o) (hroot : (A.gs r).is_root = true) :
    Kept env g A (Op.copy_construct this other nb) (w.wr this ⟨o, r ||| IsLinkedPtr⟩) := by
  have hrt : r ≠ this := fun e => h.not_live hfree (e ▸ hr)
  refine ⟨⟨Function.update A.gs this (State.LinkedToStack o r), A.owner, A.shared⟩, ?_,
    Or.inl rfl⟩
  have := h.add_plain hfree haddr (State.LinkedToStack o r) ⟨ho, h.addr hr⟩
    (g.object_of other) rfl
    (by
      refine ⟨?_, hres, hinr, sublist_pair_new hr, ?_, ?_⟩
      · simp [hobj]
      · simp [Function.update_noteq hrt, hro]
      · simp [Function.update_noteq hrt, hroot])
  exact this

/-- The new handle joins the block `b` of the object. -/
theorem copy_join_kept (h : Inv env w g A) (hno : NoOverflow w) (hfree : w.mem this = none)
    (haddr : Addr62 this) {o b : Nat} (ho : ObjAddr o) (hobj : g.object_of other = o)
    (hown : A.owner o = Owner.block b) :
    Kept env g A (Op.copy_construct this other nb)
      ((w.wr_data b ⟨pre_increment (sharers A.gs g.live b), env.deleter⟩).wr this ⟨o, b⟩) := by
  refine ⟨⟨Function.update A.gs this (State.SharedCounted o b), A.owner, A.shared⟩, ?_,
    Or.inl rfl⟩
  have := h.add_sharer hfree haddr ho hown hno
  rw [← hobj] at this ⊢
  exact this

/-- The root `r` and the new handle, which is not in the stack, share a new block. -/
theorem copy_create_kept (h : Inv env w g A) (hfree : w.mem this = none)
    (haddr : Addr62 this) (hthis : is_address_in_stack env this = false)
    {o r data : Nat} (hobj : g.object_of other = o) (hr : r ∈ g.live)
    (hgs : A.gs r = State.Owning o env.deleter) (hd0 : data ≠ 0) (hd62 : Addr62 data)
    (hfresh : w.heap data = none) :
    Kept env g A (Op.copy_construct this other nb)
      ((((w.new_shared_data data env.deleter).wr_data data ⟨2, env.deleter⟩).wr r
        ⟨o, data⟩).wr this ⟨o, data⟩) := by
  refine ⟨⟨Function.update (Function.update A.gs r (State.SharedCounted o data)) this
    (State.SharedCounted o data), Function.update A.owner o (Owner.block data),
    o :: A.shared⟩, ?_, Or.inr ⟨this, other, nb, rfl, hthis, by rw [hobj]⟩⟩
  have := h.add_create hfree haddr hr hgs hd0 hd62 hfresh
  rw [← hobj] at this ⊢
  exact this

theorem step_copy_ok (hstep : step env w (Op.copy_construct this other nb) = Except.ok w') :
    w.mem this = none ∧ (∀ d, nb = some d → w.heap d = none) ∧
      copy_ctor env w this other nb = Except.ok w' := by
  simp only [step] at hstep
  by_cases hc : ((w.mem this).isSome || (nb.bind w.heap).isSome) = true
  · rw [if_pos hc] at hstep
    cases hstep
  · rw [if_neg hc] at hstep
    simp only [Bool.or_eq_true, not_or, Bool.not_eq_true] at hc
    refine ⟨?_, ?_, hstep⟩
    · cases hm : w.mem this with
      | none => rfl
      | some x =>
        have := hc.1
        rw [hm] at this
        cases this
    · intro d hd
      have := hc.2
      rw [hd] at this
      cases hh : w.heap d with
      | none => rfl
      | some x =>
        simp only [Option.some_bind, hh, Option.isSome_some] at this
        cases this

theorem and3_true {a b c : Bool} (h : (a && b && c) = true) : a = true ∧ b = true ∧ c = true := by
  cases a <;> cases b <;> cases c <;> simp_all

theorem copy_inv_null (h : Inv env w g A) (hfree : w.mem this = none) (haddr : Addr62 this)
    (hother : other ∈ g.live) (hs : A.gs other = State.Null)
    (hc : copy_ctor env w this other nb = Except.ok w') :
    Kept env g A (Op.copy_construct this other nb) w' := by
  have hne : this ≠ other := fun e => h.not_live hfree (e ▸ hother)
  have hm := h.words hother
  have hg := h.good hother
  rw [hs] at hm hg
  rw [copy_ctor_null hm hne] at hc
  obtain ⟨-, rfl⟩ := ok_of_ite hc
  refine ⟨⟨Function.update A.gs this State.Null, A.owner, A.shared⟩, ?_, Or.inl rfl⟩
  have hg0 : g.object_of other = 0 := hg
  have := h.add_plain hfree haddr State.Null trivial (g.object_of other) rfl
    (by simp [Good, hg0])
  exact this

theorem copy_inv_owning (h : Inv env w g A) (hfree : w.mem this = none) (haddr : Addr62 this)
    (hnb : ∀ d, nb = some d → Addr62 d) (hnbf : ∀ d, nb = some d → w.heap d = none)
    (hother : other ∈ g.live) {o d : Nat} (hs : A.gs other = State.Owning o d)
    (hc : copy_ctor env w this other nb = Except.ok w') :
    Kept env g A (Op.copy_construct this other nb) w' := by
  have hne : this ≠ other := fun e => h.not_live hfree (e ▸ hother)
  have hm := h.words hother
  have hwf := h.wf hother
  have hg := h.good hother
  rw [hs] at hm hwf hg
  obtain ⟨hobj, hde, hown⟩ := hg
  subst hde
  cases h1 : is_address_in_stack env this with
  | true =>
    cases h2 : is_address_in_stack env other with
    | true =>
      have hroot : get_stack_root_ptr env w other = _ := get_stack_root_ptr_del hm hwf.2
      rw [copy_ctor_stack_stack hm hwf.1 hne (h.addr hother) _ hroot h1 h2] at hc
      obtain ⟨hcond, rfl⟩ := ok_of_ite hc
      obtain ⟨c1, -, -⟩ := and3_true hcond
      exact copy_link_kept h hfree haddr hwf.1 hobj ⟨h1, c1⟩ h2 hother hobj
        (by rw [hs]; rfl)
    | false =>
      rw [copy_ctor_cross_link hm hwf.1 hwf.2 hne (h.addr hother) h1 h2] at hc
      obtain ⟨hcond, rfl⟩ := ok_of_ite hc
      simp only [Bool.and_eq_true] at hcond
      exact ⟨_, h.add_cross hfree haddr ⟨h1, hcond.2⟩ hother hs h2, Or.inl rfl⟩
  | false =>
    cases h2 : is_address_in_stack env other with
    | true =>
      have h1m : (w.wr this ⟨o, 0⟩).mem other = some ⟨o, env.deleter ||| IsDeleterPtr⟩ := by
        rw [wr_mem_other _ _ (Ne.symm hne)]; exact hm
      have hgr : get_global_root_ptr env (w.wr this ⟨o, 0⟩) other = _ :=
        get_global_root_ptr_del h1m hwf.2
      rw [copy_ctor_create hm hwf.1 (del_is_shared_data hwf.2) hm hwf.1 hwf.2 hne hne hnb h1 _
        hgr] at hc
      obtain ⟨-, hc⟩ := of_ite hc
      cases nb with
      | none => cases hc
      | some data =>
        dsimp only at hc
        obtain ⟨hcond, rfl⟩ := ok_of_ite hc
        simp only [Bool.and_eq_true, bne_iff_ne, ne_eq] at hcond
        exact copy_create_kept h hfree haddr h1 hobj hother hs hcond.1 (hnb data rfl)
          (hnbf data rfl)
    | false =>
      rw [copy_ctor_owner_off_stack hm hwf.1 hwf.2 hne h1 h2] at hc
      cases hc

end copy

end Hybrid

namespace Hybrid

open versatile_ptr

/-! ## Every operation keeps the invariant: `copy_construct`, the other sources -/

section copy

variable {env : Env} {w w' : World} {g : Ghost} {A : Abs} {this other : Nat} {nb : Option Nat}

theorem copy_inv_linked (h : Inv env w g A) (hno : NoOverflow w) (hfree : w.mem this = none)
    (haddr : Addr62 this)
    (hnb : ∀ d, nb = some d → Addr62 d) (hnbf : ∀ d, nb = some d → w.heap d = none)
    (hother : other ∈ g.live) {o r : Nat} (hs : A.gs other = State.LinkedToStack o r)
    (hc : copy_ctor env w this other nb = Except.ok w') :
    Kept env g A (Op.copy_construct this other nb) w' := by
  have hne : this ≠ other := fun e => h.not_live hfree (e ▸ hother)
  have hm := h.words hother
  have hwf := h.wf hother
  have hg := h.good hother
  rw [hs] at hm hwf hg
  obtain ⟨hobj, hres, hinr, hsub, hro, hroot⟩ := hg
  have hr : r ∈ g.live := hsub.subset (by simp)
  have hne2 : this ≠ r := fun e => h.not_live hfree (e ▸ hr)
  have hro2 : r ≠ other := Ne.symm (sublist_pair_ne hsub h.nodup)
  cases h1 : is_address_in_stack env this with
  | true =>
    have hrt : get_stack_root_ptr env w other = _ := get_stack_root_ptr_linked hm hwf.2
    rw [copy_ctor_stack_stack hm hwf.1 hne hwf.2 _ hrt h1 hres.1] at hc
    obtain ⟨hcond, rfl⟩ := ok_of_ite hc
    obtain ⟨c1, -, -⟩ := and3_true hcond
    exact copy_link_kept h hfree haddr hwf.1 hobj ⟨h1, c1⟩ hinr hr hro hroot
  | false =>
    have h1m : (w.wr this ⟨o, 0⟩).mem other = some ⟨o, r ||| IsLinkedPtr⟩ := by
      rw [wr_mem_other _ _ (Ne.symm hne)]; exact hm
    have hmr := h.words hr
    have hwfr := h.wf hr
    have hgr := h.good hr
    cases hsr : A.gs r with
    | Null => rw [hsr] at hroot; cases hroot
    | LinkedToStack o2 r2 => rw [hsr] at hroot; cases hroot
    | CrossLinkedHeap s2 d2 => rw [hsr] at hroot; cases hroot
    | Owning o2 d2 =>
      rw [hsr] at hmr hwfr hgr
      obtain ⟨hobj2, hde, -⟩ := hgr
      subst hde
      have ho2 : o2 = o := by rw [← hobj2, hro]
      subst ho2
      have h1r : (w.wr this ⟨o2, 0⟩).mem r = some ⟨o2, env.deleter ||| IsDeleterPtr⟩ := by
        rw [wr_mem_other _ _ (Ne.symm hne2)]; exact hmr
      have hgp : get_global_root_ptr env (w.wr this ⟨o2, 0⟩) other = _ :=
        get_global_root_ptr_linked_del h1m hwf.2 h1r hwfr.2 hro2
      rw [copy_ctor_create hm hwf.1 (link_is_shared_data hwf.2) hmr hwfr.1 hwfr.2 hne hne2 hnb h1
        _ hgp] at hc
      obtain ⟨-, hc⟩ := of_ite hc
      cases nb with
      | none => cases hc
      | some data =>
        dsimp only at hc
        obtain ⟨hcond, rfl⟩ := ok_of_ite hc
        simp only [Bool.and_eq_true, bne_iff_ne, ne_eq] at hcond
        exact copy_create_kept h hfree haddr h1 hobj hr hsr hcond.1 (hnb data rfl)
          (hnbf data rfl)
    | CrossLinkedStack o2 x =>
      rw [hsr] at hmr hwfr hgr
      obtain ⟨hobj2, -, hx, hgx, -⟩ := hgr
      have ho2 : o2 = o := by rw [← hobj2, hro]
      subst ho2
      have hmx := h.words hx
      have hwfx := h.wf hx
      rw [hgx] at hmx hwfx
      have hnex : this ≠ x := fun e => h.not_live hfree (e ▸ hx)
      have h1r : (w.wr this ⟨o2, 0⟩).mem r =
          some ⟨o2, x ||| IsLinkedPtr ||| IsDeleterPtr⟩ := by
        rw [wr_mem_other _ _ (Ne.symm hne2)]; exact hmr
      have hgp : get_global_root_ptr env (w.wr this ⟨o2, 0⟩) other = _ :=
        get_global_root_ptr_linked_cross h1m hwf.2 h1r hwfr.2
      rw [copy_ctor_root_cross_heap hm hwf.1 (link_is_shared_data hwf.2) hmx hwfx.1 hwfx.2 hne
        hnex h1 _ hgp] at hc
      cases hc
    | SharedCounted o2 b =>
      rw [hsr] at hmr hwfr hgr
      obtain ⟨hobj2, hown⟩ := hgr
      have ho2 : o2 = o := by rw [← hobj2, hro]
      subst ho2
      obtain ⟨-, -, hheap, -, -⟩ := h.own_block o2 b hown
      have h1r : (w.wr this ⟨o2, 0⟩).mem r = some ⟨o2, b⟩ := by
        rw [wr_mem_other _ _ (Ne.symm hne2)]; exact hmr
      have hgp : get_global_root_ptr env (w.wr this ⟨o2, 0⟩) other = _ :=
        get_global_root_ptr_linked_blk h1m hwf.2 h1r hwfr.2.2 hro2
      rw [copy_ctor_join hm hwf.1 (link_is_shared_data hwf.2) hmr hwfr.2.1 hwfr.2.2 hheap hne
        hne2 h1 _ hgp] at hc
      obtain ⟨-, rfl⟩ := ok_of_ite hc
      exact copy_join_kept h hno hfree haddr hwf.1 hobj hown

theorem copy_inv_cross_stack (h : Inv env w g A) (hfree : w.mem this = none)
    (haddr : Addr62 this) (hother : other ∈ g.live) {o x : Nat}
    (hs : A.gs other = State.CrossLinkedStack o x)
    (hc : copy_ctor env w this other nb = Except.ok w') :
    Kept env g A (Op.copy_construct this other nb) w' := by
  have hne : this ≠ other := fun e => h.not_live hfree (e ▸ hother)
  have hm := h.words hother
  have hwf := h.wf hother
  have hg := h.good hother
  rw [hs] at hm hwf hg
  obtain ⟨hobj, hres, hx, hgx, -⟩ := hg
  cases h1 : is_address_in_stack env this with
  | true =>
    have hrt : get_stack_root_ptr env w other = _ := get_stack_root_ptr_cross hm hwf.2
    rw [copy_ctor_stack_stack hm hwf.1 hne (h.addr hother) _ hrt h1 hres.1] at hc
    obtain ⟨hcond, rfl⟩ := ok_of_ite hc
    obtain ⟨c1, -, -⟩ := and3_true hcond
    exact copy_link_kept h hfree haddr hwf.1 hobj ⟨h1, c1⟩ hres.1 hother hobj
      (by rw [hs]; rfl)
  | false =>
    have h1m : (w.wr this ⟨o, 0⟩).mem other =
        some ⟨o, x ||| IsLinkedPtr ||| IsDeleterPtr⟩ := by
      rw [wr_mem_other _ _ (Ne.symm hne)]; exact hm
    have hmx := h.words hx
    have hwfx := h.wf hx
    rw [hgx] at hmx hwfx
    have hnex : this ≠ x := fun e => h.not_live hfree (e ▸ hx)
    have hgp : get_global_root_ptr env (w.wr this ⟨o, 0⟩) other = _ :=
      get_global_root_ptr_cross h1m hwf.2
    rw [copy_ctor_root_cross_heap hm hwf.1 (cross_is_shared_data hwf.2) hmx hwfx.1 hwfx.2 hne
      hnex h1 _ hgp] at hc
    cases hc

theorem and7_true {a b c d e f k : Bool} (h : (a && b && c && d && e && f && k) = true) :
    a = true ∧ b = true ∧ c = true ∧ d = true ∧ e = true ∧ f = true ∧ k = true := by
  cases a <;> cases b <;> cases c <;> cases d <;> cases e <;> cases f <;> cases k <;> simp_all

theorem copy_inv_cross_heap (h : Inv env w g A) (hfree : w.mem this = none)
    (haddr : Addr62 this) (hnb : ∀ d, nb = some d → Addr62 d)
    (hother : other ∈ g.live) {s d : Nat}
    (hs : A.gs other = State.CrossLinkedHeap s d)
    (hc : copy_ctor env w this other nb = Except.ok w') :
    Kept env g A (Op.copy_construct this other nb) w' := by
  have hne : this ≠ other := fun e => h.not_live hfree (e ▸ hother)
  have hm := h.words hother
  have hwf := h.wf hother
  have hg := h.good hother
  rw [hs] at hm hwf hg
  obtain ⟨-, -, hsl, hgss, -⟩ := hg
  have hms := h.words hsl
  have hwfs := h.wf hsl
  have hgs := h.good hsl
  rw [hgss] at hms hwfs hgs
  obtain ⟨hobjs, hress, -, -, -⟩ := hgs
  have hnes : this ≠ s := fun e => h.not_live hfree (e ▸ hsl)
  cases h1 : is_address_in_stack env this with
  | true =>
    rw [copy_ctor_cross_heap_stack hm hwf.1 hms hwfs.1 (h.addr hother) hne hnes h1] at hc
    obtain ⟨hcond, rfl⟩ := ok_of_ite hc
    obtain ⟨-, -, -, -, -, c6, -⟩ := and7_true hcond
    exact copy_link_kept h hfree haddr hwfs.1 rfl ⟨h1, c6⟩ hress.1 hsl hobjs
      (by rw [hgss]; rfl)
  | false =>
    rw [copy_ctor_cross_heap_off_stack hm hwf.1 hwf.2 hms hwfs.1 (h.addr hother) hne hnes hnb
      h1] at hc
    obtain ⟨-, hc⟩ := of_ite hc
    cases nb with
    | none => cases hc
    | some data => cases hc

theorem copy_inv_shared (h : Inv env w g A) (hno : NoOverflow w) (hfree : w.mem this = none)
    (haddr : Addr62 this) (hother : other ∈ g.live) {o b : Nat}
    (hs : A.gs other = State.SharedCounted o b)
    (hc : copy_ctor env w this other nb = Except.ok w') :
    Kept env g A (Op.copy_construct this other nb) w' := by
  have hne : this ≠ other := fun e => h.not_live hfree (e ▸ hother)
  have hm := h.words hother
  have hwf := h.wf hother
  have hg := h.good hother
  rw [hs] at hm hwf hg
  obtain ⟨hobj, hown⟩ := hg
  obtain ⟨-, -, hheap, -, -⟩ := h.own_block o b hown
  by_cases hss : is_address_in_stack env this = true ∧ is_address_in_stack env other = true
  · have hrt : get_stack_root_ptr env w other = _ :=
      get_stack_root_ptr_blk hm hwf.2.1 hwf.2.2
    rw [copy_ctor_stack_stack hm hwf.1 hne (h.addr hother) _ hrt hss.1 hss.2] at hc
    obtain ⟨hcond, rfl⟩ := ok_of_ite hc
    obtain ⟨c1, -, -⟩ := and3_true hcond
    exact copy_link_kept h hfree haddr hwf.1 hobj ⟨hss.1, c1⟩ hss.2 hother hobj
      (by rw [hs]; rfl)
  · rw [copy_ctor_shared hm hwf.1 hwf.2.1 hwf.2.2 hheap hne hss] at hc
    obtain ⟨-, rfl⟩ := ok_of_ite hc
    exact copy_join_kept h hno hfree haddr hwf.1 hobj hown

/-- A copy that completes keeps the invariant. -/
theorem copy_inv (h : Inv env w g A) (hno : NoOverflow w)
    (hwfop : (Op.copy_construct this other nb).well_formed g)
    (hstep : step env w (Op.copy_construct this other nb) = Except.ok w') :
    Kept env g A (Op.copy_construct this other nb) w' := by
  obtain ⟨haddr, hnb⟩ := hwfop
  obtain ⟨hfree, hnbf, hc⟩ := step_copy_ok hstep
  have hother := h.live_of_copy hc
  cases hs : A.gs other with
  | Null => exact copy_inv_null h hfree haddr hother hs hc
  | Owning o d => exact copy_inv_owning h hfree haddr hnb hnbf hother hs hc
  | LinkedToStack o r => exact copy_inv_linked h hno hfree haddr hnb hnbf hother hs hc
  | CrossLinkedStack o x => exact copy_inv_cross_stack h hfree haddr hother hs hc
  | CrossLinkedHeap s d => exact copy_inv_cross_heap h hfree haddr hnb hother hs hc
  | SharedCounted o b => exact copy_inv_shared h hno hfree haddr hother hs hc

/-- Every operation that completes keeps the invariant. -/
theorem step_inv (hdel : Addr62 env.deleter) (h : Inv env w g A) (hno : NoOverflow w)
    (op : Op) (hd : op.disciplined env g) (hwf : op.well_formed g)
    (hstep : step env w op = Except.ok w') : Kept env g A op w' := by
  cases op with
  | construct this t => exact construct_inv hdel h hwf hstep
  | copy_construct this other nb => exact copy_inv h hno hwf hstep
  | destruct this => exact destruct_inv h hno hd hstep

end copy

end Hybrid

namespace Hybrid

open versatile_ptr

/-! ## Runs keep the invariant -/

section run

variable {env : Env} {w w' : World} {g : Ghost} {A : Abs}

/-- The invariant holds before anything is created. -/
theorem Inv.init (env : Env) :
    Inv env World.empty Ghost.init ⟨fun _ => State.Null, fun _ => Owner.unborn, []⟩ where
  nodup := List.nodup_nil
  mem_iff := by intro p; simp [Ghost.init, World.empty]
  rep := by intro p hp; simp [Ghost.init] at hp
  own_handle := by intro o p h; cases h
  own_block := by intro o b h; cases h
  own_unborn := by intro o; simp [Ghost.init]
  objects_ne := by simp [Ghost.init]
  blocks := by intro b hb; simp [World.empty] at hb
  deleted_fn := by intro x hx; simp [World.empty] at hx
  deleted_count := by intro o; simp [World.empty]
  allocs := by simp [World.empty]
  shared_nodup := List.nodup_nil
  shared_sub := by intro o ho; simp at ho
  shared_block := by intro o b h; cases h

theorem run_nil (env : Env) (w : World) : run env w [] = Except.ok w := rfl

theorem run_cons_eq {op : Op} {ops : List Op} {w1 : World} (h : step env w op = Except.ok w1) :
    run env w (op :: ops) = run env w1 ops := by
  simp only [run, h, ok_bind]

theorem run_cons_ok {op : Op} {ops : List Op} (h : run env w (op :: ops) = Except.ok w') :
    ∃ w1, step env w op = Except.ok w1 ∧ run env w1 ops = Except.ok w' := by
  cases hs : step env w op with
  | error e =>
    simp only [run, hs, error_bind] at h
    cases h
  | ok w1 =>
    rw [run_cons_eq hs] at h
    exact ⟨w1, rfl, h⟩

theorem ghost_live_length (op : Op) (g : Ghost) : (op.ghost g).live.length ≤ g.live.length + 1 := by
  cases op with
  | construct this t => simp [Op.ghost]
  | copy_construct this other nb => simp [Op.ghost]
  | destruct this =>
    simp only [Op.ghost]
    exact Nat.le_succ_of_le (List.length_erase_le _ _)

/-- A program of fewer than `2 ^ 32` operations in all never has `2 ^ 32 - 1` handles
alive. -/
theorem bounded_live_of_length :
    ∀ (ops : List Op) (g : Ghost), g.live.length + ops.length < UINT → bounded_live g ops := by
  intro ops
  induction ops with
  | nil => intro g _; trivial
  | cons op ops ih =>
    intro g hlen
    rw [List.length_cons] at hlen
    have := ghost_live_length op g
    exact ⟨by omega, ih (op.ghost g) (by omega)⟩

/-- A run under scope discipline, with fewer than `2 ^ 32 - 1` handles alive at every
point, keeps the invariant. -/
theorem run_inv (hdel : Addr62 env.deleter) :
    ∀ (ops : List Op) (w : World) (g : Ghost) (A : Abs), Inv env w g A →
      program_ok env g ops → bounded_live g ops →
      ∀ w', run env w ops = Except.ok w' → ∃ A', Inv env w' (ghost_after g ops) A' := by
  intro ops
  induction ops with
  | nil =>
    intro w g A h _ _ w' hr
    cases hr
    exact ⟨A, h⟩
  | cons op ops ih =>
    intro w g A h hp hb w' hr
    obtain ⟨w1, hs, hr1⟩ := run_cons_ok hr
    obtain ⟨hd, hwf, hp1⟩ := hp
    obtain ⟨A1, h1, -⟩ := step_inv hdel h (h.noOverflow hb.1) op hd hwf hs
    exact ih w1 (op.ghost g) A1 h1 hp1 hb.2 w' hr1

/-- No block is allocated while no object has been given one. -/
theorem Inv.no_blocks (h : Inv env w g A) (hs : A.shared = []) : NoOverflow w := by
  intro b c dl hb
  obtain ⟨o, ho⟩ := h.blocks b (by rw [hb]; exact Option.some_ne_none _)
  have := h.shared_block o b ho
  rw [hs] at this
  cases this

/-- A run, under scope discipline, in which every copy is made into a handle in the
stack: no object is ever given a block. -/
theorem run_inv_no_alloc (hdel : Addr62 env.deleter) :
    ∀ (ops : List Op) (w : World) (g : Ghost) (A : Abs), Inv env w g A → A.shared = [] →
      program_ok env g ops →
      (∀ this other nb, Op.copy_construct this other nb ∈ ops →
        is_address_in_stack env this = true) →
      ∀ w', run env w ops = Except.ok w' →
        ∃ A', Inv env w' (ghost_after g ops) A' ∧ A'.shared = [] := by
  intro ops
  induction ops with
  | nil =>
    intro w g A h hs _ _ w' hr
    cases hr
    exact ⟨A, h, hs⟩
  | cons op ops ih =>
    intro w g A h hsh hp hst w' hr
    obtain ⟨w1, hs, hr1⟩ := run_cons_ok hr
    obtain ⟨hd, hwf, hp1⟩ := hp
    obtain ⟨A1, h1, hrel⟩ := step_inv hdel h (h.no_blocks hsh) op hd hwf hs
    have hsh1 : A1.shared = [] := by
      rcases hrel with e | ⟨this, other, nb, e, hoff, -⟩
      · rw [e, hsh]
      · have := hst this other nb (by rw [e]; exact List.mem_cons_self _ _)
        rw [hoff] at this
        cases this
    exact ih w1 (op.ghost g) A1 h1 hsh1 hp1
      (fun this other nb hm => hst this other nb (List.mem_cons_of_mem _ hm)) w' hr1

/-- Under the invariant the sharers counted in the state are the sharers of the abstract
state. -/
theorem Inv.sharers_of_eq (h : Inv env w g A) {b : Nat} (hb0 : b ≠ 0) (hb : Addr62 b) :
    w.sharers_of g.live b = sharers A.gs g.live b := by
  unfold World.sharers_of sharers
  apply List.countP_congr
  intro p hp
  have hm := h.words hp
  have hwf := h.wf hp
  rw [hm]
  unfold Addr62 at hb
  cases hs : A.gs p with
  | Null => simp [State.words, State.shares, Ne.symm hb0]
  | Owning o d =>
    rw [hs] at hwf
    have := or_IsDeleterPtr d hwf.2
    simp only [State.words, State.shares, this, beq_iff_eq]
    constructor
    · intro e; omega
    · intro e; cases e
  | LinkedToStack o r =>
    rw [hs] at hwf
    have := or_IsLinkedPtr r hwf.2
    simp only [State.words, State.shares, this, beq_iff_eq]
    constructor
    · intro e; omega
    · intro e; cases e
  | CrossLinkedStack o x =>
    rw [hs] at hwf
    have := or_both x hwf.2
    simp only [State.words, State.shares, this, beq_iff_eq]
    constructor
    · intro e; omega
    · intro e; cases e
  | CrossLinkedHeap s d =>
    rw [hs] at hwf
    have := or_IsDeleterPtr d hwf.2
    simp only [State.words, State.shares, this, beq_iff_eq]
    constructor
    · intro e; omega
    · intro e; cases e
  | SharedCounted o b2 => simp [State.words, State.shares]

end run

end Hybrid

namespace Hybrid

open versatile_ptr

/-! ## What the invariant says about the state itself -/

section facts

variable {env : Env} {w w' : World} {g : Ghost} {A : Abs} {p : Nat}

theorem ok_of_isOk {r : Res World} (h : r.isOk = true) : ∃ w, r = Except.ok w := by
  cases r with
  | error e => cases h
  | ok w => exact ⟨w, rfl⟩

/-- A live handle whose second word is a block address is in `SharedCounted` state. -/
theorem Inv.shared_state (h : Inv env w g A) (hp : p ∈ g.live) {o b : Nat}
    (hm : w.mem p = some ⟨o, b⟩) (hb : is_shared_data b = true) :
    A.gs p = State.SharedCounted o b := by
  have hw := h.words hp
  have hwf := h.wf hp
  rw [hm] at hw
  have hw2 : (A.gs p).words = ⟨o, b⟩ := (Option.some.inj hw).symm
  cases hs : A.gs p with
  | Null =>
    rw [hs] at hw2
    injection hw2 with e1 e2
    rw [← e2] at hb
    cases hb
  | Owning o2 d =>
    rw [hs] at hw2 hwf
    injection hw2 with e1 e2
    rw [← e2, del_is_shared_data hwf.2] at hb
    cases hb
  | LinkedToStack o2 r =>
    rw [hs] at hw2 hwf
    injection hw2 with e1 e2
    rw [← e2, link_is_shared_data hwf.2] at hb
    cases hb
  | CrossLinkedStack o2 x =>
    rw [hs] at hw2 hwf
    injection hw2 with e1 e2
    rw [← e2, cross_is_shared_data hwf.2] at hb
    cases hb
  | CrossLinkedHeap s d =>
    rw [hs] at hw2 hwf
    injection hw2 with e1 e2
    rw [← e2, del_is_shared_data hwf.2] at hb
    cases hb
  | SharedCounted o2 b2 =>
    rw [hs] at hw2
    injection hw2 with e1 e2
    rw [e1, e2]

/-- The count of every block is the number of live handles that reference it. -/
theorem Inv.count_eq (h : Inv env w g A) {b c dl : Nat} (hb : w.heap b = some ⟨c, dl⟩) :
    c = w.sharers_of g.live b ∧ 0 < c ∧ dl = env.deleter := by
  obtain ⟨o, ho⟩ := h.blocks b (by rw [hb]; exact Option.some_ne_none _)
  obtain ⟨h1, h2, h3, h4, -⟩ := h.own_block o b ho
  rw [hb] at h3
  injection h3 with h3
  injection h3 with e1 e2
  rw [h.sharers_of_eq h1 h2, e1]
  exact ⟨rfl, h4, e2⟩

/-- The block of every live handle in `SharedCounted` state is allocated. -/
theorem Inv.block_of_sharer (h : Inv env w g A) (hp : p ∈ g.live) {o b : Nat}
    (hm : w.mem p = some ⟨o, b⟩) (hb : is_shared_data b = true) :
    ∃ c, w.heap b = some ⟨c, env.deleter⟩ ∧ c = w.sharers_of g.live b ∧ 0 < c := by
  have hs := h.shared_state hp hm hb
  have hg := h.good hp
  rw [hs] at hg
  obtain ⟨h1, h2, h3, h4, -⟩ := h.own_block o b hg.2
  exact ⟨_, h3, (h.sharers_of_eq h1 h2).symm, h4⟩

end facts

end Hybrid

namespace Hybrid

open versatile_ptr

/-! ## Many sharers of one block -/

section append

variable {env : Env} {w w1 w' : World} {g : Ghost}

theorem run_append_ok {l1 l2 : List Op} :
    ∀ {w : World}, run env w l1 = Except.ok w1 → run env w (l1 ++ l2) = run env w1 l2 := by
  induction l1 with
  | nil =>
    intro w h
    cases h
    rfl
  | cons op l1 ih =>
    intro w h
    obtain ⟨w2, hs, hr⟩ := run_cons_ok h
    rw [List.cons_append, run_cons_eq hs]
    exact ih hr

theorem ghost_after_append (l1 l2 : List Op) :
    ∀ g : Ghost, ghost_after g (l1 ++ l2) = ghost_after (ghost_after g l1) l2 := by
  induction l1 with
  | nil => intro g; rfl
  | cons op l1 ih => intro g; exact ih (op.ghost g)

theorem program_ok_append (l1 l2 : List Op) :
    ∀ g : Ghost, program_ok env g l1 → program_ok env (ghost_after g l1) l2 →
      program_ok env g (l1 ++ l2) := by
  induction l1 with
  | nil => intro g _ h; exact h
  | cons op l1 ih => intro g h1 h2; exact ⟨h1.1, h1.2.1, ih (op.ghost g) h1.2.2 h2⟩

theorem step_copy_eq {this other : Nat} (hfree : w.mem this = none) :
    step env w (Op.copy_construct this other none) = copy_ctor env w this other none := by
  simp [step, hfree]

theorem sharing_program_succ (n : Nat) :
    sharing_program (n + 1) =
      sharing_program n ++ [Op.copy_construct (30016 + 16 * n) 1900 none] := by
  simp [sharing_program, List.range_succ]

theorem sharing_program_length (n : Nat) : (sharing_program n).length = n + 2 := by
  simp [sharing_program]

theorem sharing_program_zero_ok :
    (run env0 World.empty (sharing_program 0)).isOk = true := by decide

theorem env0_not_in_stack {a : Nat} (h : 2000 < a) : is_address_in_stack env0 a = false := by
  rw [env0_stack]
  simp only [Bool.and_eq_false_imp, decide_eq_true_eq, decide_eq_false_iff_not]
  intro _
  omega

/-- One more copy of the sharer at 1900 into a free handle in the heap. -/
theorem sharing_step {n c : Nat} (hm : w.mem 1900 = some ⟨20000, 50000⟩)
    (hh : w.heap 50000 = some ⟨c, 77⟩) (hfree : w.mem (30016 + 16 * n) = none) :
    step env0 w (Op.copy_construct (30016 + 16 * n) 1900 none) =
      Except.ok ((w.wr_data 50000 ⟨pre_increment c, 77⟩).wr (30016 + 16 * n)
        ⟨20000, 50000⟩) := by
  rw [step_copy_eq hfree, copy_ctor_shared hm (objAddr_of (by decide) (by decide)) (by decide)
    (addr62_of_lt (by decide)) hh (by omega)
    (by rw [env0_not_in_stack (by omega : 2000 < 30016 + 16 * n)]; simp)]
  rfl

theorem sharing_program_ok_zero : program_ok env0 Ghost.init (sharing_program 0) := by
  simp [sharing_program, program_ok, Op.disciplined, Op.well_formed, Op.ghost, Ghost.init,
    Addr62, ObjAddr]

theorem env0_deleter : Addr62 env0.deleter := addr62_of_lt (by decide)

/-- The state after the program with `n + 2` sharers: every live handle references the
block at 50000, whose count is `n + 2` modulo `2 ^ 32`. -/
theorem sharing_state : ∀ n, n ≤ UINT → ∃ w,
    run env0 World.empty (sharing_program n) = Except.ok w ∧
    program_ok env0 Ghost.init (sharing_program n) ∧
    w.heap 50000 = some ⟨(n + 2) % UINT, 77⟩ ∧ w.deleted = [] ∧
    (ghost_after Ghost.init (sharing_program n)).live.length = n + 2 ∧
    1900 ∈ (ghost_after Ghost.init (sharing_program n)).live ∧
    (ghost_after Ghost.init (sharing_program n)).object_of 1900 = 20000 ∧
    (∀ a ∈ (ghost_after Ghost.init (sharing_program n)).live,
      w.mem a = some ⟨20000, 50000⟩ ∧
        (a = 1900 ∨ a = 30000 ∨ ∃ i, i < n ∧ a = 30016 + 16 * i)) ∧
    ∀ a, a ∉ (ghost_after Ghost.init (sharing_program n)).live → w.mem a = none := by
  intro n
  induction n with
  | zero =>
    intro _
    obtain ⟨w, hw⟩ := ok_of_isOk sharing_program_zero_ok
    have hf : (match run env0 World.empty (sharing_program 0) with
      | Except.ok w => decide (w.mem 1900 = some ⟨20000, 50000⟩ ∧
          w.mem 30000 = some ⟨20000, 50000⟩ ∧ w.heap 50000 = some ⟨2, 77⟩ ∧ w.deleted = [])
      | Except.error _ => false) = true := by decide
    rw [hw] at hf
    simp only [decide_eq_true_eq] at hf
    obtain ⟨A, hA⟩ := run_inv env0_deleter _ _ _ _ (Inv.init env0) sharing_program_ok_zero
      (bounded_live_of_length _ _ (by rw [sharing_program_length]; decide)) w hw
    have hlive : (ghost_after Ghost.init (sharing_program 0)).live = [30000, 1900] := rfl
    refine ⟨w, hw, sharing_program_ok_zero, hf.2.2.1, hf.2.2.2, rfl, ?_, rfl, ?_, ?_⟩
    · rw [hlive]; simp
    · intro a ha
      rw [hlive] at ha
      simp only [List.mem_cons, List.mem_singleton, List.not_mem_nil, or_false] at ha
      rcases ha with e | e
      · rw [e]; exact ⟨hf.2.1, Or.inr (Or.inl rfl)⟩
      · rw [e]; exact ⟨hf.1, Or.inl rfl⟩
    · intro a ha
      by_contra hne
      exact ha ((hA.mem_iff a).mpr hne)
  | succ n ih =>
    intro hlen
    obtain ⟨w, hw, hp, hh, hdl, hl, h19, hobj, hsup, hfree⟩ := ih (by omega)
    have hnl : 30016 + 16 * n ∉ (ghost_after Ghost.init (sharing_program n)).live := by
      intro hmem
      rcases (hsup _ hmem).2 with e | e | ⟨i, hi, e⟩ <;> omega
    have hs := sharing_step (hsup 1900 h19).1 hh (hfree _ hnl)
    have hwf : (Op.copy_construct (30016 + 16 * n) 1900 none).well_formed
        (ghost_after Ghost.init (sharing_program n)) := by
      refine ⟨?_, fun d hd => by cases hd⟩
      unfold Addr62
      have : UINT = 4294967296 := by decide
      omega
    have hg : ghost_after Ghost.init (sharing_program (n + 1)) =
        (Op.copy_construct (30016 + 16 * n) 1900 none).ghost
          (ghost_after Ghost.init (sharing_program n)) := by
      rw [sharing_program_succ, ghost_after_append]
      rfl
    rw [hg]
    refine ⟨(w.wr_data 50000 ⟨pre_increment ((n + 2) % UINT), 77⟩).wr (30016 + 16 * n)
      ⟨20000, 50000⟩, ?_, ?_, ?_, hdl, ?_, ?_, ?_, ?_, ?_⟩
    · rw [sharing_program_succ, run_append_ok hw]
      simp only [run, hs, ok_bind, pure_eq]
    · rw [sharing_program_succ]
      exact program_ok_append _ _ _ hp ⟨trivial, hwf, trivial⟩
    · simp only [wr_heap, wr_data_heap_self]
      rw [pre_increment_mod]
    · simp only [Op.ghost, List.length_cons, hl]
    · exact List.mem_cons_of_mem _ h19
    · simp only [Op.ghost]
      rw [Function.update_noteq (by omega)]
      exact hobj
    · intro a ha
      simp only [Op.ghost, List.mem_cons] at ha
      rcases ha with e | ha
      · rw [e]
        exact ⟨wr_mem_self _ _ _, Or.inr (Or.inr ⟨n, Nat.lt_succ_self n, rfl⟩)⟩
      · have hne : a ≠ 30016 + 16 * n := fun e => hnl (e ▸ ha)
        refine ⟨by rw [wr_mem_other _ _ hne]; exact (hsup a ha).1, ?_⟩
        rcases (hsup a ha).2 with e | e | ⟨i, hi, e⟩
        · exact Or.inl e
        · exact Or.inr (Or.inl e)
        · exact Or.inr (Or.inr ⟨i, Nat.lt_succ_of_lt hi, e⟩)
    · intro a ha
      simp only [Op.ghost, List.mem_cons, not_or] at ha
      rw [wr_mem_other _ _ ha.1]
      exact hfree a ha.2

/-- In that state the number of live handles that reference the block is `n + 2`. -/
theorem sharers_of_all {w : World} {live : List Nat} {b : Nat}
    (h : ∀ a ∈ live, ∃ o, w.mem a = some ⟨o, b⟩) : w.sharers_of live b = live.length := by
  unfold World.sharers_of
  rw [List.countP_eq_length]
  intro a ha
  obtain ⟨o, ho⟩ := h a ha
  rw [ho]
  simp

end append

end Hybrid

namespace Hybrid

open versatile_ptr

/-! ## The end of a run -/

section finish

variable {env : Env} {w w' : World} {g : Ghost} {A : Abs} {p : Nat}

/-- When no handle is alive any more, every object given to `construct` is deleted. -/
theorem Inv.gone_of_no_live (h : Inv env w g A) (hl : g.live = []) {o : Nat}
    (ho : o ∈ g.objects) : A.owner o = Owner.gone := by
  cases hown : A.owner o with
  | gone => rfl
  | unborn => exact absurd ho ((h.own_unborn o).mp hown)
  | handle q =>
    have := (h.own_handle o q hown).1
    rw [hl] at this
    cases this
  | block b =>
    obtain ⟨-, -, -, h4, -⟩ := h.own_block o b hown
    rw [hl] at h4
    simp [sharers] at h4

/-- Whatever has been deleted is an object given to `construct` before, was deleted by the
deleter `env.deleter`, and was deleted once. -/
theorem Inv.deleted_mem (h : Inv env w g A) {x : Nat × Nat} (hx : x ∈ w.deleted) :
    x.1 = env.deleter ∧ x.2 ∈ g.objects ∧ w.deleted.count x = 1 := by
  have h1 := h.deleted_fn x hx
  have hx2 : x = (env.deleter, x.2) := by rw [← h1]
  have hc := h.deleted_count x.2
  rw [← hx2] at hc
  have hpos : 0 < w.deleted.count x := List.count_pos_iff.mpr hx
  by_cases hg : A.owner x.2 = Owner.gone
  · rw [if_pos hg] at hc
    refine ⟨h1, ?_, hc⟩
    by_contra hn
    rw [(h.own_unborn _).mpr hn] at hg
    cases hg
  · rw [if_neg hg] at hc
    omega

/-- An object whose deleter is still held by a handle or by a block has not been
deleted. -/
theorem Inv.not_deleted (h : Inv env w g A) {o : Nat} (ho : A.owner o ≠ Owner.gone)
    (d : Nat) : (d, o) ∉ w.deleted := by
  intro hx
  have h1 := h.deleted_fn _ hx
  have hc := h.deleted_count o
  rw [if_neg ho] at hc
  dsimp only at h1
  rw [h1] at hx
  exact absurd (List.count_pos_iff.mpr hx) (by omega)

/-- A list all of whose members are `x`, and which holds `x` once. -/
theorem eq_singleton_of_count {α : Type} [BEq α] [LawfulBEq α] {l : List α} {x : α}
    (hall : ∀ y ∈ l, y = x) (hc : l.count x = 1) : l = [x] := by
  have hr : l = List.replicate l.length x := List.eq_replicate_iff.mpr ⟨rfl, hall⟩
  rw [hr, List.count_replicate_self] at hc
  rw [hr, hc]
  rfl

/-- A live handle whose words are those of the side of a cross-linked pair that is not in
the stack is in that state. -/
theorem Inv.cross_heap_state (h : Inv env w g A) (hp : p ∈ g.live) {s d : Nat}
    (hm : w.mem p = some (State.CrossLinkedHeap s d).words)
    (hwf : (State.CrossLinkedHeap s d).wf) : A.gs p = State.CrossLinkedHeap s d := by
  have hw := h.words hp
  have hwf2 := h.wf hp
  rw [hm] at hw
  have hw2 : (A.gs p).words = ⟨s ||| IsLinkedPtr, d ||| IsDeleterPtr⟩ :=
    (Option.some.inj hw).symm
  have e1 := or_IsLinkedPtr s hwf.1
  have e2 := or_IsDeleterPtr d hwf.2
  have hs62 : s < 2 ^ 62 := hwf.1
  have hd62 : d < 2 ^ 62 := hwf.2
  cases hs : A.gs p with
  | Null =>
    rw [hs] at hw2
    injection hw2 with a1 a2
    omega
  | Owning o2 d2 =>
    rw [hs] at hw2 hwf2
    injection hw2 with a1 a2
    have := hwf2.1.2
    omega
  | LinkedToStack o2 r =>
    rw [hs] at hw2 hwf2
    injection hw2 with a1 a2
    have := hwf2.1.2
    omega
  | CrossLinkedStack o2 x =>
    rw [hs] at hw2 hwf2
    injection hw2 with a1 a2
    have := hwf2.1.2
    omega
  | SharedCounted o2 b2 =>
    rw [hs] at hw2 hwf2
    injection hw2 with a1 a2
    have := hwf2.1.2
    omega
  | CrossLinkedHeap s2 d2 =>
    rw [hs] at hw2 hwf2
    injection hw2 with a1 a2
    have e3 := or_IsLinkedPtr s2 hwf2.1
    have e4 := or_IsDeleterPtr d2 hwf2.2
    have : s2 = s := by omega
    have : d2 = d := by omega
    subst_vars
    rfl

/-- Operations other than `construct` are given no new object. -/
theorem ghost_objects_of_no_construct :
    ∀ (ops : List Op) (g : Ghost), (∀ op ∈ ops, ∀ this t, op ≠ Op.construct this t) →
      (ghost_after g ops).objects = g.objects := by
  intro ops
  induction ops with
  | nil => intro g _; rfl
  | cons op ops ih =>
    intro g hno
    have h1 := ih (op.ghost g) (fun o ho => hno o (List.mem_cons_of_mem _ ho))
    rw [ghost_after, h1]
    cases op with
    | construct this t => exact absurd rfl (hno _ (List.mem_cons_self _ _) this t)
    | copy_construct this other nb => rfl
    | destruct this => rfl

end finish

end Hybrid

namespace Hybrid

open versatile_ptr

/-! ## Dereference under the invariant, and one sharer too many -/

section deref

variable {env : Env} {w w' : World} {g : Ghost} {A : Abs} {p : Nat}

/-- Under the invariant `operator->` on a live handle made for an object yields that
object. -/
theorem Inv.arrow (h : Inv env w g A) (hp : p ∈ g.live) (ho : g.object_of p ≠ 0)
    (hheap : is_address_in_cpp_heap env (g.object_of p) = true) :
    arrow env w p = Except.ok (g.object_of p) := by
  have hm := h.words hp
  have hwf := h.wf hp
  have hg := h.good hp
  cases hs : A.gs p with
  | Null =>
    rw [hs] at hg
    exact absurd hg ho
  | Owning o d =>
    rw [hs] at hm hwf hg
    rw [hg.1] at hheap ⊢
    rw [arrow_obj hm hwf.1, hheap, if_pos rfl]
  | LinkedToStack o r =>
    rw [hs] at hm hwf hg
    rw [hg.1] at hheap ⊢
    rw [arrow_obj hm hwf.1, hheap, if_pos rfl]
  | CrossLinkedStack o x =>
    rw [hs] at hm hwf hg
    rw [hg.1] at hheap ⊢
    rw [arrow_obj hm hwf.1, hheap, if_pos rfl]
  | SharedCounted o b =>
    rw [hs] at hm hwf hg
    rw [hg.1] at hheap ⊢
    rw [arrow_obj hm hwf.1, hheap, if_pos rfl]
  | CrossLinkedHeap s d =>
    rw [hs] at hm hwf hg
    obtain ⟨-, hoff, hsl, hgss, -⟩ := hg
    have hms := h.words hsl
    have hwfs := h.wf hsl
    have hgs := h.good hsl
    rw [hgss] at hms hwfs hgs
    rw [arrow_cross_heap hm hwf.1 hms (h.addr hp) hwfs.1]
    simp [hoff, hgs.2.1.1, hgs.2.1.2, hheap]

/-- A live handle made for an object: the object has not been deleted. -/
theorem Inv.alive (h : Inv env w g A) (hp : p ∈ g.live) (ho : g.object_of p ≠ 0) (d : Nat) :
    (d, g.object_of p) ∉ w.deleted := by
  apply h.not_deleted
  have hn : A.gs p ≠ State.Null := by
    intro e
    have hg := h.good hp
    rw [e] at hg
    exact ho hg
  rcases h.live_owner hp hn with ⟨q, hq⟩ | ⟨b, hb⟩
  · rw [hq]; intro e; cases e
  · rw [hb]; intro e; cases e

end deref

/-- One more copy of the sharer at 1900 when the count of its block has wrapped to 0,
and the end of that copy: the object is deleted and the block freed. -/
theorem wrapped_tail {w : World} {n : Nat} (hm : w.mem 1900 = some ⟨20000, 50000⟩)
    (hh : w.heap 50000 = some ⟨0, 77⟩) (hfree : w.mem (30016 + 16 * n) = none)
    (hdl : w.deleted = []) :
    ∃ w2, run env0 w [Op.copy_construct (30016 + 16 * n) 1900 none,
        Op.destruct (30016 + 16 * n)] = Except.ok w2 ∧
      w2.mem 1900 = some ⟨20000, 50000⟩ ∧ w2.heap 50000 = none ∧
      w2.deleted = [(77, 20000)] := by
  have hs := sharing_step hm hh hfree
  have hinc : pre_increment 0 = 1 := by decide
  rw [hinc] at hs
  obtain ⟨w1, hw1⟩ : ∃ w1, w1 = (w.wr_data 50000 ⟨1, 77⟩).wr (30016 + 16 * n)
      ⟨20000, 50000⟩ := ⟨_, rfl⟩
  rw [← hw1] at hs
  have hm1 : w1.mem (30016 + 16 * n) = some ⟨20000, 50000⟩ := by
    rw [hw1]; exact wr_mem_self _ _ _
  have hh1 : w1.heap 50000 = some ⟨1, 77⟩ := by rw [hw1]; simp
  have hd : dtor env0 w1 (30016 + 16 * n) = _ :=
    dtor_shared hm1 (objAddr_of (by decide) (by decide)) (by decide)
      (addr62_of_lt (by decide)) hh1
  have hdec : pre_decrement 1 = 0 := by decide
  rw [hdec, if_pos rfl, if_pos (by decide), if_pos (by decide)] at hd
  have hs2 := step_destruct_eq hd
  refine ⟨((((w1.wr_data 50000 ⟨0, 77⟩).call_deleter 77 20000).free_data 50000).wr
    (30016 + 16 * n) ⟨0, 0⟩).release (30016 + 16 * n), ?_, ?_, ?_, ?_⟩
  · simp only [run, hs, hs2, ok_bind, pure_eq]
  · rw [release_mem_other _ (by omega), wr_mem_other _ _ (by omega)]
    simp only [free_data_mem, call_deleter_mem, wr_data_mem]
    rw [hw1, wr_mem_other _ _ (by omega)]
    exact hm
  · simp
  · rw [hw1]; simp [hdl]

theorem ghost_copy_destruct (g : Ghost) (this other : Nat) (nb : Option Nat) :
    ghost_after g [Op.copy_construct this other nb, Op.destruct this] =
      ⟨g.live, Function.update g.object_of this (g.object_of other), g.objects⟩ := by
  simp only [ghost_after, Op.ghost, List.erase_cons_head]

/-- The run of `use_after_free_program`: the object at 20000 has been deleted, and the
handle at 1900, made for it, is alive and still stores its address. -/
theorem use_after_free_state : ∃ w',
    run env0 World.empty use_after_free_program = Except.ok w' ∧
    program_ok env0 Ghost.init use_after_free_program ∧
    1900 ∈ (ghost_after Ghost.init use_after_free_program).live ∧
    (ghost_after Ghost.init use_after_free_program).object_of 1900 = 20000 ∧
    w'.mem 1900 = some ⟨20000, 50000⟩ ∧ w'.heap 50000 = none ∧
    w'.deleted = [(77, 20000)] := by
  obtain ⟨w, hw, hp, hh, hdl, hl, h19, hobj, hsup, hfree⟩ := sharing_state (UINT - 2) (by decide)
  have e0 : (UINT - 2 + 2) % UINT = 0 := by decide
  have e1 : UINT - 1 = UINT - 2 + 1 := by decide
  rw [e0] at hh
  obtain ⟨n, hn⟩ : ∃ n, n = UINT - 2 := ⟨_, rfl⟩
  have hn2 : n < UINT := by rw [hn]; decide
  rw [← hn] at hw hp hl h19 hobj hsup hfree
  obtain ⟨g0, hg0⟩ : ∃ g0, g0 = ghost_after Ghost.init (sharing_program n) := ⟨_, rfl⟩
  rw [← hg0] at hl h19 hobj hsup hfree
  have hnl : 30016 + 16 * n ∉ g0.live := by
    intro hmem
    rcases (hsup _ hmem).2 with e | e | ⟨i, hi, e⟩ <;> omega
  have hwf : (Op.copy_construct (30016 + 16 * n) 1900 none).well_formed g0 := by
    refine ⟨?_, fun d hd => by cases hd⟩
    unfold Addr62
    have : UINT = 4294967296 := by decide
    omega
  obtain ⟨w2, hr2, f1, f2, f3⟩ := wrapped_tail (hsup 1900 h19).1 hh (hfree _ hnl) hdl
  have hprog : use_after_free_program = sharing_program n ++
      [Op.copy_construct (30016 + 16 * n) 1900 none, Op.destruct (30016 + 16 * n)] := by
    unfold use_after_free_program
    rw [e1, ← hn, sharing_program_succ, List.append_assoc]
    rfl
  have hg : ghost_after Ghost.init use_after_free_program =
      ⟨g0.live, Function.update g0.object_of (30016 + 16 * n) (g0.object_of 1900),
        g0.objects⟩ := by
    rw [hprog, ghost_after_append, ← hg0, ghost_copy_destruct]
  rw [hg]
  refine ⟨w2, ?_, ?_, h19, ?_, f1, f2, f3⟩
  · rw [hprog, run_append_ok hw]
    exact hr2
  · rw [hprog]
    refine program_ok_append _ _ _ hp ?_
    rw [← hg0]
    refine ⟨trivial, hwf, ?_, trivial, trivial⟩
    intro hin
    rw [env0_not_in_stack (by omega)] at hin
    cases hin
  · dsimp only
    rw [Function.update_noteq (by omega)]
    exact hobj

end Hybrid

namespace Hybrid

open versatile_ptr

/-! ## Blocks per object, and runs in the stack alone -/

section runs

variable {env : Env}

/-- A run in which every copy is made into a handle in the stack, started when no handle
is alive or the oldest handle alive is `r`, made for `t`, and every handle alive is in the
stack: this stays so, and no object is ever given a block. -/
theorem run_stack_only (hdel : Addr62 env.deleter) (r t : Nat) :
    ∀ (ops : List Op) (w : World) (g : Ghost) (A : Abs), Inv env w g A → A.shared = [] →
      program_ok env g ops →
      (∀ op ∈ ops, (∃ this other nb, op = Op.copy_construct this other nb ∧
        is_address_in_stack env this = true) ∨ ∃ p, op = Op.destruct p) →
      (∀ p ∈ g.live, is_address_in_stack env p = true) →
      (g.live = [] ∨ ∃ l, g.live = l ++ [r] ∧ g.object_of r = t) →
      ∀ w', run env w ops = Except.ok w' →
        ∃ A', Inv env w' (ghost_after g ops) A' ∧ A'.shared = [] ∧
          ((ghost_after g ops).live = [] ∨
            ∃ l, (ghost_after g ops).live = l ++ [r] ∧ (ghost_after g ops).object_of r = t) := by
  intro ops
  induction ops with
  | nil =>
    intro w g A h hs _ _ _ hK w' hr
    cases hr
    exact ⟨A, h, hs, hK⟩
  | cons op ops ih =>
    intro w g A h hsh hp hops hst hK w' hr
    obtain ⟨w1, hs, hr1⟩ := run_cons_ok hr
    obtain ⟨hd, hwf, hp1⟩ := hp
    obtain ⟨A1, h1, hrel⟩ := step_inv hdel h (h.no_blocks hsh) op hd hwf hs
    have hops1 : ∀ o ∈ ops, (∃ this other nb, o = Op.copy_construct this other nb ∧
        is_address_in_stack env this = true) ∨ ∃ p, o = Op.destruct p :=
      fun o ho => hops o (List.mem_cons_of_mem _ ho)
    rcases hops op (List.mem_cons_self _ _) with ⟨this, other, nb, eop, hin⟩ | ⟨p, eop⟩
    · subst eop
      have hsh1 : A1.shared = [] := by
        rcases hrel with e | ⟨th, ot, n, e, hoff, -⟩
        · rw [e, hsh]
        · injection e with e1 e2 e3
          rw [← e1, hin] at hoff
          cases hoff
      obtain ⟨hfree, -, hc⟩ := step_copy_ok hs
      have hother := h.live_of_copy hc
      have hnl := h.not_live hfree
      refine ih w1 _ A1 h1 hsh1 hp1 hops1 ?_ ?_ w' hr1
      · intro q hq
        simp only [Op.ghost, List.mem_cons] at hq
        rcases hq with e | hq
        · rw [e]; exact hin
        · exact hst q hq
      · rcases hK with e | ⟨l, hl, hobj⟩
        · rw [e] at hother
          cases hother
        · refine Or.inr ⟨this :: l, by simp [Op.ghost, hl], ?_⟩
          have hr : r ∈ g.live := by rw [hl]; simp
          have hne : r ≠ this := fun e => hnl (e ▸ hr)
          simp only [Op.ghost]
          rw [Function.update_noteq hne]
          exact hobj
    · subst eop
      have hsh1 : A1.shared = [] := by
        rcases hrel with e | ⟨th, ot, n, e, -, -⟩
        · rw [e, hsh]
        · cases e
      obtain ⟨w0, hdt, -⟩ := step_destruct_ok hs
      have hpl := h.live_of_dtor hdt
      refine ih w1 _ A1 h1 hsh1 hp1 hops1 ?_ ?_ w' hr1
      · intro q hq
        exact hst q (List.mem_of_mem_erase hq)
      · rcases hK with e | ⟨l, hl, hobj⟩
        · rw [e] at hpl
          cases hpl
        · by_cases hpr : p = r
          · left
            cases l with
            | nil =>
              simp [Op.ghost, hl, hpr]
            | cons q l2 =>
              exfalso
              have hnd := h.nodup
              rw [hl] at hnd
              have hqr : q ≠ r := by
                intro e
                rw [e] at hnd
                simp at hnd
              have hq : q ∈ g.live := by rw [hl]; simp
              have hdisc : is_address_in_stack env p = true →
                  ∀ x ∈ g.live.takeWhile (fun a => a != p), is_address_in_stack env x = false :=
                hd
              have hqt : q ∈ g.live.takeWhile (fun a => a != p) := by
                rw [hl, hpr]
                have hb : (q != r) = true := by simp [hqr]
                simp only [List.cons_append, List.takeWhile, hb]
                exact List.mem_cons_self _ _
              have := hdisc (hst p hpl) q hqt
              rw [hst q hq] at this
              cases this
          · right
            have hpin : p ∈ l := by
              rw [hl] at hpl
              simpa [hpr] using hpl
            refine ⟨l.erase p, ?_, hobj⟩
            show g.live.erase p = _
            rw [hl, List.erase_append_left _ hpin]

end runs

end Hybrid

namespace Hybrid

open versatile_ptr

/-! ## The state of a handle is determined by its two words -/

/-- The words of a well-formed state, with the marks written as sums. -/
theorem State.words_eq {st : State} (hwf : st.wf) :
    st.words = match st with
      | State.Null => ⟨0, 0⟩
      | State.Owning o d => ⟨o, d + 2 ^ 62⟩
      | State.LinkedToStack o r => ⟨o, r + 2 ^ 63⟩
      | State.CrossLinkedStack o g => ⟨o, g + 2 ^ 63 + 2 ^ 62⟩
      | State.CrossLinkedHeap s d => ⟨s + 2 ^ 63, d + 2 ^ 62⟩
      | State.SharedCounted o b => ⟨o, b⟩ := by
  cases st with
  | Null => rfl
  | Owning o d => simp only [State.words]; rw [or_IsDeleterPtr d hwf.2]
  | LinkedToStack o r => simp only [State.words]; rw [or_IsLinkedPtr r hwf.2]
  | CrossLinkedStack o g => simp only [State.words]; rw [or_both g hwf.2]
  | CrossLinkedHeap s d =>
    simp only [State.words]; rw [or_IsDeleterPtr d hwf.2, or_IsLinkedPtr s hwf.1]
  | SharedCounted o b => rfl

/-- Two well-formed states with the same words are the same state. -/
theorem State.words_inj {s t : State} (hs : s.wf) (ht : t.wf) (h : s.words = t.words) :
    s = t := by
  rw [State.words_eq hs, State.words_eq ht] at h
  cases s <;> cases t <;>
    simp only [State.wf, ObjAddr, Addr62, hybrid_shared_ptr.mk.injEq, State.Owning.injEq,
      State.LinkedToStack.injEq, State.CrossLinkedStack.injEq, State.CrossLinkedHeap.injEq,
      State.SharedCounted.injEq, reduceCtorEq] at hs ht h ⊢ <;>
    omega

section inv

variable {env : Env} {w : World} {g : Ghost} {A : Abs} {p : Nat}

/-- A live handle whose words are those of the well-formed state `st` is recorded in
that state. -/
theorem Inv.state_eq (h : Inv env w g A) (hp : p ∈ g.live) {st : State}
    (hm : w.in_state p st) (hwf : st.wf) : A.gs p = st :=
  State.words_inj (h.wf hp) hwf (Option.some.inj ((h.words hp).symm.trans hm))

theorem Inv.in_state (h : Inv env w g A) (hp : p ∈ g.live) : w.in_state p (A.gs p) :=
  h.words hp

end inv

/-! ## Which states hold the deleter -/

theorem holds_deleter_iff (h : hybrid_shared_ptr) :
    holds_deleter h = decide (h.ptr / 2 ^ 62 % 2 = 1 ∧ h.ptr / 2 ^ 63 % 2 = 0) := by
  rw [Bool.eq_iff_iff]
  simp only [holds_deleter, is_deleter_ptr, and_IsDeleterPtr, and_IsLinkedPtr, bne_iff_ne,
    beq_iff_eq, Bool.and_eq_true, decide_eq_true_eq]
  omega

/-- Among the well-formed states, the second word carries the deleter address in the
`Owning` state and on the side of a cross-link that is not in the stack. -/
theorem holds_deleter_words {st : State} (hwf : st.wf) :
    holds_deleter st.words = true ↔
      (∃ o d, st = State.Owning o d) ∨ ∃ s d, st = State.CrossLinkedHeap s d := by
  rw [State.words_eq hwf, holds_deleter_iff]
  cases st <;>
    simp only [State.wf, ObjAddr, Addr62, decide_eq_true_eq, reduceCtorEq, exists_false,
      or_false, false_or, State.Owning.injEq, State.CrossLinkedHeap.injEq, exists_and_left,
      exists_eq', and_true, iff_true, iff_false] at hwf ⊢ <;>
    first | omega | simp

/-- Among the well-formed states, the first word carries the `IsLinkedPtr` mark on the
side of a cross-link that is not in the stack, and in no other state. -/
theorem first_word_linked {st : State} (hwf : st.wf) :
    (st.words.ptr_to_obj_or_root_ptr_on_stack &&& IsLinkedPtr) ≠ 0 ↔
      ∃ s d, st = State.CrossLinkedHeap s d := by
  rw [State.words_eq hwf, and_IsLinkedPtr]
  cases st <;>
    simp only [State.wf, ObjAddr, Addr62, reduceCtorEq, exists_false,
      State.CrossLinkedHeap.injEq, exists_and_left, exists_eq', and_true, iff_true,
      iff_false, ne_eq, not_not] at hwf ⊢ <;>
    omega

/-- Among the well-formed states, the second word carries both marks on the side of a
cross-link that is in the stack, and in no other state. -/
theorem second_word_cross {st : State} (hwf : st.wf) :
    (is_deleter_ptr st.words.ptr = true ∧ (st.words.ptr &&& IsLinkedPtr) ≠ 0) ↔
      ∃ o x, st = State.CrossLinkedStack o x := by
  rw [State.words_eq hwf, is_deleter_ptr_iff, and_IsLinkedPtr]
  cases st <;>
    simp only [State.wf, ObjAddr, Addr62, reduceCtorEq, exists_false, decide_eq_true_eq,
      State.CrossLinkedStack.injEq, exists_and_left, exists_eq', and_true, iff_true,
      iff_false, ne_eq] at hwf ⊢ <;>
    omega

/-- Among the well-formed states, the second word carries the `IsLinkedPtr` mark alone
in the `LinkedToStack` state, and in no other state. -/
theorem second_word_linked {st : State} (hwf : st.wf) :
    (is_deleter_ptr st.words.ptr = false ∧ (st.words.ptr &&& IsLinkedPtr) ≠ 0) ↔
      ∃ o r, st = State.LinkedToStack o r := by
  rw [State.words_eq hwf, is_deleter_ptr_iff, and_IsLinkedPtr]
  cases st <;>
    simp only [State.wf, ObjAddr, Addr62, reduceCtorEq, exists_false, decide_eq_false_iff_not,
      State.LinkedToStack.injEq, exists_and_left, exists_eq', and_true, iff_true,
      iff_false, ne_eq] at hwf ⊢ <;>
    omega

/-! ## Lists with one element -/

theorem filter_eq_singleton {f : Nat → Bool} {p : Nat} :
    ∀ {l : List Nat}, l.Nodup → p ∈ l → (∀ x ∈ l, f x = true ↔ x = p) → l.filter f = [p] := by
  intro l
  induction l with
  | nil => intro _ hp; cases hp
  | cons a l ih =>
    intro hnd hp hf
    rw [List.nodup_cons] at hnd
    by_cases ha : a = p
    · subst ha
      have h1 : f a = true := (hf a (List.mem_cons_self _ _)).mpr rfl
      have h2 : l.filter f = [] := by
        rw [List.filter_eq_nil_iff]
        intro x hx hfx
        have := (hf x (List.mem_cons_of_mem _ hx)).mp hfx
        exact hnd.1 (this ▸ hx)
      rw [List.filter_cons_of_pos h1, h2]
    · have h1 : ¬ f a = true := fun h => ha ((hf a (List.mem_cons_self _ _)).mp h)
      rw [List.filter_cons_of_neg h1]
      rcases List.mem_cons.mp hp with e | hp2
      · exact absurd e.symm ha
      · exact ih hnd.2 hp2 (fun x hx => hf x (List.mem_cons_of_mem _ hx))

theorem eq_singleton_of_nodup {b : Nat} :
    ∀ {l : List Nat}, l.Nodup → b ∈ l → (∀ x ∈ l, x = b) → l = [b] := by
  intro l hnd hb hall
  cases l with
  | nil => cases hb
  | cons a l =>
    have ha : a = b := hall a (List.mem_cons_self _ _)
    subst ha
    rw [List.nodup_cons] at hnd
    cases l with
    | nil => rfl
    | cons c l =>
      have hc : c = a := hall c (List.mem_cons_of_mem _ (List.mem_cons_self _ _))
      exact absurd (hc ▸ List.mem_cons_self _ _) hnd.1

theorem dedup_eq_singleton {b : Nat} {l : List Nat} (hb : b ∈ l) (hall : ∀ x ∈ l, x = b) :
    l.dedup = [b] :=
  eq_singleton_of_nodup (List.nodup_dedup l) (List.mem_dedup.mpr hb)
    (fun x hx => hall x (List.mem_dedup.mp hx))

/-! ## Who holds the deleter of an object -/

section holders

variable {env : Env} {w : World} {g : Ghost} {A : Abs} {p t : Nat}

/-- A live handle whose second word carries the deleter address is the recorded holder
of the deleter of its object. -/
theorem Inv.owner_of_holder (h : Inv env w g A) (hp : p ∈ g.live)
    (hh : holds_deleter (A.gs p).words = true) :
    A.owner (g.object_of p) = Owner.handle p := by
  have hg := h.good hp
  rcases (holds_deleter_words (h.wf hp)).mp hh with ⟨o, d, e⟩ | ⟨s, d, e⟩
  · rw [e] at hg
    obtain ⟨h1, -, h3⟩ := hg
    rw [h1]; exact h3
  · rw [e] at hg
    exact hg.2.2.2.2

/-- A live handle whose second word is the address of a block is a recorded sharer of
the block that holds the deleter of its object. -/
theorem Inv.owner_of_sharer (h : Inv env w g A) (hp : p ∈ g.live)
    (hh : is_shared_data (A.gs p).words.ptr = true) :
    A.owner (g.object_of p) = Owner.block (A.gs p).words.ptr ∧
      ∃ o, A.gs p = State.SharedCounted o (A.gs p).words.ptr := by
  have hm := h.words hp
  have hs := h.shared_state hp hm hh
  have hg := h.good hp
  rw [hs] at hg
  obtain ⟨h1, h2⟩ := hg
  refine ⟨?_, _, hs⟩
  rw [h1]; exact h2

/-- The deleter of `t` is held by the handle `p`: `p` is the one holder and no live
handle made for `t` references a block. -/
theorem Inv.holders_of_handle (h : Inv env w g A) (ho : A.owner t = Owner.handle p) :
    w.holders g t = [p] ∧ w.blocks_of g t = [] ∧
      (w.in_state p (State.Owning t env.deleter) ∨
        ∃ s, w.in_state p (State.CrossLinkedHeap s env.deleter)) := by
  obtain ⟨hp, hobj, hst⟩ := h.own_handle t p ho
  refine ⟨?_, ?_, ?_⟩
  · apply filter_eq_singleton h.nodup hp
    intro x hx
    rw [h.words hx]
    simp only [Bool.and_eq_true, beq_iff_eq]
    constructor
    · rintro ⟨e, hh⟩
      have := h.owner_of_holder hx hh
      rw [e, ho] at this
      injection this with this
      exact this.symm
    · rintro rfl
      refine ⟨hobj, (holds_deleter_words (h.wf hx)).mpr ?_⟩
      rcases hst with e | ⟨s, e⟩
      · exact Or.inl ⟨_, _, e⟩
      · exact Or.inr ⟨_, _, e⟩
  · unfold World.blocks_of
    have hnil : ∀ l : List Nat, l = [] → l.dedup = [] := by
      intro l e; rw [e]; rfl
    apply hnil
    rw [List.filterMap_eq_nil_iff]
    intro x hx
    rw [h.words hx]
    dsimp only
    rw [if_neg]
    rintro ⟨e, hh⟩
    have := (h.owner_of_sharer hx hh).1
    rw [e, ho] at this
    cases this
  · rcases hst with e | ⟨s, e⟩
    · left
      have := h.words hp
      rw [e] at this
      exact this
    · right
      have := h.words hp
      rw [e] at this
      exact ⟨s, this⟩

/-- The deleter of `t` is held by the block `b`: no live handle holds it, and `b` is the
one block that the live handles made for `t` reference. -/
theorem Inv.holders_of_block {b : Nat} (h : Inv env w g A) (ho : A.owner t = Owner.block b) :
    w.holders g t = [] ∧ w.blocks_of g t = [b] ∧
      ∃ c, w.heap b = some ⟨c, env.deleter⟩ ∧ 0 < c := by
  obtain ⟨hb0, hb62, hheap, hpos, huniq⟩ := h.own_block t b ho
  refine ⟨?_, ?_, _, hheap, hpos⟩
  · unfold World.holders
    rw [List.filter_eq_nil_iff]
    intro x hx
    rw [h.words hx]
    simp only [Bool.and_eq_true, beq_iff_eq, not_and]
    intro e hh
    have := h.owner_of_holder hx hh
    rw [e, ho] at this
    cases this
  · unfold World.blocks_of
    apply dedup_eq_singleton
    · obtain ⟨q, hq, hsh⟩ := sharers_pos_iff.mp hpos
      obtain ⟨o, hs⟩ := shares_iff.mp hsh
      have hg := h.good hq
      have hwf := h.wf hq
      rw [hs] at hg hwf
      obtain ⟨h1, h2⟩ := hg
      have hot : o = t := huniq o h2
      rw [List.mem_filterMap]
      refine ⟨q, hq, ?_⟩
      rw [h.words hq, hs]
      dsimp only [State.words]
      rw [if_pos ⟨by rw [h1, hot], blk_is_shared_data hwf.2.1 hwf.2.2⟩]
    · intro x hx
      rw [List.mem_filterMap] at hx
      obtain ⟨q, hq, hfx⟩ := hx
      rw [h.words hq] at hfx
      dsimp only at hfx
      by_cases hc : g.object_of q = t ∧ is_shared_data (A.gs q).words.ptr = true
      · rw [if_pos hc] at hfx
        have := (h.owner_of_sharer hq hc.2).1
        rw [hc.1, ho] at this
        injection this with this
        injection hfx with hfx
        rw [← hfx, ← this]
      · rw [if_neg hc] at hfx
        cases hfx

/-- An object given to `construct` and not deleted has its deleter held by a handle or
by a block. -/
theorem Inv.owner_cases (h : Inv env w g A) (ht : t ∈ g.objects)
    (hnd : (env.deleter, t) ∉ w.deleted) :
    (∃ p, A.owner t = Owner.handle p) ∨ ∃ b, A.owner t = Owner.block b := by
  cases ho : A.owner t with
  | unborn => exact absurd ht ((h.own_unborn t).mp ho)
  | handle p => exact Or.inl ⟨p, rfl⟩
  | block b => exact Or.inr ⟨b, rfl⟩
  | gone =>
    have := h.deleted_count t
    rw [if_pos ho] at this
    exact absurd (List.count_pos_iff.mp (by omega)) hnd

end holders

end Hybrid

namespace Hybrid

open versatile_ptr

/-! ## Which operation sets the `IsLinkedPtr` mark in the first word of a handle -/

section first_word

variable {env : Env} {w w' : World} {g : Ghost} {A : Abs} {this other : Nat} {nb : Option Nat}

theorem ObjAddr.first_word {o : Nat} (ho : ObjAddr o) : o &&& IsLinkedPtr = 0 := by
  have := ho.linked_bit
  simpa using this

/-- A handle with the mark in a state where `this` has just been given a first word
without the mark: it is another handle, and it was there before the store. -/
theorem marked_of_wr {w0 : World} {x h' : hybrid_shared_ptr} {q : Nat}
    (hx : x.ptr_to_obj_or_root_ptr_on_stack &&& IsLinkedPtr = 0)
    (hq : (w0.wr this x).mem q = some h')
    (hl : (h'.ptr_to_obj_or_root_ptr_on_stack &&& IsLinkedPtr) ≠ 0) :
    q ≠ this ∧ w0.mem q = some h' := by
  by_cases e : q = this
  · subst e
    rw [wr_mem_self] at hq
    injection hq with hq
    subst hq
    exact absurd hx hl
  · rw [wr_mem_other _ _ e] at hq
    exact ⟨e, hq⟩

theorem mem_of_release {w0 : World} {h' : hybrid_shared_ptr} {q : Nat}
    (hq : (w0.release this).mem q = some h') : q ≠ this ∧ w0.mem q = some h' := by
  by_cases e : q = this
  · subst e
    rw [release_mem_self] at hq
    cases hq
  · rw [release_mem_other _ e] at hq
    exact ⟨e, hq⟩

/-- The constructor never sets the mark. -/
theorem construct_first_word (hdel : Addr62 env.deleter) {t : Nat}
    (hwf : (Op.construct this t).well_formed g)
    (hstep : step env w (Op.construct this t) = Except.ok w') :
    ∀ q h', w'.mem q = some h' → (h'.ptr_to_obj_or_root_ptr_on_stack &&& IsLinkedPtr) ≠ 0 →
      w.mem q = some h' := by
  have hfree : w.mem this = none := by
    cases hm : w.mem this with
    | none => rfl
    | some x =>
      simp only [step, hm, Option.isSome_some, if_true] at hstep
      cases hstep
  simp only [step, hfree, Option.isSome_none, Bool.false_eq_true, if_false] at hstep
  obtain ⟨-, ht⟩ := hwf
  intro q h' hq hl
  by_cases h0 : t = 0
  · subst h0
    rw [ctor_null] at hstep
    cases hstep
    exact (marked_of_wr (by decide) hq hl).2
  · have hto : ObjAddr t := by
      rcases ht with e | ht
      · exact absurd e h0
      · exact ht.1
    rw [ctor_obj hto hdel] at hstep
    cases hstep
    exact (marked_of_wr hto.first_word hq hl).2

end first_word

/-! ## One thread alone in the destructor of a sharer does what `dtor` does -/

section threads

variable {env : Env} {w : World} {this o b c dl : Nat}

/-- A thread that runs alone the destructor of the last sharer of a block: its five
actions give the state, or the failure, that `dtor` gives. -/
theorem thread_alone_last (t2 : Thread) (hm : w.mem this = some ⟨o, b⟩) (ho : ObjAddr o)
    (hb : b ≠ 0) (hb2 : Addr62 b) (hblk : w.heap b = some ⟨c, dl⟩) (hz : pre_decrement c = 0) :
    (run_threads env w (Thread.start this) t2 [false, false, false, false, false]).map
        (fun r => r.1) = dtor env w this := by
  rw [dtor_shared hm ho hb hb2 hblk, if_pos hz]
  simp only [run_threads, Thread.start, Thread.step, rd_eq_ok hm, ok_bind,
    blk_get_shared_data hb hb2]
  cases h1 : is_address_in_cpp_heap env b with
  | false => rfl
  | true =>
    simp only [if_true, ok_bind, rd_data_eq_ok hblk, pure_eq, wr_data_rd, rd_eq_ok hm,
      blk_get_shared_data hb hb2, h1, wr_data_rd_data_self, hz, beq_self_eq_true, obj_eq ho]
    cases h2 : is_address_in_cpp_heap env o with
    | false => rfl
    | true =>
      simp only [if_true, ok_bind, call_deleter_rd, wr_data_rd, rd_eq_ok hm,
        blk_get_shared_data hb hb2, h1, World.rd_data, call_deleter_heap,
        wr_data_heap_self, free_data_rd, pure_eq]
      rfl

/-- A thread that runs alone the destructor of a sharer that is not the last: its three
actions give the state, or the failure, that `dtor` gives. -/
theorem thread_alone_not_last (t2 : Thread) (hm : w.mem this = some ⟨o, b⟩) (ho : ObjAddr o)
    (hb : b ≠ 0) (hb2 : Addr62 b) (hblk : w.heap b = some ⟨c, dl⟩) (hz : pre_decrement c ≠ 0) :
    (run_threads env w (Thread.start this) t2 [false, false, false]).map
        (fun r => r.1) = dtor env w this := by
  rw [dtor_shared hm ho hb hb2 hblk, if_neg hz]
  simp only [run_threads, Thread.start, Thread.step, rd_eq_ok hm, ok_bind,
    blk_get_shared_data hb hb2]
  cases h1 : is_address_in_cpp_heap env b with
  | false => rfl
  | true =>
    have hz2 : (pre_decrement c == 0) = false := by simpa using hz
    simp only [if_true, ok_bind, rd_data_eq_ok hblk, pure_eq, wr_data_rd, rd_eq_ok hm,
      blk_get_shared_data hb hb2, h1, wr_data_rd_data_self, hz2]
    rfl

end threads

end Hybrid

namespace Hybrid

open versatile_ptr

/-! ## Handles without counts

What the handles of a run look like does not depend on what the blocks store: the lemmas
below establish `Shape` for every run under scope discipline, whatever the number of
handles alive. -/

section shape

variable {env : Env} {w w2 : World} {g : Ghost} {A : Abs} {p : Nat}

/-- The shape of the handles depends on the handles and on `total_nb_allocs` alone. -/
theorem Shape.of_eq (h : Shape env w g A) (hm : w2.mem = w.mem)
    (ht : w2.total_nb_allocs = w.total_nb_allocs) : Shape env w2 g A where
  nodup := h.nodup
  mem_iff := by rw [hm]; exact h.mem_iff
  rep := by rw [hm]; exact h.rep
  own_handle := h.own_handle
  own_unborn := h.own_unborn
  objects_ne := h.objects_ne
  allocs := by rw [ht]; exact h.allocs
  shared_nodup := h.shared_nodup
  shared_sub := h.shared_sub
  shared_block := h.shared_block

theorem Shape.not_live_sh (h : Shape env w g A) (hp : w.mem p = none) : p ∉ g.live :=
  fun hl => (h.mem_iff p).mp hl hp

theorem Shape.live_of_mem_sh (h : Shape env w g A) {x : hybrid_shared_ptr} (hp : w.mem p = some x) :
    p ∈ g.live :=
  (h.mem_iff p).mpr (by rw [hp]; exact Option.some_ne_none x)

theorem Shape.words_sh (h : Shape env w g A) (hp : p ∈ g.live) : w.mem p = some (A.gs p).words :=
  (h.rep p hp).1

theorem Shape.wf_sh (h : Shape env w g A) (hp : p ∈ g.live) : (A.gs p).wf := (h.rep p hp).2.1

theorem Shape.addr_sh (h : Shape env w g A) (hp : p ∈ g.live) : Addr62 p := (h.rep p hp).2.2.1

theorem Shape.good_sh (h : Shape env w g A) (hp : p ∈ g.live) : Good env g A p (A.gs p) :=
  (h.rep p hp).2.2.2

/-- A handle that is a root holds, or shares, the deleter of its object. -/
theorem Shape.root_owner_sh (h : Shape env w g A) (hp : p ∈ g.live) (hr : (A.gs p).is_root = true) :
    (A.gs p).object = some (g.object_of p) ∧
      ((∃ q, A.owner (g.object_of p) = Owner.handle q) ∨
        ∃ b, A.owner (g.object_of p) = Owner.block b) := by
  have hg := h.good_sh hp
  cases hs : A.gs p with
  | Null => rw [hs] at hr; simp [State.is_root] at hr
  | LinkedToStack _ _ => rw [hs] at hr; simp [State.is_root] at hr
  | CrossLinkedHeap _ _ => rw [hs] at hr; simp [State.is_root] at hr
  | Owning o d =>
    rw [hs] at hg
    exact ⟨by rw [← hg.1]; rfl, Or.inl ⟨p, by rw [hg.1]; exact hg.2.2⟩⟩
  | CrossLinkedStack o x =>
    rw [hs] at hg
    exact ⟨by rw [← hg.1]; rfl, Or.inl ⟨x, by rw [hg.1]; exact hg.2.2.2.2⟩⟩
  | SharedCounted o b =>
    rw [hs] at hg
    exact ⟨by rw [← hg.1]; rfl, Or.inr ⟨b, by rw [hg.1]; exact hg.2⟩⟩

/-- Every live handle that is not null refers to an object whose deleter is held by a
handle or by a block. -/
theorem Shape.live_owner_sh (h : Shape env w g A) (hp : p ∈ g.live) (hn : A.gs p ≠ State.Null) :
    (∃ q, A.owner (g.object_of p) = Owner.handle q) ∨
      ∃ b, A.owner (g.object_of p) = Owner.block b := by
  have hg := h.good_sh hp
  cases hs : A.gs p with
  | Null => exact absurd hs hn
  | LinkedToStack o r =>
    rw [hs] at hg
    obtain ⟨h1, _, _, h4, h5, h6⟩ := hg
    have hr : r ∈ g.live := h4.subset (by simp)
    have := (h.root_owner_sh hr h6).2
    rw [h5, ← h1] at this
    exact this
  | CrossLinkedHeap s d =>
    rw [hs] at hg
    exact Or.inl ⟨p, hg.2.2.2.2⟩
  | Owning o d => exact (h.root_owner_sh hp (by rw [hs]; rfl)).2
  | CrossLinkedStack o x => exact (h.root_owner_sh hp (by rw [hs]; rfl)).2
  | SharedCounted o b => exact (h.root_owner_sh hp (by rw [hs]; rfl)).2

theorem Shape.live_object_mem_sh (h : Shape env w g A) (hp : p ∈ g.live) (hn : A.gs p ≠ State.Null) :
    g.object_of p ∈ g.objects := by
  by_contra hc
  have hu := (h.own_unborn _).mpr hc
  rcases h.live_owner_sh hp hn with ⟨q, hq⟩ | ⟨b, hb⟩
  · rw [hu] at hq; cases hq
  · rw [hu] at hb; cases hb

end shape

end Hybrid

namespace Hybrid

open versatile_ptr

/-! ## The shape of the handles is kept by every change of state: new handles -/

section shape_add

variable {env : Env} {w : World} {g : Ghost} {A : Abs} {this p : Nat}

/-- A new handle whose state changes no other handle and no holder of a deleter: a null
handle, a handle linked to a stack root, or one more sharer of a block. -/
theorem Shape.add_plain_sh (h : Shape env w g A) (hfree : w.mem this = none) (haddr : Addr62 this)
    (st : State) (hwf : st.wf) (o : Nat)
    (hgood : Good env ⟨this :: g.live, Function.update g.object_of this o, g.objects⟩
      ⟨Function.update A.gs this st, A.owner, A.shared⟩ this st) :
    Shape env (w.wr this st.words)
      ⟨this :: g.live, Function.update g.object_of this o, g.objects⟩
      ⟨Function.update A.gs this st, A.owner, A.shared⟩ := by
  have hnl : this ∉ g.live := h.not_live_sh hfree
  have hne : ∀ p ∈ g.live, p ≠ this := fun p hp e => hnl (e ▸ hp)
  refine
    { nodup := List.nodup_cons.mpr ⟨hnl, h.nodup⟩
      mem_iff := ?_
      rep := ?_
      own_handle := ?_
      own_unborn := h.own_unborn
      objects_ne := h.objects_ne
      allocs := h.allocs
      shared_nodup := h.shared_nodup
      shared_sub := h.shared_sub
      shared_block := h.shared_block }
  · intro p
    by_cases hp : p = this
    · subst hp; simp
    · simp [hp, wr_mem_other _ _ hp, h.mem_iff p]
  · intro p hp
    rcases List.mem_cons.mp hp with rfl | hp
    · simp only [Function.update_same]
      exact ⟨wr_mem_self _ _ _, hwf, haddr, hgood⟩
    · have hpn := hne p hp
      simp only [Function.update_noteq hpn]
      refine ⟨by rw [wr_mem_other _ _ hpn]; exact h.words_sh hp, h.wf_sh hp, h.addr_sh hp, ?_⟩
      refine Good_frame (h.good_sh hp) (Function.update_noteq hpn _ _) (fun _ => rfl) ?_ ?_ ?_
      · intro o2 r hs
        have hg := h.good_sh hp
        rw [hs] at hg
        have hr : r ∈ g.live := hg.2.2.2.1.subset (by simp)
        exact ⟨hg.2.2.2.1.cons _, Function.update_noteq (hne r hr) _ _,
          by simp only [Function.update_noteq (hne r hr)]; exact id⟩
      · intro o2 x hs
        have hg := h.good_sh hp
        rw [hs] at hg
        exact ⟨List.mem_cons_of_mem _ hg.2.2.1, Function.update_noteq (hne x hg.2.2.1) _ _⟩
      · intro s d hs
        have hg := h.good_sh hp
        rw [hs] at hg
        exact ⟨List.mem_cons_of_mem _ hg.2.2.1, Function.update_noteq (hne s hg.2.2.1) _ _⟩
  · intro o2 p hown
    obtain ⟨h1, h2, h3⟩ := h.own_handle o2 p hown
    have hpn := hne p h1
    exact ⟨List.mem_cons_of_mem _ h1, by simp [Function.update_noteq hpn, h2],
      by simpa [Function.update_noteq hpn] using h3⟩

/-- A new handle constructed from the object `t`, which no constructor was given
before. -/
theorem Shape.add_owner_sh (h : Shape env w g A) (hfree : w.mem this = none) (haddr : Addr62 this)
    (henv : Addr62 env.deleter) {t : Nat} (ht : ObjAddr t) (hnew : t ∉ g.objects) :
    Shape env (w.wr this (State.Owning t env.deleter).words)
      ⟨this :: g.live, Function.update g.object_of this t, t :: g.objects⟩
      ⟨Function.update A.gs this (State.Owning t env.deleter),
        Function.update A.owner t (Owner.handle this), A.shared⟩ := by
  have hnl : this ∉ g.live := h.not_live_sh hfree
  have hne : ∀ p ∈ g.live, p ≠ this := fun p hp e => hnl (e ▸ hp)
  have hu : A.owner t = Owner.unborn := (h.own_unborn t).mpr hnew
  have hot : ∀ o, A.owner o ≠ Owner.unborn → o ≠ t := fun o ho e => ho (e ▸ hu)
  refine
    { nodup := List.nodup_cons.mpr ⟨hnl, h.nodup⟩
      mem_iff := ?_
      rep := ?_
      own_handle := ?_
      own_unborn := ?_
      objects_ne := ?_
      allocs := h.allocs
      shared_nodup := h.shared_nodup
      shared_sub := ?_
      shared_block := ?_ }
  · intro p
    by_cases hp : p = this
    · subst hp; simp
    · simp [hp, wr_mem_other _ _ hp, h.mem_iff p]
  · intro p hp
    rcases List.mem_cons.mp hp with rfl | hp
    · simp only [Function.update_same]
      exact ⟨wr_mem_self _ _ _, ⟨ht, henv⟩, haddr, by simp, rfl, by simp⟩
    · have hpn := hne p hp
      simp only [Function.update_noteq hpn]
      refine ⟨by rw [wr_mem_other _ _ hpn]; exact h.words_sh hp, h.wf_sh hp, h.addr_sh hp, ?_⟩
      refine Good_frame (h.good_sh hp) (Function.update_noteq hpn _ _) ?_ ?_ ?_ ?_
      · intro hst
        have hnn : A.gs p ≠ State.Null := by
          intro e; rw [e] at hst
          rcases hst with h1 | ⟨s, d, h1⟩
          · simp [State.is_root] at h1
          · cases h1
        have hin := h.live_object_mem_sh hp hnn
        have : g.object_of p ≠ t := fun e => hnew (e ▸ hin)
        simp [Function.update_noteq this]
      · intro o2 r hs
        have hg := h.good_sh hp
        rw [hs] at hg
        have hr : r ∈ g.live := hg.2.2.2.1.subset (by simp)
        exact ⟨hg.2.2.2.1.cons _, Function.update_noteq (hne r hr) _ _,
          by simp only [Function.update_noteq (hne r hr)]; exact id⟩
      · intro o2 x hs
        have hg := h.good_sh hp
        rw [hs] at hg
        exact ⟨List.mem_cons_of_mem _ hg.2.2.1, Function.update_noteq (hne x hg.2.2.1) _ _⟩
      · intro s d hs
        have hg := h.good_sh hp
        rw [hs] at hg
        exact ⟨List.mem_cons_of_mem _ hg.2.2.1, Function.update_noteq (hne s hg.2.2.1) _ _⟩
  · intro o2 p hown
    by_cases ho : o2 = t
    · subst ho
      simp only [Function.update_same, Owner.handle.injEq] at hown
      subst hown
      simp
    · simp only [Function.update_noteq ho] at hown
      obtain ⟨h1, h2, h3⟩ := h.own_handle o2 p hown
      have hpn := hne p h1
      exact ⟨List.mem_cons_of_mem _ h1, by simp [Function.update_noteq hpn, h2],
        by simpa [Function.update_noteq hpn] using h3⟩
  · intro o2
    by_cases ho : o2 = t
    · subst ho; simp
    · simp [Function.update_noteq ho, h.own_unborn o2, ho]
  · simp only [List.mem_cons, not_or]
    exact ⟨Ne.symm ht.1, h.objects_ne⟩
  · intro o2 ho2
    have h1 := h.shared_sub o2 ho2
    have : o2 ≠ t := hot o2 (by obtain ⟨b, h1⟩ := h1; rw [h1]; exact Owner.noConfusion)
    simpa [Function.update_noteq this] using h1
  · intro o2 b hown
    have ho : o2 ≠ t := by
      intro e; subst e; simp at hown
    simp only [Function.update_noteq ho] at hown
    exact h.shared_block o2 b hown

/-- A new stack handle cross-linked with the owner `other`, which is not in the stack. -/
theorem Shape.add_cross_sh (h : Shape env w g A) (hfree : w.mem this = none) (haddr : Addr62 this)
    (hstack : stack_resident env this) {other o : Nat} (hother : other ∈ g.live)
    (hst : A.gs other = State.Owning o env.deleter)
    (hoff : is_address_in_stack env other = false) :
    Shape env ((w.wr other (State.CrossLinkedHeap this env.deleter).words).wr this
        (State.CrossLinkedStack o other).words)
      ⟨this :: g.live, Function.update g.object_of this (g.object_of other), g.objects⟩
      ⟨Function.update (Function.update A.gs other (State.CrossLinkedHeap this env.deleter))
        this (State.CrossLinkedStack o other), A.owner, A.shared⟩ := by
  have hnl : this ∉ g.live := h.not_live_sh hfree
  have hne : ∀ p ∈ g.live, p ≠ this := fun p hp e => hnl (e ▸ hp)
  have hot := hne other hother
  have hgo := h.good_sh hother
  rw [hst] at hgo
  obtain ⟨hobj, -, hown⟩ := hgo
  have hwfo := h.wf_sh hother
  rw [hst] at hwfo
  have hgs : ∀ p ∈ g.live, p ≠ other →
      Function.update (Function.update A.gs other (State.CrossLinkedHeap this env.deleter))
        this (State.CrossLinkedStack o other) p = A.gs p := by
    intro p hp hpo
    rw [Function.update_noteq (hne p hp), Function.update_noteq hpo]
  refine
    { nodup := List.nodup_cons.mpr ⟨hnl, h.nodup⟩
      mem_iff := ?_
      rep := ?_
      own_handle := ?_
      own_unborn := h.own_unborn
      objects_ne := h.objects_ne
      allocs := h.allocs
      shared_nodup := h.shared_nodup
      shared_sub := h.shared_sub
      shared_block := h.shared_block }
  · intro p
    by_cases hp : p = this
    · subst hp; simp
    · by_cases hp2 : p = other
      · subst hp2; simp [wr_mem_other _ _ hp, hother]
      · simp [hp, wr_mem_other _ _ hp, wr_mem_other _ _ hp2, h.mem_iff p]
  · intro p hp
    dsimp only at hp ⊢
    rcases List.mem_cons.mp hp with hpt | hp
    · rw [hpt]
      simp only [Function.update_same]
      refine ⟨wr_mem_self _ _ _, ⟨hwfo.1, h.addr_sh hother⟩, haddr, ?_, hstack,
        List.mem_cons_of_mem _ hother, ?_, hown⟩
      · simp [hobj]
      · show Function.update _ _ _ other = _
        rw [Function.update_noteq hot, Function.update_same]
    · have hpn := hne p hp
      by_cases hpo : p = other
      · rw [hpo]
        simp only [Function.update_noteq hot, Function.update_same]
        refine ⟨by rw [wr_mem_other _ _ hot]; exact wr_mem_self _ _ _, ⟨haddr, hwfo.2⟩,
          h.addr_sh hother, rfl, hoff, List.mem_cons_self _ _, ?_, ?_⟩
        · simp [Function.update_noteq hot, hobj]
        · simp [Function.update_noteq hot, hobj, hown]
      · rw [hgs p hp hpo]
        refine ⟨by rw [wr_mem_other _ _ hpn, wr_mem_other _ _ hpo]; exact h.words_sh hp, h.wf_sh hp,
          h.addr_sh hp, ?_⟩
        refine Good_frame (h.good_sh hp) (Function.update_noteq hpn _ _) (fun _ => rfl) ?_ ?_ ?_
        · intro o2 r hs
          have hg := h.good_sh hp
          rw [hs] at hg
          have hr : r ∈ g.live := hg.2.2.2.1.subset (by simp)
          have hrs : is_address_in_stack env r = true := hg.2.2.1
          have hro : r ≠ other := by
            intro e; rw [e, hoff] at hrs; exact Bool.noConfusion hrs
          refine ⟨hg.2.2.2.1.cons _, Function.update_noteq (hne r hr) _ _, ?_⟩
          dsimp only
          rw [hgs r hr hro]; exact id
        · intro o2 x hs
          have hg := h.good_sh hp
          rw [hs] at hg
          have hxs : A.gs x = _ := hg.2.2.2.1
          have hxo : x ≠ other := by
            intro e; rw [e, hst] at hxs; cases hxs
          exact ⟨List.mem_cons_of_mem _ hg.2.2.1, hgs x hg.2.2.1 hxo⟩
        · intro s d hs
          have hg := h.good_sh hp
          rw [hs] at hg
          have hss : A.gs s = _ := hg.2.2.2.1
          have hso : s ≠ other := by
            intro e; rw [e, hst] at hss; cases hss
          exact ⟨List.mem_cons_of_mem _ hg.2.2.1, hgs s hg.2.2.1 hso⟩
  · intro o2 p hown2
    obtain ⟨h1, h2, h3⟩ := h.own_handle o2 p hown2
    have hpn := hne p h1
    refine ⟨List.mem_cons_of_mem _ h1, by simp [Function.update_noteq hpn, h2], ?_⟩
    by_cases hpo : p = other
    · right
      refine ⟨this, ?_⟩
      dsimp only
      rw [hpo, Function.update_noteq hot, Function.update_same]
    · show (Function.update _ _ _ p = _) ∨ ∃ s, Function.update _ _ _ p = _
      rw [hgs p h1 hpo]; exact h3

/-- The four ways a live handle can hold, or share, the deleter of its object. -/
theorem Shape.root_cases_sh (h : Shape env w g A) (hp : p ∈ g.live)
    (hst : (A.gs p).is_root = true ∨ ∃ s d, A.gs p = State.CrossLinkedHeap s d) :
    (A.gs p = State.Owning (g.object_of p) env.deleter ∧
        A.owner (g.object_of p) = Owner.handle p) ∨
      (∃ x, A.gs p = State.CrossLinkedStack (g.object_of p) x ∧
        A.owner (g.object_of p) = Owner.handle x ∧
          A.gs x = State.CrossLinkedHeap p env.deleter) ∨
      (∃ s, A.gs p = State.CrossLinkedHeap s env.deleter ∧
        A.owner (g.object_of p) = Owner.handle p) ∨
      ∃ b, A.gs p = State.SharedCounted (g.object_of p) b ∧
        A.owner (g.object_of p) = Owner.block b := by
  have hg := h.good_sh hp
  cases hs : A.gs p with
  | Null => rw [hs] at hst; simp [State.is_root] at hst
  | LinkedToStack o r => rw [hs] at hst; simp [State.is_root] at hst
  | Owning o d =>
    rw [hs] at hg
    obtain ⟨h1, h2, h3⟩ := hg
    subst h1 h2
    exact Or.inl ⟨rfl, h3⟩
  | CrossLinkedStack o x =>
    rw [hs] at hg
    obtain ⟨h1, -, -, h4, h5⟩ := hg
    subst h1
    exact Or.inr (Or.inl ⟨x, rfl, h5, h4⟩)
  | CrossLinkedHeap s d =>
    rw [hs] at hg
    obtain ⟨h1, -, -, -, h5⟩ := hg
    subst h1
    exact Or.inr (Or.inr (Or.inl ⟨s, rfl, h5⟩))
  | SharedCounted o b =>
    rw [hs] at hg
    obtain ⟨h1, h2⟩ := hg
    subst h1
    exact Or.inr (Or.inr (Or.inr ⟨b, rfl, h2⟩))

/-- The deleter of an object that a handle in state `Owning` holds is held by no other
root. -/
theorem Shape.owning_unique_sh (h : Shape env w g A) {r o : Nat} (hr : r ∈ g.live)
    (hgs : A.gs r = State.Owning o env.deleter) (hp : p ∈ g.live) (hpr : p ≠ r)
    (hst : (A.gs p).is_root = true ∨ ∃ s d, A.gs p = State.CrossLinkedHeap s d) :
    g.object_of p ≠ o := by
  have hg := h.good_sh hr
  rw [hgs] at hg
  obtain ⟨-, -, hown⟩ := hg
  intro e
  rcases h.root_cases_sh hp hst with ⟨-, h2⟩ | ⟨x, -, h2, h3⟩ | ⟨s, -, h2⟩ | ⟨b, -, h2⟩
  · rw [e, hown] at h2
    exact hpr (Owner.handle.inj h2).symm
  · rw [e, hown] at h2
    rw [← Owner.handle.inj h2, hgs] at h3
    cases h3
  · rw [e, hown] at h2
    exact hpr (Owner.handle.inj h2).symm
  · rw [e, hown] at h2
    cases h2

/-- The root `r`, which holds the deleter itself, and a new handle share a new block. -/
theorem Shape.add_create_sh (h : Shape env w g A) (hfree : w.mem this = none) (haddr : Addr62 this)
    {r o data : Nat} (hr : r ∈ g.live) (hgs : A.gs r = State.Owning o env.deleter)
    (hd0 : data ≠ 0) (hd62 : Addr62 data) :
    Shape env
      ((((w.new_shared_data data env.deleter).wr_data data ⟨2, env.deleter⟩).wr r
        (State.SharedCounted o data).words).wr this (State.SharedCounted o data).words)
      ⟨this :: g.live, Function.update g.object_of this o, g.objects⟩
      ⟨Function.update (Function.update A.gs r (State.SharedCounted o data)) this
        (State.SharedCounted o data), Function.update A.owner o (Owner.block data),
        o :: A.shared⟩ := by
  have hnl : this ∉ g.live := h.not_live_sh hfree
  have hne : ∀ p ∈ g.live, p ≠ this := fun p hp e => hnl (e ▸ hp)
  have hrt := hne r hr
  have hgr := h.good_sh hr
  rw [hgs] at hgr
  obtain ⟨hobj, -, hown⟩ := hgr
  have hwfr := h.wf_sh hr
  rw [hgs] at hwfr
  have hgs2 : ∀ p ∈ g.live, p ≠ r →
      Function.update (Function.update A.gs r (State.SharedCounted o data)) this
        (State.SharedCounted o data) p = A.gs p := by
    intro p hp hpr
    rw [Function.update_noteq (hne p hp), Function.update_noteq hpr]
  have hgsr : Function.update (Function.update A.gs r (State.SharedCounted o data)) this
        (State.SharedCounted o data) r = State.SharedCounted o data := by
    rw [Function.update_noteq hrt, Function.update_same]
  have hoS : o ∉ A.shared := by
    intro ho
    obtain ⟨b, h1⟩ := h.shared_sub o ho
    rw [hown] at h1
    cases h1
  refine
    { nodup := List.nodup_cons.mpr ⟨hnl, h.nodup⟩
      mem_iff := ?_
      rep := ?_
      own_handle := ?_
      own_unborn := ?_
      objects_ne := h.objects_ne
      allocs := ?_
      shared_nodup := List.nodup_cons.mpr ⟨hoS, h.shared_nodup⟩
      shared_sub := ?_
      shared_block := ?_ }
  · intro p
    by_cases hp : p = this
    · subst hp; simp
    · by_cases hpr : p = r
      · subst hpr
        simp [wr_mem_other _ _ hp, hr]
      · simp [hp, wr_mem_other _ _ hp, wr_mem_other _ _ hpr, h.mem_iff p]
  · intro p hp
    dsimp only at hp ⊢
    rcases List.mem_cons.mp hp with hpt | hp
    · rw [hpt]
      simp only [Function.update_same]
      exact ⟨wr_mem_self _ _ _, ⟨hwfr.1, hd0, hd62⟩, haddr, by simp, by simp⟩
    · have hpn := hne p hp
      by_cases hpr : p = r
      · rw [hpr, hgsr]
        refine ⟨by rw [wr_mem_other _ _ hrt]; exact wr_mem_self _ _ _, ⟨hwfr.1, hd0, hd62⟩,
          h.addr_sh hr, ?_, by simp⟩
        show Function.update g.object_of this o r = o
        rw [Function.update_noteq hrt]
        exact hobj
      · rw [hgs2 p hp hpr]
        refine ⟨by rw [wr_mem_other _ _ hpn, wr_mem_other _ _ hpr]; exact h.words_sh hp, h.wf_sh hp,
          h.addr_sh hp, ?_⟩
        refine Good_frame (h.good_sh hp) (Function.update_noteq hpn _ _) ?_ ?_ ?_ ?_
        · intro hst
          exact Function.update_noteq (h.owning_unique_sh hr hgs hp hpr hst) _ _
        · intro o2 r2 hs
          have hg := h.good_sh hp
          rw [hs] at hg
          have hr2 : r2 ∈ g.live := hg.2.2.2.1.subset (by simp)
          refine ⟨hg.2.2.2.1.cons _, Function.update_noteq (hne r2 hr2) _ _, ?_⟩
          dsimp only
          by_cases e : r2 = r
          · rw [e, hgsr]; intro _; rfl
          · rw [hgs2 r2 hr2 e]; exact id
        · intro o2 x hs
          have hg := h.good_sh hp
          rw [hs] at hg
          refine ⟨List.mem_cons_of_mem _ hg.2.2.1, hgs2 x hg.2.2.1 ?_⟩
          intro e
          have := hg.2.2.2.1
          rw [e, hgs] at this
          cases this
        · intro s d hs
          have hg := h.good_sh hp
          rw [hs] at hg
          refine ⟨List.mem_cons_of_mem _ hg.2.2.1, hgs2 s hg.2.2.1 ?_⟩
          intro e
          have := hg.2.2.2.1
          rw [e, hgs] at this
          cases this
  · intro o2 p hown2
    dsimp only at hown2 ⊢
    have ho2 : o2 ≠ o := by
      intro e
      rw [e, Function.update_same] at hown2
      cases hown2
    rw [Function.update_noteq ho2] at hown2
    obtain ⟨h1, h2, h3⟩ := h.own_handle o2 p hown2
    have hpn := hne p h1
    have hpr : p ≠ r := by
      intro e
      rw [e, hobj] at h2
      exact ho2 h2.symm
    exact ⟨List.mem_cons_of_mem _ h1, by simp [Function.update_noteq hpn, h2],
      by rw [hgs2 p h1 hpr]; exact h3⟩
  · intro o2
    dsimp only
    by_cases ho2 : o2 = o
    · rw [ho2, Function.update_same]
      have : o ∈ g.objects := by
        by_contra hc
        have := (h.own_unborn o).mpr hc
        rw [hown] at this
        cases this
      simp [this]
    · rw [Function.update_noteq ho2]
      exact h.own_unborn o2
  · dsimp only
    simp only [wr_total, wr_data_total, new_shared_data_total, List.length_cons]
    rw [h.allocs, pre_increment_mod]
  · intro o2 ho2
    dsimp only at ho2 ⊢
    rcases List.mem_cons.mp ho2 with e | ho2
    · exact ⟨data, by rw [e, Function.update_same]⟩
    · have : o2 ≠ o := fun e => hoS (e ▸ ho2)
      rw [Function.update_noteq this]
      exact h.shared_sub o2 ho2
  · intro o2 b hb
    dsimp only at hb ⊢
    by_cases ho2 : o2 = o
    · simp [ho2]
    · rw [Function.update_noteq ho2] at hb
      exact List.mem_cons_of_mem _ (h.shared_block o2 b hb)

end shape_add

end Hybrid

namespace Hybrid

open versatile_ptr

/-! ## The shape of the handles is kept by every change of state: the end of a handle -/

section shape_del

variable {env : Env} {w : World} {g : Ghost} {A : Abs} {this p : Nat}

/-- Under scope discipline, no live handle is linked to a handle that is destroyed. -/
theorem Shape.no_link_to_sh (h : Shape env w g A)
    (hdisc : is_address_in_stack env this = true →
      ∀ q ∈ g.live.takeWhile (fun a => a != this), is_address_in_stack env q = false)
    (hp : p ∈ g.live) (o : Nat) : A.gs p ≠ State.LinkedToStack o this := by
  intro hs
  have hg := h.good_sh hp
  rw [hs] at hg
  obtain ⟨-, hres, hin, hsub, -, -⟩ := hg
  have := hdisc hin p (mem_takeWhile_of_sublist hsub h.nodup)
  rw [hres.1] at this
  cases this

/-- The handles alive after `this` is destroyed. -/
theorem Shape.mem_erase_sh (h : Shape env w g A) : p ∈ g.live.erase this ↔ p ≠ this ∧ p ∈ g.live :=
  h.nodup.mem_erase_iff

/-- The end of a handle that holds no deleter itself and is no side of a cross-link: a null
handle, a handle linked to a stack root, or a sharer of a block. -/
theorem Shape.del_plain_sh (h : Shape env w g A) (hthis : this ∈ g.live)
    (hdisc : is_address_in_stack env this = true →
      ∀ q ∈ g.live.takeWhile (fun a => a != this), is_address_in_stack env q = false)
    (hown : ∀ o d, A.gs this ≠ State.Owning o d)
    (hcs : ∀ o x, A.gs this ≠ State.CrossLinkedStack o x)
    (hch : ∀ s d, A.gs this ≠ State.CrossLinkedHeap s d) :
    Shape env (w.release this) ⟨g.live.erase this, g.object_of, g.objects⟩ A := by
  refine
    { nodup := h.nodup.erase _
      mem_iff := ?_
      rep := ?_
      own_handle := ?_
      own_unborn := h.own_unborn
      objects_ne := h.objects_ne
      allocs := h.allocs
      shared_nodup := h.shared_nodup
      shared_sub := h.shared_sub
      shared_block := h.shared_block }
  · intro q
    dsimp only
    rw [h.mem_erase_sh]
    by_cases hq : q = this
    · subst hq; simp
    · simp [hq, release_mem_other _ hq, h.mem_iff q]
  · intro q hq
    dsimp only at hq ⊢
    obtain ⟨hqt, hq⟩ := h.mem_erase_sh.mp hq
    refine ⟨by rw [release_mem_other _ hqt]; exact h.words_sh hq, h.wf_sh hq, h.addr_sh hq, ?_⟩
    refine Good_frame (h.good_sh hq) rfl (fun _ => rfl) ?_ ?_ ?_
    · intro o r hs
      have hg := h.good_sh hq
      rw [hs] at hg
      have hrt : r ≠ this := by
        intro e
        rw [e] at hs
        exact h.no_link_to_sh hdisc hq o hs
      exact ⟨sublist_pair_erase hg.2.2.2.1 hqt hrt, rfl, id⟩
    · intro o x hs
      have hg := h.good_sh hq
      rw [hs] at hg
      refine ⟨h.mem_erase_sh.mpr ⟨?_, hg.2.2.1⟩, rfl⟩
      intro e
      exact hch _ _ (e ▸ hg.2.2.2.1)
    · intro s d hs
      have hg := h.good_sh hq
      rw [hs] at hg
      refine ⟨h.mem_erase_sh.mpr ⟨?_, hg.2.2.1⟩, rfl⟩
      intro e
      exact hcs _ _ (e ▸ hg.2.2.2.1)
  · intro o q hown2
    obtain ⟨h1, h2, h3⟩ := h.own_handle o q hown2
    refine ⟨h.mem_erase_sh.mpr ⟨?_, h1⟩, h2, h3⟩
    intro e
    rw [e] at h3
    rcases h3 with h3 | ⟨s, h3⟩
    · exact hown _ _ h3
    · exact hch _ _ h3

/-- The end of the handle that holds the deleter of `o` itself: `o` is deleted. -/
theorem Shape.del_owner_sh (h : Shape env w g A) (hthis : this ∈ g.live) {o : Nat}
    (hgs : A.gs this = State.Owning o env.deleter)
    (hdisc : is_address_in_stack env this = true →
      ∀ q ∈ g.live.takeWhile (fun a => a != this), is_address_in_stack env q = false) :
    Shape env (w.release this)
      ⟨g.live.erase this, g.object_of, g.objects⟩
      ⟨A.gs, Function.update A.owner o Owner.gone, A.shared⟩ := by
  have hgt := h.good_sh hthis
  rw [hgs] at hgt
  obtain ⟨hobj, -, hown⟩ := hgt
  have hoS : o ∉ A.shared := by
    intro ho
    obtain ⟨b, h1⟩ := h.shared_sub o ho
    rw [hown] at h1
    cases h1
  refine
    { nodup := h.nodup.erase _
      mem_iff := ?_
      rep := ?_
      own_handle := ?_
      own_unborn := ?_
      objects_ne := h.objects_ne
      allocs := h.allocs
      shared_nodup := h.shared_nodup
      shared_sub := ?_
      shared_block := ?_ }
  · intro q
    dsimp only
    rw [h.mem_erase_sh]
    by_cases hq : q = this
    · subst hq; simp
    · simp [hq, release_mem_other _ hq, h.mem_iff q]
  · intro q hq
    dsimp only at hq ⊢
    obtain ⟨hqt, hq⟩ := h.mem_erase_sh.mp hq
    refine ⟨by rw [release_mem_other _ hqt]; exact h.words_sh hq, h.wf_sh hq, h.addr_sh hq, ?_⟩
    refine Good_frame (h.good_sh hq) rfl ?_ ?_ ?_ ?_
    · intro hst
      exact Function.update_noteq (h.owning_unique_sh hthis hgs hq hqt hst) _ _
    · intro o2 r hs
      have hg := h.good_sh hq
      rw [hs] at hg
      have hrt : r ≠ this := by
        intro e
        rw [e] at hs
        exact h.no_link_to_sh hdisc hq o2 hs
      exact ⟨sublist_pair_erase hg.2.2.2.1 hqt hrt, rfl, id⟩
    · intro o2 x hs
      have hg := h.good_sh hq
      rw [hs] at hg
      refine ⟨h.mem_erase_sh.mpr ⟨?_, hg.2.2.1⟩, rfl⟩
      intro e
      have := hg.2.2.2.1
      rw [e, hgs] at this
      cases this
    · intro s d hs
      have hg := h.good_sh hq
      rw [hs] at hg
      refine ⟨h.mem_erase_sh.mpr ⟨?_, hg.2.2.1⟩, rfl⟩
      intro e
      have := hg.2.2.2.1
      rw [e, hgs] at this
      cases this
  · intro o2 q hown2
    dsimp only at hown2 ⊢
    have ho2 : o2 ≠ o := by
      intro e
      rw [e, Function.update_same] at hown2
      cases hown2
    rw [Function.update_noteq ho2] at hown2
    obtain ⟨h1, h2, h3⟩ := h.own_handle o2 q hown2
    refine ⟨h.mem_erase_sh.mpr ⟨?_, h1⟩, h2, h3⟩
    intro e
    rw [e, hobj] at h2
    exact ho2 h2.symm
  · intro o2
    dsimp only
    by_cases ho2 : o2 = o
    · rw [ho2, Function.update_same]
      have : o ∈ g.objects := by
        by_contra hc
        have := (h.own_unborn o).mpr hc
        rw [hown] at this
        cases this
      simp [this]
    · rw [Function.update_noteq ho2]
      exact h.own_unborn o2
  · intro o2 ho2
    dsimp only
    have : o2 ≠ o := fun e => hoS (e ▸ ho2)
    rw [Function.update_noteq this]
    exact h.shared_sub o2 ho2
  · intro o2 b hb
    dsimp only at hb ⊢
    have ho2 : o2 ≠ o := by
      intro e
      rw [e, Function.update_same] at hb
      cases hb
    rw [Function.update_noteq ho2] at hb
    exact h.shared_block o2 b hb

/-- The end of a stack root that is cross-linked with the handle `x`: `x` holds the
deleter alone again. -/
theorem Shape.del_cross_stack_sh (h : Shape env w g A) (hthis : this ∈ g.live) {o x : Nat}
    (hgs : A.gs this = State.CrossLinkedStack o x)
    (hdisc : is_address_in_stack env this = true →
      ∀ q ∈ g.live.takeWhile (fun a => a != this), is_address_in_stack env q = false) :
    Shape env ((w.wr x (State.Owning o env.deleter).words).release this)
      ⟨g.live.erase this, g.object_of, g.objects⟩
      ⟨Function.update A.gs x (State.Owning o env.deleter), A.owner, A.shared⟩ := by
  have hgt := h.good_sh hthis
  rw [hgs] at hgt
  obtain ⟨hobj, -, hx, hgx, hown⟩ := hgt
  have hxt : x ≠ this := by
    intro e
    rw [e, hgs] at hgx
    cases hgx
  have hgxx := h.good_sh hx
  rw [hgx] at hgxx
  obtain ⟨-, -, -, hgx2, -⟩ := hgxx
  rw [hgs] at hgx2
  have hobjx : g.object_of x = o := by
    injection hgx2 with e1 e2
    exact e1.symm
  have hwft := h.wf_sh hthis
  rw [hgs] at hwft
  have hwfx := h.wf_sh hx
  rw [hgx] at hwfx
  refine
    { nodup := h.nodup.erase _
      mem_iff := ?_
      rep := ?_
      own_handle := ?_
      own_unborn := h.own_unborn
      objects_ne := h.objects_ne
      allocs := h.allocs
      shared_nodup := h.shared_nodup
      shared_sub := h.shared_sub
      shared_block := h.shared_block }
  · intro q
    dsimp only
    rw [h.mem_erase_sh]
    by_cases hq : q = this
    · subst hq; simp
    · by_cases hqx : q = x
      · subst hqx
        simp [hq, release_mem_other _ hq, hx]
      · simp [hq, release_mem_other _ hq, wr_mem_other _ _ hqx, h.mem_iff q]
  · intro q hq
    dsimp only at hq ⊢
    obtain ⟨hqt, hq⟩ := h.mem_erase_sh.mp hq
    by_cases hqx : q = x
    · rw [hqx, Function.update_same]
      exact ⟨by rw [release_mem_other _ hxt]; exact wr_mem_self _ _ _, ⟨hwft.1, hwfx.2⟩,
        h.addr_sh hx, hobjx, rfl, hown⟩
    · rw [Function.update_noteq hqx]
      refine ⟨by rw [release_mem_other _ hqt, wr_mem_other _ _ hqx]; exact h.words_sh hq, h.wf_sh hq,
        h.addr_sh hq, ?_⟩
      refine Good_frame (h.good_sh hq) rfl (fun _ => rfl) ?_ ?_ ?_
      · intro o2 r hs
        have hg := h.good_sh hq
        rw [hs] at hg
        have hrt : r ≠ this := by
          intro e
          rw [e] at hs
          exact h.no_link_to_sh hdisc hq o2 hs
        have hrx : r ≠ x := by
          intro e
          have := hg.2.2.2.2.2
          rw [e, hgx] at this
          cases this
        refine ⟨sublist_pair_erase hg.2.2.2.1 hqt hrt, rfl, ?_⟩
        dsimp only
        rw [Function.update_noteq hrx]
        exact id
      · intro o2 y hs
        have hg := h.good_sh hq
        rw [hs] at hg
        have hyx : y ≠ x := by
          intro e
          have := hg.2.2.2.1
          rw [e, hgx] at this
          injection this with e1 e2
          exact hqt e1.symm
        refine ⟨h.mem_erase_sh.mpr ⟨?_, hg.2.2.1⟩, Function.update_noteq hyx _ _⟩
        intro e
        have := hg.2.2.2.1
        rw [e, hgs] at this
        cases this
      · intro s d hs
        have hg := h.good_sh hq
        rw [hs] at hg
        have hsx : s ≠ x := by
          intro e
          have := hg.2.2.2.1
          rw [e, hgx] at this
          cases this
        refine ⟨h.mem_erase_sh.mpr ⟨?_, hg.2.2.1⟩, Function.update_noteq hsx _ _⟩
        intro e
        have := hg.2.2.2.1
        rw [e, hgs] at this
        injection this with e1 e2
        exact hqx e2.symm
  · intro o2 q hown2
    obtain ⟨h1, h2, h3⟩ := h.own_handle o2 q hown2
    have hqt : q ≠ this := by
      intro e
      rw [e, hgs] at h3
      rcases h3 with h3 | ⟨s, h3⟩ <;> cases h3
    refine ⟨h.mem_erase_sh.mpr ⟨hqt, h1⟩, h2, ?_⟩
    dsimp only
    by_cases hqx : q = x
    · rw [hqx, Function.update_same]
      rw [hqx, hobjx] at h2
      exact Or.inl (by rw [h2])
    · rw [Function.update_noteq hqx]
      exact h3

/-- The end of a handle outside the stack that is cross-linked with the stack root `s`:
`s` takes the deleter. -/
theorem Shape.del_cross_heap_sh (h : Shape env w g A) (hthis : this ∈ g.live) {s : Nat}
    (hgs : A.gs this = State.CrossLinkedHeap s env.deleter) :
    Shape env ((w.wr s (State.Owning (g.object_of this) env.deleter).words).release this)
      ⟨g.live.erase this, g.object_of, g.objects⟩
      ⟨Function.update A.gs s (State.Owning (g.object_of this) env.deleter),
        Function.update A.owner (g.object_of this) (Owner.handle s), A.shared⟩ := by
  have hgt := h.good_sh hthis
  rw [hgs] at hgt
  obtain ⟨-, -, hs, hgss, hown⟩ := hgt
  have hst : s ≠ this := by
    intro e
    rw [e, hgs] at hgss
    cases hgss
  have hgs2 := h.good_sh hs
  rw [hgss] at hgs2
  obtain ⟨hobjs, -, -, -, -⟩ := hgs2
  have hwft := h.wf_sh hthis
  rw [hgs] at hwft
  have hwfs := h.wf_sh hs
  rw [hgss] at hwfs
  have huniq : ∀ q ∈ g.live, q ≠ this → q ≠ s →
      ((A.gs q).is_root = true ∨ ∃ s2 d, A.gs q = State.CrossLinkedHeap s2 d) →
      g.object_of q ≠ g.object_of this := by
    intro q hq hqt hqs hroot e
    rcases h.root_cases_sh hq hroot with ⟨-, h2⟩ | ⟨x, h1, h2, h3⟩ | ⟨s2, -, h2⟩ | ⟨b, -, h2⟩
    · rw [e, hown] at h2
      exact hqt (Owner.handle.inj h2).symm
    · rw [e, hown] at h2
      rw [← Owner.handle.inj h2, hgs] at h3
      injection h3 with e1 e2
      exact hqs e1.symm
    · rw [e, hown] at h2
      exact hqt (Owner.handle.inj h2).symm
    · rw [e, hown] at h2
      cases h2
  refine
    { nodup := h.nodup.erase _
      mem_iff := ?_
      rep := ?_
      own_handle := ?_
      own_unborn := ?_
      objects_ne := h.objects_ne
      allocs := h.allocs
      shared_nodup := h.shared_nodup
      shared_sub := ?_
      shared_block := ?_ }
  · intro q
    dsimp only
    rw [h.mem_erase_sh]
    by_cases hq : q = this
    · subst hq; simp
    · by_cases hqx : q = s
      · subst hqx
        simp [hq, release_mem_other _ hq, hs]
      · simp [hq, release_mem_other _ hq, wr_mem_other _ _ hqx, h.mem_iff q]
  · intro q hq
    dsimp only at hq ⊢
    obtain ⟨hqt, hq⟩ := h.mem_erase_sh.mp hq
    by_cases hqs : q = s
    · rw [hqs, Function.update_same]
      exact ⟨by rw [release_mem_other _ hst]; exact wr_mem_self _ _ _, ⟨hwfs.1, hwft.2⟩,
        h.addr_sh hs, hobjs, rfl, by simp⟩
    · rw [Function.update_noteq hqs]
      refine ⟨by rw [release_mem_other _ hqt, wr_mem_other _ _ hqs]; exact h.words_sh hq, h.wf_sh hq,
        h.addr_sh hq, ?_⟩
      refine Good_frame (h.good_sh hq) rfl ?_ ?_ ?_ ?_
      · intro hroot
        exact Function.update_noteq (huniq q hq hqt hqs hroot) _ _
      · intro o2 r hl
        have hg := h.good_sh hq
        rw [hl] at hg
        have hrt : r ≠ this := by
          intro e
          have := hg.2.2.2.2.2
          rw [e, hgs] at this
          cases this
        refine ⟨sublist_pair_erase hg.2.2.2.1 hqt hrt, rfl, ?_⟩
        dsimp only
        by_cases hrs : r = s
        · rw [hrs, Function.update_same]
          intro _
          rfl
        · rw [Function.update_noteq hrs]
          exact id
      · intro o2 y hl
        have hg := h.good_sh hq
        rw [hl] at hg
        have hys : y ≠ s := by
          intro e
          have := hg.2.2.2.1
          rw [e, hgss] at this
          cases this
        refine ⟨h.mem_erase_sh.mpr ⟨?_, hg.2.2.1⟩, Function.update_noteq hys _ _⟩
        intro e
        have := hg.2.2.2.1
        rw [e, hgs] at this
        injection this with e1 e2
        exact hqs e1.symm
      · intro s2 d hl
        have hg := h.good_sh hq
        rw [hl] at hg
        have hss : s2 ≠ s := by
          intro e
          have := hg.2.2.2.1
          rw [e, hgss] at this
          injection this with e1 e2
          exact hqt e2.symm
        refine ⟨h.mem_erase_sh.mpr ⟨?_, hg.2.2.1⟩, Function.update_noteq hss _ _⟩
        intro e
        have := hg.2.2.2.1
        rw [e, hgs] at this
        cases this
  · intro o2 q hown2
    dsimp only at hown2 ⊢
    by_cases ho2 : o2 = g.object_of this
    · rw [ho2, Function.update_same] at hown2
      have hqs := (Owner.handle.inj hown2).symm
      rw [hqs, ho2, Function.update_same]
      exact ⟨h.mem_erase_sh.mpr ⟨hst, hs⟩, hobjs, Or.inl rfl⟩
    · rw [Function.update_noteq ho2] at hown2
      obtain ⟨h1, h2, h3⟩ := h.own_handle o2 q hown2
      have hqt : q ≠ this := by
        intro e
        rw [e] at h2
        exact ho2 h2.symm
      have hqs : q ≠ s := by
        intro e
        rw [e, hobjs] at h2
        exact ho2 h2.symm
      refine ⟨h.mem_erase_sh.mpr ⟨hqt, h1⟩, h2, ?_⟩
      rw [Function.update_noteq hqs]
      exact h3
  · intro o2
    dsimp only
    by_cases ho2 : o2 = g.object_of this
    · rw [ho2, Function.update_same]
      have : g.object_of this ∈ g.objects := by
        by_contra hc
        have := (h.own_unborn _).mpr hc
        rw [hown] at this
        cases this
      simp [this]
    · rw [Function.update_noteq ho2]
      exact h.own_unborn o2
  · intro o2 ho2
    dsimp only
    have : o2 ≠ g.object_of this := by
      intro e
      obtain ⟨b, h1⟩ := h.shared_sub o2 ho2
      rw [e, hown] at h1
      cases h1
    rw [Function.update_noteq this]
    exact h.shared_sub o2 ho2
  · intro o2 b hb
    dsimp only at hb ⊢
    have ho2 : o2 ≠ g.object_of this := by
      intro e
      rw [e, Function.update_same] at hb
      cases hb
    rw [Function.update_noteq ho2] at hb
    exact h.shared_block o2 b hb

end shape_del

end Hybrid

namespace Hybrid

open versatile_ptr

/-! ## Operations on a handle whose block is not allocated any more -/

section freed

variable {env : Env} {w : World} {this other p o o2 a x r b : Nat} {nb : Option Nat}

theorem rd_data_eq_invalid {d : Nat} (hm : w.heap d = none) :
    w.rd_data d = Except.error Fault.invalid := by
  simp [World.rd_data, hm]

/-- The destructor of a handle that refers to a block that is not allocated: the read of
the count is an access to storage that is not alive. -/
theorem dtor_shared_freed (hm : w.mem this = some ⟨o, b⟩) (ho : ObjAddr o) (hb : b ≠ 0)
    (hb2 : Addr62 b) (hblk : w.heap b = none) :
    dtor env w this =
      if is_address_in_cpp_heap env b then Except.error Fault.invalid
      else Except.error Fault.assertion := by
  simp only [dtor, rd_eq_ok hm, ho.bne, ho.is_obj, blk_is_linked_ptr hb2, blk_is_deleter_ptr hb2,
    blk_get_shared_data hb hb2, obj_eq ho, if_true, ok_bind]
  cases h0 : is_address_in_cpp_heap env b <;> simp [rd_data_eq_invalid hblk]

theorem inc_ref_freed (env : Env) (hm : w.mem this = some ⟨x, 0⟩)
    (hother : w.mem other = some ⟨o, b⟩) (hb : b ≠ 0) (hb2 : Addr62 b)
    (hblk : w.heap b = none) :
    inc_ref env w this other =
      if is_address_in_cpp_heap env b then Except.error Fault.invalid
      else Except.error Fault.assertion := by
  simp only [inc_ref, rd_eq_ok hm, rd_eq_ok hother, zero_is_null, blk_is_null hb,
    blk_get_shared_data hb hb2, set_shared_data, wr_ptr_eq hm, ok_bind, Bool.not_false,
    Bool.and_self, check_true, Bool.true_or]
  cases h0 : is_address_in_cpp_heap env b
  · simp
  · simp [rd_data_eq_invalid hblk, blk_get_shared_data hb hb2, h0]

/-- Copy of a handle that refers to a block that is not allocated, when the two handles
are not both in the stack: the copy does not complete. -/
theorem copy_ctor_shared_freed (hm : w.mem other = some ⟨o, b⟩) (ho : ObjAddr o) (hb : b ≠ 0)
    (hb2 : Addr62 b) (hblk : w.heap b = none) (hne : this ≠ other)
    (hs : ¬ (is_address_in_stack env this = true ∧ is_address_in_stack env other = true)) :
    copy_ctor env w this other nb =
      if is_address_in_cpp_heap env b then Except.error Fault.invalid
      else Except.error Fault.assertion := by
  have h1 : ∀ v, (w.wr this v).mem other = some ⟨o, b⟩ := by
    intro v; rw [wr_mem_other _ _ (Ne.symm hne)]; exact hm
  have hinc := inc_ref_freed env (w := w.wr this ⟨o, 0⟩) (wr_mem_self _ _ _) (h1 _) hb hb2
    hblk
  simp only [copy_ctor, rd_eq_ok hm, rd_eq_ok (h1 _), ho.is_obj, ok_bind, if_true,
    blk_is_deleter_ptr hb2, blk_is_shared_data hb hb2, wr_rd_self, zero_is_null, hinc,
    wr_wr_data, wr_wr_self, Bool.false_eq_true, if_false, pure_eq]
  cases h3 : is_address_in_stack env this <;> cases h4 : is_address_in_stack env other <;>
    simp_all

/-- Copy, into a handle outside the stack, of a handle linked to a stack root `r` (found
under condition `C`) that refers to a block that is not allocated: the copy does not
complete. -/
theorem copy_ctor_join_freed (hm : w.mem other = some ⟨o, a⟩) (ho : ObjAddr o)
    (ha : is_shared_data a = false)
    (hroot : w.mem r = some ⟨o2, b⟩) (hb : b ≠ 0) (hb2 : Addr62 b)
    (hblk : w.heap b = none)
    (hne : this ≠ other) (hne2 : this ≠ r)
    (hs1 : is_address_in_stack env this = false) (C : Bool)
    (hgr : get_global_root_ptr env (w.wr this ⟨o, 0⟩) other =
      if C then Except.ok r else Except.error Fault.assertion) :
    copy_ctor env w this other nb =
      if C && is_address_in_cpp_heap env b then Except.error Fault.invalid
      else Except.error Fault.assertion := by
  have h1 : ∀ v, (w.wr this v).mem other = some ⟨o, a⟩ := by
    intro v; rw [wr_mem_other _ _ (Ne.symm hne)]; exact hm
  have h1r : ∀ v, (w.wr this v).mem r = some ⟨o2, b⟩ := by
    intro v; rw [wr_mem_other _ _ (Ne.symm hne2)]; exact hroot
  have hinc := inc_ref_freed env (w := w.wr this ⟨o, 0⟩) (wr_mem_self _ _ _) (h1r _) hb hb2
    hblk
  simp only [copy_ctor, rd_eq_ok hm, rd_eq_ok (h1 _), ho.is_obj, hs1, ok_bind, if_true,
    wr_rd_self, zero_is_null, ha, hgr, Bool.false_eq_true, if_false, pure_eq]
  cases C
  · simp
  · simp only [if_true, ok_bind, rd_eq_ok (h1r _), blk_is_shared_data hb hb2, hinc,
      Bool.not_true, Bool.false_eq_true, if_false, Bool.true_and, wr_wr_data, wr_wr_self]

theorem not_ok_of_ite {c : Prop} [Decidable c] {e1 e2 : Fault} {w' : World}
    (h : (if c then Except.error e1 else Except.error e2) = (Except.ok w' : Res World)) :
    False := by
  by_cases hc : c
  · rw [if_pos hc] at h
    cases h
  · rw [if_neg hc] at h
    cases h

end freed

end Hybrid

namespace Hybrid

open versatile_ptr

/-! ## Every operation keeps the shape of the handles: `construct` and `destruct` -/

section shape_step

variable {env : Env} {w w' w1 : World} {g : Ghost} {A : Abs} {this p : Nat}

/-- A destructor that completes was run on a live handle. -/
theorem Shape.live_of_dtor_sh (h : Shape env w g A) (hd : dtor env w this = Except.ok w1) :
    this ∈ g.live := by
  by_contra hc
  have hm : w.mem this = none := by
    by_contra hne
    exact hc ((h.mem_iff this).mpr hne)
  rw [dtor_invalid hm] at hd
  cases hd

/-- A copy that completes was made from a live handle. -/
theorem Shape.live_of_copy_sh (h : Shape env w g A) {other : Nat} {nb : Option Nat}
    (hc : copy_ctor env w this other nb = Except.ok w1) : other ∈ g.live := by
  by_contra hn
  have hm : w.mem other = none := by
    by_contra hne
    exact hn ((h.mem_iff other).mpr hne)
  rw [copy_ctor_invalid hm] at hc
  cases hc

theorem construct_shape (hdel : Addr62 env.deleter) (h : Shape env w g A) {t : Nat}
    (hwf : (Op.construct this t).well_formed g)
    (hstep : step env w (Op.construct this t) = Except.ok w') :
    ShapeKept env g A (Op.construct this t) w' := by
  have hfree : w.mem this = none := by
    cases hm : w.mem this with
    | none => rfl
    | some x =>
      simp only [step, hm, Option.isSome_some, if_true] at hstep
      cases hstep
  simp only [step, hfree, Option.isSome_none, Bool.false_eq_true, if_false] at hstep
  obtain ⟨haddr, ht⟩ := hwf
  by_cases h0 : t = 0
  · subst h0
    rw [ctor_null] at hstep
    cases hstep
    refine ⟨⟨Function.update A.gs this State.Null, A.owner, A.shared⟩, ?_, Or.inl rfl⟩
    have := h.add_plain_sh hfree haddr State.Null trivial 0 (by simp [Good])
    simpa [Op.ghost] using this
  · have hto : ObjAddr t ∧ t ∉ g.objects := by
      rcases ht with e | ht
      · exact absurd e h0
      · exact ht
    rw [ctor_obj hto.1 hdel] at hstep
    cases hstep
    refine ⟨⟨Function.update A.gs this (State.Owning t env.deleter),
      Function.update A.owner t (Owner.handle this), A.shared⟩, ?_, Or.inl rfl⟩
    have := h.add_owner_sh hfree haddr hdel hto.1 hto.2
    simpa [Op.ghost, h0] using this

theorem destruct_shape (h : Shape env w g A)
    (hd : (Op.destruct this).disciplined env g)
    (hstep : step env w (Op.destruct this) = Except.ok w') :
    ShapeKept env g A (Op.destruct this) w' := by
  obtain ⟨w1, hdt, rfl⟩ := step_destruct_ok hstep
  have hlive := h.live_of_dtor_sh hdt
  have hm := h.words_sh hlive
  have hwf := h.wf_sh hlive
  have hg := h.good_sh hlive
  have hdisc : is_address_in_stack env this = true →
      ∀ q ∈ g.live.takeWhile (fun a => a != this), is_address_in_stack env q = false := hd
  cases hs : A.gs this with
  | Null =>
    rw [hs] at hm
    rw [dtor_null hm] at hdt
    cases hdt
    exact ⟨A, h.del_plain_sh hlive hdisc (by rw [hs]; intro o d e; cases e)
      (by rw [hs]; intro o x e; cases e) (by rw [hs]; intro s d e; cases e), Or.inl rfl⟩
  | Owning o d =>
    rw [hs] at hm hwf hg
    obtain ⟨-, hde, -⟩ := hg
    subst hde
    rw [dtor_owning hm hwf.1 hwf.2] at hdt
    obtain ⟨-, rfl⟩ := ok_of_ite hdt
    rw [wr_release]
    exact ⟨_, (h.del_owner_sh hlive hs hdisc).of_eq rfl rfl, Or.inl rfl⟩
  | LinkedToStack o r =>
    rw [hs] at hm hwf hg
    obtain ⟨-, -, -, hsub, -, hroot⟩ := hg
    have hr : r ∈ g.live := hsub.subset (by simp)
    obtain ⟨o2, a2, hw2, ho2⟩ := root_words hroot (h.wf_sh hr)
    have hmr := h.words_sh hr
    rw [hw2] at hmr
    rw [dtor_linked hm hwf.1 hwf.2 hmr ho2] at hdt
    obtain ⟨-, rfl⟩ := ok_of_ite hdt
    rw [wr_release]
    exact ⟨A, h.del_plain_sh hlive hdisc (by rw [hs]; intro o d e; cases e)
      (by rw [hs]; intro o x e; cases e) (by rw [hs]; intro s d e; cases e), Or.inl rfl⟩
  | CrossLinkedStack o x =>
    rw [hs] at hm hwf hg
    obtain ⟨-, hres, hx, hgx, -⟩ := hg
    have hmx := h.words_sh hx
    have hwfx := h.wf_sh hx
    rw [hgx] at hmx hwfx
    have hne : x ≠ this := by
      intro e
      rw [e, hs] at hgx
      cases hgx
    rw [dtor_cross_stack hm hwf.1 hwf.2 hmx hwfx.1 hne] at hdt
    obtain ⟨-, rfl⟩ := ok_of_ite hdt
    rw [wr_release]
    exact ⟨_, h.del_cross_stack_sh hlive hs hdisc, Or.inl rfl⟩
  | CrossLinkedHeap s d =>
    rw [hs] at hm hwf hg
    obtain ⟨hde, -, hsl, hgss, -⟩ := hg
    subst hde
    have hms := h.words_sh hsl
    have hwfs := h.wf_sh hsl
    rw [hgss] at hms hwfs
    have hne : s ≠ this := by
      intro e
      rw [e, hs] at hgss
      cases hgss
    rw [dtor_cross_heap hm hwf.1 hwf.2 (h.addr_sh hlive) hms hwfs.1 hne] at hdt
    obtain ⟨-, rfl⟩ := ok_of_ite hdt
    rw [wr_release]
    exact ⟨_, h.del_cross_heap_sh hlive hs, Or.inl rfl⟩
  | SharedCounted o b =>
    rw [hs] at hm hwf hg
    have hkeep := h.del_plain_sh hlive hdisc (by rw [hs]; intro o d e; cases e)
      (by rw [hs]; intro o x e; cases e) (by rw [hs]; intro s d e; cases e)
    cases hh : w.heap b with
    | none =>
      rw [dtor_shared_freed hm hwf.1 hwf.2.1 hwf.2.2 hh] at hdt
      exact (not_ok_of_ite hdt).elim
    | some data =>
      obtain ⟨c, dl⟩ := data
      rw [dtor_shared hm hwf.1 hwf.2.1 hwf.2.2 hh] at hdt
      obtain ⟨-, hdt⟩ := of_ite hdt
      by_cases h1 : pre_decrement c = 0
      · rw [if_pos h1] at hdt
        obtain ⟨-, rfl⟩ := ok_of_ite hdt
        rw [wr_release]
        exact ⟨A, hkeep.of_eq rfl rfl, Or.inl rfl⟩
      · rw [if_neg h1] at hdt
        cases hdt
        rw [wr_release]
        exact ⟨A, hkeep.of_eq rfl rfl, Or.inl rfl⟩

end shape_step

end Hybrid

namespace Hybrid

open versatile_ptr

/-! ## Every operation keeps the shape of the handles: `copy_construct` -/

section shape_copy

variable {env : Env} {w w' : World} {g : Ghost} {A : Abs} {this other : Nat} {nb : Option Nat}

/-- The new handle is linked to the stack root `r`. -/
theorem copy_link_kept_sh (h : Shape env w g A) (hfree : w.mem this = none) (haddr : Addr62 this)
    {o r : Nat} (ho : ObjAddr o) (hobj : g.object_of other = o)
    (hres : stack_resident env this) (hinr : is_address_in_stack env r = true)
    (hr : r ∈ g.live) (hro : g.object_of r = o) (hroot : (A.gs r).is_root = true) :
    ShapeKept env g A (Op.copy_construct this other nb) (w.wr this ⟨o, r ||| IsLinkedPtr⟩) := by
  have hrt : r ≠ this := fun e => h.not_live_sh hfree (e ▸ hr)
  refine ⟨⟨Function.update A.gs this (State.LinkedToStack o r), A.owner, A.shared⟩, ?_,
    Or.inl rfl⟩
  have := h.add_plain_sh hfree haddr (State.LinkedToStack o r) ⟨ho, h.addr_sh hr⟩
    (g.object_of other)
    (by
      refine ⟨?_, hres, hinr, sublist_pair_new hr, ?_, ?_⟩
      · simp [hobj]
      · simp [Function.update_noteq hrt, hro]
      · simp [Function.update_noteq hrt, hroot])
  exact this

/-- The new handle joins the block `b` of the object, whatever the block stores. -/
theorem copy_join_kept_sh (h : Shape env w g A) (hfree : w.mem this = none)
    (haddr : Addr62 this) {o b c dl : Nat} (ho : ObjAddr o) (hb0 : b ≠ 0) (hb62 : Addr62 b)
    (hobj : g.object_of other = o) (hown : A.owner o = Owner.block b) :
    ShapeKept env g A (Op.copy_construct this other nb)
      ((w.wr_data b ⟨c, dl⟩).wr this ⟨o, b⟩) := by
  refine ⟨⟨Function.update A.gs this (State.SharedCounted o b), A.owner, A.shared⟩, ?_,
    Or.inl rfl⟩
  have h2 : Shape env (w.wr_data b ⟨c, dl⟩) g A := h.of_eq rfl rfl
  have := h2.add_plain_sh hfree haddr (State.SharedCounted o b) ⟨ho, hb0, hb62⟩
    (g.object_of other) (by simp [Good, hobj, hown])
  exact this

/-- The root `r` and the new handle, which is not in the stack, share a new block. -/
theorem copy_create_kept_sh (h : Shape env w g A) (hfree : w.mem this = none)
    (haddr : Addr62 this) (hthis : is_address_in_stack env this = false)
    {o r data : Nat} (hobj : g.object_of other = o) (hr : r ∈ g.live)
    (hgs : A.gs r = State.Owning o env.deleter) (hd0 : data ≠ 0) (hd62 : Addr62 data) :
    ShapeKept env g A (Op.copy_construct this other nb)
      ((((w.new_shared_data data env.deleter).wr_data data ⟨2, env.deleter⟩).wr r
        ⟨o, data⟩).wr this ⟨o, data⟩) := by
  refine ⟨⟨Function.update (Function.update A.gs r (State.SharedCounted o data)) this
    (State.SharedCounted o data), Function.update A.owner o (Owner.block data),
    o :: A.shared⟩, ?_, Or.inr ⟨this, other, nb, rfl, hthis, by rw [hobj]⟩⟩
  have := h.add_create_sh hfree haddr hr hgs hd0 hd62
  rw [← hobj] at this ⊢
  exact this

theorem copy_shape_null (h : Shape env w g A) (hfree : w.mem this = none) (haddr : Addr62 this)
    (hother : other ∈ g.live) (hs : A.gs other = State.Null)
    (hc : copy_ctor env w this other nb = Except.ok w') :
    ShapeKept env g A (Op.copy_construct this other nb) w' := by
  have hne : this ≠ other := fun e => h.not_live_sh hfree (e ▸ hother)
  have hm := h.words_sh hother
  have hg := h.good_sh hother
  rw [hs] at hm hg
  rw [copy_ctor_null hm hne] at hc
  obtain ⟨-, rfl⟩ := ok_of_ite hc
  refine ⟨⟨Function.update A.gs this State.Null, A.owner, A.shared⟩, ?_, Or.inl rfl⟩
  have hg0 : g.object_of other = 0 := hg
  have := h.add_plain_sh hfree haddr State.Null trivial (g.object_of other)
    (by simp [Good, hg0])
  exact this

theorem copy_shape_owning (h : Shape env w g A) (hfree : w.mem this = none) (haddr : Addr62 this)
    (hnb : ∀ d, nb = some d → Addr62 d)
    (hother : other ∈ g.live) {o d : Nat} (hs : A.gs other = State.Owning o d)
    (hc : copy_ctor env w this other nb = Except.ok w') :
    ShapeKept env g A (Op.copy_construct this other nb) w' := by
  have hne : this ≠ other := fun e => h.not_live_sh hfree (e ▸ hother)
  have hm := h.words_sh hother
  have hwf := h.wf_sh hother
  have hg := h.good_sh hother
  rw [hs] at hm hwf hg
  obtain ⟨hobj, hde, hown⟩ := hg
  subst hde
  cases h1 : is_address_in_stack env this with
  | true =>
    cases h2 : is_address_in_stack env other with
    | true =>
      have hroot : get_stack_root_ptr env w other = _ := get_stack_root_ptr_del hm hwf.2
      rw [copy_ctor_stack_stack hm hwf.1 hne (h.addr_sh hother) _ hroot h1 h2] at hc
      obtain ⟨hcond, rfl⟩ := ok_of_ite hc
      obtain ⟨c1, -, -⟩ := and3_true hcond
      exact copy_link_kept_sh h hfree haddr hwf.1 hobj ⟨h1, c1⟩ h2 hother hobj
        (by rw [hs]; rfl)
    | false =>
      rw [copy_ctor_cross_link hm hwf.1 hwf.2 hne (h.addr_sh hother) h1 h2] at hc
      obtain ⟨hcond, rfl⟩ := ok_of_ite hc
      simp only [Bool.and_eq_true] at hcond
      exact ⟨_, h.add_cross_sh hfree haddr ⟨h1, hcond.2⟩ hother hs h2, Or.inl rfl⟩
  | false =>
    cases h2 : is_address_in_stack env other with
    | true =>
      have h1m : (w.wr this ⟨o, 0⟩).mem other = some ⟨o, env.deleter ||| IsDeleterPtr⟩ := by
        rw [wr_mem_other _ _ (Ne.symm hne)]; exact hm
      have hgr : get_global_root_ptr env (w.wr this ⟨o, 0⟩) other = _ :=
        get_global_root_ptr_del h1m hwf.2
      rw [copy_ctor_create hm hwf.1 (del_is_shared_data hwf.2) hm hwf.1 hwf.2 hne hne hnb h1 _
        hgr] at hc
      obtain ⟨-, hc⟩ := of_ite hc
      cases nb with
      | none => cases hc
      | some data =>
        dsimp only at hc
        obtain ⟨hcond, rfl⟩ := ok_of_ite hc
        simp only [Bool.and_eq_true, bne_iff_ne, ne_eq] at hcond
        exact copy_create_kept_sh h hfree haddr h1 hobj hother hs hcond.1 (hnb data rfl)
    | false =>
      rw [copy_ctor_owner_off_stack hm hwf.1 hwf.2 hne h1 h2] at hc
      cases hc

theorem copy_shape_linked (h : Shape env w g A) (hfree : w.mem this = none)
    (haddr : Addr62 this) (hnb : ∀ d, nb = some d → Addr62 d)
    (hother : other ∈ g.live) {o r : Nat} (hs : A.gs other = State.LinkedToStack o r)
    (hc : copy_ctor env w this other nb = Except.ok w') :
    ShapeKept env g A (Op.copy_construct this other nb) w' := by
  have hne : this ≠ other := fun e => h.not_live_sh hfree (e ▸ hother)
  have hm := h.words_sh hother
  have hwf := h.wf_sh hother
  have hg := h.good_sh hother
  rw [hs] at hm hwf hg
  obtain ⟨hobj, hres, hinr, hsub, hro, hroot⟩ := hg
  have hr : r ∈ g.live := hsub.subset (by simp)
  have hne2 : this ≠ r := fun e => h.not_live_sh hfree (e ▸ hr)
  have hro2 : r ≠ other := Ne.symm (sublist_pair_ne hsub h.nodup)
  cases h1 : is_address_in_stack env this with
  | true =>
    have hrt : get_stack_root_ptr env w other = _ := get_stack_root_ptr_linked hm hwf.2
    rw [copy_ctor_stack_stack hm hwf.1 hne hwf.2 _ hrt h1 hres.1] at hc
    obtain ⟨hcond, rfl⟩ := ok_of_ite hc
    obtain ⟨c1, -, -⟩ := and3_true hcond
    exact copy_link_kept_sh h hfree haddr hwf.1 hobj ⟨h1, c1⟩ hinr hr hro hroot
  | false =>
    have h1m : (w.wr this ⟨o, 0⟩).mem other = some ⟨o, r ||| IsLinkedPtr⟩ := by
      rw [wr_mem_other _ _ (Ne.symm hne)]; exact hm
    have hmr := h.words_sh hr
    have hwfr := h.wf_sh hr
    have hgr := h.good_sh hr
    cases hsr : A.gs r with
    | Null => rw [hsr] at hroot; cases hroot
    | LinkedToStack o2 r2 => rw [hsr] at hroot; cases hroot
    | CrossLinkedHeap s2 d2 => rw [hsr] at hroot; cases hroot
    | Owning o2 d2 =>
      rw [hsr] at hmr hwfr hgr
      obtain ⟨hobj2, hde, -⟩ := hgr
      subst hde
      have ho2 : o2 = o := by rw [← hobj2, hro]
      subst ho2
      have h1r : (w.wr this ⟨o2, 0⟩).mem r = some ⟨o2, env.deleter ||| IsDeleterPtr⟩ := by
        rw [wr_mem_other _ _ (Ne.symm hne2)]; exact hmr
      have hgp : get_global_root_ptr env (w.wr this ⟨o2, 0⟩) other = _ :=
        get_global_root_ptr_linked_del h1m hwf.2 h1r hwfr.2 hro2
      rw [copy_ctor_create hm hwf.1 (link_is_shared_data hwf.2) hmr hwfr.1 hwfr.2 hne hne2 hnb h1
        _ hgp] at hc
      obtain ⟨-, hc⟩ := of_ite hc
      cases nb with
      | none => cases hc
      | some data =>
        dsimp only at hc
        obtain ⟨hcond, rfl⟩ := ok_of_ite hc
        simp only [Bool.and_eq_true, bne_iff_ne, ne_eq] at hcond
        exact copy_create_kept_sh h hfree haddr h1 hobj hr hsr hcond.1 (hnb data rfl)
    | CrossLinkedStack o2 x =>
      rw [hsr] at hmr hwfr hgr
      obtain ⟨hobj2, -, hx, hgx, -⟩ := hgr
      have ho2 : o2 = o := by rw [← hobj2, hro]
      subst ho2
      have hmx := h.words_sh hx
      have hwfx := h.wf_sh hx
      rw [hgx] at hmx hwfx
      have hnex : this ≠ x := fun e => h.not_live_sh hfree (e ▸ hx)
      have h1r : (w.wr this ⟨o2, 0⟩).mem r =
          some ⟨o2, x ||| IsLinkedPtr ||| IsDeleterPtr⟩ := by
        rw [wr_mem_other _ _ (Ne.symm hne2)]; exact hmr
      have hgp : get_global_root_ptr env (w.wr this ⟨o2, 0⟩) other = _ :=
        get_global_root_ptr_linked_cross h1m hwf.2 h1r hwfr.2
      rw [copy_ctor_root_cross_heap hm hwf.1 (link_is_shared_data hwf.2) hmx hwfx.1 hwfx.2 hne
        hnex h1 _ hgp] at hc
      cases hc
    | SharedCounted o2 b =>
      rw [hsr] at hmr hwfr hgr
      obtain ⟨hobj2, hown⟩ := hgr
      have ho2 : o2 = o := by rw [← hobj2, hro]
      subst ho2
      have h1r : (w.wr this ⟨o2, 0⟩).mem r = some ⟨o2, b⟩ := by
        rw [wr_mem_other _ _ (Ne.symm hne2)]; exact hmr
      have hgp : get_global_root_ptr env (w.wr this ⟨o2, 0⟩) other = _ :=
        get_global_root_ptr_linked_blk h1m hwf.2 h1r hwfr.2.2 hro2
      cases hh : w.heap b with
      | none =>
        rw [copy_ctor_join_freed hm hwf.1 (link_is_shared_data hwf.2) hmr hwfr.2.1 hwfr.2.2 hh
          hne hne2 h1 _ hgp] at hc
        exact (not_ok_of_ite hc).elim
      | some data =>
        obtain ⟨c, dl⟩ := data
        rw [copy_ctor_join hm hwf.1 (link_is_shared_data hwf.2) hmr hwfr.2.1 hwfr.2.2 hh hne
          hne2 h1 _ hgp] at hc
        obtain ⟨-, rfl⟩ := ok_of_ite hc
        exact copy_join_kept_sh h hfree haddr hwf.1 hwfr.2.1 hwfr.2.2 hobj hown

theorem copy_shape_cross_stack (h : Shape env w g A) (hfree : w.mem this = none)
    (haddr : Addr62 this) (hother : other ∈ g.live) {o x : Nat}
    (hs : A.gs other = State.CrossLinkedStack o x)
    (hc : copy_ctor env w this other nb = Except.ok w') :
    ShapeKept env g A (Op.copy_construct this other nb) w' := by
  have hne : this ≠ other := fun e => h.not_live_sh hfree (e ▸ hother)
  have hm := h.words_sh hother
  have hwf := h.wf_sh hother
  have hg := h.good_sh hother
  rw [hs] at hm hwf hg
  obtain ⟨hobj, hres, hx, hgx, -⟩ := hg
  cases h1 : is_address_in_stack env this with
  | true =>
    have hrt : get_stack_root_ptr env w other = _ := get_stack_root_ptr_cross hm hwf.2
    rw [copy_ctor_stack_stack hm hwf.1 hne (h.addr_sh hother) _ hrt h1 hres.1] at hc
    obtain ⟨hcond, rfl⟩ := ok_of_ite hc
    obtain ⟨c1, -, -⟩ := and3_true hcond
    exact copy_link_kept_sh h hfree haddr hwf.1 hobj ⟨h1, c1⟩ hres.1 hother hobj
      (by rw [hs]; rfl)
  | false =>
    have h1m : (w.wr this ⟨o, 0⟩).mem other =
        some ⟨o, x ||| IsLinkedPtr ||| IsDeleterPtr⟩ := by
      rw [wr_mem_other _ _ (Ne.symm hne)]; exact hm
    have hmx := h.words_sh hx
    have hwfx := h.wf_sh hx
    rw [hgx] at hmx hwfx
    have hnex : this ≠ x := fun e => h.not_live_sh hfree (e ▸ hx)
    have hgp : get_global_root_ptr env (w.wr this ⟨o, 0⟩) other = _ :=
      get_global_root_ptr_cross h1m hwf.2
    rw [copy_ctor_root_cross_heap hm hwf.1 (cross_is_shared_data hwf.2) hmx hwfx.1 hwfx.2 hne
      hnex h1 _ hgp] at hc
    cases hc

theorem copy_shape_cross_heap (h : Shape env w g A) (hfree : w.mem this = none)
    (haddr : Addr62 this) (hnb : ∀ d, nb = some d → Addr62 d)
    (hother : other ∈ g.live) {s d : Nat}
    (hs : A.gs other = State.CrossLinkedHeap s d)
    (hc : copy_ctor env w this other nb = Except.ok w') :
    ShapeKept env g A (Op.copy_construct this other nb) w' := by
  have hne : this ≠ other := fun e => h.not_live_sh hfree (e ▸ hother)
  have hm := h.words_sh hother
  have hwf := h.wf_sh hother
  have hg := h.good_sh hother
  rw [hs] at hm hwf hg
  obtain ⟨-, -, hsl, hgss, -⟩ := hg
  have hms := h.words_sh hsl
  have hwfs := h.wf_sh hsl
  have hgs := h.good_sh hsl
  rw [hgss] at hms hwfs hgs
  obtain ⟨hobjs, hress, -, -, -⟩ := hgs
  have hnes : this ≠ s := fun e => h.not_live_sh hfree (e ▸ hsl)
  cases h1 : is_address_in_stack env this with
  | true =>
    rw [copy_ctor_cross_heap_stack hm hwf.1 hms hwfs.1 (h.addr_sh hother) hne hnes h1] at hc
    obtain ⟨hcond, rfl⟩ := ok_of_ite hc
    obtain ⟨-, -, -, -, -, c6, -⟩ := and7_true hcond
    exact copy_link_kept_sh h hfree haddr hwfs.1 rfl ⟨h1, c6⟩ hress.1 hsl hobjs
      (by rw [hgss]; rfl)
  | false =>
    rw [copy_ctor_cross_heap_off_stack hm hwf.1 hwf.2 hms hwfs.1 (h.addr_sh hother) hne hnes hnb
      h1] at hc
    obtain ⟨-, hc⟩ := of_ite hc
    cases nb with
    | none => cases hc
    | some data => cases hc

theorem copy_shape_shared (h : Shape env w g A) (hfree : w.mem this = none)
    (haddr : Addr62 this) (hother : other ∈ g.live) {o b : Nat}
    (hs : A.gs other = State.SharedCounted o b)
    (hc : copy_ctor env w this other nb = Except.ok w') :
    ShapeKept env g A (Op.copy_construct this other nb) w' := by
  have hne : this ≠ other := fun e => h.not_live_sh hfree (e ▸ hother)
  have hm := h.words_sh hother
  have hwf := h.wf_sh hother
  have hg := h.good_sh hother
  rw [hs] at hm hwf hg
  obtain ⟨hobj, hown⟩ := hg
  by_cases hss : is_address_in_stack env this = true ∧ is_address_in_stack env other = true
  · have hrt : get_stack_root_ptr env w other = _ :=
      get_stack_root_ptr_blk hm hwf.2.1 hwf.2.2
    rw [copy_ctor_stack_stack hm hwf.1 hne (h.addr_sh hother) _ hrt hss.1 hss.2] at hc
    obtain ⟨hcond, rfl⟩ := ok_of_ite hc
    obtain ⟨c1, -, -⟩ := and3_true hcond
    exact copy_link_kept_sh h hfree haddr hwf.1 hobj ⟨hss.1, c1⟩ hss.2 hother hobj
      (by rw [hs]; rfl)
  · cases hh : w.heap b with
    | none =>
      rw [copy_ctor_shared_freed hm hwf.1 hwf.2.1 hwf.2.2 hh hne hss] at hc
      exact (not_ok_of_ite hc).elim
    | some data =>
      obtain ⟨c, dl⟩ := data
      rw [copy_ctor_shared hm hwf.1 hwf.2.1 hwf.2.2 hh hne hss] at hc
      obtain ⟨-, rfl⟩ := ok_of_ite hc
      exact copy_join_kept_sh h hfree haddr hwf.1 hwf.2.1 hwf.2.2 hobj hown

/-- A copy that completes keeps the shape of the handles. -/
theorem copy_shape (h : Shape env w g A)
    (hwfop : (Op.copy_construct this other nb).well_formed g)
    (hstep : step env w (Op.copy_construct this other nb) = Except.ok w') :
    ShapeKept env g A (Op.copy_construct this other nb) w' := by
  obtain ⟨haddr, hnb⟩ := hwfop
  obtain ⟨hfree, -, hc⟩ := step_copy_ok hstep
  have hother := h.live_of_copy_sh hc
  cases hs : A.gs other with
  | Null => exact copy_shape_null h hfree haddr hother hs hc
  | Owning o d => exact copy_shape_owning h hfree haddr hnb hother hs hc
  | LinkedToStack o r => exact copy_shape_linked h hfree haddr hnb hother hs hc
  | CrossLinkedStack o x => exact copy_shape_cross_stack h hfree haddr hother hs hc
  | CrossLinkedHeap s d => exact copy_shape_cross_heap h hfree haddr hnb hother hs hc
  | SharedCounted o b => exact copy_shape_shared h hfree haddr hother hs hc

/-- Every operation that completes keeps the shape of the handles, whatever the blocks
store. -/
theorem step_shape (hdel : Addr62 env.deleter) (h : Shape env w g A)
    (op : Op) (hd : op.disciplined env g) (hwf : op.well_formed g)
    (hstep : step env w op = Except.ok w') : ShapeKept env g A op w' := by
  cases op with
  | construct this t => exact construct_shape hdel h hwf hstep
  | copy_construct this other nb => exact copy_shape h hwf hstep
  | destruct this => exact destruct_shape h hd hstep

end shape_copy

end Hybrid

namespace Hybrid

open versatile_ptr

/-! ## Runs keep the shape of the handles -/

section shape_run

variable {env : Env} {w w' : World} {g : Ghost} {A : Abs} {p t : Nat}

/-- The handles have the required shape before anything is created. -/
theorem Shape.init_sh (env : Env) :
    Shape env World.empty Ghost.init ⟨fun _ => State.Null, fun _ => Owner.unborn, []⟩ where
  nodup := List.nodup_nil
  mem_iff := by intro p; simp [Ghost.init, World.empty]
  rep := by intro p hp; simp [Ghost.init] at hp
  own_handle := by intro o p h; cases h
  own_unborn := by intro o; simp [Ghost.init]
  objects_ne := by simp [Ghost.init]
  allocs := by simp [World.empty]
  shared_nodup := List.nodup_nil
  shared_sub := by intro o ho; simp at ho
  shared_block := by intro o b h; cases h

/-- A run under scope discipline keeps the shape of the handles, whatever the number of
handles alive. -/
theorem run_shape (hdel : Addr62 env.deleter) :
    ∀ (ops : List Op) (w : World) (g : Ghost) (A : Abs), Shape env w g A →
      program_ok env g ops →
      ∀ w', run env w ops = Except.ok w' → ∃ A', Shape env w' (ghost_after g ops) A' := by
  intro ops
  induction ops with
  | nil =>
    intro w g A h _ w' hr
    cases hr
    exact ⟨A, h⟩
  | cons op ops ih =>
    intro w g A h hp w' hr
    obtain ⟨w1, hs, hr1⟩ := run_cons_ok hr
    obtain ⟨hd, hwf, hp1⟩ := hp
    obtain ⟨A1, h1, -⟩ := step_shape hdel h op hd hwf hs
    exact ih w1 (op.ghost g) A1 h1 hp1 w' hr1

/-- A live handle whose second word is a block address is in `SharedCounted` state. -/
theorem Shape.shared_state_sh (h : Shape env w g A) (hp : p ∈ g.live) {o b : Nat}
    (hm : w.mem p = some ⟨o, b⟩) (hb : is_shared_data b = true) :
    A.gs p = State.SharedCounted o b := by
  have hw := h.words_sh hp
  have hwf := h.wf_sh hp
  rw [hm] at hw
  have hw2 : (A.gs p).words = ⟨o, b⟩ := (Option.some.inj hw).symm
  cases hs : A.gs p with
  | Null =>
    rw [hs] at hw2
    injection hw2 with e1 e2
    rw [← e2] at hb
    cases hb
  | Owning o2 d =>
    rw [hs] at hw2 hwf
    injection hw2 with e1 e2
    rw [← e2, del_is_shared_data hwf.2] at hb
    cases hb
  | LinkedToStack o2 r =>
    rw [hs] at hw2 hwf
    injection hw2 with e1 e2
    rw [← e2, link_is_shared_data hwf.2] at hb
    cases hb
  | CrossLinkedStack o2 x =>
    rw [hs] at hw2 hwf
    injection hw2 with e1 e2
    rw [← e2, cross_is_shared_data hwf.2] at hb
    cases hb
  | CrossLinkedHeap s d =>
    rw [hs] at hw2 hwf
    injection hw2 with e1 e2
    rw [← e2, del_is_shared_data hwf.2] at hb
    cases hb
  | SharedCounted o2 b2 =>
    rw [hs] at hw2
    injection hw2 with e1 e2
    rw [e1, e2]

/-- Whatever the blocks store, `operator->` on a live handle made for an object yields
that object. -/
theorem Shape.arrow_sh (h : Shape env w g A) (hp : p ∈ g.live) (ho : g.object_of p ≠ 0)
    (hheap : is_address_in_cpp_heap env (g.object_of p) = true) :
    arrow env w p = Except.ok (g.object_of p) := by
  have hm := h.words_sh hp
  have hwf := h.wf_sh hp
  have hg := h.good_sh hp
  cases hs : A.gs p with
  | Null =>
    rw [hs] at hg
    exact absurd hg ho
  | Owning o d =>
    rw [hs] at hm hwf hg
    rw [hg.1] at hheap ⊢
    rw [arrow_obj hm hwf.1, hheap, if_pos rfl]
  | LinkedToStack o r =>
    rw [hs] at hm hwf hg
    rw [hg.1] at hheap ⊢
    rw [arrow_obj hm hwf.1, hheap, if_pos rfl]
  | CrossLinkedStack o x =>
    rw [hs] at hm hwf hg
    rw [hg.1] at hheap ⊢
    rw [arrow_obj hm hwf.1, hheap, if_pos rfl]
  | SharedCounted o b =>
    rw [hs] at hm hwf hg
    rw [hg.1] at hheap ⊢
    rw [arrow_obj hm hwf.1, hheap, if_pos rfl]
  | CrossLinkedHeap s d =>
    rw [hs] at hm hwf hg
    obtain ⟨-, hoff, hsl, hgss, -⟩ := hg
    have hms := h.words_sh hsl
    have hwfs := h.wf_sh hsl
    have hgs := h.good_sh hsl
    rw [hgss] at hms hwfs hgs
    rw [arrow_cross_heap hm hwf.1 hms (h.addr_sh hp) hwfs.1]
    simp [hoff, hgs.2.1.1, hgs.2.1.2, hheap]

/-- In a run under scope discipline at most one operation made for the object `t`
allocates a block, and none when `t` has been given a block before. -/
theorem blocks_allocated_le (hdel : Addr62 env.deleter) (t : Nat) :
    ∀ (ops : List Op) (w : World) (g : Ghost) (A : Abs), Shape env w g A →
      program_ok env g ops →
      blocks_allocated env t w g ops + (if t ∈ A.shared then 1 else 0) ≤ 1 := by
  intro ops
  induction ops with
  | nil =>
    intro w g A _ _
    simp only [blocks_allocated]
    split <;> omega
  | cons op ops ih =>
    intro w g A h hp
    obtain ⟨hd, hwf, hp1⟩ := hp
    cases hs : step env w op with
    | error e =>
      simp only [blocks_allocated, hs]
      split <;> omega
    | ok w1 =>
      simp only [blocks_allocated, hs]
      obtain ⟨A1, h1, hrel⟩ := step_shape hdel h op hd hwf hs
      have ih1 := ih w1 (op.ghost g) A1 h1 hp1
      rcases hrel with e | ⟨this, other, nb, eop, -, e⟩
      · have htot : w1.total_nb_allocs = w.total_nb_allocs := by
          rw [h1.allocs, h.allocs, e]
        rw [e] at ih1
        rw [if_neg (fun hc => hc.2 htot)]
        omega
      · have hnd := h1.shared_nodup
        rw [e] at hnd ih1
        by_cases ht : g.object_of other = t
        · rw [ht] at hnd ih1
          have hnot : t ∉ A.shared := (List.nodup_cons.mp hnd).1
          rw [if_pos (List.mem_cons_self _ _)] at ih1
          rw [if_neg hnot]
          split <;> omega
        · have hobj : ¬ (op.object g = t ∧ w1.total_nb_allocs ≠ w.total_nb_allocs) := by
            rw [eop]
            exact fun hc => ht hc.1
          have hmem : (t ∈ g.object_of other :: A.shared) ↔ t ∈ A.shared := by
            simp [Ne.symm ht]
          rw [if_neg hobj]
          by_cases hin : t ∈ A.shared
          · rw [if_pos (hmem.mpr hin)] at ih1
            rw [if_pos hin]
            omega
          · rw [if_neg (fun hc => hin (hmem.mp hc))] at ih1
            rw [if_neg hin]
            omega

/-- A live handle whose second word carries the deleter address is the recorded holder
of the deleter of its object. -/
theorem Shape.owner_of_holder_sh (h : Shape env w g A) (hp : p ∈ g.live)
    (hh : holds_deleter (A.gs p).words = true) :
    A.owner (g.object_of p) = Owner.handle p := by
  have hg := h.good_sh hp
  rcases (holds_deleter_words (h.wf_sh hp)).mp hh with ⟨o, d, e⟩ | ⟨s, d, e⟩
  · rw [e] at hg
    obtain ⟨h1, -, h3⟩ := hg
    rw [h1]; exact h3
  · rw [e] at hg
    exact hg.2.2.2.2

/-- A live handle whose second word is the address of a block is a recorded sharer of
the block that holds the deleter of its object. -/
theorem Shape.owner_of_sharer_sh (h : Shape env w g A) (hp : p ∈ g.live)
    (hh : is_shared_data (A.gs p).words.ptr = true) :
    A.owner (g.object_of p) = Owner.block (A.gs p).words.ptr ∧
      ∃ o, A.gs p = State.SharedCounted o (A.gs p).words.ptr := by
  have hm := h.words_sh hp
  have hs := h.shared_state_sh hp hm hh
  have hg := h.good_sh hp
  rw [hs] at hg
  obtain ⟨h1, h2⟩ := hg
  refine ⟨?_, _, hs⟩
  rw [h1]; exact h2

/-- The deleter of `t` is held by the handle `p`: `p` is the one holder and no live
handle made for `t` references a block. -/
theorem Shape.holders_of_handle_sh (h : Shape env w g A) (ho : A.owner t = Owner.handle p) :
    w.holders g t = [p] ∧ w.blocks_of g t = [] ∧
      (w.in_state p (State.Owning t env.deleter) ∨
        ∃ s, w.in_state p (State.CrossLinkedHeap s env.deleter)) := by
  obtain ⟨hp, hobj, hst⟩ := h.own_handle t p ho
  refine ⟨?_, ?_, ?_⟩
  · apply filter_eq_singleton h.nodup hp
    intro x hx
    rw [h.words_sh hx]
    simp only [Bool.and_eq_true, beq_iff_eq]
    constructor
    · rintro ⟨e, hh⟩
      have := h.owner_of_holder_sh hx hh
      rw [e, ho] at this
      injection this with this
      exact this.symm
    · rintro rfl
      refine ⟨hobj, (holds_deleter_words (h.wf_sh hx)).mpr ?_⟩
      rcases hst with e | ⟨s, e⟩
      · exact Or.inl ⟨_, _, e⟩
      · exact Or.inr ⟨_, _, e⟩
  · unfold World.blocks_of
    have hnil : ∀ l : List Nat, l = [] → l.dedup = [] := by
      intro l e; rw [e]; rfl
    apply hnil
    rw [List.filterMap_eq_nil_iff]
    intro x hx
    rw [h.words_sh hx]
    dsimp only
    rw [if_neg]
    rintro ⟨e, hh⟩
    have := (h.owner_of_sharer_sh hx hh).1
    rw [e, ho] at this
    cases this
  · rcases hst with e | ⟨s, e⟩
    · left
      have := h.words_sh hp
      rw [e] at this
      exact this
    · right
      have := h.words_sh hp
      rw [e] at this
      exact ⟨s, this⟩

end shape_run

/-! ## Which operation sets the `IsLinkedPtr` mark in the first word of a handle -/

section shape_first_word

variable {env : Env} {w w' : World} {g : Ghost} {A : Abs} {this other : Nat} {nb : Option Nat}

/-- The destructor never sets the mark. -/
theorem destruct_first_word (h : Shape env w g A)
    (hstep : step env w (Op.destruct this) = Except.ok w') :
    ∀ q h', w'.mem q = some h' → (h'.ptr_to_obj_or_root_ptr_on_stack &&& IsLinkedPtr) ≠ 0 →
      w.mem q = some h' := by
  obtain ⟨w1, hdt, rfl⟩ := step_destruct_ok hstep
  have hlive := h.live_of_dtor_sh hdt
  have hm := h.words_sh hlive
  have hwf := h.wf_sh hlive
  have hg := h.good_sh hlive
  intro q h' hq hl
  cases hs : A.gs this with
  | Null =>
    rw [hs] at hm
    rw [dtor_null hm] at hdt
    cases hdt
    exact (mem_of_release hq).2
  | Owning o d =>
    rw [hs] at hm hwf hg
    rw [dtor_owning hm hwf.1 hwf.2] at hdt
    obtain ⟨-, rfl⟩ := ok_of_ite hdt
    rw [wr_release] at hq
    exact (mem_of_release hq).2
  | LinkedToStack o r =>
    rw [hs] at hm hwf hg
    obtain ⟨-, -, -, hsub, -, hroot⟩ := hg
    have hr : r ∈ g.live := hsub.subset (by simp)
    obtain ⟨o2, a2, hw2, ho2⟩ := root_words hroot (h.wf_sh hr)
    have hmr := h.words_sh hr
    rw [hw2] at hmr
    rw [dtor_linked hm hwf.1 hwf.2 hmr ho2] at hdt
    obtain ⟨-, rfl⟩ := ok_of_ite hdt
    rw [wr_release] at hq
    exact (mem_of_release hq).2
  | CrossLinkedStack o x =>
    rw [hs] at hm hwf hg
    obtain ⟨-, hres, hx, hgx, -⟩ := hg
    have hmx := h.words_sh hx
    have hwfx := h.wf_sh hx
    rw [hgx] at hmx hwfx
    have hne : x ≠ this := by
      intro e
      rw [e, hs] at hgx
      cases hgx
    rw [dtor_cross_stack hm hwf.1 hwf.2 hmx hwfx.1 hne] at hdt
    obtain ⟨-, rfl⟩ := ok_of_ite hdt
    rw [wr_release] at hq
    exact (marked_of_wr hwf.1.first_word (mem_of_release hq).2 hl).2
  | CrossLinkedHeap s d =>
    rw [hs] at hm hwf hg
    obtain ⟨hde, -, hsl, hgss, -⟩ := hg
    subst hde
    have hms := h.words_sh hsl
    have hwfs := h.wf_sh hsl
    rw [hgss] at hms hwfs
    have hne : s ≠ this := by
      intro e
      rw [e, hs] at hgss
      cases hgss
    rw [dtor_cross_heap hm hwf.1 hwf.2 (h.addr_sh hlive) hms hwfs.1 hne] at hdt
    obtain ⟨-, rfl⟩ := ok_of_ite hdt
    rw [wr_release] at hq
    exact (marked_of_wr hwfs.1.first_word (mem_of_release hq).2 hl).2
  | SharedCounted o b =>
    rw [hs] at hm hwf hg
    cases hh : w.heap b with
    | none =>
      rw [dtor_shared_freed hm hwf.1 hwf.2.1 hwf.2.2 hh] at hdt
      exact (not_ok_of_ite hdt).elim
    | some data =>
      obtain ⟨c, dl⟩ := data
      rw [dtor_shared hm hwf.1 hwf.2.1 hwf.2.2 hh] at hdt
      obtain ⟨-, hdt⟩ := of_ite hdt
      by_cases h1 : pre_decrement c = 0
      · rw [if_pos h1] at hdt
        obtain ⟨-, rfl⟩ := ok_of_ite hdt
        rw [wr_release] at hq
        exact (mem_of_release hq).2
      · rw [if_neg h1] at hdt
        cases hdt
        rw [wr_release] at hq
        exact (mem_of_release hq).2

/-- A copy sets the mark in one case only: the source `other` is in `Owning` state and not
in the stack, and the new handle is in the stack. -/
theorem copy_first_word (h : Shape env w g A)
    (hwfop : (Op.copy_construct this other nb).well_formed g)
    (hstep : step env w (Op.copy_construct this other nb) = Except.ok w') :
    ∀ q h', w'.mem q = some h' → (h'.ptr_to_obj_or_root_ptr_on_stack &&& IsLinkedPtr) ≠ 0 →
      w.mem q = some h' ∨
      (q = other ∧ is_address_in_stack env this = true ∧
        is_address_in_stack env other = false ∧
        ∃ o, A.gs other = State.Owning o env.deleter) := by
  obtain ⟨haddr, hnb⟩ := hwfop
  obtain ⟨hfree, hnbf, hc⟩ := step_copy_ok hstep
  have hother := h.live_of_copy_sh hc
  have hne : this ≠ other := fun e => h.not_live_sh hfree (e ▸ hother)
  have hm := h.words_sh hother
  have hwf := h.wf_sh hother
  have hg := h.good_sh hother
  intro q h' hq hl
  -- the three ways a copy completes without a cross-link
  have hlink : ∀ o r, ObjAddr o → w' = w.wr this ⟨o, r ||| IsLinkedPtr⟩ → w.mem q = some h' := by
    intro o r ho e
    rw [e] at hq
    exact (marked_of_wr ho.first_word hq hl).2
  have hjoin : ∀ o b c, ObjAddr o → w' = (w.wr_data b c).wr this ⟨o, b⟩ →
      w.mem q = some h' := by
    intro o b c ho e
    rw [e] at hq
    exact (marked_of_wr ho.first_word hq hl).2
  have hcreate : ∀ o o2 r data dl, ObjAddr o → ObjAddr o2 →
      w' = (((w.new_shared_data data dl).wr_data data ⟨2, dl⟩).wr r ⟨o2, data⟩).wr this
        ⟨o, data⟩ → w.mem q = some h' := by
    intro o o2 r data dl ho ho2 e
    rw [e] at hq
    exact (marked_of_wr ho2.first_word (marked_of_wr ho.first_word hq hl).2 hl).2
  cases hs : A.gs other with
  | Null =>
    rw [hs] at hm
    rw [copy_ctor_null hm hne] at hc
    obtain ⟨-, rfl⟩ := ok_of_ite hc
    exact Or.inl (marked_of_wr (by decide) hq hl).2
  | Owning o d =>
    rw [hs] at hm hwf hg
    obtain ⟨hobj, hde, hown⟩ := hg
    subst hde
    cases h1 : is_address_in_stack env this with
    | true =>
      cases h2 : is_address_in_stack env other with
      | true =>
        have hroot : get_stack_root_ptr env w other = _ := get_stack_root_ptr_del hm hwf.2
        rw [copy_ctor_stack_stack hm hwf.1 hne (h.addr_sh hother) _ hroot h1 h2] at hc
        obtain ⟨-, rfl⟩ := ok_of_ite hc
        exact Or.inl (hlink _ _ hwf.1 rfl)
      | false =>
        rw [copy_ctor_cross_link hm hwf.1 hwf.2 hne (h.addr_sh hother) h1 h2] at hc
        obtain ⟨-, rfl⟩ := ok_of_ite hc
        have h3 := marked_of_wr hwf.1.first_word hq hl
        by_cases e : q = other
        · exact Or.inr ⟨e, rfl, rfl, o, rfl⟩
        · rw [wr_mem_other _ _ e] at h3
          exact Or.inl h3.2
    | false =>
      cases h2 : is_address_in_stack env other with
      | true =>
        have h1m : (w.wr this ⟨o, 0⟩).mem other = some ⟨o, env.deleter ||| IsDeleterPtr⟩ := by
          rw [wr_mem_other _ _ (Ne.symm hne)]; exact hm
        have hgr : get_global_root_ptr env (w.wr this ⟨o, 0⟩) other = _ :=
          get_global_root_ptr_del h1m hwf.2
        rw [copy_ctor_create hm hwf.1 (del_is_shared_data hwf.2) hm hwf.1 hwf.2 hne hne hnb h1 _
          hgr] at hc
        obtain ⟨-, hc⟩ := of_ite hc
        cases nb with
        | none => cases hc
        | some data =>
          dsimp only at hc
          obtain ⟨-, rfl⟩ := ok_of_ite hc
          exact Or.inl (hcreate _ _ _ _ _ hwf.1 hwf.1 rfl)
      | false =>
        rw [copy_ctor_owner_off_stack hm hwf.1 hwf.2 hne h1 h2] at hc
        cases hc
  | LinkedToStack o r =>
    rw [hs] at hm hwf hg
    obtain ⟨hobj, hres, hinr, hsub, hro, hroot⟩ := hg
    have hr : r ∈ g.live := hsub.subset (by simp)
    have hne2 : this ≠ r := fun e => h.not_live_sh hfree (e ▸ hr)
    have hro2 : r ≠ other := Ne.symm (sublist_pair_ne hsub h.nodup)
    cases h1 : is_address_in_stack env this with
    | true =>
      have hrt : get_stack_root_ptr env w other = _ := get_stack_root_ptr_linked hm hwf.2
      rw [copy_ctor_stack_stack hm hwf.1 hne hwf.2 _ hrt h1 hres.1] at hc
      obtain ⟨-, rfl⟩ := ok_of_ite hc
      exact Or.inl (hlink _ _ hwf.1 rfl)
    | false =>
      have h1m : (w.wr this ⟨o, 0⟩).mem other = some ⟨o, r ||| IsLinkedPtr⟩ := by
        rw [wr_mem_other _ _ (Ne.symm hne)]; exact hm
      have hmr := h.words_sh hr
      have hwfr := h.wf_sh hr
      have hgr := h.good_sh hr
      cases hsr : A.gs r with
      | Null => rw [hsr] at hroot; cases hroot
      | LinkedToStack o2 r2 => rw [hsr] at hroot; cases hroot
      | CrossLinkedHeap s2 d2 => rw [hsr] at hroot; cases hroot
      | Owning o2 d2 =>
        rw [hsr] at hmr hwfr hgr
        have h1r : (w.wr this ⟨o, 0⟩).mem r = some ⟨o2, d2 ||| IsDeleterPtr⟩ := by
          rw [wr_mem_other _ _ (Ne.symm hne2)]; exact hmr
        have hgp : get_global_root_ptr env (w.wr this ⟨o, 0⟩) other = _ :=
          get_global_root_ptr_linked_del h1m hwf.2 h1r hwfr.2 hro2
        rw [copy_ctor_create hm hwf.1 (link_is_shared_data hwf.2) hmr hwfr.1 hwfr.2 hne hne2 hnb
          h1 _ hgp] at hc
        obtain ⟨-, hc⟩ := of_ite hc
        cases nb with
        | none => cases hc
        | some data =>
          dsimp only at hc
          obtain ⟨-, rfl⟩ := ok_of_ite hc
          exact Or.inl (hcreate _ _ _ _ _ hwf.1 hwfr.1 rfl)
      | CrossLinkedStack o2 x =>
        rw [hsr] at hmr hwfr hgr
        obtain ⟨-, -, hx, hgx, -⟩ := hgr
        have hmx := h.words_sh hx
        have hwfx := h.wf_sh hx
        rw [hgx] at hmx hwfx
        have hnex : this ≠ x := fun e => h.not_live_sh hfree (e ▸ hx)
        have h1r : (w.wr this ⟨o, 0⟩).mem r =
            some ⟨o2, x ||| IsLinkedPtr ||| IsDeleterPtr⟩ := by
          rw [wr_mem_other _ _ (Ne.symm hne2)]; exact hmr
        have hgp : get_global_root_ptr env (w.wr this ⟨o, 0⟩) other = _ :=
          get_global_root_ptr_linked_cross h1m hwf.2 h1r hwfr.2
        rw [copy_ctor_root_cross_heap hm hwf.1 (link_is_shared_data hwf.2) hmx hwfx.1 hwfx.2 hne
          hnex h1 _ hgp] at hc
        cases hc
      | SharedCounted o2 b =>
        rw [hsr] at hmr hwfr hgr
        have h1r : (w.wr this ⟨o, 0⟩).mem r = some ⟨o2, b⟩ := by
          rw [wr_mem_other _ _ (Ne.symm hne2)]; exact hmr
        have hgp : get_global_root_ptr env (w.wr this ⟨o, 0⟩) other = _ :=
          get_global_root_ptr_linked_blk h1m hwf.2 h1r hwfr.2.2 hro2
        cases hh : w.heap b with
        | none =>
          rw [copy_ctor_join_freed hm hwf.1 (link_is_shared_data hwf.2) hmr hwfr.2.1 hwfr.2.2
            hh hne hne2 h1 _ hgp] at hc
          exact (not_ok_of_ite hc).elim
        | some data =>
          obtain ⟨c, dl⟩ := data
          rw [copy_ctor_join hm hwf.1 (link_is_shared_data hwf.2) hmr hwfr.2.1 hwfr.2.2 hh hne
            hne2 h1 _ hgp] at hc
          obtain ⟨-, rfl⟩ := ok_of_ite hc
          exact Or.inl (hjoin _ _ _ hwf.1 rfl)
  | CrossLinkedStack o x =>
    rw [hs] at hm hwf hg
    obtain ⟨hobj, hres, hx, hgx, -⟩ := hg
    cases h1 : is_address_in_stack env this with
    | true =>
      have hrt : get_stack_root_ptr env w other = _ := get_stack_root_ptr_cross hm hwf.2
      rw [copy_ctor_stack_stack hm hwf.1 hne (h.addr_sh hother) _ hrt h1 hres.1] at hc
      obtain ⟨-, rfl⟩ := ok_of_ite hc
      exact Or.inl (hlink _ _ hwf.1 rfl)
    | false =>
      have h1m : (w.wr this ⟨o, 0⟩).mem other =
          some ⟨o, x ||| IsLinkedPtr ||| IsDeleterPtr⟩ := by
        rw [wr_mem_other _ _ (Ne.symm hne)]; exact hm
      have hmx := h.words_sh hx
      have hwfx := h.wf_sh hx
      rw [hgx] at hmx hwfx
      have hnex : this ≠ x := fun e => h.not_live_sh hfree (e ▸ hx)
      have hgp : get_global_root_ptr env (w.wr this ⟨o, 0⟩) other = _ :=
        get_global_root_ptr_cross h1m hwf.2
      rw [copy_ctor_root_cross_heap hm hwf.1 (cross_is_shared_data hwf.2) hmx hwfx.1 hwfx.2 hne
        hnex h1 _ hgp] at hc
      cases hc
  | CrossLinkedHeap s d =>
    rw [hs] at hm hwf hg
    obtain ⟨-, -, hsl, hgss, -⟩ := hg
    have hms := h.words_sh hsl
    have hwfs := h.wf_sh hsl
    rw [hgss] at hms hwfs
    have hnes : this ≠ s := fun e => h.not_live_sh hfree (e ▸ hsl)
    cases h1 : is_address_in_stack env this with
    | true =>
      rw [copy_ctor_cross_heap_stack hm hwf.1 hms hwfs.1 (h.addr_sh hother) hne hnes h1] at hc
      obtain ⟨-, rfl⟩ := ok_of_ite hc
      exact Or.inl (hlink _ _ hwfs.1 rfl)
    | false =>
      rw [copy_ctor_cross_heap_off_stack hm hwf.1 hwf.2 hms hwfs.1 (h.addr_sh hother) hne hnes hnb
        h1] at hc
      obtain ⟨-, hc⟩ := of_ite hc
      cases nb with
      | none => cases hc
      | some data => cases hc
  | SharedCounted o b =>
    rw [hs] at hm hwf hg
    by_cases hss : is_address_in_stack env this = true ∧ is_address_in_stack env other = true
    · have hrt : get_stack_root_ptr env w other = _ :=
        get_stack_root_ptr_blk hm hwf.2.1 hwf.2.2
      rw [copy_ctor_stack_stack hm hwf.1 hne (h.addr_sh hother) _ hrt hss.1 hss.2] at hc
      obtain ⟨-, rfl⟩ := ok_of_ite hc
      exact Or.inl (hlink _ _ hwf.1 rfl)
    · cases hh : w.heap b with
      | none =>
        rw [copy_ctor_shared_freed hm hwf.1 hwf.2.1 hwf.2.2 hh hne hss] at hc
        exact (not_ok_of_ite hc).elim
      | some data =>
        obtain ⟨c, dl⟩ := data
        rw [copy_ctor_shared hm hwf.1 hwf.2.1 hwf.2.2 hh hne hss] at hc
        obtain ⟨-, rfl⟩ := ok_of_ite hc
        exact Or.inl (hjoin _ _ _ hwf.1 rfl)

/-- An operation that completes sets the `IsLinkedPtr` mark in the first word of a handle
in one case only: the handle is the source of a copy into a handle in the stack, is not in
the stack itself and is in `Owning` state. -/
theorem step_first_word (hdel : Addr62 env.deleter) (h : Shape env w g A)
    (op : Op) (hwf : op.well_formed g) (hstep : step env w op = Except.ok w') :
    ∀ q h', w'.mem q = some h' → (h'.ptr_to_obj_or_root_ptr_on_stack &&& IsLinkedPtr) ≠ 0 →
      w.mem q = some h' ∨
      ∃ this nb o, op = Op.copy_construct this q nb ∧ is_address_in_stack env this = true ∧
        is_address_in_stack env q = false ∧ A.gs q = State.Owning o env.deleter := by
  intro q h' hq hl
  cases op with
  | construct this t => exact Or.inl (construct_first_word hdel hwf hstep q h' hq hl)
  | destruct this => exact Or.inl (destruct_first_word h hstep q h' hq hl)
  | copy_construct this other nb =>
    rcases copy_first_word h hwf hstep q h' hq hl with h1 | ⟨e, h2, h3, o, h4⟩
    · exact Or.inl h1
    · subst e
      exact Or.inr ⟨this, nb, o, rfl, h2, h3, h4⟩

end shape_first_word

end Hybrid

namespace Hybrid

open versatile_ptr

/-! ## A freed block whose address is given out again -/

section reuse

theorem sharing_live (n : Nat) :
    (ghost_after Ghost.init (sharing_program n)).live =
      ((List.range n).map (fun i => 30016 + 16 * i)).reverse ++ [30000, 1900] := by
  induction n with
  | zero => rfl
  | succ n ih =>
    rw [sharing_program_succ, ghost_after_append]
    show (30016 + 16 * n) :: (ghost_after Ghost.init (sharing_program n)).live = _
    rw [ih, List.range_succ, List.map_append, List.reverse_append]
    rfl

theorem sharing_objects (n : Nat) :
    (ghost_after Ghost.init (sharing_program n)).objects = [20000] := by
  induction n with
  | zero => rfl
  | succ n ih =>
    rw [sharing_program_succ, ghost_after_append]
    exact ih

/-- The state after `use_after_free_program`, in full: the handles alive, their words, the
free places used next, the block and the record of deleter calls. -/
theorem use_after_free_full : ∃ w,
    run env0 World.empty use_after_free_program = Except.ok w ∧
    program_ok env0 Ghost.init use_after_free_program ∧
    (ghost_after Ghost.init use_after_free_program).objects = [20000] ∧
    (ghost_after Ghost.init use_after_free_program).live =
      ((List.range (UINT - 2)).map (fun i => 30016 + 16 * i)).reverse ++ [30000, 1900] ∧
    w.mem 30000 = some ⟨20000, 50000⟩ ∧ w.mem 30016 = some ⟨20000, 50000⟩ ∧
    w.mem 1890 = none ∧ w.mem 30008 = none ∧ w.heap 50000 = none ∧
    w.deleted = [(77, 20000)] := by
  obtain ⟨w, hw, hp, hh, hdl, hl, h19, hobj, hsup, hfree⟩ := sharing_state (UINT - 2) (by decide)
  have e0 : (UINT - 2 + 2) % UINT = 0 := by decide
  have e1 : UINT - 1 = UINT - 2 + 1 := by decide
  rw [e0] at hh
  have hlive := sharing_live (UINT - 2)
  have hobjs := sharing_objects (UINT - 2)
  obtain ⟨n, hn⟩ : ∃ n, n = UINT - 2 := ⟨_, rfl⟩
  have hn2 : n < UINT := by rw [hn]; decide
  have hn0 : 0 < n := by rw [hn]; decide
  rw [← hn] at hw hp hl h19 hobj hsup hfree hlive hobjs ⊢
  obtain ⟨g0, hg0⟩ : ∃ g0, g0 = ghost_after Ghost.init (sharing_program n) := ⟨_, rfl⟩
  rw [← hg0] at hl h19 hobj hsup hfree hlive hobjs
  have hnl : 30016 + 16 * n ∉ g0.live := by
    intro hmem
    rcases (hsup _ hmem).2 with e | e | ⟨i, hi, e⟩ <;> omega
  have hwf : (Op.copy_construct (30016 + 16 * n) 1900 none).well_formed g0 := by
    refine ⟨?_, fun d hd => by cases hd⟩
    unfold Addr62
    have : UINT = 4294967296 := by decide
    omega
  have h30000 : 30000 ∈ g0.live := by rw [hlive]; simp
  have h30016 : 30016 ∈ g0.live := by
    rw [hlive]
    simp only [List.mem_append, List.mem_reverse, List.mem_map, List.mem_range]
    exact Or.inl ⟨0, hn0, rfl⟩
  have h1890 : 1890 ∉ g0.live := by
    intro hmem
    rcases (hsup _ hmem).2 with e | e | ⟨i, hi, e⟩ <;> omega
  have h30008 : 30008 ∉ g0.live := by
    intro hmem
    rcases (hsup _ hmem).2 with e | e | ⟨i, hi, e⟩ <;> omega
  -- the copy that wraps the count to 1, and its end
  have hs := sharing_step (hsup 1900 h19).1 hh (hfree _ hnl)
  have hinc : pre_increment 0 = 1 := by decide
  rw [hinc] at hs
  obtain ⟨w1, hw1⟩ : ∃ w1, w1 = (w.wr_data 50000 ⟨1, 77⟩).wr (30016 + 16 * n)
      ⟨20000, 50000⟩ := ⟨_, rfl⟩
  rw [← hw1] at hs
  have hm1 : w1.mem (30016 + 16 * n) = some ⟨20000, 50000⟩ := by
    rw [hw1]; exact wr_mem_self _ _ _
  have hh1 : w1.heap 50000 = some ⟨1, 77⟩ := by rw [hw1]; simp
  have hd : dtor env0 w1 (30016 + 16 * n) = _ :=
    dtor_shared hm1 (objAddr_of (by decide) (by decide)) (by decide)
      (addr62_of_lt (by decide)) hh1
  have hdec : pre_decrement 1 = 0 := by decide
  rw [hdec, if_pos rfl, if_pos (by decide), if_pos (by decide)] at hd
  have hs2 := step_destruct_eq hd
  have hframe : ∀ a, a ≠ 30016 + 16 * n →
      (((((w1.wr_data 50000 ⟨0, 77⟩).call_deleter 77 20000).free_data 50000).wr
        (30016 + 16 * n) ⟨0, 0⟩).release (30016 + 16 * n)).mem a = w.mem a := by
    intro a ha
    rw [release_mem_other _ ha, wr_mem_other _ _ ha]
    simp only [free_data_mem, call_deleter_mem, wr_data_mem]
    rw [hw1, wr_mem_other _ _ ha]
    rfl
  have hprog : use_after_free_program = sharing_program n ++
      [Op.copy_construct (30016 + 16 * n) 1900 none, Op.destruct (30016 + 16 * n)] := by
    unfold use_after_free_program
    rw [e1, ← hn, sharing_program_succ, List.append_assoc]
    rfl
  have hg : ghost_after Ghost.init use_after_free_program =
      ⟨g0.live, Function.update g0.object_of (30016 + 16 * n) (g0.object_of 1900),
        g0.objects⟩ := by
    rw [hprog, ghost_after_append, ← hg0, ghost_copy_destruct]
  rw [hg]
  refine ⟨((((w1.wr_data 50000 ⟨0, 77⟩).call_deleter 77 20000).free_data 50000).wr
    (30016 + 16 * n) ⟨0, 0⟩).release (30016 + 16 * n), ?_, ?_, hobjs, hlive, ?_, ?_, ?_, ?_,
    ?_, ?_⟩
  · rw [hprog, run_append_ok hw]
    simp only [run, hs, hs2, ok_bind, pure_eq]
  · rw [hprog]
    refine program_ok_append _ _ _ hp ?_
    rw [← hg0]
    refine ⟨trivial, hwf, ?_, trivial, trivial⟩
    intro hin
    rw [env0_not_in_stack (by omega)] at hin
    cases hin
  · rw [hframe _ (by omega)]
    exact (hsup _ h30000).1
  · rw [hframe _ (by omega)]
    exact (hsup _ h30016).1
  · rw [hframe _ (by omega)]
    exact hfree _ h1890
  · rw [hframe _ (by omega)]
    exact hfree _ h30008
  · simp
  · rw [hw1]; simp [hdl]

/-- The four operations that follow `use_after_free_program` in `block_reuse_program`: the
block at 50000 is created again, for the object at 20016, with the count 2; the two handles
of the object at 20000 that are destroyed bring it to 0, so that the deleter is invoked on
the object at 20000 and the block is freed. -/
theorem reuse_tail {w : World} (hm1 : w.mem 30000 = some ⟨20000, 50000⟩)
    (hm2 : w.mem 30016 = some ⟨20000, 50000⟩) (hf1 : w.mem 1890 = none)
    (hf2 : w.mem 30008 = none) (hh : w.heap 50000 = none) :
    ∃ w4, run env0 w [Op.construct 1890 20016, Op.copy_construct 30008 1890 (some 50000),
        Op.destruct 30000, Op.destruct 30016] = Except.ok w4 ∧
      w4.mem 1890 = some ⟨20016, 50000⟩ ∧ w4.mem 30008 = some ⟨20016, 50000⟩ ∧
      w4.heap 50000 = none ∧ w4.deleted = (77, 20000) :: w.deleted := by
  -- the construction
  obtain ⟨w1, hw1⟩ : ∃ w1, w1 = w.wr 1890 ⟨20016, 77 ||| IsDeleterPtr⟩ := ⟨_, rfl⟩
  have hs1 : step env0 w (Op.construct 1890 20016) = Except.ok w1 := by
    simp only [step, hf1, Option.isSome_none, Bool.false_eq_true, if_false]
    rw [ctor_obj (objAddr_of (by decide) (by decide)) env0_deleter, hw1]
    rfl
  have h1a : w1.mem 1890 = some ⟨20016, 77 ||| IsDeleterPtr⟩ := by
    rw [hw1]; exact wr_mem_self _ _ _
  have h1b : w1.mem 30008 = none := by
    rw [hw1, wr_mem_other _ _ (by decide)]; exact hf2
  have h1c : w1.heap 50000 = none := by rw [hw1]; exact hh
  -- the copy that creates the block again
  obtain ⟨w2, hw2⟩ : ∃ w2, w2 = (((w1.new_shared_data 50000 77).wr_data 50000 ⟨2, 77⟩).wr 1890
      ⟨20016, 50000⟩).wr 30008 ⟨20016, 50000⟩ := ⟨_, rfl⟩
  have hgr : get_global_root_ptr env0 (w1.wr 30008 ⟨20016, 0⟩) 1890 = _ :=
    get_global_root_ptr_del
      (show (w1.wr 30008 ⟨20016, 0⟩).mem 1890 = some ⟨20016, 77 ||| IsDeleterPtr⟩ by
        rw [wr_mem_other _ _ (by decide)]; exact h1a)
      (addr62_of_lt (by decide))
  have hs2 : step env0 w1 (Op.copy_construct 30008 1890 (some 50000)) = Except.ok w2 := by
    have hg : (Option.bind (some 50000) w1.heap).isSome = false := by
      simp only [Option.some_bind, h1c, Option.isSome_none]
    simp only [step, h1b, hg, Option.isSome_none, Bool.or_self, Bool.false_eq_true, if_false]
    rw [copy_ctor_create h1a (objAddr_of (by decide) (by decide))
      (del_is_shared_data (addr62_of_lt (by decide))) h1a (objAddr_of (by decide) (by decide))
      (addr62_of_lt (by decide)) (by decide) (by decide)
      (fun data hd => by cases hd; exact addr62_of_lt (by decide)) (by decide) _ hgr, hw2]
    rfl
  have h2a : w2.mem 30000 = some ⟨20000, 50000⟩ := by
    rw [hw2, wr_mem_other _ _ (by decide), wr_mem_other _ _ (by decide)]
    simp only [wr_data_mem, new_shared_data_mem]
    rw [hw1, wr_mem_other _ _ (by decide)]
    exact hm1
  have h2b : w2.heap 50000 = some ⟨2, 77⟩ := by rw [hw2]; simp
  -- the end of the handle at 30000
  obtain ⟨w3, hw3⟩ : ∃ w3, w3 = ((w2.wr_data 50000 ⟨1, 77⟩).wr 30000 ⟨0, 0⟩).release 30000 :=
    ⟨_, rfl⟩
  have hd3 : dtor env0 w2 30000 = _ :=
    dtor_shared h2a (objAddr_of (by decide) (by decide)) (by decide)
      (addr62_of_lt (by decide)) h2b
  have hdec2 : pre_decrement 2 = 1 := by decide
  rw [hdec2, if_pos (by decide), if_neg (by decide)] at hd3
  have hs3 : step env0 w2 (Op.destruct 30000) = Except.ok w3 := by
    rw [step_destruct_eq hd3, hw3]
  have h3a : w3.mem 30016 = some ⟨20000, 50000⟩ := by
    rw [hw3, release_mem_other _ (by decide), wr_mem_other _ _ (by decide)]
    simp only [wr_data_mem]
    rw [hw2, wr_mem_other _ _ (by decide), wr_mem_other _ _ (by decide)]
    simp only [wr_data_mem, new_shared_data_mem]
    rw [hw1, wr_mem_other _ _ (by decide)]
    exact hm2
  have h3b : w3.heap 50000 = some ⟨1, 77⟩ := by rw [hw3]; simp
  -- the end of the handle at 30016
  have hd4 : dtor env0 w3 30016 = _ :=
    dtor_shared h3a (objAddr_of (by decide) (by decide)) (by decide)
      (addr62_of_lt (by decide)) h3b
  have hdec1 : pre_decrement 1 = 0 := by decide
  rw [hdec1, if_pos (by decide), if_pos rfl, if_pos (by decide)] at hd4
  have hs4 := step_destruct_eq hd4
  refine ⟨(((((w3.wr_data 50000 ⟨0, 77⟩).call_deleter 77 20000).free_data 50000).wr 30016
    ⟨0, 0⟩).release 30016), ?_, ?_, ?_, ?_, ?_⟩
  · simp only [run, hs1, hs2, hs3, hs4, ok_bind, pure_eq]
  · rw [release_mem_other _ (by decide), wr_mem_other _ _ (by decide)]
    simp only [free_data_mem, call_deleter_mem, wr_data_mem]
    rw [hw3, release_mem_other _ (by decide), wr_mem_other _ _ (by decide)]
    simp only [wr_data_mem]
    rw [hw2, wr_mem_other _ _ (by decide)]
    exact wr_mem_self _ _ _
  · rw [release_mem_other _ (by decide), wr_mem_other _ _ (by decide)]
    simp only [free_data_mem, call_deleter_mem, wr_data_mem]
    rw [hw3, release_mem_other _ (by decide), wr_mem_other _ _ (by decide)]
    simp only [wr_data_mem]
    rw [hw2]
    exact wr_mem_self _ _ _
  · simp
  · simp only [release_deleted, wr_deleted, free_data_deleted, call_deleter_deleted,
      wr_data_deleted]
    rw [hw3]
    simp only [release_deleted, wr_deleted, wr_data_deleted]
    rw [hw2]
    simp only [wr_deleted, wr_data_deleted, new_shared_data_deleted]
    rw [hw1]
    rfl

/-- The state after `block_reuse_program`: the deleter has been invoked twice on the object
at 20000, never on the object at 20016, whose two handles are alive and reference the block
at 50000, which is not allocated. -/
theorem block_reuse_state : ∃ w,
    run env0 World.empty block_reuse_program = Except.ok w ∧
    program_ok env0 Ghost.init block_reuse_program ∧
    (ghost_after Ghost.init block_reuse_program).objects = [20016, 20000] ∧
    (∃ l, (ghost_after Ghost.init block_reuse_program).live = 30008 :: l ∧ 1890 ∈ l) ∧
    w.mem 1890 = some ⟨20016, 50000⟩ ∧ w.mem 30008 = some ⟨20016, 50000⟩ ∧
    w.heap 50000 = none ∧ w.deleted = [(77, 20000), (77, 20000)] := by
  obtain ⟨w, hw, hp, hobjs, hlive, hm1, hm2, hf1, hf2, hh, hdl⟩ := use_after_free_full
  obtain ⟨w4, hr4, k1, k2, k3, k4⟩ := reuse_tail hm1 hm2 hf1 hf2 hh
  obtain ⟨g0, hg0⟩ : ∃ g0, g0 = ghost_after Ghost.init use_after_free_program := ⟨_, rfl⟩
  rw [← hg0] at hobjs hlive
  have hg : ghost_after Ghost.init block_reuse_program =
      ⟨((30008 :: 1890 :: g0.live).erase 30000).erase 30016,
        Function.update (Function.update g0.object_of 1890 20016) 30008
          (Function.update g0.object_of 1890 20016 1890), 20016 :: g0.objects⟩ := by
    unfold block_reuse_program
    rw [ghost_after_append, ← hg0]
    rfl
  rw [hg]
  refine ⟨w4, ?_, ?_, ?_, ?_, k1, k2, k3, ?_⟩
  · unfold block_reuse_program
    rw [run_append_ok hw]
    exact hr4
  · unfold block_reuse_program
    refine program_ok_append _ _ _ hp ?_
    rw [← hg0]
    refine ⟨trivial, ⟨addr62_of_lt (by decide), Or.inr ⟨objAddr_of (by decide) (by decide), ?_⟩⟩,
      trivial, ⟨addr62_of_lt (by decide), ?_⟩, ?_, trivial, ?_, trivial, trivial⟩
    · rw [hobjs]
      decide
    · intro d hd
      cases hd
      exact addr62_of_lt (by decide)
    · intro hin
      rw [env0_not_in_stack (by decide)] at hin
      cases hin
    · intro hin
      rw [env0_not_in_stack (by decide)] at hin
      cases hin
  · dsimp only
    rw [hobjs]
  · dsimp only
    refine ⟨((1890 :: g0.live).erase 30000).erase 30016, ?_, ?_⟩
    · rw [List.erase_cons_tail (by decide), List.erase_cons_tail (by decide)]
    · rw [List.erase_cons_tail (by decide), List.erase_cons_tail (by decide)]
      exact List.mem_cons_self _ _
  · rw [k4, hdl]

/-- The destruction of every handle alive, the most recently created first, respects scope
discipline. -/
theorem program_ok_destroy (env : Env) :
    ∀ (l : List Nat) (g : Ghost), g.live = l → program_ok env g (l.map Op.destruct) := by
  intro l
  induction l with
  | nil => intro g _; trivial
  | cons a l ih =>
    intro g hg
    refine ⟨?_, trivial, ih _ ?_⟩
    · intro _ q hq
      rw [hg] at hq
      simp [List.takeWhile] at hq
    · show g.live.erase a = l
      rw [hg, List.erase_cons_head]

/-- After the destruction of every handle alive no handle is alive. -/
theorem ghost_after_destroy :
    ∀ (l : List Nat) (g : Ghost), g.live = l →
      (ghost_after g (l.map Op.destruct)).live = [] ∧
      (ghost_after g (l.map Op.destruct)).objects = g.objects := by
  intro l
  induction l with
  | nil => intro g hg; exact ⟨hg, rfl⟩
  | cons a l ih =>
    intro g hg
    have : ((Op.destruct a).ghost g).live = l := by
      show g.live.erase a = l
      rw [hg, List.erase_cons_head]
    exact ih _ this

/-- The deleter of `t` is recorded as held by the block `b`, which the live handle `q` made
for `t` references: no live handle holds the deleter, and `b` is the one block that the live
handles made for `t` reference, whether it is allocated or not. -/
theorem Shape.holders_of_block_sh {env : Env} {w : World} {g : Ghost} {A : Abs} {t b q : Nat}
    (h : Shape env w g A) (ho : A.owner t = Owner.block b) (hq : q ∈ g.live)
    (hs : A.gs q = State.SharedCounted t b) :
    w.holders g t = [] ∧ w.blocks_of g t = [b] := by
  refine ⟨?_, ?_⟩
  · unfold World.holders
    rw [List.filter_eq_nil_iff]
    intro x hx
    rw [h.words_sh hx]
    simp only [Bool.and_eq_true, beq_iff_eq, not_and]
    intro e hh
    have := h.owner_of_holder_sh hx hh
    rw [e, ho] at this
    cases this
  · unfold World.blocks_of
    apply dedup_eq_singleton
    · have hg := h.good_sh hq
      have hwf := h.wf_sh hq
      rw [hs] at hg hwf
      obtain ⟨h1, h2⟩ := hg
      rw [List.mem_filterMap]
      refine ⟨q, hq, ?_⟩
      rw [h.words_sh hq, hs]
      dsimp only [State.words]
      rw [if_pos ⟨h1, blk_is_shared_data hwf.2.1 hwf.2.2⟩]
    · intro x hx
      rw [List.mem_filterMap] at hx
      obtain ⟨p, hp, hfx⟩ := hx
      rw [h.words_sh hp] at hfx
      dsimp only at hfx
      by_cases hc : g.object_of p = t ∧ is_shared_data (A.gs p).words.ptr = true
      · rw [if_pos hc] at hfx
        have := (h.owner_of_sharer_sh hp hc.2).1
        rw [hc.1, ho] at this
        injection this with this
        injection hfx with hfx
        rw [← hfx, ← this]
      · rw [if_neg hc] at hfx
        cases hfx

/-- A program followed by the destruction of every handle it leaves alive respects scope
discipline, and ends with every handle destroyed. -/
theorem destroy_all_ok (env : Env) (ops : List Op) (hp : program_ok env Ghost.init ops) :
    program_ok env Ghost.init (ops ++ destroy_all ops) ∧
    (ghost_after Ghost.init (ops ++ destroy_all ops)).live = [] ∧
    (ghost_after Ghost.init (ops ++ destroy_all ops)).objects =
      (ghost_after Ghost.init ops).objects := by
  obtain ⟨g, hg⟩ : ∃ g, g = ghost_after Ghost.init ops := ⟨_, rfl⟩
  have h1 := program_ok_destroy env g.live g rfl
  have h2 := ghost_after_destroy g.live g rfl
  unfold destroy_all
  rw [ghost_after_append, ← hg]
  exact ⟨program_ok_append _ _ _ hp (by rw [← hg]; exact h1), h2.1, h2.2⟩

end reuse

end Hybrid

namespace Hybrid

open versatile_ptr

/-! ## Claims about single operations -/

/-- C5. Copy from a live stack-resident source that stores the object address, whatever
its state, into a stack-resident new handle: the copy succeeds, the new handle is
`LinkedToStack` with the same object address and with root the stack root of the
source (the source itself unless the source is `LinkedToStack`, then its own root, as
`get_stack_root_ptr` returns it), no block is allocated, no count changes, and no other
handle, the source included, is modified. -/
theorem C5_copy_stack_to_stack_links (env : Env) (w : World) (this other : Nat)
    (nb : Option Nat) (st : State) (o : Nat)
    (hwf : st.wf) (hst : w.in_state other st) (hobj : st.object = some o)
    (hheap : is_address_in_cpp_heap env o = true)
    (hother : stack_resident env other) (h62 : Addr62 other)
    (hthis : stack_resident env this) (hfree : w.mem this = none) :
    ∃ w', copy_ctor env w this other nb = Except.ok w' ∧
      w'.in_state this (State.LinkedToStack o (st.stack_root other)) ∧
      get_stack_root_ptr env w other = Except.ok (st.stack_root other) ∧
      get_stack_root_ptr env w' this = Except.ok (st.stack_root other) ∧
      (∀ a, a ≠ this → w'.mem a = w.mem a) ∧
      w'.heap = w.heap ∧ w'.total_nb_allocs = w.total_nb_allocs ∧ w'.deleted = w.deleted := by
  have hne : this ≠ other := by
    intro h; rw [h] at hfree; rw [hst] at hfree; exact Option.noConfusion hfree
  have key : ∀ (a r : Nat) (C : Bool), w.mem other = some ⟨o, a⟩ → ObjAddr o → Addr62 r →
      get_stack_root_ptr env w other =
        (if C then Except.ok r else Except.error Fault.assertion) → C = true →
      ∃ w', copy_ctor env w this other nb = Except.ok w' ∧
        w'.in_state this (State.LinkedToStack o r) ∧
        get_stack_root_ptr env w other = Except.ok r ∧
        get_stack_root_ptr env w' this = Except.ok r ∧
        (∀ a, a ≠ this → w'.mem a = w.mem a) ∧
        w'.heap = w.heap ∧ w'.total_nb_allocs = w.total_nb_allocs ∧ w'.deleted = w.deleted := by
    intro a r C hm ho hr hroot hC
    refine ⟨w.wr this ⟨o, r ||| IsLinkedPtr⟩, ?_, wr_mem_self _ _ _, ?_, ?_, ?_, rfl, rfl, rfl⟩
    · rw [copy_ctor_stack_stack hm ho hne hr C hroot hthis.1 hother.1]
      simp [hthis.2, hC, hheap]
    · rw [hroot]; simp [hC]
    · rw [get_stack_root_ptr_linked (wr_mem_self _ _ _) hr]; simp [hthis.1, hthis.2]
    · intro a ha; exact wr_mem_other _ _ ha
  cases st with
  | Null => simp [State.object] at hobj
  | CrossLinkedHeap _ _ => simp [State.object] at hobj
  | Owning o1 d =>
    simp only [State.object, Option.some.injEq] at hobj; subst hobj
    exact key _ other _ hst hwf.1 h62 (get_stack_root_ptr_del hst hwf.2) hother.1
  | LinkedToStack o1 r =>
    simp only [State.object, Option.some.injEq] at hobj; subst hobj
    exact key _ r _ hst hwf.1 hwf.2 (get_stack_root_ptr_linked hst hwf.2)
      (by simp [hother.1, hother.2])
  | CrossLinkedStack o1 g =>
    simp only [State.object, Option.some.injEq] at hobj; subst hobj
    exact key _ other _ hst hwf.1 h62 (get_stack_root_ptr_cross hst hwf.2)
      (by simp [hother.1, hother.2])
  | SharedCounted o1 b =>
    simp only [State.object, Option.some.injEq] at hobj; subst hobj
    exact key _ other _ hst hwf.1 h62 (get_stack_root_ptr_blk hst hwf.2.1 hwf.2.2) hother.1

/-- Witness for C5: the owner at 1900 is copied to 1800, both in the stack. -/
theorem C5_copy_stack_to_stack_links_witness :
    ∃ w', copy_ctor env0 (World.owner_at 1900 20000) 1800 1900 none = Except.ok w' ∧
      w'.in_state 1800 (State.LinkedToStack 20000 1900) ∧
      get_stack_root_ptr env0 (World.owner_at 1900 20000) 1900 = Except.ok 1900 ∧
      get_stack_root_ptr env0 w' 1800 = Except.ok 1900 ∧
      (∀ a, a ≠ 1800 → w'.mem a = (World.owner_at 1900 20000).mem a) ∧
      w'.heap = (World.owner_at 1900 20000).heap ∧
      w'.total_nb_allocs = (World.owner_at 1900 20000).total_nb_allocs ∧
      w'.deleted = (World.owner_at 1900 20000).deleted :=
  C5_copy_stack_to_stack_links env0 (World.owner_at 1900 20000) 1800 1900 none
    (State.Owning 20000 77) 20000 ⟨objAddr_of (by decide) (by decide), addr62_of_lt (by decide)⟩
    (wr_mem_self _ _ _) rfl (by decide) ⟨by decide, by decide⟩ (addr62_of_lt (by decide))
    ⟨by decide, by decide⟩ (by decide)

/-- C6, counterexample. A handle in static storage (address 5000: not in the stack,
not a CRT heap pointer) owns the object at 20000; copying it into the stack-resident
handle at 1800 stops on the `assert` of `link_to_global_ptr_on_heap`. -/
theorem C6_static_source_counterexample :
    is_address_in_stack env0 5000 = false ∧
      (World.owner_at 5000 20000).in_state 5000 (State.Owning 20000 77) ∧
      stack_resident env0 1800 ∧
      copy_ctor env0 (World.owner_at 5000 20000) 1800 5000 none =
        Except.error Fault.assertion := by
  have hm : (World.owner_at 5000 20000).mem 5000 = some ⟨20000, 77 ||| IsDeleterPtr⟩ :=
    wr_mem_self _ _ _
  refine ⟨by decide, hm, ⟨by decide, by decide⟩, ?_⟩
  rw [copy_ctor_cross_link hm (objAddr_of (by decide) (by decide))
    (addr62_of_lt (by decide)) (by decide) (addr62_of_lt (by decide)) (by decide) (by decide)]
  rfl

/-- C6, amended. Copy from a source in the C++ heap (`is_address_in_cpp_heap`: not in
the stack and a valid CRT heap pointer) in `Owning` state into a stack-resident new
handle: the copy succeeds and cross-links the two handles.  The source now refers to
the new handle with the linked flag and still holds its deleter, the new handle stores
the object address and a link to the source with both marks, no block is allocated,
nothing else changes, and dereferencing either handle yields the object. -/
theorem C6_copy_heap_owner_to_stack_cross_links (env : Env) (w : World) (this other : Nat)
    (nb : Option Nat) (o d : Nat)
    (hwf : (State.Owning o d).wf) (hst : w.in_state other (State.Owning o d))
    (hobj : is_address_in_cpp_heap env o = true)
    (hother : is_address_in_cpp_heap env other = true) (h62 : Addr62 other)
    (hthis : stack_resident env this) (h62this : Addr62 this) (hfree : w.mem this = none) :
    ∃ w', copy_ctor env w this other nb = Except.ok w' ∧
      w'.in_state other (State.CrossLinkedHeap this d) ∧
      w'.in_state this (State.CrossLinkedStack o other) ∧
      (∀ a, a ≠ this → a ≠ other → w'.mem a = w.mem a) ∧
      w'.heap = w.heap ∧ w'.total_nb_allocs = w.total_nb_allocs ∧ w'.deleted = w.deleted ∧
      arrow env w' this = Except.ok o ∧ arrow env w' other = Except.ok o := by
  have hne : this ≠ other := by
    intro h; rw [h] at hfree; rw [hst] at hfree; exact Option.noConfusion hfree
  have hs2 : is_address_in_stack env other = false := by
    simp only [is_address_in_cpp_heap, Bool.and_eq_true, Bool.not_eq_true'] at hother
    exact hother.1
  have hpart : ((w.wr other ⟨this ||| IsLinkedPtr, d ||| IsDeleterPtr⟩).wr this
      ⟨o, other ||| IsLinkedPtr ||| IsDeleterPtr⟩).mem other =
        some ⟨this ||| IsLinkedPtr, d ||| IsDeleterPtr⟩ := by
    rw [wr_mem_other _ _ (Ne.symm hne)]; exact wr_mem_self _ _ _
  refine ⟨(w.wr other ⟨this ||| IsLinkedPtr, d ||| IsDeleterPtr⟩).wr this
    ⟨o, other ||| IsLinkedPtr ||| IsDeleterPtr⟩, ?_, hpart, wr_mem_self _ _ _, ?_, rfl, rfl, rfl,
    ?_, ?_⟩
  · rw [copy_ctor_cross_link hst hwf.1 hwf.2 hne h62 hthis.1 hs2]
    simp [hother, hthis.2]
  · intro a h1 h2
    rw [wr_mem_other _ _ h1, wr_mem_other _ _ h2]
  · rw [arrow_obj (wr_mem_self _ _ _) hwf.1]; simp [hobj]
  · rw [arrow_cross_heap hpart h62this (wr_mem_self _ _ _) h62 hwf.1]
    simp [hs2, hthis.1, hthis.2, hobj]

/-- Witness for C6: the owner at 30000, in the heap, is copied to 1800, in the stack. -/
theorem C6_copy_heap_owner_to_stack_cross_links_witness :
    ∃ w', copy_ctor env0 (World.owner_at 30000 20000) 1800 30000 none = Except.ok w' ∧
      w'.in_state 30000 (State.CrossLinkedHeap 1800 77) ∧
      w'.in_state 1800 (State.CrossLinkedStack 20000 30000) ∧
      (∀ a, a ≠ 1800 → a ≠ 30000 → w'.mem a = (World.owner_at 30000 20000).mem a) ∧
      w'.heap = (World.owner_at 30000 20000).heap ∧
      w'.total_nb_allocs = (World.owner_at 30000 20000).total_nb_allocs ∧
      w'.deleted = (World.owner_at 30000 20000).deleted ∧
      arrow env0 w' 1800 = Except.ok 20000 ∧ arrow env0 w' 30000 = Except.ok 20000 :=
  C6_copy_heap_owner_to_stack_cross_links env0 (World.owner_at 30000 20000) 1800 30000 none
    20000 77 ⟨objAddr_of (by decide) (by decide), addr62_of_lt (by decide)⟩
    (wr_mem_self _ _ _) (by decide) (by decide) (addr62_of_lt (by decide))
    ⟨by decide, by decide⟩ (addr62_of_lt (by decide)) (by decide)

/-- C7, counterexample. The handle at 1900, in the stack, shares the block at 50000
whose count is 1; copying it to 1800, in the stack too, links the new handle to it and
leaves the count at 1. -/
theorem C7_stack_to_stack_counterexample :
    (World.sharer_at 1900 20000 50000 1).in_state 1900 (State.SharedCounted 20000 50000) ∧
      (World.sharer_at 1900 20000 50000 1).heap 50000 = some ⟨1, 77⟩ ∧
      ∃ w', copy_ctor env0 (World.sharer_at 1900 20000 50000 1) 1800 1900 none = Except.ok w' ∧
        w'.heap 50000 = some ⟨1, 77⟩ ∧
        w'.in_state 1800 (State.LinkedToStack 20000 1900) := by
  have hm : (World.sharer_at 1900 20000 50000 1).mem 1900 = some ⟨20000, 50000⟩ :=
    wr_mem_self _ _ _
  refine ⟨hm, by decide, (World.sharer_at 1900 20000 50000 1).wr 1800
    (State.LinkedToStack 20000 1900).words, ?_, by decide, wr_mem_self _ _ _⟩
  have hroot : get_stack_root_ptr env0 (World.sharer_at 1900 20000 50000 1) 1900 = _ :=
    get_stack_root_ptr_blk hm (by decide) (addr62_of_lt (by decide))
  rw [copy_ctor_stack_stack hm (objAddr_of (by decide) (by decide))
    (by decide) (addr62_of_lt (by decide)) _ hroot (by decide) (by decide)]
  rfl

/-- C7, amended. Copy from a live `SharedCounted` source when source and new handle are
not both in the stack: the copy succeeds, the count of the block is incremented once
(`++` on an `unsigned int`: by exactly one below `UINT_MAX`), the new handle is
`SharedCounted` on the same block, and nothing else changes. -/
theorem C7_copy_shared_increments (env : Env) (w : World) (this other : Nat)
    (nb : Option Nat) (o b c dl : Nat)
    (hwf : (State.SharedCounted o b).wf) (hst : w.in_state other (State.SharedCounted o b))
    (hblk : w.heap b = some ⟨c, dl⟩) (hb : is_address_in_cpp_heap env b = true)
    (hloc : ¬ (is_address_in_stack env this = true ∧ is_address_in_stack env other = true))
    (hfree : w.mem this = none) :
    ∃ w', copy_ctor env w this other nb = Except.ok w' ∧
      w'.in_state this (State.SharedCounted o b) ∧
      w'.heap b = some ⟨pre_increment c, dl⟩ ∧ (c + 1 < UINT → pre_increment c = c + 1) ∧
      (∀ a, a ≠ this → w'.mem a = w.mem a) ∧ (∀ a, a ≠ b → w'.heap a = w.heap a) ∧
      w'.total_nb_allocs = w.total_nb_allocs ∧ w'.deleted = w.deleted := by
  have hne : this ≠ other := by
    intro h; rw [h] at hfree; rw [hst] at hfree; exact Option.noConfusion hfree
  refine ⟨(w.wr_data b ⟨pre_increment c, dl⟩).wr this ⟨o, b⟩, ?_, wr_mem_self _ _ _, ?_, ?_, ?_,
    ?_, rfl, rfl⟩
  · rw [copy_ctor_shared hst hwf.1 hwf.2.1 hwf.2.2 hblk hne hloc]
    simp [hb]
  · simp
  · intro h; exact Nat.mod_eq_of_lt h
  · intro a ha; rw [wr_mem_other _ _ ha]; rfl
  · intro a ha; simp [wr_data_heap_other _ _ ha]

/-- Witness for C7: the sharer at 30000, in the heap, is copied to 1800, in the stack. -/
theorem C7_copy_shared_increments_witness :
    ∃ w', copy_ctor env0 (World.sharer_at 30000 20000 50000 1) 1800 30000 none =
        Except.ok w' ∧
      w'.in_state 1800 (State.SharedCounted 20000 50000) ∧
      w'.heap 50000 = some ⟨pre_increment 1, 77⟩ ∧ (1 + 1 < UINT → pre_increment 1 = 1 + 1) ∧
      (∀ a, a ≠ 1800 → w'.mem a = (World.sharer_at 30000 20000 50000 1).mem a) ∧
      (∀ a, a ≠ 50000 → w'.heap a = (World.sharer_at 30000 20000 50000 1).heap a) ∧
      w'.total_nb_allocs = (World.sharer_at 30000 20000 50000 1).total_nb_allocs ∧
      w'.deleted = (World.sharer_at 30000 20000 50000 1).deleted :=
  C7_copy_shared_increments env0 (World.sharer_at 30000 20000 50000 1) 1800 30000 none
    20000 50000 1 77 ⟨objAddr_of (by decide) (by decide), by decide, addr62_of_lt (by decide)⟩
    (wr_mem_self _ _ _) (by decide) (by decide) (by decide) (by decide)

/-- C8. Copy from a stack-resident source in `Owning` state into a new handle that is
not in the stack, when `operator new` returns the fresh block `data`: the copy
succeeds; `create_shared_data` builds exactly one block at `data`, with the deleter of
the source and count 1, and turns the source into `SharedCounted`; the new handle is
attached with an increment, so both handles are `SharedCounted` on `data`, whose count
is 2; `total_nb_allocs` has grown by one and nothing else has changed. -/
theorem C8_copy_stack_owner_to_heap_allocates (env : Env) (w : World) (this other : Nat)
    (data o d : Nat)
    (hwf : (State.Owning o d).wf) (hst : w.in_state other (State.Owning o d))
    (hobj : is_address_in_cpp_heap env o = true)
    (hother : is_address_in_stack env other = true)
    (hthis : is_address_in_stack env this = false) (hfree : w.mem this = none)
    (hdata : data ≠ 0) (h62 : Addr62 data) (hheap : is_address_in_cpp_heap env data = true)
    (hfresh : w.heap data = none) :
    ∃ w', copy_ctor env w this other (some data) = Except.ok w' ∧
      (∃ w1, create_shared_data env (w.wr this ⟨o, 0⟩) other (some data) = Except.ok w1 ∧
        w1.heap data = some ⟨1, d⟩ ∧ w1.in_state other (State.SharedCounted o data) ∧
        inc_ref env w1 this other = Except.ok w') ∧
      w.heap data = none ∧ w'.heap data = some ⟨2, d⟩ ∧
      (∀ a, a ≠ data → w'.heap a = w.heap a) ∧
      w'.total_nb_allocs = pre_increment w.total_nb_allocs ∧
      w'.in_state other (State.SharedCounted o data) ∧
      w'.in_state this (State.SharedCounted o data) ∧
      (∀ a, a ≠ this → a ≠ other → w'.mem a = w.mem a) ∧ w'.deleted = w.deleted := by
  have hne : this ≠ other := by
    intro h; rw [h] at hfree; rw [hst] at hfree; exact Option.noConfusion hfree
  have h1 : (w.wr this ⟨o, 0⟩).mem other = some ⟨o, d ||| IsDeleterPtr⟩ := by
    rw [wr_mem_other _ _ (Ne.symm hne)]; exact hst
  have h2 : (((w.new_shared_data data d).wr this ⟨o, 0⟩).wr other ⟨o, data⟩).mem this =
      some ⟨o, 0⟩ := by
    rw [wr_mem_other _ _ hne]; exact wr_mem_self _ _ _
  have hgr : get_global_root_ptr env (w.wr this ⟨o, 0⟩) other = _ :=
    get_global_root_ptr_del h1 hwf.2
  rw [hother, if_pos rfl] at hgr
  refine ⟨(((w.new_shared_data data d).wr_data data ⟨2, d⟩).wr other ⟨o, data⟩).wr this
    ⟨o, data⟩, ?_, ⟨((w.new_shared_data data d).wr this ⟨o, 0⟩).wr other ⟨o, data⟩, ?_, ?_,
      wr_mem_self _ _ _, ?_⟩, hfresh, ?_, ?_, rfl, ?_, wr_mem_self _ _ _, ?_, rfl⟩
  · rw [copy_ctor_create hst hwf.1 (del_is_shared_data hwf.2) hst hwf.1 hwf.2 hne hne
      (fun x hx => by cases hx; exact h62) hthis true hgr]
    simp [hobj, hdata, hheap]
  · rw [create_shared_data_eq h1 hwf.1 hwf.2]
    simp [hobj]
  · simp
  · rw [inc_ref_eq env h2 (wr_mem_self _ _ _) hdata h62
      (show _ = some (shared_data.mk 1 d) by simp)]
    simp [hheap, pre_increment_one, wr_wr_wr _ _ _ _ hne]
  · simp
  · intro a ha
    simp [wr_data_heap_other _ _ ha, new_shared_data_heap_other _ _ ha]
  · show World.mem _ other = _
    rw [wr_mem_other _ _ (Ne.symm hne)]; exact wr_mem_self _ _ _
  · intro a ha1 ha2
    rw [wr_mem_other _ _ ha1, wr_mem_other _ _ ha2]; rfl

/-- Witness for C8: the owner at 1900, in the stack, is copied to 30000, in the heap. -/
theorem C8_copy_stack_owner_to_heap_allocates_witness :
    ∃ w', copy_ctor env0 (World.owner_at 1900 20000) 30000 1900 (some 50000) = Except.ok w' ∧
      (∃ w1, create_shared_data env0 ((World.owner_at 1900 20000).wr 30000 ⟨20000, 0⟩) 1900
          (some 50000) = Except.ok w1 ∧
        w1.heap 50000 = some ⟨1, 77⟩ ∧ w1.in_state 1900 (State.SharedCounted 20000 50000) ∧
        inc_ref env0 w1 30000 1900 = Except.ok w') ∧
      (World.owner_at 1900 20000).heap 50000 = none ∧ w'.heap 50000 = some ⟨2, 77⟩ ∧
      (∀ a, a ≠ 50000 → w'.heap a = (World.owner_at 1900 20000).heap a) ∧
      w'.total_nb_allocs = pre_increment (World.owner_at 1900 20000).total_nb_allocs ∧
      w'.in_state 1900 (State.SharedCounted 20000 50000) ∧
      w'.in_state 30000 (State.SharedCounted 20000 50000) ∧
      (∀ a, a ≠ 30000 → a ≠ 1900 → w'.mem a = (World.owner_at 1900 20000).mem a) ∧
      w'.deleted = (World.owner_at 1900 20000).deleted :=
  C8_copy_stack_owner_to_heap_allocates env0 (World.owner_at 1900 20000) 30000 1900 50000
    20000 77 ⟨objAddr_of (by decide) (by decide), addr62_of_lt (by decide)⟩
    (wr_mem_self _ _ _) (by decide) (by decide) (by decide) (by decide) (by decide)
    (addr62_of_lt (by decide)) (by decide) (by decide)

/-- C9, the code at the failing input. The handle at 30000, in the heap, owns the
object at 20000 and has never been linked; copying it to the handle at 30016, in the
heap too, stops on the `assert` of `get_stack_root_ptr`, which `get_global_root_ptr`
calls on the source. -/
theorem C9_copy_heap_owner_to_heap_aborts :
    copy_ctor env0 (World.owner_at 30000 20000) 30016 30000 (some 50000) =
      Except.error Fault.assertion := by
  have hm : (World.owner_at 30000 20000).mem 30000 = some ⟨20000, 77 ||| IsDeleterPtr⟩ :=
    wr_mem_self _ _ _
  exact copy_ctor_owner_off_stack hm (objAddr_of (by decide) (by decide))
    (addr62_of_lt (by decide)) (by decide) (by decide) (by decide)

/-- C10, counterexample. The handle at 30000, in the heap, is cross-linked with the
handle at 1800, in the stack; copying it to a second handle in the stack, at 1900, which
is not copied from the first, links the new handle to the handle at 1800 and allocates
nothing: `total_nb_allocs` and the blocks are unchanged. -/
theorem C10_second_stack_copy_counterexample :
    (World.pair_at 30000 1800 20000).in_state 30000 (State.CrossLinkedHeap 1800 77) ∧
      (World.pair_at 30000 1800 20000).in_state 1800 (State.CrossLinkedStack 20000 30000) ∧
      ∃ w', copy_ctor env0 (World.pair_at 30000 1800 20000) 1900 30000 (some 50000) =
          Except.ok w' ∧
        w'.total_nb_allocs = (World.pair_at 30000 1800 20000).total_nb_allocs ∧
        w'.heap = (World.pair_at 30000 1800 20000).heap ∧
        w'.in_state 1900 (State.LinkedToStack 20000 1800) := by
  have hg : (World.pair_at 30000 1800 20000).mem 30000 =
      some ⟨1800 ||| IsLinkedPtr, 77 ||| IsDeleterPtr⟩ := by
    unfold World.pair_at; rw [wr_mem_other _ _ (by decide)]; exact wr_mem_self _ _ _
  have hs : (World.pair_at 30000 1800 20000).mem 1800 =
      some ⟨20000, 30000 ||| IsLinkedPtr ||| IsDeleterPtr⟩ := wr_mem_self _ _ _
  refine ⟨hg, hs, (World.pair_at 30000 1800 20000).wr 1900 ⟨20000, 1800 ||| IsLinkedPtr⟩, ?_,
    rfl, rfl, wr_mem_self _ _ _⟩
  rw [copy_ctor_cross_heap_stack hg (addr62_of_lt (by decide)) hs
    (objAddr_of (by decide) (by decide)) (addr62_of_lt (by decide)) (by decide) (by decide)
    (by decide)]
  rfl

/-- C10, amended. Copy from a heap-resident source that is cross-linked with the
stack-resident handle `s` into a second stack-resident handle located above `s`
(`this > s`, the ordering the code asserts): the copy succeeds, the new handle is
`LinkedToStack` with root `s` and stores the object address, no block is allocated
(`total_nb_allocs` and the blocks are unchanged) and no other handle is modified. -/
theorem C10_copy_cross_linked_to_stack_links (env : Env) (w : World) (this other : Nat)
    (nb : Option Nat) (s o d : Nat)
    (hwf : (State.CrossLinkedHeap s d).wf) (hst : w.in_state other (State.CrossLinkedHeap s d))
    (hwf2 : (State.CrossLinkedStack o other).wf)
    (hpart : w.in_state s (State.CrossLinkedStack o other))
    (hobj : is_address_in_cpp_heap env o = true)
    (hother : is_address_in_cpp_heap env other = true)
    (hs : stack_resident env s) (hthis : stack_resident env this) (habove : this > s)
    (hfree : w.mem this = none) :
    ∃ w', copy_ctor env w this other nb = Except.ok w' ∧
      w'.in_state this (State.LinkedToStack o s) ∧
      (∀ a, a ≠ this → w'.mem a = w.mem a) ∧
      w'.heap = w.heap ∧ w'.total_nb_allocs = w.total_nb_allocs ∧ w'.deleted = w.deleted := by
  have hne : this ≠ other := by
    intro h; rw [h] at hfree; rw [hst] at hfree; exact Option.noConfusion hfree
  have hne2 : this ≠ s := Nat.ne_of_gt habove
  have hs2 : is_address_in_stack env other = false := by
    simp only [is_address_in_cpp_heap, Bool.and_eq_true, Bool.not_eq_true'] at hother
    exact hother.1
  refine ⟨w.wr this ⟨o, s ||| IsLinkedPtr⟩, ?_, wr_mem_self _ _ _, ?_, rfl, rfl, rfl⟩
  · rw [copy_ctor_cross_heap_stack hst hwf.1 hpart hwf2.1 hwf2.2 hne hne2 hthis.1]
    simp [hs2, hother, hs.1, hs.2, habove, hthis.2, hobj]
  · intro a ha; exact wr_mem_other _ _ ha

/-- Witness for C10: the pair (30000, 1800) and a second stack copy at 1900. -/
theorem C10_copy_cross_linked_to_stack_links_witness :
    ∃ w', copy_ctor env0 (World.pair_at 30000 1800 20000) 1900 30000 none = Except.ok w' ∧
      w'.in_state 1900 (State.LinkedToStack 20000 1800) ∧
      (∀ a, a ≠ 1900 → w'.mem a = (World.pair_at 30000 1800 20000).mem a) ∧
      w'.heap = (World.pair_at 30000 1800 20000).heap ∧
      w'.total_nb_allocs = (World.pair_at 30000 1800 20000).total_nb_allocs ∧
      w'.deleted = (World.pair_at 30000 1800 20000).deleted :=
  C10_copy_cross_linked_to_stack_links env0 (World.pair_at 30000 1800 20000) 1900 30000 none
    1800 20000 77 ⟨addr62_of_lt (by decide), addr62_of_lt (by decide)⟩
    (by unfold World.pair_at World.in_state; rw [wr_mem_other _ _ (by decide)];
        exact wr_mem_self _ _ _)
    ⟨objAddr_of (by decide) (by decide), addr62_of_lt (by decide)⟩
    (wr_mem_self _ _ _) (by decide) (by decide) ⟨by decide, by decide⟩ ⟨by decide, by decide⟩
    (by decide) (by decide)

end Hybrid

namespace Hybrid

open versatile_ptr

/-! ## Claims about single operations: copies that need a block, and destructions -/

/-- C12, the code on every such input. The source `other`, not in the stack, is
cross-linked with the stack handle `s`; the new handle `this` is not in the stack either.
The copy never completes: whatever `operator new` does, `copy_ctor` returns no state
(`isOk` is false).
(The new handle keeps the first word of the source, the link to `s`, and `inc_ref` writes
the second word only, so the final `assert(is_obj())` fails.) -/
theorem C12_copy_cross_linked_heap_to_heap_aborts (env : Env) (w : World) (this other : Nat)
    (nb : Option Nat) (s o d : Nat)
    (hwf : (State.CrossLinkedHeap s d).wf) (hst : w.in_state other (State.CrossLinkedHeap s d))
    (hwf2 : (State.CrossLinkedStack o other).wf)
    (hpart : w.in_state s (State.CrossLinkedStack o other))
    (hnb : ∀ data, nb = some data → Addr62 data)
    (hthis : is_address_in_stack env this = false) (hfree : w.mem this = none) :
    (copy_ctor env w this other nb).isOk = false := by
  have hne : this ≠ other := by
    intro h; rw [h] at hfree; rw [hst] at hfree; exact Option.noConfusion hfree
  have hne2 : this ≠ s := by
    intro h; rw [h] at hfree; rw [hpart] at hfree; exact Option.noConfusion hfree
  rw [copy_ctor_cross_heap_off_stack hst hwf.1 hwf.2 hpart hwf2.1 hwf2.2 hne hne2 hnb hthis]
  split
  · cases nb <;> rfl
  · rfl

/-- C12 at the failing input: the pair (30000 in the heap, 1800 in the stack) for the
object at 20000, copied from 30000 to 30016 in the heap, `operator new` ready to return
50000. -/
theorem C12_copy_cross_linked_heap_to_heap_aborts_witness :
    (copy_ctor env0 (World.pair_at 30000 1800 20000) 30016 30000 (some 50000)).isOk = false :=
  C12_copy_cross_linked_heap_to_heap_aborts env0 (World.pair_at 30000 1800 20000) 30016 30000
    (some 50000) 1800 20000 77 ⟨addr62_of_lt (by decide), addr62_of_lt (by decide)⟩
    (by unfold World.pair_at World.in_state; rw [wr_mem_other _ _ (by decide)];
        exact wr_mem_self _ _ _)
    ⟨objAddr_of (by decide) (by decide), addr62_of_lt (by decide)⟩
    (wr_mem_self _ _ _) (fun x hx => by cases hx; exact addr62_of_lt (by decide))
    (by decide) (by decide)

/-- C13, the code on every such input. The source `other` is in the stack and its stack
root `r` (the source itself, or the handle it is `LinkedToStack` to) is the stack side of
a cross-linked pair whose other side is `g`; the new handle `this` is not in the stack.
The copy stops on an `assert`: `get_global_root_ptr` resolves to `g`, and
`create_shared_data` run on `g` calls `obj()`, whose `assert(is_obj())` fails because the
first word of `g` is the link to its stack partner. -/
theorem C13_copy_from_cross_linked_stack_side_aborts (env : Env) (w : World)
    (this other : Nat) (nb : Option Nat) (r g o d : Nat)
    (hsrc : (r = other ∧ ObjAddr o) ∨
      (w.in_state other (State.LinkedToStack o r) ∧ (State.LinkedToStack o r).wf))
    (hwf : (State.CrossLinkedStack o g).wf) (hroot : w.in_state r (State.CrossLinkedStack o g))
    (hwf2 : (State.CrossLinkedHeap r d).wf) (hpart : w.in_state g (State.CrossLinkedHeap r d))
    (hthis : is_address_in_stack env this = false) (hfree : w.mem this = none) :
    copy_ctor env w this other nb = Except.error Fault.assertion := by
  have hne2 : this ≠ g := by
    intro h; rw [h] at hfree; rw [hpart] at hfree; exact Option.noConfusion hfree
  have hner : this ≠ r := by
    intro h; rw [h] at hfree; rw [hroot] at hfree; exact Option.noConfusion hfree
  rcases hsrc with ⟨e, ho⟩ | ⟨hl, hwfl⟩
  · subst e
    have h1 : (w.wr this ⟨o, 0⟩).mem r = some ⟨o, g ||| IsLinkedPtr ||| IsDeleterPtr⟩ := by
      rw [wr_mem_other _ _ (Ne.symm hner)]; exact hroot
    exact copy_ctor_root_cross_heap hroot ho (cross_is_shared_data hwf.2) hpart hwf2.1 hwf2.2
      hner hne2 hthis _ (get_global_root_ptr_cross h1 hwf.2)
  · have hne : this ≠ other := by
      intro h; rw [h] at hfree; rw [hl] at hfree; exact Option.noConfusion hfree
    have h1 : (w.wr this ⟨o, 0⟩).mem other = some ⟨o, r ||| IsLinkedPtr⟩ := by
      rw [wr_mem_other _ _ (Ne.symm hne)]; exact hl
    have h2 : (w.wr this ⟨o, 0⟩).mem r = some ⟨o, g ||| IsLinkedPtr ||| IsDeleterPtr⟩ := by
      rw [wr_mem_other _ _ (Ne.symm hner)]; exact hroot
    exact copy_ctor_root_cross_heap hl hwfl.1 (link_is_shared_data hwfl.2) hpart hwf2.1 hwf2.2
      hne hne2 hthis _ (get_global_root_ptr_linked_cross h1 hwfl.2 h2 hwf.2)

/-- C13 at the failing input: the pair (30000 in the heap, 1800 in the stack) for the
object at 20000; the stack side, 1800, is copied to 30016 in the heap, `operator new`
ready to return 50000. -/
theorem C13_copy_from_cross_linked_stack_side_aborts_witness :
    copy_ctor env0 (World.pair_at 30000 1800 20000) 30016 1800 (some 50000) =
      Except.error Fault.assertion :=
  C13_copy_from_cross_linked_stack_side_aborts env0 (World.pair_at 30000 1800 20000) 30016 1800
    (some 50000) 1800 30000 20000 77 (Or.inl ⟨rfl, objAddr_of (by decide) (by decide)⟩)
    ⟨objAddr_of (by decide) (by decide), addr62_of_lt (by decide)⟩
    (wr_mem_self _ _ _)
    ⟨addr62_of_lt (by decide), addr62_of_lt (by decide)⟩
    (by unfold World.pair_at World.in_state; rw [wr_mem_other _ _ (by decide)];
        exact wr_mem_self _ _ _)
    (by decide) (by decide)

/-! ### The destructor on each side of a cross-linked pair -/

section pair

variable {env : Env} {w w1 : World} {this s g o d : Nat}

theorem not_in_stack_of_heap {a : Nat} (h : is_address_in_cpp_heap env a = true) :
    is_address_in_stack env a = false := by
  simp only [is_address_in_cpp_heap, Bool.and_eq_true, Bool.not_eq_true'] at h
  exact h.1

/-- The stack side `s` of the pair `(g, s)` is destroyed: `g` gets the object back. -/
theorem dtor_pair_stack (hs : w.in_state s (State.CrossLinkedStack o g))
    (hg : w.in_state g (State.CrossLinkedHeap s d)) (hwf1 : (State.CrossLinkedStack o g).wf)
    (hwf2 : (State.CrossLinkedHeap s d).wf) (hres : stack_resident env s)
    (hoff : is_address_in_stack env g = false) (hobj : is_address_in_cpp_heap env o = true) :
    dtor env w s = Except.ok ((w.wr g (State.Owning o d).words).wr s ⟨0, 0⟩) := by
  have hne : g ≠ s := by
    intro e
    rw [e, hres.1] at hoff
    cases hoff
  rw [dtor_cross_stack hs hwf1.1 hwf1.2 hg hwf2.1 hne]
  simp [hres.1, hres.2, hoff, hobj, State.words]

/-- The side `g` of the pair `(g, s)` that is not in the stack is destroyed: `s` gets the
deleter. -/
theorem dtor_pair_heap (hs : w.in_state s (State.CrossLinkedStack o g))
    (hg : w.in_state g (State.CrossLinkedHeap s d)) (hwf1 : (State.CrossLinkedStack o g).wf)
    (hwf2 : (State.CrossLinkedHeap s d).wf) (hres : stack_resident env s)
    (hoff : is_address_in_stack env g = false) :
    dtor env w g = Except.ok ((w.wr s (State.Owning o d).words).wr g ⟨0, 0⟩) := by
  have hne : s ≠ g := by
    intro e
    rw [← e, hres.1] at hoff
    cases hoff
  rw [dtor_cross_heap hg hwf2.1 hwf2.2 hwf1.2 hs hwf1.1 hne]
  simp [hres.1, hres.2, hoff, State.words]

/-- The destructor of a handle that holds the deleter itself. -/
theorem dtor_owner (hp : w.in_state this (State.Owning o d)) (hwf : (State.Owning o d).wf)
    (hobj : is_address_in_cpp_heap env o = true) :
    dtor env w this = Except.ok ((w.call_deleter d o).wr this ⟨0, 0⟩) := by
  rw [dtor_owning hp hwf.1 hwf.2]
  simp [hobj]

end pair

/-- C14. A cross-linked pair: `s` resident in the stack, `g` not in the stack, for the
object `o` with the deleter `d`. In either order of destruction both destructors
complete; the first invokes no deleter and leaves the survivor in `Owning` state, where
`operator->` yields `o`; the second invokes `d` on `o`, so the deleter has run exactly
once more than before, and only at the second destruction. -/
theorem C14_cross_linked_pair_either_order (env : Env) (w : World) (s g o d : Nat)
    (hs : w.in_state s (State.CrossLinkedStack o g))
    (hg : w.in_state g (State.CrossLinkedHeap s d))
    (hwf1 : (State.CrossLinkedStack o g).wf) (hwf2 : (State.CrossLinkedHeap s d).wf)
    (hres : stack_resident env s) (hoff : is_address_in_stack env g = false)
    (hobj : is_address_in_cpp_heap env o = true) :
    (∃ w1 w2, step env w (Op.destruct s) = Except.ok w1 ∧ w1.deleted = w.deleted ∧
        w1.mem s = none ∧ w1.in_state g (State.Owning o d) ∧ arrow env w1 g = Except.ok o ∧
        step env w1 (Op.destruct g) = Except.ok w2 ∧ w2.deleted = (d, o) :: w.deleted ∧
        w2.mem g = none) ∧
      ∃ w1 w2, step env w (Op.destruct g) = Except.ok w1 ∧ w1.deleted = w.deleted ∧
        w1.mem g = none ∧ w1.in_state s (State.Owning o d) ∧ arrow env w1 s = Except.ok o ∧
        step env w1 (Op.destruct s) = Except.ok w2 ∧ w2.deleted = (d, o) :: w.deleted ∧
        w2.mem s = none := by
  have hne : g ≠ s := by
    intro e
    rw [e, hres.1] at hoff
    cases hoff
  have hwf : (State.Owning o d).wf := ⟨hwf1.1, hwf2.2⟩
  constructor
  · have h1 : (((w.wr g (State.Owning o d).words).wr s ⟨0, 0⟩).release s).in_state g
        (State.Owning o d) := by
      show World.mem _ g = _
      rw [wr_release, release_mem_other _ hne]
      exact wr_mem_self _ _ _
    refine ⟨_, _, step_destruct_eq (dtor_pair_stack hs hg hwf1 hwf2 hres hoff hobj), rfl,
      release_mem_self _ _, h1, ?_, step_destruct_eq (dtor_owner h1 hwf hobj), rfl,
      release_mem_self _ _⟩
    rw [arrow_obj h1 hwf.1]
    simp [hobj]
  · have h1 : (((w.wr s (State.Owning o d).words).wr g ⟨0, 0⟩).release g).in_state s
        (State.Owning o d) := by
      show World.mem _ s = _
      rw [wr_release, release_mem_other _ (Ne.symm hne)]
      exact wr_mem_self _ _ _
    refine ⟨_, _, step_destruct_eq (dtor_pair_heap hs hg hwf1 hwf2 hres hoff), rfl,
      release_mem_self _ _, h1, ?_, step_destruct_eq (dtor_owner h1 hwf hobj), rfl,
      release_mem_self _ _⟩
    rw [arrow_obj h1 hwf.1]
    simp [hobj]

/-- Witness for C14: the pair (30000 in the heap, 1800 in the stack) for the object at
20000. -/
theorem C14_cross_linked_pair_either_order_witness :
    (∃ w1 w2, step env0 (World.pair_at 30000 1800 20000) (Op.destruct 1800) = Except.ok w1 ∧
        w1.deleted = (World.pair_at 30000 1800 20000).deleted ∧
        w1.mem 1800 = none ∧ w1.in_state 30000 (State.Owning 20000 77) ∧
        arrow env0 w1 30000 = Except.ok 20000 ∧
        step env0 w1 (Op.destruct 30000) = Except.ok w2 ∧
        w2.deleted = (77, 20000) :: (World.pair_at 30000 1800 20000).deleted ∧
        w2.mem 30000 = none) ∧
      ∃ w1 w2, step env0 (World.pair_at 30000 1800 20000) (Op.destruct 30000) = Except.ok w1 ∧
        w1.deleted = (World.pair_at 30000 1800 20000).deleted ∧
        w1.mem 30000 = none ∧ w1.in_state 1800 (State.Owning 20000 77) ∧
        arrow env0 w1 1800 = Except.ok 20000 ∧
        step env0 w1 (Op.destruct 1800) = Except.ok w2 ∧
        w2.deleted = (77, 20000) :: (World.pair_at 30000 1800 20000).deleted ∧
        w2.mem 1800 = none :=
  C14_cross_linked_pair_either_order env0 (World.pair_at 30000 1800 20000) 1800 30000 20000 77
    (wr_mem_self _ _ _)
    (by unfold World.pair_at World.in_state; rw [wr_mem_other _ _ (by decide)];
        exact wr_mem_self _ _ _)
    ⟨objAddr_of (by decide) (by decide), addr62_of_lt (by decide)⟩
    ⟨addr62_of_lt (by decide), addr62_of_lt (by decide)⟩
    ⟨by decide, by decide⟩ (by decide) (by decide)

/-- C15. The stack side `s` of a cross-linked pair is destroyed while the other side `g`
is alive: the destructor completes, invokes no deleter, and leaves `g` in `Owning` state:
its first word is the object address again (`is_obj` holds, the `IsLinkedPtr` bit is
clear) and its second word still holds the deleter `d`; both words of `s` are cleared;
no other handle, no block and no counter changes. -/
theorem C15_destroy_stack_side_restores_owner (env : Env) (w : World) (s g o d : Nat)
    (hs : w.in_state s (State.CrossLinkedStack o g))
    (hg : w.in_state g (State.CrossLinkedHeap s d))
    (hwf1 : (State.CrossLinkedStack o g).wf) (hwf2 : (State.CrossLinkedHeap s d).wf)
    (hres : stack_resident env s) (hoff : is_address_in_stack env g = false)
    (hobj : is_address_in_cpp_heap env o = true) :
    ∃ w1, dtor env w s = Except.ok w1 ∧ w1.deleted = w.deleted ∧
      w1.in_state g (State.Owning o d) ∧
      (∃ h, w1.mem g = some h ∧ h.ptr_to_obj_or_root_ptr_on_stack = o ∧ is_obj h = true ∧
        h.ptr_to_obj_or_root_ptr_on_stack &&& IsLinkedPtr = 0 ∧
        is_deleter_ptr h.ptr = true ∧ get_deleter_ptr h.ptr = Except.ok d ∧
        is_linked_ptr env (ptr_addr g) h.ptr = Except.ok false) ∧
      w1.mem s = some ⟨0, 0⟩ ∧ (∀ a, a ≠ s → a ≠ g → w1.mem a = w.mem a) ∧
      w1.heap = w.heap ∧ w1.total_nb_allocs = w.total_nb_allocs := by
  have hne : g ≠ s := by
    intro e
    rw [e, hres.1] at hoff
    cases hoff
  have h1 : ((w.wr g (State.Owning o d).words).wr s ⟨0, 0⟩).mem g =
      some ⟨o, d ||| IsDeleterPtr⟩ := by
    rw [wr_mem_other _ _ hne]
    exact wr_mem_self _ _ _
  have hbit : o &&& IsLinkedPtr = 0 := by
    have := hwf1.1.linked_bit
    simpa using this
  refine ⟨_, dtor_pair_stack hs hg hwf1 hwf2 hres hoff hobj, rfl, h1,
    ⟨_, h1, rfl, hwf1.1.is_obj _, hbit, del_is_deleter_ptr hwf2.2, del_get_deleter_ptr hwf2.2,
      del_is_linked_ptr hwf2.2⟩, wr_mem_self _ _ _, ?_, rfl, rfl⟩
  intro a ha1 ha2
  rw [wr_mem_other _ _ ha1, wr_mem_other _ _ ha2]

/-- Witness for C15: the pair (30000 in the heap, 1800 in the stack) for the object at
20000. -/
theorem C15_destroy_stack_side_restores_owner_witness :
    ∃ w1, dtor env0 (World.pair_at 30000 1800 20000) 1800 = Except.ok w1 ∧
      w1.deleted = (World.pair_at 30000 1800 20000).deleted ∧
      w1.in_state 30000 (State.Owning 20000 77) ∧
      (∃ h, w1.mem 30000 = some h ∧ h.ptr_to_obj_or_root_ptr_on_stack = 20000 ∧
        is_obj h = true ∧ h.ptr_to_obj_or_root_ptr_on_stack &&& IsLinkedPtr = 0 ∧
        is_deleter_ptr h.ptr = true ∧ get_deleter_ptr h.ptr = Except.ok 77 ∧
        is_linked_ptr env0 (ptr_addr 30000) h.ptr = Except.ok false) ∧
      w1.mem 1800 = some ⟨0, 0⟩ ∧
      (∀ a, a ≠ 1800 → a ≠ 30000 → w1.mem a = (World.pair_at 30000 1800 20000).mem a) ∧
      w1.heap = (World.pair_at 30000 1800 20000).heap ∧
      w1.total_nb_allocs = (World.pair_at 30000 1800 20000).total_nb_allocs :=
  C15_destroy_stack_side_restores_owner env0 (World.pair_at 30000 1800 20000) 1800 30000 20000
    77 (wr_mem_self _ _ _)
    (by unfold World.pair_at World.in_state; rw [wr_mem_other _ _ (by decide)];
        exact wr_mem_self _ _ _)
    ⟨objAddr_of (by decide) (by decide), addr62_of_lt (by decide)⟩
    ⟨addr62_of_lt (by decide), addr62_of_lt (by decide)⟩
    ⟨by decide, by decide⟩ (by decide) (by decide)

/-- C16. The side `g` of a cross-linked pair that is not in the stack is destroyed while
its stack partner `s` is alive: the destructor completes and invokes no deleter; the
partner then holds exactly the deleter `d` that `g` held (`get_deleter_ptr` yields `d`),
is not marked as linked any more, and still stores the object address `o`; both words of
`g` are cleared and nothing else changes; the destructor of `s`, run later, invokes `d`
on `o`. -/
theorem C16_destroy_heap_side_hands_deleter_over (env : Env) (w : World) (s g o d : Nat)
    (hs : w.in_state s (State.CrossLinkedStack o g))
    (hg : w.in_state g (State.CrossLinkedHeap s d))
    (hwf1 : (State.CrossLinkedStack o g).wf) (hwf2 : (State.CrossLinkedHeap s d).wf)
    (hres : stack_resident env s) (hoff : is_address_in_stack env g = false)
    (hobj : is_address_in_cpp_heap env o = true) :
    ∃ w1, dtor env w g = Except.ok w1 ∧ w1.deleted = w.deleted ∧
      w1.in_state s (State.Owning o d) ∧
      (∃ h, w1.mem s = some h ∧ h.ptr_to_obj_or_root_ptr_on_stack = o ∧
        is_deleter_ptr h.ptr = true ∧ get_deleter_ptr h.ptr = Except.ok d ∧
        is_linked_ptr env (ptr_addr s) h.ptr = Except.ok false) ∧
      w1.mem g = some ⟨0, 0⟩ ∧ (∀ a, a ≠ s → a ≠ g → w1.mem a = w.mem a) ∧
      w1.heap = w.heap ∧ w1.total_nb_allocs = w.total_nb_allocs ∧
      ∃ w2, dtor env (w1.release g) s = Except.ok w2 ∧ w2.deleted = (d, o) :: w.deleted := by
  have hne : s ≠ g := by
    intro e
    rw [← e, hres.1] at hoff
    cases hoff
  have hwf : (State.Owning o d).wf := ⟨hwf1.1, hwf2.2⟩
  have h1 : ((w.wr s (State.Owning o d).words).wr g ⟨0, 0⟩).mem s =
      some ⟨o, d ||| IsDeleterPtr⟩ := by
    rw [wr_mem_other _ _ hne]
    exact wr_mem_self _ _ _
  have h2 : (((w.wr s (State.Owning o d).words).wr g ⟨0, 0⟩).release g).in_state s
      (State.Owning o d) := by
    show World.mem _ s = _
    rw [release_mem_other _ hne]
    exact h1
  refine ⟨_, dtor_pair_heap hs hg hwf1 hwf2 hres hoff, rfl, h1,
    ⟨_, h1, rfl, del_is_deleter_ptr hwf2.2, del_get_deleter_ptr hwf2.2,
      del_is_linked_ptr hwf2.2⟩, wr_mem_self _ _ _, ?_, rfl, rfl,
    ⟨_, dtor_owner h2 hwf hobj, rfl⟩⟩
  intro a ha1 ha2
  rw [wr_mem_other _ _ ha2, wr_mem_other _ _ ha1]

/-- Witness for C16: the pair (30000 in the heap, 1800 in the stack) for the object at
20000. -/
theorem C16_destroy_heap_side_hands_deleter_over_witness :
    ∃ w1, dtor env0 (World.pair_at 30000 1800 20000) 30000 = Except.ok w1 ∧
      w1.deleted = (World.pair_at 30000 1800 20000).deleted ∧
      w1.in_state 1800 (State.Owning 20000 77) ∧
      (∃ h, w1.mem 1800 = some h ∧ h.ptr_to_obj_or_root_ptr_on_stack = 20000 ∧
        is_deleter_ptr h.ptr = true ∧ get_deleter_ptr h.ptr = Except.ok 77 ∧
        is_linked_ptr env0 (ptr_addr 1800) h.ptr = Except.ok false) ∧
      w1.mem 30000 = some ⟨0, 0⟩ ∧
      (∀ a, a ≠ 1800 → a ≠ 30000 → w1.mem a = (World.pair_at 30000 1800 20000).mem a) ∧
      w1.heap = (World.pair_at 30000 1800 20000).heap ∧
      w1.total_nb_allocs = (World.pair_at 30000 1800 20000).total_nb_allocs ∧
      ∃ w2, dtor env0 (w1.release 30000) 1800 = Except.ok w2 ∧
        w2.deleted = (77, 20000) :: (World.pair_at 30000 1800 20000).deleted :=
  C16_destroy_heap_side_hands_deleter_over env0 (World.pair_at 30000 1800 20000) 1800 30000
    20000 77 (wr_mem_self _ _ _)
    (by unfold World.pair_at World.in_state; rw [wr_mem_other _ _ (by decide)];
        exact wr_mem_self _ _ _)
    ⟨objAddr_of (by decide) (by decide), addr62_of_lt (by decide)⟩
    ⟨addr62_of_lt (by decide), addr62_of_lt (by decide)⟩
    ⟨by decide, by decide⟩ (by decide) (by decide)

/-- C17. The destructor of a handle in `SharedCounted` state, on a block whose count is
`c`: it completes and applies `--` to the count, an `unsigned int`, which takes exactly
one from a count that is not zero. When the count thereby reaches zero the deleter of the
block is invoked on the object and the block is freed; otherwise the block stays, with
the decremented count, and no deleter is invoked. The words of the handle are cleared; no
other handle, no other block and no counter of allocations changes. -/
theorem C17_destroy_shared_decrements (env : Env) (w : World) (this o b c dl : Nat)
    (hst : w.in_state this (State.SharedCounted o b)) (hwf : (State.SharedCounted o b).wf)
    (hblk : w.heap b = some ⟨c, dl⟩)
    (hheap : is_address_in_cpp_heap env b = true)
    (hobj : pre_decrement c = 0 → is_address_in_cpp_heap env o = true) :
    ∃ w', dtor env w this = Except.ok w' ∧
      (0 < c → c < UINT → pre_decrement c = c - 1) ∧
      (pre_decrement c = 0 → w'.heap b = none ∧ w'.deleted = (dl, o) :: w.deleted) ∧
      (pre_decrement c ≠ 0 → w'.heap b = some ⟨pre_decrement c, dl⟩ ∧
        w'.deleted = w.deleted) ∧
      w'.mem this = some ⟨0, 0⟩ ∧ (∀ a, a ≠ this → w'.mem a = w.mem a) ∧
      (∀ a, a ≠ b → w'.heap a = w.heap a) ∧ w'.total_nb_allocs = w.total_nb_allocs := by
  have hd : dtor env w this = _ := dtor_shared hst hwf.1 hwf.2.1 hwf.2.2 hblk
  rw [hheap, if_pos rfl] at hd
  by_cases h1 : pre_decrement c = 0
  · rw [if_pos h1, hobj h1, if_pos rfl] at hd
    refine ⟨_, hd, pre_decrement_eq, fun _ => ⟨by simp, rfl⟩, fun h => absurd h1 h,
      wr_mem_self _ _ _, fun a ha => wr_mem_other _ _ ha, ?_, rfl⟩
    intro a ha
    simp [free_data_heap_other _ ha, wr_data_heap_other _ _ ha]
  · rw [if_neg h1] at hd
    refine ⟨_, hd, pre_decrement_eq, fun h => absurd h h1, fun _ => ⟨by simp, rfl⟩,
      wr_mem_self _ _ _, fun a ha => wr_mem_other _ _ ha, ?_, rfl⟩
    intro a ha
    simp [wr_data_heap_other _ _ ha]

/-- Witness for C17: the handle at 30000 is the last sharer of the block at 50000. -/
theorem C17_destroy_shared_decrements_witness :
    ∃ w', dtor env0 (World.sharer_at 30000 20000 50000 1) 30000 = Except.ok w' ∧
      (0 < 1 → 1 < UINT → pre_decrement 1 = 1 - 1) ∧
      (pre_decrement 1 = 0 → w'.heap 50000 = none ∧
        w'.deleted = (77, 20000) :: (World.sharer_at 30000 20000 50000 1).deleted) ∧
      (pre_decrement 1 ≠ 0 → w'.heap 50000 = some ⟨pre_decrement 1, 77⟩ ∧
        w'.deleted = (World.sharer_at 30000 20000 50000 1).deleted) ∧
      w'.mem 30000 = some ⟨0, 0⟩ ∧
      (∀ a, a ≠ 30000 → w'.mem a = (World.sharer_at 30000 20000 50000 1).mem a) ∧
      (∀ a, a ≠ 50000 → w'.heap a = (World.sharer_at 30000 20000 50000 1).heap a) ∧
      w'.total_nb_allocs = (World.sharer_at 30000 20000 50000 1).total_nb_allocs :=
  C17_destroy_shared_decrements env0 (World.sharer_at 30000 20000 50000 1) 30000 20000 50000 1
    77 (wr_mem_self _ _ _)
    ⟨objAddr_of (by decide) (by decide), by decide, addr62_of_lt (by decide)⟩
    (by simp [World.sharer_at]) (by decide) (fun _ => by decide)

/-- C18. The destructor of a handle in `Owning` state: it completes, invokes the deleter
the handle holds once, on the object address the handle stores, and clears both words of
the handle; no other handle, no block and no counter changes. -/
theorem C18_destroy_owner_deletes (env : Env) (w : World) (this o d : Nat)
    (hst : w.in_state this (State.Owning o d)) (hwf : (State.Owning o d).wf)
    (hobj : is_address_in_cpp_heap env o = true) :
    ∃ w', dtor env w this = Except.ok w' ∧ w'.deleted = (d, o) :: w.deleted ∧
      w'.mem this = some ⟨0, 0⟩ ∧ (∀ a, a ≠ this → w'.mem a = w.mem a) ∧
      w'.heap = w.heap ∧ w'.total_nb_allocs = w.total_nb_allocs :=
  ⟨_, dtor_owner hst hwf hobj, rfl, wr_mem_self _ _ _, fun _ ha => wr_mem_other _ _ ha, rfl,
    rfl⟩

/-- Witness for C18: the owner at 1900 of the object at 20000. -/
theorem C18_destroy_owner_deletes_witness :
    ∃ w', dtor env0 (World.owner_at 1900 20000) 1900 = Except.ok w' ∧
      w'.deleted = (77, 20000) :: (World.owner_at 1900 20000).deleted ∧
      w'.mem 1900 = some ⟨0, 0⟩ ∧
      (∀ a, a ≠ 1900 → w'.mem a = (World.owner_at 1900 20000).mem a) ∧
      w'.heap = (World.owner_at 1900 20000).heap ∧
      w'.total_nb_allocs = (World.owner_at 1900 20000).total_nb_allocs :=
  C18_destroy_owner_deletes env0 (World.owner_at 1900 20000) 1900 20000 77 (wr_mem_self _ _ _)
    ⟨objAddr_of (by decide) (by decide), addr62_of_lt (by decide)⟩ (by decide)

/-- C19. The destructor of a handle in `LinkedToStack` state, resident in the stack,
whose root `r` is alive and stores the same object: it completes, invokes no deleter,
changes no block (so no reference count) and no handle but the destroyed one, the root
included; both words of the destroyed handle are cleared. -/
theorem C19_destroy_linked_changes_nothing_else (env : Env) (w : World) (this o r a2 : Nat)
    (hst : w.in_state this (State.LinkedToStack o r)) (hwf : (State.LinkedToStack o r).wf)
    (hres : stack_resident env this) (hroot : w.mem r = some ⟨o, a2⟩)
    (hobj : is_address_in_cpp_heap env o = true) :
    ∃ w', dtor env w this = Except.ok w' ∧ w'.deleted = w.deleted ∧ w'.heap = w.heap ∧
      w'.total_nb_allocs = w.total_nb_allocs ∧ (∀ a, a ≠ this → w'.mem a = w.mem a) ∧
      (r ≠ this → w'.mem r = some ⟨o, a2⟩) ∧ w'.mem this = some ⟨0, 0⟩ := by
  refine ⟨w.wr this ⟨0, 0⟩, ?_, rfl, rfl, rfl, fun _ ha => wr_mem_other _ _ ha, ?_,
    wr_mem_self _ _ _⟩
  · rw [dtor_linked hst hwf.1 hwf.2 hroot hwf.1]
    simp [hres.1, hres.2, hobj]
  · intro hne
    rw [wr_mem_other _ _ hne]
    exact hroot

/-- Witness for C19: the handle at 1800 is linked to the owner at 1900 of the object at
20000, both in the stack. -/
theorem C19_destroy_linked_changes_nothing_else_witness :
    ∃ w', dtor env0
        ((World.owner_at 1900 20000).wr 1800 (State.LinkedToStack 20000 1900).words) 1800 =
          Except.ok w' ∧
      w'.deleted =
        ((World.owner_at 1900 20000).wr 1800 (State.LinkedToStack 20000 1900).words).deleted ∧
      w'.heap =
        ((World.owner_at 1900 20000).wr 1800 (State.LinkedToStack 20000 1900).words).heap ∧
      w'.total_nb_allocs =
        ((World.owner_at 1900 20000).wr 1800
          (State.LinkedToStack 20000 1900).words).total_nb_allocs ∧
      (∀ a, a ≠ 1800 → w'.mem a =
        ((World.owner_at 1900 20000).wr 1800 (State.LinkedToStack 20000 1900).words).mem a) ∧
      (1900 ≠ 1800 → w'.mem 1900 = some ⟨20000, 77 ||| IsDeleterPtr⟩) ∧
      w'.mem 1800 = some ⟨0, 0⟩ :=
  C19_destroy_linked_changes_nothing_else env0
    ((World.owner_at 1900 20000).wr 1800 (State.LinkedToStack 20000 1900).words) 1800 20000 1900
    (77 ||| IsDeleterPtr) (wr_mem_self _ _ _)
    ⟨objAddr_of (by decide) (by decide), addr62_of_lt (by decide)⟩ ⟨by decide, by decide⟩
    (by rw [wr_mem_other _ _ (by decide)]; exact wr_mem_self _ _ _) (by decide)

end Hybrid

namespace Hybrid

open versatile_ptr

/-! ## Claims about runs -/

/-- C20, counterexample. The program `sharing_program (UINT - 2)`, of `2 ^ 32`
operations, respects scope discipline and completes; afterwards `2 ^ 32` live handles
reference the block at 50000, and its count, an `unsigned int` incremented `2 ^ 32 - 1`
times from 1, is 0. -/
theorem C20_counter_wraps_counterexample :
    ∃ w', run env0 World.empty (sharing_program (UINT - 2)) = Except.ok w' ∧
      program_ok env0 Ghost.init (sharing_program (UINT - 2)) ∧
      (sharing_program (UINT - 2)).length = UINT ∧
      w'.mem 1900 = some ⟨20000, 50000⟩ ∧ w'.heap 50000 = some ⟨0, 77⟩ ∧
      w'.sharers_of (ghost_after Ghost.init (sharing_program (UINT - 2))).live 50000 =
        UINT := by
  obtain ⟨w, hw, hp, hh, -, hl, h19, -, hsup, -⟩ := sharing_state (UINT - 2) (by decide)
  have e : UINT - 2 + 2 = UINT := by decide
  refine ⟨w, hw, hp, ?_, (hsup 1900 h19).1, ?_, ?_⟩
  · rw [sharing_program_length]
    exact e
  · rw [hh, e, Nat.mod_self]
  · rw [sharers_of_all (fun a ha => ⟨20000, (hsup a ha).1⟩), hl]
    exact e

/-- C20, amended. In every state reached from the initial state under scope discipline
with fewer than `2 ^ 32 - 1` handles alive at every point, the count of every block is the
number of live handles that reference the block, and is not zero; and the block of every
live handle in `SharedCounted` state is allocated, so its count is that number, and is
not zero. -/
theorem C20_ref_count_is_number_of_sharers (env : Env) (hdel : Addr62 env.deleter)
    (ops : List Op) (w' : World) (hp : program_ok env Ghost.init ops)
    (hb : bounded_live Ghost.init ops) (hr : run env World.empty ops = Except.ok w') :
    (∀ b c dl, w'.heap b = some ⟨c, dl⟩ →
      c = w'.sharers_of (ghost_after Ghost.init ops).live b ∧ 0 < c) ∧
    ∀ p o b, p ∈ (ghost_after Ghost.init ops).live → w'.mem p = some ⟨o, b⟩ →
      is_shared_data b = true →
      ∃ c dl, w'.heap b = some ⟨c, dl⟩ ∧
        c = w'.sharers_of (ghost_after Ghost.init ops).live b ∧ 0 < c := by
  obtain ⟨A, hA⟩ := run_inv hdel ops _ _ _ (Inv.init env) hp
    hb w' hr
  constructor
  · intro b c dl hb
    have := hA.count_eq hb
    exact ⟨this.1, this.2.1⟩
  · intro p o b hpl hm hb
    obtain ⟨c, h1, h2, h3⟩ := hA.block_of_sharer hpl hm hb
    exact ⟨c, _, h1, h2, h3⟩

/-- Witness for C20: the program with three sharers of the block at 50000. -/
theorem C20_ref_count_is_number_of_sharers_witness :
    ∃ w', run env0 World.empty (sharing_program 1) = Except.ok w' ∧
      (∀ b c dl, w'.heap b = some ⟨c, dl⟩ →
        c = w'.sharers_of (ghost_after Ghost.init (sharing_program 1)).live b ∧ 0 < c) ∧
      ∀ p o b, p ∈ (ghost_after Ghost.init (sharing_program 1)).live →
        w'.mem p = some ⟨o, b⟩ → is_shared_data b = true →
        ∃ c dl, w'.heap b = some ⟨c, dl⟩ ∧
          c = w'.sharers_of (ghost_after Ghost.init (sharing_program 1)).live b ∧ 0 < c :=
  (ok_of_isOk (by decide : (run env0 World.empty (sharing_program 1)).isOk = true)).elim
    (fun w' h => ⟨w', h, C20_ref_count_is_number_of_sharers env0 (addr62_of_lt (by decide))
      (sharing_program 1) w'
      (by simp [sharing_program, program_ok, Op.disciplined, Op.well_formed, Op.ghost,
        Ghost.init, Addr62, ObjAddr])
      (bounded_live_of_length _ _ (by decide)) h⟩)

/-- C11, the code at the failing input. The handle at 30000, in the heap, owns the object
at 20000 and is copied to the handle at 1800, in the stack, which cross-links the two;
while that copy is alive the handle at 30000 is copied again, to the handle at 1700, in the
same stack, below the first copy. The program respects scope discipline; the second copy
does not become `LinkedToStack`: it stops on `assert(this > crosslink)`, and so does the
program. -/
theorem C11_second_stack_copy_below_partner_aborts :
    program_ok env0 Ghost.init [Op.construct 30000 20000, Op.copy_construct 1800 30000 none,
      Op.copy_construct 1700 30000 none] ∧
    (∃ w, run env0 World.empty [Op.construct 30000 20000, Op.copy_construct 1800 30000 none] =
        Except.ok w ∧ w.in_state 30000 (State.CrossLinkedHeap 1800 77) ∧
        w.in_state 1800 (State.CrossLinkedStack 20000 30000) ∧
        stack_resident env0 1700 ∧ w.mem 1700 = none ∧
        copy_ctor env0 w 1700 30000 none = Except.error Fault.assertion) ∧
    run env0 World.empty [Op.construct 30000 20000, Op.copy_construct 1800 30000 none,
      Op.copy_construct 1700 30000 none] = Except.error Fault.assertion := by
  refine ⟨?_, ?_, by rfl⟩
  · simp [program_ok, Op.disciplined, Op.well_formed, Op.ghost, Ghost.init, Addr62, ObjAddr]
  · obtain ⟨w, hw⟩ := ok_of_isOk (by decide :
      (run env0 World.empty [Op.construct 30000 20000,
        Op.copy_construct 1800 30000 none]).isOk = true)
    have hf : (match run env0 World.empty [Op.construct 30000 20000,
        Op.copy_construct 1800 30000 none] with
      | Except.ok w => decide (w.mem 30000 = some (State.CrossLinkedHeap 1800 77).words ∧
          w.mem 1800 = some (State.CrossLinkedStack 20000 30000).words ∧ w.mem 1700 = none)
      | Except.error _ => false) = true := by decide
    rw [hw] at hf
    simp only [decide_eq_true_eq] at hf
    refine ⟨w, hw, hf.1, hf.2.1, ⟨by decide, by decide⟩, hf.2.2, ?_⟩
    rw [copy_ctor_cross_heap_stack hf.1 (addr62_of_lt (by decide)) hf.2.1
      (objAddr_of (by decide) (by decide)) (addr62_of_lt (by decide)) (by decide) (by decide)
      (by decide)]
    rfl

/-- Runs that complete. The handle `g`, in the C++ heap, is constructed for the object
`t`; then any number of handles resident in the stack are copied directly from `g`, and
handles are destroyed, in any order that respects scope discipline. In every state such
a run reaches: no block has been allocated (`total_nb_allocs` is 0 and there is no
block); nothing but `t` has been deleted, `t` at most once, and exactly once when no
handle is alive any more; and while `g` is cross-linked with the stack handle `s`, a
further copy of `g` into a free handle resident in the stack at a higher address than `s`
completes, makes the new handle `LinkedToStack` with root `s`, and allocates no block. -/
theorem stack_copies_of_heap_owner (env : Env) (hdel : Addr62 env.deleter) (g t : Nat)
    (ops : List Op) (w' : World) (ht : t ≠ 0) (hobj : is_address_in_cpp_heap env t = true)
    (hg : is_address_in_cpp_heap env g = true)
    (hops : ∀ op ∈ ops, (∃ this nb, op = Op.copy_construct this g nb ∧
      stack_resident env this) ∨ ∃ p, op = Op.destruct p)
    (hp : program_ok env Ghost.init (Op.construct g t :: ops))
    (hr : run env World.empty (Op.construct g t :: ops) = Except.ok w') :
    w'.total_nb_allocs = 0 ∧ (∀ b, w'.heap b = none) ∧
    (∀ x ∈ w'.deleted, x = (env.deleter, t)) ∧ w'.deleted.count (env.deleter, t) ≤ 1 ∧
    ((ghost_after Ghost.init (Op.construct g t :: ops)).live = [] →
      w'.deleted = [(env.deleter, t)]) ∧
    ∀ s d this nb, w'.in_state g (State.CrossLinkedHeap s d) →
      (State.CrossLinkedHeap s d).wf → w'.mem this = none → Addr62 this →
      stack_resident env this → s < this →
      ∃ w2, step env w' (Op.copy_construct this g nb) = Except.ok w2 ∧
        w2.in_state this (State.LinkedToStack t s) ∧ w2.total_nb_allocs = 0 ∧
        (∀ b, w2.heap b = none) ∧ ∀ a, a ≠ this → w2.mem a = w'.mem a := by
  have htargets : ∀ this other nb, Op.copy_construct this other nb ∈ Op.construct g t :: ops →
      is_address_in_stack env this = true := by
    intro this other nb hm
    rcases List.mem_cons.mp hm with e | hm
    · cases e
    · rcases hops _ hm with ⟨th, n, e, hres⟩ | ⟨q, e⟩
      · injection e with e1 e2 e3
        rw [e1]
        exact hres.1
      · cases e
  obtain ⟨A, hA, hsh⟩ := run_inv_no_alloc hdel _ _ _ _ (Inv.init env) rfl hp htargets w' hr
  have hobjs : (ghost_after Ghost.init (Op.construct g t :: ops)).objects = [t] := by
    show (ghost_after ((Op.construct g t).ghost Ghost.init) ops).objects = [t]
    rw [ghost_objects_of_no_construct]
    · simp [Op.ghost, Ghost.init, ht]
    · intro op hop this t2 e
      rcases hops _ hop with ⟨th, n, e2, -⟩ | ⟨q, e2⟩ <;> rw [e] at e2 <;> cases e2
  have htot : w'.total_nb_allocs = 0 := by
    rw [hA.allocs, hsh]
    rfl
  have hheap : ∀ b, w'.heap b = none := by
    intro b
    by_contra hb
    obtain ⟨o, ho⟩ := hA.blocks b hb
    have := hA.shared_block o b ho
    rw [hsh] at this
    cases this
  have hall : ∀ x ∈ w'.deleted, x = (env.deleter, t) := by
    intro x hx
    obtain ⟨h1, h2, -⟩ := hA.deleted_mem hx
    rw [hobjs, List.mem_singleton] at h2
    rw [← h1, ← h2]
  refine ⟨htot, hheap, hall, ?_, ?_, ?_⟩
  · rw [hA.deleted_count t]
    split <;> omega
  · intro hl
    apply eq_singleton_of_count hall
    rw [hA.deleted_count t, if_pos (hA.gone_of_no_live hl (by rw [hobjs]; simp))]
  · intro s d this nb hst hwf hfree haddr hres habove
    have hgl := hA.live_of_mem hst
    have hgs := hA.cross_heap_state hgl hst hwf
    have hgood := hA.good hgl
    rw [hgs] at hgood
    obtain ⟨-, -, hsl, hgss, hown⟩ := hgood
    have hobjg : (ghost_after Ghost.init (Op.construct g t :: ops)).object_of g = t := by
      have : (ghost_after Ghost.init (Op.construct g t :: ops)).object_of g ∈
          (ghost_after Ghost.init (Op.construct g t :: ops)).objects := by
        by_contra hn
        rw [(hA.own_unborn _).mpr hn] at hown
        cases hown
      rw [hobjs, List.mem_singleton] at this
      exact this
    rw [hobjg] at hgss
    have hms := hA.words hsl
    have hwfs := hA.wf hsl
    have hgoods := hA.good hsl
    rw [hgss] at hms hwfs hgoods
    have hne : this ≠ g := fun e => hA.not_live hfree (e ▸ hgl)
    have hnes : this ≠ s := Nat.ne_of_gt habove
    have hstep : step env w' (Op.copy_construct this g nb) = copy_ctor env w' this g nb := by
      have hnb : nb.bind w'.heap = none := by
        cases nb with
        | none => rfl
        | some x => exact hheap x
      simp [step, hfree, hnb]
    refine ⟨w'.wr this ⟨t, s ||| IsLinkedPtr⟩, ?_, wr_mem_self _ _ _, htot, hheap,
      fun a ha => wr_mem_other _ _ ha⟩
    rw [hstep, copy_ctor_cross_heap_stack hst hwf.1 hms hwfs.1 (hA.addr hgl) hne hnes hres.1]
    simp [not_in_stack_of_heap hg, hg, hgoods.2.1.1, hgoods.2.1.2, habove, hres.2, hobj]

/-- An instance: the owner at 30000, in the heap, of the object at 20000 is copied to
the handles at 1800 and 1900, in the stack; then the owner is destroyed, then the two
copies, the later one first. -/
theorem stack_copies_of_heap_owner_example :
    ∃ w', run env0 World.empty (Op.construct 30000 20000 ::
        [Op.copy_construct 1800 30000 none, Op.copy_construct 1900 30000 none,
          Op.destruct 30000, Op.destruct 1900, Op.destruct 1800]) = Except.ok w' ∧
      (w'.total_nb_allocs = 0 ∧ (∀ b, w'.heap b = none) ∧
      (∀ x ∈ w'.deleted, x = (env0.deleter, 20000)) ∧
      w'.deleted.count (env0.deleter, 20000) ≤ 1 ∧
      ((ghost_after Ghost.init (Op.construct 30000 20000 ::
        [Op.copy_construct 1800 30000 none, Op.copy_construct 1900 30000 none,
          Op.destruct 30000, Op.destruct 1900, Op.destruct 1800])).live = [] →
        w'.deleted = [(env0.deleter, 20000)]) ∧
      ∀ s d this nb, w'.in_state 30000 (State.CrossLinkedHeap s d) →
        (State.CrossLinkedHeap s d).wf → w'.mem this = none → Addr62 this →
        stack_resident env0 this → s < this →
        ∃ w2, step env0 w' (Op.copy_construct this 30000 nb) = Except.ok w2 ∧
          w2.in_state this (State.LinkedToStack 20000 s) ∧ w2.total_nb_allocs = 0 ∧
          (∀ b, w2.heap b = none) ∧ ∀ a, a ≠ this → w2.mem a = w'.mem a) :=
  (ok_of_isOk (by decide : (run env0 World.empty (Op.construct 30000 20000 ::
        [Op.copy_construct 1800 30000 none, Op.copy_construct 1900 30000 none,
          Op.destruct 30000, Op.destruct 1900, Op.destruct 1800])).isOk = true)).elim
    (fun w' h => ⟨w', h, stack_copies_of_heap_owner env0 (addr62_of_lt (by decide)) 30000
      20000 _ w' (by decide) (by decide) (by decide)
      (by simp [stack_resident, env0_stack, ptr_addr])
      (by simp [program_ok, Op.disciplined, Op.well_formed, Op.ghost, Ghost.init, Addr62,
        ObjAddr, env0_stack])
      h⟩)

end Hybrid

namespace Hybrid

open versatile_ptr

/-! ## Claims about whole runs: deletion, dereference, allocation -/

/-- C1, counterexample. The program `block_reuse_program` followed by the destruction of
every handle still alive, the most recently created first, respects scope discipline and
ends with every handle destroyed. Its first part completes, and by then the deleter has
been invoked twice on the object at 20000: once when the count of the block at 50000,
wrapped to 1 by `2 ^ 32 + 1` sharers, came to 0, and once more when the block, freed and
allocated again at the same address for the object at 20016, was brought to 0 by two
handles of the object at 20000. The deleter has not been invoked on the object at 20016,
and the destruction that follows stops in the first destructor, which reads the count of
a block that is not allocated. -/
theorem C1_deleter_invoked_twice_counterexample :
    program_ok env0 Ghost.init (block_reuse_program ++ destroy_all block_reuse_program) ∧
    (ghost_after Ghost.init
      (block_reuse_program ++ destroy_all block_reuse_program)).live = [] ∧
    (ghost_after Ghost.init
      (block_reuse_program ++ destroy_all block_reuse_program)).objects = [20016, 20000] ∧
    (∃ w, run env0 World.empty block_reuse_program = Except.ok w ∧
      w.deleted = [(env0.deleter, 20000), (env0.deleter, 20000)] ∧
      w.deleted.count (env0.deleter, 20000) = 2 ∧
      w.deleted.count (env0.deleter, 20016) = 0) ∧
    run env0 World.empty (block_reuse_program ++ destroy_all block_reuse_program) =
      Except.error Fault.invalid := by
  obtain ⟨w, hw, hp, hobjs, ⟨l, hlive, -⟩, -, hm, hh, hdl⟩ := block_reuse_state
  obtain ⟨hd1, hd2, hd3⟩ := destroy_all_ok env0 block_reuse_program hp
  have hc1 : w.deleted.count (env0.deleter, 20000) = 2 := by rw [hdl]; decide
  have hc2 : w.deleted.count (env0.deleter, 20016) = 0 := by rw [hdl]; decide
  refine ⟨hd1, hd2, hd3.trans hobjs, ?_, ?_⟩
  · exact ⟨w, hw, hdl, hc1, hc2⟩
  · rw [run_append_ok hw]
    unfold destroy_all
    rw [hlive, List.map_cons]
    have hd : dtor env0 w 30008 = _ :=
      dtor_shared_freed hm (objAddr_of (by decide) (by decide)) (by decide)
        (addr62_of_lt (by decide)) hh
    rw [if_pos (by decide)] at hd
    simp only [run, step, hd, error_bind]

/-- C1, amended. A run from the initial state, under scope discipline, with fewer than
`2 ^ 32 - 1` handles alive at every point, that completes and leaves no handle alive: the
deleter has been invoked
exactly once on every object given to `construct` (once with the deleter `env.deleter`,
and once in all), and on nothing else; no handle and no block is left. -/
theorem C1_deleter_invoked_exactly_once (env : Env) (hdel : Addr62 env.deleter)
    (ops : List Op) (w' : World) (hp : program_ok env Ghost.init ops)
    (hb : bounded_live Ghost.init ops) (hr : run env World.empty ops = Except.ok w')
    (hend : (ghost_after Ghost.init ops).live = []) :
    (∀ t ∈ (ghost_after Ghost.init ops).objects,
      w'.deleted.count (env.deleter, t) = 1 ∧ w'.deleted.countP (fun x => x.2 == t) = 1) ∧
    (∀ x ∈ w'.deleted, x.1 = env.deleter ∧ x.2 ∈ (ghost_after Ghost.init ops).objects) ∧
    (∀ p, w'.mem p = none) ∧ ∀ b, w'.heap b = none := by
  obtain ⟨A, hA⟩ := run_inv hdel ops _ _ _ (Inv.init env) hp
    hb w' hr
  have hcount : ∀ t, w'.deleted.countP (fun x => x.2 == t) =
      w'.deleted.count (env.deleter, t) := by
    intro t
    unfold List.count
    apply List.countP_congr
    intro x hx
    have h1 := hA.deleted_fn x hx
    constructor
    · intro h2
      have h3 : x.2 = t := by simpa using h2
      have : x = (env.deleter, t) := by rw [← h1, ← h3]
      simp [this]
    · intro h2
      have h3 : x = (env.deleter, t) := by simpa using h2
      simp [h3]
  refine ⟨?_, ?_, ?_, ?_⟩
  · intro t ht
    have h1 : w'.deleted.count (env.deleter, t) = 1 := by
      rw [hA.deleted_count t, if_pos (hA.gone_of_no_live hend ht)]
    exact ⟨h1, by rw [hcount t, h1]⟩
  · intro x hx
    have := hA.deleted_mem hx
    exact ⟨this.1, this.2.1⟩
  · intro p
    by_contra hne
    have := (hA.mem_iff p).mpr hne
    rw [hend] at this
    cases this
  · intro b
    by_contra hne
    obtain ⟨o, ho⟩ := hA.blocks b hne
    obtain ⟨-, -, -, h4, -⟩ := hA.own_block o b ho
    rw [hend] at h4
    simp [sharers] at h4

/-- Witness for C1: the owner at 1900, in the stack, of the object at 20000 is copied to
30000, in the heap, which creates the block at 50000, and to 1800, in the stack; then the
three handles are destroyed. -/
theorem C1_deleter_invoked_exactly_once_witness :
    ∃ w', run env0 World.empty [Op.construct 1900 20000,
        Op.copy_construct 30000 1900 (some 50000), Op.copy_construct 1800 1900 none,
        Op.destruct 1800, Op.destruct 1900, Op.destruct 30000] = Except.ok w' ∧
      ((∀ t ∈ (ghost_after Ghost.init [Op.construct 1900 20000,
          Op.copy_construct 30000 1900 (some 50000), Op.copy_construct 1800 1900 none,
          Op.destruct 1800, Op.destruct 1900, Op.destruct 30000]).objects,
        w'.deleted.count (env0.deleter, t) = 1 ∧
          w'.deleted.countP (fun x => x.2 == t) = 1) ∧
      (∀ x ∈ w'.deleted, x.1 = env0.deleter ∧
        x.2 ∈ (ghost_after Ghost.init [Op.construct 1900 20000,
          Op.copy_construct 30000 1900 (some 50000), Op.copy_construct 1800 1900 none,
          Op.destruct 1800, Op.destruct 1900, Op.destruct 30000]).objects) ∧
      (∀ p, w'.mem p = none) ∧ ∀ b, w'.heap b = none) :=
  (ok_of_isOk (by decide : (run env0 World.empty [Op.construct 1900 20000,
        Op.copy_construct 30000 1900 (some 50000), Op.copy_construct 1800 1900 none,
        Op.destruct 1800, Op.destruct 1900, Op.destruct 30000]).isOk = true)).elim
    (fun w' h => ⟨w', h, C1_deleter_invoked_exactly_once env0 (addr62_of_lt (by decide)) _ w'
      (by simp [program_ok, Op.disciplined, Op.well_formed, Op.ghost, Ghost.init, Addr62,
        ObjAddr, env0_stack])
      (bounded_live_of_length _ _ (by decide)) h
      (by simp [ghost_after, Op.ghost, Ghost.init])⟩)

/-- C2, counterexample. The program `use_after_free_program` respects scope discipline
and completes: `2 ^ 32 + 1` handles share one block, whose count has wrapped to 1, so the
end of one of them deletes the object at 20000 and frees the block. The handle at 1900,
made for that object, is still alive, still in `SharedCounted` state, and `operator->` on
it yields the address of the deleted object. -/
theorem C2_counter_wraps_counterexample :
    ∃ w', run env0 World.empty use_after_free_program = Except.ok w' ∧
      program_ok env0 Ghost.init use_after_free_program ∧
      1900 ∈ (ghost_after Ghost.init use_after_free_program).live ∧
      (ghost_after Ghost.init use_after_free_program).object_of 1900 = 20000 ∧
      w'.in_state 1900 (State.SharedCounted 20000 50000) ∧
      (77, 20000) ∈ w'.deleted ∧ arrow env0 w' 1900 = Except.ok 20000 := by
  obtain ⟨w', h1, h2, h3, h4, h5, -, h7⟩ := use_after_free_state
  refine ⟨w', h1, h2, h3, h4, h5, by rw [h7]; simp, ?_⟩
  rw [arrow_obj h5 (objAddr_of (by decide) (by decide))]
  rfl

/-- C2, amended. In every state reached from the initial state under scope discipline
with fewer than `2 ^ 32 - 1` handles alive at every point, for every live handle made for
an object: no deleter
has been invoked on that object, and `operator->` on the handle yields the object
(which is in the C++ heap, as `obj()` asserts). -/
theorem C2_no_use_after_free (env : Env) (hdel : Addr62 env.deleter)
    (ops : List Op) (w' : World) (hp : program_ok env Ghost.init ops)
    (hb : bounded_live Ghost.init ops) (hr : run env World.empty ops = Except.ok w') :
    ∀ p ∈ (ghost_after Ghost.init ops).live, (ghost_after Ghost.init ops).object_of p ≠ 0 →
      (∀ d, (d, (ghost_after Ghost.init ops).object_of p) ∉ w'.deleted) ∧
      (is_address_in_cpp_heap env ((ghost_after Ghost.init ops).object_of p) = true →
        arrow env w' p = Except.ok ((ghost_after Ghost.init ops).object_of p)) := by
  obtain ⟨A, hA⟩ := run_inv hdel ops _ _ _ (Inv.init env) hp
    hb w' hr
  intro p hpl ho
  exact ⟨hA.alive hpl ho, hA.arrow hpl ho⟩

/-- Witness for C2: the program with three sharers of the block at 50000. -/
theorem C2_no_use_after_free_witness :
    ∃ w', run env0 World.empty (sharing_program 1) = Except.ok w' ∧
      ∀ p ∈ (ghost_after Ghost.init (sharing_program 1)).live,
        (ghost_after Ghost.init (sharing_program 1)).object_of p ≠ 0 →
        (∀ d, (d, (ghost_after Ghost.init (sharing_program 1)).object_of p) ∉ w'.deleted) ∧
        (is_address_in_cpp_heap env0
            ((ghost_after Ghost.init (sharing_program 1)).object_of p) = true →
          arrow env0 w' p =
            Except.ok ((ghost_after Ghost.init (sharing_program 1)).object_of p)) :=
  (ok_of_isOk (by decide : (run env0 World.empty (sharing_program 1)).isOk = true)).elim
    (fun w' h => ⟨w', h, C2_no_use_after_free env0 (addr62_of_lt (by decide))
      (sharing_program 1) w'
      (by simp [sharing_program, program_ok, Op.disciplined, Op.well_formed, Op.ghost,
        Ghost.init, Addr62, ObjAddr])
      (bounded_live_of_length _ _ (by decide)) h⟩)

/-- C3. The handle `r`, in the stack, is constructed for the object `t`; then handles in
the stack are copied from live handles, and handles are destroyed, under scope
discipline. In every state such a run reaches no block has been allocated
(`total_nb_allocs` has its initial value 0 and there is no block); while `r` is alive
nothing has been deleted; and once `r` has been destroyed no handle is alive and `t` has
been deleted exactly once, nothing else. -/
theorem C3_stack_only_never_allocates (env : Env) (hdel : Addr62 env.deleter) (r t : Nat)
    (ops : List Op) (w' : World) (ht : t ≠ 0) (hrs : is_address_in_stack env r = true)
    (hops : ∀ op ∈ ops, (∃ this other nb, op = Op.copy_construct this other nb ∧
      is_address_in_stack env this = true) ∨ ∃ p, op = Op.destruct p)
    (hp : program_ok env Ghost.init (Op.construct r t :: ops))
    (hr : run env World.empty (Op.construct r t :: ops) = Except.ok w') :
    w'.total_nb_allocs = 0 ∧ (∀ b, w'.heap b = none) ∧
    (r ∈ (ghost_after Ghost.init (Op.construct r t :: ops)).live → w'.deleted = []) ∧
    (r ∉ (ghost_after Ghost.init (Op.construct r t :: ops)).live →
      (ghost_after Ghost.init (Op.construct r t :: ops)).live = [] ∧
        w'.deleted = [(env.deleter, t)]) := by
  obtain ⟨w1, hs, hr1⟩ := run_cons_ok hr
  obtain ⟨hd, hwf, hp1⟩ := hp
  obtain ⟨A1, h1, hrel⟩ := step_inv hdel (Inv.init env) ((Inv.init env).no_blocks rfl) _ hd hwf
    hs
  have hsh1 : A1.shared = [] := by
    rcases hrel with e | ⟨th, ot, n, e, -, -⟩
    · exact e
    · cases e
  have hg1 : (Op.construct r t).ghost Ghost.init =
      ⟨[r], Function.update (fun _ => 0) r t, [t]⟩ := by
    simp [Op.ghost, Ghost.init, ht]
  obtain ⟨A, hA, hsh, hK⟩ := run_stack_only hdel r t ops w1 _ A1 h1 hsh1 hp1 hops
    (by rw [hg1]; intro p hp; simp only [List.mem_singleton] at hp; rw [hp]; exact hrs)
    (Or.inr ⟨[], by rw [hg1]; rfl, by rw [hg1]; simp⟩) w' hr1
  have hobjs : (ghost_after Ghost.init (Op.construct r t :: ops)).objects = [t] := by
    show (ghost_after ((Op.construct r t).ghost Ghost.init) ops).objects = [t]
    rw [ghost_objects_of_no_construct, hg1]
    intro op hop this t2 e
    rcases hops _ hop with ⟨th, ot, n, e2, -⟩ | ⟨q, e2⟩ <;> rw [e] at e2 <;> cases e2
  have hA2 : Inv env w' (ghost_after Ghost.init (Op.construct r t :: ops)) A := hA
  have hK2 : (ghost_after Ghost.init (Op.construct r t :: ops)).live = [] ∨
      ∃ l, (ghost_after Ghost.init (Op.construct r t :: ops)).live = l ++ [r] ∧
        (ghost_after Ghost.init (Op.construct r t :: ops)).object_of r = t := hK
  have hall : ∀ x ∈ w'.deleted, x = (env.deleter, t) := by
    intro x hx
    obtain ⟨e1, e2, -⟩ := hA2.deleted_mem hx
    rw [hobjs, List.mem_singleton] at e2
    rw [← e1, ← e2]
  refine ⟨?_, ?_, ?_, ?_⟩
  · rw [hA.allocs, hsh]
    rfl
  · intro b
    by_contra hb
    obtain ⟨o, ho⟩ := hA.blocks b hb
    have := hA.shared_block o b ho
    rw [hsh] at this
    cases this
  · intro hrl
    rcases hK2 with e | ⟨l, -, hobj⟩
    · rw [e] at hrl
      cases hrl
    · have hnot := hA2.alive hrl (by rw [hobj]; exact ht) env.deleter
      rw [hobj] at hnot
      cases hdl : w'.deleted with
      | nil => rfl
      | cons x xs =>
        have hx : x ∈ w'.deleted := by rw [hdl]; exact List.mem_cons_self _ _
        rw [hall x hx] at hx
        exact absurd hx hnot
  · intro hnr
    rcases hK2 with e | ⟨l, hl, -⟩
    · refine ⟨e, eq_singleton_of_count hall ?_⟩
      rw [hA2.deleted_count t, if_pos (hA2.gone_of_no_live e (by rw [hobjs]; simp))]
    · exact absurd (by rw [hl]; simp) hnr

/-- Witness for C3: the scenario of `main`: the owner at 1900 is copied to 1800 in a
nested scope, the copy is destroyed, then the owner. -/
theorem C3_stack_only_never_allocates_witness :
    ∃ w', run env0 World.empty (Op.construct 1900 20000 ::
        [Op.copy_construct 1800 1900 none, Op.destruct 1800, Op.destruct 1900]) =
          Except.ok w' ∧
      (w'.total_nb_allocs = 0 ∧ (∀ b, w'.heap b = none) ∧
      (1900 ∈ (ghost_after Ghost.init (Op.construct 1900 20000 ::
        [Op.copy_construct 1800 1900 none, Op.destruct 1800, Op.destruct 1900])).live →
        w'.deleted = []) ∧
      (1900 ∉ (ghost_after Ghost.init (Op.construct 1900 20000 ::
        [Op.copy_construct 1800 1900 none, Op.destruct 1800, Op.destruct 1900])).live →
        (ghost_after Ghost.init (Op.construct 1900 20000 ::
          [Op.copy_construct 1800 1900 none, Op.destruct 1800, Op.destruct 1900])).live = [] ∧
          w'.deleted = [(env0.deleter, 20000)])) :=
  (ok_of_isOk (by decide : (run env0 World.empty (Op.construct 1900 20000 ::
        [Op.copy_construct 1800 1900 none, Op.destruct 1800, Op.destruct 1900])).isOk =
          true)).elim
    (fun w' h => ⟨w', h, C3_stack_only_never_allocates env0 (addr62_of_lt (by decide)) 1900
      20000 _ w' (by decide) (by decide)
      (by simp [env0_stack])
      (by simp [program_ok, Op.disciplined, Op.well_formed, Op.ghost, Ghost.init, Addr62,
        ObjAddr, env0_stack])
      h⟩)

/-- C4. A run from the initial state, under scope discipline, whatever the number of
handles alive: for every object `t`, at most one operation made for `t` allocates a block
(raises `total_nb_allocs`); and in every state the run reaches, all live handles in
`SharedCounted` state that store the same object reference the same block, and
`total_nb_allocs` is at most the number of objects given to `construct`. -/
theorem C4_at_most_one_block_per_object (env : Env) (hdel : Addr62 env.deleter)
    (ops : List Op) (t : Nat) (hp : program_ok env Ghost.init ops) :
    blocks_allocated env t World.empty Ghost.init ops ≤ 1 ∧
    ∀ w', run env World.empty ops = Except.ok w' →
      (∀ p q o b1 b2, p ∈ (ghost_after Ghost.init ops).live →
        q ∈ (ghost_after Ghost.init ops).live →
        w'.mem p = some ⟨o, b1⟩ → w'.mem q = some ⟨o, b2⟩ →
        is_shared_data b1 = true → is_shared_data b2 = true → b1 = b2) ∧
      w'.total_nb_allocs ≤ (ghost_after Ghost.init ops).objects.length := by
  constructor
  · have := blocks_allocated_le hdel t ops _ _ _ (Shape.init_sh env) hp
    omega
  · intro w' hr
    obtain ⟨A, hA⟩ := run_shape hdel ops _ _ _ (Shape.init_sh env) hp w' hr
    constructor
    · intro p q o b1 b2 hpl hql hmp hmq hb1 hb2
      have h1 := hA.good_sh hpl
      have h2 := hA.good_sh hql
      rw [hA.shared_state_sh hpl hmp hb1] at h1
      rw [hA.shared_state_sh hql hmq hb2] at h2
      have := h1.2.symm.trans h2.2
      exact Owner.block.inj this
    · have hsub : A.shared ⊆ (ghost_after Ghost.init ops).objects := by
        intro o ho
        by_contra hn
        have hu := (hA.own_unborn o).mpr hn
        obtain ⟨b, e⟩ := hA.shared_sub o ho
        rw [hu] at e
        cases e
      have hle : A.shared.length ≤ (ghost_after Ghost.init ops).objects.length :=
        (List.subperm_of_subset hA.shared_nodup hsub).length_le
      rw [hA.allocs]
      exact le_trans (Nat.mod_le _ _) hle

/-- Witness for C4: the program with three sharers of the block at 50000; the second
copy into the heap reuses the block created by the first. -/
theorem C4_at_most_one_block_per_object_witness :
    blocks_allocated env0 20000 World.empty Ghost.init (sharing_program 1) ≤ 1 ∧
    ∀ w', run env0 World.empty (sharing_program 1) = Except.ok w' →
      (∀ p q o b1 b2, p ∈ (ghost_after Ghost.init (sharing_program 1)).live →
        q ∈ (ghost_after Ghost.init (sharing_program 1)).live →
        w'.mem p = some ⟨o, b1⟩ → w'.mem q = some ⟨o, b2⟩ →
        is_shared_data b1 = true → is_shared_data b2 = true → b1 = b2) ∧
      w'.total_nb_allocs ≤ (ghost_after Ghost.init (sharing_program 1)).objects.length :=
  C4_at_most_one_block_per_object env0 (addr62_of_lt (by decide)) (sharing_program 1) 20000
    (by simp [sharing_program, program_ok, Op.disciplined, Op.well_formed, Op.ghost,
      Ghost.init, Addr62, ObjAddr])

end Hybrid

namespace Hybrid

open versatile_ptr

/-! ## Claims about every reachable state: the holder of the deleter, links, dereference -/

/-- C21, counterexample. The program `block_reuse_program` respects scope discipline and
completes. In the state it reaches the object at 20016 has been given to `construct` and the
deleter has not been invoked on it; the handle at 1890, made for it, is alive, in
`SharedCounted` state. No live handle made for the object carries the deleter address, and
the one block that its handles reference, at 50000, is not allocated: it was freed when two
handles of the object at 20000, left over by the wrapped count, brought its count to 0. The
object has no holder of its deleter. -/
theorem C21_no_holder_counterexample :
    ∃ w, run env0 World.empty block_reuse_program = Except.ok w ∧
      program_ok env0 Ghost.init block_reuse_program ∧
      20016 ∈ (ghost_after Ghost.init block_reuse_program).objects ∧
      (∀ d, (d, 20016) ∉ w.deleted) ∧
      1890 ∈ (ghost_after Ghost.init block_reuse_program).live ∧
      (ghost_after Ghost.init block_reuse_program).object_of 1890 = 20016 ∧
      w.in_state 1890 (State.SharedCounted 20016 50000) ∧
      w.holders (ghost_after Ghost.init block_reuse_program) 20016 = [] ∧
      w.blocks_of (ghost_after Ghost.init block_reuse_program) 20016 = [50000] ∧
      w.heap 50000 = none := by
  obtain ⟨w, hw, hp, hobjs, ⟨l, hlive, hl⟩, hm1, -, hh, hdl⟩ := block_reuse_state
  obtain ⟨A, hA⟩ := run_shape env0_deleter _ _ _ _ (Shape.init_sh env0) hp w hw
  have h1890 : 1890 ∈ (ghost_after Ghost.init block_reuse_program).live := by
    rw [hlive]
    exact List.mem_cons_of_mem _ hl
  have hs := hA.shared_state_sh h1890 hm1 (by decide)
  have hg := hA.good_sh h1890
  rw [hs] at hg
  obtain ⟨k1, k2⟩ := hA.holders_of_block_sh hg.2 h1890 hs
  refine ⟨w, hw, hp, ?_, ?_, h1890, hg.1, hm1, k1, k2, hh⟩
  · rw [hobjs]; decide
  · intro d hd
    rw [hdl] at hd
    simp at hd

/-- C21, amended. In every state reached from the initial state under scope discipline, with
fewer than `2 ^ 32 - 1` handles alive at every point, every object that was given to `construct`
and has not been deleted has exactly one holder of its deleter: either exactly one live
handle made for it whose second word carries the deleter address (that handle is in
`Owning` state or is the side of a cross-link that is not in the stack) and no block, or no
such handle and exactly one block, which stores the deleter and a positive count. -/
theorem C21_exactly_one_deleter_holder (env : Env) (hdel : Addr62 env.deleter)
    (ops : List Op) (w' : World) (hp : program_ok env Ghost.init ops)
    (hb : bounded_live Ghost.init ops) (hr : run env World.empty ops = Except.ok w') :
    ∀ t ∈ (ghost_after Ghost.init ops).objects, (env.deleter, t) ∉ w'.deleted →
      ((∃ p, w'.holders (ghost_after Ghost.init ops) t = [p] ∧
          (w'.in_state p (State.Owning t env.deleter) ∨
            ∃ s, w'.in_state p (State.CrossLinkedHeap s env.deleter))) ∧
        w'.blocks_of (ghost_after Ghost.init ops) t = []) ∨
      (w'.holders (ghost_after Ghost.init ops) t = [] ∧
        ∃ b c, w'.blocks_of (ghost_after Ghost.init ops) t = [b] ∧
          w'.heap b = some ⟨c, env.deleter⟩ ∧ 0 < c) := by
  obtain ⟨A, hA⟩ := run_inv hdel ops _ _ _ (Inv.init env) hp hb w' hr
  intro t ht hnd
  rcases hA.owner_cases ht hnd with ⟨p, ho⟩ | ⟨b, ho⟩
  · obtain ⟨h1, h2, h3⟩ := hA.holders_of_handle ho
    exact Or.inl ⟨⟨p, h1, h3⟩, h2⟩
  · obtain ⟨h1, h2, c, h3, h4⟩ := hA.holders_of_block ho
    exact Or.inr ⟨h1, b, c, h2, h3, h4⟩

/-- Witness for C21: the handle at 30000, in the heap, is constructed for the object at
20000 and copied to the handle at 1800, in the stack, which cross-links the two; the
handle at 1900, in the stack, is constructed for the object at 21000 and copied to the
handle at 30016, in the heap, which creates the block at 50000. -/
theorem C21_exactly_one_deleter_holder_witness :
    ∃ w', run env0 World.empty [Op.construct 30000 20000, Op.copy_construct 1800 30000 none,
        Op.construct 1900 21000, Op.copy_construct 30016 1900 (some 50000)] = Except.ok w' ∧
      ∀ t ∈ (ghost_after Ghost.init [Op.construct 30000 20000,
          Op.copy_construct 1800 30000 none, Op.construct 1900 21000,
          Op.copy_construct 30016 1900 (some 50000)]).objects,
        (env0.deleter, t) ∉ w'.deleted →
        ((∃ p, w'.holders (ghost_after Ghost.init [Op.construct 30000 20000,
              Op.copy_construct 1800 30000 none, Op.construct 1900 21000,
              Op.copy_construct 30016 1900 (some 50000)]) t = [p] ∧
            (w'.in_state p (State.Owning t env0.deleter) ∨
              ∃ s, w'.in_state p (State.CrossLinkedHeap s env0.deleter))) ∧
          w'.blocks_of (ghost_after Ghost.init [Op.construct 30000 20000,
            Op.copy_construct 1800 30000 none, Op.construct 1900 21000,
            Op.copy_construct 30016 1900 (some 50000)]) t = []) ∨
        (w'.holders (ghost_after Ghost.init [Op.construct 30000 20000,
            Op.copy_construct 1800 30000 none, Op.construct 1900 21000,
            Op.copy_construct 30016 1900 (some 50000)]) t = [] ∧
          ∃ b c, w'.blocks_of (ghost_after Ghost.init [Op.construct 30000 20000,
              Op.copy_construct 1800 30000 none, Op.construct 1900 21000,
              Op.copy_construct 30016 1900 (some 50000)]) t = [b] ∧
            w'.heap b = some ⟨c, env0.deleter⟩ ∧ 0 < c) :=
  (ok_of_isOk (by decide : (run env0 World.empty [Op.construct 30000 20000,
        Op.copy_construct 1800 30000 none, Op.construct 1900 21000,
        Op.copy_construct 30016 1900 (some 50000)]).isOk = true)).elim
    (fun w' h => ⟨w', h, C21_exactly_one_deleter_holder env0 (addr62_of_lt (by decide)) _ w'
      (by simp [program_ok, Op.disciplined, Op.well_formed, Op.ghost, Ghost.init, Addr62,
        ObjAddr, env0_stack])
      (bounded_live_of_length _ _ (by decide)) h⟩)

/-- C22. In every state reached from the initial state under scope discipline, whatever
the number of handles alive: a live handle whose second word carries the `IsLinkedPtr`
mark alone is in `LinkedToStack` state; its link target `r`, which is what
`get_stack_root_ptr` returns for it, is a live handle in the stack whose own second word is
not a plain link, so that `get_stack_root_ptr` on `r` returns `r` itself: no chain of links
is longer than one hop. -/
theorem C22_link_target_is_stack_root (env : Env) (hdel : Addr62 env.deleter)
    (ops : List Op) (w' : World) (hp : program_ok env Ghost.init ops)
    (hr : run env World.empty ops = Except.ok w') :
    ∀ p ∈ (ghost_after Ghost.init ops).live, ∀ h, w'.mem p = some h →
      is_deleter_ptr h.ptr = false → (h.ptr &&& IsLinkedPtr) ≠ 0 →
      ∃ o r hr, w'.in_state p (State.LinkedToStack o r) ∧
        get_stack_root_ptr env w' p = Except.ok r ∧
        r ∈ (ghost_after Ghost.init ops).live ∧ is_address_in_stack env r = true ∧
        w'.mem r = some hr ∧
        ¬ (is_deleter_ptr hr.ptr = false ∧ (hr.ptr &&& IsLinkedPtr) ≠ 0) ∧
        get_stack_root_ptr env w' r = Except.ok r := by
  obtain ⟨A, hA⟩ := run_shape hdel ops _ _ _ (Shape.init_sh env) hp w' hr
  intro p hpl h hm h1 h2
  have hw := hA.words_sh hpl
  have hwf := hA.wf_sh hpl
  have hg := hA.good_sh hpl
  have hh : h = (A.gs p).words := Option.some.inj (hm.symm.trans hw)
  rw [hh] at h1 h2
  obtain ⟨o, r, hs⟩ := (second_word_linked hwf).mp ⟨h1, h2⟩
  rw [hs] at hw hwf hg
  obtain ⟨-, hres, hinr, hsub, -, hroot⟩ := hg
  have hrl : r ∈ (ghost_after Ghost.init ops).live := hsub.subset (by simp)
  have hwr := hA.words_sh hrl
  have hwfr := hA.wf_sh hrl
  have hgr := hA.good_sh hrl
  have hnl : ¬ (is_deleter_ptr (A.gs r).words.ptr = false ∧
      ((A.gs r).words.ptr &&& IsLinkedPtr) ≠ 0) := by
    intro hc
    obtain ⟨o2, r2, e⟩ := (second_word_linked hwfr).mp hc
    rw [e] at hroot
    cases hroot
  have hp1 : get_stack_root_ptr env w' p = Except.ok r := by
    rw [get_stack_root_ptr_linked hw hwf.2, hres.1, hres.2]; rfl
  have hr1 : get_stack_root_ptr env w' r = Except.ok r := by
    cases hsr : A.gs r with
    | Null => rw [hsr] at hroot; cases hroot
    | LinkedToStack o2 r2 => rw [hsr] at hroot; cases hroot
    | CrossLinkedHeap s2 d2 => rw [hsr] at hroot; cases hroot
    | Owning o2 d2 =>
      rw [hsr] at hwr hwfr
      rw [get_stack_root_ptr_del hwr hwfr.2, hinr]; rfl
    | CrossLinkedStack o2 x =>
      rw [hsr] at hwr hwfr hgr
      rw [get_stack_root_ptr_cross hwr hwfr.2, hgr.2.1.1, hgr.2.1.2]; rfl
    | SharedCounted o2 b =>
      rw [hsr] at hwr hwfr
      rw [get_stack_root_ptr_blk hwr hwfr.2.1 hwfr.2.2, hinr]; rfl
  exact ⟨o, r, _, hw, hp1, hrl, hinr, hwr, hnl, hr1⟩

/-- Witness for C22: the handle at 1900, in the stack, owns the object at 20000; it is
copied to the handle at 1800, and that copy to the handle at 1700, both in the stack: both
are linked to the handle at 1900. -/
theorem C22_link_target_is_stack_root_witness :
    ∃ w', run env0 World.empty [Op.construct 1900 20000, Op.copy_construct 1800 1900 none,
        Op.copy_construct 1700 1800 none] = Except.ok w' ∧
      ∀ p ∈ (ghost_after Ghost.init [Op.construct 1900 20000,
          Op.copy_construct 1800 1900 none, Op.copy_construct 1700 1800 none]).live,
        ∀ h, w'.mem p = some h →
        is_deleter_ptr h.ptr = false → (h.ptr &&& IsLinkedPtr) ≠ 0 →
        ∃ o r hr, w'.in_state p (State.LinkedToStack o r) ∧
          get_stack_root_ptr env0 w' p = Except.ok r ∧
          r ∈ (ghost_after Ghost.init [Op.construct 1900 20000,
            Op.copy_construct 1800 1900 none, Op.copy_construct 1700 1800 none]).live ∧
          is_address_in_stack env0 r = true ∧ w'.mem r = some hr ∧
          ¬ (is_deleter_ptr hr.ptr = false ∧ (hr.ptr &&& IsLinkedPtr) ≠ 0) ∧
          get_stack_root_ptr env0 w' r = Except.ok r :=
  (ok_of_isOk (by decide : (run env0 World.empty [Op.construct 1900 20000,
        Op.copy_construct 1800 1900 none, Op.copy_construct 1700 1800 none]).isOk = true)).elim
    (fun w' h => ⟨w', h, C22_link_target_is_stack_root env0 (addr62_of_lt (by decide)) _ w'
      (by simp [program_ok, Op.disciplined, Op.well_formed, Op.ghost, Ghost.init, Addr62,
        ObjAddr, env0_stack])
      h⟩)

/-- C24. In every state reached from the initial state under scope discipline, whatever
the number of handles alive, for every live handle that is not null and was made for an
object in the C++ heap: `operator->` returns the address of that object,
the one given to `construct`; and either the handle is in `Owning`, `LinkedToStack`,
`SharedCounted` state or the stack side of a cross-link, and its own first word is that
address, or it is the side of a cross-link that is not in the stack, `get_crosslinked_ptr`
returns its partner in the stack, and the first word of the partner is that address. -/
theorem C24_dereference_yields_object (env : Env) (hdel : Addr62 env.deleter)
    (ops : List Op) (w' : World) (hp : program_ok env Ghost.init ops)
    (hr : run env World.empty ops = Except.ok w') :
    ∀ p ∈ (ghost_after Ghost.init ops).live, w'.mem p ≠ some ⟨0, 0⟩ →
      is_address_in_cpp_heap env ((ghost_after Ghost.init ops).object_of p) = true →
      (ghost_after Ghost.init ops).object_of p ∈ (ghost_after Ghost.init ops).objects ∧
      arrow env w' p = Except.ok ((ghost_after Ghost.init ops).object_of p) ∧
      ((∃ st, w'.in_state p st ∧ st.wf ∧
          st.object = some ((ghost_after Ghost.init ops).object_of p) ∧
          st.words.ptr_to_obj_or_root_ptr_on_stack =
            (ghost_after Ghost.init ops).object_of p) ∨
        ∃ s d, w'.in_state p (State.CrossLinkedHeap s d) ∧
          get_crosslinked_ptr env w' p = Except.ok s ∧
          w'.in_state s (State.CrossLinkedStack ((ghost_after Ghost.init ops).object_of p) p))
    := by
  obtain ⟨A, hA⟩ := run_shape hdel ops _ _ _ (Shape.init_sh env) hp w' hr
  intro p hpl hnn hheap
  have hw := hA.words_sh hpl
  have hwf := hA.wf_sh hpl
  have hg := hA.good_sh hpl
  have hne : A.gs p ≠ State.Null := by
    intro e
    rw [e] at hw
    exact hnn hw
  have hmem := hA.live_object_mem_sh hpl hne
  have ho : (ghost_after Ghost.init ops).object_of p ≠ 0 := by
    intro e
    rw [e] at hmem
    exact hA.objects_ne hmem
  refine ⟨hmem, hA.arrow_sh hpl ho hheap, ?_⟩
  cases hs : A.gs p with
  | Null => exact absurd hs hne
  | Owning o d =>
    rw [hs] at hwf hg
    exact Or.inl ⟨_, hw, by rw [hs]; exact hwf, by rw [hs, ← hg.1]; rfl, by rw [hs, ← hg.1]; rfl⟩
  | LinkedToStack o r =>
    rw [hs] at hwf hg
    exact Or.inl ⟨_, hw, by rw [hs]; exact hwf, by rw [hs, ← hg.1]; rfl, by rw [hs, ← hg.1]; rfl⟩
  | CrossLinkedStack o x =>
    rw [hs] at hwf hg
    exact Or.inl ⟨_, hw, by rw [hs]; exact hwf, by rw [hs, ← hg.1]; rfl, by rw [hs, ← hg.1]; rfl⟩
  | SharedCounted o b =>
    rw [hs] at hwf hg
    exact Or.inl ⟨_, hw, by rw [hs]; exact hwf, by rw [hs, ← hg.1]; rfl, by rw [hs, ← hg.1]; rfl⟩
  | CrossLinkedHeap s d =>
    rw [hs] at hw hwf hg
    obtain ⟨-, hns, hsl, hgs, -⟩ := hg
    have hws := hA.words_sh hsl
    have hwfs := hA.wf_sh hsl
    have hgs2 := hA.good_sh hsl
    rw [hgs] at hws hwfs hgs2
    refine Or.inr ⟨s, d, hw, ?_, hws⟩
    rw [get_crosslinked_ptr_eq hw hwf.1 hws (hA.addr_sh hpl), hns, hgs2.2.1.1, hgs2.2.1.2]
    rfl

/-- Witness for C24: the handle at 30000, in the heap, is constructed for the object at
20000 and copied to the handle at 1800, in the stack, which cross-links the two, and the
handle at 1800 is copied to the handle at 1700, in the stack. -/
theorem C24_dereference_yields_object_witness :
    ∃ w', run env0 World.empty [Op.construct 30000 20000, Op.copy_construct 1800 30000 none,
        Op.copy_construct 1700 1800 none] = Except.ok w' ∧
      ∀ p ∈ (ghost_after Ghost.init [Op.construct 30000 20000,
          Op.copy_construct 1800 30000 none, Op.copy_construct 1700 1800 none]).live,
        w'.mem p ≠ some ⟨0, 0⟩ →
        is_address_in_cpp_heap env0 ((ghost_after Ghost.init [Op.construct 30000 20000,
          Op.copy_construct 1800 30000 none,
          Op.copy_construct 1700 1800 none]).object_of p) = true →
        (ghost_after Ghost.init [Op.construct 30000 20000,
            Op.copy_construct 1800 30000 none, Op.copy_construct 1700 1800 none]).object_of p ∈
          (ghost_after Ghost.init [Op.construct 30000 20000,
            Op.copy_construct 1800 30000 none, Op.copy_construct 1700 1800 none]).objects ∧
        arrow env0 w' p = Except.ok ((ghost_after Ghost.init [Op.construct 30000 20000,
          Op.copy_construct 1800 30000 none, Op.copy_construct 1700 1800 none]).object_of p) ∧
        ((∃ st, w'.in_state p st ∧ st.wf ∧
            st.object = some ((ghost_after Ghost.init [Op.construct 30000 20000,
              Op.copy_construct 1800 30000 none,
              Op.copy_construct 1700 1800 none]).object_of p) ∧
            st.words.ptr_to_obj_or_root_ptr_on_stack =
              (ghost_after Ghost.init [Op.construct 30000 20000,
                Op.copy_construct 1800 30000 none,
                Op.copy_construct 1700 1800 none]).object_of p) ∨
          ∃ s d, w'.in_state p (State.CrossLinkedHeap s d) ∧
            get_crosslinked_ptr env0 w' p = Except.ok s ∧
            w'.in_state s (State.CrossLinkedStack ((ghost_after Ghost.init
              [Op.construct 30000 20000, Op.copy_construct 1800 30000 none,
                Op.copy_construct 1700 1800 none]).object_of p) p)) :=
  (ok_of_isOk (by decide : (run env0 World.empty [Op.construct 30000 20000,
        Op.copy_construct 1800 30000 none, Op.copy_construct 1700 1800 none]).isOk = true)).elim
    (fun w' h => ⟨w', h, C24_dereference_yields_object env0 (addr62_of_lt (by decide)) _ w'
      (by simp [program_ok, Op.disciplined, Op.well_formed, Op.ghost, Ghost.init, Addr62,
        ObjAddr, env0_stack])
      h⟩)

/-- C25. The constructor run with the pointer `t`, not null, on the storage at `this`:
it completes, the handle at `this` is in `Owning` state, its first word is `t` and
`get_deleter_ptr` on its second word returns the deleter of the managed type;
no block is allocated (`total_nb_allocs` and the blocks are unchanged), nothing is
deleted, and no other handle is modified. -/
theorem C25_construct_yields_owning (env : Env) (w : World) (this t : Nat)
    (ht : ObjAddr t) (hdel : Addr62 env.deleter) :
    ∃ w', ctor env w this t = Except.ok w' ∧
      w'.in_state this (State.Owning t env.deleter) ∧
      (∃ h, w'.mem this = some h ∧ h.ptr_to_obj_or_root_ptr_on_stack = t ∧
        get_deleter_ptr h.ptr = Except.ok env.deleter) ∧
      w'.total_nb_allocs = w.total_nb_allocs ∧ w'.heap = w.heap ∧
      w'.deleted = w.deleted ∧ ∀ p, p ≠ this → w'.mem p = w.mem p := by
  refine ⟨_, ctor_obj ht hdel, wr_mem_self _ _ _, ⟨_, wr_mem_self _ _ _, rfl, ?_⟩, rfl, rfl,
    rfl, fun p hp => wr_mem_other _ _ hp⟩
  exact del_get_deleter_ptr hdel

/-- Witness for C25: the handle at 1900 is constructed for the object at 20000. -/
theorem C25_construct_yields_owning_witness :
    ∃ w', ctor env0 World.empty 1900 20000 = Except.ok w' ∧
      w'.in_state 1900 (State.Owning 20000 env0.deleter) ∧
      (∃ h, w'.mem 1900 = some h ∧ h.ptr_to_obj_or_root_ptr_on_stack = 20000 ∧
        get_deleter_ptr h.ptr = Except.ok env0.deleter) ∧
      w'.total_nb_allocs = World.empty.total_nb_allocs ∧ w'.heap = World.empty.heap ∧
      w'.deleted = World.empty.deleted ∧ ∀ p, p ≠ 1900 → w'.mem p = World.empty.mem p :=
  C25_construct_yields_owning env0 World.empty 1900 20000
    (objAddr_of (by decide) (by decide)) (addr62_of_lt (by decide))

/-- C23. The state `w` is reached from the initial state under scope discipline, whatever
the number of handles alive, and the operation `op` takes it to `w'`. In `w'`, a live handle whose first word carries the `IsLinkedPtr` mark is not in the
stack, holds the deleter, and its link target is a live handle, with both words in the
stack, whose second word is the address of the first handle with the marks `IsLinkedPtr`
and `IsDeleterPtr`; conversely a live handle whose second word carries both marks has both
words in the stack and its target is a live handle, not in the stack, that holds the
deleter and whose first word is the link back. And if the first word of a handle carries
the mark in `w'` and that was not so in `w`, then `op` is a copy from that handle into a
handle in the stack, and in `w` the handle was in `Owning` state, was the one holder
of the deleter of its object, and no live handle made for the object referenced a block. -/
theorem C23_cross_link_is_symmetric (env : Env) (hdel : Addr62 env.deleter)
    (ops : List Op) (op : Op) (w w' : World) (hp : program_ok env Ghost.init ops)
    (hr : run env World.empty ops = Except.ok w)
    (hd : op.disciplined env (ghost_after Ghost.init ops))
    (hwf : op.well_formed (ghost_after Ghost.init ops))
    (hstep : step env w op = Except.ok w') :
    (∀ p ∈ (op.ghost (ghost_after Ghost.init ops)).live, ∀ h, w'.mem p = some h →
      (h.ptr_to_obj_or_root_ptr_on_stack &&& IsLinkedPtr) ≠ 0 →
      is_address_in_stack env p = false ∧
      ∃ s o, w'.in_state p (State.CrossLinkedHeap s env.deleter) ∧
        s ∈ (op.ghost (ghost_after Ghost.init ops)).live ∧ stack_resident env s ∧
        w'.in_state s (State.CrossLinkedStack o p)) ∧
    (∀ s ∈ (op.ghost (ghost_after Ghost.init ops)).live, ∀ h, w'.mem s = some h →
      is_deleter_ptr h.ptr = true → (h.ptr &&& IsLinkedPtr) ≠ 0 →
      stack_resident env s ∧
      ∃ o p, w'.in_state s (State.CrossLinkedStack o p) ∧
        p ∈ (op.ghost (ghost_after Ghost.init ops)).live ∧
        is_address_in_stack env p = false ∧
        w'.in_state p (State.CrossLinkedHeap s env.deleter)) ∧
    (∀ q h', w'.mem q = some h' →
      (h'.ptr_to_obj_or_root_ptr_on_stack &&& IsLinkedPtr) ≠ 0 →
      (¬ ∃ h0, w.mem q = some h0 ∧
        (h0.ptr_to_obj_or_root_ptr_on_stack &&& IsLinkedPtr) ≠ 0) →
      ∃ this nb o, op = Op.copy_construct this q nb ∧
        is_address_in_stack env this = true ∧ is_address_in_stack env q = false ∧
        w.in_state q (State.Owning o env.deleter) ∧
        (ghost_after Ghost.init ops).object_of q = o ∧
        w.holders (ghost_after Ghost.init ops) o = [q] ∧
        w.blocks_of (ghost_after Ghost.init ops) o = []) := by
  obtain ⟨A, hA⟩ := run_shape hdel ops _ _ _ (Shape.init_sh env) hp w hr
  obtain ⟨A', hA', -⟩ := step_shape hdel hA op hd hwf hstep
  refine ⟨?_, ?_, ?_⟩
  · intro p hpl h hm hl
    have hw := hA'.words_sh hpl
    have hwfp := hA'.wf_sh hpl
    have hg := hA'.good_sh hpl
    have hh : h = (A'.gs p).words := Option.some.inj (hm.symm.trans hw)
    rw [hh] at hl
    obtain ⟨s, d, hs⟩ := (first_word_linked hwfp).mp hl
    rw [hs] at hw hg
    obtain ⟨hde, hns, hsl, hgs, -⟩ := hg
    subst hde
    have hws := hA'.words_sh hsl
    have hgs2 := hA'.good_sh hsl
    rw [hgs] at hws hgs2
    exact ⟨hns, s, _, hw, hsl, hgs2.2.1, hws⟩
  · intro s hsl h hm h1 h2
    have hw := hA'.words_sh hsl
    have hwfs := hA'.wf_sh hsl
    have hg := hA'.good_sh hsl
    have hh : h = (A'.gs s).words := Option.some.inj (hm.symm.trans hw)
    rw [hh] at h1 h2
    obtain ⟨o, x, hs⟩ := (second_word_cross hwfs).mp ⟨h1, h2⟩
    rw [hs] at hw hg
    obtain ⟨-, hres, hxl, hgx, -⟩ := hg
    have hwx := hA'.words_sh hxl
    have hgx2 := hA'.good_sh hxl
    rw [hgx] at hwx hgx2
    exact ⟨hres, o, x, hw, hxl, hgx2.2.1, hwx⟩
  · intro q h' hq hl hnot
    rcases step_first_word hdel hA op hwf hstep q h' hq hl with h1 | ⟨this, nb, o, e, h2, h3, h4⟩
    · exact absurd ⟨h', h1, hl⟩ hnot
    · subst e
      obtain ⟨-, -, hc⟩ := step_copy_ok hstep
      have hql := hA.live_of_copy_sh hc
      have hw := hA.words_sh hql
      have hg := hA.good_sh hql
      rw [h4] at hw hg
      obtain ⟨hobj, -, hown⟩ := hg
      obtain ⟨k1, k2, -⟩ := hA.holders_of_handle_sh hown
      exact ⟨this, nb, o, rfl, h2, h3, hw, hobj, k1, k2⟩

/-- Witness for C23: the handle at 30000, in the heap, is constructed for the object at
20000; the operation is its copy to the handle at 1800, in the stack, which creates the
cross-link. -/
theorem C23_cross_link_is_symmetric_witness :
    ∃ w w', run env0 World.empty [Op.construct 30000 20000] = Except.ok w ∧
      step env0 w (Op.copy_construct 1800 30000 none) = Except.ok w' ∧
      ((∀ p ∈ ((Op.copy_construct 1800 30000 none).ghost
          (ghost_after Ghost.init [Op.construct 30000 20000])).live,
        ∀ h, w'.mem p = some h →
        (h.ptr_to_obj_or_root_ptr_on_stack &&& IsLinkedPtr) ≠ 0 →
        is_address_in_stack env0 p = false ∧
        ∃ s o, w'.in_state p (State.CrossLinkedHeap s env0.deleter) ∧
          s ∈ ((Op.copy_construct 1800 30000 none).ghost
            (ghost_after Ghost.init [Op.construct 30000 20000])).live ∧
          stack_resident env0 s ∧ w'.in_state s (State.CrossLinkedStack o p)) ∧
      (∀ s ∈ ((Op.copy_construct 1800 30000 none).ghost
          (ghost_after Ghost.init [Op.construct 30000 20000])).live,
        ∀ h, w'.mem s = some h →
        is_deleter_ptr h.ptr = true → (h.ptr &&& IsLinkedPtr) ≠ 0 →
        stack_resident env0 s ∧
        ∃ o p, w'.in_state s (State.CrossLinkedStack o p) ∧
          p ∈ ((Op.copy_construct 1800 30000 none).ghost
            (ghost_after Ghost.init [Op.construct 30000 20000])).live ∧
          is_address_in_stack env0 p = false ∧
          w'.in_state p (State.CrossLinkedHeap s env0.deleter)) ∧
      (∀ q h', w'.mem q = some h' →
        (h'.ptr_to_obj_or_root_ptr_on_stack &&& IsLinkedPtr) ≠ 0 →
        (¬ ∃ h0, w.mem q = some h0 ∧
          (h0.ptr_to_obj_or_root_ptr_on_stack &&& IsLinkedPtr) ≠ 0) →
        ∃ this nb o, Op.copy_construct 1800 30000 none = Op.copy_construct this q nb ∧
          is_address_in_stack env0 this = true ∧ is_address_in_stack env0 q = false ∧
          w.in_state q (State.Owning o env0.deleter) ∧
          (ghost_after Ghost.init [Op.construct 30000 20000]).object_of q = o ∧
          w.holders (ghost_after Ghost.init [Op.construct 30000 20000]) o = [q] ∧
          w.blocks_of (ghost_after Ghost.init [Op.construct 30000 20000]) o = [])) :=
  (ok_of_isOk (by decide :
      (run env0 World.empty [Op.construct 30000 20000]).isOk = true)).elim
    (fun w h =>
      (ok_of_isOk (by
          rw [show step env0 w (Op.copy_construct 1800 30000 none) =
            run env0 World.empty [Op.construct 30000 20000,
              Op.copy_construct 1800 30000 none] from by
                rw [run_cons_eq (show step env0 World.empty (Op.construct 30000 20000) =
                  Except.ok w from by
                    have h2 := h
                    simp only [run] at h2
                    cases hs : step env0 World.empty (Op.construct 30000 20000) with
                    | error e => rw [hs] at h2; cases h2
                    | ok w1 => rw [hs] at h2; exact h2)]
                simp only [run]
                cases step env0 w (Op.copy_construct 1800 30000 none) <;> rfl]
          decide :
        (step env0 w (Op.copy_construct 1800 30000 none)).isOk = true)).elim
      (fun w' h' => ⟨w, w', h, h', C23_cross_link_is_symmetric env0
        (addr62_of_lt (by decide)) [Op.construct 30000 20000]
        (Op.copy_construct 1800 30000 none) w w'
        (by simp [program_ok, Op.disciplined, Op.well_formed, Op.ghost, Ghost.init, Addr62,
          ObjAddr, env0_stack])
        h trivial
        (by simp [Op.well_formed, Addr62]) h'⟩))

/-! ## Allocation failure, and two destructors at once -/

/-- C26, the code at the failing input. The handle at 30000, in the heap, is cross-linked
with the handle at 1800, in the stack, for the object at 20000; it is copied to a new
handle at 30016, in the heap, and `operator new` throws. The failure reaches the caller,
but in the state it leaves the source is not as before: its first word, the link to its
partner, has been overwritten with the object address, so it is in `Owning` state, while
the partner still holds the link to it with both marks. Then the destructor of the partner
stops on the `assert` of `undo_cross_link`; and the destructor of the source deletes the
object, after which the destructor of the partner reads the storage of the dead source. -/
theorem C26_bad_alloc_after_source_was_modified :
    (World.pair_at 30000 1800 20000).in_state 30000 (State.CrossLinkedHeap 1800 77) ∧
    (World.pair_at 30000 1800 20000).in_state 1800 (State.CrossLinkedStack 20000 30000) ∧
    ∃ w2, copy_ctor env0 (World.pair_at 30000 1800 20000) 30016 30000 none =
        Except.error (Fault.bad_alloc w2) ∧
      w2.mem 30000 ≠ (World.pair_at 30000 1800 20000).mem 30000 ∧
      w2.in_state 30000 (State.Owning 20000 77) ∧
      w2.in_state 1800 (State.CrossLinkedStack 20000 30000) ∧
      dtor env0 (w2.release 30016) 1800 = Except.error Fault.assertion ∧
      ∃ w3, dtor env0 (w2.release 30016) 30000 = Except.ok w3 ∧
        w3.deleted = [(77, 20000)] ∧
        dtor env0 (w3.release 30000) 1800 = Except.error Fault.invalid := by
  refine ⟨rfl, rfl, ((World.pair_at 30000 1800 20000).wr 30016 ⟨1800 ||| IsLinkedPtr, 0⟩).wr
    30000 ⟨20000, 77 ||| IsDeleterPtr⟩, ?_, by decide, rfl, rfl, rfl, _, rfl, rfl, rfl⟩
  have hm : (World.pair_at 30000 1800 20000).mem 30000 =
      some ⟨1800 ||| IsLinkedPtr, 77 ||| IsDeleterPtr⟩ := rfl
  have hs : (World.pair_at 30000 1800 20000).mem 1800 =
      some ⟨20000, 30000 ||| IsLinkedPtr ||| IsDeleterPtr⟩ := rfl
  rw [copy_ctor_cross_heap_off_stack hm (addr62_of_lt (by decide)) (addr62_of_lt (by decide))
    hs (objAddr_of (by decide) (by decide)) (addr62_of_lt (by decide)) (by decide) (by decide)
    (by intro d hd; cases hd) (by decide)]
  rfl

/-- C27, the code at the failing input. The handles at 30000 and 30016, both in the heap,
share the block at 50000, whose count is 2, for the object at 20000; two threads run their
destructors. The decrement `--(data->ref_count)` and the load in `data->ref_count == 0` are
two atomic operations: when both threads decrement before either loads, both loads see 0,
so both threads observe the count reaching zero and the deleter is invoked twice on the
object; with two more actions the block is freed twice, which the second `delete` does not
survive. When the first thread finishes before the second starts, only the second observes
zero and the deleter is invoked once. -/
theorem C27_both_destructors_observe_zero :
    ((run_threads env0 ((World.sharer_at 30000 20000 50000 2).wr 30016
          (State.SharedCounted 20000 50000).words)
        (Thread.start 30000) (Thread.start 30016)
        [false, true, false, true, false, true]).toOption.map
      (fun r => (r.2.1.observed_zero, r.2.2.observed_zero, r.1.deleted))) =
        some (true, true, [(77, 20000), (77, 20000)]) ∧
    (run_threads env0 ((World.sharer_at 30000 20000 50000 2).wr 30016
          (State.SharedCounted 20000 50000).words)
        (Thread.start 30000) (Thread.start 30016)
        [false, true, false, true, false, true, false, true]).isOk = false ∧
    ((run_threads env0 ((World.sharer_at 30000 20000 50000 2).wr 30016
          (State.SharedCounted 20000 50000).words)
        (Thread.start 30000) (Thread.start 30016)
        [false, false, false, true, true, true, true, true]).toOption.map
      (fun r => (r.2.1.observed_zero, r.2.2.observed_zero, r.1.deleted, r.2.1.pc,
        r.2.2.pc))) =
        some (false, true, [(77, 20000)], Pc.done, Pc.done) := by
  refine ⟨by decide, by decide, by decide⟩

end Hybrid

namespace Hybrid

open versatile_ptr

/-! ## The ordering check, null handles, the link word -/

/-- Copy of the heap side of a cross-link into a handle in the stack that lies below the
stack partner `s`: the copy stops on `assert(this > crosslink)`, or on an earlier
assertion. -/
theorem copy_ctor_below_partner {env : Env} {w : World} {this other s d o : Nat}
    {nb : Option Nat}
    (hm : w.mem other = some ⟨s ||| IsLinkedPtr, d ||| IsDeleterPtr⟩) (hs : Addr62 s)
    (hpart : w.mem s = some ⟨o, other ||| IsLinkedPtr ||| IsDeleterPtr⟩) (ho : ObjAddr o)
    (hother : Addr62 other) (hne : this ≠ other)
    (hs1 : is_address_in_stack env this = true) (hbelow : this < s) :
    copy_ctor env w this other nb = Except.error Fault.assertion := by
  rw [copy_ctor_cross_heap_stack hm hs hpart ho hother hne (Nat.ne_of_lt hbelow) hs1]
  have : decide (this > s) = false := decide_eq_false (by omega)
  rw [this]
  simp

/-- C37, the code at the failing input. The handle at 30000, in the heap, is cross-linked
with the handle at 1800, in the stack, for the object at 20000. A younger handle of a stack
that grows downwards has a lower address: the handle at 1700 is in the stack, below the
partner. Copying the heap handle into it stops on `assert(this > crosslink)`, the check
written under the comment that the stack is supposed to grow downwards; so does the copy
into every other free place of the stack below the partner, and so does the program that
builds the pair by a construction and a copy and then makes the second copy. -/
theorem C37_younger_stack_copy_aborts :
    (World.pair_at 30000 1800 20000).in_state 30000 (State.CrossLinkedHeap 1800 77) ∧
    (World.pair_at 30000 1800 20000).in_state 1800 (State.CrossLinkedStack 20000 30000) ∧
    stack_resident env0 1800 ∧ stack_resident env0 1700 ∧ (1700 : Nat) < 1800 ∧
    (World.pair_at 30000 1800 20000).mem 1700 = none ∧
    copy_ctor env0 (World.pair_at 30000 1800 20000) 1700 30000 none =
      Except.error Fault.assertion ∧
    (∀ (this : Nat) (nb : Option Nat), is_address_in_stack env0 this = true → this < 1800 →
      copy_ctor env0 (World.pair_at 30000 1800 20000) this 30000 nb =
        Except.error Fault.assertion) ∧
    run env0 World.empty [Op.construct 30000 20000, Op.copy_construct 1800 30000 none,
      Op.copy_construct 1700 30000 none] = Except.error Fault.assertion := by
  have hm : (World.pair_at 30000 1800 20000).mem 30000 =
      some ⟨1800 ||| IsLinkedPtr, 77 ||| IsDeleterPtr⟩ := rfl
  have hs : (World.pair_at 30000 1800 20000).mem 1800 =
      some ⟨20000, 30000 ||| IsLinkedPtr ||| IsDeleterPtr⟩ := rfl
  have hall : ∀ (this : Nat) (nb : Option Nat), is_address_in_stack env0 this = true →
      this < 1800 → copy_ctor env0 (World.pair_at 30000 1800 20000) this 30000 nb =
        Except.error Fault.assertion := by
    intro this nb h1 h2
    exact copy_ctor_below_partner hm (addr62_of_lt (by decide)) hs
      (objAddr_of (by decide) (by decide)) (addr62_of_lt (by decide)) (by omega) h1 h2
  exact ⟨rfl, rfl, ⟨by decide, by decide⟩, ⟨by decide, by decide⟩, by decide, rfl,
    hall 1700 none (by decide) (by decide), hall, by rfl⟩

/-- Copy of a null handle that is in the stack: `other.is_obj()` is false, so the
constructor asks `other.is_crosslinked()`, which asserts that `other` is not in the
stack. -/
theorem copy_ctor_null_in_stack {env : Env} {w : World} {this other : Nat} {nb : Option Nat}
    (hm : w.mem other = some ⟨0, 0⟩) (hne : this ≠ other)
    (hs : is_address_in_stack env other = true) :
    copy_ctor env w this other nb = Except.error Fault.assertion := by
  rw [copy_ctor_null hm hne, hs]
  rfl

/-- C38, the code at the failing input. The handle at 1800, in the stack, is constructed
from a null pointer: it is the null handle, both words zero. Copying it stops on the
`assert(!is_address_in_stack(this))` of `is_crosslinked`, which the copy constructor calls
on every source that stores no object: into the handle at 1700, in the stack, and into the
handle at 30000, in the heap; and so does the copy of every null handle that is in the
stack, wherever the new handle is. -/
theorem C38_copy_of_null_stack_handle_aborts :
    run env0 World.empty [Op.construct 1800 0] =
      Except.ok (World.empty.wr 1800 State.Null.words) ∧
    State.Null.words = ⟨0, 0⟩ ∧ is_address_in_stack env0 1800 = true ∧
    copy_ctor env0 (World.empty.wr 1800 State.Null.words) 1700 1800 none =
      Except.error Fault.assertion ∧
    copy_ctor env0 (World.empty.wr 1800 State.Null.words) 30000 1800 none =
      Except.error Fault.assertion ∧
    run env0 World.empty [Op.construct 1800 0, Op.copy_construct 1700 1800 none] =
      Except.error Fault.assertion ∧
    run env0 World.empty [Op.construct 1800 0, Op.copy_construct 30000 1800 none] =
      Except.error Fault.assertion ∧
    (∀ (env : Env) (w : World) (this other : Nat) (nb : Option Nat),
      w.in_state other State.Null → this ≠ other → is_address_in_stack env other = true →
        copy_ctor env w this other nb = Except.error Fault.assertion) :=
  ⟨rfl, rfl, by decide, by rfl, by rfl, by rfl, by rfl,
    fun _ _ _ _ _ hm hne hs => copy_ctor_null_in_stack hm hne hs⟩

/-- C39, counterexample. The address 1500 is below `2 ^ 62`; it is an address of the stack
of `env0`. `set_shared_data(1500)` on a null word returns and stores the word 1500, which
is of the shared-data kind; `get_shared_data` on this word does not return 1500: it stops
on `assert(is_address_in_cpp_heap(data))`. For the address 0, `set_shared_data(0)` stores
the null word, and `get_shared_data` stops on `assert(!is_null() && is_shared_data())`.
And `get_linked_ptr` after `link_to_global_ptr_on_heap(30000)` stops on the assertion of
`is_linked_ptr` when the word itself, here at 40008, is not in the stack. -/
theorem C39_getter_stops_counterexample :
    (1500 : Nat) < 2 ^ 62 ∧ set_shared_data 0 1500 = Except.ok 1500 ∧
    is_shared_data 1500 = true ∧
    get_shared_data env0 1500 = Except.error Fault.assertion ∧
    set_shared_data 0 0 = Except.ok 0 ∧
    get_shared_data env0 0 = Except.error Fault.assertion ∧
    (30000 : Nat) < 2 ^ 62 ∧
    link_to_global_ptr_on_heap env0 0 30000 =
      Except.ok (30000 ||| IsLinkedPtr ||| IsDeleterPtr) ∧
    get_linked_ptr env0 40008 (30000 ||| IsLinkedPtr ||| IsDeleterPtr) =
      Except.error Fault.assertion :=
  ⟨by decide, by rfl, by decide, by rfl, by rfl, by rfl, by decide, by rfl, by rfl⟩

/-- The five kinds of a link word, in the order null, shared data, deleter only, linked to
a stack root, linked to the heap handle that holds the deleter: exactly one holds. -/
theorem kinds_count (x : Nat) :
    [is_null x, is_shared_data x,
      is_deleter_ptr x && !((x &&& IsLinkedPtr) != 0),
      ((x &&& IsLinkedPtr) != 0) && !is_deleter_ptr x,
      ((x &&& IsLinkedPtr) != 0) && is_deleter_ptr x].count true = 1 := by
  rw [is_null_iff, is_shared_data_iff, is_deleter_ptr_iff, linked_bit_iff]
  have e : decide (x ≠ 0 ∧ x / 2 ^ 62 % 4 = 0) =
      (!decide (x = 0) && !decide (x / 2 ^ 62 % 2 = 1) && !decide (x / 2 ^ 63 % 2 = 1)) := by
    rw [Bool.eq_iff_iff]
    simp only [Bool.and_eq_true, Bool.not_eq_true', decide_eq_true_eq, decide_eq_false_iff_not]
    omega
  have e0 : decide (x = 0) = true →
      decide (x / 2 ^ 62 % 2 = 1) = false ∧ decide (x / 2 ^ 63 % 2 = 1) = false := by
    intro h
    rw [decide_eq_true_eq] at h
    subst h
    exact ⟨rfl, rfl⟩
  rw [e]
  revert e0
  generalize decide (x = 0) = z
  generalize decide (x / 2 ^ 62 % 2 = 1) = p
  generalize decide (x / 2 ^ 63 % 2 = 1) = q
  cases z <;> cases p <;> cases q <;> decide

/-- C39, amended. For every value `x` of the link word: exactly one of the five kinds
holds, null (`is_null`, the word is zero), shared data (`is_shared_data`, not zero, bits
63 and 62 clear), deleter only (`is_deleter_ptr`, bit 62, without bit 63), linked to a
stack root (bit 63 without bit 62), linked to the heap handle that holds the deleter (both
bits). And for every address `a` below `2 ^ 62`: `set_deleter_ptr(a)` on a null word
returns, and `get_deleter_ptr` after any `set_deleter_ptr(a)` that returns, returns `a`;
`get_linked_ptr` on a word that is in the stack returns `a` after `set_linked_ptr` has
stored the stack root `a`, and after `link_to_global_ptr_on_heap(a)`; `get_shared_data`
after `set_shared_data(a)` returns `a` when `a` is not null and is in the C++ heap. -/
theorem C39_link_word_kinds_and_payloads (env : Env) (x a : Nat) (ha : a < 2 ^ 62) :
    [is_null x, is_shared_data x,
      is_deleter_ptr x && !((x &&& IsLinkedPtr) != 0),
      ((x &&& IsLinkedPtr) != 0) && !is_deleter_ptr x,
      ((x &&& IsLinkedPtr) != 0) && is_deleter_ptr x].count true = 1 ∧
    is_null x = decide (x = 0) ∧
    is_shared_data x = decide (x ≠ 0 ∧ x / 2 ^ 63 % 2 = 0 ∧ x / 2 ^ 62 % 2 = 0) ∧
    is_deleter_ptr x = decide (x / 2 ^ 62 % 2 = 1) ∧
    ((x &&& IsLinkedPtr) != 0) = decide (x / 2 ^ 63 % 2 = 1) ∧
    (∀ this, set_deleter_ptr env this 0 a = Except.ok (a ||| IsDeleterPtr)) ∧
    (∀ this y, set_deleter_ptr env this x a = Except.ok y →
      get_deleter_ptr y = Except.ok a) ∧
    (∀ (w w' : World) (p other : Nat), get_stack_root_ptr env w other = Except.ok a →
      set_linked_ptr env w p other = Except.ok w' →
        ∃ h, w'.mem p = some h ∧ get_linked_ptr env (ptr_addr p) h.ptr = Except.ok a) ∧
    (∀ this y, is_address_in_stack env this = true →
      link_to_global_ptr_on_heap env x a = Except.ok y →
        get_linked_ptr env this y = Except.ok a) ∧
    (∀ y, a ≠ 0 → is_address_in_cpp_heap env a = true →
      set_shared_data x a = Except.ok y → get_shared_data env y = Except.ok a) := by
  have hA : Addr62 a := ha
  refine ⟨kinds_count x, is_null_iff x, ?_, is_deleter_ptr_iff x, linked_bit_iff x, ?_, ?_, ?_,
    ?_, ?_⟩
  · rw [is_shared_data_iff]
    congr 1
    apply propext
    constructor
    · rintro ⟨h1, h2⟩; exact ⟨h1, by omega, by omega⟩
    · rintro ⟨h1, h2, h3⟩; exact ⟨h1, by omega⟩
  · intro this
    simp [set_deleter_ptr, zero_is_null, del_get_deleter_ptr hA]
  · intro this y hy
    have : y = a ||| IsDeleterPtr := by
      simp only [set_deleter_ptr] at hy
      cases hn : is_null x
      · simp only [hn, Bool.not_false, if_true] at hy
        cases hl : get_linked_ptr env this x with
        | error e => simp [hl] at hy
        | ok l =>
          simp only [hl, ok_bind, del_get_deleter_ptr hA, beq_self_eq_true, check_bind,
            pure_eq] at hy
          cases hc : !is_address_in_stack env l
          · simp [hc] at hy
          · simp only [hc, if_true, Except.ok.injEq] at hy
            exact hy.symm
      · simp only [hn, Bool.not_true, Bool.false_eq_true, if_false, ok_bind,
          del_get_deleter_ptr hA, beq_self_eq_true, pure_eq] at hy
        simpa using hy.symm
    rw [this]
    exact del_get_deleter_ptr hA
  · intro w w' p other hroot hset
    simp only [set_linked_ptr, hroot, ok_bind, check_bind] at hset
    cases hc : is_address_in_stack env (ptr_addr p) && is_address_in_stack env other
    · simp [hc] at hset
    · simp only [hc, if_true] at hset
      have hp : is_address_in_stack env (ptr_addr p) = true := by
        simp only [Bool.and_eq_true] at hc; exact hc.1
      cases hm : w.mem p with
      | none => simp [World.wr_ptr, rd_eq_invalid hm] at hset
      | some h0 =>
        rw [wr_ptr_eq hm] at hset
        simp only [Except.ok.injEq] at hset
        refine ⟨_, by rw [← hset]; exact wr_mem_self _ _ _, ?_⟩
        rw [link_get_linked_ptr hA, hp]
        rfl
  · intro this y hs hy
    have : y = a ||| IsLinkedPtr ||| IsDeleterPtr := by
      simp only [link_to_global_ptr_on_heap, check_bind] at hy
      cases hc : is_null x && is_address_in_cpp_heap env a
      · simp [hc] at hy
      · simp only [hc, if_true, pure_eq, Except.ok.injEq] at hy
        exact hy.symm
    rw [this, cross_get_linked_ptr hA, hs]
    rfl
  · intro y h0 hheap hy
    have : y = a := by
      simp only [set_shared_data, check_bind] at hy
      cases hc : is_null x || is_deleter_ptr x
      · simp [hc] at hy
      · simp only [hc, if_true, pure_eq, Except.ok.injEq] at hy
        exact hy.symm
    rw [this]
    simp [get_shared_data, blk_is_null h0, blk_is_shared_data h0 hA, hheap]

/-- Witness for C39: the deleter address 77 of `env0`, on the null word. -/
theorem C39_link_word_kinds_and_payloads_witness :
    (77 : Nat) < 2 ^ 62 ∧
      set_deleter_ptr env0 1808 0 77 = Except.ok (77 ||| IsDeleterPtr) ∧
      get_deleter_ptr (77 ||| IsDeleterPtr) = Except.ok 77 :=
  ⟨by decide, (C39_link_word_kinds_and_payloads env0 0 77 (by decide)).2.2.2.2.2.1 1808,
    (C39_link_word_kinds_and_payloads env0 0 77 (by decide)).2.2.2.2.2.2.1 1808 _
      ((C39_link_word_kinds_and_payloads env0 0 77 (by decide)).2.2.2.2.2.1 1808)⟩

end Hybrid

namespace Compress

open CASE_KIND

/-! ## The result monad -/

@[simp] theorem check_tt : check true = Except.ok () := rfl

@[simp] theorem check_ff : check false = Except.error Err.assertion := rfl

@[simp] theorem res_ok_bind {α β : Type} (a : α) (f : α → Res β) :
    (Except.ok a >>= f) = f a := rfl

@[simp] theorem res_error_bind {α β : Type} (e : Err) (f : α → Res β) :
    ((Except.error e : Res α) >>= f) = Except.error e := rfl

@[simp] theorem res_pure {α : Type} (a : α) : (pure a : Res α) = Except.ok a := rfl

theorem check_of {c : Bool} (h : c = true) : check c = Except.ok () := by
  rw [h]; rfl

/-! ## Bits of a number -/

theorem and_shift_ne_zero (c i : Nat) : (c &&& (1 <<< i) ≠ 0) ↔ c / 2 ^ i % 2 = 1 := by
  rw [Nat.one_shiftLeft, Nat.and_two_pow, Nat.testBit_to_div_mod]
  have hp : 0 < 2 ^ i := Nat.two_pow_pos i
  by_cases h : c / 2 ^ i % 2 = 1
  · simp [h]
  · simp [h]

theorem low_bits_length (n v : Nat) : (low_bits n v).length = n := by
  induction n with
  | zero => rfl
  | succ n ih => simp [low_bits, ih]

/-- The bits of `x` below position `j` are those of `x % 2 ^ j`. -/
theorem div_mod_two_of_mod (x : Nat) {i j : Nat} (h : i < j) :
    x % 2 ^ j / 2 ^ i % 2 = x / 2 ^ i % 2 := by
  obtain ⟨m, rfl⟩ : ∃ m, j = i + (m + 1) := ⟨j - i - 1, by omega⟩
  rw [pow_add, Nat.mod_mul_right_div_self, pow_succ, Nat.mod_mul_left_mod]

theorem low_bits_mod (x : Nat) {k j : Nat} (h : k ≤ j) :
    low_bits k (x % 2 ^ j) = low_bits k x := by
  induction k with
  | zero => rfl
  | succ k ih =>
    simp only [low_bits]
    rw [div_mod_two_of_mod x (by omega : k < j), ih (by omega)]

/-- The `a + b` low bits are the `a` low bits of the quotient by `2 ^ b`, then the `b` low
bits. -/
theorem low_bits_add (a b x : Nat) :
    low_bits (a + b) x = low_bits a (x / 2 ^ b) ++ low_bits b x := by
  induction a with
  | zero => simp [low_bits]
  | succ a ih =>
    have e : a + 1 + b = (a + b) + 1 := by omega
    rw [e]
    simp only [low_bits, List.cons_append]
    rw [ih, Nat.div_div_eq_div_mul, ← pow_add, Nat.add_comm b a]

theorem bits_value_append (l : List Bool) (b : Bool) :
    bits_value (l ++ [b]) = 2 * bits_value l + b.toNat := by
  simp [bits_value, List.foldl_append]

/-- The value of the `n` low bits of `v` is `v % 2 ^ n`. -/
theorem bits_value_low_bits (n v : Nat) : bits_value (low_bits n v) = v % 2 ^ n := by
  induction n generalizing v with
  | zero => simp [low_bits, bits_value, Nat.mod_one]
  | succ n ih =>
    have h := low_bits_add n 1 v
    rw [h, show low_bits 1 v = [decide (v % 2 = 1)] from by simp [low_bits],
      bits_value_append, ih, pow_one]
    have h2 : v % 2 ^ (n + 1) = 2 * (v / 2 % 2 ^ n) + v % 2 := by
      rw [pow_succ, Nat.mul_comm (2 ^ n) 2, Nat.mod_mul, Nat.add_comm]
    rw [h2]
    by_cases hv : v % 2 = 1
    · simp [hv]
    · have : v % 2 = 0 := by omega
      simp [this]

/-! ## `toString` -/

namespace OutputBitStream

theorem toString_fold (c : Nat) (n : Nat) :
    (List.range n).foldl
      (fun (str : List Char) i => (if c &&& (1 <<< i) ≠ 0 then '1' else '0') :: str) [] =
      (low_bits n c).map bit_char := by
  induction n with
  | zero => rfl
  | succ n ih =>
    rw [List.range_succ, List.foldl_append, ih]
    simp only [List.foldl_cons, List.foldl_nil, low_bits, List.map_cons, bit_char]
    congr 1
    by_cases h : c / 2 ^ n % 2 = 1
    · rw [if_pos ((and_shift_ne_zero c n).mpr h)]; simp [h]
    · rw [if_neg (fun k => h ((and_shift_ne_zero c n).mp k))]; simp [h]

/-- The static `toString` returns the characters of the `n` low bits of `c`, most
significant first. -/
theorem toString_value_eq (c : Nat) {n : Nat} (hn : n ≤ 32) :
    toString_value c n = Except.ok ((low_bits n c).map bit_char) := by
  simp only [toString_value, toString_fold, List.length_map, low_bits_length, decide_True,
    decide_eq_true hn, check_tt, res_ok_bind, res_pure]

theorem toString_data (data : List Nat) (acc : List Char) :
    data.foldlM (fun (str : List Char) c => do
      pure (str ++ (← toString_value c 8))) acc =
      (Except.ok (acc ++ (data.flatMap (low_bits 8)).map bit_char) : Res (List Char)) := by
  induction data generalizing acc with
  | nil => simp
  | cons c data ih =>
    rw [List.foldlM_cons, toString_value_eq c (by decide)]
    simp only [res_ok_bind]
    refine Eq.trans (ih (acc ++ (low_bits 8 c).map bit_char)) ?_
    simp [List.flatMap_cons]

/-- The member `toString` returns the characters of the bits that the stream holds. -/
theorem toString_eq (s : OutputBitStream) (h : s.m_pending_bits ≤ 32) :
    s.toString = Except.ok (s.bits.map bit_char) := by
  have h1 := toString_data s.m_data []
  simp only [toString, bits]
  rw [h1, toString_value_eq _ h]
  simp

end OutputBitStream

end Compress

namespace Compress

open CASE_KIND

/-! ## `appendBits` -/

theorem u8_of_lt {x : Nat} (h : x < 256) : u8 x = x := Nat.mod_eq_of_lt h

theorem u32_of_lt {x : Nat} (h : x < 4294967296) : u32 x = x := Nat.mod_eq_of_lt h

theorem extract_eq (v : Nat) {n nb : Nat} (hn32 : n ≤ 32) (hnb : 1 ≤ nb) (hnb8 : nb ≤ 8)
    (hle : nb ≤ n) :
    extract_char_bits_in_range v (n - 1) nb = Except.ok (v / 2 ^ (n - nb) % 2 ^ nb) := by
  have h1 : decide (n - 1 ≤ 31) = true := decide_eq_true (by omega)
  have h2 : (decide (nb > 0) && decide (nb ≤ 8)) = true := by
    simp only [Bool.and_eq_true, decide_eq_true_eq]; omega
  have h3 : decide (n - 1 ≥ nb - 1) = true := decide_eq_true (by omega)
  have h4 : n - 1 - (nb - 1) = n - nb := by omega
  have h5 : v / 2 ^ (n - nb) % 2 ^ nb < 256 :=
    lt_of_lt_of_le (Nat.mod_lt _ (Nat.two_pow_pos nb))
      (by calc 2 ^ nb ≤ 2 ^ 8 := Nat.pow_le_pow_right (by decide) hnb8
            _ = 256 := by norm_num)
  simp only [extract_char_bits_in_range, h1, h2, h3, check_tt, res_ok_bind, res_pure, h4,
    Nat.shiftRight_eq_div_pow, Nat.one_shiftLeft, Nat.and_pow_two_sub_one_eq_mod]
  rw [u8_of_lt h5]

theorem pending_step (pd e : Nat) {pb nb : Nat} (h : pb + nb ≤ 8) (he : e < 2 ^ nb) :
    u8 (u8 (pd <<< nb) + e) = 2 ^ nb * (pd % 2 ^ (8 - nb)) + e ∧
    low_bits (pb + nb) (2 ^ nb * (pd % 2 ^ (8 - nb)) + e) = low_bits pb pd ++ low_bits nb e := by
  have hA : 0 < 2 ^ nb := Nat.two_pow_pos nb
  have hAB : 2 ^ nb * 2 ^ (8 - nb) = 256 := by
    rw [← pow_add, show nb + (8 - nb) = 8 from by omega]; norm_num
  have hr : pd % 2 ^ (8 - nb) < 2 ^ (8 - nb) := Nat.mod_lt _ (Nat.two_pow_pos _)
  have h1 : u8 (pd <<< nb) = 2 ^ nb * (pd % 2 ^ (8 - nb)) := by
    rw [u8, Nat.shiftLeft_eq, show (2 : Nat) ^ 8 = 2 ^ nb * 2 ^ (8 - nb) from by
      rw [hAB]; norm_num, Nat.mul_comm pd, Nat.mul_mod_mul_left]
  have h2 : 2 ^ nb * (pd % 2 ^ (8 - nb)) + e < 256 := by
    have : 2 ^ nb * (pd % 2 ^ (8 - nb) + 1) ≤ 2 ^ nb * 2 ^ (8 - nb) :=
      Nat.mul_le_mul_left _ hr
    rw [Nat.mul_add, Nat.mul_one, hAB] at this
    omega
  refine ⟨by rw [h1, u8_of_lt h2], ?_⟩
  rw [low_bits_add pb nb, Nat.mul_add_div hA, Nat.div_eq_of_lt he, Nat.add_zero,
    low_bits_mod pd (by omega : pb ≤ 8 - nb)]
  congr 1
  rw [← low_bits_mod _ (le_refl nb), Nat.mul_add_mod, Nat.mod_eq_of_lt he]

namespace OutputBitStream

theorem bits_push (s : OutputBitStream) (x : Nat) :
    ({ s with m_data := s.m_data ++ [x], m_pending_data := 0,
              m_pending_bits := 0 } : OutputBitStream).bits =
      s.m_data.flatMap (low_bits 8) ++ low_bits 8 x := by
  simp [bits, low_bits, List.flatMap_append]

/-- What `appendBits` does, with enough fuel: it returns, the bits of the stream are the
bits it had followed by the `n` low bits of `v`, most significant first, and the stream
holds `n` bits more. -/
theorem appendBits_loop_spec (v : Nat) :
    ∀ (fuel n : Nat) (s : OutputBitStream), n ≤ fuel → n ≤ 32 → s.m_pending_bits < 8 →
      ∃ s', appendBits_loop v fuel s n = Except.ok s' ∧ s'.m_pending_bits < 8 ∧
        s'.bits = s.bits ++ low_bits n v ∧ s'.m_currentCase = s.m_currentCase ∧
        s'.nb_bits = s.nb_bits + n := by
  intro fuel
  induction fuel with
  | zero =>
    intro n s hf _ hs
    have : n = 0 := by omega
    subst this
    refine ⟨s, ?_, hs, by simp [low_bits], rfl, rfl⟩
    rw [appendBits_loop]
    simp
  | succ fuel ih =>
    intro n s hf hn hs
    rw [appendBits_loop]
    by_cases h0 : n = 0
    · subst h0
      refine ⟨s, ?_, hs, by simp [low_bits], rfl, rfl⟩
      simp
    · have hnb : min (8 - s.m_pending_bits) n ≤ n := Nat.min_le_right _ _
      have hnb8 : min (8 - s.m_pending_bits) n ≤ 8 - s.m_pending_bits := Nat.min_le_left _ _
      have hnb1 : 1 ≤ min (8 - s.m_pending_bits) n := by
        rw [Nat.le_min]; omega
      obtain ⟨nb, hnbdef⟩ : ∃ nb, nb = min (8 - s.m_pending_bits) n := ⟨_, rfl⟩
      rw [← hnbdef] at hnb hnb8 hnb1
      have hex := extract_eq v hn hnb1 (by omega) hnb
      have he : v / 2 ^ (n - nb) % 2 ^ nb < 2 ^ nb := Nat.mod_lt _ (Nat.two_pow_pos nb)
      obtain ⟨hpd, hbits⟩ := pending_step s.m_pending_data (v / 2 ^ (n - nb) % 2 ^ nb)
        (by omega : s.m_pending_bits + nb ≤ 8) he
      have hsplit : low_bits n v = low_bits nb (v / 2 ^ (n - nb)) ++ low_bits (n - nb) v := by
        have := low_bits_add nb (n - nb) v
        rwa [show nb + (n - nb) = n from by omega] at this
      have hlow : low_bits nb (v / 2 ^ (n - nb) % 2 ^ nb) = low_bits nb (v / 2 ^ (n - nb)) :=
        low_bits_mod _ (le_refl nb)
      simp only [decide_eq_true hn, check_tt, res_ok_bind, if_neg h0, decide_eq_true hs,
        ← hnbdef, hex, hpd, u32_of_lt (by omega : s.m_pending_bits + nb < 4294967296),
        decide_eq_true (by omega : s.m_pending_bits + nb ≤ 8), res_pure]
      by_cases h8 : s.m_pending_bits + nb = 8
      · simp only [if_pos h8]
        obtain ⟨s1, hs1⟩ : ∃ s1 : OutputBitStream, s1 = { s with
            m_data := s.m_data ++
              [2 ^ nb * (s.m_pending_data % 2 ^ (8 - nb)) + v / 2 ^ (n - nb) % 2 ^ nb],
            m_pending_data := 0,
            m_pending_bits := 0 } := ⟨_, rfl⟩
        rw [← hs1]
        have hb1 : s1.bits = s.bits ++ low_bits nb (v / 2 ^ (n - nb)) := by
          have hb8 := hbits
          rw [h8] at hb8
          rw [hs1, bits_push, hb8, hlow, bits, List.append_assoc]
        have hp1 : s1.m_pending_bits < 8 := by rw [hs1]; show (0 : Nat) < 8; decide
        have hc1 : s1.m_currentCase = s.m_currentCase := by rw [hs1]
        have hn1 : s1.nb_bits = s.nb_bits + nb := by
          rw [hs1]
          simp only [nb_bits, List.length_append, List.length_singleton]; omega
        by_cases hlast : nb = n
        · rw [if_neg (not_not.mpr hlast)]
          refine ⟨_, rfl, hp1, ?_, hc1, ?_⟩
          · rw [hb1, hsplit, hlast]; simp [low_bits]
          · rw [hn1, hlast]
        · rw [if_pos hlast]
          obtain ⟨s', h1, h2, h3, h4, h5⟩ := ih (n - nb) s1 (by omega) (by omega) hp1
          refine ⟨s', h1, h2, ?_, h4.trans hc1, ?_⟩
          · rw [h3, hb1, hsplit, List.append_assoc]
          · rw [h5, hn1]; omega
      · simp only [if_neg h8]
        obtain ⟨s1, hs1⟩ : ∃ s1 : OutputBitStream, s1 = { s with
            m_pending_data :=
              2 ^ nb * (s.m_pending_data % 2 ^ (8 - nb)) + v / 2 ^ (n - nb) % 2 ^ nb,
            m_pending_bits := s.m_pending_bits + nb } := ⟨_, rfl⟩
        rw [← hs1]
        have hb1 : s1.bits = s.bits ++ low_bits nb (v / 2 ^ (n - nb)) := by
          rw [hs1]
          simp only [bits]
          rw [hbits, hlow, List.append_assoc]
        have hp1 : s1.m_pending_bits < 8 := by rw [hs1]; simp only; omega
        have hc1 : s1.m_currentCase = s.m_currentCase := by rw [hs1]
        have hn1 : s1.nb_bits = s.nb_bits + nb := by
          rw [hs1]
          simp only [nb_bits]; omega
        by_cases hlast : nb = n
        · rw [if_neg (not_not.mpr hlast)]
          refine ⟨_, rfl, hp1, ?_, hc1, ?_⟩
          · rw [hb1, hsplit, hlast]; simp [low_bits]
          · rw [hn1, hlast]
        · exfalso
          have : nb = 8 - s.m_pending_bits := by
            rw [hnbdef]
            rcases Nat.le_total (8 - s.m_pending_bits) n with h | h
            · exact Nat.min_eq_left h
            · exact absurd (hnbdef.trans (Nat.min_eq_right h)) hlast
          omega

/-- What `appendBits` does: it returns, the bits of the stream are the bits it had
followed by the `n` low bits of `v`, most significant first, and the stream holds `n` bits
more. -/
theorem appendBits_spec (s : OutputBitStream) (v : Nat) {n : Nat} (hn : n ≤ 32)
    (hs : s.m_pending_bits < 8) :
    ∃ s', s.appendBits v n = Except.ok s' ∧ s'.m_pending_bits < 8 ∧
      s'.bits = s.bits ++ low_bits n v ∧ s'.m_currentCase = s.m_currentCase ∧
      s'.nb_bits = s.nb_bits + n :=
  appendBits_loop_spec v n n s (le_refl n) hn hs

theorem sizeInBits_eq (s : OutputBitStream) : s.sizeInBits = s.nb_bits % 2 ^ 32 := by
  simp only [sizeInBits, u32, nb_bits]
  omega

end OutputBitStream

end Compress

namespace Compress

open CASE_KIND

/-! ## Sequences of bits and their value -/

theorem bits_value_nil : bits_value [] = 0 := rfl

theorem bits_value_lt (l : List Bool) : bits_value l < 2 ^ l.length := by
  induction l using List.reverseRecOn with
  | nil => simp [bits_value]
  | append_singleton l b ih =>
    rw [bits_value_append, List.length_append, List.length_singleton, pow_succ]
    cases b <;> simp <;> omega

theorem low_bits_one (v : Nat) : low_bits 1 v = [decide (v % 2 = 1)] := by
  simp [low_bits]

/-- The bits of the value of a sequence of bits are the sequence. -/
theorem low_bits_bits_value (l : List Bool) : low_bits l.length (bits_value l) = l := by
  induction l using List.reverseRecOn with
  | nil => rfl
  | append_singleton l b ih =>
    rw [bits_value_append, List.length_append, List.length_singleton, low_bits_add,
      low_bits_one, pow_one]
    have h1 : (2 * bits_value l + b.toNat) / 2 = bits_value l := by
      cases b <;> simp; omega
    have h2 : decide ((2 * bits_value l + b.toNat) % 2 = 1) = b := by
      cases b <;> simp; omega
    rw [h1, h2, ih]

theorem low_bits_zero (n : Nat) : low_bits n 0 = List.replicate n false := by
  induction n with
  | zero => rfl
  | succ n ih => simp [low_bits, ih, List.replicate_succ]

theorem flatMap_low_bits_length (data : List Nat) :
    (data.flatMap (low_bits 8)).length = 8 * data.length := by
  induction data with
  | nil => rfl
  | cons d data ih =>
    simp only [List.flatMap_cons, List.length_append, low_bits_length, ih, List.length_cons]
    omega

theorem OutputBitStream.bits_length (s : OutputBitStream) : s.bits.length = s.nb_bits := by
  rw [OutputBitStream.bits, List.length_append, flatMap_low_bits_length, low_bits_length]
  rfl

theorem low_bits_get (d : Nat) {k : Nat} (hk : k < 8) :
    (low_bits 8 d)[k]? = some (decide (d / 2 ^ (7 - k) % 2 = 1)) := by
  interval_cases k <;> simp [low_bits]

/-- The bit at position `k` of a sequence of bytes, as `readBits` extracts it. -/
theorem bit_of_bytes (data : List Nat) :
    ∀ (k : Nat) (b : Bool), (data.flatMap (low_bits 8))[k]? = some b →
      ∃ d, data.get? (k / 8) = some d ∧ ((d &&& (1 <<< (7 - k % 8)) ≠ 0) ↔ b = true) := by
  induction data with
  | nil => intro k b h; simp at h
  | cons d data ih =>
    intro k b h
    rw [List.flatMap_cons] at h
    by_cases hk : k < 8
    · rw [List.getElem?_append_left (by rw [low_bits_length]; exact hk), low_bits_get d hk] at h
      injection h with h
      refine ⟨d, ?_, ?_⟩
      · rw [Nat.div_eq_of_lt hk]; rfl
      · rw [Nat.mod_eq_of_lt hk, and_shift_ne_zero, ← h]; simp
    · have hk8 : 8 ≤ k := by omega
      rw [List.getElem?_append_right (by rw [low_bits_length]; exact hk8), low_bits_length] at h
      obtain ⟨d2, h1, h2⟩ := ih (k - 8) b h
      have e1 : k / 8 = (k - 8) / 8 + 1 := by omega
      have e2 : k % 8 = (k - 8) % 8 := by omega
      refine ⟨d2, ?_, ?_⟩
      · rw [e1]; simpa using h1
      · rw [e2]; exact h2

/-! ## The constructor of `InputBitStream` -/

namespace InputBitStream

theorem ctor_step_eq (value : Nat) (st : InputBitStream) (b : Bool) :
    ctor_step (value, st) (bit_char b) =
      Except.ok (
        if u32 (st.m_size_in_bits + 1) % 8 = 0 then
          (0, { st with m_size_in_bits := u32 (st.m_size_in_bits + 1),
                        m_data := st.m_data ++
                          [if b then u8 (u8 (value <<< 1) + 1) else u8 (value <<< 1)] })
        else
          (if b then u8 (u8 (value <<< 1) + 1) else u8 (value <<< 1),
            { st with m_size_in_bits := u32 (st.m_size_in_bits + 1) })) := by
  cases b
  · have h1 : (('0' : Char) == '0' || ('0' : Char) == '1') = true := by decide
    have h2 : (('0' : Char) == '1') = false := by decide
    simp only [ctor_step, bit_char, Bool.false_eq_true, if_false, h1, h2, check_tt,
      res_ok_bind]
    split <;> rfl
  · have h1 : (('1' : Char) == '0' || ('1' : Char) == '1') = true := by decide
    have h2 : (('1' : Char) == '1') = true := by decide
    simp only [ctor_step, bit_char, if_true, h1, h2, check_tt, res_ok_bind]
    split <;> rfl

/-- The loop of the constructor: after the bits `q ++ r`, with `q` made of whole bytes
and `r` of fewer than eight bits, `m_data` holds `q` and `value` is the value of `r`. -/
theorem ctor_loop :
    ∀ (rest q r : List Bool) (value : Nat) (st : InputBitStream),
      q.length % 8 = 0 → r.length < 8 → st.m_data.flatMap (low_bits 8) = q →
      value = bits_value r → st.m_size_in_bits = (q ++ r).length % 2 ^ 32 →
      ∃ q2 r2 value2 st2, (rest.map bit_char).foldlM ctor_step (value, st) =
          Except.ok (value2, st2) ∧
        q ++ r ++ rest = q2 ++ r2 ∧ q2.length % 8 = 0 ∧ r2.length < 8 ∧
        st2.m_data.flatMap (low_bits 8) = q2 ∧ value2 = bits_value r2 ∧
        st2.m_size_in_bits = (q2 ++ r2).length % 2 ^ 32 ∧
        st2.m_current_bit = st.m_current_bit ∧ st2.m_currentCase = st.m_currentCase := by
  intro rest
  induction rest with
  | nil =>
    intro q r value st hq hr hd hv hs
    exact ⟨q, r, value, st, rfl, by simp, hq, hr, hd, hv, hs, rfl, rfl⟩
  | cons b rest ih =>
    intro q r value st hq hr hd hv hs
    rw [List.map_cons, List.foldlM_cons, ctor_step_eq, res_ok_bind]
    have hvlt : value < 2 ^ r.length := hv ▸ bits_value_lt r
    have hpow : 2 ^ r.length ≤ 128 := by
      calc 2 ^ r.length ≤ 2 ^ 7 := Nat.pow_le_pow_right (by decide) (by omega)
        _ = 128 := by norm_num
    have hval : (if b then u8 (u8 (value <<< 1) + 1) else u8 (value <<< 1)) =
        bits_value (r ++ [b]) := by
      rw [bits_value_append, ← hv, Nat.shiftLeft_eq, pow_one]
      cases b
      · simp only [Bool.false_eq_true, if_false, Bool.toNat_false, Nat.add_zero]
        rw [u8_of_lt (by omega)]; omega
      · simp only [if_true, Bool.toNat_true]
        rw [u8_of_lt (by omega : value * 2 < 256), u8_of_lt (by omega)]; omega
    have hsize : u32 (st.m_size_in_bits + 1) = (q ++ (r ++ [b])).length % 2 ^ 32 := by
      rw [hs, u32]
      simp only [List.length_append, List.length_singleton]
      omega
    have hmod8 : u32 (st.m_size_in_bits + 1) % 8 = (r.length + 1) % 8 := by
      rw [hsize]
      simp only [List.length_append, List.length_singleton]
      omega
    rw [hval, hmod8]
    by_cases h7 : r.length = 7
    · rw [if_pos (by rw [h7])]
      obtain ⟨q2, r2, value2, st2, h1, h2, h3, h4, h5, h6, h7', h8, h9⟩ :=
        ih (q ++ (r ++ [b])) [] 0
          { st with m_size_in_bits := u32 (st.m_size_in_bits + 1),
                    m_data := st.m_data ++ [bits_value (r ++ [b])] }
          (by simp only [List.length_append, List.length_singleton]; omega)
          (by simp)
          (by
            show (st.m_data ++ [bits_value (r ++ [b])]).flatMap (low_bits 8) = _
            rw [List.flatMap_append, hd]
            simp only [List.flatMap_cons, List.flatMap_nil, List.append_nil]
            have := low_bits_bits_value (r ++ [b])
            rw [List.length_append, List.length_singleton, h7] at this
            rw [this])
          rfl
          (by rw [List.append_nil]; exact hsize)
      refine ⟨q2, r2, value2, st2, h1, ?_, h3, h4, h5, h6, h7', h8, h9⟩
      rw [← h2]; simp
    · rw [if_neg (by omega)]
      obtain ⟨q2, r2, value2, st2, h1, h2, h3, h4, h5, h6, h7', h8, h9⟩ :=
        ih q (r ++ [b]) (bits_value (r ++ [b]))
          { st with m_size_in_bits := u32 (st.m_size_in_bits + 1) }
          hq (by simp only [List.length_append, List.length_singleton]; omega) hd rfl hsize
      refine ⟨q2, r2, value2, st2, h1, ?_, h3, h4, h5, h6, h7', h8, h9⟩
      rw [← h2]; simp

/-- The constructor, given the characters of the bits `bits`: it returns a stream with no
bit read, whose size is the number of bits modulo `2 ^ 32` and whose bytes hold the bits. -/
theorem ctor_spec (bits : List Bool) :
    ∃ inp, ctor (bits.map bit_char) = Except.ok inp ∧
      inp.m_size_in_bits = bits.length % 2 ^ 32 ∧ inp.m_current_bit = 0 ∧
      inp.m_currentCase = CASE_LOWER ∧ Holds inp.m_data bits := by
  obtain ⟨q, r, value, st, h1, h2, h3, h4, h5, h6, h7, h8, h9⟩ :=
    ctor_loop bits [] [] 0 {} rfl (by simp) rfl rfl rfl
  have hb : bits = q ++ r := by simpa using h2
  have hmod : st.m_size_in_bits % 8 = r.length := by
    rw [h7]
    simp only [List.length_append]
    omega
  simp only [ctor, h1, res_ok_bind, hmod]
  by_cases hr : r.length = 0
  · have hr2 : r = [] := List.eq_nil_of_length_eq_zero hr
    rw [if_neg (by omega)]
    refine ⟨st, rfl, by rw [h7, hb], h8, h9, ⟨[], ?_⟩⟩
    rw [h5, hb, hr2]
    simp
  · rw [if_pos (by omega)]
    have hvlt : value < 2 ^ r.length := h6 ▸ bits_value_lt r
    have hprod : value * 2 ^ (8 - r.length) < 256 := by
      have h256 : 2 ^ r.length * 2 ^ (8 - r.length) = 256 := by
        rw [← pow_add, show r.length + (8 - r.length) = 8 from by omega]; norm_num
      have := Nat.mul_lt_mul_of_pos_right hvlt (Nat.two_pow_pos (8 - r.length))
      omega
    have hpad : (if value ≠ 0 then u8 (value <<< (8 - r.length)) else value) =
        value * 2 ^ (8 - r.length) := by
      by_cases hv0 : value = 0
      · simp [hv0]
      · rw [if_pos hv0, Nat.shiftLeft_eq, u8_of_lt hprod]
    refine ⟨_, rfl, by show st.m_size_in_bits = _; rw [h7, hb], h8, h9,
      ⟨low_bits (8 - r.length) (value * 2 ^ (8 - r.length)), ?_⟩⟩
    show (st.m_data ++ [_]).flatMap (low_bits 8) = _
    rw [hpad, List.flatMap_append, h5]
    simp only [List.flatMap_cons, List.flatMap_nil, List.append_nil]
    have h8 : low_bits 8 (value * 2 ^ (8 - r.length)) =
        low_bits r.length (value * 2 ^ (8 - r.length) / 2 ^ (8 - r.length)) ++
          low_bits (8 - r.length) (value * 2 ^ (8 - r.length)) := by
      have := low_bits_add r.length (8 - r.length) (value * 2 ^ (8 - r.length))
      rwa [show r.length + (8 - r.length) = 8 from by omega] at this
    rw [h8, Nat.mul_div_cancel _ (Nat.two_pow_pos _), h6, low_bits_bits_value, hb,
      List.append_assoc]

end InputBitStream

end Compress

namespace Compress

open CASE_KIND

/-! ## `readBits` -/

namespace InputBitStream

theorem readBits_step_eq (result : Nat) (s : InputBitStream) {bits : List Bool} {b : Bool}
    (hh : Holds s.m_data bits) (hb : bits[s.m_current_bit]? = some b)
    (hr : result < 2 ^ 31) (hc : s.m_current_bit + 1 < 2 ^ 32) :
    readBits_step (result, s) =
      Except.ok (2 * result + b.toNat, { s with m_current_bit := s.m_current_bit + 1 }) := by
  obtain ⟨pad, hpad⟩ := hh
  have hlt : s.m_current_bit < bits.length := by
    by_contra hc
    rw [List.getElem?_eq_none (by omega)] at hb
    cases hb
  have hget : (s.m_data.flatMap (low_bits 8))[s.m_current_bit]? = some b := by
    rw [hpad, List.getElem?_append_left hlt]; exact hb
  obtain ⟨d, hd, hiff⟩ := bit_of_bytes s.m_data _ _ hget
  simp only [readBits_step, hd, res_ok_bind, res_pure, Nat.shiftLeft_eq, pow_one]
  rw [u32_of_lt (by omega : s.m_current_bit + 1 < 4294967296),
    u32_of_lt (by omega : result * 2 < 4294967296)]
  cases b
  · have : ¬ (d &&& 1 * 2 ^ (7 - s.m_current_bit % 8) ≠ 0) := by
      intro h
      have := hiff.mp (by rwa [Nat.shiftLeft_eq])
      cases this
    rw [if_neg this]
    simp only [Nat.zero_ne_one, if_false, Bool.toNat_false, Nat.add_zero]
    rw [Nat.mul_comm]
  · have : d &&& 1 * 2 ^ (7 - s.m_current_bit % 8) ≠ 0 := by
      have := hiff.mpr rfl
      rwa [Nat.shiftLeft_eq] at this
    rw [if_pos this]
    simp only [if_true, Bool.toNat_true]
    rw [u32_of_lt (by omega : result * 2 + 1 < 4294967296), Nat.mul_comm]

theorem readBits_loop (s : InputBitStream) {bits : List Bool} (hh : Holds s.m_data bits)
    (hlen : bits.length < 2 ^ 32) :
    ∀ j, j ≤ 32 → s.m_current_bit + j ≤ bits.length →
      (List.range j).foldlM (fun st _ => readBits_step st) (0, s) =
        Except.ok (bits_value ((bits.drop s.m_current_bit).take j),
          { s with m_current_bit := s.m_current_bit + j }) := by
  intro j
  induction j with
  | zero => intro _ _; rfl
  | succ j ih =>
    intro hj hle
    rw [List.range_succ, List.foldlM_append, ih (by omega) (by omega)]
    have hlt : s.m_current_bit + j < bits.length := by omega
    have hb : bits[s.m_current_bit + j]? = some bits[s.m_current_bit + j] :=
      List.getElem?_eq_getElem hlt
    have hval := bits_value_lt ((bits.drop s.m_current_bit).take j)
    have hl : ((bits.drop s.m_current_bit).take j).length = j := by
      rw [List.length_take, List.length_drop]; omega
    rw [hl] at hval
    have hpow : 2 ^ j ≤ 2 ^ 31 := Nat.pow_le_pow_right (by decide) (by omega)
    have hstep := readBits_step_eq (bits_value ((bits.drop s.m_current_bit).take j))
      { s with m_current_bit := s.m_current_bit + j } hh hb (by omega) (by simp only; omega)
    simp only [res_ok_bind, List.foldlM_cons, List.foldlM_nil, res_pure]
    rw [hstep]
    have htake : (bits.drop s.m_current_bit).take (j + 1) =
        (bits.drop s.m_current_bit).take j ++ [bits[s.m_current_bit + j]] := by
      rw [List.take_succ, List.getElem?_drop, hb]; rfl
    rw [htake, bits_value_append]
    rfl

/-- The member `bool readBits(...)` on a stream that reads `bits`, with `cur` bits read and
at least `n` bits left: it returns the value of the next `n` bits and has read them. -/
theorem readBits_bool_spec {s : InputBitStream} {bits : List Bool} {cur n : Nat}
    (hs : s.Reads bits cur) (hn1 : 1 ≤ n) (hn : n ≤ 32) (hle : cur + n ≤ bits.length) :
    s.readBits_bool n =
        Except.ok (some (bits_value ((bits.drop cur).take n)),
          { s with m_current_bit := cur + n }) ∧
      ({ s with m_current_bit := cur + n } : InputBitStream).Reads bits (cur + n) := by
  obtain ⟨h1, h2, h3, h4, h5⟩ := hs
  have hloop := readBits_loop s h5 h4 n hn (by rw [h2]; exact hle)
  rw [h2] at hloop
  have hc1 : (decide (n > 0) && decide (n ≤ 32)) = true := by
    simp only [Bool.and_eq_true, decide_eq_true_eq]; omega
  refine ⟨?_, h1, rfl, hle, h4, h5⟩
  simp only [readBits_bool, hc1, check_tt, res_ok_bind, h2,
    u32_of_lt (by omega : cur + n < 4294967296)]
  rw [if_neg (by omega), hloop]
  simp only [res_ok_bind, decide_eq_true (h1 ▸ hle : cur + n ≤ s.m_size_in_bits), check_tt,
    res_pure]

theorem readBits_spec {s : InputBitStream} {bits : List Bool} {cur n : Nat}
    (hs : s.Reads bits cur) (hn1 : 1 ≤ n) (hn : n ≤ 32) (hle : cur + n ≤ bits.length) :
    s.readBits n =
        Except.ok (bits_value ((bits.drop cur).take n), { s with m_current_bit := cur + n }) := by
  simp only [readBits, (readBits_bool_spec hs hn1 hn hle).1, res_ok_bind, res_pure]

theorem remainingBits_of_reads {s : InputBitStream} {bits : List Bool} {cur : Nat}
    (hs : s.Reads bits cur) : s.remainingBits = bits.length - cur := by
  obtain ⟨h1, h2, h3, h4, -⟩ := hs
  simp only [remainingBits, u32, h1, h2]
  omega

theorem isEmpty_of_reads {s : InputBitStream} {bits : List Bool} {cur : Nat}
    (hs : s.Reads bits cur) : s.isEmpty = Except.ok (decide (cur = bits.length)) := by
  obtain ⟨h1, h2, h3, h4, -⟩ := hs
  simp only [isEmpty, h1, h2, decide_eq_true h3, check_tt, res_ok_bind, res_pure]

/-- The next `n` bits of a stream whose unread bits begin with the `n` low bits of `v`:
their value is `v % 2 ^ n`. -/
theorem value_of_next {bits rest : List Bool} {cur n v : Nat} (hcur : cur ≤ bits.length)
    (h : bits.drop cur = low_bits n v ++ rest) :
    bits_value ((bits.drop cur).take n) = v % 2 ^ n ∧ cur + n ≤ bits.length ∧
      bits.drop (cur + n) = rest := by
  have hl : (bits.drop cur).length = n + rest.length := by
    rw [h, List.length_append, low_bits_length]
  rw [List.length_drop] at hl
  refine ⟨?_, by omega, ?_⟩
  · rw [h, List.take_left' (low_bits_length n v), bits_value_low_bits]
  · rw [← List.drop_drop, h, List.drop_left' (low_bits_length n v)]

end InputBitStream

/-! ## The bit-stream round trip -/

theorem append_all_spec :
    ∀ (pairs : List (Nat × Nat)) (s : OutputBitStream), s.m_pending_bits < 8 →
      (∀ p ∈ pairs, p.2 ≤ 32) →
      ∃ s', append_all s pairs = Except.ok s' ∧ s'.m_pending_bits < 8 ∧
        s'.bits = s.bits ++ pairs.flatMap (fun p => low_bits p.2 p.1) ∧
        s'.m_currentCase = s.m_currentCase ∧
        s'.nb_bits = s.nb_bits + (pairs.map Prod.snd).sum := by
  intro pairs
  induction pairs with
  | nil => intro s hs _; exact ⟨s, rfl, hs, by simp, rfl, by simp⟩
  | cons p pairs ih =>
    intro s hs hall
    obtain ⟨v, n⟩ := p
    obtain ⟨s1, h1, h2, h3, h4, h5⟩ :=
      s.appendBits_spec v (hall (v, n) (List.mem_cons_self _ _)) hs
    obtain ⟨s2, k1, k2, k3, k4, k5⟩ :=
      ih s1 h2 (fun p hp => hall p (List.mem_cons_of_mem _ hp))
    refine ⟨s2, ?_, k2, ?_, k4.trans h4, ?_⟩
    · simp only [append_all, h1, res_ok_bind, k1]
    · rw [k3, h3, List.flatMap_cons, List.append_assoc]
    · rw [k5, h5, List.map_cons, List.sum_cons]; omega

theorem read_all_spec {bits : List Bool} :
    ∀ (pairs : List (Nat × Nat)) (cur : Nat) (inp : InputBitStream), inp.Reads bits cur →
      bits.drop cur = pairs.flatMap (fun p => low_bits p.2 p.1) →
      (∀ p ∈ pairs, 1 ≤ p.2 ∧ p.2 ≤ 32) →
      ∃ inp', read_all inp (pairs.map Prod.snd) = Except.ok (expected_reads pairs, inp') ∧
        inp'.Reads bits bits.length := by
  intro pairs
  induction pairs with
  | nil =>
    intro cur inp hr hd _
    have hcur : cur = bits.length := by
      have := congrArg List.length hd
      rw [List.length_drop] at this
      simp only [List.flatMap_nil, List.length_nil] at this
      have := hr.2.2.1
      omega
    exact ⟨inp, rfl, hcur ▸ hr⟩
  | cons p pairs ih =>
    intro cur inp hr hd hall
    obtain ⟨v, n⟩ := p
    obtain ⟨hn1, hn⟩ := hall (v, n) (List.mem_cons_self _ _)
    rw [List.flatMap_cons] at hd
    obtain ⟨hv, hle, hrest⟩ := InputBitStream.value_of_next hr.2.2.1 hd
    have hread := InputBitStream.readBits_spec hr hn1 hn hle
    have hr2 := (InputBitStream.readBits_bool_spec hr hn1 hn hle).2
    obtain ⟨inp', k1, k2⟩ := ih (cur + n) _ hr2 hrest
      (fun p hp => hall p (List.mem_cons_of_mem _ hp))
    refine ⟨inp', ?_, k2⟩
    simp only [List.map_cons, read_all, hread, res_ok_bind, InputBitStream.isEmpty_of_reads hr2,
      k1, res_pure, hv]
    cases pairs with
    | nil =>
      have : cur + n = bits.length := by
        have := congrArg List.length hrest
        rw [List.length_drop] at this
        simp only [List.flatMap_nil, List.length_nil] at this
        omega
      simp [expected_reads, this]
    | cons q pairs =>
      obtain ⟨v2, n2⟩ := q
      have hq := hall (v2, n2) (List.mem_cons_of_mem _ (List.mem_cons_self _ _))
      have : cur + n ≠ bits.length := by
        have := congrArg List.length hrest
        rw [List.length_drop, List.flatMap_cons, List.length_append, low_bits_length] at this
        omega
      simp [expected_reads, this]

end Compress

namespace Compress

open CASE_KIND SYMBOL_NAME_CODES

/-! ## The decoder, one code at a time -/

theorem Decodes.nil (c : CASE_KIND) (once : Bool) : Decodes [] c once [] c once := by
  intro bits rest cur fuel inp acc hr hc hd hf
  refine ⟨fuel, ?_, ?_⟩
  · have := congrArg List.length hd
    rw [List.length_drop] at this
    simp only [List.nil_append] at this
    omega
  · have e : ({ inp with
        m_current_bit := cur + ([] : List Bool).length,
        m_currentCase := c } : InputBitStream) = inp := by
      cases inp
      simp only [List.length_nil, Nat.add_zero] at *
      rw [← hc, ← hr.2.1]
    rw [e, List.append_nil]

end Compress

namespace Compress

open CASE_KIND SYMBOL_NAME_CODES

/-! ## Characters -/

theorem isdigit_iff (c : Char) : isdigit c = true ↔ 48 ≤ c.toNat ∧ c.toNat ≤ 57 := by
  simp only [isdigit, Bool.and_eq_true, decide_eq_true_eq, Char.le_def]
  rfl

theorem islower_iff (c : Char) : islower c = true ↔ 97 ≤ c.toNat ∧ c.toNat ≤ 122 := by
  simp only [islower, Bool.and_eq_true, decide_eq_true_eq, Char.le_def]
  rfl

theorem isupper_iff (c : Char) : isupper c = true ↔ 65 ≤ c.toNat ∧ c.toNat ≤ 90 := by
  simp only [isupper, Bool.and_eq_true, decide_eq_true_eq, Char.le_def]
  rfl

theorem char_of_toNat {c : Char} {n : Nat} (h : c.toNat = n) : Char.ofNat n = c := by
  rw [← h, Char.ofNat_toNat]

theorem zero_of_toNat {c : Char} (h : c.toNat = 48) : c = '0' := by
  rw [← Char.ofNat_toNat c, h]

/-! ## `string_view` -/

theorem char_at_eq {str : List Char} {i : Nat} {c : Char} (h : str[i]? = some c) :
    string_view.char_at str i = Except.ok c := by
  have hlt : i < str.length := by
    by_contra hc
    rw [List.getElem?_eq_none (by omega)] at h
    cases h
  simp only [string_view.char_at, decide_eq_true hlt, check_tt, res_ok_bind,
    List.get?_eq_getElem?, h, res_pure]

theorem char_at_lt {str : List Char} {i : Nat} (h : i < str.length) :
    string_view.char_at str i = Except.ok str[i] :=
  char_at_eq (List.getElem?_eq_getElem h)

theorem drop_eq_cons {str : List Char} {i : Nat} (h : i < str.length) :
    str.drop i = str[i] :: str.drop (i + 1) :=
  List.drop_eq_getElem_cons h

theorem remove_prefix_eq {str : List Char} {n : Nat} (h : n ≤ str.length) :
    string_view.remove_prefix str n = Except.ok (str.drop n) := by
  simp only [ string_view.remove_prefix, decide_eq_true h, check_tt, res_ok_bind, res_pure]

/-! ## The loops of the encoder over the characters -/

theorem extract_loop_eq (str : List Char) (length : Nat) (hlen : length ≤ str.length)
    (hz : ∀ c, str[0]? = some c → c ≠ '0') :
    ∀ (fuel i number : Nat), length - i ≤ fuel →
      (∀ c ∈ (str.take length).drop i, isdigit c = true) →
      extract_4_digits_number_loop str length fuel i number =
        Except.ok (((str.take length).drop i).foldl
          (fun acc c => acc * 10 + (c.toNat - '0'.toNat)) number) := by
  intro fuel
  induction fuel with
  | zero =>
    intro i number h _
    rw [extract_4_digits_number_loop, List.drop_of_length_le
      (by rw [List.length_take]; omega)]
    rfl
  | succ fuel ih =>
    intro i number h hall
    rw [extract_4_digits_number_loop]
    by_cases hi : i < length
    · have hi2 : i < str.length := by omega
      have hi3 : i < (str.take length).length := by rw [List.length_take]; omega
      have hdrop : (str.take length).drop i = str[i] :: (str.take length).drop (i + 1) := by
        rw [List.drop_eq_getElem_cons hi3, List.getElem_take]
      rw [hdrop] at hall ⊢
      have hdig : isdigit str[i] = true := hall _ (List.mem_cons_self _ _)
      rw [if_pos hi, char_at_lt hi2]
      simp only [res_ok_bind, hdig, check_tt]
      have hnz : ¬ (i = 0 ∧ str[i] = '0') := by
        rintro ⟨rfl, e⟩
        exact hz _ (List.getElem?_eq_getElem hi2) e
      rw [if_neg hnz, ih (i + 1) _ (by omega)
        (fun c hc => hall c (List.mem_cons_of_mem _ hc))]
      rfl
    · rw [if_neg hi, List.drop_of_length_le (by rw [List.length_take]; omega)]
      rfl

/-- `extract_4_digits_number` on digits that begin with a zero. -/
theorem extract_zero (t : List Char) : extract_4_digits_number ('0' :: t) = Except.ok 0 := by
  have h1 : min 4 ('0' :: t).length = (min 4 ('0' :: t).length - 1) + 1 := by
    simp only [List.length_cons]; omega
  rw [extract_4_digits_number]
  rw [h1, extract_4_digits_number_loop, if_pos (Nat.succ_pos _),
    char_at_eq (show ('0' :: t)[0]? = some '0' from by simp)]
  rfl

/-- `extract_4_digits_number` on digits that do not begin with a zero: the number that the
first four write. -/
theorem extract_eq_value {ds : List Char} (hz : ∀ c, ds[0]? = some c → c ≠ '0')
    (hall : ∀ c ∈ ds.take 4, isdigit c = true) :
    extract_4_digits_number ds = Except.ok (digits_value (ds.take 4)) := by
  rw [extract_4_digits_number]
  have htake : ds.take (min 4 ds.length) = ds.take 4 := by
    rcases Nat.le_total 4 ds.length with h | h
    · rw [Nat.min_eq_left h]
    · rw [Nat.min_eq_right h, List.take_length, List.take_of_length_le h]
  have h := extract_loop_eq ds (min 4 ds.length) (Nat.min_le_right _ _) hz
    (min 4 ds.length) 0 0 (by omega)
    (by rw [List.drop_zero, htake]; exact hall)
  rw [h, List.drop_zero, htake, digits_value]

theorem digits_value_append (l : List Char) (c : Char) :
    digits_value (l ++ [c]) = digits_value l * 10 + (c.toNat - 48) := by
  simp [digits_value, List.foldl_append]

theorem digits_value_lt (l : List Char) (h : ∀ c ∈ l, isdigit c = true) :
    digits_value l < 10 ^ l.length := by
  induction l using List.reverseRecOn with
  | nil => simp [digits_value]
  | append_singleton l c ih =>
    have h1 := ih (fun x hx => h x (List.mem_append_left _ hx))
    have h2 := (isdigit_iff c).mp (h c (List.mem_append_right _ (List.mem_singleton_self c)))
    rw [digits_value_append, List.length_append, List.length_singleton, pow_succ]
    omega

theorem digits_value_ge (d : Char) (t : List Char) (hd : isdigit d = true) (hz : d ≠ '0') :
    10 ^ t.length ≤ digits_value (d :: t) := by
  induction t using List.reverseRecOn with
  | nil =>
    have h2 := (isdigit_iff d).mp hd
    have : d.toNat ≠ 48 := fun e => hz (zero_of_toNat e)
    simp only [digits_value, List.foldl_cons, List.foldl_nil, List.length_nil, pow_zero]
    show 1 ≤ 0 * 10 + (d.toNat - 48)
    omega
  | append_singleton t c ih =>
    rw [← List.cons_append, digits_value_append, List.length_append, List.length_singleton,
      pow_succ]
    omega

/-- The decimal digits of the number that digits without a leading zero write are these
digits. -/
theorem digits_rev (d : Char) (t : List Char) (hall : ∀ c ∈ d :: t, isdigit c = true)
    (hz : d ≠ '0') :
    digits_value (d :: t) ≠ 0 ∧
      (Nat.digits 10 (digits_value (d :: t))).reverse.map
        (fun x => Char.ofNat ('0'.toNat + x)) = d :: t := by
  induction t using List.reverseRecOn with
  | nil =>
    have h2 := (isdigit_iff d).mp (hall d (List.mem_cons_self _ _))
    have hne : d.toNat ≠ 48 := fun e => hz (zero_of_toNat e)
    have hv : digits_value [d] = d.toNat - 48 := by
      simp only [digits_value, List.foldl_cons, List.foldl_nil]
      show 0 * 10 + (d.toNat - 48) = _
      omega
    rw [hv]
    refine ⟨by omega, ?_⟩
    rw [Nat.digits_of_lt 10 _ (by omega) (by omega)]
    simp only [List.reverse_singleton, List.map_cons, List.map_nil]
    rw [char_of_toNat (show d.toNat = '0'.toNat + (d.toNat - 48) from by
      show d.toNat = 48 + (d.toNat - 48); omega)]
  | append_singleton t c ih =>
    have hall1 : ∀ x ∈ d :: t, isdigit x = true := by
      intro x hx
      apply hall x
      rw [← List.cons_append]
      exact List.mem_append_left _ hx
    obtain ⟨h0, hdig⟩ := ih hall1
    have h2 := (isdigit_iff c).mp (hall c (by
      rw [← List.cons_append]
      exact List.mem_append_right _ (List.mem_singleton_self c)))
    have hv : digits_value (d :: (t ++ [c])) = digits_value (d :: t) * 10 + (c.toNat - 48) := by
      rw [← List.cons_append, digits_value_append]
    rw [hv]
    refine ⟨by omega, ?_⟩
    rw [Nat.digits_def' (by decide) (by omega),
      show (digits_value (d :: t) * 10 + (c.toNat - 48)) % 10 = c.toNat - 48 from by omega,
      show (digits_value (d :: t) * 10 + (c.toNat - 48)) / 10 = digits_value (d :: t) from by
        omega]
    rw [List.reverse_cons, List.map_append, hdig, List.map_cons, List.map_nil,
      char_of_toNat (show c.toNat = '0'.toNat + (c.toNat - 48) from by
        show c.toNat = 48 + (c.toNat - 48); omega)]
    rfl

/-- `std::to_string` of the number that digits without a leading zero write gives back
the digits. -/
theorem to_string_digits (d : Char) (t : List Char) (hall : ∀ c ∈ d :: t, isdigit c = true)
    (hz : d ≠ '0') : to_string (digits_value (d :: t)) = d :: t := by
  obtain ⟨h0, h1⟩ := digits_rev d t hall hz
  rw [to_string, if_neg h0, h1]

end Compress

namespace Compress

open CASE_KIND SYMBOL_NAME_CODES

/-! ## `encodeNumber` -/

/-- A code of five bits and a value of `k` bits are appended. -/
theorem emit_two (stream : OutputBitStream) (code v : Nat) {k : Nat} (hk : k ≤ 32)
    (hs : stream.m_pending_bits < 8) :
    ∃ s1 s2, stream.appendBits code BIT_WIDTH = Except.ok s1 ∧
      s1.appendBits v k = Except.ok s2 ∧ s2.m_pending_bits < 8 ∧
      s2.bits = stream.bits ++ (low_bits 5 code ++ low_bits k v) ∧
      s2.m_currentCase = stream.m_currentCase ∧ s2.nb_bits = stream.nb_bits + (5 + k) := by
  obtain ⟨s1, h1, h2, h3, h4, h5⟩ := stream.appendBits_spec code (by decide : 5 ≤ 32) hs
  obtain ⟨s2, k1, k2, k3, k4, k5⟩ := s1.appendBits_spec v hk h2
  refine ⟨s1, s2, h1, k1, k2, ?_, k4.trans h4, ?_⟩
  · rw [k3, h3, List.append_assoc]
  · rw [k5, h5, Nat.add_assoc]

theorem digit_bounds {c : Char} (h : isdigit c = true) :
    48 ≤ c.toNat ∧ c.toNat ≤ 57 := (isdigit_iff c).mp h

theorem digits_value_one (a : Char) : digits_value [a] = a.toNat - 48 := by
  simp only [digits_value, List.foldl_cons, List.foldl_nil]
  show 0 * 10 + (a.toNat - 48) = _
  omega

theorem digits_value_two (a b : Char) :
    digits_value [a, b] = (a.toNat - 48) * 10 + (b.toNat - 48) := by
  rw [show [a, b] = [a] ++ [b] from rfl, digits_value_append, digits_value_one]

theorem digits_value_three (a b c : Char) :
    digits_value [a, b, c] = ((a.toNat - 48) * 10 + (b.toNat - 48)) * 10 + (c.toNat - 48) := by
  rw [show [a, b, c] = [a, b] ++ [c] from rfl, digits_value_append, digits_value_two]

theorem digits_value_four (a b c d : Char) :
    digits_value [a, b, c, d] =
      (((a.toNat - 48) * 10 + (b.toNat - 48)) * 10 + (c.toNat - 48)) * 10 + (d.toNat - 48) := by
  rw [show [a, b, c, d] = [a, b, c] ++ [d] from rfl, digits_value_append, digits_value_three]

end Compress

namespace Compress

open CASE_KIND SYMBOL_NAME_CODES

/-! ## `encodeNextSymbolName` -/

end Compress

namespace Compress

open CASE_KIND SYMBOL_NAME_CODES

/-! ## The chunks of `encodeNumber` -/

theorem number_chunk_2 {n : Nat} (h : n ≤ 3) :
    number_chunk n = low_bits 5 DIGITS_2BITS ++ low_bits 2 n := by
  rw [number_chunk, if_pos h]

theorem number_chunk_6 {n : Nat} (h1 : 3 < n) (h2 : n ≤ 67) :
    number_chunk n = low_bits 5 DIGITS_6BITS ++ low_bits 6 (n - 4) := by
  rw [number_chunk, if_neg (by omega), if_pos h2]

theorem number_chunk_10 {n : Nat} (h1 : 67 < n) :
    number_chunk n = low_bits 5 DIGITS_10BITS ++ low_bits 10 (n - 68) := by
  rw [number_chunk, if_neg (by omega), if_neg (by omega)]

theorem to_string_zero : to_string 0 = ['0'] := rfl

theorem digits_value_zero : digits_value ['0'] = 0 := by decide

/-- Digits without a leading zero that write a number below `10 ^ k` are at most `k`. -/
theorem length_le_of_value_lt {d : Char} {t : List Char} (hd : isdigit d = true)
    (hz : d ≠ '0') {k : Nat} (h : digits_value (d :: t) < 10 ^ (k + 1)) : t.length ≤ k := by
  have h1 := digits_value_ge d t hd hz
  by_contra hlt
  have : 10 ^ (k + 1) ≤ 10 ^ t.length := Nat.pow_le_pow_right (by decide) (by omega)
  omega

/-- The first piece of digits without a leading zero. -/
theorem first_piece_cons {d : Char} (t : List Char) (hz : d ≠ '0') :
    first_piece (d :: t) =
      if digits_value ((d :: t).take 4) ≤ 1091 then (d :: t).take 4 else (d :: t).take 3 := by
  rw [first_piece, if_neg hz]

theorem first_piece_zero (t : List Char) : first_piece ('0' :: t) = ['0'] := by
  rw [first_piece, if_pos rfl]

/-- One call of `encodeNumber`, with fuel for it: the chunk of the first piece of the
digits is appended, and the call returns when no digit is left, or goes on with the digits
that are left. -/
theorem encodeNumber_step {ds : List Char} (hne : ds ≠ [])
    (hall : ∀ c ∈ ds, isdigit c = true) (f : Nat) (stream : OutputBitStream)
    (hs : stream.m_pending_bits < 8) :
    ∃ s2 : OutputBitStream, s2.m_pending_bits < 8 ∧
      s2.bits = stream.bits ++ number_chunk (digits_value (first_piece ds)) ∧
      s2.m_currentCase = stream.m_currentCase ∧
      Encoder.encodeNumber_loop (f + 1) stream ds =
        (if ds.drop (first_piece ds).length = [] then Except.ok s2
          else Encoder.encodeNumber_loop f s2 (ds.drop (first_piece ds).length)) ∧
      first_piece ds ≠ [] ∧ first_piece ds = ds.take (first_piece ds).length ∧
      digits_value (first_piece ds) ≤ 1091 ∧
      to_string (digits_value (first_piece ds)) = first_piece ds := by
  obtain ⟨d, t, rfl⟩ : ∃ d t, ds = d :: t := by
    cases ds with
    | nil => exact absurd rfl hne
    | cons d t => exact ⟨d, t, rfl⟩
  have hd := digit_bounds (hall d (List.mem_cons_self _ _))
  rw [Encoder.encodeNumber_loop]
  simp only [List.isEmpty_cons, Bool.not_false, check_tt, res_ok_bind]
  by_cases hz : d = '0'
  · -- a leading zero
    subst hz
    rw [extract_zero, first_piece_zero]
    simp only [res_ok_bind, List.length_singleton, List.drop_succ_cons, List.drop_zero,
      digits_value_zero]
    obtain ⟨s1, s2, e1, e2, h2, h3, h4, -⟩ := emit_two stream DIGITS_2BITS 0
      (by decide : 2 ≤ 32) hs
    rw [if_pos (by decide), e1]
    simp only [res_ok_bind, e2]
    refine ⟨s2, h2, by rw [h3, number_chunk_2 (by decide)], h4, ?_, by simp, by simp,
      by decide, rfl⟩
    by_cases ht : t = []
    · subst ht
      rw [if_neg (by simp), if_pos rfl]
      rfl
    · have htl : 0 < t.length := List.length_pos.mpr ht
      rw [if_pos ⟨trivial, by simp only [List.length_cons]; omega⟩,
        remove_prefix_eq (by simp only [List.length_cons]; omega), if_neg ht]
      simp only [res_ok_bind, List.drop_succ_cons, List.drop_zero]
  · -- no leading zero
    have hz2 : ∀ c, (d :: t)[0]? = some c → c ≠ '0' := by
      intro c hc
      simp only [List.getElem?_cons_zero, Option.some.injEq] at hc
      rw [← hc]; exact hz
    have hd1 : isdigit d = true := hall d (List.mem_cons_self _ _)
    rw [extract_eq_value hz2 (fun c hc => hall c (List.mem_of_mem_take hc)),
      first_piece_cons t hz]
    simp only [res_ok_bind]
    -- the first four digits
    have htake : (d :: t).take 4 = d :: t.take 3 := rfl
    have hall4 : ∀ c ∈ d :: t.take 3, isdigit c = true := by
      intro c hc
      rw [← htake] at hc
      exact hall c (List.mem_of_mem_take hc)
    have hpos : 1 ≤ digits_value (d :: t.take 3) := by
      have := digits_value_ge d (t.take 3) hd1 hz
      have h1 : 1 ≤ 10 ^ (t.take 3).length := Nat.one_le_pow _ _ (by decide)
      omega
    have hlen3 : (t.take 3).length = min 3 t.length := List.length_take _ _
    rw [htake]
    by_cases h1091 : digits_value (d :: t.take 3) ≤ 1091
    · rw [if_pos h1091]
      have hstr := to_string_digits d (t.take 3) hall4 hz
      have hpiece : d :: t.take 3 = (d :: t).take (d :: t.take 3).length := by
        rw [List.length_cons, hlen3]
        show _ = d :: t.take (min 3 t.length)
        congr 1
        rcases Nat.le_total 3 t.length with h | h
        · rw [Nat.min_eq_left h]
        · rw [Nat.min_eq_right h, List.take_of_length_le h, List.take_of_length_le (le_refl _)]
      have hdrop : (d :: t).drop (d :: t.take 3).length = t.drop 3 := by
        rw [List.length_cons, hlen3, List.drop_succ_cons]
        rcases Nat.le_total 3 t.length with h | h
        · rw [Nat.min_eq_left h]
        · rw [Nat.min_eq_right h, List.drop_of_length_le (le_refl _),
            List.drop_of_length_le h]
      rw [hdrop]
      by_cases h3 : digits_value (d :: t.take 3) ≤ 3
      · -- one digit, up to 3
        have hl : (t.take 3).length ≤ 0 :=
          length_le_of_value_lt hd1 hz (show _ < 10 ^ (0 + 1) from by omega)
        have ht : t = [] := by
          rw [hlen3] at hl
          apply List.eq_nil_of_length_eq_zero
          omega
        obtain ⟨s1, s2, e1, e2, h2, k3, h4, -⟩ := emit_two stream DIGITS_2BITS
          (digits_value (d :: t.take 3)) (by decide : 2 ≤ 32) hs
        rw [if_pos h3, e1]
        simp only [res_ok_bind, e2]
        rw [if_neg (by omega)]
        refine ⟨s2, h2, by rw [k3, number_chunk_2 h3], h4, ?_, by simp, hpiece, h1091, hstr⟩
        rw [if_pos (by rw [ht]; rfl)]
        rfl
      · by_cases h67 : digits_value (d :: t.take 3) ≤ 67
        · -- up to two digits, up to 67
          have hl : (t.take 3).length ≤ 1 :=
            length_le_of_value_lt hd1 hz (show _ < 10 ^ (1 + 1) from by omega)
          have ht : t.drop 3 = [] := by
            rw [hlen3] at hl
            apply List.drop_of_length_le
            omega
          obtain ⟨s1, s2, e1, e2, h2, k3, h4, -⟩ := emit_two stream DIGITS_6BITS
            (digits_value (d :: t.take 3) - 4) (by decide : 6 ≤ 32) hs
          rw [if_neg h3, if_pos h67, e1]
          simp only [res_ok_bind, e2]
          refine ⟨s2, h2, by rw [k3, number_chunk_6 (by omega) h67], h4, ?_, by simp, hpiece,
            h1091, hstr⟩
          rw [if_pos ht]
        · -- up to four digits, up to 1091
          obtain ⟨s1, s2, e1, e2, h2, k3, h4, -⟩ := emit_two stream DIGITS_10BITS
            (digits_value (d :: t.take 3) - 68) (by decide : 10 ≤ 32) hs
          rw [if_neg h3, if_neg h67, if_pos h1091, e1]
          simp only [res_ok_bind, e2]
          refine ⟨s2, h2, by rw [k3, number_chunk_10 (by omega)], h4, ?_, by simp, hpiece,
            h1091, hstr⟩
          by_cases hl4 : (d :: t).length > 4
          · have hne3 : t.drop 3 ≠ [] := by
              intro h
              have := congrArg List.length h
              rw [List.length_drop] at this
              simp only [List.length_cons, List.length_nil] at hl4 this
              omega
            rw [if_pos hl4, remove_prefix_eq (by omega), if_neg hne3]
            simp only [res_ok_bind, List.drop_succ_cons]
          · have h3' : t.drop 3 = [] := by
              apply List.drop_of_length_le
              simp only [List.length_cons] at hl4
              omega
            rw [if_neg hl4, if_pos h3']
            rfl
    · -- the first four digits write more than 1091: three digits in one code
      rw [if_neg h1091]
      have hl4 : 3 ≤ (t.take 3).length := by
        have := digits_value_lt (d :: t.take 3) hall4
        by_contra hlt
        have h10 : 10 ^ (d :: t.take 3).length ≤ 10 ^ 3 :=
          Nat.pow_le_pow_right (by decide) (by simp only [List.length_cons]; omega)
        omega
      rw [hlen3] at hl4
      obtain ⟨b, c3, c4, t', rfl⟩ : ∃ b c3 c4 t', t = b :: c3 :: c4 :: t' := by
        rcases t with _ | ⟨b, _ | ⟨c3, _ | ⟨c4, t'⟩⟩⟩
        · simp at hl4
        · simp at hl4
        · simp at hl4
        · exact ⟨b, c3, c4, t', rfl⟩
      have hb := digit_bounds (hall b (by simp))
      have hc3 := digit_bounds (hall c3 (by simp))
      have hc4 := digit_bounds (hall c4 (by simp))
      simp only [List.take_succ_cons, List.take_zero, digits_value_four] at h1091 ⊢
      have hstr := to_string_digits d [b, c3]
        (fun c hc => hall c (by
          simp only [List.mem_cons, List.mem_singleton, List.not_mem_nil,
            or_false] at hc ⊢
          tauto)) hz
      rw [digits_value_three] at hstr
      have hn3 : (d.toNat - '0'.toNat) * 100 + (b.toNat - '0'.toNat) * 10 +
          (c3.toNat - '0'.toNat) * 1 =
          ((d.toNat - 48) * 10 + (b.toNat - 48)) * 10 + (c3.toNat - 48) := by
        show (d.toNat - 48) * 100 + (b.toNat - 48) * 10 + (c3.toNat - 48) * 1 = _
        omega
      have hlen4 : (d :: b :: c3 :: c4 :: t').length = t'.length + 4 := by
        simp only [List.length_cons]
      obtain ⟨s1, s2, e1, e2, h2, k3, h4, -⟩ := emit_two stream DIGITS_10BITS
        (((d.toNat - 48) * 10 + (b.toNat - 48)) * 10 + (c3.toNat - 48) - 68)
        (by decide : 10 ≤ 32) hs
      rw [if_neg (by omega), if_neg (by omega), if_neg h1091]
      simp only [decide_eq_true (show (d :: b :: c3 :: c4 :: t').length > 3 from by
        rw [hlen4]; omega), check_tt, res_ok_bind,
        char_at_eq (show (d :: b :: c3 :: c4 :: t')[0]? = some d from by simp),
        char_at_eq (show (d :: b :: c3 :: c4 :: t')[1]? = some b from by simp),
        char_at_eq (show (d :: b :: c3 :: c4 :: t')[2]? = some c3 from by simp), hn3, e1]
      rw [show u32 (((d.toNat - 48) * 10 + (b.toNat - 48)) * 10 + (c3.toNat - 48) +
        2 ^ 32 - 68) = ((d.toNat - 48) * 10 + (b.toNat - 48)) * 10 + (c3.toNat - 48) -
          68 from by rw [u32]; omega, e2]
      rw [remove_prefix_eq (by rw [hlen4]; omega)]
      simp only [res_ok_bind, List.drop_succ_cons, List.drop_zero, List.length_cons,
        List.length_nil, digits_value_three]
      refine ⟨s2, h2, by rw [k3, number_chunk_10 (by omega)], h4, ?_, by simp, by simp,
        by omega, hstr⟩
      rw [if_neg (by simp)]

end Compress

namespace Compress

open CASE_KIND SYMBOL_NAME_CODES

/-! ## The decoders of the numbers -/

theorem decode2_spec {inp : InputBitStream} {bits rest : List Bool} {cur v : Nat}
    (hr : inp.Reads bits cur) (hd : bits.drop cur = low_bits 2 v ++ rest) :
    decode2BitsNumber inp = Except.ok (v % 4, { inp with m_current_bit := cur + 2 }) := by
  obtain ⟨hv, hle, -⟩ := InputBitStream.value_of_next hr.2.2.1 hd
  have hrem : decide (inp.remainingBits ≥ 2) = true := by
    rw [InputBitStream.remainingBits_of_reads hr]; exact decide_eq_true (by omega)
  simp only [decode2BitsNumber, hrem, check_tt, res_ok_bind,
    InputBitStream.readBits_spec hr (by decide) (by decide) hle, hv, res_pure]
  rfl

theorem decode6_spec {inp : InputBitStream} {bits rest : List Bool} {cur v : Nat}
    (hr : inp.Reads bits cur) (hd : bits.drop cur = low_bits 6 v ++ rest) :
    decode6BitsNumber inp = Except.ok (v % 64 + 4, { inp with m_current_bit := cur + 6 }) := by
  obtain ⟨hv, hle, -⟩ := InputBitStream.value_of_next hr.2.2.1 hd
  have hrem : decide (inp.remainingBits ≥ 6) = true := by
    rw [InputBitStream.remainingBits_of_reads hr]; exact decide_eq_true (by omega)
  simp only [decode6BitsNumber, hrem, check_tt, res_ok_bind,
    InputBitStream.readBits_spec hr (by decide) (by decide) hle, hv, res_pure]
  rfl

theorem decode10_spec {inp : InputBitStream} {bits rest : List Bool} {cur v : Nat}
    (hr : inp.Reads bits cur) (hd : bits.drop cur = low_bits 10 v ++ rest) :
    decode10BitsNumber inp =
      Except.ok (v % 1024 + 68, { inp with m_current_bit := cur + 10 }) := by
  obtain ⟨hv, hle, -⟩ := InputBitStream.value_of_next hr.2.2.1 hd
  have hrem : decide (inp.remainingBits ≥ 10) = true := by
    rw [InputBitStream.remainingBits_of_reads hr]; exact decide_eq_true (by omega)
  simp only [decode10BitsNumber, hrem, check_tt, res_ok_bind,
    InputBitStream.readBits_spec hr (by decide) (by decide) hle, hv, res_pure]
  rfl

/-! ## `is_case_valid_for_next_letter` and `handleCurrentCaseMismatch` -/

theorem other_case_letter_of_not_alpha {k : CASE_KIND} {c : Char} (h : isalpha c = false) :
    other_case_letter k c = false := by
  simp only [isalpha, Bool.or_eq_false_iff] at h
  cases k
  · exact h.2
  · exact h.1

/-- The loop of `is_case_valid_for_next_letter` from the index `i`, with enough fuel:
it answers whether no character from `i` on is a letter of the other case. -/
theorem is_case_valid_loop_eq (str : List Char) (k : CASE_KIND) :
    ∀ (fuel i : Nat), str.length - i ≤ fuel →
      is_case_valid_for_next_letter_loop str k fuel i =
        Except.ok ((str.drop i).all (fun c => !other_case_letter k c)) := by
  intro fuel
  induction fuel with
  | zero =>
    intro i h
    rw [List.drop_of_length_le (by omega)]
    rfl
  | succ fuel ih =>
    intro i h
    rw [is_case_valid_for_next_letter_loop]
    by_cases hi : i < str.length
    · rw [if_pos hi, char_at_lt hi, drop_eq_cons hi, List.all_cons]
      simp only [res_ok_bind]
      rw [ih (i + 1) (by omega)]
      cases ha : isalpha str[i]
      · simp only [Bool.false_eq_true, if_false, other_case_letter_of_not_alpha ha,
          Bool.not_false, Bool.true_and]
      · simp only [if_true]
        cases k
        · simp only [true_and, false_and, if_false, other_case_letter, reduceCtorEq]
          cases isupper str[i] <;> simp
        · simp only [true_and, false_and, if_false, other_case_letter, reduceCtorEq]
          cases islower str[i] <;> simp
    · rw [if_neg hi, List.drop_of_length_le (by omega)]
      rfl

theorem is_case_valid_eq {str : List Char} {i : Nat} (hi : i < str.length) (k : CASE_KIND) :
    is_case_valid_for_next_letter str i k =
      Except.ok ((str.drop (i + 1)).all (fun c => !other_case_letter k c)) := by
  simp only [is_case_valid_for_next_letter, decide_eq_true hi, check_tt, res_ok_bind]
  exact is_case_valid_loop_eq str k _ _ (le_refl _)

/-- No later character is a letter of the other case. -/
theorem all_later_iff (str : List Char) (i : Nat) (k : CASE_KIND) :
    (str.drop (i + 1)).all (fun c => !other_case_letter k c) = true ↔
      ∀ (j : Nat) (hj : j < str.length), i < j → other_case_letter k str[j] = false := by
  rw [List.all_eq_true]
  constructor
  · intro h j hj hij
    have hmem : str[j] ∈ str.drop (i + 1) := by
      rw [List.mem_iff_getElem]
      refine ⟨j - (i + 1), by rw [List.length_drop]; omega, ?_⟩
      rw [List.getElem_drop]
      congr 1
      omega
    simpa using h _ hmem
  · intro h c hc
    rw [List.mem_iff_getElem] at hc
    obtain ⟨n, hn, rfl⟩ := hc
    rw [List.length_drop] at hn
    rw [List.getElem_drop]
    simpa using h (i + 1 + n) (by omega) (by omega)

/-- What `handleCurrentCaseMismatch` appends. -/
theorem handle_spec (stream : OutputBitStream) (hs : stream.m_pending_bits < 8)
    {str : List Char} {i : Nat} (hi : i < str.length) :
    ∃ s1, Encoder.handleCurrentCaseMismatch stream str i = Except.ok s1 ∧
      s1.m_pending_bits < 8 ∧
      ((str.drop (i + 1)).all (fun c => !other_case_letter stream.m_currentCase c) = true →
        s1.bits = stream.bits ++ low_bits 5 CASE_INVERSE_ONCE ∧
          s1.m_currentCase = stream.m_currentCase) ∧
      ((str.drop (i + 1)).all (fun c => !other_case_letter stream.m_currentCase c) = false →
        s1.bits = stream.bits ++ low_bits 5 CASE_INVERSE_PERMANENT ∧
          s1.m_currentCase = invertCase stream.m_currentCase) := by
  simp only [Encoder.handleCurrentCaseMismatch, is_case_valid_eq hi, res_ok_bind]
  cases hb : (str.drop (i + 1)).all (fun c => !other_case_letter stream.m_currentCase c)
  · obtain ⟨s1, h1, h2, h3, h4, -⟩ :=
      stream.appendBits_spec CASE_INVERSE_PERMANENT (by decide : 5 ≤ 32) hs
    simp only [Bool.false_eq_true, if_false, BIT_WIDTH, h1, res_ok_bind, res_pure]
    refine ⟨s1.invertCurrentCase, rfl, h2, fun h => by simp at h, fun _ => ⟨h3, ?_⟩⟩
    show invertCase s1.m_currentCase = _
    rw [h4]
  · obtain ⟨s1, h1, h2, h3, h4, -⟩ :=
      stream.appendBits_spec CASE_INVERSE_ONCE (by decide : 5 ≤ 32) hs
    simp only [if_true, BIT_WIDTH, h1]
    exact ⟨s1, rfl, h2, fun _ => ⟨h3, h4⟩, fun h => by simp at h⟩

/-- The step of `encodeNextSymbolName` on a letter whose case is not the current case. -/
theorem mismatch_step (str : List Char) (i : Nat) (hi : i < str.length)
    (stream : OutputBitStream) (hs : stream.m_pending_bits < 8) (fuel : Nat)
    (hmis : other_case_letter stream.m_currentCase str[i] = true) :
    ∃ s1 s2 : OutputBitStream,
      Encoder.handleCurrentCaseMismatch stream str i = Except.ok s1 ∧
      s1.appendBits (LETTER_A +
        (str[i].toNat - (if islower str[i] then 'a' else 'A').toNat)) BIT_WIDTH =
          Except.ok s2 ∧
      Encoder.encodeNextSymbolName_loop str (fuel + 1) stream i =
        Encoder.encodeNextSymbolName_loop str fuel s2 (i + 1) ∧
      s2.bits = s1.bits ++ low_bits 5 (LETTER_A +
        (str[i].toNat - (if islower str[i] then 'a' else 'A').toNat)) ∧
      s2.m_currentCase = s1.m_currentCase ∧ s2.m_pending_bits < 8 := by
  obtain ⟨s1, e1, h1, -, -⟩ := handle_spec stream hs hi
  obtain ⟨s2, e2, h2, h3, h4, -⟩ := s1.appendBits_spec (LETTER_A +
    (str[i].toNat - (if islower str[i] then 'a' else 'A').toNat)) (by decide : 5 ≤ 32) h1
  refine ⟨s1, s2, e1, e2, ?_, h3, h4, h2⟩
  rw [Encoder.encodeNextSymbolName_loop.eq_def]
  dsimp only
  rw [if_pos hi]
  simp only [char_at_lt hi, res_ok_bind]
  cases hk : stream.m_currentCase
  · -- the current case is the lower case, the letter is a capital letter
    rw [hk] at hmis
    have hup : isupper str[i] = true := hmis
    have hb := (isupper_iff _).mp hup
    have hdig : isdigit str[i] = false := by
      cases h : isdigit str[i]
      · rfl
      · have := (isdigit_iff _).mp h; omega
    have hlow : islower str[i] = false := by
      cases h : islower str[i]
      · rfl
      · have := (islower_iff _).mp h; omega
    rw [hlow] at e2
    simp only [Bool.false_eq_true, if_false] at e2
    simp only [hdig, hlow, hup, Bool.false_eq_true, if_false, if_true, hk, ne_eq,
      reduceCtorEq, not_false_eq_true, e1, res_ok_bind, BIT_WIDTH, e2]
  · -- the current case is the upper case, the letter is a small letter
    rw [hk] at hmis
    have hlow : islower str[i] = true := hmis
    have hb := (islower_iff _).mp hlow
    have hdig : isdigit str[i] = false := by
      cases h : isdigit str[i]
      · rfl
      · have := (isdigit_iff _).mp h; omega
    rw [hlow] at e2
    simp only [if_true] at e2
    simp only [hdig, hlow, Bool.false_eq_true, if_false, if_true, hk, ne_eq,
      reduceCtorEq, not_false_eq_true, e1, res_ok_bind, BIT_WIDTH, e2]

end Compress

namespace Compress

open CASE_KIND

/-! ## Claims about the bit streams -/

/-- The size of a stream of `k` bytes and 7 pending bits, when `8 * k + 7` is the largest
`unsigned int`, and after one more bit. -/
theorem size_wraps (k : Nat) (hk : 8 * k + 7 = 4294967295) :
    ∃ s', OutputBitStream.appendBits ⟨CASE_LOWER, 0, 7, List.replicate k 0⟩ 1 1 =
        Except.ok s' ∧
      OutputBitStream.sizeInBits ⟨CASE_LOWER, 0, 7, List.replicate k 0⟩ = 4294967295 ∧
      s'.sizeInBits = 0 := by
  obtain ⟨s', h1, -, -, -, h5⟩ :=
    OutputBitStream.appendBits_spec ⟨CASE_LOWER, 0, 7, List.replicate k 0⟩ 1
      (by decide : 1 ≤ 32) (by show (7 : Nat) < 8; decide)
  have hnb : OutputBitStream.nb_bits ⟨CASE_LOWER, 0, 7, List.replicate k 0⟩ = 4294967295 := by
    simp only [OutputBitStream.nb_bits, List.length_replicate]
    exact hk
  refine ⟨s', h1, ?_, ?_⟩
  · rw [OutputBitStream.sizeInBits_eq, hnb]; norm_num
  · rw [OutputBitStream.sizeInBits_eq, h5, hnb]; norm_num

/-- C29, counterexample. A stream holds 536870911 bytes and 7 pending bits, so that
`sizeInBits()` returns 4294967295; after `appendBits(1, 1)` the last byte is complete and
`sizeInBits()`, computed in `unsigned int`, returns 0: it has not grown by 1. -/
theorem C29_size_wraps_counterexample :
    ∃ s', OutputBitStream.appendBits ⟨CASE_LOWER, 0, 7, List.replicate 536870911 0⟩ 1 1 =
        Except.ok s' ∧
      OutputBitStream.sizeInBits ⟨CASE_LOWER, 0, 7, List.replicate 536870911 0⟩ = 4294967295 ∧
      s'.sizeInBits = 0 :=
  size_wraps 536870911 (by decide)

/-- C29, amended. For every stream with fewer than 8 pending bits, every value `v` and
every `n` from 0 to 32: `appendBits(v, n)` returns; `toString()` of the stream is then its
previous `toString()` followed by `toString(v, n)`, which is the `n` low bits of `v`, most
significant first; and `sizeInBits()` is the previous `sizeInBits()` plus `n` modulo
`2 ^ 32`, so it has grown by exactly `n` when the stream then holds fewer than `2 ^ 32`
bits. -/
theorem C29_appendBits_appends_low_bits (s : OutputBitStream) (v n : Nat) (hn : n ≤ 32)
    (hs : s.m_pending_bits < 8) :
    ∃ s' str vstr, s.appendBits v n = Except.ok s' ∧ s.toString = Except.ok str ∧
      OutputBitStream.toString_value v n = Except.ok vstr ∧
      vstr = (low_bits n v).map bit_char ∧
      s'.toString = Except.ok (str ++ vstr) ∧ s'.m_pending_bits < 8 ∧
      s'.sizeInBits = u32 (s.sizeInBits + n) ∧
      (s.nb_bits + n < 2 ^ 32 → s'.sizeInBits = s.sizeInBits + n) := by
  obtain ⟨s', h1, h2, h3, -, h5⟩ := s.appendBits_spec v hn hs
  refine ⟨s', _, _, h1, s.toString_eq (by omega), OutputBitStream.toString_value_eq v hn, rfl,
    ?_, h2, ?_, ?_⟩
  · rw [s'.toString_eq (by omega), h3, List.map_append]
  · rw [OutputBitStream.sizeInBits_eq, OutputBitStream.sizeInBits_eq, h5, u32]
    omega
  · intro hlt
    rw [OutputBitStream.sizeInBits_eq, OutputBitStream.sizeInBits_eq, h5,
      Nat.mod_eq_of_lt hlt, Nat.mod_eq_of_lt (by omega)]

/-- Witness for C29: the five bits of 18 are appended to a stream that holds the four bits
of 11. -/
theorem C29_appendBits_appends_low_bits_witness :
    ∃ s' str vstr, OutputBitStream.appendBits ⟨CASE_LOWER, 11, 4, []⟩ 18 5 = Except.ok s' ∧
      OutputBitStream.toString ⟨CASE_LOWER, 11, 4, []⟩ = Except.ok str ∧
      OutputBitStream.toString_value 18 5 = Except.ok vstr ∧
      vstr = (low_bits 5 18).map bit_char ∧
      s'.toString = Except.ok (str ++ vstr) ∧ s'.m_pending_bits < 8 ∧
      s'.sizeInBits = u32 (OutputBitStream.sizeInBits ⟨CASE_LOWER, 11, 4, []⟩ + 5) ∧
      (OutputBitStream.nb_bits ⟨CASE_LOWER, 11, 4, []⟩ + 5 < 2 ^ 32 →
        s'.sizeInBits = OutputBitStream.sizeInBits ⟨CASE_LOWER, 11, 4, []⟩ + 5) :=
  C29_appendBits_appends_low_bits ⟨CASE_LOWER, 11, 4, []⟩ 18 5 (by decide) (by decide)

/-- The round trip of `k` pairs `(0, 32)` when `32 * k` is `2 ^ 32`. -/
theorem round_trip_wraps (k : Nat) (hk : 32 * k = 4294967296) :
    ∃ out str inp, append_all {} (List.replicate k (0, 32)) = Except.ok out ∧
      out.toString = Except.ok str ∧ InputBitStream.ctor str = Except.ok inp ∧
      inp.remainingBits = 0 ∧ inp.isEmpty = Except.ok true ∧
      inp.readBits 32 = Except.error Err.logic_error := by
  obtain ⟨out, h1, h2, -, -, h5⟩ := append_all_spec (List.replicate k (0, 32)) {}
    (by decide) (by
      intro p hp
      rw [List.eq_of_mem_replicate hp])
  obtain ⟨inp, k1, k2, k3, -, -⟩ := InputBitStream.ctor_spec out.bits
  have hsum : out.nb_bits = 4294967296 := by
    rw [h5, List.map_replicate, List.sum_replicate]
    simp only [OutputBitStream.nb_bits, List.length_nil, smul_eq_mul]
    omega
  rw [out.bits_length, hsum] at k2
  have k2' : inp.m_size_in_bits = 0 := k2
  refine ⟨out, _, inp, h1, out.toString_eq (by omega), k1, ?_, ?_, ?_⟩
  · simp only [InputBitStream.remainingBits, k2', k3, u32]; norm_num
  · simp only [InputBitStream.isEmpty, k2', k3]
    rfl
  · simp only [InputBitStream.readBits, InputBitStream.readBits_bool, k2', k3, u32]
    rfl

/-- C30, counterexample. The pair `(0, 32)` is appended 134217728 times to a fresh
`OutputBitStream`, which then holds `2 ^ 32` bits. The `InputBitStream` built from its
`toString()` counts its bits in `unsigned int`: its size is 0, `isEmpty()` holds before
any read, and the first `readBits(32)` throws instead of returning 0. -/
theorem C30_size_wraps_counterexample :
    ∃ out str inp, append_all {} (List.replicate 134217728 (0, 32)) = Except.ok out ∧
      out.toString = Except.ok str ∧ InputBitStream.ctor str = Except.ok inp ∧
      inp.remainingBits = 0 ∧ inp.isEmpty = Except.ok true ∧
      inp.readBits 32 = Except.error Err.logic_error :=
  round_trip_wraps 134217728 (by decide)

/-- C30, amended. The pairs `(v, n)` of `pairs`, with every `n` from 1 to 32 and fewer
than `2 ^ 32` bits in all, are appended in order to a fresh `OutputBitStream`: every
`appendBits` returns. For the `InputBitStream` built from `toString()` of the result,
`remainingBits()` is `sizeInBits()` of the output, `isEmpty()` holds at once only when
there is no pair, and the successive `readBits(n)` return the values `v % 2 ^ n`, in the
same order, with `isEmpty()` false after every read but the last and true after the
last. -/
theorem C30_bit_stream_round_trip (pairs : List (Nat × Nat))
    (hn : ∀ p ∈ pairs, 1 ≤ p.2 ∧ p.2 ≤ 32) (hsize : (pairs.map Prod.snd).sum < 2 ^ 32) :
    ∃ out str inp inp', append_all {} pairs = Except.ok out ∧
      out.toString = Except.ok str ∧ InputBitStream.ctor str = Except.ok inp ∧
      inp.remainingBits = out.sizeInBits ∧ inp.isEmpty = Except.ok pairs.isEmpty ∧
      read_all inp (pairs.map Prod.snd) = Except.ok (expected_reads pairs, inp') ∧
      inp'.isEmpty = Except.ok true := by
  obtain ⟨out, h1, h2, h3, -, h5⟩ := append_all_spec pairs {} (by decide)
    (fun p hp => (hn p hp).2)
  obtain ⟨inp, k1, k2, k3, -, k5⟩ := InputBitStream.ctor_spec out.bits
  have hnb : out.nb_bits = (pairs.map Prod.snd).sum := by
    rw [h5]
    simp [OutputBitStream.nb_bits]
  have hlen : out.bits.length < 2 ^ 32 := by rw [out.bits_length, hnb]; exact hsize
  rw [Nat.mod_eq_of_lt hlen] at k2
  have hreads : inp.Reads out.bits 0 := ⟨k2, k3, Nat.zero_le _, hlen, k5⟩
  have hbits : out.bits.drop 0 = pairs.flatMap (fun p => low_bits p.2 p.1) := by
    rw [List.drop_zero, h3]
    simp [OutputBitStream.bits, low_bits]
  obtain ⟨inp', r1, r2⟩ := read_all_spec pairs 0 inp hreads hbits hn
  refine ⟨out, _, inp, inp', h1, out.toString_eq (by omega), k1, ?_, ?_, r1, ?_⟩
  · rw [InputBitStream.remainingBits_of_reads hreads, OutputBitStream.sizeInBits_eq,
      out.bits_length, Nat.mod_eq_of_lt (by rw [← out.bits_length]; exact hlen)]
    rfl
  · rw [InputBitStream.isEmpty_of_reads hreads]
    congr 1
    cases pairs with
    | nil =>
      have : out.bits.length = 0 := by rw [out.bits_length, hnb]; rfl
      simp [this]
    | cons p pairs =>
      have hp := (hn p (List.mem_cons_self _ _)).1
      have : out.bits.length ≠ 0 := by
        rw [out.bits_length, hnb, List.map_cons, List.sum_cons]; omega
      simp [Ne.symm this]
  · rw [InputBitStream.isEmpty_of_reads r2]
    simp

/-- Witness for C30: the pairs `(6, 3)` and `(11, 4)`, whose bits are `1101011`. -/
theorem C30_bit_stream_round_trip_witness :
    ∃ out str inp inp', append_all {} [(6, 3), (11, 4)] = Except.ok out ∧
      out.toString = Except.ok str ∧ InputBitStream.ctor str = Except.ok inp ∧
      inp.remainingBits = out.sizeInBits ∧
      inp.isEmpty = Except.ok ([(6, 3), (11, 4)] : List (Nat × Nat)).isEmpty ∧
      read_all inp (([(6, 3), (11, 4)] : List (Nat × Nat)).map Prod.snd) =
        Except.ok (expected_reads [(6, 3), (11, 4)], inp') ∧
      inp'.isEmpty = Except.ok true :=
  C30_bit_stream_round_trip [(6, 3), (11, 4)] (by decide) (by decide)

end Compress

namespace Compress

open CASE_KIND SYMBOL_NAME_CODES

/-! ## Claims about the symbol names -/

end Compress

namespace Compress

open CASE_KIND SYMBOL_NAME_CODES

/-! ## Claims about the numbers and about the case of the letters -/

/-- C31. For every string `ds` of decimal digits without a leading zero (the string `0`
is one of them) whose value `n` is at most 1091, and every stream with fewer than 8 pending
bits: `Encoder::encodeNumber` returns and appends exactly one chunk, `number_chunk n`,
which is the code `DIGITS_2BITS` and `n` in 2 bits when `n ≤ 3`, the code `DIGITS_6BITS`
and `n - 4` in 6 bits when `4 ≤ n ≤ 67`, the code `DIGITS_10BITS` and `n - 68` in 10 bits
when `68 ≤ n ≤ 1091`; `toString()` shows it. And on an input stream whose unread bits
begin with the payload, `decode2BitsNumber`, `decode6BitsNumber`, `decode10BitsNumber`
return `n` and have read the payload. -/
theorem C31_number_up_to_1091_is_one_chunk (ds : List Char) (hne : ds ≠ [])
    (hall : ∀ c ∈ ds, isdigit c = true) (hlead : ds.head? = some '0' → ds = ['0'])
    (hn : digits_value ds ≤ 1091) (stream : OutputBitStream)
    (hs : stream.m_pending_bits < 8) :
    (∃ stream', Encoder.encodeNumber stream ds = Except.ok stream' ∧
      stream'.bits = stream.bits ++ number_chunk (digits_value ds) ∧
      stream'.toString =
        Except.ok ((stream.bits ++ number_chunk (digits_value ds)).map bit_char)) ∧
    number_chunk (digits_value ds) =
      (if digits_value ds ≤ 3 then low_bits 5 DIGITS_2BITS ++ low_bits 2 (digits_value ds)
        else if digits_value ds ≤ 67 then
          low_bits 5 DIGITS_6BITS ++ low_bits 6 (digits_value ds - 4)
        else low_bits 5 DIGITS_10BITS ++ low_bits 10 (digits_value ds - 68)) ∧
    ∀ (inp : InputBitStream) (bits rest : List Bool) (cur : Nat), inp.Reads bits cur →
      (digits_value ds ≤ 3 → bits.drop cur = low_bits 2 (digits_value ds) ++ rest →
        decode2BitsNumber inp =
          Except.ok (digits_value ds, { inp with m_current_bit := cur + 2 })) ∧
      (3 < digits_value ds → digits_value ds ≤ 67 →
        bits.drop cur = low_bits 6 (digits_value ds - 4) ++ rest →
        decode6BitsNumber inp =
          Except.ok (digits_value ds, { inp with m_current_bit := cur + 6 })) ∧
      (67 < digits_value ds → bits.drop cur = low_bits 10 (digits_value ds - 68) ++ rest →
        decode10BitsNumber inp =
          Except.ok (digits_value ds, { inp with m_current_bit := cur + 10 })) := by
  refine ⟨?_, rfl, ?_⟩
  · obtain ⟨d, t, rfl⟩ : ∃ d t, ds = d :: t := by
      cases ds with
      | nil => exact absurd rfl hne
      | cons d t => exact ⟨d, t, rfl⟩
    have hpiece : first_piece (d :: t) = d :: t := by
      by_cases hz : d = '0'
      · subst hz
        rw [hlead rfl]
        rfl
      · have hl : t.length ≤ 3 := length_le_of_value_lt (hall d (List.mem_cons_self _ _)) hz
          (show _ < 10 ^ (3 + 1) from by omega)
        have ht : (d :: t).take 4 = d :: t :=
          List.take_of_length_le (by simp only [List.length_cons]; omega)
        rw [first_piece_cons t hz, ht, if_pos hn]
    obtain ⟨s2, h2, h3, -, hstep, -, -, -, -⟩ :=
      encodeNumber_step hne hall t.length stream hs
    rw [hpiece, List.drop_of_length_le (le_refl _), if_pos rfl] at hstep
    rw [hpiece] at h3
    refine ⟨s2, hstep, h3, ?_⟩
    rw [s2.toString_eq (by omega), h3]
  · intro inp bits rest cur hr
    refine ⟨fun h hd => ?_, fun h1 h2 hd => ?_, fun h hd => ?_⟩
    · rw [decode2_spec hr hd, Nat.mod_eq_of_lt (by omega)]
    · rw [decode6_spec hr hd, Nat.mod_eq_of_lt (by omega)]
      congr 2
      omega
    · rw [decode10_spec hr hd, Nat.mod_eq_of_lt (by omega)]
      congr 2
      omega

/-- Witness for C31: the number `1091` of `test_Encoder`, on a fresh stream. -/
theorem C31_number_up_to_1091_is_one_chunk_witness :
    ∃ stream', Encoder.encodeNumber {} "1091".toList = Except.ok stream' ∧
      stream'.toString =
        Except.ok ((low_bits 5 DIGITS_10BITS ++ low_bits 10 (1091 - 68)).map bit_char) := by
  obtain ⟨⟨s, h1, -, h3⟩, -, -⟩ := C31_number_up_to_1091_is_one_chunk "1091".toList
    (by decide) (by decide) (by decide) (by decide) {} (by decide)
  exact ⟨s, h1, h3⟩

/-- The encodings of `Az`, `A_z`, `AZ` and `A_Z` on a fresh stream, as `toString()` shows
them. -/
theorem encoding_examples :
    (Encoder.encodeNextSymbolName {} "Az".toList >>= fun p => p.1.toString) =
      Except.ok ((low_bits 5 CASE_INVERSE_ONCE ++ low_bits 5 LETTER_A ++
        low_bits 5 LETTER_Z).map bit_char) ∧
    (Encoder.encodeNextSymbolName {} "A_z".toList >>= fun p => p.1.toString) =
      Except.ok ((low_bits 5 CASE_INVERSE_ONCE ++ low_bits 5 LETTER_A ++
        low_bits 5 UNDERSCORE ++ low_bits 5 LETTER_Z).map bit_char) ∧
    (Encoder.encodeNextSymbolName {} "AZ".toList >>= fun p => p.1.toString) =
      Except.ok ((low_bits 5 CASE_INVERSE_PERMANENT ++ low_bits 5 LETTER_A ++
        low_bits 5 LETTER_Z).map bit_char) ∧
    (Encoder.encodeNextSymbolName {} "A_Z".toList >>= fun p => p.1.toString) =
      Except.ok ((low_bits 5 CASE_INVERSE_PERMANENT ++ low_bits 5 LETTER_A ++
        low_bits 5 UNDERSCORE ++ low_bits 5 LETTER_Z).map bit_char) :=
  ⟨by decide!, by decide!, by decide!, by decide!⟩

/-- C36, counterexample. The string `Az B` begins with the name `Az`, which
`encodeNextSymbolName` encodes, leaving ` B`. On a fresh stream the current case is the
lower case; the letter `A` at the index 0 is of the other case, and no later letter of the
name is: the only one is `z`. The claim gives `CASE_INVERSE_ONCE`, as for the string `Az`.
The code looks at all the characters that follow in the string, finds the `B` after the
name, appends `CASE_INVERSE_PERMANENT` and inverts the current case; the name is then
written with the codes `CASE_INVERSE_PERMANENT`, `A`, `CASE_INVERSE_ONCE`, `Z`. -/
theorem C36_text_after_name_counterexample :
    (Encoder.encodeNextSymbolName {} "Az B".toList).toOption.map (fun p => p.2) =
      some " B".toList ∧
    other_case_letter ({} : OutputBitStream).m_currentCase 'A' = true ∧
    other_case_letter ({} : OutputBitStream).m_currentCase 'z' = false ∧
    (∃ s1, Encoder.handleCurrentCaseMismatch {} "Az B".toList 0 = Except.ok s1 ∧
      s1.bits = low_bits 5 CASE_INVERSE_PERMANENT ∧ s1.m_currentCase = CASE_UPPER) ∧
    (Encoder.encodeNextSymbolName {} "Az B".toList >>= fun p => p.1.toString) =
      Except.ok ((low_bits 5 CASE_INVERSE_PERMANENT ++ low_bits 5 LETTER_A ++
        low_bits 5 CASE_INVERSE_ONCE ++ low_bits 5 LETTER_Z).map bit_char) ∧
    (Encoder.encodeNextSymbolName {} "Az".toList >>= fun p => p.1.toString) =
      Except.ok ((low_bits 5 CASE_INVERSE_ONCE ++ low_bits 5 LETTER_A ++
        low_bits 5 LETTER_Z).map bit_char) := by
  refine ⟨by decide!, by decide, by decide, ?_, by decide!, by decide!⟩
  obtain ⟨s1, e1, -, -, hperm⟩ := handle_spec {} (by decide)
    (show 0 < "Az B".toList.length from by decide)
  have h := hperm (by decide)
  exact ⟨s1, e1, h.1, h.2⟩

/-- C36, amended. `Encoder::encodeNextSymbolName` is at the index `i` of the string `str`, on a
letter `str[i]` whose case is not the current case of the stream (a stream with fewer than
8 pending bits). Then this step of the loop calls `handleCurrentCaseMismatch`, appends the
5-bit code of the letter right after what that call has appended, and goes on at `i + 1`.
If no later character of `str` is a letter whose case is not the current case, the call
appends `CASE_INVERSE_ONCE` and leaves the current case; if some later character is such a
letter, it appends `CASE_INVERSE_PERMANENT` and inverts the current case. So the encodings
of `Az` and `A_z` begin with `CASE_INVERSE_ONCE`, those of `AZ` and `A_Z` with
`CASE_INVERSE_PERMANENT`, as `test_Encoder` writes them. -/
theorem C36_case_mismatch_codes (str : List Char) (i : Nat) (hi : i < str.length)
    (stream : OutputBitStream) (hs : stream.m_pending_bits < 8) (fuel : Nat)
    (hmis : other_case_letter stream.m_currentCase str[i] = true) :
    (∃ s1 s2 : OutputBitStream,
      Encoder.handleCurrentCaseMismatch stream str i = Except.ok s1 ∧
      s1.appendBits (LETTER_A +
        (str[i].toNat - (if islower str[i] then 'a' else 'A').toNat)) BIT_WIDTH =
          Except.ok s2 ∧
      Encoder.encodeNextSymbolName_loop str (fuel + 1) stream i =
        Encoder.encodeNextSymbolName_loop str fuel s2 (i + 1) ∧
      s2.bits = s1.bits ++ low_bits 5 (LETTER_A +
        (str[i].toNat - (if islower str[i] then 'a' else 'A').toNat)) ∧
      s2.m_currentCase = s1.m_currentCase ∧
      ((∀ (j : Nat) (hj : j < str.length), i < j →
          other_case_letter stream.m_currentCase str[j] = false) →
        s1.bits = stream.bits ++ low_bits 5 CASE_INVERSE_ONCE ∧
          s1.m_currentCase = stream.m_currentCase) ∧
      ((∃ (j : Nat) (hj : j < str.length), i < j ∧
          other_case_letter stream.m_currentCase str[j] = true) →
        s1.bits = stream.bits ++ low_bits 5 CASE_INVERSE_PERMANENT ∧
          s1.m_currentCase = invertCase stream.m_currentCase)) ∧
    (Encoder.encodeNextSymbolName {} "Az".toList >>= fun p => p.1.toString) =
      Except.ok ((low_bits 5 CASE_INVERSE_ONCE ++ low_bits 5 LETTER_A ++
        low_bits 5 LETTER_Z).map bit_char) ∧
    (Encoder.encodeNextSymbolName {} "A_z".toList >>= fun p => p.1.toString) =
      Except.ok ((low_bits 5 CASE_INVERSE_ONCE ++ low_bits 5 LETTER_A ++
        low_bits 5 UNDERSCORE ++ low_bits 5 LETTER_Z).map bit_char) ∧
    (Encoder.encodeNextSymbolName {} "AZ".toList >>= fun p => p.1.toString) =
      Except.ok ((low_bits 5 CASE_INVERSE_PERMANENT ++ low_bits 5 LETTER_A ++
        low_bits 5 LETTER_Z).map bit_char) ∧
    (Encoder.encodeNextSymbolName {} "A_Z".toList >>= fun p => p.1.toString) =
      Except.ok ((low_bits 5 CASE_INVERSE_PERMANENT ++ low_bits 5 LETTER_A ++
        low_bits 5 UNDERSCORE ++ low_bits 5 LETTER_Z).map bit_char) := by
  refine ⟨?_, encoding_examples⟩
  obtain ⟨s1, s2, e1, e2, hstep, h3, h4, -⟩ := mismatch_step str i hi stream hs fuel hmis
  obtain ⟨s1', e1', -, honce, hperm⟩ := handle_spec stream hs hi
  rw [e1] at e1'
  cases e1'
  refine ⟨s1, s2, e1, e2, hstep, h3, h4, fun h => ?_, fun h => ?_⟩
  · exact honce ((all_later_iff str i _).mpr h)
  · apply hperm
    cases hb : (str.drop (i + 1)).all (fun c => !other_case_letter stream.m_currentCase c)
    · rfl
    · obtain ⟨j, hj, hij, hjo⟩ := h
      have := (all_later_iff str i _).mp hb j hj hij
      rw [hjo] at this
      cases this

/-- Witness for C36: the letter `A` of `Az`, on a fresh stream, whose current case is the
lower case. -/
theorem C36_case_mismatch_codes_witness :
    ∃ s1 : OutputBitStream, Encoder.handleCurrentCaseMismatch {} "Az".toList 0 =
        Except.ok s1 ∧
      s1.bits = ({} : OutputBitStream).bits ++ low_bits 5 CASE_INVERSE_ONCE ∧
      s1.m_currentCase = CASE_LOWER := by
  obtain ⟨⟨s1, s2, e1, -, -, -, -, honce, -⟩, -⟩ := C36_case_mismatch_codes "Az".toList 0
    (by decide) {} (by decide) 1 (by decide)
  have h := honce (by
    intro j hj hij
    have hj2 : j < 2 := hj
    have : j = 1 := by omega
    subst this
    show other_case_letter CASE_LOWER 'z' = false
    decide)
  exact ⟨s1, e1, h.1, h.2⟩

end Compress

namespace PolyList

/-! ## Monad laws for `Res`, sizes -/

@[simp] theorem pl_ok_bind {α β : Type} (a : α) (f : α → Res β) :
    (Except.ok a >>= f) = f a := rfl

@[simp] theorem pl_error_bind {α β : Type} (e : Fault) (f : α → Res β) :
    ((Except.error e : Res α) >>= f) = Except.error e := rfl

@[simp] theorem pl_pure {α : Type} (a : α) : (pure a : Res α) = Except.ok a := rfl

@[simp] theorem pl_check_true : check true = Except.ok () := rfl

@[simp] theorem pl_check_false : check false = Except.error Fault.assertion := rfl

theorem pl_check_of {c : Bool} (h : c = true) : check c = Except.ok () := by
  rw [h]; rfl

theorem size_t_of_lt {x : Nat} (h : x < 2 ^ 64) : size_t x = x := Nat.mod_eq_of_lt h

theorem sizeof_list_entry_eq : sizeof_list_entry = 16 := rfl

/-! ## The setters -/

section setters

variable (w : World) (a p m cls v serial : Nat) (f : poly_functions)

@[simp] theorem set_magic_arrays : (w.set_magic a m).arrays = w.arrays := rfl
@[simp] theorem set_magic_objects : (w.set_magic a m).objects = w.objects := rfl
@[simp] theorem set_magic_constructed : (w.set_magic a m).constructed = w.constructed := rfl
@[simp] theorem set_magic_destroyed : (w.set_magic a m).destroyed = w.destroyed := rfl

theorem set_magic_entries_self :
    (w.set_magic a m).entries a = { w.entries a with magic := some m } := by
  simp [World.set_magic]

theorem set_magic_entries_other {x : Nat} (h : x ≠ a) :
    (w.set_magic a m).entries x = w.entries x := by
  simp [World.set_magic, Function.update_noteq h]

@[simp] theorem set_functions_arrays : (w.set_functions a f).arrays = w.arrays := rfl
@[simp] theorem set_functions_objects : (w.set_functions a f).objects = w.objects := rfl
@[simp] theorem set_functions_constructed :
    (w.set_functions a f).constructed = w.constructed := rfl
@[simp] theorem set_functions_destroyed : (w.set_functions a f).destroyed = w.destroyed := rfl

theorem set_functions_entries_self :
    (w.set_functions a f).entries a = { w.entries a with functions := some f } := by
  simp [World.set_functions]

theorem set_functions_entries_other {x : Nat} (h : x ≠ a) :
    (w.set_functions a f).entries x = w.entries x := by
  simp [World.set_functions, Function.update_noteq h]

@[simp] theorem put_object_arrays : (w.put_object p cls v).arrays = w.arrays := rfl
@[simp] theorem put_object_entries : (w.put_object p cls v).entries = w.entries := rfl
@[simp] theorem put_object_constructed :
    (w.put_object p cls v).constructed = w.constructed + 1 := rfl
@[simp] theorem put_object_destroyed : (w.put_object p cls v).destroyed = w.destroyed := rfl

theorem put_object_objects_self :
    (w.put_object p cls v).objects p = some ⟨w.constructed, cls, v⟩ := by
  simp [World.put_object]

theorem put_object_objects_other {x : Nat} (h : x ≠ p) :
    (w.put_object p cls v).objects x = w.objects x := by
  simp [World.put_object, Function.update_noteq h]

@[simp] theorem remove_object_arrays : (w.remove_object p serial).arrays = w.arrays := rfl
@[simp] theorem remove_object_entries : (w.remove_object p serial).entries = w.entries := rfl
@[simp] theorem remove_object_constructed :
    (w.remove_object p serial).constructed = w.constructed := rfl
@[simp] theorem remove_object_destroyed :
    (w.remove_object p serial).destroyed = serial :: w.destroyed := rfl

theorem remove_object_objects_self : (w.remove_object p serial).objects p = none := by
  simp [World.remove_object]

theorem remove_object_objects_other {x : Nat} (h : x ≠ p) :
    (w.remove_object p serial).objects x = w.objects x := by
  simp [World.remove_object, Function.update_noteq h]

end setters

/-! ## Live arrays -/

theorem in_array_of_mem {w : World} {b n a len : Nat} (h : (b, n) ∈ w.arrays) (h1 : b ≤ a)
    (h2 : a + len ≤ b + n) : w.in_array a len = true := by
  rw [World.in_array, List.any_eq_true]
  exact ⟨(b, n), h, by simp [h1, h2]⟩

theorem write_magic_of_mem {w : World} {b n a : Nat} (m : Nat) (h : (b, n) ∈ w.arrays)
    (h1 : b ≤ a) (h2 : a + sizeof_list_entry ≤ b + n) :
    w.write_magic a m = Except.ok (w.set_magic a m) := by
  rw [World.write_magic, in_array_of_mem h h1 h2]; rfl

theorem write_functions_of_mem {w : World} {b n a : Nat} (f : poly_functions)
    (h : (b, n) ∈ w.arrays) (h1 : b ≤ a) (h2 : a + sizeof_list_entry ≤ b + n) :
    w.write_functions a f = Except.ok (w.set_functions a f) := by
  rw [World.write_functions, in_array_of_mem h h1 h2]; rfl

theorem read_functions_of {w : World} {a : Nat} {f : poly_functions}
    (h : (w.entries a).functions = some f) : w.read_functions a = Except.ok f := by
  rw [World.read_functions, h]; rfl

theorem read_magic_of {w : World} {a m : Nat} (h : (w.entries a).magic = some m) :
    w.read_magic a = Except.ok m := by
  rw [World.read_magic, h]; rfl

/-! ## The layout of a chain of entries -/

theorem chain_end_ge (a : Nat) (items : List (poly_functions × Object)) :
    a ≤ chain_end a items := by
  induction items generalizing a with
  | nil => exact le_refl _
  | cons x rest ih =>
    rw [chain_end]
    have := ih (a + sizeof_list_entry + x.1.object_size)
    omega

theorem chain_end_cons_gt (a : Nat) (x : poly_functions × Object)
    (rest : List (poly_functions × Object)) :
    a + sizeof_list_entry + x.1.object_size ≤ chain_end a (x :: rest) := by
  rw [chain_end]
  exact chain_end_ge _ _

theorem chain_end_append (a : Nat) (xs ys : List (poly_functions × Object)) :
    chain_end a (xs ++ ys) = chain_end (chain_end a xs) ys := by
  induction xs generalizing a with
  | nil => rfl
  | cons x rest ih => rw [List.cons_append, chain_end, chain_end, ih]

theorem chain_append {w : World} (a : Nat) (xs ys : List (poly_functions × Object)) :
    Chain w a (xs ++ ys) ↔ Chain w a xs ∧ Chain w (chain_end a xs) ys := by
  induction xs generalizing a with
  | nil => simp [Chain, chain_end]
  | cons x rest ih =>
    rw [List.cons_append, Chain, Chain, chain_end, ih]
    tauto

theorem last_entry_of_append_singleton (a : Nat) (xs : List (poly_functions × Object))
    (x : poly_functions × Object) : last_entry_of a (xs ++ [x]) = chain_end a xs := by
  induction xs generalizing a with
  | nil => rfl
  | cons y rest ih =>
    cases rest with
    | nil => rfl
    | cons z rest =>
      rw [List.cons_append, List.cons_append, last_entry_of, chain_end, ← ih]
      rfl

theorem placeholders_append (a : Nat) (xs ys : List (poly_functions × Object)) :
    placeholders a (xs ++ ys) = placeholders a xs ++ placeholders (chain_end a xs) ys := by
  induction xs generalizing a with
  | nil => rfl
  | cons x rest ih => rw [List.cons_append, placeholders, placeholders, chain_end, ih]; rfl

/-- An object of a chain lies inside the chain. -/
theorem mem_placeholders {w : World} {a : Nat} {items : List (poly_functions × Object)}
    (h : Chain w a items) {p : Nat} (hp : p ∈ placeholders a items) :
    a + sizeof_list_entry ≤ p ∧ p < chain_end a items := by
  induction items generalizing a with
  | nil => simp [placeholders] at hp
  | cons x rest ih =>
    rw [placeholders, List.mem_cons] at hp
    obtain ⟨-, -, -, hpos, hrest⟩ := h
    have hge := chain_end_cons_gt a x rest
    rcases hp with rfl | hp
    · exact ⟨le_refl _, by omega⟩
    · have := ih hrest hp
      rw [chain_end]
      omega

/-- A chain depends only on what lies between its start and its end. -/
theorem chain_congr {w w' : World} {a : Nat} {items : List (poly_functions × Object)}
    (he : ∀ x, a ≤ x → x < chain_end a items → w'.entries x = w.entries x)
    (ho : ∀ x, a ≤ x → x < chain_end a items → w'.objects x = w.objects x)
    (h : Chain w a items) : Chain w' a items := by
  induction items generalizing a with
  | nil => trivial
  | cons x rest ih =>
    obtain ⟨h1, h2, h3, hpos, hrest⟩ := h
    have hge := chain_end_cons_gt a x rest
    have hlt : a < chain_end a (x :: rest) := by rw [sizeof_list_entry_eq] at hge; omega
    refine ⟨by rw [he a (le_refl _) hlt]; exact h1, by rw [he a (le_refl _) hlt]; exact h2,
      by rw [ho _ (by omega) (by omega)]; exact h3, hpos, ?_⟩
    apply ih _ _ hrest
    · intro y hy1 hy2
      exact he y (by omega) (by rw [chain_end]; exact hy2)
    · intro y hy1 hy2
      exact ho y (by omega) (by rw [chain_end]; exact hy2)

/-- The last entry of a chain that is not empty. -/
theorem chain_last {w : World} {a : Nat} {items : List (poly_functions × Object)}
    (h : Chain w a items) (hne : items ≠ []) :
    ∃ f, (w.entries (last_entry_of a items)).functions = some f ∧
      (w.entries (last_entry_of a items)).magic = some magic_value ∧
      last_entry_of a items + sizeof_list_entry + f.object_size = chain_end a items ∧
      a ≤ last_entry_of a items ∧ 0 < f.object_size := by
  obtain ⟨pre, x, rfl⟩ : ∃ pre x, items = pre ++ [x] := by
    rcases List.eq_nil_or_concat items with h0 | ⟨pre, x, h1⟩
    · exact absurd h0 hne
    · exact ⟨pre, x, by rw [h1]; simp⟩
  rw [last_entry_of_append_singleton, chain_end_append]
  obtain ⟨-, hx⟩ := (chain_append a pre [x]).mp h
  obtain ⟨h1, h2, -, hpos, -⟩ := hx
  exact ⟨x.1, h2, h1, rfl, chain_end_ge _ _, hpos⟩

theorem last_entry_of_eq_zero {a : Nat} (ha : a ≠ 0) (items : List (poly_functions × Object)) :
    last_entry_of a items = 0 ↔ items = [] := by
  constructor
  · intro h
    by_contra hne
    obtain ⟨pre, x, rfl⟩ : ∃ pre x, items = pre ++ [x] := by
      rcases List.eq_nil_or_concat items with h0 | ⟨pre, x, h1⟩
      · exact absurd h0 hne
      · exact ⟨pre, x, by rw [h1]; simp⟩
    rw [last_entry_of_append_singleton] at h
    have := chain_end_ge a pre
    omega
  · rintro rfl; rfl

theorem last_entry_le_end (a : Nat) (items : List (poly_functions × Object)) (hne : items ≠ []) :
    a ≤ last_entry_of a items ∧ last_entry_of a items + sizeof_list_entry ≤ chain_end a items := by
  obtain ⟨pre, x, rfl⟩ : ∃ pre x, items = pre ++ [x] := by
    rcases List.eq_nil_or_concat items with h0 | ⟨pre, x, h1⟩
    · exact absurd h0 hne
    · exact ⟨pre, x, by rw [h1]; simp⟩
  rw [last_entry_of_append_singleton, chain_end_append]
  refine ⟨chain_end_ge _ _, ?_⟩
  have := chain_end_cons_gt (chain_end a pre) x []
  omega

/-- Every entry takes at least the size of its header. -/
theorem chain_end_length (a : Nat) (items : List (poly_functions × Object)) :
    a + sizeof_list_entry * items.length ≤ chain_end a items := by
  induction items generalizing a with
  | nil => simp [chain_end]
  | cons x rest ih =>
    rw [chain_end, List.length_cons]
    have := ih (a + sizeof_list_entry + x.1.object_size)
    rw [sizeof_list_entry_eq] at this ⊢
    omega

/-! ## `alloc_entry` -/

/-- What `alloc_entry` does after the last entry of a chain that lies in a live array:
the new entry is at the end of the chain when there is room, and null otherwise. -/
theorem alloc_entry_spec {w : World} {buf n s : Nat} {items : List (poly_functions × Object)}
    (hchain : Chain w buf items) (hfit : chain_end buf items ≤ buf + n)
    (hbuf : buf ≠ 0) (hb : buf + n ≤ 2 ^ 62) (hs : s + sizeof_list_entry < 2 ^ 62)
    (harr : (buf, n) ∈ w.arrays) :
    alloc_entry w (last_entry_of buf items) s buf n =
      if chain_end buf items + sizeof_list_entry + s ≤ buf + n then
        Except.ok (w.set_magic (chain_end buf items) magic_value, chain_end buf items)
      else Except.ok (w, 0) := by
  rw [sizeof_list_entry_eq] at hs ⊢
  have hreq : size_t (sizeof_list_entry + s) = 16 + s := by
    rw [sizeof_list_entry_eq]; exact size_t_of_lt (by omega)
  by_cases hne : items = []
  · subst hne
    simp only [alloc_entry, last_entry_of, chain_end, ne_eq, not_true_eq_false, if_false,
      pl_pure, pl_ok_bind, decide_True, Bool.true_or, Bool.true_and, Nat.zero_le,
      pl_check_true, hreq, Nat.zero_add, true_and, Nat.add_zero]
    rw [size_t_of_lt (by omega)]
    by_cases hroom : buf + 16 + s ≤ buf + n
    · rw [if_pos (by omega), if_pos hroom,
        write_magic_of_mem magic_value harr (le_refl _) (by rw [sizeof_list_entry_eq]; omega)]
      rfl
    · rw [if_neg (by omega), if_neg hroom]
  · obtain ⟨f, hf, -, hend, hge, -⟩ := chain_last hchain hne
    rw [sizeof_list_entry_eq] at hend
    have hl0 : last_entry_of buf items ≠ 0 := by omega
    have htot : list_entry.total_size w (last_entry_of buf items) =
        Except.ok (16 + f.object_size) := by
      simp only [list_entry.total_size, list_entry.object_size, read_functions_of hf,
        pl_ok_bind, pl_pure, sizeof_list_entry_eq]
      rw [size_t_of_lt (by omega)]
    simp only [alloc_entry, ne_eq, hl0, not_false_eq_true, if_true, htot, pl_ok_bind,
      decide_False, Bool.false_or, hreq]
    have hused : last_entry_of buf items + (16 + f.object_size) - buf =
        chain_end buf items - buf := by omega
    rw [hused, decide_eq_true (show buf ≤ last_entry_of buf items + (16 + f.object_size) from
      by omega), Bool.true_and, decide_eq_true (show chain_end buf items - buf ≤ n from by
      omega)]
    simp only [pl_check_true, pl_ok_bind, true_and]
    rw [size_t_of_lt (by omega)]
    by_cases hroom : chain_end buf items + 16 + s ≤ buf + n
    · rw [if_pos (by omega), if_pos hroom,
        show buf + (chain_end buf items - buf) = chain_end buf items from by omega,
        write_magic_of_mem magic_value harr (by omega)
          (by rw [sizeof_list_entry_eq]; omega)]
      rfl
    · rw [if_neg (by omega), if_neg hroom]
      rfl

end PolyList

namespace PolyList

/-! ## `destroy_all` -/

theorem placeholders_gt {w : World} {a : Nat} {items : List (poly_functions × Object)}
    (h : Chain w a items) {p : Nat} (hp : p ≤ a) : p ∉ placeholders a items := by
  intro hm
  have := (mem_placeholders h hm).1
  rw [sizeof_list_entry_eq] at this
  omega

/-- The loop of `destroy_all` on a chain of entries, with enough fuel: it returns, the
objects of the chain have been destroyed, first to last, and nothing else has changed. -/
theorem destroy_loop_spec :
    ∀ (items : List (poly_functions × Object)) (w : World) (a last fuel : Nat),
      Chain w a items → items ≠ [] → last = last_entry_of a items → items.length ≤ fuel →
      ∃ w', destroy_all_loop last fuel w a = Except.ok w' ∧ w'.arrays = w.arrays ∧
        w'.entries = w.entries ∧ w'.constructed = w.constructed ∧
        w'.destroyed = (items.map (fun x => x.2.serial)).reverse ++ w.destroyed ∧
        (∀ p, p ∈ placeholders a items → w'.objects p = none) ∧
        (∀ p, p ∉ placeholders a items → w'.objects p = w.objects p) := by
  intro items
  induction items with
  | nil => intro w a last fuel _ hne; exact absurd rfl hne
  | cons x rest ih =>
    intro w a last fuel hchain _ hlast hfuel
    obtain ⟨f, rfl⟩ : ∃ f, fuel = f + 1 := ⟨fuel - 1, by
      simp only [List.length_cons] at hfuel; omega⟩
    obtain ⟨h1, h2, h3, hpos, hrest⟩ := hchain
    have hle : a ≤ last := by
      rw [hlast]; exact (last_entry_le_end a (x :: rest) (List.cons_ne_nil _ _)).1
    rw [destroy_all_loop, if_pos hle]
    have hnext : list_entry.next_entry (w.remove_object (a + sizeof_list_entry) x.2.serial) a =
        Except.ok (a + sizeof_list_entry + x.1.object_size) := by
      simp only [list_entry.next_entry, read_functions_of (w := w.remove_object _ _) h2,
        pl_ok_bind, pl_pure]
    have hid : w.id (list_entry.get_object a) = Except.ok x.2 := by
      simp only [World.id, list_entry.get_object, list_entry.get_placeholder, h3, pl_pure]
    have hdes : list_entry.destruct w a =
        Except.ok (w.remove_object (a + sizeof_list_entry) x.2.serial) := by
      simp only [list_entry.destruct, read_functions_of h2, pl_ok_bind, World.poly_destruct,
        list_entry.get_object, list_entry.get_placeholder, h3, pl_pure]
    simp only [read_magic_of h1, pl_ok_bind, beq_self_eq_true, pl_check_true, hid, hdes, hnext]
    by_cases hr : rest = []
    · subst hr
      have hl : last = a := hlast
      rw [destroy_all_loop.eq_def]
      dsimp only
      rw [if_neg (by rw [hl, sizeof_list_entry_eq]; omega)]
      refine ⟨_, rfl, rfl, rfl, rfl, rfl, ?_, ?_⟩
      · intro p hp
        simp only [placeholders, List.mem_singleton] at hp
        rw [hp]; exact remove_object_objects_self _ _ _
      · intro p hp
        simp only [placeholders, List.mem_singleton] at hp
        exact remove_object_objects_other _ _ _ hp
    · have hchain1 : Chain (w.remove_object (a + sizeof_list_entry) x.2.serial)
          (a + sizeof_list_entry + x.1.object_size) rest := by
        apply chain_congr _ _ hrest
        · intro y _ _; rfl
        · intro y hy _
          exact remove_object_objects_other _ _ _ (by omega)
      have hlast1 : last = last_entry_of (a + sizeof_list_entry + x.1.object_size) rest := by
        rw [hlast]
        cases rest with
        | nil => exact absurd rfl hr
        | cons y rest => rfl
      obtain ⟨w', e1, e2, e3, e4, e5, e6, e7⟩ := ih _ _ last f hchain1 hr hlast1
        (by simp only [List.length_cons] at hfuel; omega)
      refine ⟨w', e1, e2, e3, e4, ?_, ?_, ?_⟩
      · rw [e5, remove_object_destroyed, List.map_cons, List.reverse_cons, List.append_assoc]
        rfl
      · intro p hp
        rw [placeholders, List.mem_cons] at hp
        rcases hp with rfl | hp
        · rw [e7 _ (placeholders_gt hchain1 (by omega))]
          exact remove_object_objects_self _ _ _
        · exact e6 p hp
      · intro p hp
        rw [placeholders, List.mem_cons, not_or] at hp
        rw [e7 p hp.2]
        exact remove_object_objects_other _ _ _ hp.1

/-- The last entry of a chain is far enough from the first for the fuel of the loops. -/
theorem length_le_fuel (a : Nat) (items : List (poly_functions × Object)) (hne : items ≠ []) :
    items.length ≤ last_entry_of a items - a + 1 := by
  obtain ⟨pre, x, rfl⟩ : ∃ pre x, items = pre ++ [x] := by
    rcases List.eq_nil_or_concat items with h0 | ⟨pre, x, h1⟩
    · exact absurd h0 hne
    · exact ⟨pre, x, by rw [h1]; simp⟩
  rw [last_entry_of_append_singleton, List.length_append, List.length_singleton]
  have := chain_end_length a pre
  rw [sizeof_list_entry_eq] at this
  omega

/-- `destroy_all` on the chain of entries of a buffer: it returns, the objects of the
chain have been destroyed, first to last, and nothing else has changed. -/
theorem destroy_all_spec {w : World} {a first : Nat} {items : List (poly_functions × Object)}
    (hchain : Chain w a items) (ha : a ≠ 0) (hfirst : items ≠ [] → first = a) :
    ∃ w', destroy_all w first (last_entry_of a items) = Except.ok w' ∧ w'.arrays = w.arrays ∧
      w'.entries = w.entries ∧ w'.constructed = w.constructed ∧
      w'.destroyed = (items.map (fun x => x.2.serial)).reverse ++ w.destroyed ∧
      (∀ p, p ∈ placeholders a items → w'.objects p = none) ∧
      (∀ p, p ∉ placeholders a items → w'.objects p = w.objects p) := by
  by_cases hne : items = []
  · subst hne
    refine ⟨w, ?_, rfl, rfl, rfl, rfl, fun p hp => by simp [placeholders] at hp,
      fun _ _ => rfl⟩
    simp [destroy_all, last_entry_of]
  · have hf := hfirst hne
    subst hf
    have hl := last_entry_le_end first items hne
    have hl0 : last_entry_of first items ≠ 0 := by omega
    obtain ⟨w', e⟩ := destroy_loop_spec items w first _ (last_entry_of first items - first + 1)
      hchain hne rfl (length_le_fuel first items hne)
    refine ⟨w', ?_, e.2⟩
    simp only [destroy_all, ne_eq, ha, not_false_eq_true, hl0, and_self, if_true,
      decide_eq_true hl.1, pl_check_true, pl_ok_bind, e.1]

end PolyList

namespace PolyList

/-! ## `copy_all` -/

/-- Copies take the same room as the originals. -/
theorem chain_end_copies_of (a b c : Nat) (items : List (poly_functions × Object)) :
    chain_end a (copies_of c items) + b = chain_end b items + a := by
  induction items generalizing a b c with
  | nil => simp only [copies_of, chain_end]; omega
  | cons x rest ih =>
    simp only [copies_of, chain_end]
    have := ih (a + sizeof_list_entry + x.1.object_size)
      (b + sizeof_list_entry + x.1.object_size) (c + 1)
    omega

theorem copies_of_length (c : Nat) (items : List (poly_functions × Object)) :
    (copies_of c items).length = items.length := by
  induction items generalizing c with
  | nil => rfl
  | cons x rest ih => simp only [copies_of, List.length_cons, ih]

theorem copies_of_serials (c : Nat) (items : List (poly_functions × Object)) :
    (copies_of c items).map (fun x => x.2.serial) = List.range' c items.length := by
  induction items generalizing c with
  | nil => rfl
  | cons x rest ih =>
    simp only [copies_of, List.map_cons, List.length_cons, List.range'_succ, ih]

theorem copies_of_contents (c : Nat) (items : List (poly_functions × Object)) :
    (copies_of c items).map (fun x => (x.2.class_id, x.2.value)) =
      items.map (fun x => (x.2.class_id, x.2.value)) := by
  induction items generalizing c with
  | nil => rfl
  | cons x rest ih => simp only [copies_of, List.map_cons, ih]

theorem chain_end_take_le (a : Nat) (items : List (poly_functions × Object)) (p : _ → Bool) :
    chain_end a (items.takeWhile p) ≤ chain_end a items := by
  induction items generalizing a with
  | nil => exact le_refl _
  | cons x rest ih =>
    rw [List.takeWhile_cons]
    split
    · rw [chain_end, chain_end]; exact ih _
    · rw [chain_end]; exact chain_end_ge _ _

/-- The loop of `copy_all`, with enough fuel, on what is left of the chain of the old
buffer: the entries are copied to the end of the chain of the new buffer, one after the
other, up to the first whose copy constructor throws; `result` names the last entry
copied; the old buffer is not touched. -/
theorem copy_loop_spec (cf : Nat → Bool) (nbuf nsize : Nat) (hnbuf : nbuf ≠ 0)
    (hnb : nbuf + nsize ≤ 2 ^ 62) :
    ∀ (rest : List (poly_functions × Object)) (w : World)
      (copies : List (poly_functions × Object)) (old last fuel : Nat)
      (result : uncommitted_growth),
      Chain w old rest → Chain w nbuf copies → (nbuf, nsize) ∈ w.arrays →
      (nbuf + nsize ≤ old ∨ chain_end old rest ≤ nbuf) →
      chain_end nbuf copies + (chain_end old rest - old) ≤ nbuf + nsize →
      chain_end old rest ≤ 2 ^ 62 →
      (rest ≠ [] → last = last_entry_of old rest) → (rest = [] → last < old) →
      rest.length ≤ fuel → result.new_buffer = nbuf → result.new_buffer_size = nsize →
      result.new_last_used_entry = last_entry_of nbuf copies →
      ∃ w' result', copy_all_loop last cf fuel w result old (last_entry_of nbuf copies) =
          Except.ok (w', result',
            if (rest.takeWhile (fun x => !cf x.2.serial)).length = rest.length then
              Exit.returned else Exit.thrown) ∧
        result'.new_buffer = nbuf ∧ result'.new_buffer_size = nsize ∧
        result'.new_object_placeholder = result.new_object_placeholder ∧
        result'.new_last_used_entry = last_entry_of nbuf
          (copies ++ copies_of w.constructed (rest.takeWhile (fun x => !cf x.2.serial))) ∧
        w'.arrays = w.arrays ∧
        w'.constructed = w.constructed + (rest.takeWhile (fun x => !cf x.2.serial)).length ∧
        w'.destroyed = w.destroyed ∧
        Chain w' nbuf
          (copies ++ copies_of w.constructed (rest.takeWhile (fun x => !cf x.2.serial))) ∧
        (∀ x, x < chain_end nbuf copies ∨ nbuf + nsize ≤ x → w'.entries x = w.entries x) ∧
        (∀ p, p ∉ placeholders (chain_end nbuf copies)
            (copies_of w.constructed (rest.takeWhile (fun x => !cf x.2.serial))) →
          w'.objects p = w.objects p) := by
  have h16 := sizeof_list_entry_eq
  intro rest
  induction rest with
  | nil =>
    intro w copies old last fuel result _ hcopies _ _ _ _ _ hlast _ hrb hrs hrl
    have hl := hlast rfl
    rw [copy_all_loop.eq_def]
    dsimp only
    rw [if_neg (by omega)]
    refine ⟨w, result, rfl, hrb, hrs, rfl, ?_, rfl, rfl, rfl, ?_, fun _ _ => rfl,
      fun _ _ => rfl⟩
    · simp only [List.takeWhile_nil, copies_of, List.append_nil]; exact hrl
    · simp only [List.takeWhile_nil, copies_of, List.append_nil]; exact hcopies
  | cons x rest ih =>
    intro w copies old last fuel result hold hcopies harr hdis hroom hend hlast _ hfuel hrb hrs
      hrl
    obtain ⟨f, rfl⟩ : ∃ f, fuel = f + 1 := ⟨fuel - 1, by
      simp only [List.length_cons] at hfuel; omega⟩
    obtain ⟨h1, h2, h3, hpos, hrest⟩ := hold
    have hl := hlast (List.cons_ne_nil _ _)
    have hle : old ≤ last := by
      rw [hl]; exact (last_entry_le_end old (x :: rest) (List.cons_ne_nil _ _)).1
    have he := chain_end_cons_gt old x rest
    have hm := chain_end_ge nbuf copies
    -- the new entry
    have hfit : chain_end nbuf copies + sizeof_list_entry + x.1.object_size ≤ nbuf + nsize := by
      omega
    have hne : old ≠ chain_end nbuf copies := by
      omega
    have halloc := alloc_entry_spec (s := x.1.object_size) hcopies (by omega) hnbuf hnb
      (by omega) harr
    rw [if_pos hfit] at halloc
    have hsize : list_entry.object_size w old = Except.ok x.1.object_size := by
      simp only [list_entry.object_size, read_functions_of h2, pl_ok_bind, pl_pure]
    rw [copy_all_loop, if_pos hle]
    simp only [read_magic_of h1, pl_ok_bind, beq_self_eq_true, pl_check_true, hsize, hrb, hrs,
      halloc]
    rw [pl_check_of (show (chain_end nbuf copies != 0) = true from by
      simp only [bne_iff_ne, ne_eq]; omega)]
    simp only [pl_ok_bind]
    -- the copy
    have hrf : (w.set_magic (chain_end nbuf copies) magic_value).read_functions old =
        Except.ok x.1 :=
      read_functions_of (by rw [set_magic_entries_other _ _ _ hne]; exact h2)
    have hwf : (w.set_magic (chain_end nbuf copies) magic_value).write_functions
        (chain_end nbuf copies) x.1 =
        Except.ok ((w.set_magic (chain_end nbuf copies) magic_value).set_functions
          (chain_end nbuf copies) x.1) :=
      write_functions_of_mem x.1 (n := nsize) (by simpa using harr) hm (by
        omega)
    have hin : World.in_array ((w.set_magic (chain_end nbuf copies) magic_value).set_functions
        (chain_end nbuf copies) x.1) (list_entry.get_object (chain_end nbuf copies))
        x.1.object_size = true :=
      in_array_of_mem (b := nbuf) (n := nsize) (by simpa using harr)
        (by simp only [list_entry.get_object, list_entry.get_placeholder]; omega)
        (by simp only [list_entry.get_object, list_entry.get_placeholder]; omega)
    have hobj : ((w.set_magic (chain_end nbuf copies) magic_value).set_functions
        (chain_end nbuf copies) x.1).objects (list_entry.get_object old) = some x.2 := h3
    cases hcf : cf x.2.serial
    · -- the copy constructor returns
      have hcopy : list_entry.copy_from (w.set_magic (chain_end nbuf copies) magic_value)
          (chain_end nbuf copies) old cf =
          Except.ok (((((w.set_magic (chain_end nbuf copies) magic_value).set_functions
            (chain_end nbuf copies) x.1).put_object
              (chain_end nbuf copies + sizeof_list_entry) x.2.class_id x.2.value).set_magic
                (chain_end nbuf copies) magic_value), Exit.returned) := by
        simp only [list_entry.copy_from, hrf, pl_ok_bind, hwf, World.copy_construct, hobj, hin,
          if_true, hcf, Bool.false_eq_true, if_false, pl_pure]
        rw [write_magic_of_mem magic_value (b := nbuf) (n := nsize) (by simpa using harr) hm
          (by omega)]
        rfl
      obtain ⟨w4, hw4⟩ : ∃ w4, w4 = ((((w.set_magic (chain_end nbuf copies)
          magic_value).set_functions (chain_end nbuf copies) x.1).put_object
            (chain_end nbuf copies + sizeof_list_entry) x.2.class_id x.2.value).set_magic
              (chain_end nbuf copies) magic_value) := ⟨_, rfl⟩
      rw [← hw4] at hcopy
      have hE : ∀ y, y ≠ chain_end nbuf copies → w4.entries y = w.entries y := by
        intro y hy
        rw [hw4, set_magic_entries_other _ _ _ hy, put_object_entries,
          set_functions_entries_other _ _ _ hy, set_magic_entries_other _ _ _ hy]
      have hO : ∀ p, p ≠ chain_end nbuf copies + sizeof_list_entry →
          w4.objects p = w.objects p := by
        intro p hp
        rw [hw4, set_magic_objects, put_object_objects_other _ _ _ _ hp, set_functions_objects,
          set_magic_objects]
      have hnext : list_entry.next_entry w4 old =
          Except.ok (old + sizeof_list_entry + x.1.object_size) := by
        simp only [list_entry.next_entry,
          read_functions_of (show (w4.entries old).functions = some x.1 from by
            rw [hE old hne]; exact h2), pl_ok_bind, pl_pure]
      simp only [hcopy, pl_ok_bind, hnext]
      -- the chain of the new buffer, with the copy
      have hcopies4 : Chain w4 nbuf
          (copies ++ [(x.1, ⟨w.constructed, x.2.class_id, x.2.value⟩)]) := by
        rw [chain_append]
        refine ⟨chain_congr (fun y _ hy => hE y (by omega))
          (fun p _ hp => hO p (by omega)) hcopies, ?_, ?_, ?_, hpos,
          trivial⟩
        · rw [hw4, set_magic_entries_self]
        · rw [hw4, set_magic_entries_self, put_object_entries, set_functions_entries_self]
        · rw [hw4, set_magic_objects, put_object_objects_self]
          rfl
      have hend4 : chain_end nbuf (copies ++ [(x.1, ⟨w.constructed, x.2.class_id, x.2.value⟩)]) =
          chain_end nbuf copies + sizeof_list_entry + x.1.object_size := by
        rw [chain_end_append]; rfl
      have hold4 : Chain w4 (old + sizeof_list_entry + x.1.object_size) rest := by
        apply chain_congr _ _ hrest
        · intro y hy1 hy2
          apply hE
          rw [chain_end] at hdis
          omega
        · intro p hp1 hp2
          apply hO
          rw [chain_end] at hdis
          omega
      have hlast4 : last_entry_of nbuf
          (copies ++ [(x.1, ⟨w.constructed, x.2.class_id, x.2.value⟩)]) =
          chain_end nbuf copies := last_entry_of_append_singleton _ _ _
      have hc4 : w4.constructed = w.constructed + 1 := by rw [hw4]; rfl
      obtain ⟨w', result', e1, e2, e3, e4, e5, e6, e7, e8, e9, e10, e11⟩ :=
        ih w4 (copies ++ [(x.1, ⟨w.constructed, x.2.class_id, x.2.value⟩)])
          (old + sizeof_list_entry + x.1.object_size) last f
          { result with new_last_used_entry := chain_end nbuf copies } hold4 hcopies4
          (by rw [hw4]; simpa using harr)
          (by rw [chain_end] at hdis; omega)
          (by rw [hend4]; rw [chain_end] at hroom
              have := chain_end_ge (old + 16 + x.1.object_size) rest
              omega)
          (by rw [chain_end] at hend; exact hend)
          (by
            intro hr
            rw [hl]
            cases rest with
            | nil => exact absurd rfl hr
            | cons y rest => rfl)
          (by
            intro hr
            subst hr
            rw [hl]
            show old < _
            omega)
          (by simp only [List.length_cons] at hfuel; omega) hrb hrs hlast4.symm
      rw [hlast4] at e1
      simp only [hrb, hrs] at e1
      have htw : (x :: rest).takeWhile (fun x => !cf x.2.serial) =
          x :: rest.takeWhile (fun x => !cf x.2.serial) := by
        rw [List.takeWhile_cons, hcf]; rfl
      rw [htw]
      simp only [List.length_cons, Nat.add_right_cancel_iff, copies_of]
      rw [hc4, List.append_assoc, List.singleton_append] at e5 e9
      rw [hc4] at e11
      refine ⟨w', result', e1, e2, e3, e4, e5, ?_, ?_, ?_, e9, ?_, ?_⟩
      · rw [e6, hw4]; rfl
      · rw [e7, hc4]; omega
      · rw [e8, hw4]; rfl
      · intro y hy
        rw [e10 y (by rw [hend4]; omega)]
        exact hE y (by omega)
      · intro p hp
        rw [placeholders, List.mem_cons, not_or] at hp
        rw [e11 p (by rw [hend4]; exact hp.2)]
        exact hO p hp.1
    · -- the copy constructor throws
      have hcopy : list_entry.copy_from (w.set_magic (chain_end nbuf copies) magic_value)
          (chain_end nbuf copies) old cf =
          Except.ok ((w.set_magic (chain_end nbuf copies) magic_value).set_functions
            (chain_end nbuf copies) x.1, Exit.thrown) := by
        simp only [list_entry.copy_from, hrf, pl_ok_bind, hwf, World.copy_construct, hobj, hin,
          if_true, hcf, pl_pure]
      have htw : (x :: rest).takeWhile (fun x => !cf x.2.serial) = [] := by
        rw [List.takeWhile_cons, hcf]; rfl
      simp only [hcopy, pl_ok_bind, pl_pure, htw, List.length_nil, List.length_cons,
        copies_of, List.append_nil, Nat.add_zero]
      rw [if_neg (by omega)]
      refine ⟨_, result, rfl, hrb, hrs, rfl, hrl, rfl, rfl, rfl, ?_, ?_, fun _ _ => rfl⟩
      · exact chain_congr (w := w)
          (fun y _ hy => by
            rw [set_functions_entries_other _ _ _ (by omega),
              set_magic_entries_other _ _ _ (by omega)])
          (fun _ _ _ => rfl) hcopies
      · intro y hy
        rw [set_functions_entries_other _ _ _ (by omega),
          set_magic_entries_other _ _ _ (by omega)]

end PolyList

namespace PolyList

/-! ## Arrays, serial numbers -/

theorem new_buffer_size_eq {bs s : Nat} (hbs : bs < 2 ^ 62) (hs : s + sizeof_list_entry < 2 ^ 62) :
    size_t (size_t (size_t (bs + s) + sizeof_list_entry) * 2) =
      (bs + s + sizeof_list_entry) * 2 := by
  have h16 := sizeof_list_entry_eq
  rw [size_t_of_lt (show bs + s < 2 ^ 64 from by omega),
    size_t_of_lt (show bs + s + sizeof_list_entry < 2 ^ 64 from by omega),
    size_t_of_lt (show (bs + s + sizeof_list_entry) * 2 < 2 ^ 64 from by omega)]

/-- The statement `delete[] x` for a live array. -/
theorem delete_array_spec {w : World} {x n : Nat} (hx : x ≠ 0)
    (hfind : w.arrays.find? (fun bn => bn.1 == x) = some (x, n)) :
    ∃ w', w.delete_array x = Except.ok w' ∧
      w'.arrays = w.arrays.filter (fun y => y.1 != x) ∧
      (∀ a, w'.entries a = if x ≤ a ∧ a < x + n then {} else w.entries a) ∧
      (∀ a, w'.objects a = if x ≤ a ∧ a < x + n then none else w.objects a) ∧
      w'.constructed = w.constructed ∧ w'.destroyed = w.destroyed := by
  rw [World.delete_array, if_neg hx, hfind]
  exact ⟨_, rfl, rfl, fun _ => rfl, fun _ => rfl, rfl, rfl⟩

/-- The loop of `destroy_all` on a chain that is followed by an entry in whose
placeholder no object is alive: after the objects of the chain, the loop comes to that
entry and calls `id()` where no object is. -/
theorem destroy_loop_dead :
    ∀ (items : List (poly_functions × Object)) (w : World) (a last fuel : Nat),
      Chain w a items → (w.entries (chain_end a items)).magic = some magic_value →
      w.objects (chain_end a items + sizeof_list_entry) = none →
      chain_end a items ≤ last → items.length + 1 ≤ fuel →
      destroy_all_loop last fuel w a = Except.error Fault.invalid := by
  have h16 := sizeof_list_entry_eq
  intro items
  induction items with
  | nil =>
    intro w a last fuel _ hmagic hdead hle hfuel
    obtain ⟨f, rfl⟩ : ∃ f, fuel = f + 1 := ⟨fuel - 1, by
      simp only [List.length_nil] at hfuel; omega⟩
    rw [chain_end] at hmagic hdead hle
    rw [destroy_all_loop, if_pos hle]
    simp only [read_magic_of hmagic, pl_ok_bind, beq_self_eq_true, pl_check_true, World.id,
      list_entry.get_object, list_entry.get_placeholder, hdead, pl_error_bind]
  | cons x rest ih =>
    intro w a last fuel hchain hmagic hdead hle hfuel
    obtain ⟨f, rfl⟩ : ∃ f, fuel = f + 1 := ⟨fuel - 1, by
      simp only [List.length_cons] at hfuel; omega⟩
    obtain ⟨h1, h2, h3, hpos, hrest⟩ := hchain
    have hge := chain_end_cons_gt a x rest
    rw [chain_end] at hmagic hdead hle
    have hge2 := chain_end_ge (a + sizeof_list_entry + x.1.object_size) rest
    rw [destroy_all_loop, if_pos (by omega)]
    have hnext : list_entry.next_entry (w.remove_object (a + sizeof_list_entry) x.2.serial) a =
        Except.ok (a + sizeof_list_entry + x.1.object_size) := by
      simp only [list_entry.next_entry, read_functions_of (w := w.remove_object _ _) h2,
        pl_ok_bind, pl_pure]
    have hid : w.id (list_entry.get_object a) = Except.ok x.2 := by
      simp only [World.id, list_entry.get_object, list_entry.get_placeholder, h3, pl_pure]
    have hdes : list_entry.destruct w a =
        Except.ok (w.remove_object (a + sizeof_list_entry) x.2.serial) := by
      simp only [list_entry.destruct, read_functions_of h2, pl_ok_bind, World.poly_destruct,
        list_entry.get_object, list_entry.get_placeholder, h3, pl_pure]
    simp only [read_magic_of h1, pl_ok_bind, beq_self_eq_true, pl_check_true, hid, hdes, hnext]
    apply ih _ _ last f
    · apply chain_congr (w := w) _ _ hrest
      · intro y _ _; rfl
      · intro y hy _
        exact remove_object_objects_other _ _ _ (by omega)
    · exact hmagic
    · rw [remove_object_objects_other _ _ _ (by omega)]; exact hdead
    · exact hle
    · simp only [List.length_cons] at hfuel; omega

theorem range_add_perm (c k : Nat) : List.range (c + k) = List.range c ++ List.range' c k := by
  rw [List.range_eq_range', List.range_eq_range']
  have := List.range'_append_1 0 c k
  simp only [Nat.zero_add] at this
  rw [this, Nat.add_comm]

/-- The serial numbers when an element is added. -/
theorem perm_push {S D : List Nat} {c : Nat} (h : (S ++ D).Perm (List.range c)) :
    ((S ++ [c]) ++ D).Perm (List.range (c + 1)) := by
  rw [List.range_succ]
  have : ((S ++ [c]) ++ D).Perm ((S ++ D) ++ [c]) := by
    rw [List.append_assoc, List.append_assoc]
    exact List.Perm.append_left S List.perm_append_comm
  exact this.trans (List.Perm.append_right [c] h)

/-- The serial numbers when the copies made by a growth that fails are destroyed. -/
theorem perm_rollback {S D : List Nat} {c : Nat} (k : Nat) (h : (S ++ D).Perm (List.range c)) :
    (S ++ ((List.range' c k).reverse ++ D)).Perm (List.range (c + k)) := by
  rw [range_add_perm]
  have : (S ++ ((List.range' c k).reverse ++ D)).Perm ((S ++ D) ++ List.range' c k) := by
    rw [List.append_assoc]
    apply List.Perm.append_left S
    exact (List.perm_append_comm).trans
      (List.Perm.append_left D (List.reverse_perm _))
  exact this.trans (List.Perm.append_right _ h)

/-- The serial numbers when the elements are destroyed. -/
theorem perm_clear {S D : List Nat} {c : Nat} (h : (S ++ D).Perm (List.range c)) :
    (S.reverse ++ D).Perm (List.range c) :=
  (List.Perm.append_right D (List.reverse_perm S)).trans h

/-- The serial numbers when the elements are copied, an element is added, and the
originals are destroyed. -/
theorem perm_grow {S D : List Nat} {c : Nat} (h : (S ++ D).Perm (List.range c)) (k : Nat) :
    ((List.range' c k ++ [c + k]) ++ (S.reverse ++ D)).Perm (List.range (c + k + 1)) := by
  rw [List.range_succ, range_add_perm]
  have h1 : ((List.range' c k ++ [c + k]) ++ (S.reverse ++ D)).Perm
      ((S.reverse ++ D) ++ (List.range' c k ++ [c + k])) := List.perm_append_comm
  refine h1.trans ?_
  rw [← List.append_assoc]
  exact List.Perm.append_right _ (List.Perm.append_right _ (perm_clear h))

end PolyList

namespace PolyList

/-! ## `emplace_back` -/

/-- The header of a new entry written after a chain leaves the chain as it is. -/
theorem chain_header {w : World} {buf : Nat} {items : List (poly_functions × Object)}
    (f : poly_functions) (h : Chain w buf items) :
    Chain ((w.set_magic (chain_end buf items) magic_value).set_functions
      (chain_end buf items) f) buf items := by
  apply chain_congr (w := w) _ _ h
  · intro x _ hx
    rw [set_functions_entries_other _ _ _ (by omega), set_magic_entries_other _ _ _ (by omega)]
  · intro x _ _; rfl

/-- A new entry written after a chain, with its object constructed, makes the chain one
element longer. -/
theorem chain_push {w : World} {buf : Nat} {items : List (poly_functions × Object)}
    (f : poly_functions) (cls x : Nat) (h : Chain w buf items) (hpos : 0 < f.object_size) :
    Chain (((w.set_magic (chain_end buf items) magic_value).set_functions
      (chain_end buf items) f).put_object (chain_end buf items + sizeof_list_entry) cls x) buf
      (items ++ [(f, ⟨w.constructed, cls, x⟩)]) := by
  have h16 := sizeof_list_entry_eq
  rw [chain_append]
  constructor
  · apply chain_congr (w := w) _ _ h
    · intro y _ hy
      rw [put_object_entries, set_functions_entries_other _ _ _ (by omega),
        set_magic_entries_other _ _ _ (by omega)]
    · intro y _ hy
      rw [put_object_objects_other _ _ _ _ (by omega)]; rfl
  · refine ⟨?_, ?_, ?_, hpos, trivial⟩
    · rw [put_object_entries, set_functions_entries_self, set_magic_entries_self]
    · rw [put_object_entries, set_functions_entries_self]
    · rw [put_object_objects_self]; rfl

theorem contents_thrown (vs : List (Nat × Nat)) (f : poly_functions) (v nb : Option Nat)
    (cf : Nat → Bool) : (Op.emplace_back f v nb cf).contents vs Exit.thrown = vs := by
  cases v <;> rfl

theorem inv_of_no_buffer {w : World} {l : poly_list} {items : List (poly_functions × Object)}
    (h : Inv w l items) (hbs : l.buffer_size = 0) :
    l.buffer = 0 ∧ items = [] ∧ l.last_used_entry = 0 ∧ w.arrays = [] := by
  have hb : l.buffer = 0 := by
    by_contra hne
    have := (h.bounds hne).1
    omega
  have hi : items = [] := by
    cases items with
    | nil => rfl
    | cons x rest =>
      have h1 := h.fits
      have h2 := chain_end_cons_gt l.buffer x rest
      have h16 := sizeof_list_entry_eq
      omega
  refine ⟨hb, hi, ?_, ?_⟩
  · rw [h.last, hi]; rfl
  · rw [h.arrays, if_pos hb]

/-- The first `emplace_back` of a list, which allocates the buffer. -/
theorem emplace_first {w : World} {l : poly_list} {items : List (poly_functions × Object)}
    (h : Inv w l items) (hbs : l.buffer_size = 0) {f : poly_functions} {v nb : Option Nat}
    {cf : Nat → Bool} (hwf : f.object_size + sizeof_list_entry < 2 ^ 62)
    {w' : World} {l' : poly_list} {exit : Exit}
    (hstep : poly_list.emplace_back w l f v nb cf = Except.ok (w', l', exit)) :
    Keeps w l items (Op.emplace_back f v nb cf) w' l' exit := by
  have h16 := sizeof_list_entry_eq
  obtain ⟨hb, hi, hl, harr⟩ := inv_of_no_buffer h hbs
  subst hi
  have hN := @new_buffer_size_eq 0 f.object_size (by norm_num) hwf
  rw [Nat.zero_add] at hN
  by_cases hpos : 0 < f.object_size
  swap
  · simp only [poly_list.emplace_back, grow, gt_iff_lt, hpos, decide_False, pl_check_false,
      pl_error_bind] at hstep
    cases hstep
  simp only [poly_list.emplace_back, grow, gt_iff_lt, hpos, decide_True, pl_check_true,
    pl_ok_bind, hbs, hl, hb, Nat.zero_add, hN, if_true, beq_self_eq_true, Bool.and_self] at hstep
  cases nb with
  | none =>
    simp only [World.new_array, pl_pure, pl_ok_bind, uncommitted_growth.dtor, ne_eq,
      not_true_eq_false, if_false, Except.ok.injEq, Prod.mk.injEq] at hstep
    obtain ⟨rfl, rfl, rfl⟩ := hstep
    refine ⟨[], h, (contents_thrown _ _ _ _ _).symm, fun _ => ⟨rfl, by simp⟩,
      fun _ => Or.inl rfl⟩
  | some b =>
    by_cases hbad : b = 0 ∨ b + (f.object_size + sizeof_list_entry) * 2 > 2 ^ 62
    · simp only [World.new_array, harr, List.any_nil, Bool.false_eq_true, or_false, hbad,
        if_true, pl_error_bind] at hstep
      cases hstep
    · simp only [World.new_array, harr, List.any_nil, Bool.false_eq_true, or_false, hbad,
        if_false, pl_pure, pl_ok_bind] at hstep
      rw [not_or] at hbad
      obtain ⟨hb0, hbN⟩ := hbad
      obtain ⟨N, hNdef⟩ : ∃ N, N = (f.object_size + sizeof_list_entry) * 2 := ⟨_, rfl⟩
      rw [← hNdef] at hstep hbN
      obtain ⟨w1, hw1⟩ : ∃ w1 : World, w1 = { w with arrays := [(b, N)] } := ⟨_, rfl⟩
      rw [← hw1] at hstep
      have harr1 : (b, N) ∈ w1.arrays := by rw [hw1]; exact List.mem_singleton.mpr rfl
      have ha := @alloc_entry_spec w1 b N f.object_size
        [] trivial (by rw [chain_end]; omega) hb0 (by omega) hwf harr1
      rw [chain_end, if_pos (by omega), last_entry_of] at ha
      have hwf2 := write_functions_of_mem (w := w1.set_magic b magic_value) (a := b) f
        (show (b, N) ∈ (w1.set_magic b magic_value).arrays from harr1) (le_refl _) (by omega)
      have hin : ((w1.set_magic b magic_value).set_functions b f).in_array
          (b + sizeof_list_entry) f.object_size = true :=
        in_array_of_mem (b := b) (n := N) harr1 (by omega) (by omega)
      simp only [ha, pl_ok_bind, hb0, if_false, bne_iff_ne, ne_eq, not_false_eq_true,
        pl_check_of, decide_True, hwf2, list_entry.get_placeholder, World.construct, hin,
        if_true] at hstep
      obtain ⟨w2, hw2⟩ : ∃ w2 : World, w2 = (w1.set_magic b magic_value).set_functions b f :=
        ⟨_, rfl⟩
      rw [← hw2] at hstep
      have hinv0 : Inv w2 { buffer_size := N, buffer := b, last_used_entry := 0 } [] := by
        refine ⟨?_, fun hh => absurd hh hb0,
          fun _ => ⟨show 0 < N by omega, show b + N ≤ 2 ^ 62 by omega⟩, trivial, ?_, rfl,
          ?_, ?_⟩
        · rw [hw2, set_functions_arrays, set_magic_arrays, hw1]
          simp only [hb0, if_false]
        · rw [chain_end]; omega
        · intro p hp
          exact h.alive p (by rw [hw2, hw1] at hp; exact hp)
        · have := h.serials
          rw [hw2, hw1]
          exact this
      cases v with
      | none =>
        simp only [pl_pure, pl_ok_bind, uncommitted_growth.dtor, ne_eq, not_true_eq_false,
          if_false, Except.ok.injEq, Prod.mk.injEq] at hstep
        obtain ⟨rfl, rfl, rfl⟩ := hstep
        refine ⟨[], hinv0, (contents_thrown _ _ _ _ _).symm, fun _ => ⟨rfl, ?_⟩,
          fun _ => Or.inl (by rw [hw2, hw1]; rfl)⟩
        rw [hw2, hw1]
        simp
      | some x =>
        simp only [pl_pure, pl_ok_bind, commit, bne_iff_ne, ne_eq, hb0, not_false_eq_true,
          decide_True, pl_check_of, not_true_eq_false, if_false, uncommitted_growth.dtor,
          Except.ok.injEq, Prod.mk.injEq] at hstep
        obtain ⟨rfl, rfl, rfl⟩ := hstep
        have hc : w2.constructed = w.constructed := by rw [hw2, hw1]; rfl
        refine ⟨[(f, ⟨w.constructed, f.class_id, x⟩)], ?_, rfl, ?_, ?_⟩
        rotate_left
        · intro hh; cases hh
        · intro _; left; rw [put_object_destroyed, hw2, hw1]; rfl
        have hch := @chain_push w1 b [] f f.class_id x trivial hpos
        rw [chain_end, ← hw2] at hch
        refine ⟨?_, fun hh => absurd hh hb0,
          fun _ => ⟨show 0 < N by omega, show b + N ≤ 2 ^ 62 by omega⟩, ?_, ?_, rfl, ?_, ?_⟩
        · rw [put_object_arrays, hw2, set_functions_arrays, set_magic_arrays, hw1]
          simp only [hb0, if_false]
        · have : w1.constructed = w.constructed := by rw [hw1]
          rw [this] at hch
          exact hch
        · simp only [chain_end]; omega
        · intro p hp
          by_cases hpe : p = b + sizeof_list_entry
          · subst hpe; simp [placeholders]
          · rw [put_object_objects_other _ _ _ _ hpe] at hp
            exact absurd (h.alive p (by rw [hw2, hw1] at hp; exact hp)) (by simp [placeholders])
        · have := perm_push (S := []) h.serials
          rw [put_object_constructed, put_object_destroyed, hc]
          have hd : w2.destroyed = w.destroyed := by rw [hw2, hw1]; rfl
          rw [hd]
          exact this

theorem inv_of_buffer {w : World} {l : poly_list} {items : List (poly_functions × Object)}
    (h : Inv w l items) (hbs : l.buffer_size ≠ 0) :
    l.buffer ≠ 0 ∧ w.arrays = [(l.buffer, l.buffer_size)] ∧
      l.buffer + l.buffer_size ≤ 2 ^ 62 := by
  have hb : l.buffer ≠ 0 := fun hh => hbs (h.null hh)
  refine ⟨hb, ?_, (h.bounds hb).2⟩
  rw [h.arrays, if_neg hb]

/-- The call `emplace_back` when the buffer has room for the new element. -/
theorem emplace_room {w : World} {l : poly_list} {items : List (poly_functions × Object)}
    (h : Inv w l items) (hbs : l.buffer_size ≠ 0) {f : poly_functions} {v nb : Option Nat}
    {cf : Nat → Bool} (hwf : f.object_size + sizeof_list_entry < 2 ^ 62)
    (hroom : chain_end l.buffer items + sizeof_list_entry + f.object_size ≤
      l.buffer + l.buffer_size)
    {w' : World} {l' : poly_list} {exit : Exit}
    (hstep : poly_list.emplace_back w l f v nb cf = Except.ok (w', l', exit)) :
    Keeps w l items (Op.emplace_back f v nb cf) w' l' exit := by
  have h16 := sizeof_list_entry_eq
  obtain ⟨hb, harr, hbound⟩ := inv_of_buffer h hbs
  have hmem : (l.buffer, l.buffer_size) ∈ w.arrays := by rw [harr]; exact List.mem_singleton.mpr rfl
  by_cases hpos : 0 < f.object_size
  swap
  · simp only [poly_list.emplace_back, grow, gt_iff_lt, hpos, decide_False, pl_check_false,
      pl_error_bind] at hstep
    cases hstep
  have ha := alloc_entry_spec (s := f.object_size) h.chain h.fits hb hbound hwf hmem
  rw [if_pos hroom, ← h.last] at ha
  obtain ⟨e, he⟩ : ∃ e, e = chain_end l.buffer items := ⟨_, rfl⟩
  rw [← he] at ha hroom
  have hge := chain_end_ge l.buffer items
  have he0 : e ≠ 0 := by omega
  have hwf2 := write_functions_of_mem (w := w.set_magic e magic_value) (a := e) f
    (show (l.buffer, l.buffer_size) ∈ (w.set_magic e magic_value).arrays from hmem)
    (by omega) (by omega)
  have hin : ((w.set_magic e magic_value).set_functions e f).in_array
      (e + sizeof_list_entry) f.object_size = true :=
    in_array_of_mem (b := l.buffer) (n := l.buffer_size) hmem (by omega) (by omega)
  simp only [poly_list.emplace_back, grow, gt_iff_lt, hpos, decide_True, pl_check_true,
    pl_ok_bind, hbs, if_false, pl_pure, ha, he0, bne_iff_ne, ne_eq, not_false_eq_true,
    pl_check_of, hwf2, list_entry.get_placeholder, World.construct, hin, if_true] at hstep
  obtain ⟨w2, hw2⟩ : ∃ w2 : World, w2 = (w.set_magic e magic_value).set_functions e f :=
    ⟨_, rfl⟩
  rw [← hw2] at hstep
  cases v with
  | none =>
    simp only [pl_pure, pl_ok_bind, uncommitted_growth.dtor, ne_eq, not_true_eq_false,
      if_false, Except.ok.injEq, Prod.mk.injEq] at hstep
    obtain ⟨rfl, rfl, rfl⟩ := hstep
    refine ⟨items, ?_, (contents_thrown _ _ _ _ _).symm, ?_, ?_⟩
    rotate_left
    · intro _; refine ⟨rfl, ?_⟩
      rw [hw2]; simp
    · intro _; left; rw [hw2]; rfl
    refine ⟨?_, h.null, h.bounds, ?_, h.fits, h.last, ?_, ?_⟩
    · rw [hw2]; exact h.arrays
    · rw [hw2, he]; exact chain_header f h.chain
    · intro p hp; exact h.alive p (by rw [hw2] at hp; exact hp)
    · rw [hw2]; exact h.serials
  | some x =>
    simp only [pl_pure, pl_ok_bind, commit, bne_iff_ne, ne_eq, he0, not_false_eq_true,
      decide_True, pl_check_of, not_true_eq_false, if_false, uncommitted_growth.dtor,
      Except.ok.injEq, Prod.mk.injEq] at hstep
    obtain ⟨rfl, rfl, rfl⟩ := hstep
    refine ⟨items ++ [(f, ⟨w.constructed, f.class_id, x⟩)], ?_, ?_, ?_, ?_⟩
    rotate_left
    · rw [List.map_append]; rfl
    · intro hh; cases hh
    · intro _; left; rw [put_object_destroyed, hw2]; rfl
    have hch := chain_push f f.class_id x h.chain hpos
    rw [← he, ← hw2] at hch
    refine ⟨?_, h.null, h.bounds, hch, ?_, ?_, ?_, ?_⟩
    · rw [put_object_arrays, hw2]; exact h.arrays
    · rw [chain_end_append, ← he]; simp only [chain_end]; exact hroom
    · rw [last_entry_of_append_singleton, ← he]
    · intro p hp
      rw [placeholders_append, List.mem_append, ← he]
      by_cases hpe : p = e + sizeof_list_entry
      · right; subst hpe; simp [placeholders]
      · left
        rw [put_object_objects_other _ _ _ _ hpe] at hp
        exact h.alive p (by rw [hw2] at hp; exact hp)
    · have := perm_push h.serials
      rw [put_object_constructed, put_object_destroyed, hw2, List.map_append]
      exact this

end PolyList

namespace PolyList

/-! ## `emplace_back` when the buffer grows -/

/-- `copy_all` from the chain of the old buffer to a new array that is far enough and big
enough: the entries are copied up to the first whose copy constructor throws. -/
theorem copy_all_spec (cf : Nat → Bool) {w : World} {items : List (poly_functions × Object)}
    {old b N first : Nat} (hb : b ≠ 0) (hbN : b + N ≤ 2 ^ 62) (hold : old ≠ 0)
    (hchain : Chain w old items) (harr : (b, N) ∈ w.arrays)
    (hdisj : b + N ≤ old ∨ chain_end old items ≤ b)
    (hroom : b + (chain_end old items - old) ≤ b + N) (hle : chain_end old items ≤ 2 ^ 62)
    (hfirst : items ≠ [] → first = old) :
    ∃ w' result', copy_all w first (last_entry_of old items)
          { new_buffer := b, new_buffer_size := N } cf =
        Except.ok (w', result',
          if (items.takeWhile (fun x => !cf x.2.serial)).length = items.length then
            Exit.returned else Exit.thrown) ∧
      result'.new_buffer = b ∧ result'.new_buffer_size = N ∧
      result'.new_last_used_entry = last_entry_of b
        (copies_of w.constructed (items.takeWhile (fun x => !cf x.2.serial))) ∧
      w'.arrays = w.arrays ∧
      w'.constructed = w.constructed + (items.takeWhile (fun x => !cf x.2.serial)).length ∧
      w'.destroyed = w.destroyed ∧
      Chain w' b (copies_of w.constructed (items.takeWhile (fun x => !cf x.2.serial))) ∧
      (∀ x, x < b ∨ b + N ≤ x → w'.entries x = w.entries x) ∧
      (∀ p, p ∉ placeholders b
          (copies_of w.constructed (items.takeWhile (fun x => !cf x.2.serial))) →
        w'.objects p = w.objects p) := by
  by_cases hne : items = []
  · subst hne
    refine ⟨w, { new_buffer := b, new_buffer_size := N }, ?_, rfl, rfl, rfl, rfl, rfl, rfl,
      trivial, fun _ _ => rfl, fun _ _ => rfl⟩
    simp [copy_all, last_entry_of]
  · have hf := hfirst hne
    subst hf
    have hl := last_entry_le_end first items hne
    have hl0 : last_entry_of first items ≠ 0 := by omega
    obtain ⟨w', result', e, e1, e2, -, e4, e5, e6, e7, e8, e9, e10⟩ :=
      copy_loop_spec cf b N hb hbN items w [] first (last_entry_of first items)
        (last_entry_of first items - first + 1) { new_buffer := b, new_buffer_size := N }
        hchain trivial harr hdisj (by rw [chain_end]; exact hroom) hle (fun _ => rfl)
        (fun hh => absurd hh hne) (length_le_fuel first items hne) rfl rfl rfl
    simp only [List.nil_append, chain_end, last_entry_of] at e e4 e8 e9 e10
    refine ⟨w', result', ?_, e1, e2, e4, e5, e6, e7, e8, e9, e10⟩
    simp only [copy_all, beq_self_eq_true, pl_check_true, pl_ok_bind, ne_eq, hold,
      not_false_eq_true, hl0, and_self, if_true, decide_eq_true hl.1, e]

theorem pl_if_check {α : Type} (c : Prop) [Decidable c] (t : Bool) (X : Res α)
    (h : c → t = true) : (if c then (check t >>= fun _ => X) else X) = X := by
  by_cases hc : c
  · rw [if_pos hc, h hc]; rfl
  · rw [if_neg hc]

/-- The call `emplace_back` when the buffer has no room for the new element: the elements
are copied to a new buffer, the new element is added after them, and the old buffer is
destroyed; when a copy constructor throws, the copies are destroyed and the new buffer is
given back. The call does not complete when the constructor of the new element throws:
the rollback then runs `destroy_all` up to the entry of the element that was not
constructed. -/
theorem emplace_grow {w : World} {l : poly_list} {items : List (poly_functions × Object)}
    (h : Inv w l items) (hbs : l.buffer_size ≠ 0) {f : poly_functions} {v nb : Option Nat}
    {cf : Nat → Bool} (hwf : f.object_size + sizeof_list_entry < 2 ^ 62)
    (hroom : ¬ chain_end l.buffer items + sizeof_list_entry + f.object_size ≤
      l.buffer + l.buffer_size)
    {w' : World} {l' : poly_list} {exit : Exit}
    (hstep : poly_list.emplace_back w l f v nb cf = Except.ok (w', l', exit)) :
    Keeps w l items (Op.emplace_back f v nb cf) w' l' exit := by
  have h16 := sizeof_list_entry_eq
  obtain ⟨hb, harr, hbound⟩ := inv_of_buffer h hbs
  have hmem : (l.buffer, l.buffer_size) ∈ w.arrays := by rw [harr]; exact List.mem_singleton.mpr rfl
  by_cases hpos : 0 < f.object_size
  swap
  · simp only [poly_list.emplace_back, grow, gt_iff_lt, hpos, decide_False, pl_check_false,
      pl_error_bind] at hstep
    cases hstep
  have ha := alloc_entry_spec (s := f.object_size) h.chain h.fits hb hbound hwf hmem
  rw [if_neg hroom, ← h.last] at ha
  have hN := @new_buffer_size_eq l.buffer_size f.object_size (by omega) hwf
  obtain ⟨N, hNdef⟩ : ∃ N, N = (l.buffer_size + f.object_size + sizeof_list_entry) * 2 :=
    ⟨_, rfl⟩
  rw [← hNdef] at hN
  simp only [poly_list.emplace_back, grow, gt_iff_lt, hpos, decide_True, pl_check_true,
    pl_ok_bind, hbs, if_false, pl_pure, ha, if_true, hN] at hstep
  cases nb with
  | none =>
    simp only [World.new_array, pl_pure, pl_ok_bind, uncommitted_growth.dtor, ne_eq,
      not_true_eq_false, if_false, Except.ok.injEq, Prod.mk.injEq] at hstep
    obtain ⟨rfl, rfl, rfl⟩ := hstep
    refine ⟨items, h, (contents_thrown _ _ _ _ _).symm, fun _ => ⟨rfl, by simp⟩,
      fun _ => Or.inl rfl⟩
  | some b =>
    by_cases hbad : b = 0 ∨ b + N > 2 ^ 62 ∨
        (decide (b < l.buffer + l.buffer_size) && decide (l.buffer < b + N)) = true
    · simp only [World.new_array, harr, List.any_cons, List.any_nil, Bool.or_false, hbad,
        if_true, pl_error_bind] at hstep
      cases hstep
    · simp only [World.new_array, harr, List.any_cons, List.any_nil, Bool.or_false, hbad,
        if_false, pl_pure, pl_ok_bind] at hstep
      simp only [not_or, Bool.and_eq_true, decide_eq_true_eq, not_and, not_lt, gt_iff_lt]
        at hbad
      obtain ⟨hb0, hbN, hdisj⟩ := hbad
      obtain ⟨w1, hw1⟩ : ∃ w1 : World,
          w1 = { w with arrays := [(b, N), (l.buffer, l.buffer_size)] } := ⟨_, rfl⟩
      rw [← hw1, h.last] at hstep
      have hN0 : l.buffer_size ≤ N := by omega
      have hfit := h.fits
      have hge := chain_end_ge l.buffer items
      have harr1 : w1.arrays = [(b, N), (l.buffer, l.buffer_size)] := by rw [hw1]
      have hmem1 : (b, N) ∈ w1.arrays := by rw [harr1]; exact List.mem_cons_self _ _
      have hchain1 : Chain w1 l.buffer items :=
        chain_congr (w := w) (fun _ _ _ => by rw [hw1]) (fun _ _ _ => by rw [hw1]) h.chain
      have hfirst : items ≠ [] → l.first_entry = l.buffer := by
        intro hne
        have : l.last_used_entry ≠ 0 := by
          rw [h.last]
          exact fun hh => hne ((last_entry_of_eq_zero hb items).mp hh)
        rw [poly_list.first_entry, if_pos this]
      obtain ⟨w3, result, e, e1, e2, e4, e5, e6, e7, e8, e9, e10⟩ :=
        @copy_all_spec cf w1 items l.buffer b N
          l.first_entry hb0 (by omega) hb hchain1 hmem1 (by omega) (by omega)
          (by omega) hfirst
      have hc1 : w1.constructed = w.constructed := by rw [hw1]
      have hd1 : w1.destroyed = w.destroyed := by rw [hw1]
      rw [hc1] at e4 e6 e8 e10
      rw [hd1] at e7
      obtain ⟨done, hdone⟩ : ∃ done, done = items.takeWhile (fun x => !cf x.2.serial) :=
        ⟨_, rfl⟩
      rw [← hdone] at e e4 e6 e8 e10
      obtain ⟨copies, hcopies⟩ : ∃ copies, copies = copies_of w.constructed done := ⟨_, rfl⟩
      rw [← hcopies] at e4 e8 e10
      have hcend := chain_end_copies_of b l.buffer w.constructed done
      rw [← hcopies] at hcend
      have hdend : chain_end l.buffer done ≤ chain_end l.buffer items := by
        rw [hdone]; exact chain_end_take_le _ _ _
      have hin_new : ∀ p, p ∈ placeholders b copies → b ≤ p ∧ p < b + N := by
        intro p hp
        have := mem_placeholders e8 hp
        omega
      have hin_old : ∀ p, p ∈ placeholders l.buffer items →
          l.buffer ≤ p ∧ p < l.buffer + l.buffer_size := by
        intro p hp
        have := mem_placeholders h.chain hp
        omega
      by_cases hall : done.length = items.length
      · rw [if_pos hall] at e
        simp only [e, pl_ok_bind] at hstep
        have hde : done = items := by
          have hsub : List.Sublist done items := by rw [hdone]; exact List.takeWhile_sublist _
          exact hsub.eq_of_length hall
        rw [hde] at hcopies hcend
        have hbs0 : 0 < l.buffer_size := Nat.pos_of_ne_zero hbs
        have hne : l.buffer ≠ b := by omega
        obtain ⟨m, hm⟩ : ∃ m, m = chain_end b copies := ⟨_, rfl⟩
        rw [← hm] at hcend
        have hcheck : result.new_last_used_entry = 0 →
            decide (l.buffer_size < size_t (f.object_size + sizeof_list_entry)) = true := by
          intro hz
          rw [e4, last_entry_of_eq_zero hb0] at hz
          have hi : items = [] := by
            cases items with
            | nil => rfl
            | cons x rest => rw [hcopies, copies_of] at hz; cases hz
          rw [size_t_of_lt (by omega), decide_eq_true_eq]
          rw [hi, chain_end] at hroom
          omega
        rw [pl_if_check _ _ _ hcheck, e1, e2, e4] at hstep
        have hmem3 : (b, N) ∈ w3.arrays := by rw [e5]; exact hmem1
        have ha3 := alloc_entry_spec (s := f.object_size) e8 (show chain_end b copies ≤ b + N
          from by omega) hb0 (by omega) hwf hmem3
        rw [← hm, if_pos (by omega)] at ha3
        have hm0 : m ≠ 0 := by omega
        have hmb : b ≤ m := by rw [hm]; exact chain_end_ge _ _
        have hwf3 := write_functions_of_mem (w := w3.set_magic m magic_value) (a := m) f
          (show (b, N) ∈ (w3.set_magic m magic_value).arrays from hmem3) hmb (by omega)
        have hin3 : ((w3.set_magic m magic_value).set_functions m f).in_array
            (m + sizeof_list_entry) f.object_size = true :=
          in_array_of_mem (b := b) (n := N) hmem3 (by omega) (by omega)
        simp only [ha3, pl_ok_bind, bne_iff_ne, ne_eq, hm0, not_false_eq_true, decide_True,
          pl_check_of, hwf3, list_entry.get_placeholder, World.construct, hin3, if_true]
          at hstep
        obtain ⟨w4, hw4⟩ : ∃ w4 : World, w4 = (w3.set_magic m magic_value).set_functions m f :=
          ⟨_, rfl⟩
        rw [← hw4] at hstep
        have hnotin : ∀ p, m ≤ p → p ∉ placeholders b copies := by
          intro p hp hh
          have := mem_placeholders e8 hh
          omega
        have hO3 : ∀ p, l.buffer ≤ p → p < l.buffer + l.buffer_size →
            w3.objects p = w.objects p := by
          intro p hp1 hp2
          rw [e10 p (fun hh => by have := hin_new p hh; omega), hw1]
        have hE3 : ∀ p, l.buffer ≤ p → p < l.buffer + l.buffer_size →
            w3.entries p = w.entries p := by
          intro p hp1 hp2
          rw [e9 p (by omega), hw1]
        have hdead : ∀ p, m ≤ p → p < b + N → w3.objects p = none := by
          intro p hp hp2
          rw [e10 p (hnotin p hp), hw1]
          by_contra hh
          have h1 := hin_old p (h.alive p hh)
          omega
        cases v with
        | none =>
          simp only [pl_pure, pl_ok_bind, uncommitted_growth.dtor, ne_eq, hb0,
            not_false_eq_true, if_true, destroy_all, hm0, and_self, decide_eq_true hmb,
            pl_check_true] at hstep
          rw [destroy_loop_dead copies w4 b m (m - b + 1)
            (by rw [hw4, hm]; exact chain_header f e8)
            (by rw [← hm, hw4, set_functions_entries_self, set_magic_entries_self])
            (by rw [← hm, hw4]; exact hdead _ (by omega) (by omega)) (by omega)
            (by have := chain_end_length b copies; rw [← hm, h16] at this; omega)] at hstep
          cases hstep
        | some x =>
          simp only [pl_pure, pl_ok_bind, commit, bne_iff_ne, ne_eq, hm0, hb0,
            not_false_eq_true, decide_True, pl_check_of, if_true, h.last] at hstep
          obtain ⟨w5, hw5⟩ : ∃ w5 : World,
              w5 = w4.put_object (m + sizeof_list_entry) f.class_id x := ⟨_, rfl⟩
          rw [← hw5] at hstep
          have hO5 : ∀ p, p ≠ m + sizeof_list_entry → w5.objects p = w3.objects p := by
            intro p hp
            rw [hw5, put_object_objects_other _ _ _ _ hp, hw4]; rfl
          have hE5 : ∀ p, p ≠ m → w5.entries p = w3.entries p := by
            intro p hp
            rw [hw5, put_object_entries, hw4, set_functions_entries_other _ _ _ hp,
              set_magic_entries_other _ _ _ hp]
          have hchain5 : Chain w5 l.buffer items := by
            apply chain_congr (w := w) _ _ h.chain
            · intro y hy1 hy2
              rw [hE5 y (by omega), hE3 y hy1 (by omega)]
            · intro y hy1 hy2
              rw [hO5 y (by omega), hO3 y hy1 (by omega)]
          obtain ⟨w6, d0, d1, d2, d3, d4, d5, d6⟩ := @destroy_all_spec _ _ l.first_entry _
            hchain5 hb hfirst
          have harr5 : w5.arrays = [(b, N), (l.buffer, l.buffer_size)] := by
            rw [hw5, put_object_arrays, hw4, set_functions_arrays, set_magic_arrays, e5, harr1]
          have hfind : w6.arrays.find? (fun bn => bn.1 == l.buffer) =
              some (l.buffer, l.buffer_size) := by
            rw [d1, harr5]; simp [Ne.symm hne]
          obtain ⟨w7, g0, g1, g2, g3, g4, g5⟩ := delete_array_spec hb hfind
          simp only [d0, pl_ok_bind, g0, uncommitted_growth.dtor, ne_eq, not_true_eq_false,
            if_false, pl_pure, Except.ok.injEq, Prod.mk.injEq] at hstep
          obtain ⟨rfl, rfl, rfl⟩ := hstep
          have hc3 : w3.constructed = w.constructed + items.length := by rw [e6, hde]
          have hd5 : w5.destroyed = w.destroyed := by
            rw [hw5, put_object_destroyed, hw4, set_functions_destroyed, set_magic_destroyed, e7]
          have hc5 : w5.constructed = w.constructed + items.length + 1 := by
            rw [hw5, put_object_constructed, hw4, set_functions_constructed,
              set_magic_constructed, hc3]
          have hdes : w7.destroyed = (items.map (fun x => x.2.serial)).reverse ++ w.destroyed := by
            rw [g5, d4, hd5]
          refine ⟨copies ++ [(f, ⟨w.constructed + items.length, f.class_id, x⟩)], ?_, ?_, ?_, ?_⟩
          rotate_left
          · rw [List.map_append, hcopies, copies_of_contents]; rfl
          · intro hh; cases hh
          · intro _; right; exact ⟨Or.inr (Ne.symm hne), hdes⟩
          have hch := chain_push f f.class_id x e8 hpos
          rw [← hm, ← hw4, ← hw5, hc3] at hch
          have hend : chain_end b (copies ++ [(f, ⟨w.constructed + items.length, f.class_id, x⟩)])
              = m + sizeof_list_entry + f.object_size := by
            rw [chain_end_append, ← hm]; rfl
          refine ⟨?_, fun hh => absurd hh hb0,
            fun _ => ⟨show 0 < N by omega, show b + N ≤ 2 ^ 62 by omega⟩, ?_, ?_, ?_, ?_, ?_⟩
          · rw [g1, d1, harr5, if_neg hb0]
            simp [Ne.symm hne]
          · apply chain_congr (w := w5) _ _ hch
            · intro y hy1 hy2
              rw [hend] at hy2
              rw [g2, if_neg (by omega), d2]
            · intro y hy1 hy2
              rw [hend] at hy2
              rw [g3, if_neg (by omega), d6 y (fun hh => by have := hin_old y hh; omega)]
          · rw [hend]; show m + sizeof_list_entry + f.object_size ≤ b + N; omega
          · rw [last_entry_of_append_singleton, ← hm]
          · intro p hp
            rw [g3] at hp
            by_cases hx : l.buffer ≤ p ∧ p < l.buffer + l.buffer_size
            · rw [if_pos hx] at hp; exact absurd rfl hp
            · rw [if_neg hx, d6 p (fun hh => hx (hin_old p hh))] at hp
              rw [placeholders_append, List.mem_append, ← hm]
              by_cases hpe : p = m + sizeof_list_entry
              · right; subst hpe; simp [placeholders]
              · left
                rw [hO5 p hpe] at hp
                by_contra hnot
                rw [e10 p hnot, hw1] at hp
                exact hx (hin_old p (h.alive p hp))
          · rw [hdes, g4, d3, hc5, List.map_append, hcopies, copies_of_serials]
            exact perm_grow h.serials items.length
      · rw [if_neg hall] at e
        simp only [e, pl_ok_bind, uncommitted_growth.dtor, e1, ne_eq, hb0, not_false_eq_true,
          if_true, e4] at hstep
        obtain ⟨w4, d0, d1, d2, d3, d4, d5, d6⟩ := @destroy_all_spec _ _ b _ e8 hb0
          (fun _ => rfl)
        have hfind : w4.arrays.find? (fun bn => bn.1 == b) = some (b, N) := by
          rw [d1, e5, harr1]; simp
        obtain ⟨w5, g0, g1, g2, g3, g4, g5⟩ := delete_array_spec hb0 hfind
        simp only [d0, pl_ok_bind, g0, Except.ok.injEq, Prod.mk.injEq] at hstep
        obtain ⟨rfl, rfl, rfl⟩ := hstep
        have hbs0 : 0 < l.buffer_size := Nat.pos_of_ne_zero hbs
        have hne : l.buffer ≠ b := by omega
        have hE : ∀ x, ¬ (b ≤ x ∧ x < b + N) → w5.entries x = w.entries x := by
          intro x hx
          rw [g2, if_neg hx, d2, e9 x (by omega), hw1]
        have hO : ∀ x, ¬ (b ≤ x ∧ x < b + N) → w5.objects x = w.objects x := by
          intro x hx
          rw [g3, if_neg hx, d6 x (fun hh => hx (hin_new x hh)),
            e10 x (fun hh => hx (hin_new x hh)), hw1]
        have hser : copies.map (fun x => x.2.serial) = List.range' w.constructed done.length := by
          rw [hcopies]; exact copies_of_serials _ _
        have hdes : w5.destroyed =
            (List.range' w.constructed done.length).reverse ++ w.destroyed := by
          rw [g5, d4, hser, e7]
        have hcon : w5.constructed = w.constructed + done.length := by rw [g4, d3, e6]
        refine ⟨items, ?_, (contents_thrown _ _ _ _ _).symm, ?_, ?_⟩
        rotate_left
        · intro _
          refine ⟨rfl, ?_⟩
          rw [hdes, hcon, Nat.add_sub_cancel_left]
        · intro hh; cases hh
        refine ⟨?_, h.null, h.bounds, ?_, h.fits, h.last, ?_, ?_⟩
        · rw [g1, d1, e5, harr1, if_neg hb]
          simp [hne]
        · apply chain_congr (w := w) _ _ h.chain
          · intro x hx1 hx2; exact hE x (by omega)
          · intro x hx1 hx2; exact hO x (by omega)
        · intro p hp
          by_cases hx : b ≤ p ∧ p < b + N
          · rw [g3, if_pos hx] at hp; exact absurd rfl hp
          · rw [hO p hx] at hp; exact h.alive p hp
        · rw [hdes, hcon]
          exact perm_rollback _ h.serials

/-- A call of `emplace_back` that completes keeps the invariant. -/
theorem emplace_back_keeps {w : World} {l : poly_list} {items : List (poly_functions × Object)}
    (h : Inv w l items) {f : poly_functions} {v nb : Option Nat}
    {cf : Nat → Bool} (hwf : f.object_size + sizeof_list_entry < 2 ^ 62)
    {w' : World} {l' : poly_list} {exit : Exit}
    (hstep : poly_list.emplace_back w l f v nb cf = Except.ok (w', l', exit)) :
    Keeps w l items (Op.emplace_back f v nb cf) w' l' exit := by
  by_cases hbs : l.buffer_size = 0
  · exact emplace_first h hbs hwf hstep
  · by_cases hroom : chain_end l.buffer items + sizeof_list_entry + f.object_size ≤
        l.buffer + l.buffer_size
    · exact emplace_room h hbs hwf hroom hstep
    · exact emplace_grow h hbs hwf hroom hstep

end PolyList

namespace PolyList

/-! ## `clear`, the destructor, sequences of calls -/

theorem inv_buffer_of_items {w : World} {l : poly_list}
    {items : List (poly_functions × Object)} (h : Inv w l items) (hne : items ≠ []) :
    l.buffer ≠ 0 := by
  intro hb
  exact hne (inv_of_no_buffer h (h.null hb)).2.1

/-- The list has no element exactly when `last_used_entry` is null. -/
theorem inv_last_zero {w : World} {l : poly_list} {items : List (poly_functions × Object)}
    (h : Inv w l items) : l.last_used_entry = 0 ↔ items = [] := by
  by_cases hb : l.buffer = 0
  · have := inv_of_no_buffer h (h.null hb)
    exact ⟨fun _ => this.2.1, fun _ => this.2.2.1⟩
  · rw [h.last]; exact last_entry_of_eq_zero hb items

theorem inv_first_entry {w : World} {l : poly_list} {items : List (poly_functions × Object)}
    (h : Inv w l items) (hne : items ≠ []) : l.first_entry = l.buffer := by
  have : l.last_used_entry ≠ 0 := fun hh => hne ((inv_last_zero h).mp hh)
  rw [poly_list.first_entry, if_pos this]

/-- `clear()` returns; the elements have been destroyed, first to last, and the buffer is
kept. -/
theorem clear_spec {w : World} {l : poly_list} {items : List (poly_functions × Object)}
    (h : Inv w l items) :
    ∃ w', poly_list.clear w l = Except.ok (w', { l with last_used_entry := 0 }) ∧
      Inv w' { l with last_used_entry := 0 } [] ∧
      w'.constructed = w.constructed ∧
      w'.destroyed = (items.map (fun x => x.2.serial)).reverse ++ w.destroyed := by
  by_cases hne : items = []
  · subst hne
    have hl := (inv_last_zero h).mpr rfl
    have hl' : ({ l with last_used_entry := 0 } : poly_list) = l := by
      cases l; simp only at hl; subst hl; rfl
    rw [hl']
    refine ⟨w, ?_, h, rfl, rfl⟩
    simp [poly_list.clear, hl]
  · have hb := inv_buffer_of_items h hne
    have hl : l.last_used_entry ≠ 0 := fun hh => hne ((inv_last_zero h).mp hh)
    obtain ⟨w', d0, d1, d2, d3, d4, d5, d6⟩ := @destroy_all_spec _ _ l.first_entry _
      h.chain hb (fun _ => inv_first_entry h hne)
    rw [← h.last] at d0
    refine ⟨w', ?_, ?_, d3, d4⟩
    · simp only [poly_list.clear, ne_eq, hl, not_false_eq_true, if_true, bne_iff_ne, hb,
        decide_True, pl_check_of, pl_ok_bind, d0, pl_pure]
    · refine ⟨?_, h.null, h.bounds, trivial, ?_, rfl, ?_, ?_⟩
      · rw [d1]; exact h.arrays
      · rw [chain_end]; exact Nat.le_add_right _ _
      · intro p hp
        by_cases hm : p ∈ placeholders l.buffer items
        · exact absurd (d5 p hm) hp
        · rw [d6 p hm] at hp
          exact absurd (h.alive p hp) hm
      · rw [d3, d4]
        exact perm_clear h.serials

/-- The destructor `~poly_list()` returns; the elements have been destroyed, first to
last, the buffer is given back, and no object is left. -/
theorem dtor_spec {w : World} {l : poly_list} {items : List (poly_functions × Object)}
    (h : Inv w l items) :
    ∃ w', poly_list.dtor w l = Except.ok (w', {}) ∧ w'.arrays = [] ∧
      (∀ p, w'.objects p = none) ∧ w'.constructed = w.constructed ∧
      w'.destroyed = (items.map (fun x => x.2.serial)).reverse ++ w.destroyed ∧
      w'.destroyed.Perm (List.range w'.constructed) := by
  obtain ⟨w1, c0, c1, c2, c3⟩ := clear_spec h
  have hnone : ∀ p, w1.objects p = none := by
    intro p
    by_contra hp
    have := c1.alive p hp
    simp [placeholders] at this
  have hperm : w1.destroyed.Perm (List.range w1.constructed) := by
    have := c1.serials
    simpa using this
  by_cases hb : l.buffer = 0
  · have hbs := h.null hb
    have hl := (inv_of_no_buffer h hbs).2.2.1
    have hl' : ({ l with last_used_entry := 0 } : poly_list) = {} := by
      cases l; simp only at hb hbs; subst hb; subst hbs; rfl
    rw [hl'] at c0 c1
    refine ⟨w1, ?_, ?_, hnone, c2, c3, hperm⟩
    · simp [poly_list.dtor, c0]
    · rw [c1.arrays]; rfl
  · have hbd := h.bounds hb
    have harr : w1.arrays = [(l.buffer, l.buffer_size)] := by
      have := c1.arrays
      simp only [hb, if_false] at this
      exact this
    have hfind : w1.arrays.find? (fun bn => bn.1 == l.buffer) =
        some (l.buffer, l.buffer_size) := by
      rw [harr]; simp
    obtain ⟨w2, g0, g1, g2, g3, g4, g5⟩ := delete_array_spec hb hfind
    refine ⟨w2, ?_, ?_, ?_, by rw [g4, c2], by rw [g5, c3], by rw [g5, g4]; exact hperm⟩
    · have hbs : l.buffer_size ≠ 0 := by omega
      simp only [poly_list.dtor, c0, pl_ok_bind, ne_eq, hb, not_false_eq_true, if_true,
        bne_iff_ne, hbs, decide_True, pl_check_of, g0, pl_pure]
    · rw [g1, harr]; simp
    · intro p
      rw [g3]
      split
      · rfl
      · exact hnone p

/-- A call that completes keeps the invariant. -/
theorem step_keeps {w : World} {l : poly_list} {items : List (poly_functions × Object)}
    (h : Inv w l items) {op : Op} (hwf : op.well_formed)
    {w' : World} {l' : poly_list} {exit : Exit}
    (hstep : step w l op = Except.ok (w', l', exit)) : Keeps w l items op w' l' exit := by
  cases op with
  | emplace_back f v nb cf => exact emplace_back_keeps h hwf hstep
  | clear =>
    obtain ⟨w1, c0, c1, c2, c3⟩ := clear_spec h
    simp only [step, c0, pl_ok_bind, pl_pure, Except.ok.injEq, Prod.mk.injEq] at hstep
    obtain ⟨rfl, rfl, rfl⟩ := hstep
    exact ⟨[], c1, rfl, fun hh => (by cases hh), fun _ => Or.inr ⟨Or.inl rfl, c3⟩⟩

/-- A sequence of calls that completes keeps the invariant, and the list holds what the
calls that returned have put into it. -/
theorem run_keeps :
    ∀ (ops : List Op) {w : World} {l : poly_list} {items : List (poly_functions × Object)}
      {w' : World} {l' : poly_list} {exits : List Exit},
      Inv w l items → (∀ op ∈ ops, op.well_formed) →
      run w l ops = Except.ok (w', l', exits) →
      ∃ items', Inv w' l' items' ∧
        items'.map (fun x => (x.2.class_id, x.2.value)) =
          contents_after (items.map (fun x => (x.2.class_id, x.2.value))) ops exits ∧
        exits.length = ops.length := by
  intro ops
  induction ops with
  | nil =>
    intro w l items w' l' exits h _ hrun
    simp only [run, pl_pure, Except.ok.injEq, Prod.mk.injEq] at hrun
    obtain ⟨rfl, rfl, rfl⟩ := hrun
    exact ⟨items, h, rfl, rfl⟩
  | cons op ops ih =>
    intro w l items w' l' exits h hwf hrun
    rw [run] at hrun
    cases hs : step w l op with
    | error e => rw [hs] at hrun; cases hrun
    | ok r =>
      obtain ⟨w1, l1, exit⟩ := r
      rw [hs] at hrun
      simp only [pl_ok_bind] at hrun
      cases hr : run w1 l1 ops with
      | error e => rw [hr] at hrun; cases hrun
      | ok r2 =>
        obtain ⟨w2, l2, exits2⟩ := r2
        rw [hr] at hrun
        simp only [pl_ok_bind, pl_pure, Except.ok.injEq, Prod.mk.injEq] at hrun
        obtain ⟨rfl, rfl, rfl⟩ := hrun
        obtain ⟨items1, hinv1, hc1, -, -⟩ := step_keeps h (hwf op (List.mem_cons_self _ _)) hs
        obtain ⟨items2, hinv2, hc2, hlen⟩ := ih hinv1
          (fun o ho => hwf o (List.mem_cons_of_mem _ ho)) hr
        refine ⟨items2, hinv2, ?_, by rw [List.length_cons, List.length_cons, hlen]⟩
        rw [hc2, hc1]
        rfl

theorem inv_empty : Inv World.empty {} [] := by
  refine ⟨rfl, fun _ => rfl, fun hh => absurd rfl hh, trivial, ?_, rfl, ?_, ?_⟩
  · exact le_refl _
  · intro p hp; exact absurd rfl hp
  · exact List.Perm.refl _

end PolyList

namespace PolyList

/-! ## Iteration -/

theorem end_eq : poly_list.end_ = Except.ok ⟨0, 0⟩ := rfl

theorem visit_loop_end (w : World) (fuel : Nat) (acc : List Object) :
    visit_loop w ⟨0, 0⟩ fuel ⟨0, 0⟩ acc = Except.ok acc := by
  rw [visit_loop.eq_def]
  simp [iterator.ne, iterator.eq]

theorem visit_loop_post_end (w : World) (fuel : Nat) (acc : List Object) :
    visit_loop_post w ⟨0, 0⟩ fuel ⟨0, 0⟩ acc = Except.ok acc := by
  rw [visit_loop_post.eq_def]
  simp [iterator.ne, iterator.eq]

/-- The step `++it` on an entry of a chain: the next entry, or the end after the last. -/
theorem pre_increment_spec {w : World} {a : Nat} {x : poly_functions × Object}
    {rest : List (poly_functions × Object)} (h : Chain w a (x :: rest)) (ha : a ≠ 0) :
    iterator.pre_increment w ⟨a, last_entry_of a (x :: rest)⟩ =
      Except.ok (if rest = [] then ⟨0, 0⟩
        else ⟨a + sizeof_list_entry + x.1.object_size, last_entry_of a (x :: rest)⟩) := by
  have h16 := sizeof_list_entry_eq
  obtain ⟨h1, h2, h3, hpos, hrest⟩ := h
  have hl := last_entry_le_end a (x :: rest) (List.cons_ne_nil _ _)
  have hb1 : (a != 0) = true := bne_iff_ne.mpr ha
  cases rest with
  | nil =>
    simp only [iterator.pre_increment, last_entry_of, hb1, ne_eq,
      not_false_eq_true, decide_True, le_refl, Bool.and_self, pl_check_true, pl_ok_bind,
      not_true_eq_false, if_false, pl_pure, if_true]
  | cons y r =>
    have hl2 := last_entry_le_end (a + sizeof_list_entry + x.1.object_size) (y :: r)
      (List.cons_ne_nil _ _)
    have hlast : last_entry_of a (x :: y :: r) =
        last_entry_of (a + sizeof_list_entry + x.1.object_size) (y :: r) := rfl
    rw [hlast] at hl ⊢
    have hne : a ≠ last_entry_of (a + sizeof_list_entry + x.1.object_size) (y :: r) := by
      omega
    simp only [iterator.pre_increment, hb1, ne_eq, not_false_eq_true, decide_True,
      decide_eq_true hl.1, Bool.and_self, pl_check_true, pl_ok_bind, hne, if_true,
      list_entry.next_entry, read_functions_of h2, pl_pure, decide_eq_true hl2.1,
      List.cons_ne_nil, if_false]

/-- The first loop of `test_iterator` on a chain of entries, with enough fuel: it returns,
and has visited the objects of the chain, each once, first to last. -/
theorem visit_loop_spec :
    ∀ (rest : List (poly_functions × Object)) (w : World) (a fuel : Nat) (acc : List Object),
      Chain w a rest → rest ≠ [] → a ≠ 0 → rest.length ≤ fuel →
      visit_loop w ⟨0, 0⟩ fuel ⟨a, last_entry_of a rest⟩ acc =
        Except.ok (acc ++ rest.map (fun x => x.2)) := by
  have h16 := sizeof_list_entry_eq
  intro rest
  induction rest with
  | nil => intro w a fuel acc _ hne; exact absurd rfl hne
  | cons x rest ih =>
    intro w a fuel acc h _ ha hfuel
    obtain ⟨f, rfl⟩ : ∃ f, fuel = f + 1 := ⟨fuel - 1, by
      simp only [List.length_cons] at hfuel; omega⟩
    have hl := last_entry_le_end a (x :: rest) (List.cons_ne_nil _ _)
    have hinc := pre_increment_spec h ha
    obtain ⟨h1, h2, h3, hpos, hrest⟩ := h
    have hid : w.id (list_entry.get_object a) = Except.ok x.2 := by
      simp only [World.id, list_entry.get_object, list_entry.get_placeholder, h3, pl_pure]
    have hb1 : (a != 0) = true := bne_iff_ne.mpr ha
    have hb2 : (a == 0) = false := beq_eq_false_iff_ne.mpr ha
    rw [visit_loop.eq_def]
    simp only [iterator.ne, iterator.eq, decide_eq_true hl.1, pl_check_true, pl_ok_bind,
      le_refl, decide_True, pl_pure, hb1, hb2, Bool.not_false, if_true,
      iterator.deref, Bool.and_self, hid, hinc]
    by_cases hr : rest = []
    · subst hr
      simp only [if_true, visit_loop_end, List.map_cons, List.map_nil]
    · rw [if_neg hr]
      obtain ⟨y, r, rfl⟩ : ∃ y r, rest = y :: r := by
        cases rest with
        | nil => exact absurd rfl hr
        | cons y r => exact ⟨y, r, rfl⟩
      have hlast : last_entry_of a (x :: y :: r) =
          last_entry_of (a + sizeof_list_entry + x.1.object_size) (y :: r) := rfl
      rw [hlast, ih w _ f (acc ++ [x.2]) hrest hr (by omega)
        (by simp only [List.length_cons] at hfuel ⊢; omega)]
      simp

/-- The second loop of `test_iterator`, with `it++` and `it->id()`. -/
theorem visit_loop_post_spec :
    ∀ (rest : List (poly_functions × Object)) (w : World) (a fuel : Nat) (acc : List Object),
      Chain w a rest → rest ≠ [] → a ≠ 0 → rest.length ≤ fuel →
      visit_loop_post w ⟨0, 0⟩ fuel ⟨a, last_entry_of a rest⟩ acc =
        Except.ok (acc ++ rest.map (fun x => x.2)) := by
  have h16 := sizeof_list_entry_eq
  intro rest
  induction rest with
  | nil => intro w a fuel acc _ hne; exact absurd rfl hne
  | cons x rest ih =>
    intro w a fuel acc h _ ha hfuel
    obtain ⟨f, rfl⟩ : ∃ f, fuel = f + 1 := ⟨fuel - 1, by
      simp only [List.length_cons] at hfuel; omega⟩
    have hl := last_entry_le_end a (x :: rest) (List.cons_ne_nil _ _)
    have hinc := pre_increment_spec h ha
    obtain ⟨h1, h2, h3, hpos, hrest⟩ := h
    have hid : w.id (list_entry.get_object a) = Except.ok x.2 := by
      simp only [World.id, list_entry.get_object, list_entry.get_placeholder, h3, pl_pure]
    have hb1 : (a != 0) = true := bne_iff_ne.mpr ha
    have hb2 : (a == 0) = false := beq_eq_false_iff_ne.mpr ha
    rw [visit_loop_post.eq_def]
    simp only [iterator.ne, iterator.eq, decide_eq_true hl.1, pl_check_true, pl_ok_bind,
      le_refl, decide_True, pl_pure, hb1, hb2, Bool.not_false, if_true,
      iterator.arrow, iterator.post_increment, Bool.and_self, hid, hinc]
    by_cases hr : rest = []
    · subst hr
      simp only [if_true, visit_loop_post_end, List.map_cons, List.map_nil]
    · rw [if_neg hr]
      obtain ⟨y, r, rfl⟩ : ∃ y r, rest = y :: r := by
        cases rest with
        | nil => exact absurd rfl hr
        | cons y r => exact ⟨y, r, rfl⟩
      have hlast : last_entry_of a (x :: y :: r) =
          last_entry_of (a + sizeof_list_entry + x.1.object_size) (y :: r) := rfl
      rw [hlast, ih w _ f (acc ++ [x.2]) hrest hr (by omega)
        (by simp only [List.length_cons] at hfuel ⊢; omega)]
      simp

/-- Under the invariant, both loops of `test_iterator` return, and visit the elements of
the list, each once, first to last; `empty()` tells whether there is none, and so does
`begin() == end()`. -/
theorem visit_spec {w : World} {l : poly_list} {items : List (poly_functions × Object)}
    (h : Inv w l items) :
    visit_all w l = Except.ok (items.map (fun x => x.2)) ∧
      visit_all_post w l = Except.ok (items.map (fun x => x.2)) ∧
      l.empty = Except.ok (decide (items = [])) ∧
      (do let b ← l.begin; let e ← poly_list.end_; b.eq e) =
        Except.ok (decide (items = [])) := by
  by_cases hne : items = []
  · subst hne
    have hl := (inv_last_zero h).mpr rfl
    have hf : l.first_entry = 0 := by rw [poly_list.first_entry, hl]; rfl
    refine ⟨?_, ?_, ?_, ?_⟩
    · simp [visit_all, poly_list.begin, hf, hl, iterator.ctor, end_eq, visit_loop_end]
    · simp [visit_all_post, poly_list.begin, hf, hl, iterator.ctor, end_eq,
        visit_loop_post_end]
    · simp [poly_list.empty, hl]
    · simp [poly_list.begin, hf, hl, iterator.ctor, end_eq, iterator.eq]
  · have hb := inv_buffer_of_items h hne
    have hl : l.last_used_entry ≠ 0 := fun hh => hne ((inv_last_zero h).mp hh)
    have hf := inv_first_entry h hne
    have hle := last_entry_le_end l.buffer items hne
    have hfuel := length_le_fuel l.buffer items hne
    have hl1 : (l.last_used_entry != 0) = true := bne_iff_ne.mpr hl
    have hl2 : (l.last_used_entry == 0) = false := beq_eq_false_iff_ne.mpr hl
    have hb1 : (l.buffer != 0) = true := bne_iff_ne.mpr hb
    have hb2 : (l.buffer == 0) = false := beq_eq_false_iff_ne.mpr hb
    have hbegin : l.begin = Except.ok ⟨l.buffer, last_entry_of l.buffer items⟩ := by
      simp only [poly_list.begin, hf, iterator.ctor, hl1, Bool.true_or, pl_check_true,
        pl_ok_bind, pl_pure]
      rw [h.last]
    refine ⟨?_, ?_, ?_, ?_⟩
    · simp only [visit_all, hbegin, pl_ok_bind, end_eq, h.last]
      rw [visit_loop_spec items w l.buffer _ [] h.chain hne hb hfuel]
      rfl
    · simp only [visit_all_post, hbegin, pl_ok_bind, end_eq, h.last]
      rw [visit_loop_post_spec items w l.buffer _ [] h.chain hne hb hfuel]
      rfl
    · simp [poly_list.empty, hl2, hb1, hne]
    · simp [hbegin, end_eq, iterator.eq, hle.1, hb2, hne]

end PolyList

namespace PolyList

/-! ## Runs from the empty list -/

theorem pl_ok_of_isOk {α : Type} {r : Res α} (h : r.isOk = true) : ∃ x, r = Except.ok x := by
  cases r with
  | error e => cases h
  | ok x => exact ⟨x, rfl⟩

theorem pl_ok_of_exits {r : Res (World × poly_list × List Exit)} {es : List Exit}
    (h : r.toOption.map (fun x => x.2.2) = some es) : ∃ w l, r = Except.ok (w, l, es) := by
  cases r with
  | error e => cases h
  | ok x =>
    obtain ⟨w, l, es'⟩ := x
    have : es' = es := by simpa [Except.toOption] using h
    exact ⟨w, l, by rw [this]⟩

/-- What a sequence of calls of `emplace_back` that all return leaves in the list. -/
theorem contents_after_emplace :
    ∀ (calls : List (poly_functions × Nat × Option Nat × (Nat → Bool))) (vs : List (Nat × Nat))
      (exits : List Exit), exits.length = calls.length → (∀ e ∈ exits, e = Exit.returned) →
      contents_after vs
          (calls.map (fun c => Op.emplace_back c.1 (some c.2.1) c.2.2.1 c.2.2.2)) exits =
        vs ++ calls.map (fun c => (c.1.class_id, c.2.1)) := by
  intro calls
  induction calls with
  | nil =>
    intro vs exits _ _
    cases exits <;> simp [contents_after]
  | cons c calls ih =>
    intro vs exits hlen hret
    cases exits with
    | nil => simp at hlen
    | cons e exits =>
      have he : e = Exit.returned := hret e (List.mem_cons_self _ _)
      subst he
      rw [List.map_cons, contents_after, Op.contents,
        ih _ exits (by simpa using hlen) (fun e he => hret e (List.mem_cons_of_mem _ he))]
      simp

/-- The serial numbers of the elements of a list are distinct. -/
theorem inv_nodup {w : World} {l : poly_list} {items : List (poly_functions × Object)}
    (h : Inv w l items) : (items.map (fun x => x.2.serial)).Nodup := by
  have := (h.serials.nodup_iff).mpr (List.nodup_range _)
  exact (List.nodup_append.mp this).1

/-- The state that a sequence of calls reaches from the empty list, when it completes. -/
theorem run_from_empty {ops : List Op} {w : World} {l : poly_list} {exits : List Exit}
    (hwf : ∀ op ∈ ops, op.well_formed)
    (hrun : run World.empty {} ops = Except.ok (w, l, exits)) :
    ∃ items, Inv w l items ∧
      items.map (fun x => (x.2.class_id, x.2.value)) = contents_after [] ops exits ∧
      exits.length = ops.length := by
  obtain ⟨items, h1, h2, h3⟩ := run_keeps ops inv_empty hwf hrun
  exact ⟨items, h1, by simpa using h2, h3⟩

theorem map_map_pair (items : List (poly_functions × Object)) :
    (items.map (fun x => x.2)).map (fun o => (o.class_id, o.value)) =
      items.map (fun x => (x.2.class_id, x.2.value)) := by
  rw [List.map_map]; rfl

theorem map_map_serial (items : List (poly_functions × Object)) :
    (items.map (fun x => x.2)).map (fun o => o.serial) =
      items.map (fun x => x.2.serial) := by
  rw [List.map_map]; rfl

end PolyList

namespace PolyList

/-! ## `emplace_back` returns -/

/-- The first `emplace_back` of a list returns when `operator new[]` answers a valid array
and the constructor of the element returns. -/
theorem emplace_first_returns {w : World} {l : poly_list}
    {items : List (poly_functions × Object)} (h : Inv w l items) (hbs : l.buffer_size = 0)
    {f : poly_functions} (x b : Nat) (cf : Nat → Bool) (hpos : 0 < f.object_size)
    (hwf : f.object_size + sizeof_list_entry < 2 ^ 62) (hb0 : b ≠ 0)
    (hbN : b + (l.buffer_size + f.object_size + sizeof_list_entry) * 2 ≤ 2 ^ 62) :
    ∃ w' l', poly_list.emplace_back w l f (some x) (some b) cf =
      Except.ok (w', l', Exit.returned) := by
  have h16 := sizeof_list_entry_eq
  obtain ⟨hb, hi, hl, harr⟩ := inv_of_no_buffer h hbs
  subst hi
  have hN := @new_buffer_size_eq 0 f.object_size (by norm_num) hwf
  rw [Nat.zero_add] at hN
  rw [hbs, Nat.zero_add] at hbN
  have hbad : ¬ (b = 0 ∨ b + (f.object_size + sizeof_list_entry) * 2 > 2 ^ 62) := by
    rw [not_or]; exact ⟨hb0, by omega⟩
  obtain ⟨N, hNdef⟩ : ∃ N, N = (f.object_size + sizeof_list_entry) * 2 := ⟨_, rfl⟩
  rw [← hNdef] at hN hbN hbad
  obtain ⟨w1, hw1⟩ : ∃ w1 : World, w1 = { w with arrays := [(b, N)] } := ⟨_, rfl⟩
  have harr1 : (b, N) ∈ w1.arrays := by rw [hw1]; exact List.mem_singleton.mpr rfl
  have ha := @alloc_entry_spec w1 b N f.object_size
    [] trivial (by rw [chain_end]; omega) hb0 (by omega) hwf harr1
  rw [chain_end, if_pos (by omega), last_entry_of] at ha
  have hwf2 := write_functions_of_mem (w := w1.set_magic b magic_value) (a := b) f
    (show (b, N) ∈ (w1.set_magic b magic_value).arrays from harr1) (le_refl _) (by omega)
  have hin : ((w1.set_magic b magic_value).set_functions b f).in_array
      (b + sizeof_list_entry) f.object_size = true :=
    in_array_of_mem (b := b) (n := N) harr1 (by omega) (by omega)
  simp only [poly_list.emplace_back, grow, gt_iff_lt, hpos, decide_True, pl_check_true,
    pl_ok_bind, hbs, hl, hb, Nat.zero_add, hN, if_true, beq_self_eq_true, Bool.and_self]
  simp only [World.new_array, harr, List.any_nil, Bool.false_eq_true, or_false, hbad,
    if_false, pl_pure, pl_ok_bind]
  rw [← hw1]
  simp only [ha, pl_ok_bind, hb0, if_false, bne_iff_ne, ne_eq, not_false_eq_true,
    pl_check_of, decide_True, hwf2, list_entry.get_placeholder, World.construct, hin,
    if_true]
  simp only [pl_pure, pl_ok_bind, commit, bne_iff_ne, ne_eq, hb0, not_false_eq_true,
    decide_True, pl_check_of, not_true_eq_false, if_false, uncommitted_growth.dtor]
  exact ⟨_, _, rfl⟩

/-- The call `emplace_back` returns when the buffer has room for the new element and the
constructor of the element returns. -/
theorem emplace_room_returns {w : World} {l : poly_list}
    {items : List (poly_functions × Object)} (h : Inv w l items) (hbs : l.buffer_size ≠ 0)
    {f : poly_functions} (x : Nat) (nb : Option Nat) (cf : Nat → Bool)
    (hpos : 0 < f.object_size) (hwf : f.object_size + sizeof_list_entry < 2 ^ 62)
    (hroom : chain_end l.buffer items + sizeof_list_entry + f.object_size ≤
      l.buffer + l.buffer_size) :
    ∃ w' l', poly_list.emplace_back w l f (some x) nb cf =
      Except.ok (w', l', Exit.returned) := by
  have h16 := sizeof_list_entry_eq
  obtain ⟨hb, harr, hbound⟩ := inv_of_buffer h hbs
  have hmem : (l.buffer, l.buffer_size) ∈ w.arrays := by
    rw [harr]; exact List.mem_singleton.mpr rfl
  have ha := alloc_entry_spec (s := f.object_size) h.chain h.fits hb hbound hwf hmem
  rw [if_pos hroom, ← h.last] at ha
  obtain ⟨e, he⟩ : ∃ e, e = chain_end l.buffer items := ⟨_, rfl⟩
  rw [← he] at ha hroom
  have hge := chain_end_ge l.buffer items
  have he0 : e ≠ 0 := by omega
  have hwf2 := write_functions_of_mem (w := w.set_magic e magic_value) (a := e) f
    (show (l.buffer, l.buffer_size) ∈ (w.set_magic e magic_value).arrays from hmem)
    (by omega) (by omega)
  have hin : ((w.set_magic e magic_value).set_functions e f).in_array
      (e + sizeof_list_entry) f.object_size = true :=
    in_array_of_mem (b := l.buffer) (n := l.buffer_size) hmem (by omega) (by omega)
  simp only [poly_list.emplace_back, grow, gt_iff_lt, hpos, decide_True, pl_check_true,
    pl_ok_bind, hbs, if_false, pl_pure, ha, he0, bne_iff_ne, ne_eq, not_false_eq_true,
    pl_check_of, hwf2, list_entry.get_placeholder, World.construct, hin, if_true]
  simp only [pl_pure, pl_ok_bind, commit, bne_iff_ne, ne_eq, he0, not_false_eq_true,
    decide_True, pl_check_of, not_true_eq_false, if_false, uncommitted_growth.dtor]
  exact ⟨_, _, rfl⟩

/-- The call `emplace_back` returns when the buffer has to grow, `operator new[]` answers a
valid array, no copy constructor throws and the constructor of the element returns. -/
theorem emplace_grow_returns {w : World} {l : poly_list}
    {items : List (poly_functions × Object)} (h : Inv w l items) (hbs : l.buffer_size ≠ 0)
    {f : poly_functions} (x b : Nat) (cf : Nat → Bool)
    (hpos : 0 < f.object_size) (hwf : f.object_size + sizeof_list_entry < 2 ^ 62)
    (hroom : ¬ chain_end l.buffer items + sizeof_list_entry + f.object_size ≤
      l.buffer + l.buffer_size)
    (hb0 : b ≠ 0)
    (hbN : b + (l.buffer_size + f.object_size + sizeof_list_entry) * 2 ≤ 2 ^ 62)
    (hfar : b + (l.buffer_size + f.object_size + sizeof_list_entry) * 2 ≤ l.buffer ∨
      l.buffer + l.buffer_size ≤ b)
    (hcf : ∀ it ∈ items, cf it.2.serial = false) :
    ∃ w' l', poly_list.emplace_back w l f (some x) (some b) cf =
      Except.ok (w', l', Exit.returned) := by
  have h16 := sizeof_list_entry_eq
  obtain ⟨hb, harr, hbound⟩ := inv_of_buffer h hbs
  have hmem : (l.buffer, l.buffer_size) ∈ w.arrays := by
    rw [harr]; exact List.mem_singleton.mpr rfl
  have ha := alloc_entry_spec (s := f.object_size) h.chain h.fits hb hbound hwf hmem
  rw [if_neg hroom, ← h.last] at ha
  have hN := @new_buffer_size_eq l.buffer_size f.object_size (by omega) hwf
  obtain ⟨N, hNdef⟩ : ∃ N, N = (l.buffer_size + f.object_size + sizeof_list_entry) * 2 :=
    ⟨_, rfl⟩
  rw [← hNdef] at hN hbN hfar
  have hbad : ¬ (b = 0 ∨ b + N > 2 ^ 62 ∨
      (decide (b < l.buffer + l.buffer_size) && decide (l.buffer < b + N)) = true) := by
    simp only [not_or, Bool.and_eq_true, decide_eq_true_eq, not_and, not_lt, gt_iff_lt]
    refine ⟨hb0, by omega, fun _ => by omega⟩
  simp only [poly_list.emplace_back, grow, gt_iff_lt, hpos, decide_True, pl_check_true,
    pl_ok_bind, hbs, if_false, pl_pure, ha, if_true, hN]
  simp only [World.new_array, harr, List.any_cons, List.any_nil, Bool.or_false, hbad,
    if_false, pl_pure, pl_ok_bind]
  obtain ⟨w1, hw1⟩ : ∃ w1 : World,
      w1 = { w with arrays := [(b, N), (l.buffer, l.buffer_size)] } := ⟨_, rfl⟩
  rw [← hw1, h.last]
  have hN0 : l.buffer_size ≤ N := by omega
  have hfit := h.fits
  have hge := chain_end_ge l.buffer items
  have harr1 : w1.arrays = [(b, N), (l.buffer, l.buffer_size)] := by rw [hw1]
  have hmem1 : (b, N) ∈ w1.arrays := by rw [harr1]; exact List.mem_cons_self _ _
  have hchain1 : Chain w1 l.buffer items :=
    chain_congr (w := w) (fun _ _ _ => by rw [hw1]) (fun _ _ _ => by rw [hw1]) h.chain
  have hfirst : items ≠ [] → l.first_entry = l.buffer := fun hne => inv_first_entry h hne
  obtain ⟨w3, result, e, e1, e2, e4, e5, e6, e7, e8, e9, e10⟩ :=
    @copy_all_spec cf w1 items l.buffer b N
      l.first_entry hb0 (by omega) hb hchain1 hmem1 (by omega) (by omega)
      (by omega) hfirst
  have hc1 : w1.constructed = w.constructed := by rw [hw1]
  rw [hc1] at e4 e6 e8 e10
  have hde : items.takeWhile (fun x => !cf x.2.serial) = items := by
    rw [List.takeWhile_eq_self_iff]
    intro it hit
    rw [hcf it hit]; rfl
  rw [hde] at e e4 e6 e8 e10
  rw [if_pos rfl] at e
  obtain ⟨copies, hcopies⟩ : ∃ copies, copies = copies_of w.constructed items := ⟨_, rfl⟩
  rw [← hcopies] at e4 e8 e10
  have hcend := chain_end_copies_of b l.buffer w.constructed items
  rw [← hcopies] at hcend
  have hin_new : ∀ p, p ∈ placeholders b copies → b ≤ p ∧ p < b + N := by
    intro p hp
    have := mem_placeholders e8 hp
    omega
  simp only [e, pl_ok_bind]
  have hbs0 : 0 < l.buffer_size := Nat.pos_of_ne_zero hbs
  have hne : l.buffer ≠ b := by omega
  obtain ⟨m, hm⟩ : ∃ m, m = chain_end b copies := ⟨_, rfl⟩
  rw [← hm] at hcend
  have hcheck : result.new_last_used_entry = 0 →
      decide (l.buffer_size < size_t (f.object_size + sizeof_list_entry)) = true := by
    intro hz
    rw [e4, last_entry_of_eq_zero hb0] at hz
    have hi : items = [] := by
      cases items with
      | nil => rfl
      | cons x rest => rw [hcopies, copies_of] at hz; cases hz
    rw [size_t_of_lt (by omega), decide_eq_true_eq]
    rw [hi, chain_end] at hroom
    omega
  rw [pl_if_check _ _ _ hcheck, e1, e2, e4]
  have hmem3 : (b, N) ∈ w3.arrays := by rw [e5]; exact hmem1
  have ha3 := alloc_entry_spec (s := f.object_size) e8 (show chain_end b copies ≤ b + N
    from by omega) hb0 (by omega) hwf hmem3
  rw [← hm, if_pos (by omega)] at ha3
  have hm0 : m ≠ 0 := by omega
  have hmb : b ≤ m := by rw [hm]; exact chain_end_ge _ _
  have hwf3 := write_functions_of_mem (w := w3.set_magic m magic_value) (a := m) f
    (show (b, N) ∈ (w3.set_magic m magic_value).arrays from hmem3) hmb (by omega)
  have hin3 : ((w3.set_magic m magic_value).set_functions m f).in_array
      (m + sizeof_list_entry) f.object_size = true :=
    in_array_of_mem (b := b) (n := N) hmem3 (by omega) (by omega)
  simp only [ha3, pl_ok_bind, bne_iff_ne, ne_eq, hm0, not_false_eq_true, decide_True,
    pl_check_of, hwf3, list_entry.get_placeholder, World.construct, hin3, if_true]
  obtain ⟨w4, hw4⟩ : ∃ w4 : World, w4 = (w3.set_magic m magic_value).set_functions m f :=
    ⟨_, rfl⟩
  rw [← hw4]
  have hO3 : ∀ p, l.buffer ≤ p → p < l.buffer + l.buffer_size →
      w3.objects p = w.objects p := by
    intro p hp1 hp2
    rw [e10 p (fun hh => by have := hin_new p hh; omega), hw1]
  have hE3 : ∀ p, l.buffer ≤ p → p < l.buffer + l.buffer_size →
      w3.entries p = w.entries p := by
    intro p hp1 hp2
    rw [e9 p (by omega), hw1]
  simp only [pl_pure, pl_ok_bind, commit, bne_iff_ne, ne_eq, hm0, hb0,
    not_false_eq_true, decide_True, pl_check_of, if_true, h.last]
  obtain ⟨w5, hw5⟩ : ∃ w5 : World,
      w5 = w4.put_object (m + sizeof_list_entry) f.class_id x := ⟨_, rfl⟩
  rw [← hw5]
  have hO5 : ∀ p, p ≠ m + sizeof_list_entry → w5.objects p = w3.objects p := by
    intro p hp
    rw [hw5, put_object_objects_other _ _ _ _ hp, hw4]; rfl
  have hE5 : ∀ p, p ≠ m → w5.entries p = w3.entries p := by
    intro p hp
    rw [hw5, put_object_entries, hw4, set_functions_entries_other _ _ _ hp,
      set_magic_entries_other _ _ _ hp]
  have hchain5 : Chain w5 l.buffer items := by
    apply chain_congr (w := w) _ _ h.chain
    · intro y hy1 hy2
      rw [hE5 y (by omega), hE3 y hy1 (by omega)]
    · intro y hy1 hy2
      rw [hO5 y (by omega), hO3 y hy1 (by omega)]
  obtain ⟨w6, d0, d1, -⟩ := @destroy_all_spec _ _ l.first_entry _
    hchain5 hb hfirst
  have harr5 : w5.arrays = [(b, N), (l.buffer, l.buffer_size)] := by
    rw [hw5, put_object_arrays, hw4, set_functions_arrays, set_magic_arrays, e5, harr1]
  have hfind : w6.arrays.find? (fun bn => bn.1 == l.buffer) =
      some (l.buffer, l.buffer_size) := by
    rw [d1, harr5]; simp [Ne.symm hne]
  obtain ⟨w7, g0, -⟩ := delete_array_spec hb hfind
  simp only [d0, pl_ok_bind, g0, uncommitted_growth.dtor, ne_eq, not_true_eq_false,
    if_false, pl_pure]
  exact ⟨_, _, rfl⟩

/-- The call `emplace_back` returns when `operator new[]` answers an array that is not
null, lies below `2 ^ 62` and away from the buffer of the list, no copy constructor throws
and the constructor of the element returns. -/
theorem emplace_back_returns {w : World} {l : poly_list}
    {items : List (poly_functions × Object)} (h : Inv w l items)
    {f : poly_functions} (x b : Nat) (cf : Nat → Bool)
    (hpos : 0 < f.object_size) (hwf : f.object_size + sizeof_list_entry < 2 ^ 62)
    (hb0 : b ≠ 0)
    (hbN : b + (l.buffer_size + f.object_size + sizeof_list_entry) * 2 ≤ 2 ^ 62)
    (hfar : b + (l.buffer_size + f.object_size + sizeof_list_entry) * 2 ≤ l.buffer ∨
      l.buffer + l.buffer_size ≤ b)
    (hcf : ∀ it ∈ items, cf it.2.serial = false) :
    ∃ w' l', poly_list.emplace_back w l f (some x) (some b) cf =
      Except.ok (w', l', Exit.returned) := by
  by_cases hbs : l.buffer_size = 0
  · exact emplace_first_returns h hbs x b cf hpos hwf hb0 hbN
  · by_cases hroom : chain_end l.buffer items + sizeof_list_entry + f.object_size ≤
        l.buffer + l.buffer_size
    · exact emplace_room_returns h hbs x _ cf hpos hwf hroom
    · exact emplace_grow_returns h hbs x b cf hpos hwf hroom hb0 hbN hfar hcf

theorem pl_ok_of_list {r : Res (World × poly_list × List Exit)} {l0 : poly_list}
    {es : List Exit} (h : r.toOption.map (fun x => x.2) = some (l0, es)) :
    ∃ w, r = Except.ok (w, l0, es) := by
  cases r with
  | error e => cases h
  | ok x =>
    obtain ⟨w, l, es'⟩ := x
    have h2 : (l, es') = (l0, es) := by simpa [Except.toOption] using h
    cases h2
    exact ⟨w, rfl⟩

end PolyList

namespace PolyList

/-! ## Claims on `poly_list` -/

/-- C33 (defect in the code): `emplace_back` does not give the strong exception guarantee
when the buffer grows and the constructor of the new element throws. Failing input: a
list that holds one element of 8 bytes, in its first buffer of 48 bytes at 1000;
`emplace_back` of an element of 40 bytes, which needs a new buffer, given at 5000, and
whose constructor throws. `grow` copies the element to 5000 and returns a `result` whose
`new_last_used_entry` is already the entry 5024 of the new element, with no object in its
placeholder 5040; the rollback in `~uncommitted_growth` then runs `destroy_all` up to that
entry, and calls `id()` and the destructor on the element that was not constructed: the
call has no defined outcome. The same call with a constructor that returns completes. -/
theorem C33_rollback_of_growth_runs_on_failed_element :
    (run World.empty {}
        [Op.emplace_back ⟨8, 3⟩ (some 7) (some 1000) (fun _ => false)]).toOption.map
      (fun r => (r.2.1, r.2.2)) = some (⟨48, 1000, 1000⟩, [Exit.returned]) ∧
    (do
      let (w, l, _) ← run World.empty {}
        [Op.emplace_back ⟨8, 3⟩ (some 7) (some 1000) (fun _ => false)]
      let (w, _, growth) ← grow w l 40 ⟨40, 1⟩ (some 5000) (fun _ => false)
      pure (growth, (w.objects 5016).map (fun o => o.value), w.objects 5040)) =
      Except.ok (some ⟨5040, 5000, 208, 5024⟩, some 7, none) ∧
    (do
      let (w, l, _) ← run World.empty {}
        [Op.emplace_back ⟨8, 3⟩ (some 7) (some 1000) (fun _ => false)]
      let (w, _, _) ← grow w l 40 ⟨40, 1⟩ (some 5000) (fun _ => false)
      w.id (list_entry.get_object 5024)) = Except.error Fault.invalid ∧
    (do
      let (w, l, _) ← run World.empty {}
        [Op.emplace_back ⟨8, 3⟩ (some 7) (some 1000) (fun _ => false)]
      let (w, _, _) ← grow w l 40 ⟨40, 1⟩ (some 5000) (fun _ => false)
      uncommitted_growth.dtor w ⟨5040, 5000, 208, 5024⟩) = Except.error Fault.invalid ∧
    run World.empty {}
        [Op.emplace_back ⟨8, 3⟩ (some 7) (some 1000) (fun _ => false),
          Op.emplace_back ⟨40, 1⟩ none (some 5000) (fun _ => false)] =
      Except.error Fault.invalid ∧
    (run World.empty {}
        [Op.emplace_back ⟨8, 3⟩ (some 7) (some 1000) (fun _ => false),
          Op.emplace_back ⟨40, 1⟩ (some 8) (some 5000) (fun _ => false)]).toOption.map
      (fun r => (r.2.1, r.2.2)) = some (⟨208, 5000, 5024⟩, [Exit.returned, Exit.returned]) :=
  ⟨rfl, rfl, rfl, rfl, rfl, rfl⟩

/-- C34: after a sequence of calls of `emplace_back` that all return, for elements of any
sizes, with or without growth of the buffer, both loops of `test_iterator` return, and
have visited the elements that were inserted, each once, in the order of insertion;
`empty()` is true and `begin() == end()` exactly when nothing was inserted. -/
theorem C34_iteration_visits_elements_in_insertion_order
    (calls : List (poly_functions × Nat × Option Nat × (Nat → Bool)))
    (w : World) (l : poly_list) (exits : List Exit)
    (hwf : ∀ c ∈ calls, c.1.object_size + sizeof_list_entry < 2 ^ 62)
    (hrun : run World.empty {}
      (calls.map (fun c => Op.emplace_back c.1 (some c.2.1) c.2.2.1 c.2.2.2)) =
        Except.ok (w, l, exits))
    (hret : ∀ e ∈ exits, e = Exit.returned) :
    ∃ objs, visit_all w l = Except.ok objs ∧ visit_all_post w l = Except.ok objs ∧
      objs.map (fun o => (o.class_id, o.value)) = calls.map (fun c => (c.1.class_id, c.2.1)) ∧
      (objs.map (fun o => o.serial)).Nodup ∧
      l.empty = Except.ok calls.isEmpty ∧
      (do let b ← l.begin; let e ← poly_list.end_; b.eq e) = Except.ok calls.isEmpty := by
  have hwf' : ∀ op ∈ calls.map (fun c => Op.emplace_back c.1 (some c.2.1) c.2.2.1 c.2.2.2),
      op.well_formed := by
    intro op hop
    obtain ⟨c, hc, rfl⟩ := List.mem_map.mp hop
    exact hwf c hc
  obtain ⟨items, hinv, hc, hlen⟩ := run_from_empty hwf' hrun
  rw [List.length_map] at hlen
  rw [contents_after_emplace calls [] exits hlen hret, List.nil_append] at hc
  obtain ⟨v1, v2, v3, v4⟩ := visit_spec hinv
  have hnil : decide (items = []) = calls.isEmpty := by
    have h1 : items.length = calls.length := by
      have := congrArg List.length hc
      simpa using this
    cases items <;> cases calls <;> simp at h1 ⊢
  rw [hnil] at v3 v4
  refine ⟨items.map (fun x => x.2), v1, v2, ?_, ?_, v3, v4⟩
  · rw [map_map_pair]; exact hc
  · rw [map_map_serial]; exact inv_nodup hinv

/-- Witness for C34: an element of 8 bytes; an element of 40 bytes, for which the buffer
grows; an element of 8 bytes, for which the new buffer has room. -/
theorem C34_iteration_visits_elements_in_insertion_order_witness :
    ∃ w l objs,
      run World.empty {} [Op.emplace_back ⟨8, 3⟩ (some 7) (some 1000) (fun _ => false),
        Op.emplace_back ⟨40, 1⟩ (some 8) (some 5000) (fun _ => false),
        Op.emplace_back ⟨8, 3⟩ (some 9) none (fun _ => false)] =
          Except.ok (w, l, [Exit.returned, Exit.returned, Exit.returned]) ∧
      visit_all w l = Except.ok objs ∧ visit_all_post w l = Except.ok objs ∧
      objs.map (fun o => (o.class_id, o.value)) = [(3, 7), (1, 8), (3, 9)] ∧
      l.empty = Except.ok false := by
  obtain ⟨w, l, h⟩ := pl_ok_of_exits (by decide : (run World.empty {}
    [Op.emplace_back ⟨8, 3⟩ (some 7) (some 1000) (fun _ => false),
      Op.emplace_back ⟨40, 1⟩ (some 8) (some 5000) (fun _ => false),
      Op.emplace_back ⟨8, 3⟩ (some 9) none (fun _ => false)]).toOption.map
        (fun x => x.2.2) = some [Exit.returned, Exit.returned, Exit.returned])
  obtain ⟨objs, h1, h2, h3, -, h5, -⟩ := C34_iteration_visits_elements_in_insertion_order
    [(⟨8, 3⟩, 7, some 1000, fun _ => false), (⟨40, 1⟩, 8, some 5000, fun _ => false),
      (⟨8, 3⟩, 9, none, fun _ => false)] w l _
    (by simp [sizeof_list_entry]) h (by simp)
  exact ⟨w, l, objs, h, h1, h2, h3, h5⟩

/-- C35: in the state that a completed sequence of calls of `emplace_back` and `clear()`
reaches, the list holds what the calls that returned have put into it, and every object
constructed so far, by a constructor or by a copy constructor, is an element of the list or
has been destroyed, exactly once; the destructor of the list returns, destroys the elements
and gives the buffer back, so that every object constructed has been destroyed exactly
once; a further call that returns destroys nothing, or exactly the elements of the list,
when it is `clear()` or when it replaces the buffer; `clear()` returns and leaves the list
empty with the same buffer. A following `emplace_back`, when `operator new[]` answers an
array that is not null, lies below `2 ^ 62` and away from the buffer, and the constructor
of the element returns, returns and leaves its element as the only element, in the first
entry of the buffer; and so does every following `emplace_back` that returns. -/
theorem C35_construction_and_destruction_are_balanced
    (ops : List Op) (w : World) (l : poly_list) (exits : List Exit)
    (hwf : ∀ op ∈ ops, op.well_formed)
    (hrun : run World.empty {} ops = Except.ok (w, l, exits)) :
    ∃ objs, visit_all w l = Except.ok objs ∧
      objs.map (fun o => (o.class_id, o.value)) = contents_after [] ops exits ∧
      (objs.map (fun o => o.serial) ++ w.destroyed).Perm (List.range w.constructed) ∧
      (∃ w_end, poly_list.dtor w l = Except.ok (w_end, {}) ∧ w_end.arrays = [] ∧
        (∀ p, w_end.objects p = none) ∧ w_end.constructed = w.constructed ∧
        w_end.destroyed = (objs.map (fun o => o.serial)).reverse ++ w.destroyed ∧
        w_end.destroyed.Perm (List.range w_end.constructed)) ∧
      (∀ op w' l', op.well_formed → step w l op = Except.ok (w', l', Exit.returned) →
        w'.destroyed = w.destroyed ∨
          ((op = Op.clear ∨ l'.buffer ≠ l.buffer) ∧
            w'.destroyed = (objs.map (fun o => o.serial)).reverse ++ w.destroyed)) ∧
      (∃ w1, poly_list.clear w l = Except.ok (w1, { l with last_used_entry := 0 }) ∧
        poly_list.empty { l with last_used_entry := 0 } = Except.ok true ∧
        visit_all w1 { l with last_used_entry := 0 } = Except.ok [] ∧
        (∀ f x b cf, 0 < f.object_size → f.object_size + sizeof_list_entry < 2 ^ 62 →
          b ≠ 0 → b + (l.buffer_size + f.object_size + sizeof_list_entry) * 2 ≤ 2 ^ 62 →
          (b + (l.buffer_size + f.object_size + sizeof_list_entry) * 2 ≤ l.buffer ∨
            l.buffer + l.buffer_size ≤ b) →
          ∃ w2 l2 o, poly_list.emplace_back w1 { l with last_used_entry := 0 } f (some x)
              (some b) cf = Except.ok (w2, l2, Exit.returned) ∧
            visit_all w2 l2 = Except.ok [o] ∧ o.class_id = f.class_id ∧ o.value = x ∧
            l2.last_used_entry = l2.buffer) ∧
        ∀ f x nb cf w2 l2, f.object_size + sizeof_list_entry < 2 ^ 62 →
          poly_list.emplace_back w1 { l with last_used_entry := 0 } f (some x) nb cf =
            Except.ok (w2, l2, Exit.returned) →
          ∃ o, visit_all w2 l2 = Except.ok [o] ∧ o.class_id = f.class_id ∧ o.value = x ∧
            l2.last_used_entry = l2.buffer) := by
  obtain ⟨items, hinv, hcont, -⟩ := run_from_empty hwf hrun
  obtain ⟨v1, -, -, -⟩ := visit_spec hinv
  refine ⟨items.map (fun x => x.2), v1, ?_, ?_, ?_, ?_, ?_⟩
  · rw [map_map_pair]; exact hcont
  · rw [map_map_serial]; exact hinv.serials
  · rw [map_map_serial]; exact dtor_spec hinv
  · intro op w' l' hop hs
    rw [map_map_serial]
    obtain ⟨items', -, -, -, hret⟩ := step_keeps hinv hop hs
    exact hret rfl
  · obtain ⟨w1, c0, c1, -, -⟩ := clear_spec hinv
    obtain ⟨u1, -, u3, -⟩ := visit_spec c1
    have hsole : ∀ f x nb cf w2 l2, f.object_size + sizeof_list_entry < 2 ^ 62 →
        poly_list.emplace_back w1 { l with last_used_entry := 0 } f (some x) nb cf =
          Except.ok (w2, l2, Exit.returned) →
        ∃ o, visit_all w2 l2 = Except.ok [o] ∧ o.class_id = f.class_id ∧ o.value = x ∧
          l2.last_used_entry = l2.buffer := by
      intro f x nb cf w2 l2 hf hs
      obtain ⟨items2, hinv2, hcont, -, -⟩ := emplace_back_keeps c1 hf hs
      obtain ⟨t1, -, -, -⟩ := visit_spec hinv2
      have hcont2 : items2.map (fun x => (x.2.class_id, x.2.value)) = [(f.class_id, x)] :=
        hcont
      cases items2 with
      | nil => simp at hcont2
      | cons it rest =>
        cases rest with
        | cons it2 rest2 => simp at hcont2
        | nil =>
          simp only [List.map_cons, List.map_nil, List.cons.injEq, Prod.mk.injEq,
            and_true] at hcont2
          exact ⟨it.2, t1, hcont2.1, hcont2.2, hinv2.last⟩
    refine ⟨w1, c0, u3, u1, ?_, hsole⟩
    intro f x b cf hpos hf hb0 hbN hfar
    obtain ⟨w2, l2, hs⟩ := emplace_back_returns c1 x b cf hpos hf hb0 hbN hfar
      (fun it hit => by simp at hit)
    obtain ⟨o, ho⟩ := hsole f x (some b) cf w2 l2 hf hs
    exact ⟨w2, l2, o, hs, ho⟩

/-- Witness for C35: an element of 8 bytes; an element of 40 bytes, for which the buffer
grows; `clear()`; an element of 408 bytes, for which the buffer grows again. The four
calls return, the list then holds the last element alone, in a buffer of 1264 bytes at
9000; the destructor returns and leaves nothing; and `clear()` followed by `emplace_back`
of an element of 8 bytes, which fits, leaves that element alone. -/
theorem C35_construction_and_destruction_are_balanced_witness :
    ∃ w objs w_end w1 w2 l2 o,
      run World.empty {} [Op.emplace_back ⟨8, 3⟩ (some 7) (some 1000) (fun _ => false),
        Op.emplace_back ⟨40, 1⟩ (some 8) (some 5000) (fun _ => false), Op.clear,
        Op.emplace_back ⟨408, 2⟩ (some 9) (some 9000) (fun _ => false)] =
          Except.ok (w, ⟨1264, 9000, 9000⟩,
            [Exit.returned, Exit.returned, Exit.returned, Exit.returned]) ∧
      visit_all w ⟨1264, 9000, 9000⟩ = Except.ok objs ∧
      objs.map (fun o => (o.class_id, o.value)) = [(2, 9)] ∧
      poly_list.dtor w ⟨1264, 9000, 9000⟩ = Except.ok (w_end, {}) ∧ w_end.arrays = [] ∧
      w_end.destroyed.Perm (List.range w_end.constructed) ∧
      poly_list.clear w ⟨1264, 9000, 9000⟩ = Except.ok (w1, ⟨1264, 9000, 0⟩) ∧
      poly_list.emplace_back w1 ⟨1264, 9000, 0⟩ ⟨8, 3⟩ (some 5) (some 20000)
        (fun _ => false) = Except.ok (w2, l2, Exit.returned) ∧
      visit_all w2 l2 = Except.ok [o] ∧ o.class_id = 3 ∧ o.value = 5 := by
  obtain ⟨w, h⟩ := pl_ok_of_list (by decide : (run World.empty {}
    [Op.emplace_back ⟨8, 3⟩ (some 7) (some 1000) (fun _ => false),
      Op.emplace_back ⟨40, 1⟩ (some 8) (some 5000) (fun _ => false), Op.clear,
      Op.emplace_back ⟨408, 2⟩ (some 9) (some 9000) (fun _ => false)]).toOption.map
        (fun x => x.2) = some (⟨1264, 9000, 9000⟩,
          [Exit.returned, Exit.returned, Exit.returned, Exit.returned]))
  obtain ⟨objs, v, hc, -, ⟨w_end, d1, d2, -, -, -, d6⟩, -, ⟨w1, c0, -, -, hnew, -⟩⟩ :=
    C35_construction_and_destruction_are_balanced _ w _ _
      (by simp [Op.well_formed, sizeof_list_entry]) h
  obtain ⟨w2, l2, o, e1, e2, e3, e4, -⟩ := hnew ⟨8, 3⟩ 5 20000 (fun _ => false)
    (by decide) (by decide) (by decide) (by decide) (by decide)
  exact ⟨w, objs, w_end, w1, w2, l2, o, h, v, hc, d1, d2, d6, c0, e1, e2, e3, e4⟩

end PolyList
